import Mathlib

/-!
# Containers: the balanced tree engine (`Map/Tree.h`), the list (`List/List.h`),
the iterator registry (`ContainerUtilities.h`) and the hash table
(`Unordered Map/Hash.h`)

Shallow embedding of `mylib::TreeValue` / `mylib::Tree`, of
`mylib::ListValue` / `mylib::List`, of `ContainerBase` / `IteratorBase` and of
`mylib::Hash`.  Nodes live in a memory addressed by natural numbers; every
field of `TreeNode` and of `ListNode` is one map from addresses to field
values, so the C++ statement `x->left = y` becomes an update of the `left`
map at `x`.  The registry of iterators is a memory of its own, with the
fields of the proxies and of the iterator records.  Loops take a fuel
argument and answer `none` when it runs out.  A `NodePtr` that may be null is
an `Option`; going through a null pointer has no result.  The hash table is
stated over the operations on `float` that it uses, which are parameters of
the model.

The first part of the file holds the definitions: the embedding of the source,
then the notions used to state and prove the properties (shapes, the
representation predicate, the tree invariant, the ring invariant of the
list, the invariant of the registry).  The second part holds the theorems.
-/

namespace mylib

variable {K V T : Type}

/-- Pointwise update of a field map: `upd f a v` is `f` with `f a = v`. -/
def upd {α : Type} (f : Nat → α) (a : Nat) (v : α) : Nat → α :=
  fun b => if b = a then v else f b

/-- Child slot of a parent (`enum class NodeChild`). -/
inductive NodeChild where
  | left
  | right
  deriving DecidableEq, Repr

/-- Insertion point (`struct NodeID`): a parent and one of its child slots. -/
structure NodeID where
  parent : Nat
  child : NodeChild
  deriving DecidableEq, Repr

/-- Result of the descent (`struct TreeFindResult`). -/
structure TreeFindResult where
  location : NodeID
  duplicate : Bool
  deriving DecidableEq, Repr

/-- Rotation selected by `checkBalance` (`enum class Rotate`). -/
inductive Rotate where
  | smallLeft
  | bigLeft
  | smallRight
  | bigRight
  | none
  deriving DecidableEq, Repr

/-- Result of `checkBalance` (`struct CheckBalanceResult`). -/
structure CheckBalanceResult where
  node : Nat
  rotate : Rotate
  deriving DecidableEq, Repr

/-- Node memory of one allocator: the fields of `TreeNode`, one map each, the
next address the allocator hands out and the addresses given back to it. -/
structure TreeMem (K V : Type) where
  left : Nat → Nat
  parent : Nat → Nat
  right : Nat → Nat
  value : Nat → K × V
  is_nil : Nat → Bool
  height : Nat → Nat
  next : Nat
  freed : List Nat

/-- Iterator record of the ownership chain: the record and the node it denotes. -/
structure IteratorRecord where
  id : Nat
  ptr : Nat
  deriving DecidableEq, Repr

/-- The members of `TreeValue` next to the node memory: the head sentinel, the
size and the chain of registered iterator records (`proxy->first` onwards). -/
structure TreeValue where
  head : Nat
  size : Nat
  proxy : List IteratorRecord
  deriving DecidableEq, Repr

/-- `Traits::getKeyFromValue` of the value stored in a node. -/
def TreeMem.key (m : TreeMem K V) (node : Nat) : K := (m.value node).1

/-- `TreeNode::createHeadNode`: a fresh sentinel whose three links denote itself. -/
def TreeMem.createHeadNode (m : TreeMem K V) : TreeMem K V × Nat :=
  let new_head_node := m.next
  ({ m with
      left := upd m.left new_head_node new_head_node
      parent := upd m.parent new_head_node new_head_node
      right := upd m.right new_head_node new_head_node
      is_nil := upd m.is_nil new_head_node true
      height := upd m.height new_head_node 0
      next := m.next + 1 }, new_head_node)

/-- `TreeNode::createNode`: a fresh real node of height 1 whose links denote the head. -/
def TreeMem.createNode (m : TreeMem K V) (head_node : Nat) (value : K × V) : TreeMem K V × Nat :=
  let new_node := m.next
  ({ m with
      left := upd m.left new_node head_node
      parent := upd m.parent new_node head_node
      right := upd m.right new_node head_node
      value := upd m.value new_node value
      is_nil := upd m.is_nil new_node false
      height := upd m.height new_node 1
      next := m.next + 1 }, new_node)

/-- `TreeNode::freeNode`: the address goes back to the allocator. -/
def TreeMem.freeNode (m : TreeMem K V) (node : Nat) : TreeMem K V :=
  { m with freed := node :: m.freed }

/-- Memory before any allocation. -/
def TreeMem.init [Inhabited K] [Inhabited V] : TreeMem K V :=
  { left := fun _ => 0, parent := fun _ => 0, right := fun _ => 0,
    value := fun _ => default, is_nil := fun _ => false, height := fun _ => 0,
    next := 0, freed := [] }

/-- `TreeValue::whichChild`. -/
def whichChild (m : TreeMem K V) (node : Nat) : NodeChild :=
  if m.left (m.parent node) = node then NodeChild.left else NodeChild.right

/-- `TreeValue::minInSubTree`. -/
def minInSubTree (m : TreeMem K V) : Nat → Nat → Option Nat
  | 0, _ => none
  | fuel + 1, node =>
    if !m.is_nil (m.left node) then minInSubTree m fuel (m.left node) else some node

/-- `TreeValue::maxInSubTree`. -/
def maxInSubTree (m : TreeMem K V) : Nat → Nat → Option Nat
  | 0, _ => none
  | fuel + 1, node =>
    if !m.is_nil (m.right node) then maxInSubTree m fuel (m.right node) else some node

/-- `TreeValue::differenceHeights`: stored height of the right child minus that of
the left child, as a signed number. -/
def differenceHeights (m : TreeMem K V) (node : Nat) : Int :=
  (m.height (m.right node) : Int) - (m.height (m.left node) : Int)

/-- `TreeValue::changeHeights`: climb from `node`, storing `1 + max` of the
children's stored heights, until a node keeps its height or the sentinel is met. -/
def changeHeights : Nat → TreeMem K V → Nat → Option (TreeMem K V)
  | 0, _, _ => none
  | fuel + 1, m, node =>
    if m.is_nil node then some m
    else
      let max_height :=
        if m.height (m.left node) > m.height (m.right node) then m.height (m.left node) + 1
        else m.height (m.right node) + 1
      if max_height ≠ m.height node then
        changeHeights fuel { m with height := upd m.height node max_height } (m.parent node)
      else some m

/-- `TreeValue::checkBalance`: the first node from `node` upwards whose stored
height difference is 2 or -2, with the rotation that case selects. -/
def checkBalance (m : TreeMem K V) : Nat → Nat → Option CheckBalanceResult
  | 0, _ => none
  | fuel + 1, node =>
    if m.is_nil node then some ⟨node, Rotate.none⟩
    else if differenceHeights m node = 2 then
      if differenceHeights m (m.right node) ≥ 0 then some ⟨node, Rotate.smallLeft⟩
      else some ⟨node, Rotate.bigLeft⟩
    else if differenceHeights m node = -2 then
      if differenceHeights m (m.left node) ≤ 0 then some ⟨node, Rotate.smallRight⟩
      else some ⟨node, Rotate.bigRight⟩
    else checkBalance m fuel (m.parent node)

/-- `TreeValue::leftRotate`. -/
def leftRotate (m : TreeMem K V) (head node : Nat) : TreeMem K V :=
  let right_child := m.right node
  let m1 : TreeMem K V :=
    if m.is_nil (m.parent node) then { m with parent := upd m.parent head right_child }
    else if whichChild m node = NodeChild.left then
      { m with left := upd m.left (m.parent node) right_child }
    else { m with right := upd m.right (m.parent node) right_child }
  let m2 : TreeMem K V := { m1 with right := upd m1.right node (m1.left right_child) }
  let m3 : TreeMem K V :=
    if !m2.is_nil (m2.right node) then { m2 with parent := upd m2.parent (m2.right node) node }
    else m2
  let m4 : TreeMem K V := { m3 with left := upd m3.left right_child node }
  let m5 : TreeMem K V := { m4 with parent := upd m4.parent right_child (m4.parent node) }
  let m6 : TreeMem K V := { m5 with parent := upd m5.parent node right_child }
  let m7 : TreeMem K V := { m6 with height := upd m6.height node (m6.height (m6.right node) + 1) }
  { m7 with height := upd m7.height right_child (m7.height node + 1) }

/-- `TreeValue::rightRotate`. -/
def rightRotate (m : TreeMem K V) (head node : Nat) : TreeMem K V :=
  let left_child := m.left node
  let m1 : TreeMem K V :=
    if m.is_nil (m.parent node) then { m with parent := upd m.parent head left_child }
    else if whichChild m node = NodeChild.left then
      { m with left := upd m.left (m.parent node) left_child }
    else { m with right := upd m.right (m.parent node) left_child }
  let m2 : TreeMem K V := { m1 with left := upd m1.left node (m1.right left_child) }
  let m3 : TreeMem K V :=
    if !m2.is_nil (m2.left node) then { m2 with parent := upd m2.parent (m2.left node) node }
    else m2
  let m4 : TreeMem K V := { m3 with right := upd m3.right left_child node }
  let m5 : TreeMem K V := { m4 with parent := upd m4.parent left_child (m4.parent node) }
  let m6 : TreeMem K V := { m5 with parent := upd m5.parent node left_child }
  let m7 : TreeMem K V := { m6 with height := upd m6.height node (m6.height (m6.left node) + 1) }
  { m7 with height := upd m7.height left_child (m7.height node + 1) }

/-- `TreeValue::balanceTree`: one `checkBalance`, the rotation it selects, then
`changeHeights` from the grandparent of the rotated node. -/
def balanceTree (fuel : Nat) (m : TreeMem K V) (head node : Nat) : Option (TreeMem K V) :=
  match checkBalance m fuel node with
  | Option.none => Option.none
  | some result =>
    match result.rotate with
    | Rotate.none => some m
    | Rotate.smallLeft =>
      let m1 := leftRotate m head result.node
      changeHeights fuel m1 (m1.parent (m1.parent result.node))
    | Rotate.bigLeft =>
      let m1 := leftRotate (rightRotate m head (m.right result.node)) head result.node
      changeHeights fuel m1 (m1.parent (m1.parent result.node))
    | Rotate.smallRight =>
      let m1 := rightRotate m head result.node
      changeHeights fuel m1 (m1.parent (m1.parent result.node))
    | Rotate.bigRight =>
      let m1 := rightRotate (leftRotate m head (m.left result.node)) head result.node
      changeHeights fuel m1 (m1.parent (m1.parent result.node))

/-- `TreeValue::insertNode`. -/
def insertNode (fuel : Nat) (m : TreeMem K V) (t : TreeValue) (loc : NodeID) (new_node : Nat) :
    Option (TreeMem K V × TreeValue × Nat) :=
  let m1 : TreeMem K V := { m with parent := upd m.parent new_node loc.parent }
  let t1 : TreeValue := { t with size := t.size + 1 }
  if loc.parent = t.head then
    let m2 : TreeMem K V := { m1 with left := upd m1.left t.head new_node }
    let m3 : TreeMem K V := { m2 with parent := upd m2.parent t.head new_node }
    let m4 : TreeMem K V := { m3 with right := upd m3.right t.head new_node }
    some (m4, t1, new_node)
  else
    let m2 : TreeMem K V :=
      if loc.child = NodeChild.left then
        let m' : TreeMem K V := { m1 with left := upd m1.left loc.parent new_node }
        if loc.parent = m'.left t.head then { m' with left := upd m'.left t.head new_node } else m'
      else
        let m' : TreeMem K V := { m1 with right := upd m1.right loc.parent new_node }
        if loc.parent = m'.right t.head then { m' with right := upd m'.right t.head new_node }
        else m'
    match changeHeights fuel m2 (m2.parent new_node) with
    | Option.none => Option.none
    | some m3 =>
      match balanceTree fuel m3 t.head new_node with
      | Option.none => Option.none
      | some m4 => some (m4, t1, new_node)

/-- `Tree::findPlaceForNode`, the loop from `try_node` with the result so far. -/
def findPlaceLoop (comp : K → K → Bool) (m : TreeMem K V) (key : K) :
    Nat → TreeFindResult → Nat → Option TreeFindResult
  | 0, _, _ => none
  | fuel + 1, result, try_node =>
    if m.is_nil try_node then some result
    else if comp (m.key try_node) key then
      findPlaceLoop comp m key fuel ⟨⟨try_node, NodeChild.right⟩, result.duplicate⟩
        (m.right try_node)
    else if comp key (m.key try_node) then
      findPlaceLoop comp m key fuel ⟨⟨try_node, NodeChild.left⟩, result.duplicate⟩
        (m.left try_node)
    else some ⟨⟨try_node, result.location.child⟩, true⟩

/-- `Tree::findPlaceForNode`. -/
def findPlaceForNode (comp : K → K → Bool) (fuel : Nat) (m : TreeMem K V) (t : TreeValue)
    (key : K) : Option TreeFindResult :=
  findPlaceLoop comp m key fuel ⟨⟨m.parent t.head, NodeChild.right⟩, false⟩ (m.parent t.head)

/-- `Tree::createEmptyTree` on a default-constructed `TreeValue`. -/
def createEmptyTree (m : TreeMem K V) : TreeMem K V × TreeValue :=
  let r := m.createHeadNode
  (r.1, { head := r.2, size := 0, proxy := [] })

/-- `TreeValue::orphanPtr`: every record of the chain that denotes `node` is
detached; the others keep their order. -/
def orphanPtr (t : TreeValue) (node : Nat) : TreeValue :=
  { t with proxy := t.proxy.filter (fun it => it.ptr ≠ node) }

/-- `TreeValue::extractNode`. -/
def extractNode (fuel : Nat) (m : TreeMem K V) (t : TreeValue) (erased_node : Nat) :
    Option (TreeMem K V × TreeValue) :=
  let head := t.head
  let t1 : TreeValue := { t with size := t.size - 1 }
  let finish (m' : TreeMem K V) (balance_node : Nat) : Option (TreeMem K V × TreeValue) :=
    match changeHeights fuel m' balance_node with
    | Option.none => Option.none
    | some m1 =>
      match balanceTree fuel m1 head balance_node with
      | Option.none => Option.none
      | some m2 => some (m2, t1)
  if m.is_nil (m.left erased_node) && m.is_nil (m.right erased_node) then
    let balance_node := m.parent erased_node
    let m1 : TreeMem K V :=
      if m.is_nil (m.parent erased_node) then
        { m with left := upd m.left head head, parent := upd m.parent head head,
                 right := upd m.right head head }
      else if m.left (m.parent erased_node) = erased_node then
        let m' : TreeMem K V := { m with left := upd m.left (m.parent erased_node) head }
        if m'.left head = erased_node then
          { m' with left := upd m'.left head (m'.parent erased_node) }
        else m'
      else
        let m' : TreeMem K V := { m with right := upd m.right (m.parent erased_node) head }
        if m'.right head = erased_node then
          { m' with right := upd m'.right head (m'.parent erased_node) }
        else m'
    finish m1 balance_node
  else
    let replace? : Option Nat :=
      if differenceHeights m erased_node ≥ 0 then minInSubTree m fuel (m.right erased_node)
      else maxInSubTree m fuel (m.left erased_node)
    match replace? with
    | Option.none => Option.none
    | some replace_node =>
      let m1 : TreeMem K V :=
        if m.is_nil (m.parent erased_node) then { m with parent := upd m.parent head replace_node }
        else if m.left (m.parent erased_node) = erased_node then
          { m with left := upd m.left (m.parent erased_node) replace_node }
        else { m with right := upd m.right (m.parent erased_node) replace_node }
      let r : TreeMem K V × Nat :=
        if m1.parent replace_node ≠ erased_node then
          let m2 : TreeMem K V :=
            if m1.left (m1.parent replace_node) = replace_node then
              let m' : TreeMem K V :=
                { m1 with left := upd m1.left (m1.parent replace_node) (m1.right replace_node) }
              if !m'.is_nil (m'.right replace_node) then
                { m' with parent := upd m'.parent (m'.right replace_node) (m'.parent replace_node) }
              else m'
            else
              let m' : TreeMem K V :=
                { m1 with right := upd m1.right (m1.parent replace_node) (m1.left replace_node) }
              if !m'.is_nil (m'.left replace_node) then
                { m' with parent := upd m'.parent (m'.left replace_node) (m'.parent replace_node) }
              else m'
          let balance_node := m2.parent replace_node
          let m3 : TreeMem K V := { m2 with left := upd m2.left replace_node (m2.left erased_node) }
          let m4 : TreeMem K V :=
            if !m3.is_nil (m3.left replace_node) then
              { m3 with parent := upd m3.parent (m3.left replace_node) replace_node }
            else m3
          let m5 : TreeMem K V :=
            { m4 with right := upd m4.right replace_node (m4.right erased_node) }
          let m6 : TreeMem K V :=
            if !m5.is_nil (m5.right replace_node) then
              { m5 with parent := upd m5.parent (m5.right replace_node) replace_node }
            else m5
          ({ m6 with height := upd m6.height replace_node (m6.height erased_node) }, balance_node)
        else
          let m2 : TreeMem K V :=
            if m1.left (m1.parent replace_node) = replace_node then
              let m' : TreeMem K V :=
                { m1 with right := upd m1.right replace_node (m1.right erased_node) }
              if !m'.is_nil (m'.right replace_node) then
                { m' with parent := upd m'.parent (m'.right replace_node) replace_node }
              else m'
            else
              let m' : TreeMem K V :=
                { m1 with left := upd m1.left replace_node (m1.left erased_node) }
              if !m'.is_nil (m'.left replace_node) then
                { m' with parent := upd m'.parent (m'.left replace_node) replace_node }
              else m'
          (m2, replace_node)
      let m7 : TreeMem K V :=
        { r.1 with parent := upd r.1.parent replace_node (r.1.parent erased_node) }
      let m8 : TreeMem K V :=
        if m7.left head = erased_node then { m7 with left := upd m7.left head replace_node }
        else if m7.right head = erased_node then
          { m7 with right := upd m7.right head replace_node }
        else m7
      finish m8 r.2

/-- `Tree::emplace_`.  With an extractable key the descent comes first and a
node is built only for a new key; otherwise the node is built first and given
back to the allocator when its key is a duplicate. -/
def emplace_ (comp : K → K → Bool) (fuel : Nat) (extractable : Bool) (m : TreeMem K V)
    (t : TreeValue) (value : K × V) : Option (TreeMem K V × TreeValue × Nat × Bool) :=
  if extractable then
    match findPlaceForNode comp fuel m t value.1 with
    | Option.none => Option.none
    | some result =>
      if result.duplicate then some (m, t, result.location.parent, false)
      else
        let r := m.createNode t.head value
        match insertNode fuel r.1 t result.location r.2 with
        | Option.none => Option.none
        | some (m1, t1, node) => some (m1, t1, node, true)
  else
    let tmp_node := m.createNode t.head value
    match findPlaceForNode comp fuel tmp_node.1 t (tmp_node.1.key tmp_node.2) with
    | Option.none => Option.none
    | some result =>
      if result.duplicate then
        some (tmp_node.1.freeNode tmp_node.2, t, result.location.parent, false)
      else
        match insertNode fuel tmp_node.1 t result.location tmp_node.2 with
        | Option.none => Option.none
        | some (m1, t1, node) => some (m1, t1, node, true)

/-- `Tree::find`: the node holding `key`, or the head sentinel (`end()`). -/
def find (comp : K → K → Bool) (fuel : Nat) (m : TreeMem K V) (t : TreeValue) (key : K) :
    Option Nat :=
  match findPlaceForNode comp fuel m t key with
  | Option.none => Option.none
  | some result => some (if result.duplicate then result.location.parent else t.head)

/-- `Tree::erase(const key_type&)`. -/
def erase (comp : K → K → Bool) (fuel : Nat) (m : TreeMem K V) (t : TreeValue) (key : K) :
    Option (TreeMem K V × TreeValue × Nat) :=
  match findPlaceForNode comp fuel m t key with
  | Option.none => Option.none
  | some result =>
    if result.duplicate then
      match extractNode fuel m (orphanPtr t result.location.parent) result.location.parent with
      | Option.none => Option.none
      | some (m1, t1) => some (m1.freeNode result.location.parent, t1, 1)
    else some (m, t, 0)

/-- `TreeUncheckedIterator::operator++`, the climb while the node is a right child. -/
def climbRight (m : TreeMem K V) : Nat → Nat → Option Nat
  | 0, _ => none
  | fuel + 1, ptr =>
    if !m.is_nil (m.parent ptr) && m.right (m.parent ptr) = ptr then
      climbRight m fuel (m.parent ptr)
    else some (m.parent ptr)

/-- `TreeUncheckedIterator::operator++`. -/
def increment (fuel : Nat) (m : TreeMem K V) (ptr : Nat) : Option Nat :=
  if m.is_nil ptr then some (m.left ptr)
  else if m.is_nil (m.right ptr) then climbRight m fuel ptr
  else minInSubTree m fuel (m.right ptr)

/-- The nodes met from `ptr` to `end()` by repeated `++`. -/
def traverseFrom (m : TreeMem K V) (head : Nat) (fuel : Nat) : Nat → Nat → Option (List Nat)
  | 0, _ => none
  | steps + 1, ptr =>
    if ptr = head then some []
    else
      match increment fuel m ptr with
      | Option.none => Option.none
      | some nxt =>
        match traverseFrom m head fuel steps nxt with
        | Option.none => Option.none
        | some rest => some (ptr :: rest)

/-- The nodes met from `begin()` to `end()` by repeated `++`. -/
def traverse (fuel : Nat) (m : TreeMem K V) (t : TreeValue) : Option (List Nat) :=
  traverseFrom m t.head fuel fuel (m.left t.head)

/-- One step of a client: an insertion or an erasure by key. -/
inductive TreeOp (K V : Type) where
  | insert (value : K × V)
  | erase (key : K)

/-- The tree after one client step. -/
def applyOp (comp : K → K → Bool) (fuel : Nat) (extractable : Bool)
    (s : TreeMem K V × TreeValue) : TreeOp K V → Option (TreeMem K V × TreeValue)
  | TreeOp.insert value =>
    match emplace_ comp fuel extractable s.1 s.2 value with
    | Option.none => Option.none
    | some (m, t, _, _) => some (m, t)
  | TreeOp.erase key =>
    match erase comp fuel s.1 s.2 key with
    | Option.none => Option.none
    | some (m, t, _) => some (m, t)

/-- The tree after a sequence of client steps. -/
def runOps (comp : K → K → Bool) (fuel : Nat) (extractable : Bool) :
    TreeMem K V × TreeValue → List (TreeOp K V) → Option (TreeMem K V × TreeValue)
  | s, [] => some s
  | s, op :: ops =>
    match applyOp comp fuel extractable s op with
    | Option.none => Option.none
    | some s1 => runOps comp fuel extractable s1 ops

/-- Structural height of the subtree at `node` (sentinel 0), read off the links. -/
def trueHeight (m : TreeMem K V) : Nat → Nat → Nat
  | 0, _ => 0
  | fuel + 1, node =>
    if m.is_nil node then 0
    else max (trueHeight m fuel (m.left node)) (trueHeight m fuel (m.right node)) + 1

/-- Shape of a binary tree whose nodes are memory addresses. -/
inductive Shape where
  | nil
  | node (l : Shape) (p : Nat) (r : Shape)

/-- Addresses of a shape in symmetric (in-order) order. -/
def Shape.addrs : Shape → List Nat
  | Shape.nil => []
  | Shape.node l p r => l.addrs ++ p :: r.addrs

/-- The links of memory `m` below pointer `x` spell out the shape: a leaf slot
holds the head sentinel, a real node has `is_nil = false`, its `parent` link
denotes `par`, and its `left` / `right` links spell out the two subshapes. -/
def Rep (m : TreeMem K V) (head : Nat) : Shape → Nat → Nat → Prop
  | Shape.nil, _, x => x = head
  | Shape.node l p r, par, x =>
    x = p ∧ m.is_nil p = false ∧ m.parent p = par ∧
      Rep m head l p (m.left p) ∧ Rep m head r p (m.right p)

/-- Strict weak order, the requirement on `key_compare`. -/
structure StrictWeakOrder (comp : K → K → Bool) : Prop where
  irrefl : ∀ a, comp a a = false
  trans : ∀ a b c, comp a b = true → comp b c = true → comp a c = true
  incomp_trans : ∀ a b c, comp a b = false → comp b a = false → comp b c = false →
    comp c b = false → comp a c = false ∧ comp c a = false

/-- Well-formedness of the tree `t` in memory `m` with in-order node list `L`. -/
structure TreeInv (comp : K → K → Bool) (m : TreeMem K V) (t : TreeValue) (L : List Nat) :
    Prop where
  head_nil : m.is_nil t.head = true
  head_height : m.height t.head = 0
  shape : ∃ s : Shape, Rep m t.head s t.head (m.parent t.head) ∧ s.addrs = L
  nodup : L.Nodup
  sorted : L.Pairwise (fun a b => comp (m.key a) (m.key b) = true)
  size_eq : t.size = L.length
  head_left : m.left t.head = L.head?.getD t.head
  head_right : m.right t.head = L.getLast?.getD t.head
  height_pos : ∀ p ∈ L, 1 ≤ m.height p
  head_alloc : t.head < m.next
  alloc : ∀ p ∈ L, p < m.next

/-- Change of the links of node `a` when the subtree rooted at `p` is replaced
by one rooted at `p'`: nothing changes except that a link to `p` now denotes `p'`. -/
def Redirected (m m' : TreeMem K V) (p p' : Nat) (a : Nat) : Prop :=
  m'.is_nil a = m.is_nil a ∧ m'.parent a = m.parent a ∧
  m'.left a = (if m.left a = p then p' else m.left a) ∧
  m'.right a = (if m.right a = p then p' else m.right a)

/-- Climbing `parent` links from `p` meets a sentinel within `n` steps. -/
def ReachNil (is_nil : Nat → Bool) (parent : Nat → Nat) : Nat → Nat → Prop
  | 0, p => is_nil p = true
  | n + 1, p => is_nil p = true ∨ ReachNil is_nil parent n (parent p)

/-- What `checkBalance` guarantees about the node it selects: the children that
the selected rotation turns around are real nodes. -/
def RotOK (m : TreeMem K V) (L : List Nat) (res : CheckBalanceResult) : Prop :=
  match res.rotate with
  | Rotate.none => True
  | Rotate.smallLeft => res.node ∈ L ∧ m.is_nil (m.right res.node) = false
  | Rotate.bigLeft => res.node ∈ L ∧ m.is_nil (m.right res.node) = false ∧
      m.right res.node ∈ L ∧ m.is_nil (m.left (m.right res.node)) = false
  | Rotate.smallRight => res.node ∈ L ∧ m.is_nil (m.left res.node) = false
  | Rotate.bigRight => res.node ∈ L ∧ m.is_nil (m.left res.node) = false ∧
      m.left res.node ∈ L ∧ m.is_nil (m.right (m.left res.node)) = false

/-- Agreement of two memories on every field of node `a`. -/
def SameNode (m m' : TreeMem K V) (a : Nat) : Prop :=
  m'.is_nil a = m.is_nil a ∧ m'.parent a = m.parent a ∧ m'.left a = m.left a ∧
    m'.right a = m.right a ∧ m'.height a = m.height a ∧ m'.value a = m.value a

/-- Validity of an insertion point for `key` in the tree with in-order list `L`:
`L` splits into the nodes below `key` and those above it, and the location is
the free slot between the two parts. -/
def ValidLoc (comp : K → K → Bool) (m : TreeMem K V) (head : Nat) (L : List Nat) (key : K)
    (loc : NodeID) (l1 l2 : List Nat) : Prop :=
  L = l1 ++ l2 ∧ (∀ a ∈ l1, comp (m.key a) key = true) ∧ (∀ a ∈ l2, comp key (m.key a) = true) ∧
    ((L = [] ∧ loc.parent = head) ∨
     (loc.child = NodeChild.right ∧ l1.getLast? = some loc.parent ∧ m.right loc.parent = head) ∨
     (loc.child = NodeChild.left ∧ l2.head? = some loc.parent ∧ m.left loc.parent = head))

/-- Equivalence of keys under the comparator: neither is below the other. -/
def KeyEquiv (comp : K → K → Bool) (a b : K) : Prop := comp a b = false ∧ comp b a = false

/-- Memory after the linking statements of `insertNode` in a non-empty tree,
before the heights are updated. -/
def linkMem (m : TreeMem K V) (t : TreeValue) (loc : NodeID) (new_node : Nat) : TreeMem K V :=
  let m1 : TreeMem K V := { m with parent := upd m.parent new_node loc.parent }
  if loc.child = NodeChild.left then
    let m' : TreeMem K V := { m1 with left := upd m1.left loc.parent new_node }
    if loc.parent = m'.left t.head then { m' with left := upd m'.left t.head new_node } else m'
  else
    let m' : TreeMem K V := { m1 with right := upd m1.right loc.parent new_node }
    if loc.parent = m'.right t.head then { m' with right := upd m'.right t.head new_node }
    else m'

/-- Leaf case of `extractNode`: memory after the unlinking statements. -/
def unlinkLeaf (m : TreeMem K V) (head erased_node : Nat) : TreeMem K V :=
  if m.is_nil (m.parent erased_node) then
    { m with left := upd m.left head head, parent := upd m.parent head head,
             right := upd m.right head head }
  else if m.left (m.parent erased_node) = erased_node then
    let m' : TreeMem K V := { m with left := upd m.left (m.parent erased_node) head }
    if m'.left head = erased_node then
      { m' with left := upd m'.left head (m'.parent erased_node) }
    else m'
  else
    let m' : TreeMem K V := { m with right := upd m.right (m.parent erased_node) head }
    if m'.right head = erased_node then
      { m' with right := upd m'.right head (m'.parent erased_node) }
    else m'

/-- Inner-node case of `extractNode`: memory after the replacement node has taken
the place of the erased node, and the node from which balancing starts. -/
def unlinkInner (m : TreeMem K V) (head erased_node replace_node : Nat) : TreeMem K V × Nat :=
  let m1 : TreeMem K V :=
    if m.is_nil (m.parent erased_node) then { m with parent := upd m.parent head replace_node }
    else if m.left (m.parent erased_node) = erased_node then
      { m with left := upd m.left (m.parent erased_node) replace_node }
    else { m with right := upd m.right (m.parent erased_node) replace_node }
  let r : TreeMem K V × Nat :=
    if m1.parent replace_node ≠ erased_node then
      let m2 : TreeMem K V :=
        if m1.left (m1.parent replace_node) = replace_node then
          let m' : TreeMem K V :=
            { m1 with left := upd m1.left (m1.parent replace_node) (m1.right replace_node) }
          if !m'.is_nil (m'.right replace_node) then
            { m' with parent := upd m'.parent (m'.right replace_node) (m'.parent replace_node) }
          else m'
        else
          let m' : TreeMem K V :=
            { m1 with right := upd m1.right (m1.parent replace_node) (m1.left replace_node) }
          if !m'.is_nil (m'.left replace_node) then
            { m' with parent := upd m'.parent (m'.left replace_node) (m'.parent replace_node) }
          else m'
      let balance_node := m2.parent replace_node
      let m3 : TreeMem K V := { m2 with left := upd m2.left replace_node (m2.left erased_node) }
      let m4 : TreeMem K V :=
        if !m3.is_nil (m3.left replace_node) then
          { m3 with parent := upd m3.parent (m3.left replace_node) replace_node }
        else m3
      let m5 : TreeMem K V :=
        { m4 with right := upd m4.right replace_node (m4.right erased_node) }
      let m6 : TreeMem K V :=
        if !m5.is_nil (m5.right replace_node) then
          { m5 with parent := upd m5.parent (m5.right replace_node) replace_node }
        else m5
      ({ m6 with height := upd m6.height replace_node (m6.height erased_node) }, balance_node)
    else
      let m2 : TreeMem K V :=
        if m1.left (m1.parent replace_node) = replace_node then
          let m' : TreeMem K V :=
            { m1 with right := upd m1.right replace_node (m1.right erased_node) }
          if !m'.is_nil (m'.right replace_node) then
            { m' with parent := upd m'.parent (m'.right replace_node) replace_node }
          else m'
        else
          let m' : TreeMem K V :=
            { m1 with left := upd m1.left replace_node (m1.left erased_node) }
          if !m'.is_nil (m'.left replace_node) then
            { m' with parent := upd m'.parent (m'.left replace_node) replace_node }
          else m'
      (m2, replace_node)
  let m7 : TreeMem K V :=
    { r.1 with parent := upd r.1.parent replace_node (r.1.parent erased_node) }
  let m8 : TreeMem K V :=
    if m7.left head = erased_node then { m7 with left := upd m7.left head replace_node }
    else if m7.right head = erased_node then
      { m7 with right := upd m7.right head replace_node }
    else m7
  (m8, r.2)

/-- Tail of `extractNode`: the size is decremented, heights are updated from
the balance node and the tree is balanced once. -/
def extractFinish (fuel : Nat) (t : TreeValue) (m' : TreeMem K V) (balance_node : Nat) :
    Option (TreeMem K V × TreeValue) :=
  match changeHeights fuel m' balance_node with
  | Option.none => Option.none
  | some m1 =>
    match balanceTree fuel m1 t.head balance_node with
    | Option.none => Option.none
    | some m2 => some (m2, { t with size := t.size - 1 })

/-- Inner case of `extractNode`, first statements: the link by which the parent
(or the head) denotes the erased node now denotes the replacement. -/
def relinkParent (m : TreeMem K V) (head e q : Nat) : TreeMem K V :=
  if m.is_nil (m.parent e) then { m with parent := upd m.parent head q }
  else if m.left (m.parent e) = e then { m with left := upd m.left (m.parent e) q }
  else { m with right := upd m.right (m.parent e) q }

/-- Inner case of `extractNode`: the replacement is spliced out of its place
deeper in the subtree (its only child takes its place). -/
def spliceOut (m1 : TreeMem K V) (q : Nat) : TreeMem K V :=
  if m1.left (m1.parent q) = q then
    let m' : TreeMem K V := { m1 with left := upd m1.left (m1.parent q) (m1.right q) }
    if !m'.is_nil (m'.right q) then
      { m' with parent := upd m'.parent (m'.right q) (m'.parent q) }
    else m'
  else
    let m' : TreeMem K V := { m1 with right := upd m1.right (m1.parent q) (m1.left q) }
    if !m'.is_nil (m'.left q) then
      { m' with parent := upd m'.parent (m'.left q) (m'.parent q) }
    else m'

/-- Inner case of `extractNode`: the spliced-out replacement inherits both
children and the height of the erased node. -/
def graftDeep (m2 : TreeMem K V) (e q : Nat) : TreeMem K V :=
  let m3 : TreeMem K V := { m2 with left := upd m2.left q (m2.left e) }
  let m4 : TreeMem K V :=
    if !m3.is_nil (m3.left q) then { m3 with parent := upd m3.parent (m3.left q) q } else m3
  let m5 : TreeMem K V := { m4 with right := upd m4.right q (m4.right e) }
  let m6 : TreeMem K V :=
    if !m5.is_nil (m5.right q) then { m5 with parent := upd m5.parent (m5.right q) q } else m5
  { m6 with height := upd m6.height q (m6.height e) }

/-- Inner case of `extractNode`: the replacement is a child of the erased node
and inherits the other child. -/
def graftDirect (m1 : TreeMem K V) (e q : Nat) : TreeMem K V :=
  if m1.left (m1.parent q) = q then
    let m' : TreeMem K V := { m1 with right := upd m1.right q (m1.right e) }
    if !m'.is_nil (m'.right q) then { m' with parent := upd m'.parent (m'.right q) q } else m'
  else
    let m' : TreeMem K V := { m1 with left := upd m1.left q (m1.left e) }
    if !m'.is_nil (m'.left q) then { m' with parent := upd m'.parent (m'.left q) q } else m'

/-- Inner case of `extractNode`, last statements: the replacement takes the
parent of the erased node and the cached extremes of the head are patched. -/
def finishLinks (r1 : TreeMem K V) (head e q : Nat) : TreeMem K V :=
  let m7 : TreeMem K V := { r1 with parent := upd r1.parent q (r1.parent e) }
  if m7.left head = e then { m7 with left := upd m7.left head q }
  else if m7.right head = e then { m7 with right := upd m7.right head q }
  else m7

/-- Inner case of `extractNode` between the first and the last statements: the
memory after the replacement has inherited the children, and the balance node. -/
def innerCore (m : TreeMem K V) (head e q : Nat) : TreeMem K V × Nat :=
  if (relinkParent m head e q).parent q ≠ e then
    (graftDeep (spliceOut (relinkParent m head e q) q) e q,
      (spliceOut (relinkParent m head e q) q).parent q)
  else (graftDirect (relinkParent m head e q) e q, q)

/-- Equivalence of two keys under the comparator, as a Boolean test. -/
def keyEquivB (comp : K → K → Bool) (a b : K) : Bool := !comp a b && !comp b a

/-- Specification of `insert` on the collection of entries: an entry whose key
is already present is ignored, a new one is added. -/
def specInsert (comp : K → K → Bool) (S : List (K × V)) (v : K × V) : List (K × V) :=
  if S.any (fun e => keyEquivB comp e.1 v.1) then S else S ++ [v]

/-- Specification of `erase(key)` on the collection of entries. -/
def specErase (comp : K → K → Bool) (S : List (K × V)) (k : K) : List (K × V) :=
  S.filter (fun e => !keyEquivB comp e.1 k)

/-- Specification of one client step on the collection of entries. -/
def specStep (comp : K → K → Bool) (S : List (K × V)) : TreeOp K V → List (K × V)
  | TreeOp.insert v => specInsert comp S v
  | TreeOp.erase k => specErase comp S k

/-- Specification of a sequence of client steps. -/
def specRun (comp : K → K → Bool) (S : List (K × V)) (ops : List (TreeOp K V)) :
    List (K × V) :=
  ops.foldl (specStep comp) S

/-- Balance by structural heights of every real node of the subtree at `node`:
the heights of its two subtrees differ by at most one. -/
def balancedFrom (m : TreeMem K V) : Nat → Nat → Bool
  | 0, _ => true
  | fuel + 1, node =>
    if m.is_nil node then true
    else
      (decide (trueHeight m fuel (m.right node) ≤ trueHeight m fuel (m.left node) + 1)
        && decide (trueHeight m fuel (m.left node) ≤ trueHeight m fuel (m.right node) + 1))
      && balancedFrom m fuel (m.left node) && balancedFrom m fuel (m.right node)

/-- Stored heights of every real node of the subtree at `node`: the `height`
field is one more than the larger stored height of the two children. -/
def storedHeightsFrom (m : TreeMem K V) : Nat → Nat → Bool
  | 0, _ => true
  | fuel + 1, node =>
    if m.is_nil node then true
    else
      decide (m.height node = max (m.height (m.left node)) (m.height (m.right node)) + 1)
      && storedHeightsFrom m fuel (m.left node) && storedHeightsFrom m fuel (m.right node)

/-- The bound `h ≤ ⌈1.44 · log2 (n + 2)⌉` in integers: with `1.44 = 36 / 25` it
says `h = 0` or `2 ^ (25 * (h - 1)) < (n + 2) ^ 36`. -/
def withinHeightBound (h n : Nat) : Bool :=
  decide (h = 0) || decide (2 ^ (25 * (h - 1)) < (n + 2) ^ 36)

/-- The order `std::less` on natural-number keys. -/
def natLess (a b : Nat) : Bool := decide (a < b)

/-- Insertions of the given keys, one at a time, with unit mapped values. -/
def insertKeys (keys : List Nat) : List (TreeOp Nat Unit) :=
  keys.map (fun k => TreeOp.insert (k, ()))

/-- The empty tree of natural-number keys in fresh memory. -/
def emptyNatTree : TreeMem Nat Unit × TreeValue := createEmptyTree TreeMem.init

/-- `Tree::begin`: the node denoted by the iterator is the head's left link. -/
def begin (m : TreeMem K V) (t : TreeValue) : Nat := m.left t.head

/-- A small tree used to instantiate the theorems: the keys 2, 1, 3 inserted in
this order into the empty tree (head at address 0, keys 2, 1, 3 at the
addresses 1, 2, 3). -/
@[irreducible]
def sampleTree : TreeMem Nat Unit × TreeValue :=
  (runOps natLess 6 true emptyNatTree (insertKeys [2, 1, 3])).getD emptyNatTree

/-- Specification of `find` for one key `q` along a sequence of steps: the state
is the entry found for `q`, if any.  An insert of an equivalent key supplies
the entry when `q` is absent and is ignored otherwise; an erase of an
equivalent key makes `q` absent. -/
def specLookupStep (comp : K → K → Bool) (q : K) (st : Option (K × V)) :
    TreeOp K V → Option (K × V)
  | TreeOp.insert v =>
    if keyEquivB comp v.1 q then
      match st with
      | Option.none => some v
      | some e => some e
    else st
  | TreeOp.erase k => if keyEquivB comp k q then none else st

/-- Specification of `find q` after the steps `ops` on an empty tree: the
entry supplied by the first successful insert of `q` that was not erased
afterwards. -/
def specLookup (comp : K → K → Bool) (ops : List (TreeOp K V)) (q : K) : Option (K × V) :=
  ops.foldl (specLookupStep comp q) none

/-- `TreeValue::reparentPtr`: every iterator record of `other`'s chain that
denotes `node` is unlinked from that chain and pushed on the front of this
tree's chain; the result is this tree and `other`. -/
def reparentPtr (t other : TreeValue) (node : Nat) : TreeValue × TreeValue :=
  ({ t with proxy := (other.proxy.filter (fun it => it.ptr = node)).reverse ++ t.proxy },
   { other with proxy := other.proxy.filter (fun it => it.ptr ≠ node) })

/-- `Tree::merge`, the loop: `it` walks `other` in order; a node whose key is
not in this tree is extracted from `other`, reset to a leaf and inserted here.
The result is the memory, this tree and `other`. -/
def mergeLoop (comp : K → K → Bool) (fuel : Nat) :
    Nat → TreeMem K V → TreeValue → TreeValue → Nat →
      Option (TreeMem K V × TreeValue × TreeValue)
  | 0, _, _, _, _ => none
  | steps + 1, m, t, other, it =>
    if m.is_nil it then some (m, t, other)
    else
      match increment fuel m it with
      | Option.none => Option.none
      | some next_it =>
        match findPlaceForNode comp fuel m t (m.key it) with
        | Option.none => Option.none
        | some result =>
          if result.duplicate then mergeLoop comp fuel steps m t other next_it
          else
            match extractNode fuel m other it with
            | Option.none => Option.none
            | some (m1, other1) =>
              let m2 : TreeMem K V :=
                { m1 with
                  left := upd m1.left it t.head
                  right := upd m1.right it t.head
                  height := upd m1.height it 1 }
              match insertNode fuel m2 t result.location it with
              | Option.none => Option.none
              | some (m3, t3, _) =>
                mergeLoop comp fuel steps m3 (reparentPtr t3 other1 it).1
                  (reparentPtr t3 other1 it).2 next_it

/-- `Tree::merge(other)`.  Two tree objects are the same object exactly when
they own the same head sentinel. -/
def merge (comp : K → K → Bool) (fuel : Nat) (m : TreeMem K V) (t other : TreeValue) :
    Option (TreeMem K V × TreeValue × TreeValue) :=
  if t.head = other.head then some (m, t, other)
  else mergeLoop comp fuel fuel m t other (m.left other.head)

/-- Whether the key of node `a` is equivalent to the key of some node of `LB`. -/
def dupIn (comp : K → K → Bool) (m : TreeMem K V) (LB : List Nat) (a : Nat) : Bool :=
  LB.any (fun b => keyEquivB comp (m.key b) (m.key a))

/-- Two small trees in one memory, used to instantiate the theorem on `merge`:
first the keys 2, 3 are inserted into an empty tree (head at address 0, nodes
at 1, 2), then a second empty tree is created in the same memory (head at
address 3) and receives the keys 1, 3 (nodes at 4, 5).  The result is the
memory, the first tree and the second tree. -/
@[irreducible]
def sampleTwo : TreeMem Nat Unit × TreeValue × TreeValue :=
  match runOps natLess 8 true emptyNatTree (insertKeys [2, 3]) with
  | Option.none => (emptyNatTree.1, emptyNatTree.2, emptyNatTree.2)
  | some sB =>
    match runOps natLess 8 true (createEmptyTree sB.1) (insertKeys [1, 3]) with
    | Option.none => (sB.1, sB.2, sB.2)
    | some sA => (sA.1, sB.2, sA.2)

/-- The keys of scenario 1, in insertion order. -/
def scenarioKeys : List Nat := [5, 3, 8, 1, 4, 7, 9, 2, 6]

/-- Whether the tree built from the first `n` keys of scenario 1 is balanced at
every real node, by structural heights and by stored heights alike: the
structural heights of the two subtrees differ by at most one, and every stored
height is one more than the larger stored height of the children. -/
def scenarioBalancedAfter (n : Nat) : Bool :=
  match runOps natLess 12 true emptyNatTree (insertKeys (scenarioKeys.take n)) with
  | Option.none => false
  | some s =>
    balancedFrom s.1 12 (s.1.parent s.2.head) && storedHeightsFrom s.1 12 (s.1.parent s.2.head)

/-- `TreeUncheckedIterator::operator--`, the climb while the node is a left child. -/
def climbLeft (m : TreeMem K V) : Nat → Nat → Option Nat
  | 0, _ => none
  | fuel + 1, ptr =>
    if !m.is_nil (m.parent ptr) && m.left (m.parent ptr) = ptr then
      climbLeft m fuel (m.parent ptr)
    else some (m.parent ptr)

/-- `TreeUncheckedIterator::operator--`. -/
def decrement (fuel : Nat) (m : TreeMem K V) (ptr : Nat) : Option Nat :=
  if m.is_nil ptr then some (m.right ptr)
  else if m.is_nil (m.left ptr) then climbLeft m fuel ptr
  else maxInSubTree m fuel (m.left ptr)

/-- The key read from `node->value`.  `TreeNode::createHeadNode` constructs the
links, `is_nil` and `height` of the sentinel and never its `value`, so the
sentinel holds no value object: reading it has no defined result and the
answer is `none`.  A real node (`is_nil` false) was built by `createNode`
with its value. -/
def constructedKey (m : TreeMem K V) (node : Nat) : Option K :=
  if m.is_nil node then none else some (m.key node)

/-- `Tree::findPlaceForNodeWithHint`, every read of a `value` going through
`constructedKey`. -/
def findPlaceForNodeWithHint (comp : K → K → Bool) (fuel : Nat) (m : TreeMem K V)
    (t : TreeValue) (hint : Nat) (key : K) : Option TreeFindResult :=
  if hint = t.head then
    if m.is_nil (m.right hint) then some ⟨⟨m.right t.head, NodeChild.right⟩, false⟩
    else
      match constructedKey m (m.right t.head) with
      | Option.none => Option.none
      | some max_key =>
        if comp max_key key then some ⟨⟨m.right t.head, NodeChild.right⟩, false⟩
        else findPlaceForNode comp fuel m t key
  else if hint = m.left t.head then
    match constructedKey m (m.left t.head) with
    | Option.none => Option.none
    | some min_key =>
      if comp key min_key then some ⟨⟨m.left t.head, NodeChild.left⟩, false⟩
      else findPlaceForNode comp fuel m t key
  else
    match constructedKey m hint with
    | Option.none => Option.none
    | some hint_key =>
      if comp key hint_key then
        match decrement fuel m hint with
        | Option.none => Option.none
        | some prev =>
          match constructedKey m prev with
          | Option.none => Option.none
          | some prev_key =>
            if comp prev_key key then
              if m.is_nil (m.right prev) then some ⟨⟨prev, NodeChild.right⟩, false⟩
              else some ⟨⟨hint, NodeChild.left⟩, false⟩
            else findPlaceForNode comp fuel m t key
      else if comp hint_key key then
        match increment fuel m hint with
        | Option.none => Option.none
        | some next =>
          match constructedKey m next with
          | Option.none => Option.none
          | some next_key =>
            if comp key next_key then
              if m.is_nil (m.right hint) then some ⟨⟨hint, NodeChild.right⟩, false⟩
              else some ⟨⟨next, NodeChild.left⟩, false⟩
            else findPlaceForNode comp fuel m t key
      else some ⟨⟨hint, NodeChild.right⟩, true⟩

/-- `Tree::emplaceHint(NodePtr hint, Args&&...)`: as `emplace_`, the place
being looked for from the hint. -/
def emplaceHint (comp : K → K → Bool) (fuel : Nat) (extractable : Bool) (m : TreeMem K V)
    (t : TreeValue) (hint : Nat) (value : K × V) : Option (TreeMem K V × TreeValue × Nat) :=
  if extractable then
    match findPlaceForNodeWithHint comp fuel m t hint value.1 with
    | Option.none => Option.none
    | some result =>
      if result.duplicate then some (m, t, result.location.parent)
      else
        let r := m.createNode t.head value
        insertNode fuel r.1 t result.location r.2
  else
    let tmp_node := m.createNode t.head value
    match findPlaceForNodeWithHint comp fuel tmp_node.1 t hint (tmp_node.1.key tmp_node.2) with
    | Option.none => Option.none
    | some result =>
      if result.duplicate then some (tmp_node.1.freeNode tmp_node.2, t, result.location.parent)
      else insertNode fuel tmp_node.1 t result.location tmp_node.2

/-- Node memory of the list allocator: the fields of `ListNode`, one map each,
the next address the allocator hands out and the addresses given back to it. -/
structure ListMem (T : Type) where
  next : Nat → Nat
  prev : Nat → Nat
  value : Nat → T
  fresh : Nat
  freed : List Nat

/-- The members of `ListValue` next to the node memory: the head sentinel, the
size and the chain of registered iterator records. -/
structure ListValue where
  head : Nat
  size : Nat
  proxy : List IteratorRecord
  deriving DecidableEq, Repr

/-- The members of `ListTmpNodes`: the ends of the run under construction
(null until a node is made) and the number of nodes counted in `added`. -/
structure ListTmpNodes where
  first : Option Nat
  last : Option Nat
  added : Nat
  deriving DecidableEq, Repr

/-- Arithmetic of `std::size_t`: the value modulo `2 ^ 64`. -/
def sizeWrap (n : Nat) : Nat := n % 2 ^ 64

/-- Memory before any allocation. -/
def ListMem.init [Inhabited T] : ListMem T :=
  { next := fun _ => 0, prev := fun _ => 0, value := fun _ => default, fresh := 0, freed := [] }

/-- `ListNode::createHeadNode`: a fresh sentinel whose two links denote itself. -/
def ListMem.createHeadNode (m : ListMem T) : ListMem T × Nat :=
  let new_node := m.fresh
  ({ m with
      next := upd m.next new_node new_node
      prev := upd m.prev new_node new_node
      fresh := m.fresh + 1 }, new_node)

/-- `ListNode::freeNode`: the address goes back to the allocator. -/
def ListMem.freeNode (m : ListMem T) (node : Nat) : ListMem T :=
  { m with freed := node :: m.freed }

/-- The loop of `ListNode::freeNonHeadNode`. -/
def freeNonHeadLoop (head : Nat) : Nat → ListMem T → Nat → Option (ListMem T)
  | 0, _, _ => none
  | fuel + 1, m, erased_node =>
    if erased_node ≠ head then
      let erased_node1 := m.next erased_node
      freeNonHeadLoop head fuel (m.freeNode (m.prev erased_node1)) erased_node1
    else some m

/-- `ListNode::freeNonHeadNode`. -/
def ListMem.freeNonHeadNode (fuel : Nat) (m : ListMem T) (head : Nat) : Option (ListMem T) :=
  freeNonHeadLoop head fuel m (m.next head)

/-- `ListTmpNodes(Alloc&)`: both ends null, nothing added. -/
def ListTmpNodes.new : ListTmpNodes := { first := none, last := none, added := 0 }

/-- `ListTmpNodes::createNode`: one fresh node holding `value`; its links are
not written. -/
def ListTmpNodes.createNode (m : ListMem T) (tmp : ListTmpNodes) (value : T) :
    ListMem T × ListTmpNodes :=
  let node := m.fresh
  ({ m with value := upd m.value node value, fresh := m.fresh + 1 },
   { tmp with first := some node, last := some node })

/-- The loop of `ListTmpNodes::createNumOfNodes`: `count` further nodes behind `last`. -/
def createNumLoop (value : T) : Nat → ListMem T → Nat → Nat → ListMem T × Nat × Nat
  | 0, m, last, added => (m, last, added)
  | count + 1, m, last, added =>
    let m1 : ListMem T := { m with next := upd m.next last m.fresh, fresh := m.fresh + 1 }
    let m2 : ListMem T := { m1 with prev := upd m1.prev (m1.next last) last }
    let last1 := m2.next last
    let m3 : ListMem T := { m2 with value := upd m2.value last1 value }
    createNumLoop value count m3 last1 (added + 1)

/-- `ListTmpNodes::createNumOfNodes`: nothing at all for `count` zero, both
ends staying null. -/
def ListTmpNodes.createNumOfNodes (m : ListMem T) (tmp : ListTmpNodes) (count : Nat)
    (value : T) : ListMem T × ListTmpNodes :=
  if count ≤ 0 then (m, tmp)
  else
    let node := m.fresh
    let m1 : ListMem T := { m with value := upd m.value node value, fresh := m.fresh + 1 }
    let r := createNumLoop value (count - 1) m1 node (tmp.added + 1)
    (r.1, { first := some node, last := some r.2.1, added := r.2.2 })

/-- The loop of `ListTmpNodes::createNodesFromRange` over the remaining
elements of the range. -/
def createRangeLoop : List T → ListMem T → Nat → Nat → ListMem T × Nat × Nat
  | [], m, last, added => (m, last, added)
  | value :: rest, m, last, added =>
    let m1 : ListMem T := { m with next := upd m.next last m.fresh, fresh := m.fresh + 1 }
    let m2 : ListMem T := { m1 with prev := upd m1.prev (m1.next last) last }
    let last1 := m2.next last
    let m3 : ListMem T := { m2 with value := upd m2.value last1 value }
    createRangeLoop rest m3 last1 (added + 1)

/-- `ListTmpNodes::createNodesFromRange`, the range `[first, last)` given by
the list of its elements: nothing at all for the empty range. -/
def ListTmpNodes.createNodesFromRange (m : ListMem T) (tmp : ListTmpNodes) (range : List T) :
    ListMem T × ListTmpNodes :=
  match range with
  | [] => (m, tmp)
  | value :: rest =>
    let node := m.fresh
    let m1 : ListMem T := { m with value := upd m.value node value, fresh := m.fresh + 1 }
    let r := createRangeLoop rest m1 node (tmp.added + 1)
    (r.1, { first := some node, last := some r.2.1, added := r.2.2 })

/-- `ListTmpNodes::insertNodes`: the run `first .. last` is linked in before
`where_`.  With `first` or `last` null the writes `first->prev` and
`last->next` go through a null pointer and there is no result. -/
def ListTmpNodes.insertNodes (m : ListMem T) (tmp : ListTmpNodes) (where_ : Nat) :
    Option (ListMem T × ListTmpNodes × Nat) :=
  match tmp.first, tmp.last with
  | some first, some last =>
    let m1 : ListMem T := { m with prev := upd m.prev first (m.prev where_) }
    let m2 : ListMem T := { m1 with next := upd m1.next (m1.prev where_) first }
    let m3 : ListMem T := { m2 with next := upd m2.next last where_ }
    let m4 : ListMem T := { m3 with prev := upd m3.prev where_ last }
    some (m4, { tmp with first := none }, first)
  | _, _ => none

/-- `ListValue::extractNode`. -/
def ListValue.extractNode (m : ListMem T) (node : Nat) : ListMem T :=
  let m1 : ListMem T := { m with next := upd m.next (m.prev node) (m.next node) }
  { m1 with prev := upd m1.prev (m1.next node) (m1.prev node) }

/-- `ListValue::extractNodes`. -/
def ListValue.extractNodes (m : ListMem T) (first last : Nat) : ListMem T :=
  let m1 : ListMem T := { m with next := upd m.next (m.prev first) last }
  { m1 with prev := upd m1.prev last (m1.prev first) }

/-- `ListValue::orphanNonHead`: every record that denotes a real node is detached. -/
def ListValue.orphanNonHead (l : ListValue) : ListValue :=
  { l with proxy := l.proxy.filter (fun it => it.ptr = l.head) }

/-- `ListValue::orphanPtr`: every record that denotes `node` is detached. -/
def ListValue.orphanPtr (l : ListValue) (node : Nat) : ListValue :=
  { l with proxy := l.proxy.filter (fun it => it.ptr ≠ node) }

/-- `List::createEmptyList` on a default-constructed `ListValue`. -/
def LinkedList.createEmptyList (m : ListMem T) : ListMem T × ListValue :=
  let r := m.createHeadNode
  (r.1, { head := r.2, size := 0, proxy := [] })

/-- `List::begin`. -/
def LinkedList.begin (m : ListMem T) (l : ListValue) : Nat := m.next l.head

/-- `List::clear`. -/
def LinkedList.clear (fuel : Nat) (m : ListMem T) (l : ListValue) : Option (ListMem T × ListValue) :=
  let l1 := l.orphanNonHead
  match m.freeNonHeadNode fuel l1.head with
  | Option.none => Option.none
  | some m1 =>
    let m2 : ListMem T := { m1 with prev := upd m1.prev l1.head l1.head }
    let m3 : ListMem T := { m2 with next := upd m2.next l1.head l1.head }
    some (m3, { l1 with size := 0 })

/-- `List::insertNumOfNodes`. -/
def LinkedList.insertNumOfNodes (m : ListMem T) (l : ListValue) (where_ count : Nat) (value : T) :
    Option (ListMem T × ListValue × Nat) :=
  let r := ListTmpNodes.createNumOfNodes m ListTmpNodes.new count value
  let l1 : ListValue := { l with size := l.size + count }
  match ListTmpNodes.insertNodes r.1 r.2 where_ with
  | Option.none => Option.none
  | some (m1, _, node) => some (m1, l1, node)

/-- `List::insert(const_iterator where, size_type count, const T& value)`. -/
def LinkedList.insert (m : ListMem T) (l : ListValue) (where_ count : Nat) (value : T) :
    Option (ListMem T × ListValue × Nat) :=
  LinkedList.insertNumOfNodes m l where_ count value

/-- `List::insertRange`, the range given by the list of its elements. -/
def LinkedList.insertRange (m : ListMem T) (l : ListValue) (where_ : Nat) (range : List T) :
    Option (ListMem T × ListValue × Nat) :=
  let r := ListTmpNodes.createNodesFromRange m ListTmpNodes.new range
  let l1 : ListValue := { l with size := l.size + r.2.added }
  match ListTmpNodes.insertNodes r.1 r.2 where_ with
  | Option.none => Option.none
  | some (m1, _, node) => some (m1, l1, node)

/-- `List::emplaceNode`. -/
def LinkedList.emplaceNode (m : ListMem T) (l : ListValue) (where_ : Nat) (value : T) :
    Option (ListMem T × ListValue × Nat) :=
  let r := ListTmpNodes.createNode m ListTmpNodes.new value
  let l1 : ListValue := { l with size := l.size + 1 }
  match ListTmpNodes.insertNodes r.1 r.2 where_ with
  | Option.none => Option.none
  | some (m1, _, node) => some (m1, l1, node)

/-- `List::eraseNode`: the node after `ptr` is returned. -/
def LinkedList.eraseNode (m : ListMem T) (l : ListValue) (ptr : Nat) : ListMem T × ListValue × Nat :=
  let next_node := m.next ptr
  let m1 := ListValue.extractNode m ptr
  let l1 := l.orphanPtr ptr
  let m2 := m1.freeNode ptr
  (m2, { l1 with size := l1.size - 1 }, next_node)

/-- The loop of `List::eraseRange` over the unlinked nodes. -/
def eraseLoop (last : Nat) : Nat → ListMem T → ListValue → Nat → Option (ListMem T × ListValue)
  | 0, _, _, _ => none
  | fuel + 1, m, l, first =>
    if first ≠ last then
      let l1 := l.orphanPtr first
      let first1 := m.next first
      let m1 := m.freeNode first
      eraseLoop last fuel m1 { l1 with size := l1.size - 1 } first1
    else some (m, l)

/-- `List::eraseRange`. -/
def LinkedList.eraseRange (fuel : Nat) (m : ListMem T) (l : ListValue) (first last : Nat) :
    Option (ListMem T × ListValue × Nat) :=
  if first = last then some (m, l, last)
  else if first = m.next l.head ∧ last = l.head then
    match LinkedList.clear fuel m l with
    | Option.none => Option.none
    | some (m1, l1) => some (m1, l1, last)
  else
    let m1 := ListValue.extractNodes m first last
    match eraseLoop last fuel m1 l first with
    | Option.none => Option.none
    | some (m2, l2) => some (m2, l2, last)

/-- `List::pushBack`. -/
def LinkedList.pushBack (m : ListMem T) (l : ListValue) (value : T) : Option (ListMem T × ListValue) :=
  match LinkedList.emplaceNode m l l.head value with
  | Option.none => Option.none
  | some (m1, l1, _) => some (m1, l1)

/-- `List::popBack`. -/
def LinkedList.popBack (m : ListMem T) (l : ListValue) : ListMem T × ListValue :=
  let r := LinkedList.eraseNode m l (m.prev l.head)
  (r.1, r.2.1)

/-- `List::pushFront`. -/
def LinkedList.pushFront (m : ListMem T) (l : ListValue) (value : T) : Option (ListMem T × ListValue) :=
  match LinkedList.emplaceNode m l (m.next l.head) value with
  | Option.none => Option.none
  | some (m1, l1, _) => some (m1, l1)

/-- `List::popFront`. -/
def LinkedList.popFront (m : ListMem T) (l : ListValue) : ListMem T × ListValue :=
  let r := LinkedList.eraseNode m l (m.next l.head)
  (r.1, r.2.1)

/-- The nodes met from `ptr` to `end()` by repeated `++` (`ptr = ptr->next`). -/
def LinkedList.traverseFrom (m : ListMem T) (head : Nat) : Nat → Nat → Option (List Nat)
  | 0, _ => none
  | fuel + 1, ptr =>
    if ptr = head then some []
    else
      match LinkedList.traverseFrom m head fuel (m.next ptr) with
      | Option.none => Option.none
      | some rest => some (ptr :: rest)

/-- The nodes met from `begin()` to `end()` by repeated `++`. -/
def LinkedList.traverse (fuel : Nat) (m : ListMem T) (l : ListValue) : Option (List Nat) :=
  LinkedList.traverseFrom m l.head fuel (LinkedList.begin m l)

/-- The values met from `begin()` to `end()`. -/
def LinkedList.contents (fuel : Nat) (m : ListMem T) (l : ListValue) : Option (List T) :=
  (LinkedList.traverse fuel m l).map (fun nodes => nodes.map m.value)

/-- The loops `for (i = 0; i < n; ++i) ptr = ptr->next` of `List::sort`. -/
def advance (m : ListMem T) : Nat → Nat → Nat
  | 0, ptr => ptr
  | n + 1, ptr => advance m n (m.next ptr)

/-- The six assignments of `List::sort` that unlink `right_ptr` and link it
in again in front of `left_ptr`. -/
def sortRelink (m : ListMem T) (left_ptr right_ptr : Nat) : ListMem T :=
  let m1 : ListMem T := { m with next := upd m.next (m.prev right_ptr) (m.next right_ptr) }
  let m2 : ListMem T := { m1 with prev := upd m1.prev (m1.next right_ptr) (m1.prev right_ptr) }
  let m3 : ListMem T := { m2 with next := upd m2.next right_ptr left_ptr }
  let m4 : ListMem T := { m3 with prev := upd m3.prev right_ptr (m3.prev left_ptr) }
  let m5 : ListMem T := { m4 with next := upd m4.next (m4.prev left_ptr) right_ptr }
  { m5 with prev := upd m5.prev left_ptr right_ptr }

/-- The innermost loop of `List::sort`: the merge of the run at `left_ptr`
with the run at `right_ptr`.  The memory, `right_ptr` and `right_counter`
after the loop are returned. -/
def sortMerge (cmp : T → T → Bool) (head_ptr step : Nat) :
    Nat → ListMem T → Nat → Nat → Nat → Nat → Option (ListMem T × Nat × Nat)
  | 0, _, _, _, _, _ => none
  | fuel + 1, m, left_ptr, right_ptr, left_counter, right_counter =>
    if left_counter ≠ step ∧ right_counter ≠ step then
      if right_ptr = head_ptr then some (m, right_ptr, right_counter)
      else if cmp (m.value left_ptr) (m.value right_ptr) then
        sortMerge cmp head_ptr step fuel m (m.next left_ptr) right_ptr (left_counter + 1)
          right_counter
      else
        let next_right_ptr := m.next right_ptr
        sortMerge cmp head_ptr step fuel (sortRelink m left_ptr right_ptr) left_ptr
          next_right_ptr left_counter (right_counter + 1)
    else some (m, right_ptr, right_counter)

/-- The loop `while (right_ptr != head_ptr)` of `List::sort`: one pass over
the list with runs of length `step`. -/
def sortPass (cmp : T → T → Bool) (head_ptr step list_size fuel : Nat) :
    Nat → ListMem T → Nat → Nat → Nat → Option (ListMem T)
  | 0, _, _, _, _ => none
  | steps + 1, m, left_ptr, right_ptr, n_proccesed_nodes =>
    if right_ptr ≠ head_ptr then
      match sortMerge cmp head_ptr step fuel m left_ptr right_ptr 0 0 with
      | Option.none => Option.none
      | some (m1, right_ptr1, right_counter) =>
        let n_proccesed_nodes1 := sizeWrap (n_proccesed_nodes + sizeWrap (step + step))
        if sizeWrap (n_proccesed_nodes1 + step) ≥ list_size then some m1
        else
          let left_ptr2 :=
            if right_counter = step then right_ptr1
            else advance m1 (step - right_counter) right_ptr1
          let right_ptr2 := advance m1 step left_ptr2
          sortPass cmp head_ptr step list_size fuel steps m1 left_ptr2 right_ptr2
            n_proccesed_nodes1
    else some m

/-- The loop `while (list_size > step)` of `List::sort`. -/
def sortLoop (cmp : T → T → Bool) (head_ptr list_size fuel : Nat) :
    Nat → ListMem T → Nat → Option (ListMem T)
  | 0, _, _ => none
  | steps + 1, m, step =>
    if list_size > step then
      let left_ptr := m.next head_ptr
      let right_ptr := advance m step left_ptr
      match sortPass cmp head_ptr step list_size fuel fuel m left_ptr right_ptr 0 with
      | Option.none => Option.none
      | some m1 => sortLoop cmp head_ptr list_size fuel steps m1 (sizeWrap (step * 2))
    else some m

/-- `List::sort(Compare cmp)`. -/
def LinkedList.sort (cmp : T → T → Bool) (fuel : Nat) (m : ListMem T) (l : ListValue) :
    Option (ListMem T) :=
  sortLoop cmp l.head l.size fuel fuel m 1

/-- The list after `pushBack` of each of the given values in turn. -/
def pushBackAll : ListMem T × ListValue → List T → Option (ListMem T × ListValue)
  | s, [] => some s
  | s, value :: rest =>
    match LinkedList.pushBack s.1 s.2 value with
    | Option.none => Option.none
    | some s1 => pushBackAll s1 rest

/-- The list built in fresh memory by `List()` and `pushBack` of each of the
given values in turn: the head is at address 0 and the value number `i`
(from 0) at address `i + 1`. -/
def listOf [Inhabited T] (values : List T) : Option (ListMem T × ListValue) :=
  pushBackAll (LinkedList.createEmptyList ListMem.init) values

/-- `operator<` on the key field of a (key, tag) pair. -/
def keyLess (a b : Nat × Nat) : Bool := decide (a.1 < b.1)

/-- Two neighbours of the ring: `a->next` is `b` and `b->prev` is `a`. -/
def Link (m : ListMem T) (a b : Nat) : Prop := m.next a = b ∧ m.prev b = a

/-- Well-formedness of the list `l` in memory `m` with the node sequence `xs`
from `begin()` to `end()`: the head and the nodes form one ring through `next`
with `prev` its inverse, no node occurs twice, `size` counts the nodes, every
node was handed out by the allocator, and every registered iterator denotes a
node of the list or the head. -/
structure ListInv (m : ListMem T) (l : ListValue) (xs : List Nat) : Prop where
  ring : List.Chain' (Link m) (l.head :: xs ++ [l.head])
  nodup : (l.head :: xs).Nodup
  size_eq : l.size = xs.length
  alloc : ∀ a ∈ l.head :: xs, a < m.fresh
  iters : ∀ it ∈ l.proxy, it.ptr ∈ l.head :: xs

/-- `List::erase(const_iterator)` for an iterator of this list that denotes `ptr`. -/
def LinkedList.erase (m : ListMem T) (l : ListValue) (ptr : Nat) : ListMem T × ListValue × Nat :=
  LinkedList.eraseNode m l ptr

/-- A small list used to instantiate the theorems: the values 5, 6, 7 pushed
at the back of an empty list (head at address 0, the values at the addresses
1, 2, 3). -/
@[irreducible]
def sampleList : ListMem Nat × ListValue :=
  (listOf [5, 6, 7]).getD (LinkedList.createEmptyList ListMem.init)

/-- The merge of two runs as the inner loop of `List::sort` performs it, on
node sequences: the left node is taken when `lt left right` holds, the right
node otherwise. -/
def mergeRuns (lt : Nat → Nat → Bool) : List Nat → List Nat → List Nat
  | [], rs => rs
  | l :: ls, [] => l :: ls
  | l :: ls, r :: rs =>
    if lt l r then l :: mergeRuns lt ls (r :: rs) else r :: mergeRuns lt (l :: ls) rs
termination_by ls rs => ls.length + rs.length

/-- A sequence made of consecutive runs of length `step`, the last one maybe
shorter, each run satisfying `P`. -/
inductive Blocks (P : List Nat → Prop) (step : Nat) : List Nat → Prop
  | last (b : List Nat) : b.length ≤ step → P b → Blocks P step b
  | cons (b rest : List Nat) : b.length = step → P b → Blocks P step rest →
      Blocks P step (b ++ rest)

/-- A list that is not in order, used to instantiate the theorems on `sort`:
the values 7, 5, 6 pushed at the back of an empty list (head at address 0,
the values at the addresses 1, 2, 3). -/
@[irreducible]
def shuffledList : ListMem Nat × ListValue :=
  (listOf [7, 5, 6]).getD (LinkedList.createEmptyList ListMem.init)

/-- Memory of the iterator registry: the fields of `IteratorBase` (`proxy`,
`next_iterator`) and the `ptr` of the iterator object built on it, one map
each from the address of the record; the fields of `IteratorProxy` (`first`,
`parent`) by the address of the proxy; the field `proxy` of `ContainerBase`
by the address of the container; and the next address handed out for a
proxy.  A null pointer is `none`. -/
structure RegMem where
  proxy : Nat → Option Nat
  next_iterator : Nat → Option Nat
  ptr : Nat → Nat
  first : Nat → Option Nat
  parent : Nat → Option Nat
  container_proxy : Nat → Option Nat
  fresh : Nat

/-- A place that holds an `IteratorBase*` of a chain (`IteratorBase**`):
`&proxy->first` or `&it->next_iterator`. -/
inductive ChainSlot where
  | first (proxy : Nat)
  | next (it : Nat)
  deriving DecidableEq, Repr

/-- Registry before any allocation: no proxy, every record orphaned. -/
def RegMem.init : RegMem :=
  { proxy := fun _ => none, next_iterator := fun _ => none, ptr := fun _ => 0,
    first := fun _ => none, parent := fun _ => none, container_proxy := fun _ => none,
    fresh := 0 }

/-- Reading through an `IteratorBase**`. -/
def RegMem.get (r : RegMem) : ChainSlot → Option Nat
  | ChainSlot.first p => r.first p
  | ChainSlot.next it => r.next_iterator it

/-- Writing through an `IteratorBase**`. -/
def RegMem.set (r : RegMem) : ChainSlot → Option Nat → RegMem
  | ChainSlot.first p, v => { r with first := upd r.first p v }
  | ChainSlot.next it, v => { r with next_iterator := upd r.next_iterator it v }

/-- `ContainerBase::createProxy` for the container at address `c`: a fresh
proxy with `parent = this` and an empty chain. -/
def ContainerBase.createProxy (r : RegMem) (c : Nat) : RegMem :=
  { r with
      container_proxy := upd r.container_proxy c (some r.fresh)
      parent := upd r.parent r.fresh (some c)
      first := upd r.first r.fresh none
      fresh := r.fresh + 1 }

/-- The loop of `ContainerBase::orphanAll`. -/
def orphanAllLoop : Nat → RegMem → Option Nat → Option RegMem
  | 0, _, _ => none
  | _ + 1, r, Option.none => some r
  | fuel + 1, r, some it =>
    orphanAllLoop fuel { r with proxy := upd r.proxy it none } (r.next_iterator it)

/-- `ContainerBase::orphanAll`. -/
def ContainerBase.orphanAll (fuel : Nat) (r : RegMem) (c : Nat) : Option RegMem :=
  match r.container_proxy c with
  | Option.none => Option.none
  | some p =>
    match orphanAllLoop fuel r (r.first p) with
    | Option.none => Option.none
    | some r1 => some { r1 with first := upd r1.first p none }

/-- The loop of `IteratorBase::orphanMe`: the place that holds `this`, or the
null place at the end of the chain. -/
def orphanMeLoop (this : Nat) : Nat → RegMem → ChainSlot → Option ChainSlot
  | 0, _, _ => none
  | fuel + 1, r, it =>
    match r.get it with
    | Option.none => some it
    | some x => if x ≠ this then orphanMeLoop this fuel r (ChainSlot.next x) else some it

/-- `IteratorBase::orphanMe`. -/
def IteratorBase.orphanMe (fuel : Nat) (r : RegMem) (this : Nat) : Option RegMem :=
  match r.proxy this with
  | Option.none => some r
  | some p =>
    match orphanMeLoop this fuel r (ChainSlot.first p) with
    | Option.none => Option.none
    | some it =>
      let r1 := r.set it (r.next_iterator this)
      some { r1 with proxy := upd r1.proxy this none }

/-- `IteratorBase::adopt(parent)`; with a container whose proxy is null the
read `parent_proxy->first` has no result. -/
def IteratorBase.adopt (fuel : Nat) (r : RegMem) (this : Nat) (parent : Option Nat) :
    Option RegMem :=
  match parent with
  | some c =>
    let parent_proxy := r.container_proxy c
    if parent_proxy ≠ r.proxy this then
      match IteratorBase.orphanMe fuel r this with
      | Option.none => Option.none
      | some r1 =>
        match parent_proxy with
        | Option.none => Option.none
        | some pp =>
          let r2 : RegMem := { r1 with next_iterator := upd r1.next_iterator this (r1.first pp) }
          let r3 : RegMem := { r2 with first := upd r2.first pp (some this) }
          some { r3 with proxy := upd r3.proxy this (some pp) }
    else some r
  | Option.none => IteratorBase.orphanMe fuel r this

/-- `IteratorBase::operator=`. -/
def IteratorBase.assign (fuel : Nat) (r : RegMem) (this rhs : Nat) : Option RegMem :=
  match r.proxy rhs with
  | some p => IteratorBase.adopt fuel r this (r.parent p)
  | Option.none => IteratorBase.orphanMe fuel r this

/-- `IteratorBase(const IteratorBase& rhs)` for a new record at the address
`this`: both fields null, then `*this = rhs`. -/
def IteratorBase.copy (fuel : Nat) (r : RegMem) (this rhs : Nat) : Option RegMem :=
  let r0 : RegMem :=
    { r with proxy := upd r.proxy this none, next_iterator := upd r.next_iterator this none }
  IteratorBase.assign fuel r0 this rhs

/-- `IteratorBase::~IteratorBase`. -/
def IteratorBase.destroy (fuel : Nat) (r : RegMem) (this : Nat) : Option RegMem :=
  IteratorBase.orphanMe fuel r this

/-- `IteratorBase::getContainer`. -/
def IteratorBase.getContainer (r : RegMem) (this : Nat) : Option Nat :=
  match r.proxy this with
  | some p => r.parent p
  | Option.none => none

/-- `ListConstIterator::operator==` and `TreeConstIterator::operator==` (the
same expression). -/
def ConstIterator.beq (r : RegMem) (this rhs : Nat) : Bool :=
  if (IteratorBase.getContainer r this).isSome && (IteratorBase.getContainer r rhs).isSome then
    decide (r.ptr this = r.ptr rhs)
  else false

/-- The loop shared by `ListValue::orphanPtr`, `TreeValue::orphanPtr`
(condition `ptr == node`) and `ListValue::orphanNonHead` (condition
`ptr != head`): every record of the chain whose node meets the condition gets
a null proxy and is unlinked. -/
def orphanLoop (cond : Nat → Bool) : Nat → RegMem → ChainSlot → Option RegMem
  | 0, _, _ => none
  | fuel + 1, r, orphan_it =>
    match r.get orphan_it with
    | Option.none => some r
    | some it =>
      if cond (r.ptr it) then
        let r1 : RegMem := { r with proxy := upd r.proxy it none }
        orphanLoop cond fuel (r1.set orphan_it (r1.next_iterator it)) orphan_it
      else orphanLoop cond fuel r (ChainSlot.next it)

/-- `ListValue::orphanPtr` and `TreeValue::orphanPtr` on the chain of the
container at address `c`. -/
def ContainerBase.orphanPtr (fuel : Nat) (r : RegMem) (c node : Nat) : Option RegMem :=
  match r.container_proxy c with
  | Option.none => Option.none
  | some p => orphanLoop (fun ptr => decide (ptr = node)) fuel r (ChainSlot.first p)

/-- `ListValue::orphanNonHead` on the chain of the container at address `c`
whose head sentinel is `head`. -/
def ContainerBase.orphanNonHead (fuel : Nat) (r : RegMem) (c head : Nat) : Option RegMem :=
  match r.container_proxy c with
  | Option.none => Option.none
  | some p => orphanLoop (fun ptr => decide (ptr ≠ head)) fuel r (ChainSlot.first p)

/-- The loop of `TreeValue::reparentPtr`: a record of the walked chain that
denotes `node` is pushed on the chain of `proxy` and unlinked from the walked
chain. -/
def reparentLoop (node proxy : Nat) : Nat → RegMem → ChainSlot → Option RegMem
  | 0, _, _ => none
  | fuel + 1, r, orphan_it =>
    match r.get orphan_it with
    | Option.none => some r
    | some it =>
      if node = r.ptr it then
        let next_iterator := r.next_iterator it
        let r1 : RegMem := { r with proxy := upd r.proxy it (some proxy) }
        let r2 : RegMem := { r1 with next_iterator := upd r1.next_iterator it (r1.first proxy) }
        let r3 : RegMem := { r2 with first := upd r2.first proxy (some it) }
        reparentLoop node proxy fuel (r3.set orphan_it next_iterator) orphan_it
      else reparentLoop node proxy fuel r (ChainSlot.next it)

/-- `TreeValue::reparentPtr(node, other)` for the container at address `c`. -/
def ContainerBase.reparentPtr (fuel : Nat) (r : RegMem) (c other node : Nat) : Option RegMem :=
  match r.container_proxy c, r.container_proxy other with
  | some p, some q => reparentLoop node p fuel r (ChainSlot.first q)
  | _, _ => none

/-- The registry part of `List::swapValue`: the two containers exchange their
proxies and each proxy gets its new owner as `parent`. -/
def ContainerBase.swapProxy (r : RegMem) (c other : Nat) : Option RegMem :=
  let swapped := upd (upd r.container_proxy c (r.container_proxy other)) other
    (r.container_proxy c)
  let r1 : RegMem := { r with container_proxy := swapped }
  match r1.container_proxy c with
  | Option.none => Option.none
  | some p =>
    let r2 : RegMem := { r1 with parent := upd r1.parent p (some c) }
    match r2.container_proxy other with
    | Option.none => Option.none
    | some q => some { r2 with parent := upd r2.parent q (some other) }

/-- The records `xs` are linked in this order from the pointer `o` on, and
the `next_iterator` of the last one (or `o` itself for no record) is `e`. -/
def IsSeg (r : RegMem) : Option Nat → List Nat → Option Nat → Prop
  | o, [], e => o = e
  | o, x :: xs, e => o = some x ∧ IsSeg r (r.next_iterator x) xs e

/-- The place behind the records `pre` of the chain of `p`: `&p->first` for
no record, else `&last->next_iterator`. -/
def slotAfter (p : Nat) (pre : List Nat) : ChainSlot :=
  match pre.getLast? with
  | Option.none => ChainSlot.first p
  | some a => ChainSlot.next a

/-- Registry invariant: the chain of every proxy is a finite sequence of
distinct records ending in null, and its members are exactly the records
whose `proxy` field is this proxy; the proxy of a container has this
container as `parent` and was handed out by the allocator; the proxy of a
registered record belongs to a container. -/
structure RegInv (r : RegMem) : Prop where
  chains : ∀ p, ∃ xs : List Nat, IsSeg r (r.first p) xs none ∧ xs.Nodup ∧
    ∀ a, a ∈ xs ↔ r.proxy a = some p
  owner : ∀ c p, r.container_proxy c = some p → r.parent p = some c
  registered : ∀ a p, r.proxy a = some p → ∃ c, r.container_proxy c = some p
  alloc : ∀ c p, r.container_proxy c = some p → p < r.fresh

/-- Every chain has fewer than `fuel` records. -/
def ChainsBelow (r : RegMem) (fuel : Nat) : Prop :=
  ∀ p xs, IsSeg r (r.first p) xs none → xs.length < fuel

/-- The registry after the three assignments at the end of `adopt`: the record
`it` is the head of the chain of the proxy `pp`. -/
def pushed (r : RegMem) (it pp : Nat) : RegMem :=
  { r with next_iterator := upd r.next_iterator it (r.first pp)
           first := upd r.first pp (some it)
           proxy := upd r.proxy it (some pp) }

/-- One step of a client of the registry.  `setPtr` stands for the
operations of an iterator that change the node it denotes and nothing of
the registry (`++`, `--`, the copy of `ptr`). -/
inductive RegOp where
  | createProxy (c : Nat)
  | adopt (it : Nat) (parent : Option Nat)
  | orphanMe (it : Nat)
  | orphanAll (c : Nat)
  | orphanPtr (c node : Nat)
  | orphanNonHead (c head : Nat)
  | reparentPtr (c other node : Nat)
  | copy (it rhs : Nat)
  | assign (it rhs : Nat)
  | destroy (it : Nat)
  | swap (c other : Nat)
  | setPtr (it node : Nat)

/-- The registry after one step.  A step outside the contract of the source
has no result: `createProxy` for a container that has a proxy, the copy
constructor at an address that holds a registered record, `reparentPtr` and
`swap` of a container with itself (the callers return before). -/
def applyRegOp (fuel : Nat) (r : RegMem) : RegOp → Option RegMem
  | RegOp.createProxy c =>
    if r.container_proxy c = none then some (ContainerBase.createProxy r c) else none
  | RegOp.adopt it parent => IteratorBase.adopt fuel r it parent
  | RegOp.orphanMe it => IteratorBase.orphanMe fuel r it
  | RegOp.orphanAll c => ContainerBase.orphanAll fuel r c
  | RegOp.orphanPtr c node => ContainerBase.orphanPtr fuel r c node
  | RegOp.orphanNonHead c head => ContainerBase.orphanNonHead fuel r c head
  | RegOp.reparentPtr c other node =>
    if c ≠ other then ContainerBase.reparentPtr fuel r c other node else none
  | RegOp.copy it rhs => if r.proxy it = none then IteratorBase.copy fuel r it rhs else none
  | RegOp.assign it rhs => IteratorBase.assign fuel r it rhs
  | RegOp.destroy it => IteratorBase.destroy fuel r it
  | RegOp.swap c other => if c ≠ other then ContainerBase.swapProxy r c other else none
  | RegOp.setPtr it node => some { r with ptr := upd r.ptr it node }

/-- The registry after a sequence of steps. -/
def runRegOps (fuel : Nat) : RegMem → List RegOp → Option RegMem
  | r, [] => some r
  | r, op :: ops =>
    match applyRegOp fuel r op with
    | Option.none => Option.none
    | some r1 => runRegOps fuel r1 ops

/-- Every registered record is in the list `all`. -/
def RegisteredIn (r : RegMem) (all : List Nat) : Prop :=
  ∀ a p, r.proxy a = some p → a ∈ all

/-- Steps that build the sample registry: containers 0 and 1, the records 10,
11 and 12 registered with container 0 at the nodes 1, 2 and 1, and the record
13 registered with container 1 at the node 5. -/
def sampleRegOps : List RegOp :=
  [RegOp.createProxy 0, RegOp.createProxy 1,
   RegOp.setPtr 10 1, RegOp.adopt 10 (some 0),
   RegOp.setPtr 11 2, RegOp.adopt 11 (some 0),
   RegOp.setPtr 12 1, RegOp.adopt 12 (some 0),
   RegOp.setPtr 13 5, RegOp.adopt 13 (some 1)]

/-- The sample registry: the chain of container 0 is 12, 11, 10 and the chain
of container 1 is 13. -/
def sampleRegistry : RegMem := (runRegOps 20 RegMem.init sampleRegOps).getD RegMem.init

/-- `List::swapValue` for the lists at the addresses `c` and `other`: the
three `std::swap` of `head`, `size` and `proxy`, then the two writes of
`proxy->parent`. -/
def LinkedList.swapValue (r : RegMem) (c other : Nat) (l lo : ListValue) :
    Option (RegMem × ListValue × ListValue) :=
  let l1 : ListValue := { l with head := lo.head }
  let lo1 : ListValue := { lo with head := l.head }
  let l2 : ListValue := { l1 with size := lo1.size }
  let lo2 : ListValue := { lo1 with size := l1.size }
  let l3 : ListValue := { l2 with proxy := lo2.proxy }
  let lo3 : ListValue := { lo2 with proxy := l2.proxy }
  match ContainerBase.swapProxy r c other with
  | Option.none => Option.none
  | some r1 => some (r1, l3, lo3)

/-- `List::swap` with an allocator that is always equal. -/
def LinkedList.swap (r : RegMem) (c other : Nat) (l lo : ListValue) :
    Option (RegMem × ListValue × ListValue) :=
  if c = other then some (r, l, lo) else LinkedList.swapValue r c other l lo

/-- Two lists in one memory: `List()` and `pushBack` of each value of `xs`,
then a second `List()` and `pushBack` of each value of `ys`. -/
def twoListsOf [Inhabited T] (xs ys : List T) : Option (ListMem T × ListValue × ListValue) :=
  match listOf xs with
  | Option.none => Option.none
  | some s =>
    match pushBackAll (LinkedList.createEmptyList s.1) ys with
    | Option.none => Option.none
    | some s2 => some (s2.1, s.2, s2.2)

/-- Two lists used to instantiate the theorems: 5, 6, 7 (head at address 0,
nodes 1, 2, 3) and 8, 9 (head at address 4, nodes 5, 6). -/
@[irreducible]
def sampleTwoLists : ListMem Nat × ListValue × ListValue :=
  (twoListsOf [5, 6, 7] [8, 9]).getD
    (ListMem.init, (LinkedList.createEmptyList (ListMem.init : ListMem Nat)).2,
      (LinkedList.createEmptyList (ListMem.init : ListMem Nat)).2)

/-- `List::eraseNode` with the registry of the list at address `c`. -/
def LinkedList.eraseNodeReg (rfuel : Nat) (r : RegMem) (c : Nat) (m : ListMem T)
    (l : ListValue) (ptr : Nat) : Option (RegMem × ListMem T × ListValue × Nat) :=
  let next_node := m.next ptr
  let m1 := ListValue.extractNode m ptr
  match ContainerBase.orphanPtr rfuel r c ptr with
  | Option.none => Option.none
  | some r1 =>
    let l1 := l.orphanPtr ptr
    let m2 := m1.freeNode ptr
    some (r1, m2, { l1 with size := l1.size - 1 }, next_node)

/-- `List::clear` with the registry of the list at address `c`. -/
def LinkedList.clearReg (rfuel fuel : Nat) (r : RegMem) (c : Nat) (m : ListMem T)
    (l : ListValue) : Option (RegMem × ListMem T × ListValue) :=
  match ContainerBase.orphanNonHead rfuel r c l.head with
  | Option.none => Option.none
  | some r1 =>
    match LinkedList.clear fuel m l with
    | Option.none => Option.none
    | some (m1, l1) => some (r1, m1, l1)

/-- The loop of `List::eraseRange` with the registry. -/
def eraseLoopReg (rfuel c last : Nat) :
    Nat → RegMem → ListMem T → ListValue → Nat → Option (RegMem × ListMem T × ListValue)
  | 0, _, _, _, _ => none
  | fuel + 1, r, m, l, first =>
    if first ≠ last then
      match ContainerBase.orphanPtr rfuel r c first with
      | Option.none => Option.none
      | some r1 =>
        let l1 := l.orphanPtr first
        let first1 := m.next first
        let m1 := m.freeNode first
        eraseLoopReg rfuel c last fuel r1 m1 { l1 with size := l1.size - 1 } first1
    else some (r, m, l)

/-- `List::eraseRange` with the registry of the list at address `c`. -/
def LinkedList.eraseRangeReg (rfuel fuel : Nat) (r : RegMem) (c : Nat) (m : ListMem T)
    (l : ListValue) (first last : Nat) : Option (RegMem × ListMem T × ListValue × Nat) :=
  if first = last then some (r, m, l, last)
  else if first = m.next l.head ∧ last = l.head then
    match LinkedList.clearReg rfuel fuel r c m l with
    | Option.none => Option.none
    | some (r1, m1, l1) => some (r1, m1, l1, last)
  else
    let m1 := ListValue.extractNodes m first last
    match eraseLoopReg rfuel c last fuel r m1 l first with
    | Option.none => Option.none
    | some (r2, m2, l2) => some (r2, m2, l2, last)

/-- `Tree::erase(const key_type&)` with the registry of the tree at address `c`. -/
def eraseReg (comp : K → K → Bool) (rfuel fuel : Nat) (r : RegMem) (c : Nat)
    (m : TreeMem K V) (t : TreeValue) (key : K) :
    Option (RegMem × TreeMem K V × TreeValue × Nat) :=
  match findPlaceForNode comp fuel m t key with
  | Option.none => Option.none
  | some result =>
    if result.duplicate then
      match ContainerBase.orphanPtr rfuel r c result.location.parent with
      | Option.none => Option.none
      | some r1 =>
        match extractNode fuel m (orphanPtr t result.location.parent)
            result.location.parent with
        | Option.none => Option.none
        | some (m1, t1) => some (r1, m1.freeNode result.location.parent, t1, 1)
    else some (r, m, t, 0)

/-- `Tree::eraseUnwrapped(uncheked_iterator)` for an iterator that denotes
`iter`, with the registry of the tree at address `c`: the node behind the
erased one is returned. -/
def eraseUnwrappedReg (rfuel fuel : Nat) (r : RegMem) (c : Nat) (m : TreeMem K V)
    (t : TreeValue) (iter : Nat) : Option (RegMem × TreeMem K V × TreeValue × Nat) :=
  let erased_node := iter
  match increment fuel m iter with
  | Option.none => Option.none
  | some iter1 =>
    match ContainerBase.orphanPtr rfuel r c erased_node with
    | Option.none => Option.none
    | some r1 =>
      match extractNode fuel m (orphanPtr t erased_node) erased_node with
      | Option.none => Option.none
      | some (m1, t1) => some (r1, m1.freeNode erased_node, t1, iter1)

/-- Post-order of a shape: left subtree, right subtree, node. -/
def Shape.postorder : Shape → List Nat
  | Shape.nil => []
  | Shape.node l p r => l.postorder ++ r.postorder ++ [p]

/-- The descent of `Tree::clear`: to the left child while there is one, else
to the right child, down to a leaf. -/
def descendToLeaf (m : TreeMem K V) : Nat → Nat → Option Nat
  | 0, _ => none
  | fuel + 1, ptr =>
    if !m.is_nil (m.left ptr) then descendToLeaf m fuel (m.left ptr)
    else if !m.is_nil (m.right ptr) then descendToLeaf m fuel (m.right ptr)
    else some ptr

/-- One round of the second loop of `Tree::clear`: the node visited after
`ptr`. -/
def clearNext (fuel : Nat) (m : TreeMem K V) (ptr : Nat) : Option Nat :=
  if whichChild m ptr ≠ NodeChild.left then some (m.parent ptr)
  else if !m.is_nil (m.right (m.parent ptr)) then
    descendToLeaf m fuel (m.right (m.parent ptr))
  else some (m.parent ptr)

/-- The second loop of `Tree::clear` with the registry of the tree at address
`c`: every node is visited after its two subtrees, detached from the
iterators that denote it and given back. -/
def clearLoopReg (rfuel c fuel : Nat) :
    Nat → RegMem → TreeMem K V → TreeValue → Nat → Option (RegMem × TreeMem K V × TreeValue)
  | 0, _, _, _, _ => none
  | steps + 1, r, m, t, ptr =>
    if !m.is_nil ptr then
      let erasing_node := ptr
      match clearNext fuel m ptr with
      | Option.none => Option.none
      | some ptr1 =>
        match ContainerBase.orphanPtr rfuel r c erasing_node with
        | Option.none => Option.none
        | some r1 =>
          clearLoopReg rfuel c fuel steps r1 (m.freeNode erasing_node)
            (orphanPtr t erasing_node) ptr1
    else some (r, m, t)

/-- `Tree::clear` with the registry of the tree at address `c`. -/
def clearReg (rfuel fuel : Nat) (r : RegMem) (c : Nat) (m : TreeMem K V) (t : TreeValue) :
    Option (RegMem × TreeMem K V × TreeValue) :=
  match descendToLeaf m fuel (m.parent t.head) with
  | Option.none => Option.none
  | some ptr =>
    let m1 : TreeMem K V := { m with left := upd m.left t.head t.head }
    let m2 : TreeMem K V := { m1 with parent := upd m1.parent t.head t.head }
    let m3 : TreeMem K V := { m2 with right := upd m2.right t.head t.head }
    let t1 : TreeValue := { t with size := 0 }
    clearLoopReg rfuel c fuel fuel r m3 t1 ptr

/-- The loop of `Tree::eraseUnwrapped(first, last)` with the registry:
`eraseUnwrapped(first++)` while `first != last`. -/
def eraseRangeLoopReg (rfuel fuel c last : Nat) :
    Nat → RegMem → TreeMem K V → TreeValue → Nat → Option (RegMem × TreeMem K V × TreeValue)
  | 0, _, _, _, _ => none
  | steps + 1, r, m, t, first =>
    if first ≠ last then
      match increment fuel m first with
      | Option.none => Option.none
      | some first1 =>
        match eraseUnwrappedReg rfuel fuel r c m t first with
        | Option.none => Option.none
        | some (r1, m1, t1, _) => eraseRangeLoopReg rfuel fuel c last steps r1 m1 t1 first1
    else some (r, m, t)

/-- `Tree::eraseUnwrapped(first, last)` with the registry of the tree at
address `c`. -/
def eraseUnwrappedRangeReg (rfuel fuel : Nat) (r : RegMem) (c : Nat) (m : TreeMem K V)
    (t : TreeValue) (first last : Nat) : Option (RegMem × TreeMem K V × TreeValue × Nat) :=
  match minInSubTree m fuel (m.parent t.head) with
  | Option.none => Option.none
  | some min_node =>
    if first = min_node ∧ m.is_nil last = true then
      match clearReg rfuel fuel r c m t with
      | Option.none => Option.none
      | some (r1, m1, t1) => some (r1, m1, t1, last)
    else
      match eraseRangeLoopReg rfuel fuel c last fuel r m t first with
      | Option.none => Option.none
      | some (r1, m1, t1) => some (r1, m1, t1, last)

/-- An iterator that reports no container and compares unequal to every
iterator, on either side of `==`. -/
def Orphaned (r : RegMem) (it : Nat) : Prop :=
  IteratorBase.getContainer r it = none ∧
  ∀ j, ConstIterator.beq r it j = false ∧ ConstIterator.beq r j it = false

/-- The list of scenario 4: the values 10, 20, 30, 40, 50 pushed at the back
of an empty list (head at address 0, the values at the addresses 1 to 5). -/
@[irreducible]
def sampleFive : ListMem Nat × ListValue :=
  (listOf [10, 20, 30, 40, 50]).getD (LinkedList.createEmptyList ListMem.init)

/-- Steps that build the registry of scenario 4: container 0 is the list
`sampleFive` with the record 10 at its third node and the record 11 at its
first node; container 1 is the tree `sampleTree` with the record 12 at its
node 2. -/
def erasureRegOps : List RegOp :=
  [RegOp.createProxy 0, RegOp.createProxy 1,
   RegOp.setPtr 10 3, RegOp.adopt 10 (some 0),
   RegOp.setPtr 11 1, RegOp.adopt 11 (some 0),
   RegOp.setPtr 12 2, RegOp.adopt 12 (some 1)]

/-- The registry of scenario 4. -/
def erasureRegistry : RegMem := (runRegOps 20 RegMem.init erasureRegOps).getD RegMem.init

/-- `Tree::merge`, the loop, with the registry: this tree is the container at
address `c` and `other` the container at address `other_c`; a node that
moves takes the records that denote it along (`reparentPtr`).  The position
`it` of the loop is kept as a node pointer. -/
def mergeLoopReg (comp : K → K → Bool) (rfuel fuel c other_c : Nat) :
    Nat → RegMem → TreeMem K V → TreeValue → TreeValue → Nat →
      Option (RegMem × TreeMem K V × TreeValue × TreeValue)
  | 0, _, _, _, _, _ => none
  | steps + 1, r, m, t, other, it =>
    if m.is_nil it then some (r, m, t, other)
    else
      match increment fuel m it with
      | Option.none => Option.none
      | some next_it =>
        match findPlaceForNode comp fuel m t (m.key it) with
        | Option.none => Option.none
        | some result =>
          if result.duplicate then
            mergeLoopReg comp rfuel fuel c other_c steps r m t other next_it
          else
            match extractNode fuel m other it with
            | Option.none => Option.none
            | some (m1, other1) =>
              let m2 : TreeMem K V :=
                { m1 with
                  left := upd m1.left it t.head
                  right := upd m1.right it t.head
                  height := upd m1.height it 1 }
              match insertNode fuel m2 t result.location it with
              | Option.none => Option.none
              | some (m3, t3, _) =>
                match ContainerBase.reparentPtr rfuel r c other_c it with
                | Option.none => Option.none
                | some r1 =>
                  mergeLoopReg comp rfuel fuel c other_c steps r1 m3 (reparentPtr t3 other1 it).1
                    (reparentPtr t3 other1 it).2 next_it

/-- `Tree::merge(other)` with the registry, for this tree at address `c` and
`other` at address `other_c`. -/
def mergeReg (comp : K → K → Bool) (rfuel fuel : Nat) (r : RegMem) (c other_c : Nat)
    (m : TreeMem K V) (t other : TreeValue) :
    Option (RegMem × TreeMem K V × TreeValue × TreeValue) :=
  if c = other_c then some (r, m, t, other)
  else mergeLoopReg comp rfuel fuel c other_c fuel r m t other (m.left other.head)

/-- Steps that build the registry used with the two trees `sampleTwo`:
container 0 is the first tree with the record 13 at its node 1; container 1
is the second tree with the record 10 at its node 4, the record 11 at its
node 5 and the record 12 at its head 3 (`end()`). -/
def mergeRegOps : List RegOp :=
  [RegOp.createProxy 0, RegOp.createProxy 1,
   RegOp.setPtr 10 4, RegOp.adopt 10 (some 1),
   RegOp.setPtr 11 5, RegOp.adopt 11 (some 1),
   RegOp.setPtr 12 3, RegOp.adopt 12 (some 1),
   RegOp.setPtr 13 1, RegOp.adopt 13 (some 0)]

/-- The registry used with the two trees `sampleTwo`. -/
def mergeRegistry : RegMem := (runRegOps 20 RegMem.init mergeRegOps).getD RegMem.init

/-- The number of registered records is below `n`. -/
def RecordsBelow (r : RegMem) (n : Nat) : Prop :=
  ∃ all : List Nat, all.length < n ∧ RegisteredIn r all

/-- What `Hash<Traits>` is instantiated with: the key of a value, the hash
function and the key equality.  Floating point is not modelled: `F` stands
for `float`, and the expressions of the source that compute with it are
fields: `one` is `1.0f`, `positive f` is `f > 0`, `quotient n f` is
`static_cast<size_type>(static_cast<float>(n) / f)` and `exceeds f size count`
is `f < static_cast<float>(size) / static_cast<float>(count)`. -/
structure HashTraits (Key T F : Type) where
  getKeyFromValue : T → Key
  hash_ : Key → Nat
  equal_ : Key → Key → Bool
  one : F
  positive : F → Bool
  quotient : Nat → F → Nat
  exceeds : F → Nat → Nat → Bool

/-- The members of `HashVector`: the two fields of each `VectorValue`, by the
index of the bucket, and `size_`. -/
structure HashVector where
  first_ : Nat → Nat
  last_ : Nat → Nat
  size_ : Nat

/-- `FindResult`: the duplicate, if any, and the index of the bucket. -/
structure FindResult where
  duplicate : Option Nat
  bucket : Nat
  deriving DecidableEq, Repr

/-- The members of `Hash` next to the node memory and the traits. -/
structure HashTable (F : Type) where
  list_ : ListValue
  vector_ : HashVector
  max_load_factor_ : F

/-- `Hash::min_buckets_`. -/
def Hash.min_buckets_ : Nat := 8

/-- `HashVector(alloc)`: no buckets yet, `size_{ 1 }`. -/
def HashVector.new : HashVector := { first_ := fun _ => 0, last_ := fun _ => 0, size_ := 1 }

/-- `HashVector::maxSize`: the smaller of
`numeric_limits<difference_type>::max()` and `AllocTraits::max_size(alloc_)`,
the limit `alloc_max_size` of the allocator. -/
def HashVector.maxSize (alloc_max_size : Nat) : Nat := min (2 ^ 63 - 1) alloc_max_size

/-- `HashVector::checkGrow`: whether the assertion `maxSize() >= size`
holds. -/
def HashVector.checkGrow (alloc_max_size size : Nat) : Bool :=
  decide (HashVector.maxSize alloc_max_size ≥ size)

/-- `HashVector::resize`: `new_size` buckets, each holding `(head, head)`.
This is the vector after a call whose assertion `checkGrow(new_size)` holds
and whose allocation succeeds; the limit of the allocator is not part of the
state, so a statement that a call returns has to bound the bucket counts it
asks for. -/
def HashVector.resize (_v : HashVector) (new_size head : Nat) : HashVector :=
  { first_ := fun _ => head, last_ := fun _ => head, size_ := new_size }

/-- `Hash::bucketCount`. -/
def Hash.bucketCount {F : Type} (h : HashTable F) : Nat := h.vector_.size_

/-- `Hash::size`. -/
def Hash.size {F : Type} (h : HashTable F) : Nat := h.list_.size

/-- The loop of `Hash::getRequiredBucketsAmount`: `cur_buckets <<= 1` while
`req_buckets >= cur_buckets`, in `size_type`. -/
def growBuckets (req_buckets : Nat) : Nat → Nat → Option Nat
  | 0, _ => none
  | fuel + 1, cur_buckets =>
    if req_buckets ≥ cur_buckets then growBuckets req_buckets fuel (sizeWrap (cur_buckets * 2))
    else some cur_buckets

/-- `Hash::getRequiredBucketsAmount`. -/
def Hash.getRequiredBucketsAmount {Key T F : Type} (tr : HashTraits Key T F) (fuel : Nat)
    (h : HashTable F) (for_size : Nat) : Option Nat :=
  let req_buckets := max (tr.quotient for_size h.max_load_factor_) Hash.min_buckets_
  let cur_buckets := Hash.bucketCount h
  if cur_buckets ≥ req_buckets then some cur_buckets
  else if cur_buckets < 512 ∧ sizeWrap (cur_buckets * 8) ≥ req_buckets then
    some (sizeWrap (cur_buckets * 8))
  else growBuckets req_buckets fuel cur_buckets

/-- The key read through `ptr->value`; the value of the head sentinel is
never constructed and reading it has no result. -/
def Hash.keyAt {Key T F : Type} (tr : HashTraits Key T F) (m : ListMem T) (head ptr : Nat) :
    Option Key :=
  if ptr = head then none else some (tr.getKeyFromValue (m.value ptr))

/-- `Hash::getBucket`: the index of the bucket of `key`. -/
def Hash.getBucket {Key T F : Type} (tr : HashTraits Key T F) (v : HashVector) (key : Key) :
    Nat :=
  sizeWrap (tr.hash_ key) % v.size_

/-- The loop of `Hash::findPlace`. -/
def hashFindLoop {Key T F : Type} (tr : HashTraits Key T F) (m : ListMem T) (head : Nat)
    (key : Key) (last : Nat) : Nat → Nat → Option (Option Nat)
  | 0, _ => none
  | fuel + 1, ptr =>
    if ptr ≠ last then
      match Hash.keyAt tr m head ptr with
      | Option.none => Option.none
      | some k =>
        if tr.equal_ k key then some (some ptr)
        else hashFindLoop tr m head key last fuel (m.next ptr)
    else some Option.none

/-- `Hash::findPlace`. -/
def Hash.findPlace {Key T F : Type} (tr : HashTraits Key T F) (fuel : Nat) (m : ListMem T)
    (h : HashTable F) (key : Key) : Option FindResult :=
  let bucket := Hash.getBucket tr h.vector_ key
  let ptr := h.vector_.first_ bucket
  let last := m.next (h.vector_.last_ bucket)
  if ptr = h.list_.head then some { duplicate := none, bucket := bucket }
  else
    match hashFindLoop tr m h.list_.head key last fuel ptr with
    | Option.none => Option.none
    | some d => some { duplicate := d, bucket := bucket }

/-- The loop of `Hash::rehashHashVector`. -/
def rehashLoop {Key T F : Type} (tr : HashTraits Key T F) (list_head : Nat) :
    Nat → ListMem T → HashVector → Nat → Option (ListMem T × HashVector)
  | 0, _, _, _ => none
  | fuel + 1, m, v, ptr =>
    if ptr ≠ list_head then
      match Hash.keyAt tr m list_head ptr with
      | Option.none => Option.none
      | some key =>
        let bucket := Hash.getBucket tr v key
        if v.first_ bucket = list_head then
          let v1 : HashVector := { v with first_ := upd v.first_ bucket ptr }
          let v2 : HashVector := { v1 with last_ := upd v1.last_ bucket ptr }
          rehashLoop tr list_head fuel m v2 (m.next ptr)
        else
          let next_ptr := m.next ptr
          let m1 := ListValue.extractNode m ptr
          let old_first := v.first_ bucket
          let m2 : ListMem T := { m1 with next := upd m1.next ptr old_first }
          let m3 : ListMem T := { m2 with prev := upd m2.prev ptr (m2.prev old_first) }
          let m4 : ListMem T := { m3 with next := upd m3.next (m3.prev old_first) ptr }
          let m5 : ListMem T := { m4 with prev := upd m4.prev old_first ptr }
          let v1 : HashVector := { v with first_ := upd v.first_ bucket ptr }
          rehashLoop tr list_head fuel m5 v1 next_ptr
    else some (m, v)

/-- `Hash::rehashHashVector`. -/
def Hash.rehashHashVector {Key T F : Type} (tr : HashTraits Key T F) (fuel : Nat)
    (m : ListMem T) (h : HashTable F) : Option (ListMem T × HashTable F) :=
  let list_head := h.list_.head
  match rehashLoop tr list_head fuel m h.vector_ (m.next list_head) with
  | Option.none => Option.none
  | some (m1, v1) => some (m1, { h with vector_ := v1 })

/-- `Hash::emplace` from `++list_.list_value.size` on, for the new node
`node` held by `tmp` and the place `result` found for its key. -/
def Hash.emplaceNew {Key T F : Type} (tr : HashTraits Key T F) (fuel : Nat) (m : ListMem T)
    (h : HashTable F) (tmp : ListTmpNodes) (node : Nat) (result : FindResult) :
    Option (ListMem T × HashTable F × Nat × Bool) :=
  let size := h.list_.size + 1
  let h1 : HashTable F := { h with list_ := { h.list_ with size := size } }
  let list_head := h1.list_.head
  let grown : Option (ListMem T × HashTable F × FindResult) :=
    if tr.exceeds h1.max_load_factor_ (Hash.size h1) (Hash.bucketCount h1) then
      match Hash.getRequiredBucketsAmount tr fuel h1 size with
      | Option.none => Option.none
      | some n =>
        let h2 : HashTable F := { h1 with vector_ := h1.vector_.resize n list_head }
        match Hash.rehashHashVector tr fuel m h2 with
        | Option.none => Option.none
        | some (m2, h3) =>
          match Hash.findPlace tr fuel m2 h3 (tr.getKeyFromValue (m2.value node)) with
          | Option.none => Option.none
          | some result1 => some (m2, h3, result1)
    else some (m, h1, result)
  match grown with
  | Option.none => Option.none
  | some (m2, h3, result1) =>
    match ListTmpNodes.insertNodes m2 tmp (h3.vector_.first_ result1.bucket) with
    | Option.none => Option.none
    | some (m3, _, new_node) =>
      let v := h3.vector_
      let v1 : HashVector :=
        if v.last_ result1.bucket = list_head then
          { v with last_ := upd v.last_ result1.bucket new_node }
        else v
      let v2 : HashVector := { v1 with first_ := upd v1.first_ result1.bucket new_node }
      some (m3, { h3 with vector_ := v2 }, new_node, true)

/-- `Hash::emplace` for one argument of the value type: the node that holds
the key and whether it is new.  With an extractable key the place is looked
up before the node is made; otherwise the node is made first and given back
when the key is present. -/
def Hash.emplace {Key T F : Type} (tr : HashTraits Key T F) (fuel : Nat) (extractable : Bool)
    (m : ListMem T) (h : HashTable F) (value : T) :
    Option (ListMem T × HashTable F × Nat × Bool) :=
  if extractable then
    match Hash.findPlace tr fuel m h (tr.getKeyFromValue value) with
    | Option.none => Option.none
    | some result =>
      match result.duplicate with
      | some d => some (m, h, d, false)
      | Option.none =>
        let c := ListTmpNodes.createNode m ListTmpNodes.new value
        Hash.emplaceNew tr fuel c.1 h c.2 m.fresh result
  else
    let c := ListTmpNodes.createNode m ListTmpNodes.new value
    match Hash.findPlace tr fuel c.1 h (tr.getKeyFromValue (c.1.value m.fresh)) with
    | Option.none => Option.none
    | some result =>
      match result.duplicate with
      | some d => some (c.1.freeNode m.fresh, h, d, false)
      | Option.none => Hash.emplaceNew tr fuel c.1 h c.2 m.fresh result

/-- `Hash::eraseNode`. -/
def Hash.eraseNode {Key T F : Type} (tr : HashTraits Key T F) (m : ListMem T)
    (h : HashTable F) (ptr : Nat) : Option (ListMem T × HashTable F × Nat) :=
  match Hash.keyAt tr m h.list_.head ptr with
  | Option.none => Option.none
  | some key =>
    let bucket := Hash.getBucket tr h.vector_ key
    let v := h.vector_
    let v1 : HashVector :=
      if v.first_ bucket = ptr then
        if v.last_ bucket = ptr then
          let list_head := h.list_.head
          let w : HashVector := { v with first_ := upd v.first_ bucket list_head }
          { w with last_ := upd w.last_ bucket list_head }
        else { v with first_ := upd v.first_ bucket (m.next ptr) }
      else if v.last_ bucket = ptr then { v with last_ := upd v.last_ bucket (m.prev ptr) }
      else v
    let r := LinkedList.eraseNode m h.list_ ptr
    some (r.1, { h with list_ := r.2.1, vector_ := v1 }, r.2.2)

/-- The loop of `Hash::eraseRange` over the buckets inside the range. -/
def hashEraseRangeLoop {Key T F : Type} (tr : HashTraits Key T F) (m : ListMem T)
    (list_head last_bucket : Nat) : Nat → HashVector → Nat → Option HashVector
  | 0, _, _ => none
  | fuel + 1, v, bucket =>
    if v.first_ last_bucket ≠ v.first_ bucket then
      let next_ptr := m.next (v.last_ bucket)
      let v1 : HashVector := { v with first_ := upd v.first_ bucket list_head }
      let v2 : HashVector := { v1 with last_ := upd v1.last_ bucket list_head }
      match Hash.keyAt tr m list_head next_ptr with
      | Option.none => Option.none
      | some key => hashEraseRangeLoop tr m list_head last_bucket fuel v2 (Hash.getBucket tr v2 key)
    else some v

/-- `Hash::eraseRange`. -/
def Hash.eraseRange {Key T F : Type} (tr : HashTraits Key T F) (fuel : Nat) (m : ListMem T)
    (h : HashTable F) (first last : Nat) : Option (ListMem T × HashTable F × Nat) :=
  let list_head := h.list_.head
  match Hash.keyAt tr m list_head last, Hash.keyAt tr m list_head first with
  | some last_key, some first_key =>
    let v := h.vector_
    let last_bucket := Hash.getBucket tr v last_key
    let bucket := Hash.getBucket tr v first_key
    let next_ptr := m.next (v.last_ bucket)
    let v1 : HashVector :=
      if v.first_ bucket = first then
        let w : HashVector := { v with first_ := upd v.first_ bucket list_head }
        { w with last_ := upd w.last_ bucket list_head }
      else { v with last_ := upd v.last_ bucket (m.prev first) }
    match Hash.keyAt tr m list_head next_ptr with
    | Option.none => Option.none
    | some next_key =>
      match hashEraseRangeLoop tr m list_head last_bucket fuel v1
          (Hash.getBucket tr v1 next_key) with
      | Option.none => Option.none
      | some v2 =>
        let v3 : HashVector := { v2 with first_ := upd v2.first_ last_bucket last }
        match LinkedList.eraseRange fuel m h.list_ first last with
        | Option.none => Option.none
        | some (m1, l1, ret) => some (m1, { h with list_ := l1, vector_ := v3 }, ret)
  | _, _ => none

/-- `Hash::erase(const key_type&)`. -/
def Hash.erase {Key T F : Type} (tr : HashTraits Key T F) (fuel : Nat) (m : ListMem T)
    (h : HashTable F) (key : Key) : Option (ListMem T × HashTable F × Nat) :=
  match Hash.findPlace tr fuel m h key with
  | Option.none => Option.none
  | some result =>
    match result.duplicate with
    | some d =>
      match Hash.eraseNode tr m h d with
      | Option.none => Option.none
      | some (m1, h1, _) => some (m1, h1, 1)
    | Option.none => some (m, h, 0)

/-- `Hash::find`: the node that holds `key`, or the head sentinel (`end()`). -/
def Hash.find {Key T F : Type} (tr : HashTraits Key T F) (fuel : Nat) (m : ListMem T)
    (h : HashTable F) (key : Key) : Option Nat :=
  match Hash.findPlace tr fuel m h key with
  | Option.none => Option.none
  | some result => some (result.duplicate.getD h.list_.head)

/-- `Hash::rehash`. -/
def Hash.rehash {Key T F : Type} (tr : HashTraits Key T F) (fuel : Nat) (m : ListMem T)
    (h : HashTable F) (buckets : Nat) : Option (ListMem T × HashTable F) :=
  match Hash.getRequiredBucketsAmount tr fuel h buckets with
  | Option.none => Option.none
  | some req_buckets =>
    if Hash.bucketCount h ≠ req_buckets then
      Hash.rehashHashVector tr fuel m
        { h with vector_ := h.vector_.resize req_buckets h.list_.head }
    else some (m, h)

/-- `Hash::clear`. -/
def Hash.clear {T F : Type} (fuel : Nat) (m : ListMem T) (h : HashTable F) :
    Option (ListMem T × HashTable F) :=
  let list_head := h.list_.head
  match LinkedList.clear fuel m h.list_ with
  | Option.none => Option.none
  | some (m1, l1) =>
    some (m1, { h with list_ := l1, vector_ := h.vector_.resize Hash.min_buckets_ list_head })

/-- `Hash::maxLoadFactor(float)`; the assertion on the argument is part of
the contract. -/
def Hash.maxLoadFactor {Key T F : Type} (tr : HashTraits Key T F) (h : HashTable F)
    (new_max_load_factor : F) : Option (HashTable F) :=
  if tr.positive new_max_load_factor then
    some { h with max_load_factor_ := new_max_load_factor }
  else none

/-- `Hash(bucket_count, hash, equal, alloc)`: an empty list, a vector of
`getRequiredBucketsAmount(bucket_count)` empty buckets and the load factor
`1.0f`. -/
def Hash.create {Key T F : Type} (tr : HashTraits Key T F) (fuel : Nat) (m : ListMem T)
    (bucket_count : Nat) : Option (ListMem T × HashTable F) :=
  let c := LinkedList.createEmptyList m
  let h : HashTable F := { list_ := c.2, vector_ := HashVector.new, max_load_factor_ := tr.one }
  match Hash.getRequiredBucketsAmount tr fuel h bucket_count with
  | Option.none => Option.none
  | some n => some (c.1, { h with vector_ := h.vector_.resize n h.list_.head })

/-- One step of a client of the hash table. -/
inductive HashOp (Key T F : Type) where
  | emplace (value : T)
  | eraseNode (ptr : Nat)
  | eraseRange (first last : Nat)
  | erase (key : Key)
  | rehash (buckets : Nat)
  | clear
  | maxLoadFactor (f : F)

/-- The table after one step. -/
def applyHashOp {Key T F : Type} (tr : HashTraits Key T F) (fuel : Nat) (extractable : Bool)
    (s : ListMem T × HashTable F) : HashOp Key T F → Option (ListMem T × HashTable F)
  | HashOp.emplace value => (Hash.emplace tr fuel extractable s.1 s.2 value).map
      (fun r => (r.1, r.2.1))
  | HashOp.eraseNode ptr => (Hash.eraseNode tr s.1 s.2 ptr).map (fun r => (r.1, r.2.1))
  | HashOp.eraseRange first last => (Hash.eraseRange tr fuel s.1 s.2 first last).map
      (fun r => (r.1, r.2.1))
  | HashOp.erase key => (Hash.erase tr fuel s.1 s.2 key).map (fun r => (r.1, r.2.1))
  | HashOp.rehash buckets => Hash.rehash tr fuel s.1 s.2 buckets
  | HashOp.clear => Hash.clear fuel s.1 s.2
  | HashOp.maxLoadFactor f => (Hash.maxLoadFactor tr s.2 f).map (fun h => (s.1, h))

/-- The table after a sequence of steps. -/
def runHashOps {Key T F : Type} (tr : HashTraits Key T F) (fuel : Nat) (extractable : Bool) :
    ListMem T × HashTable F → List (HashOp Key T F) → Option (ListMem T × HashTable F)
  | s, [] => some s
  | s, op :: ops =>
    match applyHashOp tr fuel extractable s op with
    | Option.none => Option.none
    | some s1 => runHashOps tr fuel extractable s1 ops

/-- Traits used to instantiate the theorems: natural numbers as keys and
values, the identity as hash function, and a positive natural number in the
place of the load factor. -/
def natHashTraits : HashTraits Nat Nat Nat :=
  { getKeyFromValue := fun v => v
    hash_ := fun k => k
    equal_ := fun a b => decide (a = b)
    one := 1
    positive := fun f => decide (0 < f)
    quotient := fun n f => n / f
    exceeds := fun f size count => decide (f * count < size) }

/-- A bucket count the table may have: a power of two that is at least 8 and
fits `size_type`. -/
def GoodCount (n : Nat) : Prop := ∃ k, 3 ≤ k ∧ k ≤ 63 ∧ n = 2 ^ k

/-- Steps of the sample run on a hash table: nine insertions (the ninth makes
the table grow), an erasure by key, `rehash(100)`, a new load factor, one
more insertion and `clear`. -/
def sampleHashOps : List (HashOp Nat Nat Nat) :=
  [HashOp.emplace 1, HashOp.emplace 2, HashOp.emplace 3, HashOp.emplace 4, HashOp.emplace 5,
   HashOp.emplace 6, HashOp.emplace 7, HashOp.emplace 8, HashOp.emplace 9, HashOp.erase 3,
   HashOp.rehash 100, HashOp.maxLoadFactor 2, HashOp.emplace 20, HashOp.clear]

/-- The table made by `Hash(0, hash, equal, alloc)` in fresh memory. -/
def sampleHash : ListMem Nat × HashTable Nat :=
  (Hash.create natHashTraits 70 ListMem.init 0).getD
    (ListMem.init,
      { list_ := (LinkedList.createEmptyList (ListMem.init : ListMem Nat)).2
        vector_ := HashVector.new
        max_load_factor_ := 1 })

/-- The table at the end of the sample run. -/
def sampleHashEnd : ListMem Nat × HashTable Nat :=
  (runHashOps natHashTraits 70 true sampleHash sampleHashOps).getD sampleHash

/-- The first loop of `List::copyOrMoveList` (this list is at least as long
as `other`): the values of `other` are written over the values of this list,
position by position, until `other` is exhausted.  The result is the memory
and the two positions. -/
def copyLoopOther (other_head : Nat) : Nat → ListMem T → Nat → Nat → Option (ListMem T × Nat × Nat)
  | 0, _, _, _ => none
  | fuel + 1, m, insert_node, revalue_node =>
    if insert_node ≠ other_head then
      let m1 : ListMem T := { m with value := upd m.value revalue_node (m.value insert_node) }
      copyLoopOther other_head fuel m1 (m1.next insert_node) (m1.next revalue_node)
    else some (m, insert_node, revalue_node)

/-- The second loop of `List::copyOrMoveList` (this list is shorter than
`other`): the same body, until this list is exhausted. -/
def copyLoopThis (head : Nat) : Nat → ListMem T → Nat → Nat → Option (ListMem T × Nat × Nat)
  | 0, _, _, _ => none
  | fuel + 1, m, insert_node, revalue_node =>
    if revalue_node ≠ head then
      let m1 : ListMem T := { m with value := upd m.value revalue_node (m.value insert_node) }
      copyLoopThis head fuel m1 (m1.next insert_node) (m1.next revalue_node)
    else some (m, insert_node, revalue_node)

/-- The loop of `ListTmpNodes::createNodesFromRange` for a range given by two
unchecked iterators of a list: `*first` is read from the node and `++first`
follows its `next` link. -/
def createFromLoop (last : Nat) : Nat → ListMem T → Nat → Nat → Nat → Option (ListMem T × Nat × Nat)
  | 0, _, _, _, _ => none
  | fuel + 1, m, first, tmp_last, added =>
    if first ≠ last then
      let m1 : ListMem T := { m with next := upd m.next tmp_last m.fresh, fresh := m.fresh + 1 }
      let m2 : ListMem T := { m1 with prev := upd m1.prev (m1.next tmp_last) tmp_last }
      let last1 := m2.next tmp_last
      let m3 : ListMem T := { m2 with value := upd m2.value last1 (m2.value first) }
      createFromLoop last fuel m3 (m3.next first) last1 (added + 1)
    else some (m, tmp_last, added)

/-- `ListTmpNodes::createNodesFromRange` for a range given by two unchecked
iterators of a list: nothing at all for the empty range. -/
def ListTmpNodes.createNodesFromIters (fuel : Nat) (m : ListMem T) (tmp : ListTmpNodes)
    (first last : Nat) : Option (ListMem T × ListTmpNodes) :=
  if first = last then some (m, tmp)
  else
    let node := m.fresh
    let m1 : ListMem T :=
      { m with value := upd m.value node (m.value first), fresh := m.fresh + 1 }
    match createFromLoop last fuel m1 (m1.next first) node (tmp.added + 1) with
    | Option.none => Option.none
    | some r => some (r.1, { first := some node, last := some r.2.1, added := r.2.2 })

/-- `List::insertRange` for a range given by two unchecked iterators of a list. -/
def LinkedList.insertRangeFrom (fuel : Nat) (m : ListMem T) (l : ListValue)
    (where_ first last : Nat) : Option (ListMem T × ListValue × Nat) :=
  match ListTmpNodes.createNodesFromIters fuel m ListTmpNodes.new first last with
  | Option.none => Option.none
  | some (m1, tmp) =>
    let l1 : ListValue := { l with size := l.size + tmp.added }
    match ListTmpNodes.insertNodes m1 tmp where_ with
    | Option.none => Option.none
    | some (m2, _, node) => some (m2, l1, node)

/-- `List::copyOrMoveList(other, CopyTag)`. -/
def LinkedList.copyOrMoveList (fuel : Nat) (m : ListMem T) (l other : ListValue) :
    Option (ListMem T × ListValue) :=
  let other_head := other.head
  let insert_node := m.next other.head
  let head := l.head
  let revalue_node := m.next l.head
  if l.size ≥ other.size then
    match copyLoopOther other_head fuel m insert_node revalue_node with
    | Option.none => Option.none
    | some (m1, _, revalue_node1) =>
      match LinkedList.eraseRange fuel m1 l revalue_node1 head with
      | Option.none => Option.none
      | some (m2, l2, _) => some (m2, { l2 with size := other.size })
  else
    match copyLoopThis head fuel m insert_node revalue_node with
    | Option.none => Option.none
    | some (m1, insert_node1, _) =>
      match LinkedList.insertRangeFrom fuel m1 l head insert_node1 other_head with
      | Option.none => Option.none
      | some (m2, l2, _) => some (m2, { l2 with size := other.size })

/-- The statements of `List::operator=(const List&)` with an allocator that
is always equal, for this list at the address `c` and `other` at the address
`other_c`, as they run when the call `copyOrMoveList(other, CopyTag{})` is
accepted, that is with the parameter of `copyOrMoveList` declared
`const List&`. -/
def LinkedList.copyAssignBody (fuel c other_c : Nat) (m : ListMem T) (l other : ListValue) :
    Option (ListMem T × ListValue) :=
  if c = other_c then some (m, l) else LinkedList.copyOrMoveList fuel m l other

/-- Reference binding of an lvalue argument to a parameter of type `List&`
(`param_const = false`) or `const List&`: a reference to non-const does not
bind to an lvalue of type `const List` (`arg_const = true`). -/
def bindsReference (param_const arg_const : Bool) : Bool := param_const || !arg_const

/-- `List::operator=(const List& other)` as written (`List.h` l.358-373): it
passes its parameter, an lvalue of type `const List`, to
`copyOrMoveList(List& other, Tag tag)` (l.331).  The argument does not bind,
the operator is ill-formed as soon as it is instantiated, and no program has
a result of `a = b`. -/
def LinkedList.copyAssign (fuel c other_c : Nat) (m : ListMem T) (l other : ListValue) :
    Option (ListMem T × ListValue) :=
  if bindsReference false true then LinkedList.copyAssignBody fuel c other_c m l other
  else none

/-- `List::emplaceFront`: `emplaceNode(list_value.head->next->next, args...)`;
the node whose `value` the returned reference denotes is the last component. -/
def LinkedList.emplaceFront (m : ListMem T) (l : ListValue) (value : T) :
    Option (ListMem T × ListValue × Nat) :=
  LinkedList.emplaceNode m l (m.next (m.next l.head)) value

/-- `List::front`: `list_value.head->next->value`.  On the empty list the
node is the head sentinel, whose value is never constructed, and reading it
has no result. -/
def LinkedList.front (m : ListMem T) (l : ListValue) : Option T :=
  if m.next l.head = l.head then none else some (m.value (m.next l.head))

/-- The ring of a hash table whose buckets, in the order of the ring, are the
runs of `G`: each element of `G` is the index of a bucket and its nodes. -/
def joinRuns : List (Nat × List Nat) → List Nat
  | [] => []
  | g :: G => g.2 ++ joinRuns G

/-- The descriptors of the vector `v` describe the runs `G`: no index occurs
twice, each run is not empty, holds nodes whose key falls into the bucket of
its index, and starts and ends where `first_` and `last_` of the bucket say;
every other bucket holds `(head, head)`. -/
structure Buckets {Key F : Type} (tr : HashTraits Key T F) (value : Nat → T) (head : Nat)
    (v : HashVector) (G : List (Nat × List Nat)) : Prop where
  idx : (G.map Prod.fst).Nodup
  runs : ∀ g ∈ G, g.2 ≠ [] ∧
    (∀ a ∈ g.2, Hash.getBucket tr v (tr.getKeyFromValue (value a)) = g.1) ∧
    v.first_ g.1 = g.2.head?.getD head ∧ v.last_ g.1 = g.2.getLast?.getD head
  empties : ∀ b, b ∉ G.map Prod.fst → v.first_ b = head ∧ v.last_ b = head

/-- Well-formedness of a hash table: the list is well formed on the nodes of
the runs `G`, in this order, and the vector describes these runs. -/
structure HashInv {Key F : Type} (tr : HashTraits Key T F) (m : ListMem T) (h : HashTable F)
    (G : List (Nat × List Nat)) : Prop where
  list : ListInv m h.list_ (joinRuns G)
  buckets : Buckets tr m.value h.list_.head h.vector_ G

/-- Whether a step may be taken in the state `s`: `erase(iterator)` asks for
an iterator that denotes a node of the table, and the steps by range are left
out. -/
def HashOp.valid {Key T F : Type} (fuel : Nat) (s : ListMem T × HashTable F) :
    HashOp Key T F → Bool
  | HashOp.eraseNode ptr => decide (ptr ∈ (LinkedList.traverse fuel s.1 s.2.list_).getD [])
  | HashOp.eraseRange _ _ => false
  | _ => true

/-- Whether every step of a sequence may be taken in the state in which it
is taken. -/
def hashOpsValid {Key T F : Type} (tr : HashTraits Key T F) (fuel : Nat) (extractable : Bool) :
    ListMem T × HashTable F → List (HashOp Key T F) → Bool
  | _, [] => true
  | s, op :: ops =>
    HashOp.valid fuel s op &&
      (match applyHashOp tr fuel extractable s op with
       | Option.none => true
       | some s1 => hashOpsValid tr fuel extractable s1 ops)

/-- Bucket contiguity of the table `h` whose ring holds the nodes `xs`: each
bucket either holds `(head, head)` while no node of the ring falls into it, or
its `first_` and `last_` are the ends of one stretch of the ring that holds
exactly the nodes that fall into it, and the node behind `last_` is the head
or the first node of another bucket. -/
def BucketContiguous {Key F : Type} (tr : HashTraits Key T F) (m : ListMem T)
    (h : HashTable F) (xs : List Nat) : Prop :=
  ∀ b, b < Hash.bucketCount h →
    (h.vector_.first_ b = h.list_.head ∧ h.vector_.last_ b = h.list_.head ∧
      ∀ a ∈ xs, Hash.getBucket tr h.vector_ (tr.getKeyFromValue (m.value a)) ≠ b) ∨
    (∃ pre run post, xs = pre ++ run ++ post ∧
      run.head? = some (h.vector_.first_ b) ∧ run.getLast? = some (h.vector_.last_ b) ∧
      (∀ a ∈ xs, a ∈ run ↔ Hash.getBucket tr h.vector_ (tr.getKeyFromValue (m.value a)) = b) ∧
      (m.next (h.vector_.last_ b) = h.list_.head ∨
        ∃ b', b' ≠ b ∧ b' < Hash.bucketCount h ∧
          m.next (h.vector_.last_ b) = h.vector_.first_ b' ∧
          h.vector_.first_ b' ≠ h.list_.head))

/-- Steps of a run with every kind of step of the contiguity claim: three
insertions (keys 1 and 9 fall into the same bucket), the erasure of the node
of key 9 through an iterator (the node at address 2), an erasure by key,
`rehash(100)` and one more insertion. -/
def contiguityOps : List (HashOp Nat Nat Nat) :=
  [HashOp.emplace 1, HashOp.emplace 9, HashOp.emplace 2, HashOp.eraseNode 2, HashOp.erase 1,
   HashOp.rehash 100, HashOp.emplace 17]

/-- The table at the end of the run `contiguityOps`. -/
def contiguityEnd : ListMem Nat × HashTable Nat :=
  (runHashOps natHashTraits 70 true sampleHash contiguityOps).getD sampleHash

/-- Steps of the run against the load factor bound: the maximal load factor
is set to 2, then the keys 1 to 17 are inserted. -/
def loadFactorOps : List (HashOp Nat Nat Nat) :=
  HashOp.maxLoadFactor 2 :: (List.range 17).map (fun k => HashOp.emplace (k + 1))

/-- The table after the insertions of 1, 9 and 2: the ring holds 9, 1, 2 at
the addresses 2, 1, 3 (head at address 0); the keys 9 and 1 are the run of
bucket 1 and the key 2 is the run of bucket 2. -/
def rangeTable : ListMem Nat × HashTable Nat :=
  (runHashOps natHashTraits 70 true sampleHash (contiguityOps.take 3)).getD sampleHash

/-- Steps of the run against the size bound of `rehash`: with the maximal
load factor 2 the keys 1 to 16 are inserted into the 8 buckets, then the
maximal load factor is set to 1 and `rehash(1)` is called. -/
def rehashSizeOps : List (HashOp Nat Nat Nat) :=
  HashOp.maxLoadFactor 2 :: (List.range 16).map (fun k => HashOp.emplace (k + 1))
    ++ [HashOp.maxLoadFactor 1, HashOp.rehash 1]

/-- The requirements on the key equality of a hash table: an equivalence
whose equal keys have equal hashes. -/
structure HashLawful {Key F : Type} (tr : HashTraits Key T F) : Prop where
  refl : ∀ a, tr.equal_ a a = true
  symm : ∀ a b, tr.equal_ a b = true → tr.equal_ b a = true
  trans : ∀ a b c, tr.equal_ a b = true → tr.equal_ b c = true → tr.equal_ a c = true
  hash_eq : ∀ a b, tr.equal_ a b = true → tr.hash_ a = tr.hash_ b

/-- The steps of the finite-set claim: insertion, erasure through an
iterator, erasure by key, and `rehash`. -/
def HashOp.isSetOp {Key T F : Type} : HashOp Key T F → Bool
  | HashOp.emplace _ => true
  | HashOp.eraseNode _ => true
  | HashOp.erase _ => true
  | HashOp.rehash _ => true
  | _ => false

/-- Whether a step asks for at most `B` buckets by itself: `rehash(n)` with
`n ≤ B`. -/
def HashOp.within {Key T F : Type} (B : Nat) : HashOp Key T F → Bool
  | HashOp.rehash n => decide (n ≤ B)
  | _ => true

/-- Specification side: the finite set after the insertion of `k`, a list of
keys of which no two are equal. -/
def specHashInsert {Key T F : Type} (tr : HashTraits Key T F) (S : List Key) (k : Key) :
    List Key :=
  if S.any (fun x => tr.equal_ x k) then S else k :: S

/-- Specification side: the finite set after the erasure of `k`. -/
def specHashErase {Key T F : Type} (tr : HashTraits Key T F) (S : List Key) (k : Key) :
    List Key :=
  S.filter (fun x => !tr.equal_ x k)

/-- Specification side: the finite set after one step taken in the state
`s`; the key erased through an iterator is the key of the node it denotes. -/
def specHashStep {Key T F : Type} (tr : HashTraits Key T F) (s : ListMem T × HashTable F)
    (S : List Key) : HashOp Key T F → List Key
  | HashOp.emplace value => specHashInsert tr S (tr.getKeyFromValue value)
  | HashOp.eraseNode ptr => specHashErase tr S (tr.getKeyFromValue (s.1.value ptr))
  | HashOp.erase key => specHashErase tr S key
  | HashOp.clear => []
  | _ => S

/-- Specification side: the finite set of the keys inserted and not erased
afterwards, along a sequence of steps from the state `s`. -/
def specHashRun {Key T F : Type} (tr : HashTraits Key T F) (fuel : Nat) (extractable : Bool) :
    ListMem T × HashTable F → List Key → List (HashOp Key T F) → List Key
  | _, S, [] => S
  | s, S, op :: ops =>
    match applyHashOp tr fuel extractable s op with
    | Option.none => S
    | some s1 => specHashRun tr fuel extractable s1 (specHashStep tr s S op) ops

/-- The table in the state `s` holds the finite set `S`: it is well formed,
the keys of its nodes are the keys of `S`, no two of them equal, and the load
factor is `1.0f`. -/
structure SetInv {Key F : Type} (tr : HashTraits Key T F) (s : ListMem T × HashTable F)
    (G : List (Nat × List Nat)) (S : List Key) : Prop where
  inv : HashInv tr s.1 s.2 G
  keys : ((joinRuns G).map (fun a => tr.getKeyFromValue (s.1.value a))).Perm S
  distinct : S.Pairwise (fun a b => tr.equal_ a b = false)
  factor : s.2.max_load_factor_ = tr.one
  count : GoodCount (Hash.bucketCount s.2)

/-- The bucket count of a table that started with 8 buckets and the load
factor 1.0, after the insertion of `n` different keys (`n` up to 512): the
count is multiplied by 8 when the 9th and when the 65th key comes. -/
def insertCount (n : Nat) : Nat := if n ≤ 8 then 8 else if n ≤ 64 then 64 else 512

/-- The state `s` after the insertion of the values `done` with different
keys into the empty table of 8 buckets and load factor 1.0. -/
structure InsertInv {Key F : Type} (tr : HashTraits Key T F) (s : ListMem T × HashTable F)
    (G : List (Nat × List Nat)) (done : List T) : Prop where
  inv : HashInv tr s.1 s.2 G
  factor : s.2.max_load_factor_ = tr.one
  size : s.2.list_.size = done.length
  count : Hash.bucketCount s.2 = insertCount done.length
  keys : ∀ a ∈ joinRuns G, tr.getKeyFromValue (s.1.value a) ∈ done.map tr.getKeyFromValue

/-- The links of `m` stay inside the node set `S`, and outside `S` they are
the links of `m0`. -/
structure LinksWithin (m0 m : ListMem T) (S : List Nat) : Prop where
  next_in : ∀ x ∈ S, m.next x ∈ S
  prev_in : ∀ x ∈ S, m.prev x ∈ S
  next_out : ∀ a, a ∉ S → m.next a = m0.next a
  prev_out : ∀ a, a ∉ S → m.prev a = m0.prev a

/-- A call of a member of `List` on one list. -/
inductive ListOp (T : Type) where
  | insert (where_ count : Nat) (value : T)
  | insertRange (where_ : Nat) (range : List T)
  | emplace (where_ : Nat) (value : T)
  | emplaceFront (value : T)
  | pushBack (value : T)
  | pushFront (value : T)
  | popBack
  | popFront
  | erase (ptr : Nat)
  | eraseRange (first last : Nat)
  | clear
  | sort
  | assignSelf

/-- The list after one call; `assignSelf` is the statements of the copy
assignment `a = a` (`LinkedList.copyAssignBody`). -/
def applyListOp (cmp : T → T → Bool) (fuel : Nat) (m : ListMem T) (l : ListValue) :
    ListOp T → Option (ListMem T × ListValue)
  | ListOp.insert where_ count value =>
    (LinkedList.insert m l where_ count value).map (fun r => (r.1, r.2.1))
  | ListOp.insertRange where_ range =>
    (LinkedList.insertRange m l where_ range).map (fun r => (r.1, r.2.1))
  | ListOp.emplace where_ value =>
    (LinkedList.emplaceNode m l where_ value).map (fun r => (r.1, r.2.1))
  | ListOp.emplaceFront value => (LinkedList.emplaceFront m l value).map (fun r => (r.1, r.2.1))
  | ListOp.pushBack value => LinkedList.pushBack m l value
  | ListOp.pushFront value => LinkedList.pushFront m l value
  | ListOp.popBack => some (LinkedList.popBack m l)
  | ListOp.popFront => some (LinkedList.popFront m l)
  | ListOp.erase ptr => some ((LinkedList.erase m l ptr).1, (LinkedList.erase m l ptr).2.1)
  | ListOp.eraseRange first last =>
    (LinkedList.eraseRange fuel m l first last).map (fun r => (r.1, r.2.1))
  | ListOp.clear => LinkedList.clear fuel m l
  | ListOp.sort => (LinkedList.sort cmp fuel m l).map (fun m1 => (m1, l))
  | ListOp.assignSelf => LinkedList.copyAssignBody fuel 0 0 m l l

/-- Whether `first` and `last` denote a range of the list: both are nodes of
the list or `end()`, and `first` does not come after `last`. -/
def isRange (fuel : Nat) (m : ListMem T) (l : ListValue) (first last : Nat) : Bool :=
  match LinkedList.traverse fuel m l with
  | Option.none => false
  | some xs =>
    decide (first ∈ xs ++ [l.head] ∧ last ∈ xs ++ [l.head] ∧
      (xs ++ [l.head]).indexOf first ≤ (xs ++ [l.head]).indexOf last)

/-- Whether a call may be made on the list: a position is a node of the list
or `end()`, `erase` asks for a node of the list, `eraseRange` for a range of
the list, `popBack` and `popFront` for a list that is not empty, `sort` for
fewer than `2 ^ 62` nodes, and the loops are given fuel above the size. -/
def ListOp.valid (fuel : Nat) (m : ListMem T) (l : ListValue) : ListOp T → Bool
  | ListOp.insert where_ _ _ =>
    decide (where_ = l.head ∨ where_ ∈ (LinkedList.traverse fuel m l).getD [])
  | ListOp.insertRange where_ _ =>
    decide (where_ = l.head ∨ where_ ∈ (LinkedList.traverse fuel m l).getD [])
  | ListOp.emplace where_ _ =>
    decide (where_ = l.head ∨ where_ ∈ (LinkedList.traverse fuel m l).getD [])
  | ListOp.popBack => decide (l.size ≠ 0)
  | ListOp.popFront => decide (l.size ≠ 0)
  | ListOp.erase ptr => decide (ptr ∈ (LinkedList.traverse fuel m l).getD [])
  | ListOp.eraseRange first last => isRange fuel m l first last
  | ListOp.clear => decide (l.size < fuel)
  | ListOp.sort => decide (l.size < fuel ∧ l.size < 2 ^ 62)
  | _ => true

/-- Two lists in one node memory, at the addresses 0 and 1, with the registry
of their proxies. -/
structure ListPair (T : Type) where
  reg : RegMem
  mem : ListMem T
  first : ListValue
  second : ListValue

/-- A call on one of the two lists (`second` says which), the statements of
the copy assignment of the other list to it (`LinkedList.copyAssignBody`), or
the `swap` of the two. -/
inductive PairOp (T : Type) where
  | call (second : Bool) (op : ListOp T)
  | copyAssign (second : Bool)
  | swap

/-- The two lists after one call. -/
def applyPairOp (cmp : T → T → Bool) (fuel : Nat) (s : ListPair T) :
    PairOp T → Option (ListPair T)
  | PairOp.call false op =>
    (applyListOp cmp fuel s.mem s.first op).map (fun r => { s with mem := r.1, first := r.2 })
  | PairOp.call true op =>
    (applyListOp cmp fuel s.mem s.second op).map (fun r => { s with mem := r.1, second := r.2 })
  | PairOp.copyAssign false =>
    (LinkedList.copyAssignBody fuel 0 1 s.mem s.first s.second).map
      (fun r => { s with mem := r.1, first := r.2 })
  | PairOp.copyAssign true =>
    (LinkedList.copyAssignBody fuel 1 0 s.mem s.second s.first).map
      (fun r => { s with mem := r.1, second := r.2 })
  | PairOp.swap =>
    (LinkedList.swap s.reg 0 1 s.first s.second).map
      (fun r => { s with reg := r.1, first := r.2.1, second := r.2.2 })

/-- Whether a call may be made on the two lists. -/
def PairOp.valid (fuel : Nat) (s : ListPair T) : PairOp T → Bool
  | PairOp.call false op => op.valid fuel s.mem s.first
  | PairOp.call true op => op.valid fuel s.mem s.second
  | PairOp.copyAssign _ => decide (s.first.size + s.second.size < fuel)
  | PairOp.swap => true

/-- The two lists after a sequence of calls. -/
def runPairOps (cmp : T → T → Bool) (fuel : Nat) : ListPair T → List (PairOp T) →
    Option (ListPair T)
  | s, [] => some s
  | s, op :: ops =>
    match applyPairOp cmp fuel s op with
    | Option.none => Option.none
    | some s1 => runPairOps cmp fuel s1 ops

/-- Whether every call of a sequence may be made in the state in which it is
made. -/
def pairOpsValid (cmp : T → T → Bool) (fuel : Nat) : ListPair T → List (PairOp T) → Bool
  | _, [] => true
  | s, op :: ops =>
    PairOp.valid fuel s op &&
      (match applyPairOp cmp fuel s op with
       | Option.none => true
       | some s1 => pairOpsValid cmp fuel s1 ops)

/-- Two default-constructed lists: `List()` twice in the memory `m`. -/
def ListPair.create (r : RegMem) (m : ListMem T) : ListPair T :=
  { reg := r
    mem := (LinkedList.createEmptyList (LinkedList.createEmptyList m).1).1
    first := (LinkedList.createEmptyList m).2
    second := (LinkedList.createEmptyList (LinkedList.createEmptyList m).1).2 }

/-- The result `m`, `l` of a call on the well-formed list `l0` with the nodes
`xs` in `m0`: the list is well formed, its head is the same, its nodes are old
nodes of the list or fresh ones, and no older node outside the list
changed its links. -/
def ListStep (m0 : ListMem T) (l0 : ListValue) (xs : List Nat) (m : ListMem T)
    (l : ListValue) : Prop :=
  ∃ ys, ListInv m l ys ∧ l.head = l0.head ∧ (∀ x ∈ ys, x ∈ xs ∨ m0.fresh ≤ x) ∧
    (∀ a, a < m0.fresh → a ∉ l0.head :: xs → m.next a = m0.next a ∧ m.prev a = m0.prev a) ∧
    m0.fresh ≤ m.fresh

/-- Both lists are well formed and share no node. -/
def PairInv (s : ListPair T) : Prop :=
  ∃ xs ys, ListInv s.mem s.first xs ∧ ListInv s.mem s.second ys ∧
    ∀ a ∈ s.first.head :: xs, a ∉ s.second.head :: ys

/-- Calls of a run with every kind of call of the ring claim on two lists of
natural numbers: `pushBack`, `pushFront`, `insert` of two copies at `end()`,
`emplace` before the node at address 2, `emplaceFront` and `sort` on the first
list, `pushBack`, `clear` and `insertRange` on the second, the statements of
the copy assignment of the first list to the second, `erase`, `eraseRange`,
`popBack` and `popFront` on the first, `swap`, and the statements of the copy
assignment of a list to itself. -/
def ringOps : List (PairOp Nat) :=
  [PairOp.call false (ListOp.pushBack 7), PairOp.call false (ListOp.pushFront 5),
   PairOp.call false (ListOp.insert 0 2 6), PairOp.call false (ListOp.emplace 2 9),
   PairOp.call false (ListOp.emplaceFront 8), PairOp.call false ListOp.sort,
   PairOp.call true (ListOp.pushBack 2), PairOp.call true ListOp.clear,
   PairOp.call true (ListOp.insertRange 1 [4, 3]), PairOp.copyAssign true,
   PairOp.call false (ListOp.erase 4), PairOp.call false (ListOp.eraseRange 5 7),
   PairOp.call false ListOp.popBack, PairOp.call false ListOp.popFront, PairOp.swap,
   PairOp.call false ListOp.assignSelf]

/-- The two lists at the end of the run `ringOps`. -/
def ringEnd : ListPair Nat :=
  (runPairOps natLess 20 (ListPair.create sampleRegistry ListMem.init) ringOps).getD
    (ListPair.create sampleRegistry ListMem.init)

/-- The words of the ring claim for the list `l` in the memory `m`: following
`next` from the head meets `size` nodes and then the head again, and for the
head and every node met `n->next->prev` and `n->prev->next` are `n`. -/
def RingClosed (m : ListMem T) (l : ListValue) : Prop :=
  ∃ xs, LinkedList.traverse (l.size + 1) m l = some xs ∧ xs.length = l.size ∧
    ∀ n ∈ l.head :: xs, m.prev (m.next n) = n ∧ m.next (m.prev n) = n

/-! ## Theorems -/

@[simp]
theorem upd_same {α : Type} (f : Nat → α) (a : Nat) (v : α) : upd f a v a = v := by
  simp [upd]

theorem upd_ne {α : Type} (f : Nat → α) {a b : Nat} (v : α) (h : b ≠ a) :
    upd f a v b = f b := by
  simp [upd, h]

theorem upd_apply {α : Type} (f : Nat → α) (a b : Nat) (v : α) :
    upd f a v b = if b = a then v else f b := rfl

theorem Rep.frame_links {m m' : TreeMem K V} {head : Nat} :
    ∀ (s : Shape) (par x : Nat), Rep m head s par x →
      (∀ a ∈ s.addrs, m'.is_nil a = m.is_nil a ∧ m'.parent a = m.parent a ∧
        m'.left a = m.left a ∧ m'.right a = m.right a) →
      Rep m' head s par x
  | Shape.nil, _, _, h, _ => h
  | Shape.node l p r, par, x, h, hf => by
    obtain ⟨hx, hn, hp, hl, hr⟩ := h
    have hpf := hf p (by simp [Shape.addrs])
    refine ⟨hx, by rw [hpf.1]; exact hn, by rw [hpf.2.1]; exact hp, ?_, ?_⟩
    · rw [hpf.2.2.1]
      exact Rep.frame_links l p _ hl (fun a ha => hf a (by simp [Shape.addrs, ha]))
    · rw [hpf.2.2.2]
      exact Rep.frame_links r p _ hr (fun a ha => hf a (by simp [Shape.addrs, ha]))

/-- Frame rule that also lets the root change its parent link. -/
theorem Rep.reparent {m m' : TreeMem K V} {head : Nat} (s : Shape) (par par' x : Nat)
    (h : Rep m head s par x)
    (hf : ∀ a ∈ s.addrs, m'.is_nil a = m.is_nil a ∧ (a ≠ x → m'.parent a = m.parent a) ∧
        m'.left a = m.left a ∧ m'.right a = m.right a)
    (hroot : x ∈ s.addrs → m'.parent x = par') (hnd : s.addrs.Nodup) :
    Rep m' head s par' x := by
  cases s with
  | nil => exact h
  | node l p r =>
    obtain ⟨hx, hn, hp, hl, hr⟩ := h
    subst hx
    have hmem : x ∈ (Shape.node l x r).addrs := by simp [Shape.addrs]
    have hpf := hf x hmem
    simp only [Shape.addrs] at hnd
    have hnd' := List.nodup_append.1 hnd
    have hxl : x ∉ l.addrs := fun hc => hnd'.2.2 hc (by simp)
    have hxr : x ∉ r.addrs := (List.nodup_cons.1 hnd'.2.1).1
    refine ⟨rfl, by rw [hpf.1]; exact hn, hroot hmem, ?_, ?_⟩
    · rw [hpf.2.2.1]
      refine Rep.frame_links l x _ hl (fun a ha => ?_)
      have := hf a (by simp [Shape.addrs, ha])
      exact ⟨this.1, this.2.1 (fun hc => hxl (hc ▸ ha)), this.2.2⟩
    · rw [hpf.2.2.2]
      refine Rep.frame_links r x _ hr (fun a ha => ?_)
      have := hf a (by simp [Shape.addrs, ha])
      exact ⟨this.1, this.2.1 (fun hc => hxr (hc ▸ ha)), this.2.2⟩

theorem Rep.real_node {m : TreeMem K V} {head : Nat} :
    ∀ (s : Shape) (par x : Nat), Rep m head s par x → ∀ a ∈ s.addrs, m.is_nil a = false
  | Shape.nil, _, _, _, a, ha => by simp [Shape.addrs] at ha
  | Shape.node l p r, _, _, h, a, ha => by
    obtain ⟨_, hn, _, hl, hr⟩ := h
    simp only [Shape.addrs, List.mem_append, List.mem_cons] at ha
    rcases ha with ha | rfl | ha
    · exact Rep.real_node l _ _ hl a ha
    · exact hn
    · exact Rep.real_node r _ _ hr a ha

theorem Rep.root {m : TreeMem K V} {head : Nat} (s : Shape) (par x : Nat)
    (h : Rep m head s par x) :
    (s = Shape.nil ∧ x = head) ∨ ∃ l r, s = Shape.node l x r := by
  cases s with
  | nil => exact Or.inl ⟨rfl, h⟩
  | node l p r => exact Or.inr ⟨l, r, by rw [h.1]⟩

theorem Rep.root_in {m : TreeMem K V} {head : Nat} (s : Shape) (par x : Nat)
    (h : Rep m head s par x) : x = head ∨ x ∈ s.addrs := by
  rcases Rep.root s par x h with ⟨_, hx⟩ | ⟨l, r, rfl⟩
  · exact Or.inl hx
  · exact Or.inr (by simp [Shape.addrs])

theorem Rep.nil_of_head {m : TreeMem K V} {head : Nat} (s : Shape) (par : Nat)
    (hnil : m.is_nil head = true) (h : Rep m head s par head) : s = Shape.nil := by
  cases s with
  | nil => rfl
  | node l p r =>
    obtain ⟨hx, hn, _⟩ := h
    rw [← hx, hnil] at hn
    exact absurd hn (by simp)

theorem Rep.nil_of_is_nil {m : TreeMem K V} {head : Nat} (s : Shape) (par x : Nat)
    (hnil : m.is_nil x = true) (h : Rep m head s par x) : s = Shape.nil ∧ x = head := by
  cases s with
  | nil => exact ⟨rfl, h⟩
  | node l p r =>
    obtain ⟨hx, hn, _⟩ := h
    rw [← hx, hnil] at hn
    exact absurd hn (by simp)

theorem Rep.children_in {m : TreeMem K V} {head : Nat} :
    ∀ (s : Shape) (par x : Nat), Rep m head s par x → ∀ a ∈ s.addrs,
      (m.left a = head ∨ m.left a ∈ s.addrs) ∧ (m.right a = head ∨ m.right a ∈ s.addrs)
  | Shape.nil, _, _, _, a, ha => by simp [Shape.addrs] at ha
  | Shape.node l p r, _, _, h, a, ha => by
    obtain ⟨_, _, _, hl, hr⟩ := h
    simp only [Shape.addrs, List.mem_append, List.mem_cons] at ha ⊢
    rcases ha with ha | rfl | ha
    · have := Rep.children_in l _ _ hl a ha
      exact ⟨this.1.imp id Or.inl, this.2.imp id Or.inl⟩
    · exact ⟨(Rep.root_in l _ _ hl).imp id Or.inl,
        (Rep.root_in r _ _ hr).imp id (fun h => Or.inr (Or.inr h))⟩
    · have := Rep.children_in r _ _ hr a ha
      exact ⟨this.1.imp id (fun h => Or.inr (Or.inr h)),
        this.2.imp id (fun h => Or.inr (Or.inr h))⟩

theorem Rep.parent_in {m : TreeMem K V} {head : Nat} :
    ∀ (s : Shape) (par x : Nat), Rep m head s par x → ∀ a ∈ s.addrs,
      (a = x ∧ m.parent a = par) ∨ (a ≠ x ∧ m.parent a ∈ s.addrs)
  | Shape.nil, _, _, _, a, ha => by simp [Shape.addrs] at ha
  | Shape.node l p r, par, x, h, a, ha => by
    obtain ⟨hx, _, hp, hl, hr⟩ := h
    subst hx
    simp only [Shape.addrs, List.mem_append, List.mem_cons] at ha ⊢
    by_cases hax : a = x
    · subst hax; exact Or.inl ⟨rfl, hp⟩
    · right
      refine ⟨hax, ?_⟩
      rcases ha with ha | ha | ha
      · rcases Rep.parent_in l _ _ hl a ha with ⟨_, h2⟩ | ⟨_, h2⟩
        · rw [h2]; exact Or.inr (Or.inl rfl)
        · exact Or.inl h2
      · exact absurd ha hax
      · rcases Rep.parent_in r _ _ hr a ha with ⟨_, h2⟩ | ⟨_, h2⟩
        · rw [h2]; exact Or.inr (Or.inl rfl)
        · exact Or.inr (Or.inr h2)

theorem Rep.head_not_mem {m : TreeMem K V} {head : Nat} (hnil : m.is_nil head = true)
    (s : Shape) (par x : Nat) (h : Rep m head s par x) : head ∉ s.addrs := by
  intro hc
  have := Rep.real_node s par x h head hc
  rw [hnil] at this
  exact absurd this (by simp)

theorem Rep.zoom_sub {m : TreeMem K V} {head : Nat} (hnil : m.is_nil head = true) (p : Nat) :
    ∀ (s : Shape) (par x : Nat), Rep m head s par x → s.addrs.Nodup → p ∈ s.addrs →
    ∃ (l r : Shape) (pre post : List Nat),
      s.addrs = pre ++ (l.addrs ++ p :: r.addrs) ++ post ∧
      Rep m head (Shape.node l p r) (m.parent p) p ∧
      (x = p → pre = [] ∧ post = [] ∧ m.parent p = par) ∧
      (x ≠ p → m.parent p ∈ pre ++ post ∧
        ((m.left (m.parent p) = p ∧ m.right (m.parent p) ≠ p ∧
            ∃ post', post = m.parent p :: post') ∨
         (m.right (m.parent p) = p ∧ m.left (m.parent p) ≠ p ∧
            ∃ pre', pre = pre' ++ [m.parent p]))) ∧
      (∀ a ∈ pre ++ post, (m.left a = p ∨ m.right a = p) → a = m.parent p) ∧
      ∀ (m' : TreeMem K V) (u' : Shape) (p' : Nat),
        Rep m' head u' (m.parent p) p' →
        (∀ a ∈ pre ++ post, Redirected m m' p p' a) →
        ∃ s', Rep m' head s' par (if x = p then p' else x) ∧
          s'.addrs = pre ++ u'.addrs ++ post
  | Shape.nil, _, _, _, _, hp => by simp [Shape.addrs] at hp
  | Shape.node l q r, par, x, h, hnd, hp => by
    have hrep := h
    obtain ⟨hx, hn, hpar, hl, hr⟩ := h
    subst hx
    simp only [Shape.addrs] at hnd hp
    have hnd' := List.nodup_append.1 hnd
    have hndl : l.addrs.Nodup := hnd'.1
    have hndr : r.addrs.Nodup := (List.nodup_cons.1 hnd'.2.1).2
    have hxl : x ∉ l.addrs := fun hc => hnd'.2.2 hc (by simp)
    have hxr : x ∉ r.addrs := (List.nodup_cons.1 hnd'.2.1).1
    have hlr : ∀ a, a ∈ l.addrs → a ∉ r.addrs := fun a ha hc => hnd'.2.2 ha (by simp [hc])
    have hhl : head ∉ l.addrs := Rep.head_not_mem hnil l _ _ hl
    have hhr : head ∉ r.addrs := Rep.head_not_mem hnil r _ _ hr
    by_cases hpx : p = x
    · subst hpx
      refine ⟨l, r, [], [], by simp [Shape.addrs], ?_, fun _ => ⟨rfl, rfl, hpar⟩, fun hc => absurd rfl hc,
        by simp, ?_⟩
      · rw [hpar]; exact hrep
      · intro m' u' p' hu _
        refine ⟨u', ?_, by simp⟩
        rw [hpar] at hu
        simpa using hu
    · have hxp : x ≠ p := fun hc => hpx hc.symm
      rcases List.mem_append.1 hp with hpl | hpr
      · -- `p` lies in the left subtree
        obtain ⟨l0, r0, pre0, post0, hsplit, hrep0, hroot0, hdeep0, hlink0, hcont0⟩ :=
          Rep.zoom_sub hnil p l x (m.left x) hl hndl hpl
        have hrr : m.right x ≠ p := by
          intro hc
          rcases Rep.root_in r _ _ hr with h1 | h1
          · rw [hc] at h1; exact hhl (h1 ▸ hpl)
          · rw [hc] at h1; exact hlr p hpl h1
        refine ⟨l0, r0, pre0, post0 ++ x :: r.addrs, ?_, hrep0, fun hc => absurd hc hxp,
          fun _ => ?_, ?_, ?_⟩
        · simp only [Shape.addrs]; rw [hsplit]; simp
        · by_cases hlx : m.left x = p
          · obtain ⟨h1, h2, h3⟩ := hroot0 hlx
            rw [h3]
            refine ⟨by simp, Or.inl ⟨hlx, hrr, ?_⟩⟩
            exact ⟨r.addrs, by rw [h2]; simp⟩
          · obtain ⟨h1, h2⟩ := hdeep0 hlx
            refine ⟨?_, ?_⟩
            · rcases List.mem_append.1 h1 with h | h
              · simp [h]
              · simp [h]
            · rcases h2 with ⟨a1, a2, post', a3⟩ | ⟨a1, a2, a3⟩
              · exact Or.inl ⟨a1, a2, post' ++ x :: r.addrs, by rw [a3]; simp⟩
              · exact Or.inr ⟨a1, a2, a3⟩
        · intro a ha hlk
          simp only [List.mem_append, List.mem_cons] at ha
          have hcase : a ∈ pre0 ++ post0 ∨ a = x ∨ a ∈ r.addrs := by
            rcases ha with h | h | h | h
            · exact Or.inl (by simp [h])
            · exact Or.inl (by simp [h])
            · exact Or.inr (Or.inl h)
            · exact Or.inr (Or.inr h)
          rcases hcase with h | h | h
          · exact hlink0 a h hlk
          · subst h
            rcases hlk with hlk | hlk
            · exact ((hroot0 hlk).2.2).symm
            · exact absurd hlk hrr
          · exfalso
            have hc := Rep.children_in r _ _ hr a h
            rcases hlk with hlk | hlk
            · rcases hc.1 with h1 | h1
              · rw [hlk] at h1; exact hhl (h1 ▸ hpl)
              · rw [hlk] at h1; exact hlr p hpl h1
            · rcases hc.2 with h1 | h1
              · rw [hlk] at h1; exact hhl (h1 ▸ hpl)
              · rw [hlk] at h1; exact hlr p hpl h1
        · intro m' u' p' hu hfr
          obtain ⟨l', hl', hl'a⟩ := hcont0 m' u' p' hu (fun a ha => hfr a (by
            rcases List.mem_append.1 ha with h | h
            · simp [h]
            · simp [h]))
          have hfx := hfr x (by simp)
          refine ⟨Shape.node l' x r, ?_, ?_⟩
          · rw [if_neg hxp]
            refine ⟨rfl, by rw [hfx.1]; exact hn, by rw [hfx.2.1]; exact hpar, ?_, ?_⟩
            · rw [hfx.2.2.1]; exact hl'
            · rw [hfx.2.2.2, if_neg hrr]
              refine Rep.frame_links r x _ hr (fun a ha => ?_)
              have hfa := hfr a (by simp [ha])
              have hc := Rep.children_in r _ _ hr a ha
              have h1 : m.left a ≠ p := by
                intro hlk
                rcases hc.1 with h1 | h1
                · rw [hlk] at h1; exact hhl (h1 ▸ hpl)
                · rw [hlk] at h1; exact hlr p hpl h1
              have h2 : m.right a ≠ p := by
                intro hlk
                rcases hc.2 with h1 | h1
                · rw [hlk] at h1; exact hhl (h1 ▸ hpl)
                · rw [hlk] at h1; exact hlr p hpl h1
              refine ⟨hfa.1, hfa.2.1, ?_, ?_⟩
              · rw [hfa.2.2.1, if_neg h1]
              · rw [hfa.2.2.2, if_neg h2]
          · simp only [Shape.addrs]; rw [hl'a]; simp
      · -- `p` lies in the right subtree
        have hpr' : p ∈ r.addrs := by
          rcases List.mem_cons.1 hpr with h | h
          · exact absurd h hpx
          · exact h
        obtain ⟨l0, r0, pre0, post0, hsplit, hrep0, hroot0, hdeep0, hlink0, hcont0⟩ :=
          Rep.zoom_sub hnil p r x (m.right x) hr hndr hpr'
        have hpl : p ∉ l.addrs := fun hc => hlr p hc hpr'
        have hll : m.left x ≠ p := by
          intro hc
          rcases Rep.root_in l _ _ hl with h1 | h1
          · rw [hc] at h1; exact hhr (h1 ▸ hpr')
          · rw [hc] at h1; exact hpl h1
        refine ⟨l0, r0, l.addrs ++ x :: pre0, post0, ?_, hrep0, fun hc => absurd hc hxp,
          fun _ => ?_, ?_, ?_⟩
        · simp only [Shape.addrs]; rw [hsplit]; simp
        · by_cases hrx : m.right x = p
          · obtain ⟨h1, h2, h3⟩ := hroot0 hrx
            rw [h3]
            refine ⟨by simp, Or.inr ⟨hrx, hll, ?_⟩⟩
            exact ⟨l.addrs, by rw [h1]⟩
          · obtain ⟨h1, h2⟩ := hdeep0 hrx
            refine ⟨?_, ?_⟩
            · rcases List.mem_append.1 h1 with h | h
              · simp [h]
              · simp [h]
            · rcases h2 with ⟨a1, a2, a3⟩ | ⟨a1, a2, pre', a3⟩
              · exact Or.inl ⟨a1, a2, a3⟩
              · exact Or.inr ⟨a1, a2, l.addrs ++ x :: pre', by rw [a3]; simp⟩
        · intro a ha hlk
          simp only [List.mem_append, List.mem_cons] at ha
          have hcase : a ∈ pre0 ++ post0 ∨ a = x ∨ a ∈ l.addrs := by
            rcases ha with (h | h | h) | h
            · exact Or.inr (Or.inr h)
            · exact Or.inr (Or.inl h)
            · exact Or.inl (by simp [h])
            · exact Or.inl (by simp [h])
          rcases hcase with h | h | h
          · exact hlink0 a h hlk
          · subst h
            rcases hlk with hlk | hlk
            · exact absurd hlk hll
            · exact ((hroot0 hlk).2.2).symm
          · exfalso
            have hc := Rep.children_in l _ _ hl a h
            rcases hlk with hlk | hlk
            · rcases hc.1 with h1 | h1
              · rw [hlk] at h1; exact hhr (h1 ▸ hpr')
              · rw [hlk] at h1; exact hpl h1
            · rcases hc.2 with h1 | h1
              · rw [hlk] at h1; exact hhr (h1 ▸ hpr')
              · rw [hlk] at h1; exact hpl h1
        · intro m' u' p' hu hfr
          obtain ⟨r', hr', hr'a⟩ := hcont0 m' u' p' hu (fun a ha => hfr a (by
            rcases List.mem_append.1 ha with h | h
            · simp [h]
            · simp [h]))
          have hfx := hfr x (by simp)
          refine ⟨Shape.node l x r', ?_, ?_⟩
          · rw [if_neg hxp]
            refine ⟨rfl, by rw [hfx.1]; exact hn, by rw [hfx.2.1]; exact hpar, ?_, ?_⟩
            · rw [hfx.2.2.1, if_neg hll]
              refine Rep.frame_links l x _ hl (fun a ha => ?_)
              have hfa := hfr a (by simp [ha])
              have hc := Rep.children_in l _ _ hl a ha
              have h1 : m.left a ≠ p := by
                intro hlk
                rcases hc.1 with h1 | h1
                · rw [hlk] at h1; exact hhr (h1 ▸ hpr')
                · rw [hlk] at h1; exact hpl h1
              have h2 : m.right a ≠ p := by
                intro hlk
                rcases hc.2 with h1 | h1
                · rw [hlk] at h1; exact hhr (h1 ▸ hpr')
                · rw [hlk] at h1; exact hpl h1
              refine ⟨hfa.1, hfa.2.1, ?_, ?_⟩
              · rw [hfa.2.2.1, if_neg h1]
              · rw [hfa.2.2.2, if_neg h2]
            · rw [hfx.2.2.2]; exact hr'
          · simp only [Shape.addrs]; rw [hr'a]; simp

theorem leftRotate_is_nil (m : TreeMem K V) (head p : Nat) :
    (leftRotate m head p).is_nil = m.is_nil := by
  unfold leftRotate
  simp only []
  split_ifs <;> rfl

theorem leftRotate_value (m : TreeMem K V) (head p : Nat) :
    (leftRotate m head p).value = m.value := by
  unfold leftRotate
  simp only []
  split_ifs <;> rfl

theorem leftRotate_next (m : TreeMem K V) (head p : Nat) :
    (leftRotate m head p).next = m.next ∧ (leftRotate m head p).freed = m.freed := by
  unfold leftRotate
  simp only []
  split_ifs <;> exact ⟨rfl, rfl⟩

theorem leftRotate_left (m : TreeMem K V) (head p : Nat) (a : Nat) :
    (leftRotate m head p).left a =
      if a = m.right p then p
      else if m.is_nil (m.parent p) = false ∧ m.left (m.parent p) = p ∧ a = m.parent p
        then m.right p else m.left a := by
  unfold leftRotate whichChild
  simp only []
  split_ifs <;> simp_all [upd]

theorem leftRotate_right (m : TreeMem K V) (head p : Nat) (a : Nat)
    (hne : m.parent p ≠ m.right p) :
    (leftRotate m head p).right a =
      if a = p then m.left (m.right p)
      else if m.is_nil (m.parent p) = false ∧ m.left (m.parent p) ≠ p ∧ a = m.parent p
        then m.right p else m.right a := by
  have hne' := Ne.symm hne
  unfold leftRotate whichChild
  simp only []
  split_ifs <;> simp_all [upd]

theorem leftRotate_parent (m : TreeMem K V) (head p : Nat) (a : Nat)
    (hne : m.parent p ≠ m.right p) (h1 : m.left (m.right p) ≠ p) (hh : head ≠ p)
    (h2 : m.is_nil (m.left (m.right p)) = false → head ≠ m.left (m.right p)) :
    (leftRotate m head p).parent a =
      if a = p then m.right p
      else if a = m.right p then m.parent p
      else if m.is_nil (m.left (m.right p)) = false ∧ a = m.left (m.right p) then p
      else if m.is_nil (m.parent p) = true ∧ a = head then m.right p
      else m.parent a := by
  have hne' := Ne.symm hne
  have h1' := Ne.symm h1
  have hh' := Ne.symm hh
  unfold leftRotate whichChild
  simp only []
  split_ifs <;> simp_all [upd]

theorem leftRotate_height (m : TreeMem K V) (head p : Nat) (a : Nat)
    (hne : m.parent p ≠ m.right p) (hpr : p ≠ m.right p) :
    (leftRotate m head p).height a =
      if a = m.right p then m.height (m.left (m.right p)) + 1 + 1
      else if a = p then m.height (m.left (m.right p)) + 1
      else m.height a := by
  have hne' := Ne.symm hne
  have hpr' := Ne.symm hpr
  unfold leftRotate whichChild
  simp only []
  split_ifs <;> simp_all [upd]

theorem TreeInv.zoom {comp : K → K → Bool} {m : TreeMem K V} {t : TreeValue} {L : List Nat}
    (h : TreeInv comp m t L) {p : Nat} (hp : p ∈ L) :
    ∃ (l r : Shape) (pre post : List Nat),
      L = pre ++ (l.addrs ++ p :: r.addrs) ++ post ∧
      Rep m t.head (Shape.node l p r) (m.parent p) p ∧
      m.parent p ∉ l.addrs ++ p :: r.addrs ∧
      ((m.parent t.head = p ∧ m.parent p = t.head ∧ pre = [] ∧ post = []) ∨
       (m.parent t.head ≠ p ∧ m.parent p ∈ pre ++ post ∧
        ((m.left (m.parent p) = p ∧ m.right (m.parent p) ≠ p ∧
            ∃ post', post = m.parent p :: post') ∨
         (m.right (m.parent p) = p ∧ m.left (m.parent p) ≠ p ∧
            ∃ pre', pre = pre' ++ [m.parent p])))) ∧
      (∀ a ∈ pre ++ post, (m.left a = p ∨ m.right a = p) → a = m.parent p) ∧
      ∀ (m' : TreeMem K V) (u' : Shape) (p' : Nat),
        Rep m' t.head u' (m.parent p) p' →
        (∀ a ∈ pre ++ post, Redirected m m' p p' a) →
        m'.parent t.head = (if m.parent t.head = p then p' else m.parent t.head) →
        ∃ s', Rep m' t.head s' t.head (m'.parent t.head) ∧
          s'.addrs = pre ++ u'.addrs ++ post := by
  obtain ⟨s, hs, hsL⟩ := h.shape
  have hnd : s.addrs.Nodup := hsL ▸ h.nodup
  obtain ⟨l, r, pre, post, hsplit, hrep, hroot, hdeep, hlink, hcont⟩ :=
    Rep.zoom_sub h.head_nil p s t.head (m.parent t.head) hs hnd (hsL ▸ hp)
  have hndL : (pre ++ (l.addrs ++ p :: r.addrs) ++ post).Nodup := hsplit ▸ hnd
  refine ⟨l, r, pre, post, by rw [← hsL, hsplit], hrep, ?_, ?_, hlink, ?_⟩
  · by_cases hx : m.parent t.head = p
    · rw [(hroot hx).2.2]
      have := Rep.head_not_mem h.head_nil _ _ _ hrep
      simpa [Shape.addrs] using this
    · have hmem := (hdeep hx).1
      intro hc
      have h1 := List.nodup_append.1 hndL
      have h2 := List.nodup_append.1 h1.1
      rcases List.mem_append.1 hmem with h | h
      · exact h2.2.2 h hc
      · exact h1.2.2 (List.mem_append_right _ hc) h
  · by_cases hx : m.parent t.head = p
    · obtain ⟨h1, h2, h3⟩ := hroot hx
      exact Or.inl ⟨hx, h3, h1, h2⟩
    · exact Or.inr ⟨hx, hdeep hx⟩
  · intro m' u' p' hu hfr hpar
    obtain ⟨s', hs', hs'a⟩ := hcont m' u' p' hu hfr
    exact ⟨s', by rw [hpar]; exact hs', hs'a⟩

/-- Facts about distinctness inside a represented subtree `node l p (node rl rc rr)`. -/
theorem leftRotate_local {m : TreeMem K V} {head p rc pp : Nat} {l rl rr : Shape}
    (hnil : m.is_nil head = true)
    (h : Rep m head (Shape.node l p (Shape.node rl rc rr)) pp p)
    (hnd : (Shape.node l p (Shape.node rl rc rr)).addrs.Nodup)
    (hpp : pp ∉ (Shape.node l p (Shape.node rl rc rr)).addrs) :
    Rep (leftRotate m head p) head (Shape.node (Shape.node l p rl) rc rr) pp rc := by
  obtain ⟨-, hn, hpar, hl, hrc, hnrc, hparc, hrl, hrr⟩ := h
  have hhead := Rep.head_not_mem hnil _ _ _
    (show Rep m head (Shape.node l p (Shape.node rl rc rr)) pp p from
      ⟨rfl, hn, hpar, hl, hrc, hnrc, hparc, hrl, hrr⟩)
  simp only [Shape.addrs, List.nodup_append, List.nodup_cons, List.mem_append, List.mem_cons,
    not_or, List.Disjoint] at hnd hpp hhead
  subst hpar
  have hrcp : m.right p = rc := hrc
  have e1 : m.parent p ≠ m.right p := by rw [hrcp]; tauto
  have hrlroot := Rep.root_in rl _ _ hrl
  have e2 : m.left (m.right p) ≠ p := by
    rw [hrcp]
    rcases hrlroot with h1 | h1
    · rw [h1]; tauto
    · intro hc; rw [hc] at h1; tauto
  have e3 : head ≠ p := by tauto
  have e4 : m.is_nil (m.left (m.right p)) = false → head ≠ m.left (m.right p) := by
    intro hc hc2; rw [← hc2, hnil] at hc; simp at hc
  have hP := fun a => leftRotate_parent m head p a e1 e2 e3 e4
  have hL := leftRotate_left m head p
  have hR := fun a => leftRotate_right m head p a e1
  have hN := leftRotate_is_nil m head p
  rw [hrcp] at hP hL hR
  have hrcl : rc ∉ l.addrs := fun hc => hnd.2.2 hc (Or.inr (Or.inr (Or.inl rfl)))
  have hpl : p ∉ l.addrs := fun hc => hnd.2.2 hc (Or.inl rfl)
  have hprl : p ∉ rl.addrs := hnd.2.1.1.1
  have hprr : p ∉ rr.addrs := hnd.2.1.1.2.2
  have hrcrl : rc ∉ rl.addrs := fun hc => hnd.2.1.2.2.2 hc (Or.inl rfl)
  have hrcrr : rc ∉ rr.addrs := hnd.2.1.2.2.1.1
  have hprc : p ≠ rc := hnd.2.1.1.2.1
  have hxl : m.left rc ∉ l.addrs := by
    rcases hrlroot with h1 | h1
    · rw [h1]; exact hhead.1
    · exact fun hc => hnd.2.2 hc (Or.inr (Or.inl h1))
  have hxrr : m.left rc ∉ rr.addrs := by
    rcases hrlroot with h1 | h1
    · rw [h1]; exact hhead.2.2.2.2
    · exact fun hc => hnd.2.1.2.2.2 h1 (Or.inr hc)
  refine ⟨rfl, by rw [hN]; exact hnrc, ?_, ⟨?_, by rw [hN]; exact hn, ?_, ?_, ?_⟩, ?_⟩
  · rw [hP]; simp [Ne.symm hprc]
  · rw [hL]; simp
  · rw [hP]; simp
  · have : (leftRotate m head p).left p = m.left p := by
      rw [hL]; simp [hprc]; tauto
    rw [this]
    refine Rep.frame_links l p _ hl (fun a ha => ?_)
    have ha1 : a ≠ p := fun hc => hpl (hc ▸ ha)
    have ha2 : a ≠ rc := fun hc => hrcl (hc ▸ ha)
    have ha3 : a ≠ m.parent p := fun hc => hpp.1 (hc ▸ ha)
    have ha4 : a ≠ m.left rc := fun hc => hxl (hc ▸ ha)
    have ha5 : a ≠ head := fun hc => hhead.1 (hc ▸ ha)
    refine ⟨by rw [hN], ?_, ?_, ?_⟩
    · rw [hP]; simp [ha1, ha2, ha4, ha5]
    · rw [hL]; simp [ha2, ha3]
    · rw [hR]; simp [ha1, ha3]
  · have : (leftRotate m head p).right p = m.left rc := by
      rw [hR]; simp
    rw [this]
    refine Rep.reparent rl rc p _ hrl (fun a ha => ?_) (fun hx => ?_) hnd.2.1.2.1
    · have ha1 : a ≠ p := fun hc => hprl (hc ▸ ha)
      have ha2 : a ≠ rc := fun hc => hrcrl (hc ▸ ha)
      have ha3 : a ≠ m.parent p := fun hc => hpp.2.2.1 (hc ▸ ha)
      have ha5 : a ≠ head := fun hc => hhead.2.2.1 (hc ▸ ha)
      refine ⟨by rw [hN], fun hax => ?_, ?_, ?_⟩
      · rw [hP]; simp [ha1, ha2, hax, ha5]
      · rw [hL]; simp [ha2, ha3]
      · rw [hR]; simp [ha1, ha3]
    · have hreal := Rep.real_node rl _ _ hrl _ hx
      have hx1 : m.left rc ≠ p := fun hc => hprl (hc ▸ hx)
      have hx2 : m.left rc ≠ rc := fun hc => hrcrl (hc ▸ hx)
      rw [hP]; simp [hreal, hx1, hx2]
  · have : (leftRotate m head p).right rc = m.right rc := by
      rw [hR]; simp [Ne.symm hprc]; tauto
    rw [this]
    refine Rep.frame_links rr rc _ hrr (fun a ha => ?_)
    have ha1 : a ≠ p := fun hc => hprr (hc ▸ ha)
    have ha2 : a ≠ rc := fun hc => hrcrr (hc ▸ ha)
    have ha3 : a ≠ m.parent p := fun hc => hpp.2.2.2.2 (hc ▸ ha)
    have ha4 : a ≠ m.left rc := fun hc => hxrr (hc ▸ ha)
    have ha5 : a ≠ head := fun hc => hhead.2.2.2.2 (hc ▸ ha)
    refine ⟨by rw [hN], ?_, ?_, ?_⟩
    · rw [hP]; simp [ha1, ha2, ha4, ha5]
    · rw [hL]; simp [ha2, ha3]
    · rw [hR]; simp [ha1, ha3]

theorem nodup_mid_disjoint {pre mid post : List Nat} (h : (pre ++ mid ++ post).Nodup) :
    mid.Nodup ∧ (pre ++ post).Nodup ∧ ∀ a ∈ pre ++ post, a ∉ mid := by
  have h1 := List.nodup_append.1 h
  have h2 := List.nodup_append.1 h1.1
  refine ⟨h2.2.1, ?_, ?_⟩
  · refine List.nodup_append.2 ⟨h2.1, h1.2.1, ?_⟩
    intro a ha hb
    exact h1.2.2 (List.mem_append_left _ ha) hb
  · intro a ha hc
    rcases List.mem_append.1 ha with h | h
    · exact h2.2.2 h hc
    · exact h1.2.2 (List.mem_append_right _ hc) h

theorem TreeInv.real {comp : K → K → Bool} {m : TreeMem K V} {t : TreeValue} {L : List Nat}
    (h : TreeInv comp m t L) {p : Nat} (hp : p ∈ L) : m.is_nil p = false := by
  obtain ⟨s, hs, hsL⟩ := h.shape
  exact Rep.real_node s _ _ hs p (hsL ▸ hp)

theorem TreeInv.ne_head {comp : K → K → Bool} {m : TreeMem K V} {t : TreeValue} {L : List Nat}
    (h : TreeInv comp m t L) {p : Nat} (hp : p ∈ L) : p ≠ t.head := by
  intro hc
  have := h.real hp
  rw [hc, h.head_nil] at this
  exact absurd this (by simp)

theorem leftRotate_inv {comp : K → K → Bool} {m : TreeMem K V} {t : TreeValue} {L : List Nat}
    (h : TreeInv comp m t L) {p : Nat} (hp : p ∈ L) (hr : m.is_nil (m.right p) = false) :
    TreeInv comp (leftRotate m t.head p) t L := by
  obtain ⟨l, r, pre, post, hL, hrep, hppn, hroot, hlink, hcont⟩ := h.zoom hp
  have hrep' := hrep
  obtain ⟨-, hn, -, hl, hrr⟩ := hrep
  rcases Rep.root r _ _ hrr with ⟨-, hx⟩ | ⟨rl, rr, rfl⟩
  · rw [hx, h.head_nil] at hr; exact absurd hr (by simp)
  have hrr' := hrr
  obtain ⟨-, hnrc, hparc, hrl, -⟩ := hrr
  have hnd := nodup_mid_disjoint (hL ▸ h.nodup)
  have hu : (Shape.node l p (Shape.node rl (m.right p) rr)).addrs.Nodup := by
    simpa [Shape.addrs] using hnd.1
  have hppn' : m.parent p ∉ (Shape.node l p (Shape.node rl (m.right p) rr)).addrs := by
    simpa [Shape.addrs] using hppn
  have hloc := leftRotate_local h.head_nil hrep' hu hppn'
  have hhead := Rep.head_not_mem h.head_nil _ _ _ hrep'
  simp only [Shape.addrs, List.mem_append, List.mem_cons, not_or] at hhead hppn'
  have hrlroot := Rep.root_in rl _ _ hrl
  have e1 : m.parent p ≠ m.right p := hppn'.2.2.2.1
  have e3 : t.head ≠ p := hhead.2.1
  have e5 : t.head ≠ m.right p := hhead.2.2.2.1
  have e2 : m.left (m.right p) ≠ p := by
    rcases hrlroot with h1 | h1
    · rw [h1]; exact hhead.2.1
    · intro hc; rw [hc] at h1
      simp only [Shape.addrs, List.nodup_append, List.nodup_cons, List.mem_append,
        List.mem_cons, not_or] at hu
      exact hu.2.1.1.1 h1
  have e4 : m.is_nil (m.left (m.right p)) = false → t.head ≠ m.left (m.right p) := by
    intro hc hc2; rw [← hc2, h.head_nil] at hc; simp at hc
  have hP := fun a => leftRotate_parent m t.head p a e1 e2 e3 e4
  have hLf := leftRotate_left m t.head p
  have hR := fun a => leftRotate_right m t.head p a e1
  have hN := leftRotate_is_nil m t.head p
  have hH := fun a => leftRotate_height m t.head p a e1 (by
    intro hc
    simp only [Shape.addrs, List.nodup_append, List.nodup_cons, List.mem_append,
      List.mem_cons, not_or] at hu
    exact hu.2.1.1.2.1 hc)
  -- the head sentinel keeps its cached links
  have hpphead : m.is_nil (m.parent p) = false → t.head ≠ m.parent p := by
    intro hc hc2; rw [← hc2, h.head_nil] at hc; simp at hc
  have hleft_head : (leftRotate m t.head p).left t.head = m.left t.head := by
    rw [hLf]; simp only [e5, if_false]
    by_cases hc : m.is_nil (m.parent p) = false
    · simp [hpphead hc]
    · simp [hc]
  have hright_head : (leftRotate m t.head p).right t.head = m.right t.head := by
    rw [hR]; simp only [e3, if_false]
    by_cases hc : m.is_nil (m.parent p) = false
    · simp [hpphead hc]
    · simp [hc]
  have hpar_head : (leftRotate m t.head p).parent t.head =
      if m.parent t.head = p then m.right p else m.parent t.head := by
    rw [hP]; simp only [e3, e5, if_false]
    rcases hroot with ⟨a1, a2, -, -⟩ | ⟨a1, a2, -⟩
    · have : m.is_nil (m.left (m.right p)) = false → t.head ≠ m.left (m.right p) := e4
      by_cases hc : m.is_nil (m.left (m.right p)) = false
      · simp [hc, this hc, a1, a2, h.head_nil]
      · simp [hc, a1, a2, h.head_nil]
    · have hreal : m.is_nil (m.parent p) = false := by
        obtain ⟨s, hs, hsL⟩ := h.shape
        refine Rep.real_node s _ _ hs _ ?_
        rw [hsL, hL]
        rcases List.mem_append.1 a2 with a2 | a2
        · exact List.mem_append_left _ (List.mem_append_left _ a2)
        · exact List.mem_append_right _ a2
      by_cases hc : m.is_nil (m.left (m.right p)) = false
      · simp [hc, e4 hc, a1, hreal]
      · simp [hc, a1, hreal]
  obtain ⟨s', hs', hs'a⟩ := hcont (leftRotate m t.head p) _ (m.right p) hloc (by
    intro a ha
    have hau := hnd.2.2 a ha
    simp only [Shape.addrs, List.mem_append, List.mem_cons, not_or] at hau
    have hareal : m.is_nil a = false := h.real (by
      rw [hL]
      rcases List.mem_append.1 ha with ha | ha
      · exact List.mem_append_left _ (List.mem_append_left _ ha)
      · exact List.mem_append_right _ ha)
    have hah : a ≠ t.head := by
      intro hc; rw [hc, h.head_nil] at hareal; simp at hareal
    have ha4 : m.is_nil (m.left (m.right p)) = false → a ≠ m.left (m.right p) := by
      intro _ hc
      rcases hrlroot with h1 | h1
      · exact hah (hc.trans h1)
      · exact hau.2.2.1 (hc ▸ h1)
    refine ⟨by rw [hN], ?_, ?_, ?_⟩
    · rw [hP]; simp only [hau.2.1, hau.2.2.2.1, hah, if_false, and_false]
      by_cases hc : m.is_nil (m.left (m.right p)) = false
      · simp [hc, ha4 hc]
      · simp [hc]
    · rw [hLf]; simp only [hau.2.2.2.1, if_false]
      by_cases hc : m.left a = p
      · have := hlink a ha (Or.inl hc)
        subst this
        simp [hc, hareal]
      · simp only [hc, if_false]
        by_cases hc2 : a = m.parent p
        · subst hc2; simp [hc]
        · simp [hc2]
    · rw [hR]; simp only [hau.2.1, if_false]
      rcases hroot with ⟨-, -, a3, a4⟩ | ⟨-, -, a3⟩
      · subst a3 a4; simp at ha
      by_cases hc : m.right a = p
      · have := hlink a ha (Or.inr hc)
        subst this
        have : m.left (m.parent p) ≠ p := by
          rcases a3 with ⟨-, b, -⟩ | ⟨-, b, -⟩
          · exact absurd hc b
          · exact b
        simp [hc, hareal, this]
      · simp only [hc, if_false]
        by_cases hc2 : a = m.parent p
        · subst hc2
          have : m.left (m.parent p) = p := by
            rcases a3 with ⟨b, -, -⟩ | ⟨b, -, -⟩
            · exact b
            · exact absurd b hc
          simp [this]
        · simp [hc2]) hpar_head
  have hval := leftRotate_value m t.head p
  have hnext := leftRotate_next m t.head p
  refine ⟨by rw [hN]; exact h.head_nil, ?_, ⟨s', hs', ?_⟩, h.nodup, ?_, h.size_eq, ?_, ?_, ?_, ?_,
    ?_⟩
  · rw [hH]; simp only [e5, e3, if_false]; exact h.head_height
  · rw [hs'a, hL]; simp [Shape.addrs]
  · have : (leftRotate m t.head p).key = m.key := by
      funext a; simp [TreeMem.key, hval]
    rw [this]; exact h.sorted
  · rw [hleft_head]; exact h.head_left
  · rw [hright_head]; exact h.head_right
  · intro a ha
    rw [hH]
    split_ifs
    · omega
    · omega
    · exact h.height_pos a ha
  · rw [hnext.1]; exact h.head_alloc
  · rw [hnext.1]; exact h.alloc

theorem rightRotate_is_nil (m : TreeMem K V) (head p : Nat) :
    (rightRotate m head p).is_nil = m.is_nil := by
  unfold rightRotate
  simp only []
  split_ifs <;> rfl

theorem rightRotate_value (m : TreeMem K V) (head p : Nat) :
    (rightRotate m head p).value = m.value := by
  unfold rightRotate
  simp only []
  split_ifs <;> rfl

theorem rightRotate_next (m : TreeMem K V) (head p : Nat) :
    (rightRotate m head p).next = m.next ∧ (rightRotate m head p).freed = m.freed := by
  unfold rightRotate
  simp only []
  split_ifs <;> exact ⟨rfl, rfl⟩

theorem rightRotate_right (m : TreeMem K V) (head p : Nat) (a : Nat) :
    (rightRotate m head p).right a =
      if a = m.left p then p
      else if m.is_nil (m.parent p) = false ∧ m.left (m.parent p) ≠ p ∧ a = m.parent p
        then m.left p else m.right a := by
  unfold rightRotate whichChild
  simp only []
  split_ifs <;> simp_all [upd]

theorem rightRotate_left (m : TreeMem K V) (head p : Nat) (a : Nat)
    (hne : m.parent p ≠ m.left p) :
    (rightRotate m head p).left a =
      if a = p then m.right (m.left p)
      else if m.is_nil (m.parent p) = false ∧ m.left (m.parent p) = p ∧ a = m.parent p
        then m.left p else m.left a := by
  have hne' := Ne.symm hne
  unfold rightRotate whichChild
  simp only []
  split_ifs <;> simp_all [upd]

theorem rightRotate_parent (m : TreeMem K V) (head p : Nat) (a : Nat)
    (hne : m.parent p ≠ m.left p) (h1 : m.right (m.left p) ≠ p) (hh : head ≠ p)
    (h2 : m.is_nil (m.right (m.left p)) = false → head ≠ m.right (m.left p)) :
    (rightRotate m head p).parent a =
      if a = p then m.left p
      else if a = m.left p then m.parent p
      else if m.is_nil (m.right (m.left p)) = false ∧ a = m.right (m.left p) then p
      else if m.is_nil (m.parent p) = true ∧ a = head then m.left p
      else m.parent a := by
  have hne' := Ne.symm hne
  have h1' := Ne.symm h1
  have hh' := Ne.symm hh
  unfold rightRotate whichChild
  simp only []
  split_ifs <;> simp_all [upd]

theorem rightRotate_height (m : TreeMem K V) (head p : Nat) (a : Nat)
    (hne : m.parent p ≠ m.left p) (hpr : p ≠ m.left p) :
    (rightRotate m head p).height a =
      if a = m.left p then m.height (m.right (m.left p)) + 1 + 1
      else if a = p then m.height (m.right (m.left p)) + 1
      else m.height a := by
  have hne' := Ne.symm hne
  have hpr' := Ne.symm hpr
  unfold rightRotate whichChild
  simp only []
  split_ifs <;> simp_all [upd]

theorem rightRotate_local {m : TreeMem K V} {head p lc pp : Nat} {ll lr r : Shape}
    (hnil : m.is_nil head = true)
    (h : Rep m head (Shape.node (Shape.node ll lc lr) p r) pp p)
    (hnd : (Shape.node (Shape.node ll lc lr) p r).addrs.Nodup)
    (hpp : pp ∉ (Shape.node (Shape.node ll lc lr) p r).addrs) :
    Rep (rightRotate m head p) head (Shape.node ll lc (Shape.node lr p r)) pp lc := by
  obtain ⟨-, hn, hpar, ⟨hlc, hnlc, hpalc, hll, hlr⟩, hr⟩ := h
  have hhead := Rep.head_not_mem hnil _ _ _
    (show Rep m head (Shape.node (Shape.node ll lc lr) p r) pp p from
      ⟨rfl, hn, hpar, ⟨hlc, hnlc, hpalc, hll, hlr⟩, hr⟩)
  simp only [Shape.addrs, List.nodup_append, List.nodup_cons, List.mem_append, List.mem_cons,
    not_or, List.Disjoint] at hnd hpp hhead
  subst hpar
  have hlcp : m.left p = lc := hlc
  have hlcll : lc ∉ ll.addrs := fun hc => hnd.1.2.2 hc (Or.inl rfl)
  have hlclr : lc ∉ lr.addrs := hnd.1.2.1.1
  have hlcr : lc ∉ r.addrs := fun hc => hnd.2.2 (Or.inr (Or.inl rfl)) (Or.inr hc)
  have hpll : p ∉ ll.addrs := fun hc => hnd.2.2 (Or.inl hc) (Or.inl rfl)
  have hplr : p ∉ lr.addrs := fun hc => hnd.2.2 (Or.inr (Or.inr hc)) (Or.inl rfl)
  have hpr : p ∉ r.addrs := hnd.2.1.1
  have hplc : p ≠ lc := fun hc => hnd.2.2 (Or.inr (Or.inl rfl)) (Or.inl hc.symm)
  have hlrroot := Rep.root_in lr _ _ hlr
  have hxll : m.right lc ∉ ll.addrs := by
    rcases hlrroot with h1 | h1
    · rw [h1]; exact hhead.1.1
    · exact fun hc => hnd.1.2.2 hc (Or.inr h1)
  have hxr : m.right lc ∉ r.addrs := by
    rcases hlrroot with h1 | h1
    · rw [h1]; exact hhead.2.2
    · exact fun hc => hnd.2.2 (Or.inr (Or.inr h1)) (Or.inr hc)
  have e1 : m.parent p ≠ m.left p := by rw [hlcp]; exact hpp.1.2.1
  have e2 : m.right (m.left p) ≠ p := by
    rw [hlcp]
    rcases hlrroot with h1 | h1
    · rw [h1]; exact hhead.2.1
    · intro hc; rw [hc] at h1; exact hplr h1
  have e3 : head ≠ p := hhead.2.1
  have e4 : m.is_nil (m.right (m.left p)) = false → head ≠ m.right (m.left p) := by
    intro hc hc2; rw [← hc2, hnil] at hc; simp at hc
  have hP := fun a => rightRotate_parent m head p a e1 e2 e3 e4
  have hR := rightRotate_right m head p
  have hL := fun a => rightRotate_left m head p a e1
  have hN := rightRotate_is_nil m head p
  rw [hlcp] at hP hL hR
  refine ⟨rfl, by rw [hN]; exact hnlc, ?_, ?_, ⟨?_, by rw [hN]; exact hn, ?_, ?_, ?_⟩⟩
  · rw [hP]; simp [Ne.symm hplc]
  · have : (rightRotate m head p).left lc = m.left lc := by
      rw [hL]; simp only [Ne.symm hplc, if_false]
      rw [if_neg]; intro hc; exact hpp.1.2.1 hc.2.2.symm
    rw [this]
    refine Rep.frame_links ll lc _ hll (fun a ha => ?_)
    have ha1 : a ≠ p := fun hc => hpll (hc ▸ ha)
    have ha2 : a ≠ lc := fun hc => hlcll (hc ▸ ha)
    have ha3 : a ≠ m.parent p := fun hc => hpp.1.1 (hc ▸ ha)
    have ha4 : a ≠ m.right lc := fun hc => hxll (hc ▸ ha)
    have ha5 : a ≠ head := fun hc => hhead.1.1 (hc ▸ ha)
    refine ⟨by rw [hN], ?_, ?_, ?_⟩
    · rw [hP]; simp [ha1, ha2, ha4, ha5]
    · rw [hL]; simp [ha1, ha3]
    · rw [hR]; simp [ha2, ha3]
  · rw [hR]; simp
  · rw [hP]; simp
  · have : (rightRotate m head p).left p = m.right lc := by
      rw [hL]; simp
    rw [this]
    refine Rep.reparent lr lc p _ hlr (fun a ha => ?_) (fun hx => ?_) hnd.1.2.1.2
    · have ha1 : a ≠ p := fun hc => hplr (hc ▸ ha)
      have ha2 : a ≠ lc := fun hc => hlclr (hc ▸ ha)
      have ha3 : a ≠ m.parent p := fun hc => hpp.1.2.2 (hc ▸ ha)
      have ha5 : a ≠ head := fun hc => hhead.1.2.2 (hc ▸ ha)
      refine ⟨by rw [hN], fun hax => ?_, ?_, ?_⟩
      · rw [hP]; simp [ha1, ha2, hax, ha5]
      · rw [hL]; simp [ha1, ha3]
      · rw [hR]; simp [ha2, ha3]
    · have hreal := Rep.real_node lr _ _ hlr _ hx
      have hx1 : m.right lc ≠ p := fun hc => hplr (hc ▸ hx)
      have hx2 : m.right lc ≠ lc := fun hc => hlclr (hc ▸ hx)
      rw [hP]; simp [hreal, hx1, hx2]
  · have : (rightRotate m head p).right p = m.right p := by
      rw [hR]; simp only [hplc, if_false]
      rw [if_neg]; intro hc; exact hpp.2.1 hc.2.2.symm
    rw [this]
    refine Rep.frame_links r p _ hr (fun a ha => ?_)
    have ha1 : a ≠ p := fun hc => hpr (hc ▸ ha)
    have ha2 : a ≠ lc := fun hc => hlcr (hc ▸ ha)
    have ha3 : a ≠ m.parent p := fun hc => hpp.2.2 (hc ▸ ha)
    have ha4 : a ≠ m.right lc := fun hc => hxr (hc ▸ ha)
    have ha5 : a ≠ head := fun hc => hhead.2.2 (hc ▸ ha)
    refine ⟨by rw [hN], ?_, ?_, ?_⟩
    · rw [hP]; simp [ha1, ha2, ha4, ha5]
    · rw [hL]; simp [ha1, ha3]
    · rw [hR]; simp [ha2, ha3]

theorem rightRotate_inv {comp : K → K → Bool} {m : TreeMem K V} {t : TreeValue} {L : List Nat}
    (h : TreeInv comp m t L) {p : Nat} (hp : p ∈ L) (hr : m.is_nil (m.left p) = false) :
    TreeInv comp (rightRotate m t.head p) t L := by
  obtain ⟨l, r, pre, post, hL, hrep, hppn, hroot, hlink, hcont⟩ := h.zoom hp
  have hrep' := hrep
  obtain ⟨-, hn, -, hl, hrr⟩ := hrep
  rcases Rep.root l _ _ hl with ⟨-, hx⟩ | ⟨ll, lr, rfl⟩
  · rw [hx, h.head_nil] at hr; exact absurd hr (by simp)
  have hl' := hl
  obtain ⟨-, hnlc, hpalc, -, hlr⟩ := hl
  have hnd := nodup_mid_disjoint (hL ▸ h.nodup)
  have hu : (Shape.node (Shape.node ll (m.left p) lr) p r).addrs.Nodup := by
    simpa [Shape.addrs] using hnd.1
  have hppn' : m.parent p ∉ (Shape.node (Shape.node ll (m.left p) lr) p r).addrs := by
    simpa [Shape.addrs] using hppn
  have hloc := rightRotate_local h.head_nil hrep' hu hppn'
  have hhead := Rep.head_not_mem h.head_nil _ _ _ hrep'
  simp only [Shape.addrs, List.mem_append, List.mem_cons, not_or] at hhead hppn'
  simp only [Shape.addrs, List.nodup_append, List.nodup_cons, List.mem_append,
    List.mem_cons, not_or, List.Disjoint] at hu
  have hlrroot := Rep.root_in lr _ _ hlr
  have e1 : m.parent p ≠ m.left p := hppn'.1.2.1
  have e3 : t.head ≠ p := hhead.2.1
  have e5 : t.head ≠ m.left p := hhead.1.2.1
  have e2 : m.right (m.left p) ≠ p := by
    rcases hlrroot with h1 | h1
    · rw [h1]; exact hhead.2.1
    · intro hc; rw [hc] at h1
      exact hu.2.2 (Or.inr (Or.inr h1)) (Or.inl rfl)
  have e4 : m.is_nil (m.right (m.left p)) = false → t.head ≠ m.right (m.left p) := by
    intro hc hc2; rw [← hc2, h.head_nil] at hc; simp at hc
  have hP := fun a => rightRotate_parent m t.head p a e1 e2 e3 e4
  have hR := rightRotate_right m t.head p
  have hLf := fun a => rightRotate_left m t.head p a e1
  have hN := rightRotate_is_nil m t.head p
  have hH := fun a => rightRotate_height m t.head p a e1 (by
    intro hc
    exact hu.2.2 (Or.inr (Or.inl rfl)) (Or.inl hc.symm))
  have hpphead : m.is_nil (m.parent p) = false → t.head ≠ m.parent p := by
    intro hc hc2; rw [← hc2, h.head_nil] at hc; simp at hc
  have hleft_head : (rightRotate m t.head p).left t.head = m.left t.head := by
    rw [hLf]; simp only [e3, if_false]
    by_cases hc : m.is_nil (m.parent p) = false
    · simp [hpphead hc]
    · simp [hc]
  have hright_head : (rightRotate m t.head p).right t.head = m.right t.head := by
    rw [hR]; simp only [e5, if_false]
    by_cases hc : m.is_nil (m.parent p) = false
    · simp [hpphead hc]
    · simp [hc]
  have hpar_head : (rightRotate m t.head p).parent t.head =
      if m.parent t.head = p then m.left p else m.parent t.head := by
    rw [hP]; simp only [e3, e5, if_false]
    rcases hroot with ⟨a1, a2, -, -⟩ | ⟨a1, a2, -⟩
    · by_cases hc : m.is_nil (m.right (m.left p)) = false
      · simp [hc, e4 hc, a1, a2, h.head_nil]
      · simp [hc, a1, a2, h.head_nil]
    · have hreal : m.is_nil (m.parent p) = false := by
        obtain ⟨s, hs, hsL⟩ := h.shape
        refine Rep.real_node s _ _ hs _ ?_
        rw [hsL, hL]
        rcases List.mem_append.1 a2 with a2 | a2
        · exact List.mem_append_left _ (List.mem_append_left _ a2)
        · exact List.mem_append_right _ a2
      by_cases hc : m.is_nil (m.right (m.left p)) = false
      · simp [hc, e4 hc, a1, hreal]
      · simp [hc, a1, hreal]
  obtain ⟨s', hs', hs'a⟩ := hcont (rightRotate m t.head p) _ (m.left p) hloc (by
    intro a ha
    have hau := hnd.2.2 a ha
    simp only [Shape.addrs, List.mem_append, List.mem_cons, not_or] at hau
    have hareal : m.is_nil a = false := h.real (by
      rw [hL]
      rcases List.mem_append.1 ha with ha | ha
      · exact List.mem_append_left _ (List.mem_append_left _ ha)
      · exact List.mem_append_right _ ha)
    have hah : a ≠ t.head := by
      intro hc; rw [hc, h.head_nil] at hareal; simp at hareal
    have ha4 : m.is_nil (m.right (m.left p)) = false → a ≠ m.right (m.left p) := by
      intro _ hc
      rcases hlrroot with h1 | h1
      · exact hah (hc.trans h1)
      · exact hau.1.2.2 (hc ▸ h1)
    refine ⟨by rw [hN], ?_, ?_, ?_⟩
    · rw [hP]; simp only [hau.2.1, hau.1.2.1, hah, if_false, and_false]
      by_cases hc : m.is_nil (m.right (m.left p)) = false
      · simp [hc, ha4 hc]
      · simp [hc]
    · rw [hLf]; simp only [hau.2.1, if_false]
      by_cases hc : m.left a = p
      · have := hlink a ha (Or.inl hc)
        subst this
        simp [hc, hareal]
      · simp only [hc, if_false]
        by_cases hc2 : a = m.parent p
        · subst hc2; simp [hc]
        · simp [hc2]
    · rw [hR]; simp only [hau.1.2.1, if_false]
      rcases hroot with ⟨-, -, a3, a4⟩ | ⟨-, -, a3⟩
      · subst a3 a4; simp at ha
      by_cases hc : m.right a = p
      · have := hlink a ha (Or.inr hc)
        subst this
        have : m.left (m.parent p) ≠ p := by
          rcases a3 with ⟨-, b, -⟩ | ⟨-, b, -⟩
          · exact absurd hc b
          · exact b
        simp [hc, hareal, this]
      · simp only [hc, if_false]
        by_cases hc2 : a = m.parent p
        · subst hc2
          have : m.left (m.parent p) = p := by
            rcases a3 with ⟨b, -, -⟩ | ⟨b, -, -⟩
            · exact b
            · exact absurd b hc
          simp [this]
        · simp [hc2]) hpar_head
  have hval := rightRotate_value m t.head p
  have hnext := rightRotate_next m t.head p
  refine ⟨by rw [hN]; exact h.head_nil, ?_, ⟨s', hs', ?_⟩, h.nodup, ?_, h.size_eq, ?_, ?_, ?_, ?_,
    ?_⟩
  · rw [hH]; simp only [e5, e3, if_false]; exact h.head_height
  · rw [hs'a, hL]; simp [Shape.addrs]
  · have : (rightRotate m t.head p).key = m.key := by
      funext a; simp [TreeMem.key, hval]
    rw [this]; exact h.sorted
  · rw [hleft_head]; exact h.head_left
  · rw [hright_head]; exact h.head_right
  · intro a ha
    rw [hH]
    split_ifs
    · omega
    · omega
    · exact h.height_pos a ha
  · rw [hnext.1]; exact h.head_alloc
  · rw [hnext.1]; exact h.alloc

theorem ReachNil.mono {is_nil : Nat → Bool} {parent : Nat → Nat} :
    ∀ (n k : Nat) (p : Nat), ReachNil is_nil parent n p → n ≤ k → ReachNil is_nil parent k p
  | 0, 0, _, h, _ => h
  | 0, k + 1, _, h, _ => Or.inl h
  | n + 1, 0, _, _, hk => absurd hk (by omega)
  | n + 1, k + 1, p, h, hk => by
    rcases h with h | h
    · exact Or.inl h
    · exact Or.inr (ReachNil.mono n k _ h (by omega))

theorem Rep.reach_nil {m : TreeMem K V} {head : Nat} :
    ∀ (s : Shape) (par x k : Nat), Rep m head s par x → ReachNil m.is_nil m.parent k par →
      ∀ a ∈ s.addrs, ReachNil m.is_nil m.parent (k + s.addrs.length) a
  | Shape.nil, _, _, _, _, _, a, ha => by simp [Shape.addrs] at ha
  | Shape.node l p r, par, x, k, h, hk, a, ha => by
    obtain ⟨-, -, hpar, hl, hr⟩ := h
    have hp : ReachNil m.is_nil m.parent (k + 1) p := Or.inr (hpar ▸ hk)
    simp only [Shape.addrs, List.mem_append, List.mem_cons, List.length_append,
      List.length_cons] at ha ⊢
    rcases ha with ha | rfl | ha
    · exact ReachNil.mono _ _ _ (Rep.reach_nil l p _ (k + 1) hl hp a ha) (by omega)
    · exact ReachNil.mono _ _ _ hp (by omega)
    · exact ReachNil.mono _ _ _ (Rep.reach_nil r p _ (k + 1) hr hp a ha) (by omega)

theorem TreeInv.reachNil {comp : K → K → Bool} {m : TreeMem K V} {t : TreeValue} {L : List Nat}
    (h : TreeInv comp m t L) {p : Nat} (hp : p ∈ L ∨ p = t.head) :
    ReachNil m.is_nil m.parent L.length p := by
  rcases hp with hp | hp
  · obtain ⟨s, hs, hsL⟩ := h.shape
    have h0 : ReachNil m.is_nil m.parent 0 t.head := h.head_nil
    have := Rep.reach_nil s _ _ 0 hs h0 p (hsL ▸ hp)
    rw [hsL] at this
    simpa using this
  · subst hp
    exact ReachNil.mono 0 _ _ h.head_nil (by omega)

theorem TreeInv.parent_mem {comp : K → K → Bool} {m : TreeMem K V} {t : TreeValue}
    {L : List Nat} (h : TreeInv comp m t L) {p : Nat} (hp : p ∈ L) :
    m.parent p ∈ L ∨ m.parent p = t.head := by
  obtain ⟨s, hs, hsL⟩ := h.shape
  rcases Rep.parent_in s _ _ hs p (hsL ▸ hp) with ⟨-, h2⟩ | ⟨-, h2⟩
  · exact Or.inr h2
  · exact Or.inl (hsL ▸ h2)

theorem TreeInv.children {comp : K → K → Bool} {m : TreeMem K V} {t : TreeValue}
    {L : List Nat} (h : TreeInv comp m t L) {p : Nat} (hp : p ∈ L) :
    (m.left p = t.head ∨ (m.left p ∈ L ∧ m.parent (m.left p) = p ∧ m.left p ≠ p ∧
        m.right p ≠ m.left p)) ∧
    (m.right p = t.head ∨ (m.right p ∈ L ∧ m.parent (m.right p) = p ∧ m.right p ≠ p ∧
        m.left p ≠ m.right p)) := by
  obtain ⟨l, r, pre, post, hL, hrep, -, -, -, -⟩ := h.zoom hp
  have hnd := (nodup_mid_disjoint (hL ▸ h.nodup)).1
  have hhead := Rep.head_not_mem h.head_nil _ _ _ hrep
  obtain ⟨-, -, -, hl, hr⟩ := hrep
  simp only [Shape.addrs, List.nodup_append, List.nodup_cons, List.mem_append, List.mem_cons,
    not_or, List.Disjoint] at hnd hhead
  have hrroot := Rep.root_in r _ _ hr
  have hlroot := Rep.root_in l _ _ hl
  constructor
  · rcases hlroot with hx | hmem
    · exact Or.inl hx
    · right
      refine ⟨?_, ?_, ?_, ?_⟩
      · rw [hL]; simp [hmem]
      · rcases Rep.parent_in l _ _ hl _ hmem with ⟨-, h2⟩ | ⟨h1, -⟩
        · exact h2
        · exact absurd rfl h1
      · intro hc; exact hnd.2.2 hmem (Or.inl hc)
      · intro hc
        rcases hrroot with h1 | h1
        · exact hhead.1 (h1 ▸ hc ▸ hmem)
        · exact hnd.2.2 hmem (Or.inr (hc ▸ h1))
  · rcases hrroot with hx | hmem
    · exact Or.inl hx
    · right
      refine ⟨?_, ?_, ?_, ?_⟩
      · rw [hL]; simp [hmem]
      · rcases Rep.parent_in r _ _ hr _ hmem with ⟨-, h2⟩ | ⟨h1, -⟩
        · exact h2
        · exact absurd rfl h1
      · intro hc; exact hnd.2.1.1 (hc ▸ hmem)
      · intro hc
        rcases hlroot with h1 | h1
        · exact hhead.2.2 (h1 ▸ hc ▸ hmem)
        · exact hnd.2.2 (hc ▸ h1) (Or.inr hmem)

theorem changeHeights_fields :
    ∀ (fuel : Nat) (m : TreeMem K V) (node : Nat) (m' : TreeMem K V),
      changeHeights fuel m node = some m' →
      m'.left = m.left ∧ m'.right = m.right ∧ m'.parent = m.parent ∧ m'.is_nil = m.is_nil ∧
      m'.value = m.value ∧ m'.next = m.next ∧ m'.freed = m.freed ∧
      (∀ a, m.is_nil a = true → m'.height a = m.height a) ∧
      (∀ a, 1 ≤ m.height a → 1 ≤ m'.height a)
  | 0, _, _, _, h => by simp [changeHeights] at h
  | fuel + 1, m, node, m', h => by
    unfold changeHeights at h
    by_cases hn : m.is_nil node = true
    · rw [if_pos hn] at h
      simp only [Option.some.injEq] at h
      subst h
      exact ⟨rfl, rfl, rfl, rfl, rfl, rfl, rfl, fun _ _ => rfl, fun _ h => h⟩
    · rw [if_neg hn] at h
      dsimp only at h
      by_cases hc : (if m.height (m.left node) > m.height (m.right node)
          then m.height (m.left node) + 1 else m.height (m.right node) + 1) ≠ m.height node
      · rw [if_pos hc] at h
        have ih := changeHeights_fields fuel _ _ _ h
        simp only at ih
        obtain ⟨h1, h2, h3, h4, h5, h6, h7, h8, h9⟩ := ih
        refine ⟨h1, h2, h3, h4, h5, h6, h7, ?_, ?_⟩
        · intro a ha
          rw [h8 a ha]
          have : a ≠ node := fun hc => hn (hc ▸ ha)
          simp [upd, this]
        · intro a ha
          apply h9
          simp only [upd]
          split_ifs <;> omega
      · rw [if_neg hc] at h
        simp only [Option.some.injEq] at h
        subst h
        exact ⟨rfl, rfl, rfl, rfl, rfl, rfl, rfl, fun _ _ => rfl, fun _ h => h⟩

theorem changeHeights_terminates :
    ∀ (n fuel : Nat) (m : TreeMem K V) (node : Nat),
      ReachNil m.is_nil m.parent n node → n < fuel → ∃ m', changeHeights fuel m node = some m'
  | _, 0, _, _, _, hf => absurd hf (by omega)
  | 0, fuel + 1, m, node, h, _ => by
    unfold changeHeights
    have h' : m.is_nil node = true := h
    simp [h']
  | n + 1, fuel + 1, m, node, h, hf => by
    unfold changeHeights
    by_cases hn : m.is_nil node = true
    · rw [if_pos hn]; exact ⟨m, rfl⟩
    · rw [if_neg hn]
      have h' : ReachNil m.is_nil m.parent n (m.parent node) := by
        rcases h with h | h
        · exact absurd h hn
        · exact h
      dsimp only
      by_cases hc : (if m.height (m.left node) > m.height (m.right node)
          then m.height (m.left node) + 1 else m.height (m.right node) + 1) ≠ m.height node
      · rw [if_pos hc]
        exact changeHeights_terminates n fuel _ _ h' (by omega)
      · rw [if_neg hc]; exact ⟨m, rfl⟩

theorem TreeInv.of_fields {comp : K → K → Bool} {m m' : TreeMem K V} {t : TreeValue}
    {L : List Nat} (h : TreeInv comp m t L)
    (h1 : m'.left = m.left) (h2 : m'.right = m.right) (h3 : m'.parent = m.parent)
    (h4 : m'.is_nil = m.is_nil) (h5 : m'.value = m.value) (h6 : m'.next = m.next)
    (h8 : ∀ a, m.is_nil a = true → m'.height a = m.height a)
    (h9 : ∀ a, 1 ≤ m.height a → 1 ≤ m'.height a) : TreeInv comp m' t L := by
  obtain ⟨s, hs, hsL⟩ := h.shape
  refine ⟨by rw [h4]; exact h.head_nil, by rw [h8 _ h.head_nil]; exact h.head_height,
    ⟨s, ?_, hsL⟩, h.nodup, ?_, h.size_eq, by rw [h1]; exact h.head_left,
    by rw [h2]; exact h.head_right, fun p hp => h9 p (h.height_pos p hp),
    by rw [h6]; exact h.head_alloc, by rw [h6]; exact h.alloc⟩
  · rw [h3]
    exact Rep.frame_links s _ _ hs (fun a _ => by rw [h1, h2, h3, h4]; simp)
  · have : m'.key = m.key := by funext a; simp [TreeMem.key, h5]
    rw [this]; exact h.sorted

theorem changeHeights_inv {comp : K → K → Bool} {m : TreeMem K V} {t : TreeValue}
    {L : List Nat} (h : TreeInv comp m t L) {node fuel : Nat} (hnode : node ∈ L ∨ node = t.head)
    (hf : L.length < fuel) :
    ∃ m', changeHeights fuel m node = some m' ∧ TreeInv comp m' t L ∧ m'.value = m.value ∧
      m'.next = m.next ∧ m'.freed = m.freed := by
  obtain ⟨m', hm'⟩ := changeHeights_terminates _ fuel m node (h.reachNil hnode) hf
  obtain ⟨h1, h2, h3, h4, h5, h6, h7, h8, h9⟩ := changeHeights_fields _ _ _ _ hm'
  exact ⟨m', hm', h.of_fields h1 h2 h3 h4 h5 h6 h8 h9, h5, h6, h7⟩

theorem TreeInv.root_mem {comp : K → K → Bool} {m : TreeMem K V} {t : TreeValue}
    {L : List Nat} (h : TreeInv comp m t L) : m.parent t.head ∈ L ∨ m.parent t.head = t.head := by
  obtain ⟨s, hs, hsL⟩ := h.shape
  rcases Rep.root_in s _ _ hs with h1 | h1
  · exact Or.inr h1
  · exact Or.inl (hsL ▸ h1)

theorem TreeInv.parent_closed {comp : K → K → Bool} {m : TreeMem K V} {t : TreeValue}
    {L : List Nat} (h : TreeInv comp m t L) {q : Nat} (hq : q ∈ L ∨ q = t.head) :
    m.parent q ∈ L ∨ m.parent q = t.head := by
  rcases hq with hq | hq
  · exact h.parent_mem hq
  · rw [hq]; exact h.root_mem

theorem TreeInv.real_of_height {comp : K → K → Bool} {m : TreeMem K V} {t : TreeValue}
    {L : List Nat} (h : TreeInv comp m t L) {q : Nat} (hq : q = t.head ∨ q ∈ L)
    (hh : 0 < m.height q) : q ∈ L ∧ m.is_nil q = false := by
  rcases hq with hq | hq
  · rw [hq, h.head_height] at hh; omega
  · exact ⟨hq, h.real hq⟩

theorem checkBalance_spec {comp : K → K → Bool} {m : TreeMem K V} {t : TreeValue}
    {L : List Nat} (h : TreeInv comp m t L) :
    ∀ (n fuel node : Nat), (node ∈ L ∨ node = t.head) → ReachNil m.is_nil m.parent n node →
      n < fuel → ∃ res, checkBalance m fuel node = some res ∧ RotOK m L res
  | _, 0, _, _, _, hf => absurd hf (by omega)
  | n, fuel + 1, node, hnode, hr, hf => by
    unfold checkBalance
    by_cases hn : m.is_nil node = true
    · rw [if_pos hn]; exact ⟨_, rfl, trivial⟩
    · rw [if_neg hn]
      have hmem : node ∈ L := by
        rcases hnode with h1 | h1
        · exact h1
        · rw [h1] at hn; exact absurd h.head_nil hn
      have hch := h.children hmem
      by_cases h2 : differenceHeights m node = 2
      · rw [if_pos h2]
        have hrc : m.right node ∈ L ∧ m.is_nil (m.right node) = false := by
          apply h.real_of_height (hch.2.imp id (fun x => x.1))
          unfold differenceHeights at h2; omega
        by_cases h3 : differenceHeights m (m.right node) ≥ 0
        · rw [if_pos h3]; exact ⟨_, rfl, hmem, hrc.2⟩
        · rw [if_neg h3]
          refine ⟨_, rfl, hmem, hrc.2, hrc.1, ?_⟩
          have hch2 := h.children hrc.1
          refine (h.real_of_height (hch2.1.imp id (fun x => x.1)) ?_).2
          unfold differenceHeights at h3; omega
      · rw [if_neg h2]
        by_cases h4 : differenceHeights m node = -2
        · rw [if_pos h4]
          have hlc : m.left node ∈ L ∧ m.is_nil (m.left node) = false := by
            apply h.real_of_height (hch.1.imp id (fun x => x.1))
            unfold differenceHeights at h4; omega
          by_cases h3 : differenceHeights m (m.left node) ≤ 0
          · rw [if_pos h3]; exact ⟨_, rfl, hmem, hlc.2⟩
          · rw [if_neg h3]
            refine ⟨_, rfl, hmem, hlc.2, hlc.1, ?_⟩
            have hch2 := h.children hlc.1
            refine (h.real_of_height (hch2.2.imp id (fun x => x.1)) ?_).2
            unfold differenceHeights at h3; omega
        · rw [if_neg h4]
          cases n with
          | zero => exact absurd hr hn
          | succ n =>
            have hr' : ReachNil m.is_nil m.parent n (m.parent node) := by
              rcases hr with hr | hr
              · exact absurd hr hn
              · exact hr
            exact checkBalance_spec h n fuel _ (h.parent_mem hmem) hr' (by omega)

theorem balanceTree_inv {comp : K → K → Bool} {m : TreeMem K V} {t : TreeValue}
    {L : List Nat} (h : TreeInv comp m t L) {node fuel : Nat} (hnode : node ∈ L ∨ node = t.head)
    (hf : L.length < fuel) :
    ∃ m', balanceTree fuel m t.head node = some m' ∧ TreeInv comp m' t L ∧ m'.value = m.value ∧
      m'.next = m.next ∧ m'.freed = m.freed := by
  obtain ⟨res, hres, hok⟩ := checkBalance_spec h _ fuel node hnode (h.reachNil hnode) hf
  unfold balanceTree
  rw [hres]
  obtain ⟨q, rot⟩ := res
  cases rot with
  | none => exact ⟨m, rfl, h, rfl, rfl, rfl⟩
  | smallLeft =>
    obtain ⟨hq, hrc⟩ : q ∈ L ∧ m.is_nil (m.right q) = false := hok
    have h1 := leftRotate_inv h hq hrc
    obtain ⟨m', hm', hinv, hv, hn, hfr⟩ := changeHeights_inv h1
      (h1.parent_closed (h1.parent_mem hq)) hf
    refine ⟨m', hm', hinv, ?_, ?_, ?_⟩
    · rw [hv, leftRotate_value]
    · rw [hn, (leftRotate_next _ _ _).1]
    · rw [hfr, (leftRotate_next _ _ _).2]
  | smallRight =>
    obtain ⟨hq, hlc⟩ : q ∈ L ∧ m.is_nil (m.left q) = false := hok
    have h1 := rightRotate_inv h hq hlc
    obtain ⟨m', hm', hinv, hv, hn, hfr⟩ := changeHeights_inv h1
      (h1.parent_closed (h1.parent_mem hq)) hf
    refine ⟨m', hm', hinv, ?_, ?_, ?_⟩
    · rw [hv, rightRotate_value]
    · rw [hn, (rightRotate_next _ _ _).1]
    · rw [hfr, (rightRotate_next _ _ _).2]
  | bigLeft =>
    obtain ⟨hq, hrc, hrcL, hrl⟩ : q ∈ L ∧ m.is_nil (m.right q) = false ∧ m.right q ∈ L ∧
      m.is_nil (m.left (m.right q)) = false := hok
    have h0 := rightRotate_inv h hrcL hrl
    have hreal : (rightRotate m t.head (m.right q)).is_nil
        ((rightRotate m t.head (m.right q)).right q) = false := by
      rw [rightRotate_is_nil, rightRotate_right]
      split_ifs
      · exact hrc
      · exact hrl
      · exact hrc
    have h1 := leftRotate_inv h0 hq hreal
    obtain ⟨m', hm', hinv, hv, hn, hfr⟩ := changeHeights_inv h1
      (h1.parent_closed (h1.parent_mem hq)) hf
    refine ⟨m', hm', hinv, ?_, ?_, ?_⟩
    · rw [hv, leftRotate_value, rightRotate_value]
    · rw [hn, (leftRotate_next _ _ _).1, (rightRotate_next _ _ _).1]
    · rw [hfr, (leftRotate_next _ _ _).2, (rightRotate_next _ _ _).2]
  | bigRight =>
    obtain ⟨hq, hlc, hlcL, hlr⟩ : q ∈ L ∧ m.is_nil (m.left q) = false ∧ m.left q ∈ L ∧
      m.is_nil (m.right (m.left q)) = false := hok
    have h0 := leftRotate_inv h hlcL hlr
    have hreal : (leftRotate m t.head (m.left q)).is_nil
        ((leftRotate m t.head (m.left q)).left q) = false := by
      rw [leftRotate_is_nil, leftRotate_left]
      split_ifs
      · exact hlc
      · exact hlr
      · exact hlc
    have h1 := rightRotate_inv h0 hq hreal
    obtain ⟨m', hm', hinv, hv, hn, hfr⟩ := changeHeights_inv h1
      (h1.parent_closed (h1.parent_mem hq)) hf
    refine ⟨m', hm', hinv, ?_, ?_, ?_⟩
    · rw [hv, rightRotate_value, leftRotate_value]
    · rw [hn, (rightRotate_next _ _ _).1, (leftRotate_next _ _ _).1]
    · rw [hfr, (rightRotate_next _ _ _).2, (leftRotate_next _ _ _).2]

theorem Shape.addrs_eq_nil {s : Shape} (h : s.addrs = []) : s = Shape.nil := by
  cases s with
  | nil => rfl
  | node l p r => simp [Shape.addrs] at h

/-- The links of the head sentinel of a well-formed tree. -/
theorem TreeInv.head_links {comp : K → K → Bool} {m : TreeMem K V} {t : TreeValue}
    {L : List Nat} (h : TreeInv comp m t L) :
    (L = [] → m.left t.head = t.head ∧ m.right t.head = t.head ∧ m.parent t.head = t.head) ∧
    (L ≠ [] → m.left t.head ∈ L ∧ m.right t.head ∈ L ∧ m.parent t.head ∈ L) ∧
    (∀ a ∈ L, a ≠ m.left t.head → comp (m.key (m.left t.head)) (m.key a) = true) ∧
    (∀ a ∈ L, a ≠ m.right t.head → comp (m.key a) (m.key (m.right t.head)) = true) := by
  obtain ⟨s, hs, hsL⟩ := h.shape
  have hl := h.head_left
  have hr := h.head_right
  have hsorted := h.sorted
  refine ⟨?_, ?_, ?_, ?_⟩
  · intro h0
    subst h0
    have : s = Shape.nil := Shape.addrs_eq_nil hsL
    subst this
    exact ⟨by simpa using hl, by simpa using hr, hs⟩
  · intro hne
    refine ⟨?_, ?_, ?_⟩
    · cases L with
      | nil => exact absurd rfl hne
      | cons x xs => rw [hl]; simp
    · rcases List.eq_nil_or_concat L with h0 | ⟨xs, x, h0⟩
      · exact absurd h0 hne
      · rw [List.concat_eq_append] at h0
        rw [hr, h0, List.getLast?_concat]; simp
    · rcases Rep.root_in s _ _ hs with h1 | h1
      · have := Rep.nil_of_head s _ h.head_nil (h1 ▸ hs)
        subst this
        exact absurd hsL.symm hne
      · exact hsL ▸ h1
  · intro a ha hne
    cases L with
    | nil => simp at ha
    | cons x xs =>
      have hx : m.left t.head = x := by rw [hl]; rfl
      rw [hx] at hne ⊢
      rcases List.mem_cons.1 ha with h1 | h1
      · exact absurd h1 hne
      · exact (List.pairwise_cons.1 hsorted).1 a h1
  · intro a ha hne
    rcases List.eq_nil_or_concat L with h0 | ⟨xs, x, h0⟩
    · rw [h0] at ha; simp at ha
    · rw [List.concat_eq_append] at h0
      have hx : m.right t.head = x := by rw [hr, h0, List.getLast?_concat]; rfl
      rw [hx] at hne ⊢
      rw [h0] at ha hsorted
      rcases List.mem_append.1 ha with h1 | h1
      · exact (List.pairwise_append.1 hsorted).2.2 a h1 x (by simp)
      · exact absurd (List.mem_singleton.1 h1) hne

theorem SameNode.rfl' (m : TreeMem K V) (a : Nat) : SameNode m m a :=
  ⟨rfl, rfl, rfl, rfl, rfl, rfl⟩

theorem SameNode.trans {m m1 m2 : TreeMem K V} {a : Nat} (h1 : SameNode m m1 a)
    (h2 : SameNode m1 m2 a) : SameNode m m2 a :=
  ⟨h2.1.trans h1.1, h2.2.1.trans h1.2.1, h2.2.2.1.trans h1.2.2.1,
    h2.2.2.2.1.trans h1.2.2.2.1, h2.2.2.2.2.1.trans h1.2.2.2.2.1,
    h2.2.2.2.2.2.trans h1.2.2.2.2.2⟩

/-- The nodes of a well-formed tree together with its head are closed under the
three links. -/
theorem TreeInv.closed {comp : K → K → Bool} {m : TreeMem K V} {t : TreeValue}
    {L : List Nat} (h : TreeInv comp m t L) {a : Nat} (ha : a ∈ L ∨ a = t.head) :
    (m.left a ∈ L ∨ m.left a = t.head) ∧ (m.right a ∈ L ∨ m.right a = t.head) ∧
    (m.parent a ∈ L ∨ m.parent a = t.head) := by
  refine ⟨?_, ?_, h.parent_closed ha⟩
  · rcases ha with ha | ha
    · exact (h.children ha).1.elim Or.inr (fun x => Or.inl x.1)
    · rw [ha]
      by_cases hL : L = []
      · exact Or.inr (h.head_links.1 hL).1
      · exact Or.inl (h.head_links.2.1 hL).1
  · rcases ha with ha | ha
    · exact (h.children ha).2.elim Or.inr (fun x => Or.inl x.1)
    · rw [ha]
      by_cases hL : L = []
      · exact Or.inr (h.head_links.1 hL).2.1
      · exact Or.inl (h.head_links.2.1 hL).2.1

theorem TreeInv.not_mem_ne {comp : K → K → Bool} {m : TreeMem K V} {t : TreeValue}
    {L : List Nat} (_h : TreeInv comp m t L) {b x : Nat} (hb : b ∉ L) (hbh : b ≠ t.head)
    (hx : x ∈ L ∨ x = t.head) : b ≠ x := by
  intro hc
  rcases hx with hx | hx
  · exact hb (hc ▸ hx)
  · exact hbh (hc.trans hx)

/-- `changeHeights` writes heights only on the parent path of its start node. -/
theorem changeHeights_height_outside :
    ∀ (fuel : Nat) (m : TreeMem K V) (node : Nat) (m' : TreeMem K V),
      changeHeights fuel m node = some m' →
      ∀ (P : Nat → Prop), (∀ a, P a → P (m.parent a)) → P node →
      ∀ b, ¬ P b → m'.height b = m.height b
  | 0, _, _, _, h => by simp [changeHeights] at h
  | fuel + 1, m, node, m', h => by
    intro P hP hnode b hb
    unfold changeHeights at h
    by_cases hn : m.is_nil node = true
    · rw [if_pos hn] at h
      simp only [Option.some.injEq] at h
      subst h; rfl
    · rw [if_neg hn] at h
      dsimp only at h
      by_cases hc : (if m.height (m.left node) > m.height (m.right node)
          then m.height (m.left node) + 1 else m.height (m.right node) + 1) ≠ m.height node
      · rw [if_pos hc] at h
        have ih := changeHeights_height_outside fuel _ _ _ h P hP (hP node hnode) b hb
        rw [ih]
        have : b ≠ node := fun hc => hb (hc ▸ hnode)
        simp [upd, this]
      · rw [if_neg hc] at h
        simp only [Option.some.injEq] at h
        subst h; rfl

theorem changeHeights_outside {comp : K → K → Bool} {m m' : TreeMem K V} {t : TreeValue}
    {L : List Nat} (h : TreeInv comp m t L) {node fuel : Nat} (hnode : node ∈ L ∨ node = t.head)
    (hres : changeHeights fuel m node = some m') :
    ∀ b, b ∉ L → b ≠ t.head → SameNode m m' b := by
  intro b hb hbh
  obtain ⟨h1, h2, h3, h4, h5, -, -, -, -⟩ := changeHeights_fields _ _ _ _ hres
  have hh := changeHeights_height_outside _ _ _ _ hres (fun a => a ∈ L ∨ a = t.head)
    (fun a ha => h.parent_closed ha) hnode b (by
      intro hc; rcases hc with hc | hc
      · exact hb hc
      · exact hbh hc)
  exact ⟨by rw [h4], by rw [h3], by rw [h1], by rw [h2], hh, by rw [h5]⟩

theorem leftRotate_same (m : TreeMem K V) (head p b : Nat) (h1 : b ≠ p) (h2 : b ≠ m.right p)
    (h3 : b ≠ m.left (m.right p)) (h4 : b ≠ m.parent p) (h5 : b ≠ head) :
    SameNode m (leftRotate m head p) b := by
  unfold leftRotate whichChild SameNode
  simp only []
  split_ifs <;> simp_all [upd] <;> split_ifs <;> simp_all

theorem rightRotate_same (m : TreeMem K V) (head p b : Nat) (h1 : b ≠ p) (h2 : b ≠ m.left p)
    (h3 : b ≠ m.right (m.left p)) (h4 : b ≠ m.parent p) (h5 : b ≠ head) :
    SameNode m (rightRotate m head p) b := by
  unfold rightRotate whichChild SameNode
  simp only []
  split_ifs <;> simp_all [upd] <;> split_ifs <;> simp_all

theorem leftRotate_outside {comp : K → K → Bool} {m : TreeMem K V} {t : TreeValue}
    {L : List Nat} (h : TreeInv comp m t L) {p : Nat} (hp : p ∈ L) :
    ∀ b, b ∉ L → b ≠ t.head → SameNode m (leftRotate m t.head p) b := by
  intro b hb hbh
  have c1 := h.closed (Or.inl hp)
  have c2 := h.closed c1.2.1
  exact leftRotate_same m t.head p b (h.not_mem_ne hb hbh (Or.inl hp))
    (h.not_mem_ne hb hbh c1.2.1) (h.not_mem_ne hb hbh c2.1) (h.not_mem_ne hb hbh c1.2.2) hbh

theorem rightRotate_outside {comp : K → K → Bool} {m : TreeMem K V} {t : TreeValue}
    {L : List Nat} (h : TreeInv comp m t L) {p : Nat} (hp : p ∈ L) :
    ∀ b, b ∉ L → b ≠ t.head → SameNode m (rightRotate m t.head p) b := by
  intro b hb hbh
  have c1 := h.closed (Or.inl hp)
  have c2 := h.closed c1.1
  exact rightRotate_same m t.head p b (h.not_mem_ne hb hbh (Or.inl hp))
    (h.not_mem_ne hb hbh c1.1) (h.not_mem_ne hb hbh c2.2.1) (h.not_mem_ne hb hbh c1.2.2) hbh

/-- `balanceTree` leaves every node outside the tree untouched. -/
theorem balanceTree_outside {comp : K → K → Bool} {m m' : TreeMem K V} {t : TreeValue}
    {L : List Nat} (h : TreeInv comp m t L) {node fuel : Nat} (hnode : node ∈ L ∨ node = t.head)
    (hf : L.length < fuel) (hres : balanceTree fuel m t.head node = some m') :
    ∀ b, b ∉ L → b ≠ t.head → SameNode m m' b := by
  intro b hb hbh
  obtain ⟨res, hres', hok⟩ := checkBalance_spec h _ fuel node hnode (h.reachNil hnode) hf
  unfold balanceTree at hres
  rw [hres'] at hres
  obtain ⟨q, rot⟩ := res
  cases rot with
  | none =>
    simp only [Option.some.injEq] at hres
    subst hres; exact SameNode.rfl' m b
  | smallLeft =>
    obtain ⟨hq, hrc⟩ : q ∈ L ∧ m.is_nil (m.right q) = false := hok
    have h1 := leftRotate_inv h hq hrc
    exact (leftRotate_outside h hq b hb hbh).trans
      (changeHeights_outside h1 (h1.parent_closed (h1.parent_mem hq)) hres b hb hbh)
  | smallRight =>
    obtain ⟨hq, hlc⟩ : q ∈ L ∧ m.is_nil (m.left q) = false := hok
    have h1 := rightRotate_inv h hq hlc
    exact (rightRotate_outside h hq b hb hbh).trans
      (changeHeights_outside h1 (h1.parent_closed (h1.parent_mem hq)) hres b hb hbh)
  | bigLeft =>
    obtain ⟨hq, hrc, hrcL, hrl⟩ : q ∈ L ∧ m.is_nil (m.right q) = false ∧ m.right q ∈ L ∧
      m.is_nil (m.left (m.right q)) = false := hok
    have h0 := rightRotate_inv h hrcL hrl
    have hreal : (rightRotate m t.head (m.right q)).is_nil
        ((rightRotate m t.head (m.right q)).right q) = false := by
      rw [rightRotate_is_nil, rightRotate_right]
      split_ifs
      · exact hrc
      · exact hrl
      · exact hrc
    have h1 := leftRotate_inv h0 hq hreal
    exact ((rightRotate_outside h hrcL b hb hbh).trans (leftRotate_outside h0 hq b hb hbh)).trans
      (changeHeights_outside h1 (h1.parent_closed (h1.parent_mem hq)) hres b hb hbh)
  | bigRight =>
    obtain ⟨hq, hlc, hlcL, hlr⟩ : q ∈ L ∧ m.is_nil (m.left q) = false ∧ m.left q ∈ L ∧
      m.is_nil (m.right (m.left q)) = false := hok
    have h0 := leftRotate_inv h hlcL hlr
    have hreal : (leftRotate m t.head (m.left q)).is_nil
        ((leftRotate m t.head (m.left q)).left q) = false := by
      rw [leftRotate_is_nil, leftRotate_left]
      split_ifs
      · exact hlc
      · exact hlr
      · exact hlc
    have h1 := rightRotate_inv h0 hq hreal
    exact ((leftRotate_outside h hlcL b hb hbh).trans (rightRotate_outside h0 hq b hb hbh)).trans
      (changeHeights_outside h1 (h1.parent_closed (h1.parent_mem hq)) hres b hb hbh)

theorem nodup_split_unique {x : Nat} :
    ∀ {a1 b1 a2 b2 : List Nat}, a1 ++ x :: b1 = a2 ++ x :: b2 → (a1 ++ x :: b1).Nodup →
      a1 = a2 ∧ b1 = b2
  | [], b1, [], b2, h, _ => by simpa using h
  | [], b1, z :: a2, b2, h, hnd => by
    simp only [List.nil_append, List.cons_append, List.cons.injEq] at h
    simp only [List.nil_append, List.nodup_cons] at hnd
    exact absurd (h.2 ▸ (by simp : x ∈ a2 ++ x :: b2)) hnd.1
  | y :: a1, b1, [], b2, h, hnd => by
    simp only [List.nil_append, List.cons_append, List.cons.injEq] at h
    simp only [List.cons_append, List.nodup_cons] at hnd
    exact absurd (by rw [h.1]; simp) hnd.1
  | y :: a1, b1, z :: a2, b2, h, hnd => by
    simp only [List.cons_append, List.cons.injEq] at h
    simp only [List.cons_append, List.nodup_cons] at hnd
    obtain ⟨h1, h2⟩ := nodup_split_unique h.2 hnd.2
    exact ⟨by rw [h.1, h1], h2⟩

theorem findPlaceLoop_spec {comp : K → K → Bool} (hswo : StrictWeakOrder comp)
    {m : TreeMem K V} {head : Nat} (hnil : m.is_nil head = true) (key : K) :
    ∀ (s : Shape) (par x fuel : Nat) (res0 : TreeFindResult),
      Rep m head s par x →
      s.addrs.Pairwise (fun a b => comp (m.key a) (m.key b) = true) →
      s.addrs.length < fuel →
      ∃ res, findPlaceLoop comp m key fuel res0 x = some res ∧
        ((res.duplicate = true ∧ res.location.parent ∈ s.addrs ∧
            comp (m.key res.location.parent) key = false ∧
            comp key (m.key res.location.parent) = false) ∨
         (res.duplicate = res0.duplicate ∧ ∃ l1 l2, s.addrs = l1 ++ l2 ∧
            (∀ a ∈ l1, comp (m.key a) key = true) ∧ (∀ a ∈ l2, comp key (m.key a) = true) ∧
            ((s = Shape.nil ∧ res = res0) ∨
             (res.location.child = NodeChild.right ∧ l1.getLast? = some res.location.parent ∧
                m.right res.location.parent = head) ∨
             (res.location.child = NodeChild.left ∧ l2.head? = some res.location.parent ∧
                m.left res.location.parent = head))))
  | _, _, _, 0, _, _, _, hf => absurd hf (by omega)
  | Shape.nil, par, x, fuel + 1, res0, h, _, _ => by
    have hx : x = head := h
    subst hx
    unfold findPlaceLoop
    rw [if_pos hnil]
    exact ⟨res0, rfl, Or.inr ⟨rfl, [], [], rfl, by simp, by simp, Or.inl ⟨rfl, rfl⟩⟩⟩
  | Shape.node l p r, par, x, fuel + 1, res0, h, hs, hf => by
    obtain ⟨hx, hn, -, hl, hr⟩ := h
    subst hx
    simp only [Shape.addrs, List.pairwise_append, List.pairwise_cons, List.mem_cons,
      List.length_append, List.length_cons] at hs hf
    obtain ⟨hsl, ⟨hxr, hsr⟩, hlr⟩ := hs
    unfold findPlaceLoop
    rw [if_neg (by rw [hn]; simp)]
    by_cases h1 : comp (m.key x) key = true
    · rw [if_pos h1]
      obtain ⟨res, hres, hcase⟩ := findPlaceLoop_spec hswo hnil key r x (m.right x) fuel
        ⟨⟨x, NodeChild.right⟩, res0.duplicate⟩ hr hsr (by omega)
      refine ⟨res, hres, ?_⟩
      rcases hcase with ⟨a1, a2, a3⟩ | ⟨a1, l1, l2, a2, a3, a4, a5⟩
      · exact Or.inl ⟨a1, by simp [Shape.addrs, a2], a3⟩
      · refine Or.inr ⟨a1, l.addrs ++ x :: l1, l2, by simp [Shape.addrs, a2], ?_, a4, ?_⟩
        · intro a ha
          simp only [List.mem_append, List.mem_cons] at ha
          rcases ha with ha | ha | ha
          · exact hswo.trans _ _ _ (hlr a ha x (Or.inl rfl)) h1
          · rw [ha]; exact h1
          · exact a3 a ha
        · rcases a5 with ⟨b1, b2⟩ | ⟨b1, b2, b3⟩ | b
          · subst b1 b2
            have hrx : m.right x = head := hr
            have : l1 = [] := by
              simp only [Shape.addrs] at a2
              exact (List.append_eq_nil.1 a2.symm).1
            subst this
            right; left
            exact ⟨rfl, by simp, hrx⟩
          · right; left
            refine ⟨b1, ?_, b3⟩
            obtain ⟨ys, hys⟩ := List.getLast?_eq_some_iff.1 b2
            rw [hys, ← List.cons_append, ← List.append_assoc, List.getLast?_concat]
          · exact Or.inr (Or.inr b)
    · rw [if_neg h1]
      by_cases h2 : comp key (m.key x) = true
      · rw [if_pos h2]
        obtain ⟨res, hres, hcase⟩ := findPlaceLoop_spec hswo hnil key l x (m.left x) fuel
          ⟨⟨x, NodeChild.left⟩, res0.duplicate⟩ hl hsl (by omega)
        refine ⟨res, hres, ?_⟩
        rcases hcase with ⟨a1, a2, a3⟩ | ⟨a1, l1, l2, a2, a3, a4, a5⟩
        · exact Or.inl ⟨a1, by simp [Shape.addrs, a2], a3⟩
        · refine Or.inr ⟨a1, l1, l2 ++ x :: r.addrs, by simp [Shape.addrs, a2], a3, ?_, ?_⟩
          · intro a ha
            simp only [List.mem_append, List.mem_cons] at ha
            rcases ha with ha | ha | ha
            · exact a4 a ha
            · rw [ha]; exact h2
            · exact hswo.trans _ _ _ h2 (hxr a ha)
          · rcases a5 with ⟨b1, b2⟩ | b | ⟨b1, b2, b3⟩
            · subst b1 b2
              have hlx : m.left x = head := hl
              have : l2 = [] := by
                simp only [Shape.addrs] at a2
                exact (List.append_eq_nil.1 a2.symm).2
              subst this
              right; right
              exact ⟨rfl, by simp, hlx⟩
            · exact Or.inr (Or.inl b)
            · right; right
              refine ⟨b1, ?_, b3⟩
              obtain ⟨ys, hys⟩ := List.head?_eq_some_iff.1 b2
              rw [hys]; simp
      · rw [if_neg h2]
        refine ⟨_, rfl, Or.inl ⟨rfl, by simp [Shape.addrs], ?_, ?_⟩⟩
        · simpa using h1
        · simpa using h2

theorem findPlaceForNode_spec {comp : K → K → Bool} (hswo : StrictWeakOrder comp)
    {m : TreeMem K V} {t : TreeValue} {L : List Nat} (h : TreeInv comp m t L) (key : K)
    {fuel : Nat} (hf : L.length < fuel) :
    ∃ res, findPlaceForNode comp fuel m t key = some res ∧
      ((res.duplicate = true ∧ res.location.parent ∈ L ∧
          KeyEquiv comp (m.key res.location.parent) key) ∨
       (res.duplicate = false ∧ ∃ l1 l2, ValidLoc comp m t.head L key res.location l1 l2)) := by
  obtain ⟨s, hs, hsL⟩ := h.shape
  obtain ⟨res, hres, hcase⟩ := findPlaceLoop_spec hswo h.head_nil key s _ _ fuel
    ⟨⟨m.parent t.head, NodeChild.right⟩, false⟩ hs (hsL ▸ h.sorted) (hsL ▸ hf)
  refine ⟨res, hres, ?_⟩
  rcases hcase with ⟨a1, a2, a3⟩ | ⟨a1, l1, l2, a2, a3, a4, a5⟩
  · exact Or.inl ⟨a1, hsL ▸ a2, a3⟩
  · refine Or.inr ⟨a1, l1, l2, by rw [← hsL]; exact a2, a3, a4, ?_⟩
    rcases a5 with ⟨b1, b2⟩ | b | b
    · left
      subst b1 b2
      have : m.parent t.head = t.head := hs
      exact ⟨by rw [← hsL]; rfl, this⟩
    · exact Or.inr (Or.inl b)
    · exact Or.inr (Or.inr b)

theorem TreeInv.mem_split {comp : K → K → Bool} {m : TreeMem K V} {t : TreeValue}
    {L pre mid post : List Nat} (_h : TreeInv comp m t L) (hL : L = pre ++ mid ++ post)
    {a : Nat} (ha : a ∈ pre ++ post) : a ∈ L := by
  rw [hL]
  rcases List.mem_append.1 ha with ha | ha
  · exact List.mem_append_left _ (List.mem_append_left _ ha)
  · exact List.mem_append_right _ ha

/-- Linking a fresh node into the right slot of the last node below its key. -/
theorem link_right_inv {comp : K → K → Bool}
    {m : TreeMem K V} {t : TreeValue} {L l1 l2 : List Nat} (h : TreeInv comp m t L)
    {a lp : Nat} (hL : L = l1 ++ l2) (hlast : l1.getLast? = some lp)
    (hslot : m.right lp = t.head)
    (hl1 : ∀ b ∈ l1, comp (m.key b) (m.key a) = true)
    (hl2 : ∀ b ∈ l2, comp (m.key a) (m.key b) = true)
    (ha : a ∉ L) (hah : a ≠ t.head) (hnil : m.is_nil a = false) (hleft : m.left a = t.head)
    (hright : m.right a = t.head) (hheight : m.height a = 1) (halloc : a < m.next)
    {m2 : TreeMem K V} (e1 : m2.is_nil = m.is_nil) (e2 : m2.value = m.value)
    (e3 : m2.height = m.height) (e4 : m2.next = m.next) (e5 : m2.parent = upd m.parent a lp)
    (e6 : m2.left = m.left)
    (e7 : m2.right = if lp = m.right t.head then upd (upd m.right lp a) t.head a
      else upd m.right lp a) :
    TreeInv comp m2 { t with size := t.size + 1 } (l1 ++ a :: l2) := by
  obtain ⟨ys, hys⟩ := List.getLast?_eq_some_iff.1 hlast
  subst hys
  have hlpL : lp ∈ L := by rw [hL]; simp
  have hlph : lp ≠ t.head := h.ne_head hlpL
  have hlpa : lp ≠ a := fun hc => ha (hc ▸ hlpL)
  obtain ⟨l, r, pre, post, hsplit, hrep, hppn, hroot, hlink, hcont⟩ := h.zoom hlpL
  obtain ⟨-, hn, -, hl, hr⟩ := hrep
  have hrnil : r = Shape.nil := by
    rw [hslot] at hr; exact Rep.nil_of_head r _ h.head_nil hr
  subst hrnil
  have hnd := nodup_mid_disjoint (hsplit ▸ h.nodup)
  have heq : (pre ++ l.addrs) ++ lp :: post = ys ++ lp :: l2 := by
    have := hsplit.symm.trans hL
    simpa [Shape.addrs] using this
  obtain ⟨hys, hl2'⟩ := nodup_split_unique heq (by
    have := h.nodup; rw [hsplit] at this; simpa [Shape.addrs] using this)
  subst hl2'
  have hright_eq : ∀ b, b ≠ lp → b ≠ t.head → m2.right b = m.right b := by
    intro b hb1 hb2
    rw [e7]; split_ifs <;> simp [upd, hb1, hb2]
  have hright_lp : m2.right lp = a := by
    rw [e7]; split_ifs <;> simp [upd, hlph]
  have hpar_eq : ∀ b, b ≠ a → m2.parent b = m.parent b := by
    intro b hb; rw [e5]; simp [upd, hb]
  have hlmem : ∀ b ∈ l.addrs, b ∈ L ∧ b ≠ lp := by
    intro b hb
    constructor
    · rw [hsplit]; simp [hb]
    · intro hc
      have := hnd.1
      simp only [Shape.addrs, List.nodup_append, List.nodup_cons] at this
      exact this.2.2 hb (by simp [hc])
  have hloc : Rep m2 t.head (Shape.node l lp (Shape.node Shape.nil a Shape.nil))
      (m.parent lp) lp := by
    refine ⟨rfl, by rw [e1]; exact hn, hpar_eq lp hlpa, ?_, ?_⟩
    · rw [e6]
      refine Rep.frame_links l lp _ hl (fun b hb => ?_)
      have hb1 := hlmem b hb
      have hba : b ≠ a := fun hc => ha (hc ▸ hb1.1)
      exact ⟨by rw [e1], hpar_eq b hba, by rw [e6], hright_eq b hb1.2 (h.ne_head hb1.1)⟩
    · rw [hright_lp]
      refine ⟨rfl, by rw [e1]; exact hnil, by rw [e5]; simp, ?_, ?_⟩
      · rw [e6]; exact hleft
      · rw [hright_eq a (Ne.symm hlpa) hah]; exact hright
  obtain ⟨s', hs', hs'a⟩ := hcont m2 _ lp hloc (by
    intro b hb
    have hbL := h.mem_split hsplit hb
    have hbu := hnd.2.2 b hb
    have hblp : b ≠ lp := fun hc => hbu (by simp [hc])
    have hba : b ≠ a := fun hc => ha (hc ▸ hbL)
    refine ⟨by rw [e1], hpar_eq b hba, ?_, ?_⟩
    · rw [e6]; split_ifs with hc
      · exact hc
      · rfl
    · rw [hright_eq b hblp (h.ne_head hbL)]; split_ifs with hc
      · exact hc
      · rfl) (by
    rw [hpar_eq _ (Ne.symm hah)]; split_ifs with hc
    · exact hc
    · rfl)
  have hkey : m2.key = m.key := by funext b; simp [TreeMem.key, e2]
  have hLeq : pre ++ (Shape.node l lp (Shape.node Shape.nil a Shape.nil)).addrs ++ post
      = ys ++ [lp] ++ a :: post := by
    rw [← hys]; simp [Shape.addrs]
  have hnotin : a ∉ ys ++ [lp] ∧ a ∉ post := by
    rw [hL] at ha
    simp only [List.mem_append, not_or] at ha ⊢
    exact ⟨ha.1, ha.2⟩
  refine ⟨by rw [e1]; exact h.head_nil, by rw [e3]; exact h.head_height,
    ⟨s', hs', hs'a.trans hLeq⟩, ?_, ?_, ?_, ?_, ?_, ?_, by rw [e4]; exact h.head_alloc, ?_⟩
  · have := h.nodup
    rw [hL] at this
    rw [List.nodup_append] at this ⊢
    refine ⟨this.1, List.nodup_cons.2 ⟨hnotin.2, this.2.1⟩, ?_⟩
    intro b hb1 hb2
    rcases List.mem_cons.1 hb2 with hb2 | hb2
    · exact hnotin.1 (hb2 ▸ hb1)
    · exact this.2.2 hb1 hb2
  · have := h.sorted
    rw [hL] at this
    rw [hkey]
    rw [List.pairwise_append] at this ⊢
    refine ⟨this.1, List.pairwise_cons.2 ⟨hl2, this.2.1⟩, ?_⟩
    intro b hb1 c hc
    rcases List.mem_cons.1 hc with hc | hc
    · rw [hc]; exact hl1 b hb1
    · exact this.2.2 b hb1 c hc
  · simp [h.size_eq, hL]; omega
  · rw [e6, h.head_left, hL]; simp
  · show m2.right t.head = _
    have hR := h.head_right
    rw [hL] at hR
    rw [e7]
    cases post with
    | nil =>
      simp only [List.append_nil, List.getLast?_concat, Option.getD_some] at hR
      rw [hR]; simp [upd]
    | cons c post =>
      have hne : lp ≠ m.right t.head := by
        rw [hR]
        rw [List.getLast?_append_of_ne_nil _ (by simp)]
        obtain ⟨w, hw⟩ := List.getLast?_eq_some_iff.1
          (List.getLast?_eq_getLast (c :: post) (by simp))
        rw [hw]
        simp only [List.getLast?_concat, Option.getD_some]
        intro hc
        have := h.nodup
        rw [hL, hw, List.nodup_append] at this
        exact this.2.2 (show lp ∈ ys ++ [lp] by simp) (by rw [← hc]; simp)
      rw [if_neg hne]
      simp only [upd, if_neg (Ne.symm hlph)]
      rw [hR]
      rw [List.getLast?_append_of_ne_nil _ (by simp), List.getLast?_append_of_ne_nil _ (by simp)]
      simp
  · intro b hb
    rw [e3]
    rcases List.mem_append.1 hb with hb | hb
    · exact h.height_pos b (by rw [hL]; exact List.mem_append_left _ hb)
    · rcases List.mem_cons.1 hb with hb | hb
      · rw [hb, hheight]
      · exact h.height_pos b (by rw [hL]; exact List.mem_append_right _ hb)
  · intro b hb
    rw [e4]
    rcases List.mem_append.1 hb with hb | hb
    · exact h.alloc b (by rw [hL]; exact List.mem_append_left _ hb)
    · rcases List.mem_cons.1 hb with hb | hb
      · rw [hb]; exact halloc
      · exact h.alloc b (by rw [hL]; exact List.mem_append_right _ hb)

/-- Linking a fresh node into the left slot of the first node above its key. -/
theorem link_left_inv {comp : K → K → Bool}
    {m : TreeMem K V} {t : TreeValue} {L l1 l2 : List Nat} (h : TreeInv comp m t L)
    {a lp : Nat} (hL : L = l1 ++ l2) (hfirst : l2.head? = some lp)
    (hslot : m.left lp = t.head)
    (hl1 : ∀ b ∈ l1, comp (m.key b) (m.key a) = true)
    (hl2 : ∀ b ∈ l2, comp (m.key a) (m.key b) = true)
    (ha : a ∉ L) (hah : a ≠ t.head) (hnil : m.is_nil a = false) (hleft : m.left a = t.head)
    (hright : m.right a = t.head) (hheight : m.height a = 1) (halloc : a < m.next)
    {m2 : TreeMem K V} (e1 : m2.is_nil = m.is_nil) (e2 : m2.value = m.value)
    (e3 : m2.height = m.height) (e4 : m2.next = m.next) (e5 : m2.parent = upd m.parent a lp)
    (e6 : m2.right = m.right)
    (e7 : m2.left = if lp = m.left t.head then upd (upd m.left lp a) t.head a
      else upd m.left lp a) :
    TreeInv comp m2 { t with size := t.size + 1 } (l1 ++ a :: l2) := by
  obtain ⟨ys, hys⟩ := List.head?_eq_some_iff.1 hfirst
  subst hys
  have hlpL : lp ∈ L := by rw [hL]; simp
  have hlph : lp ≠ t.head := h.ne_head hlpL
  have hlpa : lp ≠ a := fun hc => ha (hc ▸ hlpL)
  obtain ⟨l, r, pre, post, hsplit, hrep, hppn, hroot, hlink, hcont⟩ := h.zoom hlpL
  obtain ⟨-, hn, -, hl, hr⟩ := hrep
  have hlnil : l = Shape.nil := by
    rw [hslot] at hl; exact Rep.nil_of_head l _ h.head_nil hl
  subst hlnil
  have hnd := nodup_mid_disjoint (hsplit ▸ h.nodup)
  have heq : pre ++ lp :: (r.addrs ++ post) = l1 ++ lp :: ys := by
    have := hsplit.symm.trans hL
    simpa [Shape.addrs] using this
  obtain ⟨hl1', hys⟩ := nodup_split_unique heq (by
    have := h.nodup; rw [hsplit] at this; simpa [Shape.addrs] using this)
  subst hl1'
  have hleft_eq : ∀ b, b ≠ lp → b ≠ t.head → m2.left b = m.left b := by
    intro b hb1 hb2
    rw [e7]; split_ifs <;> simp [upd, hb1, hb2]
  have hleft_lp : m2.left lp = a := by
    rw [e7]; split_ifs <;> simp [upd, hlph]
  have hpar_eq : ∀ b, b ≠ a → m2.parent b = m.parent b := by
    intro b hb; rw [e5]; simp [upd, hb]
  have hrmem : ∀ b ∈ r.addrs, b ∈ L ∧ b ≠ lp := by
    intro b hb
    constructor
    · rw [hsplit]; simp [hb]
    · intro hc
      have := hnd.1
      simp only [Shape.addrs, List.nil_append, List.nodup_cons] at this
      exact this.1 (hc ▸ hb)
  have hloc : Rep m2 t.head (Shape.node (Shape.node Shape.nil a Shape.nil) lp r)
      (m.parent lp) lp := by
    refine ⟨rfl, by rw [e1]; exact hn, hpar_eq lp hlpa, ?_, ?_⟩
    · rw [hleft_lp]
      refine ⟨rfl, by rw [e1]; exact hnil, by rw [e5]; simp, ?_, ?_⟩
      · rw [hleft_eq a (Ne.symm hlpa) hah]; exact hleft
      · rw [e6]; exact hright
    · rw [e6]
      refine Rep.frame_links r lp _ hr (fun b hb => ?_)
      have hb1 := hrmem b hb
      have hba : b ≠ a := fun hc => ha (hc ▸ hb1.1)
      exact ⟨by rw [e1], hpar_eq b hba, hleft_eq b hb1.2 (h.ne_head hb1.1), by rw [e6]⟩
  obtain ⟨s', hs', hs'a⟩ := hcont m2 _ lp hloc (by
    intro b hb
    have hbL := h.mem_split hsplit hb
    have hbu := hnd.2.2 b hb
    have hblp : b ≠ lp := fun hc => hbu (by simp [hc])
    have hba : b ≠ a := fun hc => ha (hc ▸ hbL)
    refine ⟨by rw [e1], hpar_eq b hba, ?_, ?_⟩
    · rw [hleft_eq b hblp (h.ne_head hbL)]; split_ifs with hc
      · exact hc
      · rfl
    · rw [e6]; split_ifs with hc
      · exact hc
      · rfl) (by
    rw [hpar_eq _ (Ne.symm hah)]; split_ifs with hc
    · exact hc
    · rfl)
  have hkey : m2.key = m.key := by funext b; simp [TreeMem.key, e2]
  have hLeq : pre ++ (Shape.node (Shape.node Shape.nil a Shape.nil) lp r).addrs ++ post
      = pre ++ a :: lp :: ys := by
    rw [← hys]; simp [Shape.addrs]
  have hnotin : a ∉ pre ∧ a ∉ lp :: ys := by
    rw [hL] at ha
    simp only [List.mem_append, not_or] at ha
    exact ⟨ha.1, ha.2⟩
  refine ⟨by rw [e1]; exact h.head_nil, by rw [e3]; exact h.head_height,
    ⟨s', hs', hs'a.trans hLeq⟩, ?_, ?_, ?_, ?_, ?_, ?_, by rw [e4]; exact h.head_alloc, ?_⟩
  · have := h.nodup
    rw [hL] at this
    rw [List.nodup_append] at this ⊢
    refine ⟨this.1, List.nodup_cons.2 ⟨hnotin.2, this.2.1⟩, ?_⟩
    intro b hb1 hb2
    rcases List.mem_cons.1 hb2 with hb2 | hb2
    · exact hnotin.1 (hb2 ▸ hb1)
    · exact this.2.2 hb1 hb2
  · have := h.sorted
    rw [hL] at this
    rw [hkey]
    rw [List.pairwise_append] at this ⊢
    refine ⟨this.1, List.pairwise_cons.2 ⟨hl2, this.2.1⟩, ?_⟩
    intro b hb1 c hc
    rcases List.mem_cons.1 hc with hc | hc
    · rw [hc]; exact hl1 b hb1
    · exact this.2.2 b hb1 c hc
  · simp [h.size_eq, hL]; omega
  · show m2.left t.head = _
    have hLf := h.head_left
    rw [hL] at hLf
    rw [e7]
    cases pre with
    | nil =>
      simp only [List.nil_append, List.head?_cons, Option.getD_some] at hLf
      rw [hLf]; simp [upd]
    | cons c pre =>
      have hne : lp ≠ m.left t.head := by
        rw [hLf]
        simp only [List.cons_append, List.head?_cons, Option.getD_some]
        intro hc
        have := h.nodup
        rw [hL, List.nodup_append] at this
        exact this.2.2 (show lp ∈ c :: pre by rw [← hc]; simp) (by simp)
      rw [if_neg hne]
      simp only [upd, if_neg (Ne.symm hlph)]
      rw [hLf]
      simp
  · rw [e6, h.head_right, hL]
    rw [List.getLast?_append_of_ne_nil _ (by simp), List.getLast?_append_of_ne_nil _ (by simp)]
    simp [List.getLast?_cons_cons]
  · intro b hb
    rw [e3]
    rcases List.mem_append.1 hb with hb | hb
    · exact h.height_pos b (by rw [hL]; exact List.mem_append_left _ hb)
    · rcases List.mem_cons.1 hb with hb | hb
      · rw [hb, hheight]
      · exact h.height_pos b (by rw [hL]; exact List.mem_append_right _ hb)
  · intro b hb
    rw [e4]
    rcases List.mem_append.1 hb with hb | hb
    · exact h.alloc b (by rw [hL]; exact List.mem_append_left _ hb)
    · rcases List.mem_cons.1 hb with hb | hb
      · rw [hb]; exact halloc
      · exact h.alloc b (by rw [hL]; exact List.mem_append_right _ hb)

theorem insertNode_unfold (fuel : Nat) (m : TreeMem K V) (t : TreeValue) (loc : NodeID)
    (a : Nat) (hne : loc.parent ≠ t.head) :
    insertNode fuel m t loc a =
      match changeHeights fuel (linkMem m t loc a) ((linkMem m t loc a).parent a) with
      | Option.none => Option.none
      | some m3 =>
        match balanceTree fuel m3 t.head a with
        | Option.none => Option.none
        | some m4 => some (m4, { t with size := t.size + 1 }, a) := by
  unfold insertNode linkMem
  simp only [if_neg hne]
  all_goals rfl

theorem linkMem_right (m : TreeMem K V) (t : TreeValue) (loc : NodeID) (a : Nat)
    (hc : loc.child = NodeChild.right) (hne : loc.parent ≠ t.head) :
    (linkMem m t loc a).is_nil = m.is_nil ∧ (linkMem m t loc a).value = m.value ∧
    (linkMem m t loc a).height = m.height ∧ (linkMem m t loc a).next = m.next ∧
    (linkMem m t loc a).freed = m.freed ∧
    (linkMem m t loc a).parent = upd m.parent a loc.parent ∧
    (linkMem m t loc a).left = m.left ∧
    (linkMem m t loc a).right =
      if loc.parent = m.right t.head then upd (upd m.right loc.parent a) t.head a
      else upd m.right loc.parent a := by
  unfold linkMem
  have hhl : (upd m.right loc.parent a t.head) = m.right t.head := by
    simp [upd, Ne.symm hne]
  simp only [hc, show (NodeChild.right = NodeChild.left) = False by simp, if_false, hhl]
  split_ifs <;> simp

theorem linkMem_left (m : TreeMem K V) (t : TreeValue) (loc : NodeID) (a : Nat)
    (hc : loc.child = NodeChild.left) (hne : loc.parent ≠ t.head) :
    (linkMem m t loc a).is_nil = m.is_nil ∧ (linkMem m t loc a).value = m.value ∧
    (linkMem m t loc a).height = m.height ∧ (linkMem m t loc a).next = m.next ∧
    (linkMem m t loc a).freed = m.freed ∧
    (linkMem m t loc a).parent = upd m.parent a loc.parent ∧
    (linkMem m t loc a).right = m.right ∧
    (linkMem m t loc a).left =
      if loc.parent = m.left t.head then upd (upd m.left loc.parent a) t.head a
      else upd m.left loc.parent a := by
  unfold linkMem
  have hhl : (upd m.left loc.parent a t.head) = m.left t.head := by
    simp [upd, Ne.symm hne]
  simp only [hc, if_true, hhl]
  split_ifs <;> simp

theorem linkMem_same (m : TreeMem K V) (t : TreeValue) (loc : NodeID) (a b : Nat)
    (h1 : b ≠ t.head) (h2 : b ≠ loc.parent) (h3 : b ≠ a) :
    SameNode m (linkMem m t loc a) b := by
  unfold linkMem SameNode
  simp only []
  split_ifs <;> simp [upd, h1, h2, h3]

theorem insertNode_inv {comp : K → K → Bool}
    {m : TreeMem K V} {t : TreeValue} {L l1 l2 : List Nat} (h : TreeInv comp m t L)
    {a : Nat} {loc : NodeID} (hloc : ValidLoc comp m t.head L (m.key a) loc l1 l2)
    (ha : a ∉ L) (hah : a ≠ t.head) (hnil : m.is_nil a = false) (hleft : m.left a = t.head)
    (hright : m.right a = t.head) (hheight : m.height a = 1) (halloc : a < m.next)
    {fuel : Nat} (hf : L.length + 1 < fuel) :
    ∃ m', insertNode fuel m t loc a = some (m', { t with size := t.size + 1 }, a) ∧
      TreeInv comp m' { t with size := t.size + 1 } (l1 ++ a :: l2) ∧
      m'.value = m.value ∧ m'.next = m.next ∧ m'.freed = m.freed ∧
      ∀ b, b ∉ L → b ≠ t.head → b ≠ a → SameNode m m' b := by
  obtain ⟨hL, hl1, hl2, hcase⟩ := hloc
  have hlen : (l1 ++ a :: l2).length = L.length + 1 := by
    rw [hL]; simp; omega
  have hfinish : ∀ (hne : loc.parent ≠ t.head),
      TreeInv comp (linkMem m t loc a) { t with size := t.size + 1 } (l1 ++ a :: l2) →
      (linkMem m t loc a).value = m.value → (linkMem m t loc a).next = m.next →
      (linkMem m t loc a).freed = m.freed →
      (∀ b, b ∉ L → b ≠ t.head → b ≠ a → SameNode m (linkMem m t loc a) b) →
      ∃ m', insertNode fuel m t loc a = some (m', { t with size := t.size + 1 }, a) ∧
        TreeInv comp m' { t with size := t.size + 1 } (l1 ++ a :: l2) ∧
        m'.value = m.value ∧ m'.next = m.next ∧ m'.freed = m.freed ∧
        ∀ b, b ∉ L → b ≠ t.head → b ≠ a → SameNode m m' b := by
    intro hne hinv hv hn hfr hsame
    have hamem : a ∈ l1 ++ a :: l2 := by simp
    have hnotin : ∀ b, b ∉ L → b ≠ a → b ∉ l1 ++ a :: l2 := by
      intro b hb hba hc
      rw [hL] at hb
      simp only [List.mem_append, List.mem_cons] at hb hc
      tauto
    obtain ⟨m3, hm3, hinv3, hv3, hn3, hf3⟩ := changeHeights_inv hinv
      (hinv.parent_mem hamem) (by rw [hlen]; exact hf)
    obtain ⟨m4, hm4, hinv4, hv4, hn4, hf4⟩ := balanceTree_inv hinv3 (Or.inl hamem)
      (by rw [hlen]; exact hf)
    refine ⟨m4, ?_, hinv4, by rw [hv4, hv3, hv], by rw [hn4, hn3, hn], by rw [hf4, hf3, hfr],
      ?_⟩
    · rw [insertNode_unfold _ _ _ _ _ hne, hm3]
      simp only
      have : balanceTree fuel m3 t.head a = some m4 := hm4
      rw [this]
    · intro b hb hbh hba
      exact ((hsame b hb hbh hba).trans
        (changeHeights_outside hinv (hinv.parent_mem hamem) hm3 b (hnotin b hb hba) hbh)).trans
        (balanceTree_outside hinv3 (Or.inl hamem) (by rw [hlen]; exact hf) hm4 b
          (hnotin b hb hba) hbh)
  rcases hcase with ⟨hempty, hp⟩ | ⟨hchild, hlast, hslot⟩ | ⟨hchild, hfirst, hslot⟩
  · -- first value of an empty tree
    subst hempty
    have h12 : l1 = [] ∧ l2 = [] := List.append_eq_nil.1 hL.symm
    obtain ⟨rfl, rfl⟩ := h12
    unfold insertNode
    simp only [hp, if_true]
    refine ⟨_, rfl, ?_, rfl, rfl, rfl, ?_⟩
    swap
    · intro b _ hbh hba
      simp [SameNode, upd, hbh, hba]
    have hha : t.head ≠ a := Ne.symm hah
    refine ⟨?_, ?_, ⟨Shape.node Shape.nil a Shape.nil, ?_, by simp [Shape.addrs]⟩, by simp,
      by simp, ?_, ?_, ?_, ?_, ?_, ?_⟩
    · exact h.head_nil
    · exact h.head_height
    · refine ⟨?_, hnil, ?_, ?_, ?_⟩
      · simp [upd]
      · simp [upd, hah]
      · show upd m.left t.head a a = t.head
        simp [upd, hah, hleft]
      · show upd m.right t.head a a = t.head
        simp [upd, hah, hright]
    · simp [h.size_eq]
    · show upd m.left t.head a t.head = _
      simp [upd]
    · show upd m.right t.head a t.head = _
      simp [upd]
    · intro b hb
      simp only [List.nil_append, List.mem_singleton] at hb
      rw [hb]; show 1 ≤ m.height a; omega
    · exact h.head_alloc
    · intro b hb
      simp only [List.nil_append, List.mem_singleton] at hb
      rw [hb]; exact halloc
  · -- right slot
    have hlpL : loc.parent ∈ L := by
      obtain ⟨ys, hys⟩ := List.getLast?_eq_some_iff.1 hlast
      rw [hL, hys]; simp
    have hlph : loc.parent ≠ t.head := h.ne_head hlpL
    obtain ⟨e1, e2, e3, e4, e8, e5, e6, e7⟩ := linkMem_right m t loc a hchild hlph
    exact hfinish hlph (link_right_inv h hL hlast hslot hl1 hl2 ha hah hnil hleft hright hheight
      halloc e1 e2 e3 e4 e5 e6 e7) e2 e4 e8
      (fun b hb hbh hba => linkMem_same m t loc a b hbh (fun hc => hb (hc ▸ hlpL)) hba)
  · -- left slot
    have hlpL : loc.parent ∈ L := by
      obtain ⟨ys, hys⟩ := List.head?_eq_some_iff.1 hfirst
      rw [hL, hys]; simp
    have hlph : loc.parent ≠ t.head := h.ne_head hlpL
    obtain ⟨e1, e2, e3, e4, e8, e5, e6, e7⟩ := linkMem_left m t loc a hchild hlph
    exact hfinish hlph (link_left_inv h hL hfirst hslot hl1 hl2 ha hah hnil hleft hright hheight
      halloc e1 e2 e3 e4 e5 e6 e7) e2 e4 e8
      (fun b hb hbh hba => linkMem_same m t loc a b hbh (fun hc => hb (hc ▸ hlpL)) hba)

theorem TreeInv.frame {comp : K → K → Bool} {m m' : TreeMem K V} {t : TreeValue}
    {L : List Nat} (h : TreeInv comp m t L)
    (hsame : ∀ a, a ∈ L ∨ a = t.head → SameNode m m' a) (hnext : m.next ≤ m'.next) :
    TreeInv comp m' t L := by
  obtain ⟨s, hs, hsL⟩ := h.shape
  have hh := hsame t.head (Or.inr rfl)
  refine ⟨by rw [hh.1]; exact h.head_nil, by rw [hh.2.2.2.2.1]; exact h.head_height,
    ⟨s, ?_, hsL⟩, h.nodup, ?_, h.size_eq, by rw [hh.2.2.1]; exact h.head_left,
    by rw [hh.2.2.2.1]; exact h.head_right, ?_, lt_of_lt_of_le h.head_alloc hnext,
    fun p hp => lt_of_lt_of_le (h.alloc p hp) hnext⟩
  · rw [hh.2.1]
    refine Rep.frame_links s _ _ hs (fun a ha => ?_)
    have := hsame a (Or.inl (hsL ▸ ha))
    exact ⟨this.1, this.2.1, this.2.2.1, this.2.2.2.1⟩
  · refine List.Pairwise.imp_of_mem ?_ h.sorted
    intro a b ha hb hab
    have h1 := (hsame a (Or.inl ha)).2.2.2.2.2
    have h2 := (hsame b (Or.inl hb)).2.2.2.2.2
    simp only [TreeMem.key] at hab ⊢
    rw [h1, h2]; exact hab
  · intro p hp
    rw [(hsame p (Or.inl hp)).2.2.2.2.1]; exact h.height_pos p hp

theorem createNode_same (m : TreeMem K V) (head : Nat) (value : K × V) (a : Nat)
    (ha : a < m.next) : SameNode m (m.createNode head value).1 a := by
  have : a ≠ m.next := by omega
  simp [SameNode, TreeMem.createNode, upd, this]

theorem emplace_spec {comp : K → K → Bool} (hswo : StrictWeakOrder comp)
    {m : TreeMem K V} {t : TreeValue} {L : List Nat} (h : TreeInv comp m t L)
    (value : K × V) (extractable : Bool) {fuel : Nat} (hf : L.length + 1 < fuel) :
    ∃ m' t' node inserted,
      emplace_ comp fuel extractable m t value = some (m', t', node, inserted) ∧
      ((inserted = false ∧ t' = t ∧ node ∈ L ∧ KeyEquiv comp (m.key node) value.1 ∧
          TreeInv comp m' t L ∧ (∀ a, a < m.next → SameNode m m' a) ∧
          (extractable = true → m' = m)) ∨
       (inserted = true ∧ node = m.next ∧ t' = { t with size := t.size + 1 } ∧
          ∃ l1 l2, L = l1 ++ l2 ∧ TreeInv comp m' t' (l1 ++ node :: l2) ∧
            (∀ a ∈ l1, comp (m.key a) value.1 = true) ∧
            (∀ a ∈ l2, comp value.1 (m.key a) = true) ∧
            m'.value = upd m.value node value ∧ m'.next = m.next + 1 ∧ m'.freed = m.freed)) := by
  have hcr : TreeInv comp (m.createNode t.head value).1 t L :=
    h.frame (fun a ha => createNode_same m t.head value a (by
      rcases ha with ha | ha
      · exact h.alloc a ha
      · rw [ha]; exact h.head_alloc)) (by simp [TreeMem.createNode])
  have hkeys : ∀ a ∈ L, (m.createNode t.head value).1.key a = m.key a := by
    intro a ha
    have := (createNode_same m t.head value a (h.alloc a ha)).2.2.2.2.2
    simp only [TreeMem.key]; rw [this]
  have hnewkey : (m.createNode t.head value).1.key (m.createNode t.head value).2 = value.1 := by
    simp [TreeMem.key, TreeMem.createNode, upd]
  have hfresh : m.next ∉ L := fun hc => absurd (h.alloc _ hc) (by omega)
  have hfreshh : m.next ≠ t.head := fun hc => absurd h.head_alloc (by omega)
  -- insertion of the fresh node from a valid location in the memory after `createNode`
  have hins : ∀ (loc : NodeID) (l1 l2 : List Nat),
      ValidLoc comp (m.createNode t.head value).1 t.head L value.1 loc l1 l2 →
      ∃ m', insertNode fuel (m.createNode t.head value).1 t loc (m.createNode t.head value).2
          = some (m', { t with size := t.size + 1 }, m.next) ∧
        TreeInv comp m' { t with size := t.size + 1 } (l1 ++ m.next :: l2) ∧
        m'.value = upd m.value m.next value ∧ m'.next = m.next + 1 ∧ m'.freed = m.freed := by
    intro loc l1 l2 hloc
    have hloc' : ValidLoc comp (m.createNode t.head value).1 t.head L
        ((m.createNode t.head value).1.key m.next) loc l1 l2 := by
      have : (m.createNode t.head value).1.key m.next = value.1 := hnewkey
      rw [this]; exact hloc
    obtain ⟨m', hm', hinv, hv, hn, hfr, -⟩ := insertNode_inv hcr hloc' hfresh hfreshh
      (by simp [TreeMem.createNode, upd]) (by simp [TreeMem.createNode, upd])
      (by simp [TreeMem.createNode, upd]) (by simp [TreeMem.createNode, upd])
      (by simp [TreeMem.createNode]) hf
    exact ⟨m', hm', hinv, by rw [hv]; rfl, by rw [hn]; rfl, by rw [hfr]; rfl⟩
  unfold emplace_
  by_cases hext : extractable = true
  · rw [if_pos hext]
    obtain ⟨res, hres, hcase⟩ := findPlaceForNode_spec hswo h value.1 (by omega : L.length < fuel)
    rw [hres]
    rcases hcase with ⟨hd, hp, heq⟩ | ⟨hd, l1, l2, hloc⟩
    · simp only [hd, if_true]
      exact ⟨m, t, _, false, rfl, Or.inl ⟨rfl, rfl, hp, heq, h, fun a _ => by simp [SameNode],
        fun _ => rfl⟩⟩
    · simp only [hd]
      have hloc2 : ValidLoc comp (m.createNode t.head value).1 t.head L value.1 res.location
          l1 l2 := by
        obtain ⟨b1, b2, b3, b4⟩ := hloc
        refine ⟨b1, ?_, ?_, ?_⟩
        · intro a ha; rw [hkeys a (by rw [b1]; simp [ha])]; exact b2 a ha
        · intro a ha; rw [hkeys a (by rw [b1]; simp [ha])]; exact b3 a ha
        · rcases b4 with c | ⟨c1, c2, c3⟩ | ⟨c1, c2, c3⟩
          · exact Or.inl c
          · right; left
            refine ⟨c1, c2, ?_⟩
            have hmem : res.location.parent ∈ L := by
              obtain ⟨ys, hys⟩ := List.getLast?_eq_some_iff.1 c2
              rw [b1, hys]; simp
            rw [(createNode_same m t.head value _ (h.alloc _ hmem)).2.2.2.1]; exact c3
          · right; right
            refine ⟨c1, c2, ?_⟩
            have hmem : res.location.parent ∈ L := by
              obtain ⟨ys, hys⟩ := List.head?_eq_some_iff.1 c2
              rw [b1, hys]; simp
            rw [(createNode_same m t.head value _ (h.alloc _ hmem)).2.2.1]; exact c3
      obtain ⟨m', hm', hinv, hv, hn, hfr⟩ := hins res.location l1 l2 hloc2
      simp only [Bool.false_eq_true, if_false]
      rw [hm']
      exact ⟨m', _, _, true, rfl, Or.inr ⟨rfl, rfl, rfl, l1, l2, hloc.1, hinv, hloc.2.1,
        hloc.2.2.1, hv, hn, hfr⟩⟩
  · rw [if_neg hext]
    simp only
    obtain ⟨res, hres, hcase⟩ := findPlaceForNode_spec hswo hcr
      ((m.createNode t.head value).1.key (m.createNode t.head value).2) (by omega : L.length < fuel)
    rw [hres]
    rw [hnewkey] at hcase
    rcases hcase with ⟨hd, hp, heq⟩ | ⟨hd, l1, l2, hloc⟩
    · simp only [hd, if_true]
      refine ⟨_, t, _, false, rfl, Or.inl ⟨rfl, rfl, hp, ?_, ?_, ?_, fun hc => absurd hc hext⟩⟩
      · rw [← hkeys _ hp]; exact heq
      · exact hcr.frame (fun a _ => by simp [SameNode, TreeMem.freeNode])
          (by simp [TreeMem.freeNode])
      · intro a ha
        have := createNode_same m t.head value a ha
        simpa [SameNode, TreeMem.freeNode] using this
    · simp only [hd, Bool.false_eq_true, if_false]
      obtain ⟨m', hm', hinv, hv, hn, hfr⟩ := hins res.location l1 l2 hloc
      rw [hm']
      refine ⟨m', _, _, true, rfl, Or.inr ⟨rfl, rfl, rfl, l1, l2, hloc.1, hinv, ?_, ?_, hv, hn,
        hfr⟩⟩
      · intro a ha; rw [← hkeys a (by rw [hloc.1]; simp [ha])]; exact hloc.2.1 a ha
      · intro a ha; rw [← hkeys a (by rw [hloc.1]; simp [ha])]; exact hloc.2.2.1 a ha

theorem unlinkLeaf_same (m : TreeMem K V) (head e b : Nat) (h1 : b ≠ head)
    (h2 : b ≠ m.parent e) : SameNode m (unlinkLeaf m head e) b := by
  unfold unlinkLeaf SameNode
  simp only []
  split_ifs <;> simp_all [upd]

theorem extractNode_leaf (fuel : Nat) (m : TreeMem K V) (t : TreeValue) (e : Nat)
    (hl : m.is_nil (m.left e) = true) (hr : m.is_nil (m.right e) = true) :
    extractNode fuel m t e = extractFinish fuel t (unlinkLeaf m t.head e) (m.parent e) := by
  unfold extractNode extractFinish unlinkLeaf
  simp only [hl, hr, Bool.and_self, if_true]
  all_goals rfl

theorem extractNode_inner (fuel : Nat) (m : TreeMem K V) (t : TreeValue) (e : Nat)
    (h : (m.is_nil (m.left e) && m.is_nil (m.right e)) = false) :
    extractNode fuel m t e =
      match (if differenceHeights m e ≥ 0 then minInSubTree m fuel (m.right e)
          else maxInSubTree m fuel (m.left e)) with
      | Option.none => Option.none
      | some replace_node =>
        extractFinish fuel t (unlinkInner m t.head e replace_node).1
          (unlinkInner m t.head e replace_node).2 := by
  unfold extractNode extractFinish unlinkInner
  simp only [h, Bool.false_eq_true, if_false]
  all_goals rfl

theorem extractFinish_inv {comp : K → K → Bool} {m' : TreeMem K V} {t : TreeValue}
    {L' : List Nat} (h : TreeInv comp m' { t with size := t.size - 1 } L') {bn fuel : Nat}
    (hbn : bn ∈ L' ∨ bn = t.head) (hf : L'.length < fuel) :
    ∃ m2, extractFinish fuel t m' bn = some (m2, { t with size := t.size - 1 }) ∧
      TreeInv comp m2 { t with size := t.size - 1 } L' ∧ m2.value = m'.value ∧
      m2.next = m'.next ∧ m2.freed = m'.freed ∧
      ∀ b, b ∉ L' → b ≠ t.head → SameNode m' m2 b := by
  obtain ⟨m3, hm3, hinv3, hv3, hn3, hf3⟩ := changeHeights_inv h hbn hf
  obtain ⟨m4, hm4, hinv4, hv4, hn4, hf4⟩ := balanceTree_inv hinv3 hbn hf
  refine ⟨m4, ?_, hinv4, by rw [hv4, hv3], by rw [hn4, hn3], by rw [hf4, hf3], ?_⟩
  · unfold extractFinish
    rw [hm3]
    simp only
    have : balanceTree fuel m3 t.head bn = some m4 := hm4
    rw [this]
  · intro b hb hbh
    exact (changeHeights_outside h hbn hm3 b hb hbh).trans
      (balanceTree_outside hinv3 hbn hf hm4 b hb hbh)

theorem head_cache_left {A B : List Nat} {e head x old new : Nat}
    (hold : old = (A ++ e :: B).head?.getD head) (hnd : (A ++ e :: B).Nodup)
    (hnew : new = if old = e then x else old)
    (hx : A = [] → B.head?.getD head = x) : new = (A ++ B).head?.getD head := by
  cases A with
  | nil =>
    simp only [List.nil_append, List.head?_cons, Option.getD_some] at hold
    rw [hnew, if_pos hold]
    simpa using (hx rfl).symm
  | cons c A =>
    simp only [List.cons_append, List.head?_cons, Option.getD_some] at hold
    have hne : old ≠ e := by
      rw [hold]
      intro hc
      simp only [List.cons_append, List.nodup_cons, List.mem_append, List.mem_cons] at hnd
      exact hnd.1 (Or.inr (Or.inl hc))
    rw [hnew, if_neg hne, hold]
    simp

theorem head_cache_right {A B : List Nat} {e head x old new : Nat}
    (hold : old = (A ++ e :: B).getLast?.getD head) (hnd : (A ++ e :: B).Nodup)
    (hnew : new = if old = e then x else old)
    (hx : B = [] → A.getLast?.getD head = x) : new = (A ++ B).getLast?.getD head := by
  rcases List.eq_nil_or_concat B with hB | ⟨B', c, hB⟩
  · subst hB
    rw [List.getLast?_concat] at hold
    simp only [Option.getD_some] at hold
    rw [hnew, if_pos hold]
    simpa using (hx rfl).symm
  · rw [List.concat_eq_append] at hB
    subst hB
    have e1 : A ++ e :: (B' ++ [c]) = (A ++ e :: B') ++ [c] := by simp
    have e2 : A ++ (B' ++ [c]) = (A ++ B') ++ [c] := by simp
    have hold' : old = c := by
      rw [hold, e1, List.getLast?_concat]
      rfl
    have hne : old ≠ e := by
      rw [hold']
      intro hc
      rw [e1, List.nodup_append] at hnd
      exact hnd.2.2 (show e ∈ A ++ e :: B' by simp) (by simp [hc])
    rw [hnew, if_neg hne, hold', e2, List.getLast?_concat]
    rfl

/-- Generic step of an erasure: the subtree at `e` is replaced by one that holds
the same nodes without `e`. -/
theorem remove_inv {comp : K → K → Bool} {m m' : TreeMem K V} {t : TreeValue}
    {L A B : List Nat} {e : Nat} (h : TreeInv comp m t L) (hL : L = A ++ e :: B)
    (hshape : ∃ s', Rep m' t.head s' t.head (m'.parent t.head) ∧ s'.addrs = A ++ B)
    (hnil : m'.is_nil t.head = true) (hh0 : m'.height t.head = 0)
    (hval : m'.value = m.value) (hnext : m'.next = m.next)
    (hhp : ∀ a ∈ A ++ B, 1 ≤ m'.height a)
    (hleft : m'.left t.head = (A ++ B).head?.getD t.head)
    (hright : m'.right t.head = (A ++ B).getLast?.getD t.head) :
    TreeInv comp m' { t with size := t.size - 1 } (A ++ B) := by
  have hsub : (A ++ B).Sublist L := by
    rw [hL]
    exact List.Sublist.append (List.Sublist.refl A) (List.sublist_cons_self e B)
  have hkey : m'.key = m.key := by funext b; simp [TreeMem.key, hval]
  refine ⟨hnil, hh0, hshape, h.nodup.sublist hsub, ?_, ?_, hleft, hright, hhp,
    by rw [hnext]; exact h.head_alloc, fun p hp => by rw [hnext]; exact h.alloc p (hsub.subset hp)⟩
  · rw [hkey]; exact h.sorted.sublist hsub
  · simp [h.size_eq, hL]

theorem TreeInv.nil_child {comp : K → K → Bool} {m : TreeMem K V} {t : TreeValue}
    {L : List Nat} (h : TreeInv comp m t L) {c : Nat} (hc : c = t.head ∨ c ∈ L) :
    m.is_nil c = true ↔ c = t.head := by
  constructor
  · intro hn
    rcases hc with hc | hc
    · exact hc
    · rw [h.real hc] at hn; exact absurd hn (by simp)
  · intro hc'; rw [hc']; exact h.head_nil

theorem unlinkLeaf_inv {comp : K → K → Bool} {m : TreeMem K V} {t : TreeValue}
    {L : List Nat} (h : TreeInv comp m t L) {e : Nat} (he : e ∈ L)
    (hl : m.left e = t.head) (hr : m.right e = t.head) :
    ∃ A B, L = A ++ e :: B ∧
      TreeInv comp (unlinkLeaf m t.head e) { t with size := t.size - 1 } (A ++ B) ∧
      (m.parent e ∈ A ++ B ∨ m.parent e = t.head) ∧
      (unlinkLeaf m t.head e).value = m.value ∧ (unlinkLeaf m t.head e).next = m.next ∧
      (unlinkLeaf m t.head e).freed = m.freed := by
  obtain ⟨l, r, pre, post, hL, hrep, hppn, hroot, hlink, hcont⟩ := h.zoom he
  obtain ⟨-, hn, -, hlrep, hrrep⟩ := hrep
  have hlnil : l = Shape.nil := by rw [hl] at hlrep; exact Rep.nil_of_head l _ h.head_nil hlrep
  have hrnil : r = Shape.nil := by rw [hr] at hrrep; exact Rep.nil_of_head r _ h.head_nil hrrep
  subst hlnil hrnil
  have hL' : L = pre ++ e :: post := by rw [hL]; simp [Shape.addrs]
  have hnd := nodup_mid_disjoint (hL ▸ h.nodup)
  have hndL : (pre ++ e :: post).Nodup := hL' ▸ h.nodup
  have heh : e ≠ t.head := h.ne_head he
  refine ⟨pre, post, hL', ?_⟩
  rcases hroot with ⟨a1, a2, a3, a4⟩ | ⟨a1, a2, a3⟩
  · -- the erased node is the root and the only node
    subst a3 a4
    have hm : unlinkLeaf m t.head e =
        { m with
          left := upd m.left t.head t.head
          parent := upd m.parent t.head t.head
          right := upd m.right t.head t.head } := by
      unfold unlinkLeaf
      rw [a2, h.head_nil]; simp
    rw [hm]
    refine ⟨?_, Or.inr a2, rfl, rfl, rfl⟩
    refine remove_inv h hL' ⟨Shape.nil, ?_, rfl⟩ h.head_nil h.head_height rfl rfl (by simp)
      (by simp [upd]) (by simp [upd])
    show upd m.parent t.head t.head t.head = t.head
    simp [upd]
  · have hppL : m.parent e ∈ L := h.mem_split hL a2
    have hppreal : m.is_nil (m.parent e) = false := h.real hppL
    have hpph : m.parent e ≠ t.head := h.ne_head hppL
    have hppe : m.parent e ≠ e := fun hc => hnd.2.2 _ a2 (by simp [Shape.addrs, hc])
    rcases a3 with ⟨b1, b2, post', b3⟩ | ⟨b1, b2, pre', b3⟩
    · -- the erased node is a left child
      have hm : unlinkLeaf m t.head e =
          if m.left t.head = e then
            { m with left := upd (upd m.left (m.parent e) t.head) t.head (m.parent e) }
          else { m with left := upd m.left (m.parent e) t.head } := by
        unfold unlinkLeaf
        rw [hppreal]
        simp only [Bool.false_eq_true, if_false, b1, if_true]
        have : upd m.left (m.parent e) t.head t.head = m.left t.head := by
          simp [upd, Ne.symm hpph]
        rw [this]
      have hfields : (unlinkLeaf m t.head e).is_nil = m.is_nil ∧
          (unlinkLeaf m t.head e).value = m.value ∧ (unlinkLeaf m t.head e).height = m.height ∧
          (unlinkLeaf m t.head e).next = m.next ∧ (unlinkLeaf m t.head e).freed = m.freed ∧
          (unlinkLeaf m t.head e).parent = m.parent ∧ (unlinkLeaf m t.head e).right = m.right ∧
          (∀ b, b ≠ t.head → (unlinkLeaf m t.head e).left b = upd m.left (m.parent e) t.head b) ∧
          (unlinkLeaf m t.head e).left t.head =
            if m.left t.head = e then m.parent e else m.left t.head := by
        rw [hm]
        split_ifs with hc
        · refine ⟨rfl, rfl, rfl, rfl, rfl, rfl, rfl, fun b hb => by simp [upd, hb], by simp [upd]⟩
        · refine ⟨rfl, rfl, rfl, rfl, rfl, rfl, rfl, fun b hb => rfl,
            by simp [upd, Ne.symm hpph]⟩
      obtain ⟨f1, f2, f3, f4, f5, f6, f7, f8, f9⟩ := hfields
      refine ⟨?_, Or.inl a2, f2, f4, f5⟩
      obtain ⟨s', hs', hs'a⟩ := hcont (unlinkLeaf m t.head e) Shape.nil t.head rfl (by
        intro b hb
        have hbL := h.mem_split hL hb
        have hbh := h.ne_head hbL
        refine ⟨by rw [f1], by rw [f6], ?_, ?_⟩
        · rw [f8 b hbh]
          by_cases hc : m.left b = e
          · have := hlink b hb (Or.inl hc)
            rw [if_pos hc, this]; simp [upd]
          · rw [if_neg hc]
            have : b ≠ m.parent e := fun hc2 => hc (hc2 ▸ b1)
            simp [upd, this]
        · rw [f7]
          by_cases hc : m.right b = e
          · have := hlink b hb (Or.inr hc)
            rw [this] at hc; exact absurd hc b2
          · rw [if_neg hc]) (by rw [f6, if_neg a1])
      refine remove_inv h hL' ⟨s', hs', by rw [hs'a]; simp [Shape.addrs]⟩
        (by rw [f1]; exact h.head_nil) (by rw [f3]; exact h.head_height) f2 f4 ?_ ?_ ?_
      · intro b hb; rw [f3]
        exact h.height_pos b (by rw [hL']; simp only [List.mem_append, List.mem_cons] at hb ⊢; tauto)
      · refine head_cache_left (h.head_left.trans (by rw [hL'])) hndL f9 ?_
        intro _; rw [b3]; simp
      · rw [f7, h.head_right, hL', b3]
        rw [List.getLast?_append_of_ne_nil _ (by simp), List.getLast?_append_of_ne_nil _ (by simp)]
        simp [List.getLast?_cons_cons]
    · -- the erased node is a right child
      have hm : unlinkLeaf m t.head e =
          if m.right t.head = e then
            { m with right := upd (upd m.right (m.parent e) t.head) t.head (m.parent e) }
          else { m with right := upd m.right (m.parent e) t.head } := by
        unfold unlinkLeaf
        rw [hppreal]
        simp only [Bool.false_eq_true, if_false, b2]
        have : upd m.right (m.parent e) t.head t.head = m.right t.head := by
          simp [upd, Ne.symm hpph]
        rw [this]
      have hfields : (unlinkLeaf m t.head e).is_nil = m.is_nil ∧
          (unlinkLeaf m t.head e).value = m.value ∧ (unlinkLeaf m t.head e).height = m.height ∧
          (unlinkLeaf m t.head e).next = m.next ∧ (unlinkLeaf m t.head e).freed = m.freed ∧
          (unlinkLeaf m t.head e).parent = m.parent ∧ (unlinkLeaf m t.head e).left = m.left ∧
          (∀ b, b ≠ t.head → (unlinkLeaf m t.head e).right b = upd m.right (m.parent e) t.head b) ∧
          (unlinkLeaf m t.head e).right t.head =
            if m.right t.head = e then m.parent e else m.right t.head := by
        rw [hm]
        split_ifs with hc
        · refine ⟨rfl, rfl, rfl, rfl, rfl, rfl, rfl, fun b hb => by simp [upd, hb], by simp [upd]⟩
        · refine ⟨rfl, rfl, rfl, rfl, rfl, rfl, rfl, fun b hb => rfl,
            by simp [upd, Ne.symm hpph]⟩
      obtain ⟨f1, f2, f3, f4, f5, f6, f7, f8, f9⟩ := hfields
      refine ⟨?_, Or.inl a2, f2, f4, f5⟩
      obtain ⟨s', hs', hs'a⟩ := hcont (unlinkLeaf m t.head e) Shape.nil t.head rfl (by
        intro b hb
        have hbL := h.mem_split hL hb
        have hbh := h.ne_head hbL
        refine ⟨by rw [f1], by rw [f6], ?_, ?_⟩
        · rw [f7]
          by_cases hc : m.left b = e
          · have := hlink b hb (Or.inl hc)
            rw [this] at hc; exact absurd hc b2
          · rw [if_neg hc]
        · rw [f8 b hbh]
          by_cases hc : m.right b = e
          · have := hlink b hb (Or.inr hc)
            rw [if_pos hc, this]; simp [upd]
          · rw [if_neg hc]
            have : b ≠ m.parent e := fun hc2 => hc (hc2 ▸ b1)
            simp [upd, this]) (by rw [f6, if_neg a1])
      refine remove_inv h hL' ⟨s', hs', by rw [hs'a]; simp [Shape.addrs]⟩
        (by rw [f1]; exact h.head_nil) (by rw [f3]; exact h.head_height) f2 f4 ?_ ?_ ?_
      · intro b hb; rw [f3]
        exact h.height_pos b (by rw [hL']; simp only [List.mem_append, List.mem_cons] at hb ⊢; tauto)
      · rw [f7, h.head_left, hL', b3]; simp
      · refine head_cache_right (h.head_right.trans (by rw [hL'])) hndL f9 ?_
        intro _; rw [b3]; simp

theorem unlinkInner_eq (m : TreeMem K V) (head e q : Nat) :
    unlinkInner m head e q =
      (finishLinks (innerCore m head e q).1 head e q, (innerCore m head e q).2) := by
  rfl

theorem relinkParent_fields (m : TreeMem K V) (head e q : Nat) :
    (relinkParent m head e q).is_nil = m.is_nil ∧ (relinkParent m head e q).value = m.value ∧
    (relinkParent m head e q).height = m.height ∧ (relinkParent m head e q).next = m.next ∧
    (relinkParent m head e q).freed = m.freed ∧
    (∀ b, (relinkParent m head e q).parent b =
      if m.is_nil (m.parent e) = true ∧ b = head then q else m.parent b) ∧
    (∀ b, (relinkParent m head e q).left b =
      if m.is_nil (m.parent e) = false ∧ m.left (m.parent e) = e ∧ b = m.parent e then q
      else m.left b) ∧
    (∀ b, (relinkParent m head e q).right b =
      if m.is_nil (m.parent e) = false ∧ m.left (m.parent e) ≠ e ∧ b = m.parent e then q
      else m.right b) := by
  unfold relinkParent
  split_ifs with h1 h2
  · refine ⟨rfl, rfl, rfl, rfl, rfl, fun b => ?_, fun b => ?_, fun b => ?_⟩ <;> simp [upd, h1]
  · refine ⟨rfl, rfl, rfl, rfl, rfl, fun b => ?_, fun b => ?_, fun b => ?_⟩ <;>
      simp [upd, h1, h2]
  · refine ⟨rfl, rfl, rfl, rfl, rfl, fun b => ?_, fun b => ?_, fun b => ?_⟩ <;>
      simp [upd, h1, h2]

theorem spliceOut_fields (m1 : TreeMem K V) (q : Nat) :
    (spliceOut m1 q).is_nil = m1.is_nil ∧ (spliceOut m1 q).value = m1.value ∧
    (spliceOut m1 q).height = m1.height ∧ (spliceOut m1 q).next = m1.next ∧
    (spliceOut m1 q).freed = m1.freed ∧
    (∀ b, (spliceOut m1 q).parent b =
      if m1.left (m1.parent q) = q then
        (if m1.is_nil (m1.right q) = false ∧ b = m1.right q then m1.parent q else m1.parent b)
      else (if m1.is_nil (m1.left q) = false ∧ b = m1.left q then m1.parent q else m1.parent b)) ∧
    (∀ b, (spliceOut m1 q).left b =
      if m1.left (m1.parent q) = q ∧ b = m1.parent q then m1.right q else m1.left b) ∧
    (∀ b, (spliceOut m1 q).right b =
      if m1.left (m1.parent q) ≠ q ∧ b = m1.parent q then m1.left q else m1.right b) := by
  unfold spliceOut
  by_cases h0 : m1.left (m1.parent q) = q <;>
    by_cases h1 : m1.is_nil (m1.left q) = true <;> by_cases h2 : m1.is_nil (m1.right q) = true <;>
    simp [upd, *]

theorem graftDeep_fields (m2 : TreeMem K V) (e q : Nat) (hqe : q ≠ e) :
    (graftDeep m2 e q).is_nil = m2.is_nil ∧ (graftDeep m2 e q).value = m2.value ∧
    (graftDeep m2 e q).next = m2.next ∧ (graftDeep m2 e q).freed = m2.freed ∧
    (∀ b, (graftDeep m2 e q).height b = if b = q then m2.height e else m2.height b) ∧
    (∀ b, (graftDeep m2 e q).parent b =
      if m2.is_nil (m2.right e) = false ∧ b = m2.right e then q
      else if m2.is_nil (m2.left e) = false ∧ b = m2.left e then q
      else m2.parent b) ∧
    (∀ b, (graftDeep m2 e q).left b = if b = q then m2.left e else m2.left b) ∧
    (∀ b, (graftDeep m2 e q).right b = if b = q then m2.right e else m2.right b) := by
  have hqe' := Ne.symm hqe
  unfold graftDeep
  by_cases h1 : m2.is_nil (m2.left e) = true <;> by_cases h2 : m2.is_nil (m2.right e) = true <;>
    simp [upd, *]

theorem graftDirect_fields (m1 : TreeMem K V) (e q : Nat) (hqe : q ≠ e) :
    (graftDirect m1 e q).is_nil = m1.is_nil ∧ (graftDirect m1 e q).value = m1.value ∧
    (graftDirect m1 e q).height = m1.height ∧
    (graftDirect m1 e q).next = m1.next ∧ (graftDirect m1 e q).freed = m1.freed ∧
    (∀ b, (graftDirect m1 e q).parent b =
      if m1.left (m1.parent q) = q then
        (if m1.is_nil (m1.right e) = false ∧ b = m1.right e then q else m1.parent b)
      else (if m1.is_nil (m1.left e) = false ∧ b = m1.left e then q else m1.parent b)) ∧
    (∀ b, (graftDirect m1 e q).left b =
      if m1.left (m1.parent q) ≠ q ∧ b = q then m1.left e else m1.left b) ∧
    (∀ b, (graftDirect m1 e q).right b =
      if m1.left (m1.parent q) = q ∧ b = q then m1.right e else m1.right b) := by
  have hqe' := Ne.symm hqe
  unfold graftDirect
  by_cases h0 : m1.left (m1.parent q) = q <;>
    by_cases h1 : m1.is_nil (m1.left e) = true <;> by_cases h2 : m1.is_nil (m1.right e) = true <;>
    simp [upd, *]

theorem finishLinks_fields (r1 : TreeMem K V) (head e q : Nat) :
    (finishLinks r1 head e q).is_nil = r1.is_nil ∧ (finishLinks r1 head e q).value = r1.value ∧
    (finishLinks r1 head e q).height = r1.height ∧
    (finishLinks r1 head e q).next = r1.next ∧ (finishLinks r1 head e q).freed = r1.freed ∧
    (∀ b, (finishLinks r1 head e q).parent b = if b = q then r1.parent e else r1.parent b) ∧
    (∀ b, (finishLinks r1 head e q).left b =
      if r1.left head = e ∧ b = head then q else r1.left b) ∧
    (∀ b, (finishLinks r1 head e q).right b =
      if r1.left head ≠ e ∧ r1.right head = e ∧ b = head then q else r1.right b) := by
  unfold finishLinks
  by_cases h1 : r1.left head = e <;> by_cases h2 : r1.right head = e <;> simp [upd, *]

/-- Field-wise description of `unlinkInner` when the replacement is the minimum
of the right subtree and lies deeper than the right child. -/
theorem unlinkInner_deep_min {m : TreeMem K V} {head e q : Nat}
    (hnh : m.is_nil head = true) (hqpe : m.parent q ≠ e) (hlq : m.left (m.parent q) = q)
    (heh : e ≠ head) (hqh : q ≠ head) (hqe : q ≠ e) (hqpq : m.parent q ≠ q)
    (hqph : m.parent q ≠ head)
    (hppe : m.parent e ≠ e) (hppq : m.parent e ≠ q) (hppqp : m.parent e ≠ m.parent q)
    (hrcn : m.is_nil (m.right e) = false) (hrcq : m.right e ≠ q) (hrce : m.right e ≠ e)
    (hlq2 : m.left e ≠ q) (hle : m.left e ≠ e) (hlqp : m.left e ≠ m.parent q)
    (hqrq : m.right q ≠ q) (hqre : m.right q ≠ e) :
    (unlinkInner m head e q).2 = m.parent q ∧
    (unlinkInner m head e q).1.is_nil = m.is_nil ∧
    (unlinkInner m head e q).1.value = m.value ∧
    (unlinkInner m head e q).1.next = m.next ∧
    (unlinkInner m head e q).1.freed = m.freed ∧
    (∀ b, (unlinkInner m head e q).1.height b = if b = q then m.height e else m.height b) ∧
    (∀ b, (unlinkInner m head e q).1.parent b =
      if b = q then m.parent e
      else if b = m.right e then q
      else if m.is_nil (m.left e) = false ∧ b = m.left e then q
      else if m.is_nil (m.right q) = false ∧ b = m.right q then m.parent q
      else if m.is_nil (m.parent e) = true ∧ b = head then q
      else m.parent b) ∧
    (∀ b, (unlinkInner m head e q).1.left b =
      if m.left head = e ∧ b = head then q
      else if b = q then m.left e
      else if b = m.parent q then m.right q
      else if m.is_nil (m.parent e) = false ∧ m.left (m.parent e) = e ∧ b = m.parent e then q
      else m.left b) ∧
    (∀ b, (unlinkInner m head e q).1.right b =
      if m.left head ≠ e ∧ m.right head = e ∧ b = head then q
      else if b = q then m.right e
      else if m.is_nil (m.parent e) = false ∧ m.left (m.parent e) ≠ e ∧ b = m.parent e then q
      else m.right b) := by
  have heh' := Ne.symm heh
  have hqh' := Ne.symm hqh
  have hqe' := Ne.symm hqe
  have hqpe' := Ne.symm hqpe
  have hqpq' := Ne.symm hqpq
  have hqph' := Ne.symm hqph
  have hppe' := Ne.symm hppe
  have hppq' := Ne.symm hppq
  have hppqp' := Ne.symm hppqp
  have hrcq' := Ne.symm hrcq
  have hrce' := Ne.symm hrce
  have hlq2' := Ne.symm hlq2
  have hle' := Ne.symm hle
  have hlqp' := Ne.symm hlqp
  have hqrq' := Ne.symm hqrq
  have hqre' := Ne.symm hqre
  have hpph2 : m.is_nil (m.parent e) = false → m.parent e ≠ head := by
    intro hc hc2; rw [hc2, hnh] at hc; simp at hc
  have hrch : m.right e ≠ head := by
    intro hc; rw [hc, hnh] at hrcn; simp at hrcn
  obtain ⟨a1, a2, a3, a4, a5, a6, a7, a8⟩ := relinkParent_fields m head e q
  obtain ⟨b1, b2, b3, b4, b5, b6, b7, b8⟩ := spliceOut_fields (relinkParent m head e q) q
  obtain ⟨c1, c2, c4, c5, c3, c6, c7, c8⟩ :=
    graftDeep_fields (spliceOut (relinkParent m head e q) q) e q hqe
  obtain ⟨d1, d2, d3, d4, d5, d6, d7, d8⟩ :=
    finishLinks_fields (graftDeep (spliceOut (relinkParent m head e q) q) e q) head e q
  have s1 : (relinkParent m head e q).parent q = m.parent q := by rw [a6]; simp [hqh]
  have hcore : innerCore m head e q =
      (graftDeep (spliceOut (relinkParent m head e q) q) e q,
        (spliceOut (relinkParent m head e q) q).parent q) := by
    unfold innerCore; rw [if_pos (by rw [s1]; exact hqpe)]
  rw [unlinkInner_eq, hcore]
  simp only
  generalize relinkParent m head e q = S1 at *
  generalize hS2 : spliceOut S1 q = S2 at *
  generalize hS3 : graftDeep S2 e q = S3 at *
  generalize hS4 : finishLinks S3 head e q = S4 at *
  have s2 : S1.left (m.parent q) = q := by rw [a7]; simp [hlq, hppqp']
  have s3 : S1.right q = m.right q := by rw [a8]; simp [hppq']
  have s4 : S1.left e = m.left e := by rw [a7]; simp [hppe']
  have s5 : S1.right e = m.right e := by rw [a8]; simp [hppe']
  have s6 : S1.parent e = m.parent e := by rw [a6]; simp [heh]
  rw [s1, s2] at b6 b7 b8
  simp only [if_true, true_and, ne_eq, not_true_eq_false, false_and, if_false, s3, a1] at b6 b7 b8
  have t1 : S2.left e = m.left e := by rw [b7]; simp [hqpe', s4]
  have t2 : S2.right e = m.right e := by rw [b8]; exact s5
  have t3 : S2.parent e = m.parent e := by rw [b6]; simp [hqre', s6]
  have t4 : S2.parent q = m.parent q := by rw [b6]; simp [hqrq', s1]
  rw [t1, t2, b1, a1] at c6
  rw [t1] at c7
  rw [t2] at c8
  rw [b3, a3] at c3
  have u1 : S3.parent e = m.parent e := by
    rw [c6]; simp [hrce', hle', t3]
  have u2 : S3.left head = m.left head := by
    rw [c7, b7, a7]; simp [hqh', hqph']
    intro hc _ hc2; exact absurd hc2.symm (hpph2 hc)
  have u3 : S3.right head = m.right head := by
    rw [c8, b8, a8]; simp [hqh']
    intro hc _ hc2; exact absurd hc2.symm (hpph2 hc)
  rw [u1] at d6
  rw [u2] at d7
  rw [u2, u3] at d8
  refine ⟨t4, by rw [d1, c1, b1, a1], by rw [d2, c2, b2, a2], by rw [d4, c4, b4, a4],
    by rw [d5, c5, b5, a5], ?_, ?_, ?_, ?_⟩
  · intro b; rw [d3, c3]
  · intro b
    rw [d6, c6, b6, a6]
    simp only [hrcn, true_and]
  · intro b
    rw [d7, c7, b7, a7]
  · intro b
    rw [d8, c8, b8, a8]

/-- Field-wise description of `unlinkInner` when the replacement is the maximum
of the left subtree and lies deeper than the left child. -/
theorem unlinkInner_deep_max {m : TreeMem K V} {head e q : Nat}
    (hnh : m.is_nil head = true) (hqpe : m.parent q ≠ e) (hlq : m.left (m.parent q) ≠ q)
    (heh : e ≠ head) (hqh : q ≠ head) (hqe : q ≠ e) (hqpq : m.parent q ≠ q)
    (hqph : m.parent q ≠ head)
    (hppe : m.parent e ≠ e) (hppq : m.parent e ≠ q) (hppqp : m.parent e ≠ m.parent q)
    (hlcn : m.is_nil (m.left e) = false) (hlcq : m.left e ≠ q) (hlce : m.left e ≠ e)
    (hrq2 : m.right e ≠ q) (hre : m.right e ≠ e) (hrqp : m.right e ≠ m.parent q)
    (hqlq : m.left q ≠ q) (hqle : m.left q ≠ e) :
    (unlinkInner m head e q).2 = m.parent q ∧
    (unlinkInner m head e q).1.is_nil = m.is_nil ∧
    (unlinkInner m head e q).1.value = m.value ∧
    (unlinkInner m head e q).1.next = m.next ∧
    (unlinkInner m head e q).1.freed = m.freed ∧
    (∀ b, (unlinkInner m head e q).1.height b = if b = q then m.height e else m.height b) ∧
    (∀ b, (unlinkInner m head e q).1.parent b =
      if b = q then m.parent e
      else if m.is_nil (m.right e) = false ∧ b = m.right e then q
      else if b = m.left e then q
      else if m.is_nil (m.left q) = false ∧ b = m.left q then m.parent q
      else if m.is_nil (m.parent e) = true ∧ b = head then q
      else m.parent b) ∧
    (∀ b, (unlinkInner m head e q).1.left b =
      if m.left head = e ∧ b = head then q
      else if b = q then m.left e
      else if m.is_nil (m.parent e) = false ∧ m.left (m.parent e) = e ∧ b = m.parent e then q
      else m.left b) ∧
    (∀ b, (unlinkInner m head e q).1.right b =
      if m.left head ≠ e ∧ m.right head = e ∧ b = head then q
      else if b = q then m.right e
      else if b = m.parent q then m.left q
      else if m.is_nil (m.parent e) = false ∧ m.left (m.parent e) ≠ e ∧ b = m.parent e then q
      else m.right b) := by
  have heh' := Ne.symm heh
  have hqh' := Ne.symm hqh
  have hqe' := Ne.symm hqe
  have hqpe' := Ne.symm hqpe
  have hqpq' := Ne.symm hqpq
  have hqph' := Ne.symm hqph
  have hppe' := Ne.symm hppe
  have hppq' := Ne.symm hppq
  have hppqp' := Ne.symm hppqp
  have hlcq' := Ne.symm hlcq
  have hlce' := Ne.symm hlce
  have hrq2' := Ne.symm hrq2
  have hre' := Ne.symm hre
  have hrqp' := Ne.symm hrqp
  have hqlq' := Ne.symm hqlq
  have hqle' := Ne.symm hqle
  have hpph2 : m.is_nil (m.parent e) = false → m.parent e ≠ head := by
    intro hc hc2; rw [hc2, hnh] at hc; simp at hc
  obtain ⟨a1, a2, a3, a4, a5, a6, a7, a8⟩ := relinkParent_fields m head e q
  obtain ⟨b1, b2, b3, b4, b5, b6, b7, b8⟩ := spliceOut_fields (relinkParent m head e q) q
  obtain ⟨c1, c2, c4, c5, c3, c6, c7, c8⟩ :=
    graftDeep_fields (spliceOut (relinkParent m head e q) q) e q hqe
  obtain ⟨d1, d2, d3, d4, d5, d6, d7, d8⟩ :=
    finishLinks_fields (graftDeep (spliceOut (relinkParent m head e q) q) e q) head e q
  have s1 : (relinkParent m head e q).parent q = m.parent q := by rw [a6]; simp [hqh]
  have hcore : innerCore m head e q =
      (graftDeep (spliceOut (relinkParent m head e q) q) e q,
        (spliceOut (relinkParent m head e q) q).parent q) := by
    unfold innerCore; rw [if_pos (by rw [s1]; exact hqpe)]
  rw [unlinkInner_eq, hcore]
  simp only
  generalize relinkParent m head e q = S1 at *
  generalize hS2 : spliceOut S1 q = S2 at *
  generalize hS3 : graftDeep S2 e q = S3 at *
  generalize hS4 : finishLinks S3 head e q = S4 at *
  have s2 : S1.left (m.parent q) ≠ q := by rw [a7]; simp [hlq, hppqp']
  have s3 : S1.left q = m.left q := by rw [a7]; simp [hppq']
  have s4 : S1.left e = m.left e := by rw [a7]; simp [hppe']
  have s5 : S1.right e = m.right e := by rw [a8]; simp [hppe']
  have s6 : S1.parent e = m.parent e := by rw [a6]; simp [heh]
  rw [s1] at b6 b7 b8
  simp only [s2, if_true, true_and, ne_eq, not_true_eq_false, not_false_eq_true, false_and,
    if_false, s3, a1] at b6 b7 b8
  have t1 : S2.left e = m.left e := by rw [b7]; exact s4
  have t2 : S2.right e = m.right e := by rw [b8]; simp [hqpe', s5]
  have t3 : S2.parent e = m.parent e := by rw [b6]; simp [hqle', s6]
  have t4 : S2.parent q = m.parent q := by rw [b6]; simp [hqlq', s1]
  rw [t1, t2, b1, a1] at c6
  rw [t1] at c7
  rw [t2] at c8
  rw [b3, a3] at c3
  have u1 : S3.parent e = m.parent e := by
    rw [c6]; simp [hre', hlce', t3]
  have u2 : S3.left head = m.left head := by
    rw [c7, b7, a7]; simp [hqh']
    intro hc _ hc2; exact absurd hc2.symm (hpph2 hc)
  have u3 : S3.right head = m.right head := by
    rw [c8, b8, a8]; simp [hqh', hqph']
    intro hc _ hc2; exact absurd hc2.symm (hpph2 hc)
  rw [u1] at d6
  rw [u2] at d7
  rw [u2, u3] at d8
  refine ⟨t4, by rw [d1, c1, b1, a1], by rw [d2, c2, b2, a2], by rw [d4, c4, b4, a4],
    by rw [d5, c5, b5, a5], ?_, ?_, ?_, ?_⟩
  · intro b; rw [d3, c3]
  · intro b
    rw [d6, c6, b6, a6]
    simp only [hlcn, true_and]
  · intro b
    rw [d7, c7, b7, a7]
  · intro b
    rw [d8, c8, b8, a8]

/-- Field-wise description of `unlinkInner` when the replacement is the right
child of the erased node (it has no left child). -/
theorem unlinkInner_right_direct {m : TreeMem K V} {head e q : Nat}
    (hnh : m.is_nil head = true) (hpq : m.parent q = e)
    (heh : e ≠ head) (hqh : q ≠ head) (hqe : q ≠ e)
    (hppe : m.parent e ≠ e) (hppq : m.parent e ≠ q)
    (hlq : m.left e ≠ q) (hle : m.left e ≠ e) :
    (unlinkInner m head e q).2 = q ∧
    (unlinkInner m head e q).1.is_nil = m.is_nil ∧
    (unlinkInner m head e q).1.value = m.value ∧
    (unlinkInner m head e q).1.next = m.next ∧
    (unlinkInner m head e q).1.freed = m.freed ∧
    (unlinkInner m head e q).1.height = m.height ∧
    (∀ b, (unlinkInner m head e q).1.parent b =
      if b = q then m.parent e
      else if m.is_nil (m.left e) = false ∧ b = m.left e then q
      else if m.is_nil (m.parent e) = true ∧ b = head then q
      else m.parent b) ∧
    (∀ b, (unlinkInner m head e q).1.left b =
      if m.left head = e ∧ b = head then q
      else if b = q then m.left e
      else if m.is_nil (m.parent e) = false ∧ m.left (m.parent e) = e ∧ b = m.parent e then q
      else m.left b) ∧
    (∀ b, (unlinkInner m head e q).1.right b =
      if m.left head ≠ e ∧ m.right head = e ∧ b = head then q
      else if m.is_nil (m.parent e) = false ∧ m.left (m.parent e) ≠ e ∧ b = m.parent e then q
      else m.right b) := by
  have heh' := Ne.symm heh
  have hqh' := Ne.symm hqh
  have hqe' := Ne.symm hqe
  have hppe' := Ne.symm hppe
  have hppq' := Ne.symm hppq
  have hlq' := Ne.symm hlq
  have hle' := Ne.symm hle
  have hpph2 : m.is_nil (m.parent e) = false → m.parent e ≠ head := by
    intro hc hc2; rw [hc2, hnh] at hc; simp at hc
  obtain ⟨a1, a2, a3, a4, a5, a6, a7, a8⟩ := relinkParent_fields m head e q
  obtain ⟨c1, c2, c3, c4, c5, c6, c7, c8⟩ :=
    graftDirect_fields (relinkParent m head e q) e q hqe
  obtain ⟨d1, d2, d3, d4, d5, d6, d7, d8⟩ :=
    finishLinks_fields (graftDirect (relinkParent m head e q) e q) head e q
  have s1 : (relinkParent m head e q).parent q = e := by rw [a6]; simp [hqh, hpq]
  have hcore : innerCore m head e q = (graftDirect (relinkParent m head e q) e q, q) := by
    unfold innerCore; rw [if_neg (by rw [s1]; simp)]
  rw [unlinkInner_eq, hcore]
  simp only
  generalize relinkParent m head e q = S1 at *
  generalize hS3 : graftDirect S1 e q = S3 at *
  generalize hS4 : finishLinks S3 head e q = S4 at *
  have s4 : S1.left e = m.left e := by rw [a7]; simp [hppe']
  have s6 : S1.parent e = m.parent e := by rw [a6]; simp [heh]
  have s2 : S1.left e ≠ q := by rw [s4]; exact hlq
  rw [s1] at c6 c7 c8
  simp only [s2, hlq, if_true, true_and, ne_eq, not_true_eq_false, not_false_eq_true,
    false_and, if_false, s4, a1] at c6 c7 c8
  have u1 : S3.parent e = m.parent e := by
    rw [c6]; simp [hle', s6]
  have u2 : S3.left head = m.left head := by
    rw [c7, a7]; simp [hqh']
    intro hc _ hc2; exact absurd hc2.symm (hpph2 hc)
  have u3 : S3.right head = m.right head := by
    rw [c8, a8]; simp
    intro hc _ hc2; exact absurd hc2.symm (hpph2 hc)
  rw [u1] at d6
  rw [u2] at d7
  rw [u2, u3] at d8
  refine ⟨trivial, by rw [d1, c1, a1], by rw [d2, c2, a2], by rw [d4, c4, a4],
    by rw [d5, c5, a5], by rw [d3, c3, a3], ?_, ?_, ?_⟩
  · intro b
    rw [d6, c6, a6]
  · intro b
    rw [d7, c7, a7]
  · intro b
    rw [d8, c8, a8]

/-- Field-wise description of `unlinkInner` when the replacement is the left
child of the erased node (it has no right child). -/
theorem unlinkInner_left_direct {m : TreeMem K V} {head e q : Nat}
    (hnh : m.is_nil head = true) (hpq : m.parent q = e) (hlq : m.left e = q)
    (heh : e ≠ head) (hqh : q ≠ head) (hqe : q ≠ e)
    (hppe : m.parent e ≠ e) (hppq : m.parent e ≠ q)
    (hre : m.right e ≠ e) :
    (unlinkInner m head e q).2 = q ∧
    (unlinkInner m head e q).1.is_nil = m.is_nil ∧
    (unlinkInner m head e q).1.value = m.value ∧
    (unlinkInner m head e q).1.next = m.next ∧
    (unlinkInner m head e q).1.freed = m.freed ∧
    (unlinkInner m head e q).1.height = m.height ∧
    (∀ b, (unlinkInner m head e q).1.parent b =
      if b = q then m.parent e
      else if m.is_nil (m.right e) = false ∧ b = m.right e then q
      else if m.is_nil (m.parent e) = true ∧ b = head then q
      else m.parent b) ∧
    (∀ b, (unlinkInner m head e q).1.left b =
      if m.left head = e ∧ b = head then q
      else if m.is_nil (m.parent e) = false ∧ m.left (m.parent e) = e ∧ b = m.parent e then q
      else m.left b) ∧
    (∀ b, (unlinkInner m head e q).1.right b =
      if m.left head ≠ e ∧ m.right head = e ∧ b = head then q
      else if b = q then m.right e
      else if m.is_nil (m.parent e) = false ∧ m.left (m.parent e) ≠ e ∧ b = m.parent e then q
      else m.right b) := by
  have heh' := Ne.symm heh
  have hqh' := Ne.symm hqh
  have hqe' := Ne.symm hqe
  have hppe' := Ne.symm hppe
  have hppq' := Ne.symm hppq
  have hre' := Ne.symm hre
  have hpph2 : m.is_nil (m.parent e) = false → m.parent e ≠ head := by
    intro hc hc2; rw [hc2, hnh] at hc; simp at hc
  obtain ⟨a1, a2, a3, a4, a5, a6, a7, a8⟩ := relinkParent_fields m head e q
  obtain ⟨c1, c2, c3, c4, c5, c6, c7, c8⟩ :=
    graftDirect_fields (relinkParent m head e q) e q hqe
  obtain ⟨d1, d2, d3, d4, d5, d6, d7, d8⟩ :=
    finishLinks_fields (graftDirect (relinkParent m head e q) e q) head e q
  have s1 : (relinkParent m head e q).parent q = e := by rw [a6]; simp [hqh, hpq]
  have hcore : innerCore m head e q = (graftDirect (relinkParent m head e q) e q, q) := by
    unfold innerCore; rw [if_neg (by rw [s1]; simp)]
  rw [unlinkInner_eq, hcore]
  simp only
  generalize relinkParent m head e q = S1 at *
  generalize hS3 : graftDirect S1 e q = S3 at *
  generalize hS4 : finishLinks S3 head e q = S4 at *
  have s4 : S1.left e = q := by rw [a7]; simp [hppe', hlq]
  have s5 : S1.right e = m.right e := by rw [a8]; simp [hppe']
  have s6 : S1.parent e = m.parent e := by rw [a6]; simp [heh]
  rw [s1] at c6 c7 c8
  simp only [s4, if_true, true_and, ne_eq, not_true_eq_false, not_false_eq_true, false_and,
    if_false, s5, a1] at c6 c7 c8
  have u1 : S3.parent e = m.parent e := by
    rw [c6]; simp [hre', s6]
  have u2 : S3.left head = m.left head := by
    rw [c7, a7]; simp
    intro hc _ hc2; exact absurd hc2.symm (hpph2 hc)
  have u3 : S3.right head = m.right head := by
    rw [c8, a8]; simp [hqh']
    intro hc _ hc2; exact absurd hc2.symm (hpph2 hc)
  rw [u1] at d6
  rw [u2] at d7
  rw [u2, u3] at d8
  refine ⟨trivial, by rw [d1, c1, a1], by rw [d2, c2, a2], by rw [d4, c4, a4],
    by rw [d5, c5, a5], by rw [d3, c3, a3], ?_, ?_, ?_⟩
  · intro b
    rw [d6, c6, a6]
  · intro b
    rw [d7, c7, a7]
  · intro b
    rw [d8, c8, a8]

theorem minInSubTree_spec {m : TreeMem K V} {head : Nat} (hnil : m.is_nil head = true) :
    ∀ (s : Shape) (par x fuel : Nat), Rep m head s par x → s ≠ Shape.nil →
      s.addrs.length ≤ fuel →
      ∃ q rest, minInSubTree m fuel x = some q ∧ s.addrs = q :: rest ∧ m.left q = head
  | Shape.nil, _, _, _, _, hne, _ => absurd rfl hne
  | Shape.node l p r, par, x, 0, _, _, hf => by
    simp [Shape.addrs] at hf
  | Shape.node l p r, par, x, fuel + 1, h, _, hf => by
    obtain ⟨hx, hn, -, hl, hr⟩ := h
    subst hx
    simp only [Shape.addrs, List.length_append, List.length_cons] at hf
    unfold minInSubTree
    cases l with
    | nil =>
      have hlx : m.left x = head := hl
      rw [hlx, hnil]
      exact ⟨x, r.addrs, by simp, by simp [Shape.addrs], hlx⟩
    | node ll lp lr =>
      have hreal : m.is_nil (m.left x) = false := by
        have := hl.1
        rw [this]; exact hl.2.1
      rw [hreal]
      simp only [Bool.not_false, if_true]
      obtain ⟨q, rest, hq, hrest, hlq⟩ := minInSubTree_spec hnil (Shape.node ll lp lr) x
        (m.left x) fuel hl (by simp) (by omega)
      refine ⟨q, rest ++ x :: r.addrs, hq, ?_, hlq⟩
      show (Shape.node ll lp lr).addrs ++ x :: r.addrs = q :: (rest ++ x :: r.addrs)
      rw [hrest]; rfl

theorem maxInSubTree_spec {m : TreeMem K V} {head : Nat} (hnil : m.is_nil head = true) :
    ∀ (s : Shape) (par x fuel : Nat), Rep m head s par x → s ≠ Shape.nil →
      s.addrs.length ≤ fuel →
      ∃ q rest, maxInSubTree m fuel x = some q ∧ s.addrs = rest ++ [q] ∧ m.right q = head
  | Shape.nil, _, _, _, _, hne, _ => absurd rfl hne
  | Shape.node l p r, par, x, 0, _, _, hf => by
    simp [Shape.addrs] at hf
  | Shape.node l p r, par, x, fuel + 1, h, _, hf => by
    obtain ⟨hx, hn, -, hl, hr⟩ := h
    subst hx
    simp only [Shape.addrs, List.length_append, List.length_cons] at hf
    unfold maxInSubTree
    cases r with
    | nil =>
      have hrx : m.right x = head := hr
      rw [hrx, hnil]
      exact ⟨x, l.addrs, by simp, by simp [Shape.addrs], hrx⟩
    | node rl rp rr =>
      have hreal : m.is_nil (m.right x) = false := by
        have := hr.1
        rw [this]; exact hr.2.1
      rw [hreal]
      simp only [Bool.not_false, if_true]
      obtain ⟨q, rest, hq, hrest, hrq⟩ := maxInSubTree_spec hnil (Shape.node rl rp rr) x
        (m.right x) fuel hr (by simp) (by omega)
      refine ⟨q, l.addrs ++ x :: rest, hq, ?_, hrq⟩
      show l.addrs ++ x :: (Shape.node rl rp rr).addrs = (l.addrs ++ x :: rest) ++ [q]
      rw [hrest]; simp

theorem last_ne_of_nonempty {A B : List Nat} {e head old : Nat}
    (hold : old = (A ++ e :: B).getLast?.getD head) (hnd : (A ++ e :: B).Nodup)
    (hB : B ≠ []) : old ≠ e ∧ old = (A ++ B).getLast?.getD head := by
  rcases List.eq_nil_or_concat B with hB' | ⟨B', c, hB'⟩
  · exact absurd hB' hB
  · rw [List.concat_eq_append] at hB'
    subst hB'
    have e1 : A ++ e :: (B' ++ [c]) = (A ++ e :: B') ++ [c] := by simp
    have e2 : A ++ (B' ++ [c]) = (A ++ B') ++ [c] := by simp
    have hold' : old = c := by
      rw [hold, e1, List.getLast?_concat]; rfl
    refine ⟨?_, ?_⟩
    · rw [hold']
      intro hc
      rw [e1, List.nodup_append] at hnd
      exact hnd.2.2 (show e ∈ A ++ e :: B' by simp) (by simp [hc])
    · rw [hold', e2, List.getLast?_concat]; rfl

theorem first_ne_of_nonempty {A B : List Nat} {e head old : Nat}
    (hold : old = (A ++ e :: B).head?.getD head) (hnd : (A ++ e :: B).Nodup)
    (hA : A ≠ []) : old ≠ e ∧ old = (A ++ B).head?.getD head := by
  cases A with
  | nil => exact absurd rfl hA
  | cons c A =>
    simp only [List.cons_append, List.head?_cons, Option.getD_some] at hold ⊢
    refine ⟨?_, hold⟩
    rw [hold]
    intro hc
    simp only [List.cons_append, List.nodup_cons, List.mem_append, List.mem_cons] at hnd
    exact hnd.1 (Or.inr (Or.inl hc))

/-- Generic part of the inner case of an erasure: outside the subtree of the
erased node only the parent's link and the head's caches change. -/
theorem inner_outer_inv {comp : K → K → Bool} {m m' : TreeMem K V} {t : TreeValue}
    {L : List Nat} {e q : Nat} (h : TreeInv comp m t L)
    {l r : Shape} {pre post : List Nat}
    (hL : L = pre ++ (l.addrs ++ e :: r.addrs) ++ post)
    (hroot : (m.parent t.head = e ∧ m.parent e = t.head ∧ pre = [] ∧ post = []) ∨
       (m.parent t.head ≠ e ∧ m.parent e ∈ pre ++ post ∧
        ((m.left (m.parent e) = e ∧ m.right (m.parent e) ≠ e ∧
            ∃ post', post = m.parent e :: post') ∨
         (m.right (m.parent e) = e ∧ m.left (m.parent e) ≠ e ∧
            ∃ pre', pre = pre' ++ [m.parent e]))))
    (hlink : ∀ a ∈ pre ++ post, (m.left a = e ∨ m.right a = e) → a = m.parent e)
    (hcont : ∀ (m' : TreeMem K V) (u' : Shape) (p' : Nat),
        Rep m' t.head u' (m.parent e) p' →
        (∀ a ∈ pre ++ post, Redirected m m' e p' a) →
        m'.parent t.head = (if m.parent t.head = e then p' else m.parent t.head) →
        ∃ s', Rep m' t.head s' t.head (m'.parent t.head) ∧
          s'.addrs = pre ++ u'.addrs ++ post)
    {u' : Shape} (hu : Rep m' t.head u' (m.parent e) q)
    (hua : u'.addrs = l.addrs ++ r.addrs)
    (hsucc : l.addrs = [] → r.addrs.head? = some q)
    (hpred : r.addrs = [] → l.addrs.getLast? = some q)
    (hne : l.addrs ++ r.addrs ≠ [])
    (f_nil : m'.is_nil = m.is_nil) (f_val : m'.value = m.value) (f_next : m'.next = m.next)
    (f_h0 : m'.height t.head = 0)
    (f_h : ∀ b ∈ L, 1 ≤ m'.height b)
    (f_par : ∀ b ∈ pre ++ post, m'.parent b = m.parent b)
    (f_left : ∀ b ∈ pre ++ post, m'.left b =
      if m.is_nil (m.parent e) = false ∧ m.left (m.parent e) = e ∧ b = m.parent e then q
      else m.left b)
    (f_right : ∀ b ∈ pre ++ post, m'.right b =
      if m.is_nil (m.parent e) = false ∧ m.left (m.parent e) ≠ e ∧ b = m.parent e then q
      else m.right b)
    (f_ph : m'.parent t.head = if m.is_nil (m.parent e) = true then q else m.parent t.head)
    (f_lh : m'.left t.head = if m.left t.head = e then q else m.left t.head)
    (f_rh : m'.right t.head =
      if m.left t.head ≠ e ∧ m.right t.head = e then q else m.right t.head) :
    L = (pre ++ l.addrs) ++ e :: (r.addrs ++ post) ∧
    TreeInv comp m' { t with size := t.size - 1 } ((pre ++ l.addrs) ++ (r.addrs ++ post)) := by
  have hL' : L = (pre ++ l.addrs) ++ e :: (r.addrs ++ post) := by rw [hL]; simp
  have hndL : ((pre ++ l.addrs) ++ e :: (r.addrs ++ post)).Nodup := hL' ▸ h.nodup
  refine ⟨hL', ?_⟩
  obtain ⟨s', hs', hs'a⟩ := hcont m' u' q hu (by
    intro b hb
    have hbL := h.mem_split hL hb
    have hbreal := h.real hbL
    refine ⟨by rw [f_nil], f_par b hb, ?_, ?_⟩
    · rw [f_left b hb]
      by_cases hc : m.left b = e
      · have := hlink b hb (Or.inl hc)
        subst this
        simp [hc, hbreal]
      · rw [if_neg hc]
        by_cases hc2 : b = m.parent e
        · subst hc2; simp [hc]
        · simp [hc2]
    · rw [f_right b hb]
      rcases hroot with ⟨-, -, a3, a4⟩ | ⟨-, -, a3⟩
      · subst a3 a4; simp at hb
      by_cases hc : m.right b = e
      · have := hlink b hb (Or.inr hc)
        subst this
        have : m.left (m.parent e) ≠ e := by
          rcases a3 with ⟨-, b', -⟩ | ⟨-, b', -⟩
          · exact absurd hc b'
          · exact b'
        simp [hc, hbreal, this]
      · rw [if_neg hc]
        by_cases hc2 : b = m.parent e
        · subst hc2
          have : m.left (m.parent e) = e := by
            rcases a3 with ⟨b', -, -⟩ | ⟨b', -, -⟩
            · exact b'
            · exact absurd b' hc
          simp [this]
        · simp [hc2]) (by
    rw [f_ph]
    rcases hroot with ⟨a1, a2, -, -⟩ | ⟨a1, a2, -⟩
    · rw [a2, h.head_nil, if_pos rfl, if_pos a1]
    · have := h.real (h.mem_split hL a2)
      rw [this, if_neg a1]; simp)
  refine remove_inv h hL' ⟨s', hs', by rw [hs'a, hua]; simp⟩
    (by rw [f_nil]; exact h.head_nil) f_h0 f_val f_next ?_ ?_ ?_
  · intro b hb
    apply f_h
    rw [hL']
    simp only [List.mem_append, List.mem_cons] at hb ⊢
    tauto
  · by_cases hA : pre ++ l.addrs = []
    · refine head_cache_left (h.head_left.trans (by rw [hL'])) hndL f_lh ?_
      intro _
      have hl0 : l.addrs = [] := (List.append_eq_nil.1 hA).2
      have := hsucc hl0
      obtain ⟨ys, hys⟩ := List.head?_eq_some_iff.1 this
      rw [hys]; simp
    · obtain ⟨h1, h2⟩ := first_ne_of_nonempty (h.head_left.trans (by rw [hL'])) hndL hA
      rw [f_lh, if_neg h1]; exact h2
  · by_cases hB : r.addrs ++ post = []
    · have hr0 : r.addrs = [] := (List.append_eq_nil.1 hB).1
      have hlne : m.left t.head ≠ e := by
        have hA : pre ++ l.addrs ≠ [] := by
          intro hc
          exact hne (by rw [(List.append_eq_nil.1 hc).2, hr0]; rfl)
        exact (first_ne_of_nonempty (h.head_left.trans (by rw [hL'])) hndL hA).1
      have f_rh' : m'.right t.head = if m.right t.head = e then q else m.right t.head := by
        rw [f_rh]; simp [hlne]
      refine head_cache_right (h.head_right.trans (by rw [hL'])) hndL f_rh' ?_
      intro _
      have := hpred hr0
      obtain ⟨ys, hys⟩ := List.getLast?_eq_some_iff.1 this
      rw [hys, ← List.append_assoc, List.getLast?_concat]; rfl
    · obtain ⟨h1, h2⟩ := last_ne_of_nonempty (h.head_right.trans (by rw [hL'])) hndL hB
      rw [f_rh, if_neg (fun hc => h1 hc.2)]; exact h2

theorem nodup_around {X Y : List Nat} {e : Nat} (h : (X ++ e :: Y).Nodup) :
    e ∉ X ∧ e ∉ Y ∧ (∀ a ∈ X, a ∉ Y) ∧ X.Nodup ∧ Y.Nodup := by
  rw [List.nodup_append] at h
  obtain ⟨h1, h2, h3⟩ := h
  rw [List.nodup_cons] at h2
  refine ⟨fun hc => h3 hc (List.mem_cons_self _ _), h2.1, ?_, h1, h2.2⟩
  intro a ha hc
  exact h3 ha (List.mem_cons_of_mem _ hc)

/-- Erasing a node whose right child has no left child: the right child takes
its place. -/
theorem unlinkInner_right_direct_inv {comp : K → K → Bool} {m : TreeMem K V} {t : TreeValue}
    {L : List Nat} (h : TreeInv comp m t L) {e : Nat} (he : e ∈ L)
    (hr : m.is_nil (m.right e) = false) (hrl : m.is_nil (m.left (m.right e)) = true) :
    ∃ A B, L = A ++ e :: B ∧
      TreeInv comp (unlinkInner m t.head e (m.right e)).1 { t with size := t.size - 1 }
        (A ++ B) ∧
      (unlinkInner m t.head e (m.right e)).2 ∈ A ++ B ∧
      (unlinkInner m t.head e (m.right e)).1.value = m.value ∧
      (unlinkInner m t.head e (m.right e)).1.next = m.next ∧
      (unlinkInner m t.head e (m.right e)).1.freed = m.freed ∧
      ∀ b, b ∉ L → b ≠ t.head → SameNode m (unlinkInner m t.head e (m.right e)).1 b := by
  obtain ⟨l, r, pre, post, hL, hrep, hppn, hroot, hlink, hcont⟩ := h.zoom he
  have hrep' := hrep
  obtain ⟨-, hn, -, hl, hrr⟩ := hrep
  rcases Rep.root r _ _ hrr with ⟨-, hx⟩ | ⟨rl, rr, rfl⟩
  · rw [hx, h.head_nil] at hr; exact absurd hr (by simp)
  have hrr' := hrr
  obtain ⟨-, hnq, hpq, hrl', hrr2⟩ := hrr
  obtain ⟨rfl, hlq0⟩ := Rep.nil_of_is_nil rl _ _ hrl hrl'
  have hnd := nodup_mid_disjoint (hL ▸ h.nodup)
  have hhead := Rep.head_not_mem h.head_nil _ _ _ hrep'
  simp only [Shape.addrs, List.nil_append, List.mem_append, List.mem_cons, not_or] at hhead hppn
  have hnd1 := nodup_around (show (l.addrs ++ e :: (m.right e :: rr.addrs)).Nodup by
    simpa [Shape.addrs] using hnd.1)
  have hnd2 := nodup_around (show (([] : List Nat) ++ m.right e :: rr.addrs).Nodup from hnd1.2.2.2.2)
  have hel : e ∉ l.addrs := hnd1.1
  have hqe : m.right e ≠ e := by
    intro hc; exact hnd1.2.1 (by rw [hc]; simp)
  have hql : m.right e ∉ l.addrs := fun hc => hnd1.2.2.1 _ hc (by simp)
  have hqrr : m.right e ∉ rr.addrs := hnd2.2.1
  have herr : e ∉ rr.addrs := fun hc => hnd1.2.1 (by simp [hc])
  have hlrr : ∀ a ∈ l.addrs, a ∉ rr.addrs := fun a ha hc => hnd1.2.2.1 a ha (by simp [hc])
  have hlroot := Rep.root_in l _ _ hl
  have heh : e ≠ t.head := Ne.symm hhead.2.1
  have hqh : m.right e ≠ t.head := Ne.symm hhead.2.2.1
  have hlq : m.left e ≠ m.right e := by
    rcases hlroot with h1 | h1
    · rw [h1]; exact Ne.symm hqh
    · intro hc; exact hql (hc ▸ h1)
  have hle : m.left e ≠ e := by
    rcases hlroot with h1 | h1
    · rw [h1]; exact Ne.symm heh
    · intro hc; exact hel (hc ▸ h1)
  have hlh : m.is_nil (m.left e) = false → m.left e ∈ l.addrs := by
    intro hc
    rcases hlroot with h1 | h1
    · rw [h1, h.head_nil] at hc; exact absurd hc (by simp)
    · exact h1
  have hpph : m.is_nil (m.parent e) = false → t.head ≠ m.parent e := by
    intro hc hc2; rw [← hc2, h.head_nil] at hc; simp at hc
  obtain ⟨g2, gN, gV, gX, gF, gH, gP, gL, gR⟩ :=
    unlinkInner_right_direct h.head_nil hpq heh hqh hqe hppn.2.1 hppn.2.2.1 hlq hle
  -- the subtree below the erased node, re-rooted at its right child
  have hu : Rep (unlinkInner m t.head e (m.right e)).1 t.head
      (Shape.node l (m.right e) rr) (m.parent e) (m.right e) := by
    refine ⟨rfl, by rw [gN]; exact hnq, by rw [gP]; simp, ?_, ?_⟩
    · have e1 : (unlinkInner m t.head e (m.right e)).1.left (m.right e) = m.left e := by
        rw [gL]; simp [hqh]
      rw [e1]
      refine Rep.reparent l e (m.right e) (m.left e) hl ?_ ?_ hnd1.2.2.2.1
      · intro a ha
        have hah : a ≠ t.head := fun hc => hhead.1 (hc ▸ ha)
        have haq : a ≠ m.right e := fun hc => hql (hc ▸ ha)
        have hap : a ≠ m.parent e := fun hc => hppn.1 (hc ▸ ha)
        refine ⟨by rw [gN], ?_, ?_, ?_⟩
        · intro hax
          rw [gP]; simp [haq, hax, hah]
        · rw [gL]; simp [haq, hah, hap]
        · rw [gR]; simp [hah, hap]
      · intro hmem
        have := Rep.real_node l _ _ hl _ hmem
        rw [gP]; simp [hlq, this]
    · have e1 : (unlinkInner m t.head e (m.right e)).1.right (m.right e) =
          m.right (m.right e) := by
        rw [gR]; simp [hqh, Ne.symm hppn.2.2.1]
      rw [e1]
      refine Rep.frame_links rr _ _ hrr2 ?_
      intro a ha
      have hah : a ≠ t.head := fun hc => hhead.2.2.2 (hc ▸ ha)
      have haq : a ≠ m.right e := fun hc => hqrr (hc ▸ ha)
      have hap : a ≠ m.parent e := fun hc => hppn.2.2.2 (hc ▸ ha)
      have hal : m.is_nil (m.left e) = false → a ≠ m.left e := by
        intro hc hc2
        exact hlrr _ (hlh hc) (hc2 ▸ ha)
      refine ⟨by rw [gN], ?_, ?_, ?_⟩
      · rw [gP]; simp only [haq, hah, if_false, and_false]
        by_cases hc : m.is_nil (m.left e) = false
        · simp [hal hc]
        · simp [hc]
      · rw [gL]; simp [haq, hah, hap]
      · rw [gR]; simp [hah, hap]
  have hout : ∀ b ∈ pre ++ post, b ≠ t.head ∧ b ≠ m.right e ∧
      (m.is_nil (m.left e) = false → b ≠ m.left e) := by
    intro b hb
    have h1 := hnd.2.2 b hb
    simp only [Shape.addrs, List.nil_append, List.mem_append, List.mem_cons, not_or] at h1
    refine ⟨h.ne_head (h.mem_split hL hb), h1.2.2.1, ?_⟩
    intro hc hc2
    exact h1.1 (hc2 ▸ hlh hc)
  have key := inner_outer_inv h hL hroot hlink hcont hu
    (by simp [Shape.addrs]) (by intro _; simp [Shape.addrs]) (by intro hc; simp [Shape.addrs] at hc)
    (by simp [Shape.addrs]) gN gV gX (by rw [gH]; exact h.head_height)
    (by intro b hb; rw [gH]; exact h.height_pos b hb)
    (by
      intro b hb
      obtain ⟨o1, o2, o3⟩ := hout b hb
      rw [gP]; simp only [o1, o2, if_false, and_false]
      by_cases hc : m.is_nil (m.left e) = false
      · simp [o3 hc]
      · simp [hc])
    (by
      intro b hb
      obtain ⟨o1, o2, o3⟩ := hout b hb
      rw [gL]; simp [o1, o2])
    (by
      intro b hb
      obtain ⟨o1, o2, o3⟩ := hout b hb
      rw [gR]; simp [o1])
    (by
      rw [gP]; simp only [Ne.symm hqh, if_false]
      by_cases hc : m.is_nil (m.left e) = false
      · have : t.head ≠ m.left e := by
          intro hc2; rw [← hc2, h.head_nil] at hc; simp at hc
        simp [this]
      · simp [hc])
    (by
      rw [gL]; simp only [Ne.symm hqh, and_true, if_false]
      by_cases hc : m.is_nil (m.parent e) = false
      · simp [hpph hc]
      · simp [hc])
    (by
      rw [gR]; simp only [and_true]
      by_cases hc : m.is_nil (m.parent e) = false
      · simp [hpph hc]
      · simp [hc])
  have hsame : ∀ b, b ∉ L → b ≠ t.head → SameNode m (unlinkInner m t.head e (m.right e)).1 b := by
    intro b hb hbh
    have hqL : (m.right e) ∈ L := by
      rcases h.closed (Or.inl he) with ⟨-, h1 | h1, -⟩
      · exact h1
      · rw [h1, h.head_nil] at hr; exact absurd hr (by simp)
    have ce := h.closed (Or.inl he)
    have cq := h.closed (Or.inl hqL)
    have n1 : b ≠ (m.right e) := h.not_mem_ne hb hbh (Or.inl hqL)
    have n2 : b ≠ m.left e := h.not_mem_ne hb hbh ce.1
    have n3 : b ≠ m.right e := h.not_mem_ne hb hbh ce.2.1
    have n4 : b ≠ m.parent e := h.not_mem_ne hb hbh ce.2.2
    have n5 : b ≠ m.left (m.right e) := h.not_mem_ne hb hbh cq.1
    have n6 : b ≠ m.right (m.right e) := h.not_mem_ne hb hbh cq.2.1
    have n7 : b ≠ m.parent (m.right e) := h.not_mem_ne hb hbh cq.2.2
    refine ⟨by rw [gN], ?_, ?_, ?_, ?_, by rw [gV]⟩
    · rw [gP]; simp [n1, n2, n3, n4, n5, n6, n7, hbh]
    · rw [gL]; simp [n1, n2, n3, n4, n5, n6, n7, hbh]
    · rw [gR]; simp [n1, n2, n3, n4, n5, n6, n7, hbh]
    · rw [gH]
  refine ⟨pre ++ l.addrs, (Shape.node Shape.nil (m.right e) rr).addrs ++ post, key.1, key.2,
    ?_, gV, gX, gF, hsame⟩
  rw [g2]; simp [Shape.addrs]

/-- Erasing a node whose left child has no right child: the left child takes
its place. -/
theorem unlinkInner_left_direct_inv {comp : K → K → Bool} {m : TreeMem K V} {t : TreeValue}
    {L : List Nat} (h : TreeInv comp m t L) {e : Nat} (he : e ∈ L)
    (hlr : m.is_nil (m.left e) = false) (hlrn : m.is_nil (m.right (m.left e)) = true) :
    ∃ A B, L = A ++ e :: B ∧
      TreeInv comp (unlinkInner m t.head e (m.left e)).1 { t with size := t.size - 1 }
        (A ++ B) ∧
      (unlinkInner m t.head e (m.left e)).2 ∈ A ++ B ∧
      (unlinkInner m t.head e (m.left e)).1.value = m.value ∧
      (unlinkInner m t.head e (m.left e)).1.next = m.next ∧
      (unlinkInner m t.head e (m.left e)).1.freed = m.freed ∧
      ∀ b, b ∉ L → b ≠ t.head → SameNode m (unlinkInner m t.head e (m.left e)).1 b := by
  obtain ⟨l, r, pre, post, hL, hrep, hppn, hroot, hlink, hcont⟩ := h.zoom he
  have hrep' := hrep
  obtain ⟨-, hn, -, hl, hrr⟩ := hrep
  rcases Rep.root l _ _ hl with ⟨-, hx⟩ | ⟨ll, lr, rfl⟩
  · rw [hx, h.head_nil] at hlr; exact absurd hlr (by simp)
  have hl' := hl
  obtain ⟨-, hnq, hpq, hll, hlr2⟩ := hl
  obtain ⟨rfl, hrq0⟩ := Rep.nil_of_is_nil lr _ _ hlrn hlr2
  have hnd := nodup_mid_disjoint (hL ▸ h.nodup)
  have hhead := Rep.head_not_mem h.head_nil _ _ _ hrep'
  simp only [Shape.addrs, List.nil_append, List.append_nil, List.mem_append, List.mem_cons,
    List.mem_singleton, List.not_mem_nil, or_false, not_or] at hhead hppn
  have hnd1 := nodup_around (show ((ll.addrs ++ [m.left e]) ++ e :: r.addrs).Nodup by
    simpa [Shape.addrs] using hnd.1)
  have hnd2 := nodup_around (show (ll.addrs ++ m.left e :: []).Nodup from hnd1.2.2.2.1)
  have her : e ∉ r.addrs := hnd1.2.1
  have hqe : m.left e ≠ e := by
    intro hc; exact hnd1.1 (by rw [hc]; simp)
  have hqr : m.left e ∉ r.addrs := fun hc => hnd1.2.2.1 _ (by simp) hc
  have hqll : m.left e ∉ ll.addrs := hnd2.1
  have hell : e ∉ ll.addrs := fun hc => hnd1.1 (by simp [hc])
  have hllr : ∀ a ∈ ll.addrs, a ∉ r.addrs := fun a ha hc => hnd1.2.2.1 a (by simp [ha]) hc
  have hrroot := Rep.root_in r _ _ hrr
  have heh : e ≠ t.head := Ne.symm hhead.2.1
  have hqh : m.left e ≠ t.head := Ne.symm hhead.1.2
  have hre : m.right e ≠ e := by
    rcases hrroot with h1 | h1
    · rw [h1]; exact Ne.symm heh
    · intro hc; exact her (hc ▸ h1)
  have hrq : m.right e ≠ m.left e := by
    rcases hrroot with h1 | h1
    · rw [h1]; exact Ne.symm hqh
    · intro hc; exact hqr (hc ▸ h1)
  have hrh : m.is_nil (m.right e) = false → m.right e ∈ r.addrs := by
    intro hc
    rcases hrroot with h1 | h1
    · rw [h1, h.head_nil] at hc; exact absurd hc (by simp)
    · exact h1
  have hpph : m.is_nil (m.parent e) = false → t.head ≠ m.parent e := by
    intro hc hc2; rw [← hc2, h.head_nil] at hc; simp at hc
  obtain ⟨g2, gN, gV, gX, gF, gH, gP, gL, gR⟩ :=
    unlinkInner_left_direct h.head_nil hpq rfl heh hqh hqe hppn.2.1 hppn.1.2 hre
  have hu : Rep (unlinkInner m t.head e (m.left e)).1 t.head
      (Shape.node ll (m.left e) r) (m.parent e) (m.left e) := by
    refine ⟨rfl, by rw [gN]; exact hnq, by rw [gP]; simp, ?_, ?_⟩
    · have e1 : (unlinkInner m t.head e (m.left e)).1.left (m.left e) =
          m.left (m.left e) := by
        rw [gL]; simp [hqh, Ne.symm hppn.1.2]
      rw [e1]
      refine Rep.frame_links ll _ _ hll ?_
      intro a ha
      have hah : a ≠ t.head := fun hc => hhead.1.1 (hc ▸ ha)
      have haq : a ≠ m.left e := fun hc => hqll (hc ▸ ha)
      have hap : a ≠ m.parent e := fun hc => hppn.1.1 (hc ▸ ha)
      have har : m.is_nil (m.right e) = false → a ≠ m.right e := by
        intro hc hc2
        exact hllr _ ha (hc2 ▸ hrh hc)
      refine ⟨by rw [gN], ?_, ?_, ?_⟩
      · rw [gP]; simp only [haq, hah, if_false, and_false]
        by_cases hc : m.is_nil (m.right e) = false
        · simp [har hc]
        · simp [hc]
      · rw [gL]; simp [hah, hap]
      · rw [gR]; simp [haq, hah, hap]
    · have e1 : (unlinkInner m t.head e (m.left e)).1.right (m.left e) = m.right e := by
        rw [gR]; simp [hqh]
      rw [e1]
      refine Rep.reparent r e (m.left e) (m.right e) hrr ?_ ?_ hnd1.2.2.2.2
      · intro a ha
        have hah : a ≠ t.head := fun hc => hhead.2.2 (hc ▸ ha)
        have haq : a ≠ m.left e := fun hc => hqr (hc ▸ ha)
        have hap : a ≠ m.parent e := fun hc => hppn.2.2 (hc ▸ ha)
        refine ⟨by rw [gN], ?_, ?_, ?_⟩
        · intro hax
          rw [gP]; simp [haq, hax, hah]
        · rw [gL]; simp [hah, hap]
        · rw [gR]; simp [haq, hah, hap]
      · intro hmem
        have := Rep.real_node r _ _ hrr _ hmem
        rw [gP]; simp [hrq, this]
  have hout : ∀ b ∈ pre ++ post, b ≠ t.head ∧ b ≠ m.left e ∧
      (m.is_nil (m.right e) = false → b ≠ m.right e) := by
    intro b hb
    have h1 := hnd.2.2 b hb
    simp only [Shape.addrs, List.nil_append, List.append_nil, List.mem_append, List.mem_cons,
      List.mem_singleton, List.not_mem_nil, or_false, not_or] at h1
    refine ⟨h.ne_head (h.mem_split hL hb), h1.1.2, ?_⟩
    intro hc hc2
    exact h1.2.2 (hc2 ▸ hrh hc)
  have key := inner_outer_inv h hL hroot hlink hcont hu
    (by simp [Shape.addrs]) (by intro hc; simp [Shape.addrs] at hc)
    (by intro _; simp [Shape.addrs])
    (by simp [Shape.addrs]) gN gV gX (by rw [gH]; exact h.head_height)
    (by intro b hb; rw [gH]; exact h.height_pos b hb)
    (by
      intro b hb
      obtain ⟨o1, o2, o3⟩ := hout b hb
      rw [gP]; simp only [o1, o2, if_false, and_false]
      by_cases hc : m.is_nil (m.right e) = false
      · simp [o3 hc]
      · simp [hc])
    (by
      intro b hb
      obtain ⟨o1, o2, o3⟩ := hout b hb
      rw [gL]; simp [o1])
    (by
      intro b hb
      obtain ⟨o1, o2, o3⟩ := hout b hb
      rw [gR]; simp [o1, o2])
    (by
      rw [gP]; simp only [Ne.symm hqh, if_false]
      by_cases hc : m.is_nil (m.right e) = false
      · have : t.head ≠ m.right e := by
          intro hc2; rw [← hc2, h.head_nil] at hc; simp at hc
        simp [this]
      · simp [hc])
    (by
      rw [gL]; simp only [and_true]
      by_cases hc : m.is_nil (m.parent e) = false
      · simp [hpph hc]
      · simp [hc])
    (by
      rw [gR]; simp only [Ne.symm hqh, and_true, if_false]
      by_cases hc : m.is_nil (m.parent e) = false
      · simp [hpph hc]
      · simp [hc])
  have hsame : ∀ b, b ∉ L → b ≠ t.head → SameNode m (unlinkInner m t.head e (m.left e)).1 b := by
    intro b hb hbh
    have hqL : (m.left e) ∈ L := by
      rcases h.closed (Or.inl he) with ⟨h1 | h1, -, -⟩
      · exact h1
      · rw [h1, h.head_nil] at hlr; exact absurd hlr (by simp)
    have ce := h.closed (Or.inl he)
    have cq := h.closed (Or.inl hqL)
    have n1 : b ≠ (m.left e) := h.not_mem_ne hb hbh (Or.inl hqL)
    have n2 : b ≠ m.left e := h.not_mem_ne hb hbh ce.1
    have n3 : b ≠ m.right e := h.not_mem_ne hb hbh ce.2.1
    have n4 : b ≠ m.parent e := h.not_mem_ne hb hbh ce.2.2
    have n5 : b ≠ m.left (m.left e) := h.not_mem_ne hb hbh cq.1
    have n6 : b ≠ m.right (m.left e) := h.not_mem_ne hb hbh cq.2.1
    have n7 : b ≠ m.parent (m.left e) := h.not_mem_ne hb hbh cq.2.2
    refine ⟨by rw [gN], ?_, ?_, ?_, ?_, by rw [gV]⟩
    · rw [gP]; simp [n1, n2, n3, n4, n5, n6, n7, hbh]
    · rw [gL]; simp [n1, n2, n3, n4, n5, n6, n7, hbh]
    · rw [gR]; simp [n1, n2, n3, n4, n5, n6, n7, hbh]
    · rw [gH]
  refine ⟨pre ++ (Shape.node ll (m.left e) Shape.nil).addrs, r.addrs ++ post, key.1, key.2,
    ?_, gV, gX, gF, hsame⟩
  rw [g2]; simp [Shape.addrs]

/-- Removing the leftmost node of a subtree (which is not its root): its right
child is hung in its place. -/
theorem Rep.remove_min {m : TreeMem K V} {head : Nat} (hnil : m.is_nil head = true) (q : Nat) :
    ∀ (s : Shape) (par x : Nat) (rest : List Nat), Rep m head s par x → s.addrs.Nodup →
      s.addrs = q :: rest → q ≠ x →
      m.parent q ∈ rest ∧ m.left (m.parent q) = q ∧
      (m.right q = head ∨ m.right q ∈ rest) ∧ m.right q ≠ x ∧ m.right q ≠ m.parent q ∧
      ∀ (m' : TreeMem K V) (par' : Nat),
        (∀ a ∈ rest, m'.is_nil a = m.is_nil a ∧
          (a ≠ x → m'.parent a =
            if m.is_nil (m.right q) = false ∧ a = m.right q then m.parent q else m.parent a) ∧
          m'.left a = (if a = m.parent q then m.right q else m.left a) ∧
          m'.right a = m.right a) →
        m'.parent x = par' →
        ∃ s', Rep m' head s' par' x ∧ s'.addrs = rest
  | Shape.nil, _, _, _, _, _, hs, _ => by simp [Shape.addrs] at hs
  | Shape.node l p r, par, x, rest, h, hnd, hs, hqx => by
    obtain ⟨hx, hn, hp, hl, hr⟩ := h
    subst hx
    have hxh : x ≠ head := by
      intro hc; rw [hc, hnil] at hn; exact absurd hn (by simp)
    cases l with
    | nil =>
      simp only [Shape.addrs, List.nil_append, List.cons.injEq] at hs
      exact absurd hs.1.symm hqx
    | node ll lp lr =>
      have hl' := hl
      obtain ⟨hlx, hnl, hpl, hll, hlr⟩ := hl
      have hnd0 := nodup_around (show ((Shape.node ll lp lr).addrs ++ x :: r.addrs).Nodup from hnd)
      have hnd1 := nodup_around (show (ll.addrs ++ lp :: lr.addrs).Nodup from hnd0.2.2.2.1)
      have hrroot := Rep.root_in r _ _ hr
      have hlrroot := Rep.root_in lr _ _ hlr
      by_cases hq : q = lp
      · -- the leftmost node is the left child of the root
        subst hq
        have hll0 : ll = Shape.nil := by
          apply Shape.addrs_eq_nil
          cases hX : ll.addrs with
          | nil => rfl
          | cons c X =>
            simp only [Shape.addrs, hX, List.cons_append, List.append_assoc,
              List.cons.injEq] at hs
            exact absurd (by rw [hX, hs.1]; simp) hnd1.1
        subst hll0
        have hrest : rest = lr.addrs ++ x :: r.addrs := by
          simp only [Shape.addrs, List.nil_append, List.cons_append, List.cons.injEq,
            true_and] at hs
          exact hs.symm
        have hxlr : x ∉ lr.addrs := fun hc => hnd0.1 (by simp [Shape.addrs, hc])
        have hqr1 : m.right q ≠ x := by
          rcases hlrroot with h1 | h1
          · rw [h1]; exact Ne.symm hxh
          · intro hc; exact hxlr (hc ▸ h1)
        refine ⟨by rw [hpl, hrest]; simp, by rw [hpl]; exact hlx, ?_, hqr1,
          by rw [hpl]; exact hqr1, ?_⟩
        · rcases hlrroot with h1 | h1
          · exact Or.inl h1
          · exact Or.inr (by rw [hrest]; simp [h1])
        · intro m' par' hf hpar
          rw [hpl] at hf
          have hfx := hf x (by rw [hrest]; simp)
          refine ⟨Shape.node lr x r, ⟨rfl, by rw [hfx.1]; exact hn, hpar, ?_, ?_⟩,
            by rw [hrest]; rfl⟩
          · rw [hfx.2.2.1, if_pos rfl]
            refine Rep.reparent lr q x (m.right q) hlr ?_ ?_ hnd1.2.2.2.2
            · intro a ha
              have hax : a ≠ x := fun hc => hxlr (hc ▸ ha)
              obtain ⟨f1, f2, f3, f4⟩ := hf a (by rw [hrest]; simp [ha])
              refine ⟨f1, ?_, by rw [f3, if_neg hax], f4⟩
              intro har
              rw [f2 hax]; simp [har]
            · intro hmem
              have hax : m.right q ≠ x := hqr1
              obtain ⟨f1, f2, f3, f4⟩ := hf (m.right q) (by rw [hrest]; simp [hmem])
              rw [f2 hax]
              simp [Rep.real_node lr _ _ hlr _ hmem]
          · rw [hfx.2.2.2]
            refine Rep.frame_links r _ _ hr ?_
            intro a ha
            have hax : a ≠ x := fun hc => hnd0.2.1 (hc ▸ ha)
            have har : a ≠ m.right q := by
              rcases hlrroot with h1 | h1
              · rw [h1]; intro hc; exact Rep.head_not_mem hnil _ _ _ hr (hc ▸ ha)
              · intro hc
                exact hnd0.2.2.1 a (by simp [Shape.addrs, hc, h1]) ha
            obtain ⟨f1, f2, f3, f4⟩ := hf a (by rw [hrest]; simp [ha])
            exact ⟨f1, by rw [f2 hax]; simp [har], by rw [f3, if_neg hax], f4⟩
      · -- the leftmost node lies deeper in the left subtree
        obtain ⟨restl, hrl⟩ : ∃ restl, (Shape.node ll lp lr).addrs = q :: restl := by
          cases hX : (Shape.node ll lp lr).addrs with
          | nil => simp [Shape.addrs] at hX
          | cons c X =>
            simp only [Shape.addrs] at hs hX
            rw [hX] at hs
            simp only [List.cons_append, List.cons.injEq] at hs
            exact ⟨X, by rw [hs.1]⟩
        have hrest : rest = restl ++ x :: r.addrs := by
          have : (Shape.node (Shape.node ll lp lr) x r).addrs =
              (Shape.node ll lp lr).addrs ++ x :: r.addrs := rfl
          rw [this, hrl] at hs
          simp only [List.cons_append, List.cons.injEq, true_and] at hs
          exact hs.symm
        obtain ⟨i1, i2, i3, i4, i5, icont⟩ :=
          Rep.remove_min hnil q (Shape.node ll lp lr) x lp restl (hlx ▸ hl') hnd0.2.2.2.1 hrl hq
        have hsub : ∀ a ∈ restl, a ∈ (Shape.node ll lp lr).addrs := by
          intro a ha; rw [hrl]; simp [ha]
        have hxl : x ∉ (Shape.node ll lp lr).addrs := hnd0.1
        have hrqx : m.right q ≠ x := by
          rcases i3 with h1 | h1
          · rw [h1]; exact Ne.symm hxh
          · intro hc; exact hxl (hsub _ (hc ▸ h1))
        have hpqx : x ≠ m.parent q := fun hc => hxl (hsub _ (hc ▸ i1))
        have hlpmem : lp ∈ restl := by
          have : lp ∈ (Shape.node ll lp lr).addrs := by simp [Shape.addrs]
          rw [hrl] at this
          rcases List.mem_cons.1 this with h1 | h1
          · exact absurd h1.symm hq
          · exact h1
        have hlpx : lp ≠ x := fun hc => hxl (by rw [← hc]; simp [Shape.addrs])
        refine ⟨by rw [hrest]; simp [i1], i2, ?_, hrqx, i5, ?_⟩
        · rcases i3 with h1 | h1
          · exact Or.inl h1
          · exact Or.inr (by rw [hrest]; simp [h1])
        · intro m' par' hf hpar
          have hfx := hf x (by rw [hrest]; simp)
          obtain ⟨l', hl'rep, hl'a⟩ := icont m' x (by
            intro a ha
            have hax : a ≠ x := fun hc => hxl (hsub _ (hc ▸ ha))
            obtain ⟨f1, f2, f3, f4⟩ := hf a (by rw [hrest]; simp [ha])
            exact ⟨f1, fun _ => f2 hax, f3, f4⟩) (by
            obtain ⟨f1, f2, f3, f4⟩ := hf lp (by rw [hrest]; simp [hlpmem])
            rw [f2 hlpx, if_neg (fun hc => i4 hc.2.symm)]
            exact hpl)
          refine ⟨Shape.node l' x r, ⟨rfl, by rw [hfx.1]; exact hn, hpar, ?_, ?_⟩,
            by rw [hrest]; simp [Shape.addrs, hl'a]⟩
          · rw [hfx.2.2.1, if_neg hpqx, hlx]
            exact hl'rep
          · rw [hfx.2.2.2]
            refine Rep.frame_links r _ _ hr ?_
            intro a ha
            have hax : a ≠ x := fun hc => hnd0.2.1 (hc ▸ ha)
            have har : a ≠ m.right q := by
              rcases i3 with h1 | h1
              · rw [h1]; intro hc; exact Rep.head_not_mem hnil _ _ _ hr (hc ▸ ha)
              · intro hc
                exact hnd0.2.2.1 a (hsub _ (hc ▸ h1)) ha
            have hap : a ≠ m.parent q := fun hc => hnd0.2.2.1 a (hsub _ (hc ▸ i1)) ha
            obtain ⟨f1, f2, f3, f4⟩ := hf a (by rw [hrest]; simp [ha])
            exact ⟨f1, by rw [f2 hax]; simp [har], by rw [f3, if_neg hap], f4⟩

theorem snoc_inj {X Y : List Nat} {a b : Nat} (h : X ++ [a] = Y ++ [b]) : X = Y ∧ a = b := by
  have := List.append_inj' h rfl
  exact ⟨this.1, by simpa using this.2⟩

/-- Removing the rightmost node of a subtree (which is not its root): its left
child is hung in its place. -/
theorem Rep.remove_max {m : TreeMem K V} {head : Nat} (hnil : m.is_nil head = true) (q : Nat) :
    ∀ (s : Shape) (par x : Nat) (rest : List Nat), Rep m head s par x → s.addrs.Nodup →
      s.addrs = rest ++ [q] → q ≠ x →
      m.parent q ∈ rest ∧ m.right (m.parent q) = q ∧ m.left (m.parent q) ≠ q ∧
      (m.left q = head ∨ m.left q ∈ rest) ∧ m.left q ≠ x ∧ m.left q ≠ m.parent q ∧
      ∀ (m' : TreeMem K V) (par' : Nat),
        (∀ a ∈ rest, m'.is_nil a = m.is_nil a ∧
          (a ≠ x → m'.parent a =
            if m.is_nil (m.left q) = false ∧ a = m.left q then m.parent q else m.parent a) ∧
          m'.left a = m.left a ∧
          m'.right a = (if a = m.parent q then m.left q else m.right a)) →
        m'.parent x = par' →
        ∃ s', Rep m' head s' par' x ∧ s'.addrs = rest
  | Shape.nil, _, _, _, _, _, hs, _ => by simp [Shape.addrs] at hs
  | Shape.node l p r, par, x, rest, h, hnd, hs, hqx => by
    obtain ⟨hx, hn, hp, hl, hr⟩ := h
    subst hx
    have hxh : x ≠ head := by
      intro hc; rw [hc, hnil] at hn; exact absurd hn (by simp)
    have hqh : q ≠ head := by
      have hq : q ∈ (Shape.node l x r).addrs := by rw [hs]; simp
      intro hc
      exact Rep.head_not_mem hnil (Shape.node l x r) par x ⟨rfl, hn, hp, hl, hr⟩ (hc ▸ hq)
    cases r with
    | nil =>
      have : l.addrs ++ [x] = rest ++ [q] := by simpa [Shape.addrs] using hs
      exact absurd (snoc_inj this).2.symm hqx
    | node rl rp rr =>
      have hr' := hr
      obtain ⟨hrx, hnr, hpr, hrl, hrr⟩ := hr
      have hnd0 := nodup_around (show (l.addrs ++ x :: (Shape.node rl rp rr).addrs).Nodup from hnd)
      have hnd1 := nodup_around (show (rl.addrs ++ rp :: rr.addrs).Nodup from hnd0.2.2.2.2)
      have hlroot := Rep.root_in l _ _ hl
      have hrlroot := Rep.root_in rl _ _ hrl
      obtain ⟨restr, hrr0, hrest⟩ : ∃ restr, (Shape.node rl rp rr).addrs = restr ++ [q] ∧
          rest = l.addrs ++ x :: restr := by
        rcases List.eq_nil_or_concat (Shape.node rl rp rr).addrs with hX | ⟨X, c, hX⟩
        · simp [Shape.addrs] at hX
        · rw [List.concat_eq_append] at hX
          have e1 : (Shape.node l x (Shape.node rl rp rr)).addrs =
              l.addrs ++ x :: (Shape.node rl rp rr).addrs := rfl
          rw [e1, hX] at hs
          have e2 : l.addrs ++ x :: (X ++ [c]) = (l.addrs ++ x :: X) ++ [c] := by simp
          rw [e2] at hs
          obtain ⟨h1, h2⟩ := snoc_inj hs
          exact ⟨X, by rw [hX, h2], h1.symm⟩
      have hxr : x ∉ (Shape.node rl rp rr).addrs := hnd0.2.1
      have hlqleft : m.left x ≠ q := by
        have hq : q ∈ (Shape.node rl rp rr).addrs := by rw [hrr0]; simp
        rcases hlroot with h1 | h1
        · rw [h1]; exact Ne.symm hqh
        · intro hc; exact hnd0.2.2.1 _ h1 (hc ▸ hq)
      by_cases hq : q = rp
      · subst hq
        have hrr1 : rr = Shape.nil := by
          apply Shape.addrs_eq_nil
          rcases List.eq_nil_or_concat rr.addrs with hX | ⟨X, c, hX⟩
          · exact hX
          · rw [List.concat_eq_append] at hX
            have e1 : (Shape.node rl q rr).addrs = (rl.addrs ++ q :: X) ++ [c] := by
              simp [Shape.addrs, hX]
            rw [e1] at hrr0
            have := (snoc_inj hrr0).2
            exact absurd (by rw [hX, this]; simp) hnd1.2.1
        subst hrr1
        have hrestr : restr = rl.addrs := by
          have e1 : (Shape.node rl q Shape.nil).addrs = rl.addrs ++ [q] := by
            simp [Shape.addrs]
          rw [e1] at hrr0
          exact (snoc_inj hrr0).1.symm
        subst hrestr
        have hxrl : x ∉ rl.addrs := fun hc => hxr (by simp [Shape.addrs, hc])
        have hql1 : m.left q ≠ x := by
          rcases hrlroot with h1 | h1
          · rw [h1]; exact Ne.symm hxh
          · intro hc; exact hxrl (hc ▸ h1)
        refine ⟨by rw [hpr, hrest]; simp, by rw [hpr]; exact hrx, by rw [hpr]; exact hlqleft, ?_,
          hql1, by rw [hpr]; exact hql1, ?_⟩
        · rcases hrlroot with h1 | h1
          · exact Or.inl h1
          · exact Or.inr (by rw [hrest]; simp [h1])
        · intro m' par' hf hpar
          rw [hpr] at hf
          have hfx := hf x (by rw [hrest]; simp)
          refine ⟨Shape.node l x rl, ⟨rfl, by rw [hfx.1]; exact hn, hpar, ?_, ?_⟩,
            by rw [hrest]; rfl⟩
          · rw [hfx.2.2.1]
            refine Rep.frame_links l _ _ hl ?_
            intro a ha
            have hax : a ≠ x := fun hc => hnd0.1 (hc ▸ ha)
            have hal : a ≠ m.left q := by
              rcases hrlroot with h1 | h1
              · rw [h1]; intro hc; exact Rep.head_not_mem hnil _ _ _ hl (hc ▸ ha)
              · intro hc
                exact hnd0.2.2.1 a ha (by
                  simp only [Shape.addrs, List.mem_append, List.mem_cons]
                  exact Or.inl (hc ▸ h1))
            obtain ⟨f1, f2, f3, f4⟩ := hf a (by rw [hrest]; simp [ha])
            exact ⟨f1, by rw [f2 hax]; simp [hal], f3, by rw [f4, if_neg hax]⟩
          · rw [hfx.2.2.2, if_pos rfl]
            refine Rep.reparent rl q x (m.left q) hrl ?_ ?_ hnd1.2.2.2.1
            · intro a ha
              have hax : a ≠ x := fun hc => hxrl (hc ▸ ha)
              obtain ⟨f1, f2, f3, f4⟩ := hf a (by rw [hrest]; simp [ha])
              refine ⟨f1, ?_, f3, by rw [f4, if_neg hax]⟩
              intro har
              rw [f2 hax]; simp [har]
            · intro hmem
              obtain ⟨f1, f2, f3, f4⟩ := hf (m.left q) (by rw [hrest]; simp [hmem])
              rw [f2 hql1]
              simp [Rep.real_node rl _ _ hrl _ hmem]
      · obtain ⟨i1, i2, i2', i3, i4, i5, icont⟩ :=
          Rep.remove_max hnil q (Shape.node rl rp rr) x rp restr (hrx ▸ hr') hnd0.2.2.2.2 hrr0 hq
        have hsub : ∀ a ∈ restr, a ∈ (Shape.node rl rp rr).addrs := by
          intro a ha; rw [hrr0]; simp [ha]
        have hlqx : m.left q ≠ x := by
          rcases i3 with h1 | h1
          · rw [h1]; exact Ne.symm hxh
          · intro hc; exact hxr (hsub _ (hc ▸ h1))
        have hpqx : x ≠ m.parent q := fun hc => hxr (hsub _ (hc ▸ i1))
        have hrpmem : rp ∈ restr := by
          have : rp ∈ (Shape.node rl rp rr).addrs := by simp [Shape.addrs]
          rw [hrr0] at this
          rcases List.mem_append.1 this with h1 | h1
          · exact h1
          · exact absurd (List.mem_singleton.1 h1).symm hq
        have hrpx : rp ≠ x := fun hc => hxr (by rw [← hc]; simp [Shape.addrs])
        refine ⟨by rw [hrest]; simp [i1], i2, i2', ?_, hlqx, i5, ?_⟩
        · rcases i3 with h1 | h1
          · exact Or.inl h1
          · exact Or.inr (by rw [hrest]; simp [h1])
        · intro m' par' hf hpar
          have hfx := hf x (by rw [hrest]; simp)
          obtain ⟨r1, hr1rep, hr1a⟩ := icont m' x (by
            intro a ha
            have hax : a ≠ x := fun hc => hxr (hsub _ (hc ▸ ha))
            obtain ⟨f1, f2, f3, f4⟩ := hf a (by rw [hrest]; simp [ha])
            exact ⟨f1, fun _ => f2 hax, f3, f4⟩) (by
            obtain ⟨f1, f2, f3, f4⟩ := hf rp (by rw [hrest]; simp [hrpmem])
            rw [f2 hrpx, if_neg (fun hc => i4 hc.2.symm)]
            exact hpr)
          refine ⟨Shape.node l x r1, ⟨rfl, by rw [hfx.1]; exact hn, hpar, ?_, ?_⟩,
            by rw [hrest]; simp [Shape.addrs, hr1a]⟩
          · rw [hfx.2.2.1]
            refine Rep.frame_links l _ _ hl ?_
            intro a ha
            have hax : a ≠ x := fun hc => hnd0.1 (hc ▸ ha)
            have hal : a ≠ m.left q := by
              rcases i3 with h1 | h1
              · rw [h1]; intro hc; exact Rep.head_not_mem hnil _ _ _ hl (hc ▸ ha)
              · intro hc
                exact hnd0.2.2.1 a ha (hsub _ (hc ▸ h1))
            have hap : a ≠ m.parent q := fun hc => hnd0.2.2.1 a ha (hsub _ (hc ▸ i1))
            obtain ⟨f1, f2, f3, f4⟩ := hf a (by rw [hrest]; simp [ha])
            exact ⟨f1, by rw [f2 hax]; simp [hal], f3, by rw [f4, if_neg hap]⟩
          · rw [hfx.2.2.2, if_neg hpqx, hrx]
            exact hr1rep

/-- Erasing a node whose in-order successor lies deeper than its right child:
the successor is spliced out and takes the place of the erased node. -/
theorem unlinkInner_deep_min_inv {comp : K → K → Bool} {m : TreeMem K V} {t : TreeValue}
    {L : List Nat} (h : TreeInv comp m t L) {e : Nat} (he : e ∈ L)
    (hr : m.is_nil (m.right e) = false) (hrl : m.is_nil (m.left (m.right e)) = false)
    {fuel : Nat} (hf : L.length ≤ fuel) :
    ∃ q, minInSubTree m fuel (m.right e) = some q ∧ ∃ A B, L = A ++ e :: B ∧
      TreeInv comp (unlinkInner m t.head e q).1 { t with size := t.size - 1 } (A ++ B) ∧
      (unlinkInner m t.head e q).2 ∈ A ++ B ∧
      (unlinkInner m t.head e q).1.value = m.value ∧
      (unlinkInner m t.head e q).1.next = m.next ∧
      (unlinkInner m t.head e q).1.freed = m.freed ∧
      ∀ b, b ∉ L → b ≠ t.head → SameNode m (unlinkInner m t.head e q).1 b := by
  obtain ⟨l, r, pre, post, hL, hrep, hppn, hroot, hlink, hcont⟩ := h.zoom he
  have hrep' := hrep
  obtain ⟨-, hn, -, hl, hrr⟩ := hrep
  have hnd := nodup_mid_disjoint (hL ▸ h.nodup)
  have hhead := Rep.head_not_mem h.head_nil _ _ _ hrep'
  have hmem : ∀ a, a ∈ (Shape.node l e r).addrs ↔ a ∈ l.addrs ∨ a = e ∨ a ∈ r.addrs := by
    intro a
    show a ∈ l.addrs ++ e :: r.addrs ↔ _
    simp
  have hnd1 := nodup_around (show (l.addrs ++ e :: r.addrs).Nodup from hnd.1)
  have hrne : r ≠ Shape.nil := by
    intro hc; subst hc
    have : m.right e = t.head := hrr
    rw [this, h.head_nil] at hr; exact absurd hr (by simp)
  have hlen : r.addrs.length ≤ fuel := by
    have := congrArg List.length hL
    simp only [List.length_append, List.length_cons] at this
    omega
  obtain ⟨q, rest, hq, hrest, hlq0⟩ := minInSubTree_spec h.head_nil r e (m.right e) fuel hrr
    hrne hlen
  have hqrc : q ≠ m.right e := by
    intro hc; rw [hc] at hlq0
    rw [hlq0, h.head_nil] at hrl; exact absurd hrl (by simp)
  have hndr : (q :: rest).Nodup := hrest ▸ hnd1.2.2.2.2
  obtain ⟨i1, i2, i3, i4, i5, icont⟩ :=
    Rep.remove_min h.head_nil q r e (m.right e) rest hrr hnd1.2.2.2.2 hrest hqrc
  have hqrest : q ∉ rest := (List.nodup_cons.1 hndr).1
  have hsub : ∀ a ∈ rest, a ∈ r.addrs := by
    intro a ha; rw [hrest]; simp [ha]
  have hqr : q ∈ r.addrs := by rw [hrest]; simp
  have hrcr : m.right e ∈ r.addrs := by
    rcases Rep.root_in r _ _ hrr with h1 | h1
    · rw [h1, h.head_nil] at hr; exact absurd hr (by simp)
    · exact h1
  have hrcrest : m.right e ∈ rest := by
    rw [hrest] at hrcr
    rcases List.mem_cons.1 hrcr with h1 | h1
    · exact absurd h1.symm hqrc
    · exact h1
  have hh1 : t.head ∉ l.addrs := fun hc => hhead ((hmem _).2 (Or.inl hc))
  have hh3 : t.head ∉ r.addrs := fun hc => hhead ((hmem _).2 (Or.inr (Or.inr hc)))
  have heh : e ≠ t.head := fun hc => hhead ((hmem _).2 (Or.inr (Or.inl hc.symm)))
  have hp1 : m.parent e ∉ l.addrs := fun hc => hppn (List.mem_append_left _ hc)
  have hp2 : m.parent e ≠ e := fun hc => hppn (by simp [hc])
  have hp3 : m.parent e ∉ r.addrs := fun hc => hppn (by simp [hc])
  have hel : e ∉ l.addrs := hnd1.1
  have her : e ∉ r.addrs := hnd1.2.1
  have hlr : ∀ a ∈ l.addrs, a ∉ r.addrs := hnd1.2.2.1
  have hlroot := Rep.root_in l _ _ hl
  have hlh : m.is_nil (m.left e) = false → m.left e ∈ l.addrs := by
    intro hc
    rcases hlroot with h1 | h1
    · rw [h1, h.head_nil] at hc; exact absurd hc (by simp)
    · exact h1
  have hqh : q ≠ t.head := fun hc => hh3 (hc ▸ hqr)
  have hqe : q ≠ e := fun hc => her (hc ▸ hqr)
  have hrqh : m.is_nil (m.right q) = false → m.right q ∈ rest := by
    intro hc
    rcases i3 with h1 | h1
    · rw [h1, h.head_nil] at hc; exact absurd hc (by simp)
    · exact h1
  have hlne : ∀ x, x ∈ r.addrs ∨ x = e → m.left e ≠ x := by
    intro x hx
    rcases hlroot with h1 | h1
    · rw [h1]
      rcases hx with hx | hx
      · intro hc; exact hh3 (hc ▸ hx)
      · rw [hx]; exact Ne.symm heh
    · intro hc
      rcases hx with hx | hx
      · exact hlr _ h1 (hc ▸ hx)
      · rw [hc, hx] at h1; exact hel h1
  have hpph : m.is_nil (m.parent e) = false → t.head ≠ m.parent e := by
    intro hc hc2; rw [← hc2, h.head_nil] at hc; simp at hc
  have hrqne : ∀ x, x ∉ rest → x ≠ t.head → m.right q ≠ x := by
    intro x hx hxh
    rcases i3 with h1 | h1
    · rw [h1]; exact Ne.symm hxh
    · intro hc; exact hx (hc ▸ h1)
  have k1 : m.parent q ≠ e := fun hc => her (hc ▸ hsub _ i1)
  have k2 : m.parent q ≠ q := fun hc => hqrest (hc ▸ i1)
  have k3 : m.parent q ≠ t.head := fun hc => hh3 (hc ▸ hsub _ i1)
  have k4 : m.parent e ≠ q := fun hc => hp3 (hc ▸ hqr)
  have k5 : m.parent e ≠ m.parent q := fun hc => hp3 (hc ▸ hsub _ i1)
  have k6 : m.right e ≠ e := fun hc => her (hc ▸ hrcr)
  obtain ⟨g2, gN, gV, gX, gF, gH, gP, gL, gR⟩ :=
    unlinkInner_deep_min h.head_nil k1 i2 heh hqh hqe k2 k3 hp2 k4 k5
      hr (Ne.symm hqrc) k6
      (hlne q (Or.inl hqr)) (hlne e (Or.inr rfl)) (hlne _ (Or.inl (hsub _ i1)))
      (hrqne q hqrest hqh) (hrqne e (fun hc => her (hsub _ hc)) heh)
  have hrestne : ∀ a ∈ rest, a ≠ t.head ∧ a ≠ q ∧ a ≠ m.parent e ∧
      (m.is_nil (m.left e) = false → a ≠ m.left e) := by
    intro a ha
    refine ⟨fun hc => hh3 (hc ▸ hsub _ ha), fun hc => hqrest (hc ▸ ha),
      fun hc => hp3 (hc ▸ hsub _ ha), ?_⟩
    intro hc hc2
    exact hlr _ (hlh hc) (hc2 ▸ hsub _ ha)
  obtain ⟨r1, hr1, hr1a⟩ := icont (unlinkInner m t.head e q).1 q (by
    intro a ha
    obtain ⟨n1, n2, n3, n4⟩ := hrestne a ha
    refine ⟨by rw [gN], ?_, ?_, ?_⟩
    · intro hax
      rw [gP]; simp only [n2, hax, if_false]
      by_cases hc : m.is_nil (m.left e) = false
      · simp [n4 hc, n1]
      · simp [hc, n1]
    · rw [gL]; simp [n1, n2, n3]
    · rw [gR]; simp [n1, n2, n3]) (by
    rw [gP]; simp [Ne.symm hqrc])
  have hu : Rep (unlinkInner m t.head e q).1 t.head (Shape.node l q r1) (m.parent e) q := by
    refine ⟨rfl, by rw [gN]; exact Rep.real_node r _ _ hrr _ hqr, by rw [gP]; simp, ?_, ?_⟩
    · have e1 : (unlinkInner m t.head e q).1.left q = m.left e := by
        rw [gL]; simp [hqh]
      rw [e1]
      refine Rep.reparent l e q (m.left e) hl ?_ ?_ hnd1.2.2.2.1
      · intro a ha
        have hah : a ≠ t.head := fun hc => hh1 (hc ▸ ha)
        have haq : a ≠ q := fun hc => hlr _ ha (hc ▸ hqr)
        have harc : a ≠ m.right e := fun hc => hlr _ ha (hc ▸ hrcr)
        have hap : a ≠ m.parent e := fun hc => hp1 (hc ▸ ha)
        have hapq : a ≠ m.parent q := fun hc => hlr _ ha (hc ▸ hsub _ i1)
        have harq : m.is_nil (m.right q) = false → a ≠ m.right q := by
          intro hc hc2
          exact hlr _ ha (hc2 ▸ hsub _ (hrqh hc))
        refine ⟨by rw [gN], ?_, ?_, ?_⟩
        · intro hax
          rw [gP]; simp only [haq, harc, hax, and_false, if_false]
          by_cases hc : m.is_nil (m.right q) = false
          · simp [harq hc, hah]
          · simp [hc, hah]
        · rw [gL]; simp [haq, hah, hap, hapq]
        · rw [gR]; simp [haq, hah, hap]
      · intro hmem
        have := Rep.real_node l _ _ hl _ hmem
        rw [gP]; simp [hlne q (Or.inl hqr), hlne _ (Or.inl hrcr), this]
    · have e1 : (unlinkInner m t.head e q).1.right q = m.right e := by
        rw [gR]; simp [hqh]
      rw [e1]; exact hr1
  have hout : ∀ b ∈ pre ++ post, b ≠ t.head ∧ b ≠ q ∧ b ≠ m.right e ∧ b ≠ m.parent q ∧
      (m.is_nil (m.left e) = false → b ≠ m.left e) ∧
      (m.is_nil (m.right q) = false → b ≠ m.right q) := by
    intro b hb
    have h1 := hnd.2.2 b hb
    have hbr : b ∉ r.addrs := fun hc => h1 (by simp [hc])
    have hbl : b ∉ l.addrs := fun hc => h1 (by simp [hc])
    refine ⟨h.ne_head (h.mem_split hL hb), fun hc => hbr (hc ▸ hqr), fun hc => hbr (hc ▸ hrcr),
      fun hc => hbr (hc ▸ hsub _ i1), ?_, ?_⟩
    · intro hc hc2
      exact hbl (hc2 ▸ hlh hc)
    · intro hc hc2
      exact hbr (hc2 ▸ hsub _ (hrqh hc))
  have key := inner_outer_inv h hL hroot hlink hcont hu
    (by
      show l.addrs ++ q :: r1.addrs = _
      rw [hr1a, hrest])
    (by intro _; rw [hrest]; rfl) (by intro hc; rw [hrest] at hc; exact absurd hc (by simp))
    (by rw [hrest]; simp) gN gV gX (by rw [gH, if_neg (Ne.symm hqh)]; exact h.head_height)
    (by
      intro b hb; rw [gH]
      by_cases hc : b = q
      · rw [if_pos hc]; exact h.height_pos e he
      · rw [if_neg hc]; exact h.height_pos b hb)
    (by
      intro b hb
      obtain ⟨o1, o2, o3, o4, o5, o6⟩ := hout b hb
      rw [gP]; simp only [o1, o2, o3, if_false, and_false]
      by_cases hc : m.is_nil (m.left e) = false <;>
        by_cases hc2 : m.is_nil (m.right q) = false
      · simp [o5 hc, o6 hc2]
      · simp [o5 hc, hc2]
      · simp [hc, o6 hc2]
      · simp [hc, hc2])
    (by
      intro b hb
      obtain ⟨o1, o2, o3, o4, o5, o6⟩ := hout b hb
      rw [gL]; simp [o1, o2, o4])
    (by
      intro b hb
      obtain ⟨o1, o2, o3, o4, o5, o6⟩ := hout b hb
      rw [gR]; simp [o1, o2])
    (by
      have hrch : t.head ≠ m.right e := fun hc => hh3 (hc ▸ hrcr)
      rw [gP]; simp only [Ne.symm hqh, hrch, if_false]
      have a1 : ¬ (m.is_nil (m.left e) = false ∧ t.head = m.left e) := by
        rintro ⟨hc, hc2⟩; rw [← hc2, h.head_nil] at hc; simp at hc
      have a2 : ¬ (m.is_nil (m.right q) = false ∧ t.head = m.right q) := by
        rintro ⟨hc, hc2⟩; rw [← hc2, h.head_nil] at hc; simp at hc
      rw [if_neg a1, if_neg a2]; simp)
    (by
      have hpqh : t.head ≠ m.parent q := fun hc => hh3 (hc ▸ hsub _ i1)
      rw [gL]; simp only [Ne.symm hqh, hpqh, and_true, if_false]
      by_cases hc : m.is_nil (m.parent e) = false
      · simp [hpph hc]
      · simp [hc])
    (by
      rw [gR]; simp only [Ne.symm hqh, and_true, if_false]
      by_cases hc : m.is_nil (m.parent e) = false
      · simp [hpph hc]
      · simp [hc])
  have hsame : ∀ b, b ∉ L → b ≠ t.head → SameNode m (unlinkInner m t.head e q).1 b := by
    intro b hb hbh
    have hqL : q ∈ L := by rw [hL]; simp [hqr]
    have ce := h.closed (Or.inl he)
    have cq := h.closed (Or.inl hqL)
    have n1 : b ≠ q := h.not_mem_ne hb hbh (Or.inl hqL)
    have n2 : b ≠ m.left e := h.not_mem_ne hb hbh ce.1
    have n3 : b ≠ m.right e := h.not_mem_ne hb hbh ce.2.1
    have n4 : b ≠ m.parent e := h.not_mem_ne hb hbh ce.2.2
    have n5 : b ≠ m.left q := h.not_mem_ne hb hbh cq.1
    have n6 : b ≠ m.right q := h.not_mem_ne hb hbh cq.2.1
    have n7 : b ≠ m.parent q := h.not_mem_ne hb hbh cq.2.2
    refine ⟨by rw [gN], ?_, ?_, ?_, ?_, by rw [gV]⟩
    · rw [gP]; simp [n1, n2, n3, n4, n5, n6, n7, hbh]
    · rw [gL]; simp [n1, n2, n3, n4, n5, n6, n7, hbh]
    · rw [gR]; simp [n1, n2, n3, n4, n5, n6, n7, hbh]
    · rw [gH]; simp [n1]
  refine ⟨q, hq, pre ++ l.addrs, r.addrs ++ post, key.1, key.2, ?_, gV, gX, gF, hsame⟩
  rw [g2]
  exact List.mem_append_right _ (List.mem_append_left _ (hsub _ i1))

/-- Erasing a node whose in-order predecessor lies deeper than its left child:
the predecessor is spliced out and takes the place of the erased node. -/
theorem unlinkInner_deep_max_inv {comp : K → K → Bool} {m : TreeMem K V} {t : TreeValue}
    {L : List Nat} (h : TreeInv comp m t L) {e : Nat} (he : e ∈ L)
    (hlc : m.is_nil (m.left e) = false) (hlcr : m.is_nil (m.right (m.left e)) = false)
    {fuel : Nat} (hf : L.length ≤ fuel) :
    ∃ q, maxInSubTree m fuel (m.left e) = some q ∧ ∃ A B, L = A ++ e :: B ∧
      TreeInv comp (unlinkInner m t.head e q).1 { t with size := t.size - 1 } (A ++ B) ∧
      (unlinkInner m t.head e q).2 ∈ A ++ B ∧
      (unlinkInner m t.head e q).1.value = m.value ∧
      (unlinkInner m t.head e q).1.next = m.next ∧
      (unlinkInner m t.head e q).1.freed = m.freed ∧
      ∀ b, b ∉ L → b ≠ t.head → SameNode m (unlinkInner m t.head e q).1 b := by
  obtain ⟨l, r, pre, post, hL, hrep, hppn, hroot, hlink, hcont⟩ := h.zoom he
  have hrep' := hrep
  obtain ⟨-, hn, -, hl, hrr⟩ := hrep
  have hnd := nodup_mid_disjoint (hL ▸ h.nodup)
  have hhead := Rep.head_not_mem h.head_nil _ _ _ hrep'
  have hmem : ∀ a, a ∈ (Shape.node l e r).addrs ↔ a ∈ l.addrs ∨ a = e ∨ a ∈ r.addrs := by
    intro a
    show a ∈ l.addrs ++ e :: r.addrs ↔ _
    simp
  have hnd1 := nodup_around (show (l.addrs ++ e :: r.addrs).Nodup from hnd.1)
  have hlne0 : l ≠ Shape.nil := by
    intro hc; subst hc
    have : m.left e = t.head := hl
    rw [this, h.head_nil] at hlc; exact absurd hlc (by simp)
  have hlen : l.addrs.length ≤ fuel := by
    have := congrArg List.length hL
    simp only [List.length_append, List.length_cons] at this
    omega
  obtain ⟨q, rest, hq, hrest, hrq0⟩ := maxInSubTree_spec h.head_nil l e (m.left e) fuel hl
    hlne0 hlen
  have hqlc : q ≠ m.left e := by
    intro hc; rw [hc] at hrq0
    rw [hrq0, h.head_nil] at hlcr; exact absurd hlcr (by simp)
  have hndl : (rest ++ [q]).Nodup := hrest ▸ hnd1.2.2.2.1
  obtain ⟨i1, i2, i2', i3, i4, i5, icont⟩ :=
    Rep.remove_max h.head_nil q l e (m.left e) rest hl hnd1.2.2.2.1 hrest hqlc
  have hqrest : q ∉ rest := fun hc => (List.nodup_append.1 hndl).2.2 hc (by simp)
  have hsub : ∀ a ∈ rest, a ∈ l.addrs := by
    intro a ha; rw [hrest]; simp [ha]
  have hql : q ∈ l.addrs := by rw [hrest]; simp
  have hlcl : m.left e ∈ l.addrs := by
    rcases Rep.root_in l _ _ hl with h1 | h1
    · rw [h1, h.head_nil] at hlc; exact absurd hlc (by simp)
    · exact h1
  have hh1 : t.head ∉ l.addrs := fun hc => hhead ((hmem _).2 (Or.inl hc))
  have hh3 : t.head ∉ r.addrs := fun hc => hhead ((hmem _).2 (Or.inr (Or.inr hc)))
  have heh : e ≠ t.head := fun hc => hhead ((hmem _).2 (Or.inr (Or.inl hc.symm)))
  have hp1 : m.parent e ∉ l.addrs := fun hc => hppn (List.mem_append_left _ hc)
  have hp2 : m.parent e ≠ e := fun hc => hppn (by simp [hc])
  have hp3 : m.parent e ∉ r.addrs := fun hc => hppn (by simp [hc])
  have hel : e ∉ l.addrs := hnd1.1
  have her : e ∉ r.addrs := hnd1.2.1
  have hlr : ∀ a ∈ l.addrs, a ∉ r.addrs := hnd1.2.2.1
  have hrroot := Rep.root_in r _ _ hrr
  have hrh : m.is_nil (m.right e) = false → m.right e ∈ r.addrs := by
    intro hc
    rcases hrroot with h1 | h1
    · rw [h1, h.head_nil] at hc; exact absurd hc (by simp)
    · exact h1
  have hqh : q ≠ t.head := fun hc => hh1 (hc ▸ hql)
  have hqe : q ≠ e := fun hc => hel (hc ▸ hql)
  have hlqh : m.is_nil (m.left q) = false → m.left q ∈ rest := by
    intro hc
    rcases i3 with h1 | h1
    · rw [h1, h.head_nil] at hc; exact absurd hc (by simp)
    · exact h1
  have hrne : ∀ x, x ∈ l.addrs ∨ x = e → m.right e ≠ x := by
    intro x hx
    rcases hrroot with h1 | h1
    · rw [h1]
      rcases hx with hx | hx
      · intro hc; exact hh1 (hc ▸ hx)
      · rw [hx]; exact Ne.symm heh
    · intro hc
      rcases hx with hx | hx
      · exact hlr _ hx (hc ▸ h1)
      · rw [hc, hx] at h1; exact her h1
  have hpph : m.is_nil (m.parent e) = false → t.head ≠ m.parent e := by
    intro hc hc2; rw [← hc2, h.head_nil] at hc; simp at hc
  have hlqne : ∀ x, x ∉ rest → x ≠ t.head → m.left q ≠ x := by
    intro x hx hxh
    rcases i3 with h1 | h1
    · rw [h1]; exact Ne.symm hxh
    · intro hc; exact hx (hc ▸ h1)
  have k1 : m.parent q ≠ e := fun hc => hel (hc ▸ hsub _ i1)
  have k2 : m.parent q ≠ q := fun hc => hqrest (hc ▸ i1)
  have k3 : m.parent q ≠ t.head := fun hc => hh1 (hc ▸ hsub _ i1)
  have k4 : m.parent e ≠ q := fun hc => hp1 (hc ▸ hql)
  have k5 : m.parent e ≠ m.parent q := fun hc => hp1 (hc ▸ hsub _ i1)
  have k6 : m.left e ≠ e := fun hc => hel (hc ▸ hlcl)
  obtain ⟨g2, gN, gV, gX, gF, gH, gP, gL, gR⟩ :=
    unlinkInner_deep_max h.head_nil k1 i2' heh hqh hqe k2 k3 hp2 k4 k5
      hlc (Ne.symm hqlc) k6
      (hrne q (Or.inl hql)) (hrne e (Or.inr rfl)) (hrne _ (Or.inl (hsub _ i1)))
      (hlqne q hqrest hqh) (hlqne e (fun hc => hel (hsub _ hc)) heh)
  have hrestne : ∀ a ∈ rest, a ≠ t.head ∧ a ≠ q ∧ a ≠ m.parent e ∧
      (m.is_nil (m.right e) = false → a ≠ m.right e) := by
    intro a ha
    refine ⟨fun hc => hh1 (hc ▸ hsub _ ha), fun hc => hqrest (hc ▸ ha),
      fun hc => hp1 (hc ▸ hsub _ ha), ?_⟩
    intro hc hc2
    exact hlr _ (hsub _ ha) (hc2 ▸ hrh hc)
  obtain ⟨l1, hl1, hl1a⟩ := icont (unlinkInner m t.head e q).1 q (by
    intro a ha
    obtain ⟨n1, n2, n3, n4⟩ := hrestne a ha
    refine ⟨by rw [gN], ?_, ?_, ?_⟩
    · intro hax
      rw [gP]; simp only [n2, hax, if_false]
      by_cases hc : m.is_nil (m.right e) = false
      · simp [n4 hc, n1]
      · simp [hc, n1]
    · rw [gL]; simp [n1, n2, n3]
    · rw [gR]; simp [n1, n2, n3]) (by
    rw [gP]; simp only [Ne.symm hqlc, if_false]
    by_cases hc : m.is_nil (m.right e) = false
    · simp [Ne.symm (hrne _ (Or.inl hlcl))]
    · simp [hc])
  have hu : Rep (unlinkInner m t.head e q).1 t.head (Shape.node l1 q r) (m.parent e) q := by
    refine ⟨rfl, by rw [gN]; exact Rep.real_node l _ _ hl _ hql, by rw [gP]; simp, ?_, ?_⟩
    · have e1 : (unlinkInner m t.head e q).1.left q = m.left e := by
        rw [gL]; simp [hqh]
      rw [e1]; exact hl1
    · have e1 : (unlinkInner m t.head e q).1.right q = m.right e := by
        rw [gR]; simp [hqh]
      rw [e1]
      refine Rep.reparent r e q (m.right e) hrr ?_ ?_ hnd1.2.2.2.2
      · intro a ha
        have hah : a ≠ t.head := fun hc => hh3 (hc ▸ ha)
        have haq : a ≠ q := fun hc => hlr _ hql (hc ▸ ha)
        have halc : a ≠ m.left e := fun hc => hlr _ hlcl (hc ▸ ha)
        have hap : a ≠ m.parent e := fun hc => hp3 (hc ▸ ha)
        have hapq : a ≠ m.parent q := fun hc => hlr _ (hsub _ i1) (hc ▸ ha)
        have halq : m.is_nil (m.left q) = false → a ≠ m.left q := by
          intro hc hc2
          exact hlr _ (hsub _ (hlqh hc)) (hc2 ▸ ha)
        refine ⟨by rw [gN], ?_, ?_, ?_⟩
        · intro hax
          rw [gP]; simp only [haq, halc, hax, and_false, if_false]
          by_cases hc : m.is_nil (m.left q) = false
          · simp [halq hc, hah]
          · simp [hc, hah]
        · rw [gL]; simp [haq, hah, hap]
        · rw [gR]; simp [haq, hah, hap, hapq]
      · intro hmem
        have := Rep.real_node r _ _ hrr _ hmem
        rw [gP]; simp [hrne q (Or.inl hql), this]
  have hout : ∀ b ∈ pre ++ post, b ≠ t.head ∧ b ≠ q ∧ b ≠ m.left e ∧ b ≠ m.parent q ∧
      (m.is_nil (m.right e) = false → b ≠ m.right e) ∧
      (m.is_nil (m.left q) = false → b ≠ m.left q) := by
    intro b hb
    have h1 := hnd.2.2 b hb
    have hbr : b ∉ r.addrs := fun hc => h1 (by simp [hc])
    have hbl : b ∉ l.addrs := fun hc => h1 (by simp [hc])
    refine ⟨h.ne_head (h.mem_split hL hb), fun hc => hbl (hc ▸ hql), fun hc => hbl (hc ▸ hlcl),
      fun hc => hbl (hc ▸ hsub _ i1), ?_, ?_⟩
    · intro hc hc2
      exact hbr (hc2 ▸ hrh hc)
    · intro hc hc2
      exact hbl (hc2 ▸ hsub _ (hlqh hc))
  have key := inner_outer_inv h hL hroot hlink hcont hu
    (by
      show l1.addrs ++ q :: r.addrs = _
      rw [hl1a, hrest]; simp)
    (by intro hc; rw [hrest] at hc; exact absurd hc (by simp))
    (by intro _; rw [hrest]; simp)
    (by rw [hrest]; simp) gN gV gX (by rw [gH, if_neg (Ne.symm hqh)]; exact h.head_height)
    (by
      intro b hb; rw [gH]
      by_cases hc : b = q
      · rw [if_pos hc]; exact h.height_pos e he
      · rw [if_neg hc]; exact h.height_pos b hb)
    (by
      intro b hb
      obtain ⟨o1, o2, o3, o4, o5, o6⟩ := hout b hb
      rw [gP]; simp only [o1, o2, o3, if_false, and_false]
      by_cases hc : m.is_nil (m.right e) = false <;>
        by_cases hc2 : m.is_nil (m.left q) = false
      · simp [o5 hc, o6 hc2]
      · simp [o5 hc, hc2]
      · simp [hc, o6 hc2]
      · simp [hc, hc2])
    (by
      intro b hb
      obtain ⟨o1, o2, o3, o4, o5, o6⟩ := hout b hb
      rw [gL]; simp [o1, o2])
    (by
      intro b hb
      obtain ⟨o1, o2, o3, o4, o5, o6⟩ := hout b hb
      rw [gR]; simp [o1, o2, o4])
    (by
      have hlch : t.head ≠ m.left e := fun hc => hh1 (hc ▸ hlcl)
      rw [gP]; simp only [Ne.symm hqh, hlch, if_false]
      have a1 : ¬ (m.is_nil (m.right e) = false ∧ t.head = m.right e) := by
        rintro ⟨hc, hc2⟩; rw [← hc2, h.head_nil] at hc; simp at hc
      have a2 : ¬ (m.is_nil (m.left q) = false ∧ t.head = m.left q) := by
        rintro ⟨hc, hc2⟩; rw [← hc2, h.head_nil] at hc; simp at hc
      rw [if_neg a1, if_neg a2]; simp)
    (by
      rw [gL]; simp only [Ne.symm hqh, and_true, if_false]
      by_cases hc : m.is_nil (m.parent e) = false
      · simp [hpph hc]
      · simp [hc])
    (by
      have hpqh : t.head ≠ m.parent q := fun hc => hh1 (hc ▸ hsub _ i1)
      rw [gR]; simp only [Ne.symm hqh, hpqh, and_true, if_false]
      by_cases hc : m.is_nil (m.parent e) = false
      · simp [hpph hc]
      · simp [hc])
  have hsame : ∀ b, b ∉ L → b ≠ t.head → SameNode m (unlinkInner m t.head e q).1 b := by
    intro b hb hbh
    have hqL : q ∈ L := by rw [hL]; simp [hql]
    have ce := h.closed (Or.inl he)
    have cq := h.closed (Or.inl hqL)
    have n1 : b ≠ q := h.not_mem_ne hb hbh (Or.inl hqL)
    have n2 : b ≠ m.left e := h.not_mem_ne hb hbh ce.1
    have n3 : b ≠ m.right e := h.not_mem_ne hb hbh ce.2.1
    have n4 : b ≠ m.parent e := h.not_mem_ne hb hbh ce.2.2
    have n5 : b ≠ m.left q := h.not_mem_ne hb hbh cq.1
    have n6 : b ≠ m.right q := h.not_mem_ne hb hbh cq.2.1
    have n7 : b ≠ m.parent q := h.not_mem_ne hb hbh cq.2.2
    refine ⟨by rw [gN], ?_, ?_, ?_, ?_, by rw [gV]⟩
    · rw [gP]; simp [n1, n2, n3, n4, n5, n6, n7, hbh]
    · rw [gL]; simp [n1, n2, n3, n4, n5, n6, n7, hbh]
    · rw [gR]; simp [n1, n2, n3, n4, n5, n6, n7, hbh]
    · rw [gH]; simp [n1]
  refine ⟨q, hq, pre ++ l.addrs, r.addrs ++ post, key.1, key.2, ?_, gV, gX, gF, hsame⟩
  rw [g2]
  exact List.mem_append_left _ (List.mem_append_right _ (hsub _ i1))

/-- `extractNode` on a node of a well-formed tree returns, and leaves a
well-formed tree holding the other nodes in the same order. -/
theorem extractNode_inv {comp : K → K → Bool} {m : TreeMem K V} {t : TreeValue}
    {L : List Nat} (h : TreeInv comp m t L) {e : Nat} (he : e ∈ L) {fuel : Nat}
    (hf : L.length < fuel) :
    ∃ m' A B, extractNode fuel m t e = some (m', { t with size := t.size - 1 }) ∧
      L = A ++ e :: B ∧ TreeInv comp m' { t with size := t.size - 1 } (A ++ B) ∧
      m'.value = m.value ∧ m'.next = m.next ∧ m'.freed = m.freed ∧
      ∀ b, b ∉ L → b ≠ t.head → SameNode m m' b := by
  obtain ⟨hcl, hcr⟩ := h.children he
  have hnotin : ∀ (A B : List Nat), L = A ++ e :: B → ∀ b, b ∉ L → b ∉ A ++ B := by
    intro A B hAB b hb hc
    rw [hAB] at hb
    simp only [List.mem_append, List.mem_cons] at hb hc
    tauto
  have hlm : m.left e = t.head ∨ m.left e ∈ L := hcl.imp id (fun x => x.1)
  have hrm : m.right e = t.head ∨ m.right e ∈ L := hcr.imp id (fun x => x.1)
  have hlen : ∀ A B : List Nat, L = A ++ e :: B → (A ++ B).length < fuel := by
    intro A B hAB
    have := congrArg List.length hAB
    simp only [List.length_append, List.length_cons] at this ⊢
    omega
  by_cases hleaf : m.is_nil (m.left e) = true ∧ m.is_nil (m.right e) = true
  · have hl0 := (h.nil_child hlm).1 hleaf.1
    have hr0 := (h.nil_child hrm).1 hleaf.2
    obtain ⟨A, B, hAB, hinv, hbn, hv, hn, hfr⟩ := unlinkLeaf_inv h he hl0 hr0
    obtain ⟨m2, hm2, hinv2, hv2, hn2, hf2, hout2⟩ :=
      extractFinish_inv hinv (hbn.imp id id) (hlen A B hAB)
    refine ⟨m2, A, B, ?_, hAB, hinv2, by rw [hv2, hv], by rw [hn2, hn], by rw [hf2, hfr], ?_⟩
    · rw [extractNode_leaf fuel m t e hleaf.1 hleaf.2]
      exact hm2
    · intro b hb hbh
      exact (unlinkLeaf_same m t.head e b hbh
        (h.not_mem_ne hb hbh (h.parent_closed (Or.inl he)))).trans
        (hout2 b (hnotin A B hAB b hb) hbh)
  · have hinner : (m.is_nil (m.left e) && m.is_nil (m.right e)) = false := by
      cases h1 : m.is_nil (m.left e) <;> cases h2 : m.is_nil (m.right e) <;> simp
      exact hleaf ⟨h1, h2⟩
    rw [extractNode_inner fuel m t e hinner]
    have hfin : ∀ q, (∃ A B, L = A ++ e :: B ∧
        TreeInv comp (unlinkInner m t.head e q).1 { t with size := t.size - 1 } (A ++ B) ∧
        (unlinkInner m t.head e q).2 ∈ A ++ B ∧
        (unlinkInner m t.head e q).1.value = m.value ∧
        (unlinkInner m t.head e q).1.next = m.next ∧
        (unlinkInner m t.head e q).1.freed = m.freed ∧
        ∀ b, b ∉ L → b ≠ t.head → SameNode m (unlinkInner m t.head e q).1 b) →
        ∃ m' A B, extractFinish fuel t (unlinkInner m t.head e q).1 (unlinkInner m t.head e q).2 =
            some (m', { t with size := t.size - 1 }) ∧
          L = A ++ e :: B ∧ TreeInv comp m' { t with size := t.size - 1 } (A ++ B) ∧
          m'.value = m.value ∧ m'.next = m.next ∧ m'.freed = m.freed ∧
          ∀ b, b ∉ L → b ≠ t.head → SameNode m m' b := by
      rintro q ⟨A, B, hAB, hinv, hbn, hv, hn, hfr, hout1⟩
      obtain ⟨m2, hm2, hinv2, hv2, hn2, hf2, hout2⟩ :=
        extractFinish_inv hinv (Or.inl hbn) (hlen A B hAB)
      exact ⟨m2, A, B, hm2, hAB, hinv2, by rw [hv2, hv], by rw [hn2, hn], by rw [hf2, hfr],
        fun b hb hbh => (hout1 b hb hbh).trans (hout2 b (hnotin A B hAB b hb) hbh)⟩
    obtain ⟨f, hfuel⟩ : ∃ f, fuel = f + 1 := ⟨fuel - 1, by omega⟩
    by_cases hd : differenceHeights m e ≥ 0
    · rw [if_pos hd]
      have hreal : m.is_nil (m.right e) = false := by
        cases h2 : m.is_nil (m.right e)
        · rfl
        · exfalso
          have hr0 := (h.nil_child hrm).1 h2
          have hnl : m.is_nil (m.left e) = false := by
            cases h1 : m.is_nil (m.left e)
            · rfl
            · exact absurd ⟨h1, h2⟩ hleaf
          have hlL : m.left e ∈ L := by
            rcases hlm with h1 | h1
            · rw [h1, h.head_nil] at hnl; exact absurd hnl (by simp)
            · exact h1
          have := h.height_pos _ hlL
          unfold differenceHeights at hd
          rw [hr0, h.head_height] at hd
          simp at hd
          omega
      by_cases hrl : m.is_nil (m.left (m.right e)) = true
      · have hmin : minInSubTree m fuel (m.right e) = some (m.right e) := by
          rw [hfuel]; unfold minInSubTree; simp [hrl]
        rw [hmin]
        exact hfin _ (unlinkInner_right_direct_inv h he hreal hrl)
      · have hrl' : m.is_nil (m.left (m.right e)) = false := by
          cases h1 : m.is_nil (m.left (m.right e))
          · rfl
          · exact absurd h1 hrl
        obtain ⟨q, hq, hrest⟩ := unlinkInner_deep_min_inv h he hreal hrl' (Nat.le_of_lt hf)
        rw [hq]
        exact hfin q hrest
    · rw [if_neg hd]
      have hreal : m.is_nil (m.left e) = false := by
        have hpos : 0 < m.height (m.left e) := by
          unfold differenceHeights at hd
          omega
        exact (h.real_of_height hlm hpos).2
      by_cases hlr : m.is_nil (m.right (m.left e)) = true
      · have hmax : maxInSubTree m fuel (m.left e) = some (m.left e) := by
          rw [hfuel]; unfold maxInSubTree; simp [hlr]
        rw [hmax]
        exact hfin _ (unlinkInner_left_direct_inv h he hreal hlr)
      · have hlr' : m.is_nil (m.right (m.left e)) = false := by
          cases h1 : m.is_nil (m.right (m.left e))
          · rfl
          · exact absurd h1 hlr
        obtain ⟨q, hq, hrest⟩ := unlinkInner_deep_max_inv h he hreal hlr' (Nat.le_of_lt hf)
        rw [hq]
        exact hfin q hrest

theorem TreeInv.of_head_size {comp : K → K → Bool} {m : TreeMem K V} {t t' : TreeValue}
    {L : List Nat} (h : TreeInv comp m t L) (hh : t'.head = t.head) (hs : t'.size = t.size) :
    TreeInv comp m t' L := by
  obtain ⟨a1, a2, a3, a4, a5, a6, a7, a8, a9, a10, a11⟩ := h
  exact ⟨by rw [hh]; exact a1, by rw [hh]; exact a2, by rw [hh]; exact a3, a4, a5,
    by rw [hs]; exact a6, by rw [hh]; exact a7, by rw [hh]; exact a8, a9, by rw [hh]; exact a10,
    a11⟩

/-- The empty tree built by `createEmptyTree` is well formed. -/
theorem createEmptyTree_inv (comp : K → K → Bool) (m : TreeMem K V) :
    TreeInv comp (createEmptyTree m).1 (createEmptyTree m).2 [] := by
  refine ⟨?_, ?_, ⟨Shape.nil, ?_, rfl⟩, List.nodup_nil, List.Pairwise.nil, rfl, ?_, ?_, ?_, ?_, ?_⟩
  · simp [createEmptyTree, TreeMem.createHeadNode, upd]
  · simp [createEmptyTree, TreeMem.createHeadNode, upd]
  · show (createEmptyTree m).1.parent (createEmptyTree m).2.head = (createEmptyTree m).2.head
    simp [createEmptyTree, TreeMem.createHeadNode, upd]
  · simp [createEmptyTree, TreeMem.createHeadNode, upd]
  · simp [createEmptyTree, TreeMem.createHeadNode, upd]
  · intro p hp; simp at hp
  · simp [createEmptyTree, TreeMem.createHeadNode]
  · intro p hp; simp at hp

theorem KeyEquiv.symm {comp : K → K → Bool} {a b : K} (h : KeyEquiv comp a b) :
    KeyEquiv comp b a := ⟨h.2, h.1⟩

theorem KeyEquiv.trans_equiv {comp : K → K → Bool} (hswo : StrictWeakOrder comp) {a b c : K}
    (h1 : KeyEquiv comp a b) (h2 : KeyEquiv comp b c) : KeyEquiv comp a c :=
  hswo.incomp_trans a b c h1.1 h1.2 h2.1 h2.2

/-- In a well-formed tree two nodes with equivalent keys are the same node. -/
theorem TreeInv.equiv_unique {comp : K → K → Bool} (hswo : StrictWeakOrder comp)
    {m : TreeMem K V} {t : TreeValue} {L : List Nat} (h : TreeInv comp m t L) {a b : Nat}
    (ha : a ∈ L) (hb : b ∈ L) {key : K} (hka : KeyEquiv comp (m.key a) key)
    (hkb : KeyEquiv comp (m.key b) key) : a = b := by
  by_contra hne
  have hab : KeyEquiv comp (m.key a) (m.key b) := hka.trans_equiv hswo hkb.symm
  have hsym : Symmetric (fun x y : Nat => ¬ KeyEquiv comp (m.key x) (m.key y)) := by
    intro x y hxy hc; exact hxy hc.symm
  have hp : L.Pairwise (fun x y => ¬ KeyEquiv comp (m.key x) (m.key y)) := by
    refine List.Pairwise.imp ?_ h.sorted
    intro x y hxy hc
    rw [hc.1] at hxy; exact absurd hxy (by simp)
  exact List.Pairwise.forall hsym hp ha hb hne hab

/-- `find` on a well-formed tree: the node with an equivalent key, or `end()`. -/
theorem find_spec {comp : K → K → Bool} (hswo : StrictWeakOrder comp)
    {m : TreeMem K V} {t : TreeValue} {L : List Nat} (h : TreeInv comp m t L) (key : K)
    {fuel : Nat} (hf : L.length < fuel) :
    ∃ node, find comp fuel m t key = some node ∧
      ((node ∈ L ∧ KeyEquiv comp (m.key node) key) ∨
       (node = t.head ∧ ∀ a ∈ L, ¬ KeyEquiv comp (m.key a) key)) := by
  obtain ⟨res, hres, hcase⟩ := findPlaceForNode_spec hswo h key hf
  unfold find
  rw [hres]
  rcases hcase with ⟨a1, a2, a3⟩ | ⟨a1, l1, l2, a2, a3, a4, -⟩
  · exact ⟨res.location.parent, by simp [a1], Or.inl ⟨a2, a3⟩⟩
  · refine ⟨t.head, by simp [a1], Or.inr ⟨rfl, ?_⟩⟩
    intro a ha hc
    rw [a2] at ha
    rcases List.mem_append.1 ha with ha | ha
    · have := a3 a ha; rw [hc.1] at this; exact absurd this (by simp)
    · have := a4 a ha; rw [hc.2] at this; exact absurd this (by simp)

/-- `erase(key)` on a well-formed tree. -/
theorem erase_spec {comp : K → K → Bool} (hswo : StrictWeakOrder comp)
    {m : TreeMem K V} {t : TreeValue} {L : List Nat} (h : TreeInv comp m t L) (key : K)
    {fuel : Nat} (hf : L.length < fuel) :
    ∃ m' t' cnt, erase comp fuel m t key = some (m', t', cnt) ∧
      ((cnt = 1 ∧ ∃ e A B, L = A ++ e :: B ∧ KeyEquiv comp (m.key e) key ∧
          TreeInv comp m' t' (A ++ B) ∧ t'.head = t.head ∧ t'.size = t.size - 1 ∧
          m'.value = m.value ∧ m'.next = m.next ∧ m'.freed = e :: m.freed) ∨
       (cnt = 0 ∧ m' = m ∧ t' = t ∧ ∀ a ∈ L, ¬ KeyEquiv comp (m.key a) key)) := by
  obtain ⟨res, hres, hcase⟩ := findPlaceForNode_spec hswo h key hf
  unfold erase
  rw [hres]
  rcases hcase with ⟨a1, a2, a3⟩ | ⟨a1, l1, l2, a2, a3, a4, -⟩
  · have h' : TreeInv comp m (orphanPtr t res.location.parent) L := h.of_head_size rfl rfl
    obtain ⟨m', A, B, hm', hAB, hinv, hv, hn, hfr, -⟩ := extractNode_inv h' a2 hf
    simp only [a1, if_true]
    rw [hm']
    refine ⟨_, _, _, rfl, Or.inl ⟨rfl, res.location.parent, A, B, hAB, a3, ?_, rfl, rfl, hv, hn,
      by simp [TreeMem.freeNode, hfr]⟩⟩
    have hkey : (m'.freeNode res.location.parent).key = m'.key := rfl
    exact hinv.frame (fun a _ => ⟨rfl, rfl, rfl, rfl, rfl, rfl⟩) (le_refl _)
  · refine ⟨m, t, 0, by simp [a1], Or.inr ⟨rfl, rfl, rfl, ?_⟩⟩
    intro a ha hc
    rw [a2] at ha
    rcases List.mem_append.1 ha with ha | ha
    · have := a3 a ha; rw [hc.1] at this; exact absurd this (by simp)
    · have := a4 a ha; rw [hc.2] at this; exact absurd this (by simp)

theorem keyEquivB_iff (comp : K → K → Bool) (a b : K) :
    keyEquivB comp a b = true ↔ KeyEquiv comp a b := by
  simp [keyEquivB, KeyEquiv]

theorem keyEquivB_false_iff (comp : K → K → Bool) (a b : K) :
    keyEquivB comp a b = false ↔ ¬ KeyEquiv comp a b := by
  rw [← keyEquivB_iff]; simp

/-- One client step on a well-formed tree returns a well-formed tree whose
entries are those prescribed by the specification. -/
theorem applyOp_refines {comp : K → K → Bool} (hswo : StrictWeakOrder comp)
    {m : TreeMem K V} {t : TreeValue} {L : List Nat} (h : TreeInv comp m t L)
    {S : List (K × V)} (hperm : (L.map m.value).Perm S) (op : TreeOp K V)
    (extractable : Bool) {fuel : Nat} (hf : L.length + 1 < fuel) :
    ∃ m' t' L', applyOp comp fuel extractable (m, t) op = some (m', t') ∧
      TreeInv comp m' t' L' ∧ (L'.map m'.value).Perm (specStep comp S op) ∧
      t'.head = t.head ∧ L'.length ≤ L.length + 1 := by
  cases op with
  | insert v =>
    obtain ⟨m', t', node, ins, hres, hcase⟩ := emplace_spec hswo h v extractable hf
    refine ⟨m', t', ?_⟩
    have happ : applyOp comp fuel extractable (m, t) (TreeOp.insert v) = some (m', t') := by
      simp only [applyOp]; rw [hres]
    rcases hcase with ⟨-, b2, b3, b4, b5, b6, -⟩ | ⟨-, b2, b3, l1, l2, b4, b5, b6, b7, b8, b9, -⟩
    · subst b2
      refine ⟨L, happ, b5, ?_, rfl, Nat.le_succ _⟩
      have hmap : L.map m'.value = L.map m.value :=
        List.map_congr_left (fun a ha => (b6 a (h.alloc a ha)).2.2.2.2.2)
      have hany : S.any (fun e => keyEquivB comp e.1 v.1) = true := by
        rw [List.any_eq_true]
        refine ⟨m.value node, hperm.subset (List.mem_map_of_mem _ b3), ?_⟩
        exact (keyEquivB_iff _ _ _).2 b4
      simp only [specStep, specInsert, hany, if_true]
      rw [hmap]; exact hperm
    · subst b3
      refine ⟨l1 ++ node :: l2, happ, b5, ?_, rfl, by rw [b4]; simp; omega⟩
      have hany : S.any (fun e => keyEquivB comp e.1 v.1) = false := by
        rw [List.any_eq_false]
        intro e he
        obtain ⟨a, ha, rfl⟩ := List.mem_map.1 (hperm.symm.subset he)
        rw [Bool.not_eq_true, keyEquivB_false_iff]
        intro hc
        rw [b4] at ha
        rcases List.mem_append.1 ha with ha | ha
        · have := b6 a ha; rw [show m.key a = (m.value a).1 from rfl, hc.1] at this
          exact absurd this (by simp)
        · have := b7 a ha; rw [show m.key a = (m.value a).1 from rfl, hc.2] at this
          exact absurd this (by simp)
      simp only [specStep, specInsert, hany, Bool.false_eq_true, if_false]
      have hold : ∀ a ∈ L, m'.value a = m.value a := by
        intro a ha
        have : a ≠ node := by
          have := h.alloc a ha; rw [b2]; omega
        rw [b8, upd_ne _ _ this]
      have hnew : m'.value node = v := by rw [b8, upd_same]
      have hmap : (l1 ++ node :: l2).map m'.value = l1.map m.value ++ v :: l2.map m.value := by
        rw [List.map_append, List.map_cons, hnew]
        congr 1
        · exact List.map_congr_left (fun a ha => hold a (by rw [b4]; simp [ha]))
        · congr 1
          exact List.map_congr_left (fun a ha => hold a (by rw [b4]; simp [ha]))
      rw [hmap]
      have h1 : (l1.map m.value ++ v :: l2.map m.value).Perm (v :: L.map m.value) := by
        rw [b4, List.map_append]; exact List.perm_middle
      exact h1.trans ((List.Perm.cons v hperm).trans (List.perm_append_singleton v S).symm)
  | erase k =>
    obtain ⟨m', t', cnt, hres, hcase⟩ := erase_spec hswo h k (Nat.lt_of_succ_lt hf)
    refine ⟨m', t', ?_⟩
    have happ : applyOp comp fuel extractable (m, t) (TreeOp.erase k) = some (m', t') := by
      simp only [applyOp]; rw [hres]
    rcases hcase with ⟨-, e, A, B, c1, c2, c3, c4, c5, c6, -⟩ | ⟨-, c1, c2, c3⟩
    · refine ⟨A ++ B, happ, c3, ?_, c4, by rw [c1]; simp; omega⟩
      have hnd : (A ++ e :: B).Nodup := c1 ▸ h.nodup
      have hkeep : ∀ a ∈ A ++ B, (!keyEquivB comp (m.value a).1 k) = true := by
        intro a ha
        rw [Bool.not_eq_true', keyEquivB_false_iff]
        intro hc
        have haL : a ∈ L := by
          rw [c1]; simp only [List.mem_append, List.mem_cons] at ha ⊢; tauto
        have heL : e ∈ L := by rw [c1]; simp
        have := h.equiv_unique hswo haL heL hc c2
        subst this
        have hnd' := nodup_around hnd
        rcases List.mem_append.1 ha with ha | ha
        · exact hnd'.1 ha
        · exact hnd'.2.1 ha
      have hdrop : (!keyEquivB comp (m.value e).1 k) = false := by
        rw [Bool.not_eq_false', keyEquivB_iff]; exact c2
      have hfil : (L.map m.value).filter (fun e => !keyEquivB comp e.1 k) =
          (A ++ B).map m.value := by
        rw [c1, List.map_append, List.map_cons, List.filter_append, List.filter_cons,
          hdrop, List.map_append]
        simp only [Bool.false_eq_true, if_false]
        congr 1
        · rw [List.filter_eq_self]
          intro x hx
          obtain ⟨a, ha, rfl⟩ := List.mem_map.1 hx
          exact hkeep a (List.mem_append_left _ ha)
        · rw [List.filter_eq_self]
          intro x hx
          obtain ⟨a, ha, rfl⟩ := List.mem_map.1 hx
          exact hkeep a (List.mem_append_right _ ha)
      rw [c6, ← hfil]
      exact hperm.filter _
    · subst c1 c2
      refine ⟨L, happ, h, ?_, rfl, Nat.le_succ _⟩
      have : specStep comp S (TreeOp.erase k) = S := by
        simp only [specStep, specErase]
        rw [List.filter_eq_self]
        intro x hx
        obtain ⟨a, ha, rfl⟩ := List.mem_map.1 (hperm.symm.subset hx)
        rw [Bool.not_eq_true', keyEquivB_false_iff]
        exact c3 a ha
      rw [this]; exact hperm

/-- A sequence of client steps on a well-formed tree returns a well-formed tree
whose entries are those prescribed by the specification. -/
theorem runOps_refines {comp : K → K → Bool} (hswo : StrictWeakOrder comp)
    (extractable : Bool) {fuel : Nat} :
    ∀ (ops : List (TreeOp K V)) (m : TreeMem K V) (t : TreeValue) (L : List Nat)
      (S : List (K × V)), TreeInv comp m t L → (L.map m.value).Perm S →
      L.length + ops.length < fuel →
      ∃ m' t' L', runOps comp fuel extractable (m, t) ops = some (m', t') ∧
        TreeInv comp m' t' L' ∧ (L'.map m'.value).Perm (specRun comp S ops) ∧
        t'.head = t.head ∧ L'.length ≤ L.length + ops.length
  | [], m, t, L, S, h, hperm, _ => ⟨m, t, L, rfl, h, hperm, rfl, Nat.le_refl _⟩
  | op :: ops, m, t, L, S, h, hperm, hf => by
    simp only [List.length_cons] at hf
    obtain ⟨m1, t1, L1, h1, hinv1, hperm1, hh1, hl1⟩ :=
      applyOp_refines hswo h hperm op extractable (show L.length + 1 < fuel by omega)
    obtain ⟨m2, t2, L2, h2, hinv2, hperm2, hh2, hl2⟩ :=
      runOps_refines hswo extractable ops m1 t1 L1 (specStep comp S op) hinv1 hperm1
        (show L1.length + ops.length < fuel by omega)
    refine ⟨m2, t2, L2, ?_, hinv2, hperm2, by rw [hh2, hh1], by
      simp only [List.length_cons]; omega⟩
    simp only [runOps]
    rw [h1]
    exact h2

/-- C1 (refuted by the code): inserts alone break the AVL balance.  After the
keys 1, 2, 3, 6, 7, 4 every real node is balanced by structural heights; after
the further insert of 5 the real node with key 3 (address 3, left child of the
root) has a left subtree of structural height 2 and an empty right subtree. -/
theorem insert_sequence_breaks_balance :
    (runOps natLess 8 true emptyNatTree (insertKeys [1, 2, 3, 6, 7, 4])).map
        (fun s => balancedFrom s.1 8 (s.1.parent s.2.head)) = some true ∧
    (runOps natLess 8 true emptyNatTree (insertKeys [1, 2, 3, 6, 7, 4, 5])).map
        (fun s => (balancedFrom s.1 8 (s.1.parent s.2.head),
          s.1.left (s.1.parent s.2.head), s.1.is_nil 3, s.1.key 3,
          trueHeight s.1 8 (s.1.left 3), trueHeight s.1 8 (s.1.right 3)))
      = some (false, 3, false, 3, 2, 0) := by
  decide!

/-- C2 (refuted by the code): an erase leaves an unbalanced node.  After the
inserts of 5, 3, 10, 2, 4, 7, 12, 1, 6, 8, 11, 9 the tree is balanced and every
stored height is one more than the larger child height; after `erase 2` the
root (key 5) has a left subtree of structural height 2 and a right subtree of
structural height 4. -/
theorem erase_breaks_balance :
    (runOps natLess 14 true emptyNatTree
        (insertKeys [5, 3, 10, 2, 4, 7, 12, 1, 6, 8, 11, 9])).map
        (fun s => (balancedFrom s.1 14 (s.1.parent s.2.head),
          storedHeightsFrom s.1 14 (s.1.parent s.2.head))) = some (true, true) ∧
    (runOps natLess 14 true emptyNatTree
        (insertKeys [5, 3, 10, 2, 4, 7, 12, 1, 6, 8, 11, 9] ++ [TreeOp.erase 2])).map
        (fun s => (balancedFrom s.1 14 (s.1.parent s.2.head),
          s.1.is_nil (s.1.parent s.2.head), s.1.key (s.1.parent s.2.head),
          trueHeight s.1 14 (s.1.left (s.1.parent s.2.head)),
          trueHeight s.1 14 (s.1.right (s.1.parent s.2.head))))
      = some (false, false, 5, 2, 4) := by
  decide!

/-- C3 (refuted by the code): after the inserts of 1, 2, 3, 5, 6, 4 the root
(key 3) stores height 2 although its children store the heights 1 and 2, so the
stored height is not one more than the larger stored height of the children. -/
theorem stored_height_wrong_after_insert :
    (runOps natLess 8 true emptyNatTree (insertKeys [1, 2, 3, 5, 6, 4])).map
        (fun s => (storedHeightsFrom s.1 8 (s.1.parent s.2.head),
          s.1.is_nil (s.1.parent s.2.head), s.1.key (s.1.parent s.2.head),
          s.1.height (s.1.parent s.2.head),
          s.1.height (s.1.left (s.1.parent s.2.head)),
          s.1.height (s.1.right (s.1.parent s.2.head))))
      = some (false, false, 3, 2, 1, 2) := by
  decide!

/-- C8 (refuted by the code): after the inserts of 1, 2, 3, 7, 8, 4, 5, 6, 9 the
tree holds 9 keys and has structural height 6, which is above
`⌈1.44 · log2 (9 + 2)⌉ = 5`; equivalently `Fib (6 + 2) - 1 = 20` keys would be
needed for that height. -/
theorem height_bound_exceeded :
    (runOps natLess 10 true emptyNatTree (insertKeys [1, 2, 3, 7, 8, 4, 5, 6, 9])).map
        (fun s => (s.2.size, trueHeight s.1 10 (s.1.parent s.2.head)))
      = some (9, 6) ∧
    withinHeightBound 6 9 = false ∧ ¬ (Nat.fib (6 + 2) - 1 ≤ 9) := by
  decide!

theorem natLess_swo : StrictWeakOrder natLess := by
  refine ⟨?_, ?_, ?_⟩
  · intro a; simp [natLess]
  · intro a b c; simp only [natLess, decide_eq_true_eq]; omega
  · intro a b c; simp only [natLess, decide_eq_false_iff_not]; omega

theorem option_eq_some_getD {α : Type} (o : Option α) (d : α) (h : o.isSome = true) :
    o = some (o.getD d) := by
  cases o with
  | none => simp at h
  | some x => rfl

/-- Every tree reached from the empty tree is well formed and holds the entries
prescribed by the specification. -/
theorem reachable_inv {comp : K → K → Bool} (hswo : StrictWeakOrder comp)
    (extractable : Bool) (m0 : TreeMem K V) (ops : List (TreeOp K V)) {fuel : Nat}
    (hf : ops.length < fuel) :
    ∃ m t L, runOps comp fuel extractable (createEmptyTree m0) ops = some (m, t) ∧
      TreeInv comp m t L ∧ (L.map m.value).Perm (specRun comp [] ops) ∧
      L.length ≤ ops.length := by
  obtain ⟨m, t, L, h1, h2, h3, -, h5⟩ :=
    runOps_refines hswo extractable ops (createEmptyTree m0).1 (createEmptyTree m0).2 [] []
      (createEmptyTree_inv comp m0) (List.Perm.refl _) (by simpa using hf)
  exact ⟨m, t, L, h1, h2, h3, by simpa using h5⟩

/-- C9: after every sequence of inserts and erases applied to an empty tree the
run returns a tree whose head sentinel caches the extremes and the root: its
left link is the node with the least key and its right link the node with the
greatest key (both the sentinel itself when the tree is empty), its parent link
is the root of the tree whose in-order node list is `L`, and `begin()` is the
cached least node. -/
theorem head_caches_min_max_root {comp : K → K → Bool} (hswo : StrictWeakOrder comp)
    (extractable : Bool) (m0 : TreeMem K V) (ops : List (TreeOp K V)) {fuel : Nat}
    (hf : ops.length < fuel) :
    ∃ m t L s, runOps comp fuel extractable (createEmptyTree m0) ops = some (m, t) ∧
      Rep m t.head s t.head (m.parent t.head) ∧ s.addrs = L ∧ t.size = L.length ∧
      begin m t = m.left t.head ∧
      (L = [] → m.left t.head = t.head ∧ m.right t.head = t.head ∧
        m.parent t.head = t.head) ∧
      (L ≠ [] → m.left t.head ∈ L ∧ m.right t.head ∈ L ∧ m.parent t.head ∈ L) ∧
      (∀ a ∈ L, a ≠ m.left t.head → comp (m.key (m.left t.head)) (m.key a) = true) ∧
      (∀ a ∈ L, a ≠ m.right t.head → comp (m.key a) (m.key (m.right t.head)) = true) := by
  obtain ⟨m, t, L, h1, h2, -, -⟩ := reachable_inv hswo extractable m0 ops hf
  obtain ⟨s, hs, hsL⟩ := h2.shape
  obtain ⟨a1, a2, a3, a4⟩ := h2.head_links
  exact ⟨m, t, L, s, h1, hs, hsL, h2.size_eq, rfl, a1, a2, a3, a4⟩

theorem head_caches_min_max_root_witness :
    StrictWeakOrder natLess ∧
    (insertKeys [2, 1, 3] ++ [TreeOp.erase 1]).length < 6 ∧
    ∃ m t L s, runOps natLess 6 true emptyNatTree (insertKeys [2, 1, 3] ++ [TreeOp.erase 1])
        = some (m, t) ∧
      Rep m t.head s t.head (m.parent t.head) ∧ s.addrs = L ∧ t.size = L.length ∧
      begin m t = m.left t.head ∧
      (L = [] → m.left t.head = t.head ∧ m.right t.head = t.head ∧
        m.parent t.head = t.head) ∧
      (L ≠ [] → m.left t.head ∈ L ∧ m.right t.head ∈ L ∧ m.parent t.head ∈ L) ∧
      (∀ a ∈ L, a ≠ m.left t.head → natLess (m.key (m.left t.head)) (m.key a) = true) ∧
      (∀ a ∈ L, a ≠ m.right t.head → natLess (m.key a) (m.key (m.right t.head)) = true) :=
  ⟨natLess_swo, by decide,
    head_caches_min_max_root natLess_swo true TreeMem.init
      (insertKeys [2, 1, 3] ++ [TreeOp.erase 1]) (by decide)⟩

theorem option_eq_some_pair {α β : Type} (o : Option (α × β)) (d : α × β)
    (h : o.isSome = true) : o = some ((o.getD d).1, (o.getD d).2) := by
  cases o with
  | none => simp at h
  | some x => rfl

theorem sampleTree_run :
    runOps natLess 6 true emptyNatTree (insertKeys [2, 1, 3]) =
      some (sampleTree.1, sampleTree.2) := by
  have h : (runOps natLess 6 true emptyNatTree (insertKeys [2, 1, 3])).isSome = true := by
    decide!
  unfold sampleTree
  exact option_eq_some_pair _ _ h

theorem reachable_unique {comp : K → K → Bool} (hswo : StrictWeakOrder comp)
    (extractable : Bool) (m0 : TreeMem K V) (ops : List (TreeOp K V)) {fuel : Nat}
    (hf : ops.length < fuel) {m : TreeMem K V} {t : TreeValue}
    (hrun : runOps comp fuel extractable (createEmptyTree m0) ops = some (m, t)) :
    ∃ L, TreeInv comp m t L ∧ (L.map m.value).Perm (specRun comp [] ops) ∧
      L.length ≤ ops.length := by
  obtain ⟨m1, t1, L, h1, h2, h3, h4⟩ := reachable_inv hswo extractable m0 ops hf
  rw [hrun] at h1
  simp only [Option.some.injEq, Prod.mk.injEq] at h1
  obtain ⟨rfl, rfl⟩ := h1
  exact ⟨L, h2, h3, h4⟩

/-- C6: inserting a value whose key is already present in a tree reached from
the empty tree returns the node already holding that key together with `false`,
returns the same `TreeValue` (head, size, iterator chain), and leaves every
field of every allocated node as it was (links, heights, values and the cached
least and greatest nodes of the head); when the node is built only after the
search, the whole memory is unchanged. -/
theorem duplicate_insert_unchanged {comp : K → K → Bool} (hswo : StrictWeakOrder comp)
    (extractable : Bool) (m0 : TreeMem K V) (ops : List (TreeOp K V)) {fuel : Nat}
    (hf : ops.length + 1 < fuel) {m : TreeMem K V} {t : TreeValue}
    (hrun : runOps comp fuel extractable (createEmptyTree m0) ops = some (m, t))
    (value : K × V) {existing : Nat}
    (hfind : find comp fuel m t value.1 = some existing) (hne : existing ≠ t.head) :
    ∃ m', emplace_ comp fuel extractable m t value = some (m', t, existing, false) ∧
      KeyEquiv comp (m.key existing) value.1 ∧
      (∀ a, a < m.next → SameNode m m' a) ∧ t.head < m.next ∧
      (extractable = true → m' = m) := by
  obtain ⟨L, h, -, hlen⟩ := reachable_unique hswo extractable m0 ops (by omega) hrun
  obtain ⟨node, hnode, hcase⟩ := find_spec hswo h value.1 (show L.length < fuel by omega)
  rw [hfind] at hnode
  simp only [Option.some.injEq] at hnode
  subst hnode
  rcases hcase with ⟨c1, c2⟩ | ⟨c1, -⟩
  swap
  · exact absurd c1 hne
  obtain ⟨m', t', node, ins, hres, hcase2⟩ :=
    emplace_spec hswo h value extractable (show L.length + 1 < fuel by omega)
  rcases hcase2 with ⟨b1, b2, b3, b4, b5, b6, b7⟩ | ⟨-, -, -, l1, l2, b4, -, b6, b7, -⟩
  · have := h.equiv_unique hswo b3 c1 b4 c2
    subst b1 b2 this
    exact ⟨m', hres, c2, b6, h.head_alloc, b7⟩
  · exfalso
    rw [b4] at c1
    rcases List.mem_append.1 c1 with c1 | c1
    · have := b6 _ c1; rw [c2.1] at this; exact absurd this (by simp)
    · have := b7 _ c1; rw [c2.2] at this; exact absurd this (by simp)

theorem duplicate_insert_unchanged_witness :
    StrictWeakOrder natLess ∧ (insertKeys [2, 1, 3]).length + 1 < 6 ∧
    runOps natLess 6 true emptyNatTree (insertKeys [2, 1, 3]) =
      some (sampleTree.1, sampleTree.2) ∧
    find natLess 6 sampleTree.1 sampleTree.2 1 = some 2 ∧ 2 ≠ sampleTree.2.head ∧
    ∃ m', emplace_ natLess 6 true sampleTree.1 sampleTree.2 (1, ()) =
        some (m', sampleTree.2, 2, false) ∧
      KeyEquiv natLess (sampleTree.1.key 2) 1 ∧
      (∀ a, a < sampleTree.1.next → SameNode sampleTree.1 m' a) ∧
      sampleTree.2.head < sampleTree.1.next ∧
      (true = true → m' = sampleTree.1) :=
  ⟨natLess_swo, by decide, sampleTree_run, by decide!, by decide!,
    duplicate_insert_unchanged natLess_swo true TreeMem.init (insertKeys [2, 1, 3]) (by decide)
      sampleTree_run (1, ()) (by decide!) (by decide!)⟩

/-- C7: on a tree reached from the empty tree, `erase key` returns.  When `find
key` denotes a node, the count is 1, the size drops by one, the stored values
are untouched, `key` is no longer found, and `find` of every key not equivalent
to `key` gives the same answer as before (the same node, or `end()`).  When
`find key` is `end()`, the count is 0 and memory and tree are unchanged. -/
theorem erase_by_key_exact {comp : K → K → Bool} (hswo : StrictWeakOrder comp)
    (extractable : Bool) (m0 : TreeMem K V) (ops : List (TreeOp K V)) {fuel : Nat}
    (hf : ops.length < fuel) {m : TreeMem K V} {t : TreeValue}
    (hrun : runOps comp fuel extractable (createEmptyTree m0) ops = some (m, t)) (key : K) :
    ∃ node m' t' cnt, find comp fuel m t key = some node ∧
      erase comp fuel m t key = some (m', t', cnt) ∧
      (node ≠ t.head → cnt = 1 ∧ t'.size + 1 = t.size ∧ t'.head = t.head ∧
        m'.value = m.value ∧ find comp fuel m' t' key = some t'.head ∧
        ∀ q a, ¬ KeyEquiv comp q key → find comp fuel m t q = some a →
          find comp fuel m' t' q = some a) ∧
      (node = t.head → cnt = 0 ∧ m' = m ∧ t' = t) := by
  obtain ⟨L, h, -, hlen⟩ := reachable_unique hswo extractable m0 ops hf hrun
  have hfL : L.length < fuel := by omega
  obtain ⟨node, hnode, hcase⟩ := find_spec hswo h key hfL
  obtain ⟨m', t', cnt, hres, hcase2⟩ := erase_spec hswo h key hfL
  refine ⟨node, m', t', cnt, hnode, hres, ?_, ?_⟩
  · intro hne
    rcases hcase2 with ⟨c0, e, A, B, c1, c2, c3, c4, c5, c6, -⟩ | ⟨-, -, -, c3⟩
    swap
    · rcases hcase with ⟨d1, d2⟩ | ⟨d1, -⟩
      · exact absurd d2 (c3 _ d1)
      · exact absurd d1 hne
    have hnd := nodup_around (show (A ++ e :: B).Nodup from c1 ▸ h.nodup)
    have heL : e ∈ L := by rw [c1]; simp
    have hsubL : ∀ a ∈ A ++ B, a ∈ L := by
      intro a ha; rw [c1]
      simp only [List.mem_append, List.mem_cons] at ha ⊢; tauto
    have heAB : e ∉ A ++ B := by
      intro hc
      rcases List.mem_append.1 hc with hc | hc
      · exact hnd.1 hc
      · exact hnd.2.1 hc
    have hkey : m'.key = m.key := by funext a; simp [TreeMem.key, c6]
    have hfAB : (A ++ B).length < fuel := by
      have := congrArg List.length c1
      simp only [List.length_append, List.length_cons] at this ⊢
      omega
    have hsz : 1 ≤ t.size := by
      rw [h.size_eq, c1]; simp only [List.length_append, List.length_cons]; omega
    refine ⟨c0, by rw [c5]; omega, c4, c6, ?_, ?_⟩
    · obtain ⟨n2, hn2, hc2⟩ := find_spec hswo c3 key hfAB
      rcases hc2 with ⟨d1, d2⟩ | ⟨d1, -⟩
      · rw [hkey] at d2
        have := h.equiv_unique hswo (hsubL _ d1) heL d2 c2
        exact absurd (this ▸ d1) heAB
      · rw [hn2, d1]
    · intro q a hq hfa
      obtain ⟨n1, hn1, hc1⟩ := find_spec hswo h q hfL
      rw [hfa] at hn1
      simp only [Option.some.injEq] at hn1
      subst hn1
      obtain ⟨n2, hn2, hc2⟩ := find_spec hswo c3 q hfAB
      rw [hn2]
      rcases hc1 with ⟨d1, d2⟩ | ⟨d1, d2⟩
      · have hae : a ≠ e := by
          intro hc; subst hc
          exact hq (KeyEquiv.trans_equiv hswo d2.symm c2)
        have haAB : a ∈ A ++ B := by
          rw [c1] at d1
          simp only [List.mem_append, List.mem_cons] at d1 ⊢
          tauto
        rcases hc2 with ⟨f1, f2⟩ | ⟨-, f2⟩
        · rw [hkey] at f2
          rw [h.equiv_unique hswo (hsubL _ f1) d1 f2 d2]
        · exact absurd (by rw [hkey]; exact d2) (f2 a haAB)
      · rcases hc2 with ⟨f1, f2⟩ | ⟨f1, -⟩
        · rw [hkey] at f2
          exact absurd f2 (d2 _ (hsubL _ f1))
        · rw [f1, c4, d1]
  · intro heq
    rcases hcase2 with ⟨-, e, A, B, c1, c2, -⟩ | ⟨c0, c1, c2, -⟩
    · rcases hcase with ⟨d1, -⟩ | ⟨-, d2⟩
      · exact absurd heq (h.ne_head d1)
      · exact absurd c2 (d2 e (by rw [c1]; simp))
    · exact ⟨c0, c1, c2⟩

theorem erase_by_key_exact_witness :
    StrictWeakOrder natLess ∧ (insertKeys [2, 1, 3]).length < 6 ∧
    runOps natLess 6 true emptyNatTree (insertKeys [2, 1, 3]) =
      some (sampleTree.1, sampleTree.2) ∧
    ∃ node m' t' cnt, find natLess 6 sampleTree.1 sampleTree.2 1 = some node ∧
      erase natLess 6 sampleTree.1 sampleTree.2 1 = some (m', t', cnt) ∧
      (node ≠ sampleTree.2.head → cnt = 1 ∧ t'.size + 1 = sampleTree.2.size ∧
        t'.head = sampleTree.2.head ∧
        m'.value = sampleTree.1.value ∧ find natLess 6 m' t' 1 = some t'.head ∧
        ∀ q a, ¬ KeyEquiv natLess q 1 → find natLess 6 sampleTree.1 sampleTree.2 q = some a →
          find natLess 6 m' t' q = some a) ∧
      (node = sampleTree.2.head → cnt = 0 ∧ m' = sampleTree.1 ∧ t' = sampleTree.2) :=
  ⟨natLess_swo, by decide, sampleTree_run,
    erase_by_key_exact natLess_swo true TreeMem.init (insertKeys [2, 1, 3]) (by decide)
      sampleTree_run 1⟩

theorem find?_filter_of_imp {α : Type} (p r : α → Bool) (hpr : ∀ x, p x = true → r x = true) :
    ∀ S : List α, (S.filter r).find? p = S.find? p
  | [] => rfl
  | x :: S => by
    by_cases hr : r x = true
    · rw [List.filter_cons_of_pos hr]
      by_cases hp : p x = true
      · rw [List.find?_cons_of_pos _ hp, List.find?_cons_of_pos _ hp]
      · rw [List.find?_cons_of_neg _ hp, List.find?_cons_of_neg _ hp]
        exact find?_filter_of_imp p r hpr S
    · rw [List.filter_cons_of_neg hr]
      have hp : ¬ p x = true := fun hc => hr (hpr x hc)
      rw [List.find?_cons_of_neg _ hp]
      exact find?_filter_of_imp p r hpr S

/-- One step of the specification, seen from one key. -/
theorem specStep_find {comp : K → K → Bool} (hswo : StrictWeakOrder comp) (q : K)
    (S : List (K × V)) (op : TreeOp K V) :
    (specStep comp S op).find? (fun e => keyEquivB comp e.1 q) =
      specLookupStep comp q (S.find? (fun e => keyEquivB comp e.1 q)) op := by
  cases op with
  | insert v =>
    simp only [specStep, specInsert, specLookupStep]
    by_cases hv : keyEquivB comp v.1 q = true
    · rw [if_pos hv]
      by_cases hany : S.any (fun e => keyEquivB comp e.1 v.1) = true
      · rw [if_pos hany]
        obtain ⟨e, he, hev⟩ := List.any_eq_true.1 hany
        have heq : keyEquivB comp e.1 q = true :=
          (keyEquivB_iff _ _ _).2
            (KeyEquiv.trans_equiv hswo ((keyEquivB_iff _ _ _).1 hev) ((keyEquivB_iff _ _ _).1 hv))
        cases hfd : S.find? (fun e => keyEquivB comp e.1 q) with
        | none =>
          have := List.find?_eq_none.1 hfd e he
          exact absurd heq this
        | some x => rfl
      · rw [if_neg hany]
        have hnone : S.find? (fun e => keyEquivB comp e.1 q) = none := by
          rw [List.find?_eq_none]
          intro e he hc
          apply hany
          rw [List.any_eq_true]
          refine ⟨e, he, (keyEquivB_iff _ _ _).2 ?_⟩
          exact KeyEquiv.trans_equiv hswo ((keyEquivB_iff _ _ _).1 hc)
            (KeyEquiv.symm ((keyEquivB_iff _ _ _).1 hv))
        rw [List.find?_append, hnone]
        simp [hv]
    · rw [if_neg hv]
      by_cases hany : S.any (fun e => keyEquivB comp e.1 v.1) = true
      · rw [if_pos hany]
      · rw [if_neg hany, List.find?_append]
        simp [hv]
  | erase k =>
    simp only [specStep, specErase, specLookupStep]
    by_cases hk : keyEquivB comp k q = true
    · rw [if_pos hk, List.find?_eq_none]
      intro e he hc
      have he2 := (List.mem_filter.1 he).2
      have : keyEquivB comp e.1 k = true :=
        (keyEquivB_iff _ _ _).2 (KeyEquiv.trans_equiv hswo ((keyEquivB_iff _ _ _).1 hc)
          (KeyEquiv.symm ((keyEquivB_iff _ _ _).1 hk)))
      rw [this] at he2
      exact absurd he2 (by simp)
    · rw [if_neg hk]
      apply find?_filter_of_imp
      intro e he
      cases hek : keyEquivB comp e.1 k with
      | false => rfl
      | true =>
        exfalso
        apply hk
        exact (keyEquivB_iff _ _ _).2 (KeyEquiv.trans_equiv hswo
          (KeyEquiv.symm ((keyEquivB_iff _ _ _).1 hek)) ((keyEquivB_iff _ _ _).1 he))

/-- The specification seen from one key is the lookup in the specified
collection of entries. -/
theorem specRun_find {comp : K → K → Bool} (hswo : StrictWeakOrder comp) (q : K) :
    ∀ (ops : List (TreeOp K V)) (S : List (K × V)),
      (specRun comp S ops).find? (fun e => keyEquivB comp e.1 q) =
        ops.foldl (specLookupStep comp q) (S.find? (fun e => keyEquivB comp e.1 q))
  | [], _ => rfl
  | op :: ops, S => by
    simp only [specRun, List.foldl_cons]
    have := specRun_find hswo q ops (specStep comp S op)
    simp only [specRun] at this
    rw [this, specStep_find hswo]

/-- C5: the tree refines the finite map of the specification.  For every
sequence of inserts and erases applied to an empty tree the run returns, and for
every key `q`: `find q` returns; `size` is the number of entries of the
specified collection, whose keys are pairwise inequivalent and in which the
lookup of any key is `specLookup` (the entry of the first successful insert not
erased afterwards); `find q` is `end()` when the specification has no entry for
`q`, and otherwise denotes a node that stores exactly the specified entry. -/
theorem tree_refines_finite_map {comp : K → K → Bool} (hswo : StrictWeakOrder comp)
    (extractable : Bool) (m0 : TreeMem K V) (ops : List (TreeOp K V)) (q : K) {fuel : Nat}
    (hf : ops.length < fuel) :
    ∃ m t node, runOps comp fuel extractable (createEmptyTree m0) ops = some (m, t) ∧
      find comp fuel m t q = some node ∧
      t.size = (specRun comp [] ops).length ∧
      (specRun comp [] ops).Pairwise (fun a b => ¬ KeyEquiv comp a.1 b.1) ∧
      (∀ k, specLookup comp ops k =
        (specRun comp [] ops).find? (fun e => keyEquivB comp e.1 k)) ∧
      (specLookup comp ops q = none → node = t.head) ∧
      (∀ e, specLookup comp ops q = some e →
        node ≠ t.head ∧ KeyEquiv comp (m.key node) q ∧ m.value node = e) := by
  obtain ⟨m, t, L, hrun, h, hperm, hlen⟩ := reachable_inv hswo extractable m0 ops hf
  obtain ⟨node, hnode, hcase⟩ := find_spec hswo h q (show L.length < fuel by omega)
  have hlook : ∀ k, specLookup comp ops k =
      (specRun comp [] ops).find? (fun e => keyEquivB comp e.1 k) := by
    intro k
    rw [specRun_find hswo k ops []]
    rfl
  have hsym : Symmetric (fun a b : K × V => ¬ KeyEquiv comp a.1 b.1) := by
    intro x y hxy hc; exact hxy hc.symm
  have hpw : (L.map m.value).Pairwise (fun a b => ¬ KeyEquiv comp a.1 b.1) := by
    rw [List.pairwise_map]
    refine List.Pairwise.imp ?_ h.sorted
    intro x y hxy hc
    have : comp (m.key x) (m.key y) = false := hc.1
    rw [this] at hxy; exact absurd hxy (by simp)
  refine ⟨m, t, node, hrun, hnode, ?_, hperm.pairwise hpw (fun {x y} hxy => hsym hxy), hlook, ?_, ?_⟩
  · rw [h.size_eq, ← hperm.length_eq, List.length_map]
  · intro hnone
    rw [hlook q, List.find?_eq_none] at hnone
    rcases hcase with ⟨c1, c2⟩ | ⟨c1, -⟩
    · have hmem : m.value node ∈ specRun comp [] ops :=
        hperm.subset (List.mem_map_of_mem _ c1)
      exact absurd ((keyEquivB_iff _ _ _).2 c2) (hnone _ hmem)
    · exact c1
  · intro e hsome
    rw [hlook q] at hsome
    have hp := List.find?_some hsome
    have hmem := List.mem_of_find?_eq_some hsome
    obtain ⟨a, ha, rfl⟩ := List.mem_map.1 (hperm.symm.subset hmem)
    have hka : KeyEquiv comp (m.key a) q := (keyEquivB_iff _ _ _).1 hp
    rcases hcase with ⟨c1, c2⟩ | ⟨-, c2⟩
    · have := h.equiv_unique hswo c1 ha c2 hka
      subst this
      exact ⟨h.ne_head c1, c2, rfl⟩
    · exact absurd hka (c2 a ha)

theorem tree_refines_finite_map_witness :
    StrictWeakOrder natLess ∧
    (insertKeys [2, 1, 3] ++ [TreeOp.erase 2, TreeOp.insert (1, ())]).length < 8 ∧
    ∃ m t node,
      runOps natLess 8 true emptyNatTree
        (insertKeys [2, 1, 3] ++ [TreeOp.erase 2, TreeOp.insert (1, ())]) = some (m, t) ∧
      find natLess 8 m t 3 = some node ∧
      t.size = (specRun natLess []
        (insertKeys [2, 1, 3] ++ [TreeOp.erase 2, TreeOp.insert (1, ())])).length ∧
      (specRun natLess [] (insertKeys [2, 1, 3] ++ [TreeOp.erase 2, TreeOp.insert (1, ())])).Pairwise
        (fun a b => ¬ KeyEquiv natLess a.1 b.1) ∧
      (∀ k, specLookup natLess
          (insertKeys [2, 1, 3] ++ [TreeOp.erase 2, TreeOp.insert (1, ())]) k =
        (specRun natLess []
          (insertKeys [2, 1, 3] ++ [TreeOp.erase 2, TreeOp.insert (1, ())])).find?
            (fun e => keyEquivB natLess e.1 k)) ∧
      (specLookup natLess
          (insertKeys [2, 1, 3] ++ [TreeOp.erase 2, TreeOp.insert (1, ())]) 3 = none →
        node = t.head) ∧
      (∀ e, specLookup natLess
          (insertKeys [2, 1, 3] ++ [TreeOp.erase 2, TreeOp.insert (1, ())]) 3 = some e →
        node ≠ t.head ∧ KeyEquiv natLess (m.key node) 3 ∧ m.value node = e) :=
  ⟨natLess_swo, by decide,
    tree_refines_finite_map natLess_swo true TreeMem.init
      (insertKeys [2, 1, 3] ++ [TreeOp.erase 2, TreeOp.insert (1, ())]) 3 (by decide)⟩

theorem climbRight_step_right {m : TreeMem K V} {x c : Nat} (f : Nat)
    (hp : m.parent c = x) (hx : m.is_nil x = false) (hr : m.right x = c) :
    climbRight m (f + 1) c = climbRight m f x := by
  conv_lhs => unfold climbRight
  simp [hp, hx, hr]

theorem climbRight_step_stop {m : TreeMem K V} {x c : Nat} (f : Nat)
    (hp : m.parent c = x) (hr : m.is_nil x = true ∨ m.right x ≠ c) :
    climbRight m (f + 1) c = some x := by
  conv_lhs => unfold climbRight
  rw [hp]
  rcases hr with hr | hr
  · simp [hr]
  · simp [hr]

/-- The climb of `operator++` from a node without right child inside a subtree:
it stops at the next node of the subtree in order, or it leaves the subtree
through its root. -/
theorem Rep.climb {m : TreeMem K V} {head : Nat} (hnil : m.is_nil head = true) :
    ∀ (s : Shape) (par x : Nat), Rep m head s par x → s.addrs.Nodup →
      ∀ (pre : List Nat) (a : Nat) (post : List Nat), s.addrs = pre ++ a :: post →
      m.right a = head →
      (∀ b post', post = b :: post' → ∀ f, s.addrs.length ≤ f → climbRight m f a = some b) ∧
      (post = [] → ∃ k, k + 1 ≤ s.addrs.length ∧ ∀ f, climbRight m (f + k) a = climbRight m f x)
  | Shape.nil, _, _, _, _, pre, a, post, hs, _ => by simp [Shape.addrs] at hs
  | Shape.node l p r, par, x, h, hnd, pre, a, post, hs, hra => by
    obtain ⟨hx, hn, hp, hl, hr⟩ := h
    subst hx
    have hxh : x ≠ head := by
      intro hc; rw [hc, hnil] at hn; exact absurd hn (by simp)
    have hsa : (Shape.node l x r).addrs = l.addrs ++ x :: r.addrs := rfl
    rw [hsa] at hs hnd ⊢
    have hnd0 := nodup_around hnd
    have hmem : a ∈ l.addrs ++ x :: r.addrs := by rw [hs]; simp
    rcases List.mem_append.1 hmem with hal | hax
    · -- the node lies in the left subtree
      obtain ⟨p1, p2, hl12⟩ := List.append_of_mem hal
      have hs' : p1 ++ a :: (p2 ++ x :: r.addrs) = pre ++ a :: post := by
        rw [← hs, hl12]; simp
      have hu := nodup_split_unique hs' (by rw [hs', ← hs]; exact hnd)
      obtain ⟨i1, i2⟩ := Rep.climb hnil l x (m.left x) hl hnd0.2.2.2.1 p1 a p2 hl12 hra
      have hlroot : m.left x ∈ l.addrs := by
        rcases Rep.root_in l _ _ hl with h1 | h1
        · have := Rep.nil_of_head l _ hnil (h1 ▸ hl)
          subst this
          simp [Shape.addrs] at hal
        · exact h1
      have hpl : m.parent (m.left x) = x := by
        rcases Rep.root l _ _ hl with ⟨h1, -⟩ | ⟨ll, lr, h1⟩
        · subst h1; simp [Shape.addrs] at hal
        · subst h1; exact hl.2.2.1
      have hrl : m.right x ≠ m.left x := by
        rcases Rep.root_in r _ _ hr with h1 | h1
        · rw [h1]; intro hc
          exact Rep.head_not_mem hnil l _ _ hl (hc ▸ hlroot)
        · intro hc
          exact hnd0.2.2.1 _ hlroot (hc ▸ h1)
      refine ⟨?_, ?_⟩
      · intro b post' hpost f hf
        simp only [List.length_append, List.length_cons] at hf
        cases p2 with
        | nil =>
          have hb : b = x := by
            have := hu.2; rw [hpost] at this
            simp only [List.nil_append, List.cons.injEq] at this
            exact this.1.symm
          obtain ⟨k, hk, hclimb⟩ := i2 rfl
          obtain ⟨f', hf'⟩ : ∃ f', f = (f' + 1) + k := ⟨f - k - 1, by omega⟩
          rw [hf', hclimb, hb]
          exact climbRight_step_stop f' hpl (Or.inr hrl)
        | cons c p2' =>
          have hb : b = c := by
            have := hu.2; rw [hpost] at this
            simp only [List.cons_append, List.cons.injEq] at this
            exact this.1.symm
          rw [hb]
          exact i1 c p2' rfl f (by omega)
      · intro hpost
        have := hu.2; rw [hpost] at this
        simp at this
    · rcases List.mem_cons.1 hax with hax | har
      · -- the node is the root of the subtree
        subst hax
        have hu := nodup_split_unique hs hnd
        have hr0 : r = Shape.nil := Rep.nil_of_head r _ hnil (hra ▸ hr)
        subst hr0
        refine ⟨?_, ?_⟩
        · intro b post' hpost
          have := hu.2; rw [hpost] at this
          simp [Shape.addrs] at this
        · intro _
          exact ⟨0, by simp only [List.length_append, List.length_cons]; omega, fun f => rfl⟩
      · -- the node lies in the right subtree
        obtain ⟨p1, p2, hr12⟩ := List.append_of_mem har
        have hs' : (l.addrs ++ x :: p1) ++ a :: p2 = pre ++ a :: post := by
          rw [← hs, hr12]; simp
        have hu := nodup_split_unique hs' (by rw [hs', ← hs]; exact hnd)
        obtain ⟨i1, i2⟩ := Rep.climb hnil r x (m.right x) hr hnd0.2.2.2.2 p1 a p2 hr12 hra
        have hpr : m.parent (m.right x) = x := by
          rcases Rep.root r _ _ hr with ⟨h1, -⟩ | ⟨rl, rr, h1⟩
          · subst h1; simp [Shape.addrs] at har
          · subst h1; exact hr.2.2.1
        refine ⟨?_, ?_⟩
        · intro b post' hpost f hf
          simp only [List.length_append, List.length_cons] at hf
          exact i1 b post' (by rw [hu.2, hpost]) f (by omega)
        · intro hpost
          obtain ⟨k, hk, hclimb⟩ := i2 (by rw [hu.2, hpost])
          refine ⟨k + 1, by simp only [List.length_append, List.length_cons]; omega, ?_⟩
          intro f
          have : f + (k + 1) = (f + 1) + k := by omega
          rw [this, hclimb]
          exact climbRight_step_right f hpr hn rfl

/-- `operator++` on a node of a well-formed tree gives the next node in order,
or `end()` after the last one. -/
theorem increment_spec {comp : K → K → Bool} {m : TreeMem K V} {t : TreeValue}
    {L : List Nat} (h : TreeInv comp m t L) {pre post : List Nat} {a : Nat}
    (hL : L = pre ++ a :: post) {fuel : Nat} (hf : L.length < fuel) :
    increment fuel m a = some (post.head?.getD t.head) := by
  have ha : a ∈ L := by rw [hL]; simp
  have hreal := h.real ha
  have hrm : m.right a = t.head ∨ m.right a ∈ L := (h.children ha).2.imp id (fun x => x.1)
  unfold increment
  rw [hreal]
  simp only [Bool.false_eq_true, if_false]
  by_cases hrn : m.is_nil (m.right a) = true
  · rw [if_pos hrn]
    have hra : m.right a = t.head := (h.nil_child hrm).1 hrn
    obtain ⟨s, hs, hsL⟩ := h.shape
    obtain ⟨i1, i2⟩ := Rep.climb h.head_nil s _ _ hs (hsL ▸ h.nodup) pre a post
      (by rw [hsL, hL]) hra
    cases post with
    | nil =>
      obtain ⟨k, hk, hclimb⟩ := i2 rfl
      rw [hsL] at hk
      obtain ⟨f', hf'⟩ : ∃ f', fuel = (f' + 1) + k := ⟨fuel - k - 1, by omega⟩
      rw [hf', hclimb]
      have hroot : m.parent (m.parent t.head) = t.head := by
        rcases Rep.root s _ _ hs with ⟨h1, h2⟩ | ⟨l, r, h1⟩
        · subst h1
          rw [← hsL] at ha; simp [Shape.addrs] at ha
        · subst h1; exact hs.2.2.1
      exact climbRight_step_stop f' hroot (Or.inl h.head_nil)
    | cons b post' =>
      exact i1 b post' rfl fuel (by rw [hsL]; omega)
  · rw [if_neg hrn]
    have hrn' : m.is_nil (m.right a) = false := by
      cases hc : m.is_nil (m.right a)
      · rfl
      · exact absurd hc hrn
    obtain ⟨l, r, pre', post', hL', hrep, -, -, -, -⟩ := h.zoom ha
    obtain ⟨-, -, -, -, hrr⟩ := hrep
    have hrne : r ≠ Shape.nil := by
      intro hc; subst hc
      have : m.right a = t.head := hrr
      rw [this, h.head_nil] at hrn'; exact absurd hrn' (by simp)
    have hlen : r.addrs.length ≤ fuel := by
      have := congrArg List.length hL'
      simp only [List.length_append, List.length_cons] at this
      omega
    obtain ⟨q, rest, hq, hrest, -⟩ := minInSubTree_spec h.head_nil r a (m.right a) fuel hrr
      hrne hlen
    rw [hq]
    have hs' : (pre' ++ l.addrs) ++ a :: (q :: rest ++ post') = pre ++ a :: post := by
      rw [← hL, hL', hrest]; simp
    have hu := nodup_split_unique hs' (by rw [hs', ← hL]; exact h.nodup)
    rw [← hu.2]; rfl

theorem traverseFrom_spec {comp : K → K → Bool} {m : TreeMem K V} {t : TreeValue}
    {L : List Nat} (h : TreeInv comp m t L) {fuel : Nat} (hf : L.length < fuel) :
    ∀ (post pre : List Nat) (steps : Nat), L = pre ++ post → post.length < steps →
      traverseFrom m t.head fuel steps (post.head?.getD t.head) = some post
  | [], _, steps, _, hs => by
    obtain ⟨s', rfl⟩ : ∃ s', steps = s' + 1 := ⟨steps - 1, by simp at hs; omega⟩
    simp [traverseFrom]
  | a :: post, pre, steps, hL, hs => by
    obtain ⟨s', rfl⟩ : ∃ s', steps = s' + 1 := ⟨steps - 1, by simp at hs; omega⟩
    have ha : a ∈ L := by rw [hL]; simp
    have hne : a ≠ t.head := h.ne_head ha
    have hinc := increment_spec h hL hf
    have hrec := traverseFrom_spec h hf post (pre ++ [a]) s' (by rw [hL]; simp)
      (by simp only [List.length_cons] at hs; omega)
    simp only [traverseFrom, List.head?_cons, Option.getD_some, hne, if_false]
    rw [hinc]
    simp only
    rw [hrec]

/-- The traversal by `++` from `begin()` to `end()` of a well-formed tree meets
exactly its nodes in order. -/
theorem traverse_spec {comp : K → K → Bool} {m : TreeMem K V} {t : TreeValue}
    {L : List Nat} (h : TreeInv comp m t L) {fuel : Nat} (hf : L.length < fuel) :
    traverse fuel m t = some L := by
  unfold traverse
  rw [h.head_left]
  exact traverseFrom_spec h hf L [] fuel rfl hf

/-- C4: for every sequence of inserts and erases applied to an empty tree, with a
strict weak order as comparator, the run returns a tree on which the traversal
from `begin()` to `end()` by repeated `++` returns, visits `size` nodes, and
visits keys in strictly increasing order: every visited key is below every key
visited later. -/
theorem traversal_strictly_increasing {comp : K → K → Bool} (hswo : StrictWeakOrder comp)
    (extractable : Bool) (m0 : TreeMem K V) (ops : List (TreeOp K V)) {fuel : Nat}
    (hf : ops.length < fuel) :
    ∃ m t visited, runOps comp fuel extractable (createEmptyTree m0) ops = some (m, t) ∧
      traverse fuel m t = some visited ∧ visited.length = t.size ∧
      (visited.map m.key).Pairwise (fun a b => comp a b = true) := by
  obtain ⟨m, t, L, hrun, h, -, hlen⟩ := reachable_inv hswo extractable m0 ops hf
  refine ⟨m, t, L, hrun, traverse_spec h (by omega), h.size_eq.symm, ?_⟩
  rw [List.pairwise_map]
  exact h.sorted

theorem traversal_strictly_increasing_witness :
    StrictWeakOrder natLess ∧
    (insertKeys [2, 1, 3, 5, 4] ++ [TreeOp.erase 2]).length < 8 ∧
    ∃ m t visited,
      runOps natLess 8 true emptyNatTree (insertKeys [2, 1, 3, 5, 4] ++ [TreeOp.erase 2]) =
        some (m, t) ∧
      traverse 8 m t = some visited ∧ visited.length = t.size ∧
      (visited.map m.key).Pairwise (fun a b => natLess a b = true) :=
  ⟨natLess_swo, by decide,
    traversal_strictly_increasing natLess_swo true TreeMem.init
      (insertKeys [2, 1, 3, 5, 4] ++ [TreeOp.erase 2]) (by decide)⟩

theorem balanceTree_is_nil {fuel : Nat} {m m' : TreeMem K V} {head node : Nat}
    (h : balanceTree fuel m head node = some m') : m'.is_nil = m.is_nil := by
  unfold balanceTree at h
  cases hc : checkBalance m fuel node with
  | none => rw [hc] at h; simp at h
  | some res =>
    rw [hc] at h
    obtain ⟨q, rot⟩ := res
    cases rot with
    | none =>
      simp only [Option.some.injEq] at h
      rw [← h]
    | smallLeft =>
      have := (changeHeights_fields _ _ _ _ h).2.2.2.1
      rw [this, leftRotate_is_nil]
    | smallRight =>
      have := (changeHeights_fields _ _ _ _ h).2.2.2.1
      rw [this, rightRotate_is_nil]
    | bigLeft =>
      have := (changeHeights_fields _ _ _ _ h).2.2.2.1
      rw [this, leftRotate_is_nil, rightRotate_is_nil]
    | bigRight =>
      have := (changeHeights_fields _ _ _ _ h).2.2.2.1
      rw [this, rightRotate_is_nil, leftRotate_is_nil]

theorem extractFinish_is_nil {fuel : Nat} {t t' : TreeValue} {m m' : TreeMem K V} {bn : Nat}
    (h : extractFinish fuel t m bn = some (m', t')) : m'.is_nil = m.is_nil := by
  unfold extractFinish at h
  cases hc : changeHeights fuel m bn with
  | none => rw [hc] at h; simp at h
  | some m1 =>
    rw [hc] at h
    simp only at h
    cases hb : balanceTree fuel m1 t.head bn with
    | none => rw [hb] at h; simp at h
    | some m2 =>
      rw [hb] at h
      simp only [Option.some.injEq, Prod.mk.injEq] at h
      rw [← h.1, balanceTree_is_nil hb, (changeHeights_fields _ _ _ _ hc).2.2.2.1]

theorem unlinkLeaf_is_nil (m : TreeMem K V) (head e : Nat) :
    (unlinkLeaf m head e).is_nil = m.is_nil := by
  unfold unlinkLeaf
  simp only []
  split_ifs <;> rfl

theorem unlinkInner_is_nil (m : TreeMem K V) (head e q : Nat) :
    (unlinkInner m head e q).1.is_nil = m.is_nil := by
  rw [unlinkInner_eq]
  simp only
  rw [(finishLinks_fields _ _ _ _).1]
  unfold innerCore
  split_ifs
  · simp only
    have h1 : ∀ m2 : TreeMem K V, (graftDeep m2 e q).is_nil = m2.is_nil := by
      intro m2; unfold graftDeep; simp only []; split_ifs <;> rfl
    rw [h1, (spliceOut_fields _ _).1, (relinkParent_fields _ _ _ _).1]
  · simp only
    have h1 : ∀ m2 : TreeMem K V, (graftDirect m2 e q).is_nil = m2.is_nil := by
      intro m2; unfold graftDirect; simp only []; split_ifs <;> rfl
    rw [h1, (relinkParent_fields _ _ _ _).1]

/-- `extractNode` never changes which addresses are sentinels. -/
theorem extractNode_is_nil {fuel : Nat} {t t' : TreeValue} {m m' : TreeMem K V} {e : Nat}
    (h : extractNode fuel m t e = some (m', t')) : m'.is_nil = m.is_nil := by
  by_cases hleaf : m.is_nil (m.left e) = true ∧ m.is_nil (m.right e) = true
  · rw [extractNode_leaf fuel m t e hleaf.1 hleaf.2] at h
    rw [extractFinish_is_nil h, unlinkLeaf_is_nil]
  · have hinner : (m.is_nil (m.left e) && m.is_nil (m.right e)) = false := by
      cases h1 : m.is_nil (m.left e) <;> cases h2 : m.is_nil (m.right e) <;> simp
      exact hleaf ⟨h1, h2⟩
    rw [extractNode_inner fuel m t e hinner] at h
    cases hq : (if differenceHeights m e ≥ 0 then minInSubTree m fuel (m.right e)
        else maxInSubTree m fuel (m.left e)) with
    | none => rw [hq] at h; simp at h
    | some q =>
      rw [hq] at h
      simp only at h
      rw [extractFinish_is_nil h, unlinkInner_is_nil]

theorem dupIn_congr {comp : K → K → Bool} {m m' : TreeMem K V} (hv : m'.value = m.value)
    (LB : List Nat) (a : Nat) : dupIn comp m' LB a = dupIn comp m LB a := by
  have : m'.key = m.key := by funext b; simp [TreeMem.key, hv]
  simp [dupIn, this]

/-- The loop of `merge` from a position of `other`: the nodes of `other` still
to visit whose keys are not in this tree move here, the others stay. -/
theorem mergeLoop_spec {comp : K → K → Bool} (hswo : StrictWeakOrder comp) {fuel : Nat} :
    ∀ (rest done : List Nat) (steps : Nat) (m : TreeMem K V) (tB tA : TreeValue)
      (LB : List Nat),
      TreeInv comp m tB LB → TreeInv comp m tA (done ++ rest) →
      (∀ a ∈ done ++ rest, a ∉ LB) → tA.head ∉ LB → tB.head ∉ done ++ rest →
      tB.head ≠ tA.head → (done ++ rest).length + LB.length + 1 < fuel → rest.length < steps →
      ∃ m' tB' tA' LB',
        mergeLoop comp fuel steps m tB tA (rest.head?.getD tA.head) = some (m', tB', tA') ∧
        TreeInv comp m' tB' LB' ∧
        TreeInv comp m' tA' (done ++ rest.filter (dupIn comp m LB)) ∧
        LB'.Perm (LB ++ rest.filter (fun a => !dupIn comp m LB a)) ∧
        m'.value = m.value ∧ m'.next = m.next ∧ m'.freed = m.freed ∧
        tB'.size + tA'.size = tB.size + tA.size ∧ tB'.head = tB.head ∧ tA'.head = tA.head
  | [], done, steps, m, tB, tA, LB, hB, hA, _, _, _, _, _, hs => by
    obtain ⟨s, rfl⟩ : ∃ s, steps = s + 1 := ⟨steps - 1, by simp at hs; omega⟩
    refine ⟨m, tB, tA, LB, ?_, hB, by simpa using hA, by simp, rfl, rfl, rfl, rfl, rfl, rfl⟩
    simp [mergeLoop, hA.head_nil]
  | a :: rest', done, steps, m, tB, tA, LB, hB, hA, hdisj, hhA, hhB, hne, hf, hs => by
    obtain ⟨s, rfl⟩ : ∃ s, steps = s + 1 := ⟨steps - 1, by simp at hs; omega⟩
    simp only [List.length_cons] at hs
    have haLA : a ∈ done ++ a :: rest' := by simp
    have hreal : m.is_nil a = false := hA.real haLA
    have hfA : (done ++ a :: rest').length < fuel := by omega
    have hinc : increment fuel m a = some (rest'.head?.getD tA.head) := increment_spec hA rfl hfA
    obtain ⟨res, hfind, hcase⟩ := findPlaceForNode_spec hswo hB (m.key a)
      (show LB.length < fuel by omega)
    have e1 : done ++ a :: rest' = (done ++ [a]) ++ rest' := by simp
    have hstep : mergeLoop comp fuel (s + 1) m tB tA ((a :: rest').head?.getD tA.head) =
        if res.duplicate then mergeLoop comp fuel s m tB tA (rest'.head?.getD tA.head)
        else
          match extractNode fuel m tA a with
          | Option.none => Option.none
          | some (m1, other1) =>
            match insertNode fuel
                { m1 with
                  left := upd m1.left a tB.head
                  right := upd m1.right a tB.head
                  height := upd m1.height a 1 } tB res.location a with
            | Option.none => Option.none
            | some (m3, t3, _) =>
              mergeLoop comp fuel s m3 (reparentPtr t3 other1 a).1
                (reparentPtr t3 other1 a).2 (rest'.head?.getD tA.head) := by
      simp only [List.head?_cons, Option.getD_some]
      rw [mergeLoop]
      simp only [hreal, Bool.false_eq_true, if_false, hinc, hfind]
      all_goals rfl
    rw [hstep]
    rcases hcase with ⟨c1, c2, c3⟩ | ⟨c1, l1, l2, hloc⟩
    · -- the key is already in this tree: the node stays in `other`
      rw [if_pos c1]
      have hdup : dupIn comp m LB a = true := by
        simp only [dupIn, List.any_eq_true]
        exact ⟨_, c2, (keyEquivB_iff _ _ _).2 c3⟩
      obtain ⟨m', tB', tA', LB', r1, r2, r3, r4, r5⟩ :=
        mergeLoop_spec hswo rest' (done ++ [a]) s m tB tA LB hB (e1 ▸ hA) (e1 ▸ hdisj) hhA
          (e1 ▸ hhB) hne (by rw [← e1]; exact hf) (by omega)
      refine ⟨m', tB', tA', LB', r1, r2, ?_, ?_, r5⟩
      · rw [List.filter_cons_of_pos hdup]
        simpa using r3
      · rw [List.filter_cons_of_neg (by simp [hdup])]
        exact r4
    · -- the key is new: the node moves to this tree
      have c1' : ¬ res.duplicate = true := by rw [c1]; simp
      rw [if_neg c1']
      obtain ⟨hLsplit, hl1, hl2, hslot⟩ := hloc
      have hndup : dupIn comp m LB a = false := by
        simp only [dupIn, List.any_eq_false]
        intro b hb
        rw [Bool.not_eq_true, keyEquivB_false_iff]
        intro hc
        rw [hLsplit] at hb
        rcases List.mem_append.1 hb with hb | hb
        · have := hl1 b hb; rw [hc.1] at this; exact absurd this (by simp)
        · have := hl2 b hb; rw [hc.2] at this; exact absurd this (by simp)
      obtain ⟨m1, A0, B0, hext, hAB, hinvA1, hv1, hn1, hfr1, hout1⟩ :=
        extractNode_inv hA haLA hfA
      obtain ⟨rfl, rfl⟩ := nodup_split_unique hAB hA.nodup
      have hnd := nodup_around hA.nodup
      have haAB : a ∉ done ++ rest' := by
        intro hc
        rcases List.mem_append.1 hc with hc | hc
        · exact hnd.1 hc
        · exact hnd.2.1 hc
      have hsubA : ∀ b ∈ done ++ rest', b ∈ done ++ a :: rest' := by
        intro b hb
        simp only [List.mem_append, List.mem_cons] at hb ⊢
        tauto
      have haLB : a ∉ LB := hdisj a haLA
      have hahA : a ≠ tA.head := hA.ne_head haLA
      have hahB : a ≠ tB.head := fun hc => hhB (hc ▸ haLA)
      have hnil1 : m1.is_nil = m.is_nil := extractNode_is_nil hext
      have hBout : ∀ b, b ∈ LB ∨ b = tB.head → b ∉ done ++ a :: rest' ∧ b ≠ tA.head := by
        intro b hb
        rcases hb with hb | hb
        · exact ⟨fun hc => hdisj b hc hb, fun hc => hhA (hc ▸ hb)⟩
        · rw [hb]; exact ⟨hhB, hne⟩
      have hB1 : TreeInv comp m1 tB LB :=
        hB.frame (fun b hb => hout1 b (hBout b hb).1 (hBout b hb).2) (by rw [hn1])
      rw [hext]
      simp only
      have hsame12 : ∀ b, b ≠ a → SameNode m1
          { m1 with
            left := upd m1.left a tB.head
            right := upd m1.right a tB.head
            height := upd m1.height a 1 } b := by
        intro b hb
        simp [SameNode, upd, hb]
      generalize hm2 : ({ m1 with
            left := upd m1.left a tB.head
            right := upd m1.right a tB.head
            height := upd m1.height a 1 } : TreeMem K V) = m2 at hsame12 ⊢
      have hv2 : m2.value = m.value := by rw [← hm2]; exact hv1
      have hn2 : m2.next = m.next := by rw [← hm2]; exact hn1
      have hf2 : m2.freed = m.freed := by rw [← hm2]; exact hfr1
      have hkey2 : m2.key = m.key := by funext b; simp [TreeMem.key, hv2]
      have hB2 : TreeInv comp m2 tB LB :=
        hB1.frame (fun b hb => hsame12 b (by
          rcases hb with hb | hb
          · exact fun hc => haLB (hc ▸ hb)
          · rw [hb]; exact Ne.symm hahB)) (by rw [hn2, hn1])
      have hA2 : TreeInv comp m2 { tA with size := tA.size - 1 } (done ++ rest') :=
        hinvA1.frame (fun b hb => hsame12 b (by
          rcases hb with hb | hb
          · exact fun hc => haAB (hc ▸ hb)
          · rw [hb]; exact Ne.symm hahA)) (by rw [hn2, hn1])
      have hsameB : ∀ b, b ∈ LB → SameNode m m2 b := by
        intro b hb
        exact (hout1 b (hBout b (Or.inl hb)).1 (hBout b (Or.inl hb)).2).trans
          (hsame12 b (fun hc => haLB (hc ▸ hb)))
      have hloc2 : ValidLoc comp m2 tB.head LB (m2.key a) res.location l1 l2 := by
        refine ⟨hLsplit, ?_, ?_, ?_⟩
        · intro b hb; rw [hkey2]; exact hl1 b hb
        · intro b hb; rw [hkey2]; exact hl2 b hb
        · rcases hslot with h1 | ⟨h1, h2, h3⟩ | ⟨h1, h2, h3⟩
          · exact Or.inl h1
          · refine Or.inr (Or.inl ⟨h1, h2, ?_⟩)
            have hpL : res.location.parent ∈ LB := by
              obtain ⟨ys, hys⟩ := List.getLast?_eq_some_iff.1 h2
              rw [hLsplit, hys]; simp
            rw [(hsameB _ hpL).2.2.2.1]; exact h3
          · refine Or.inr (Or.inr ⟨h1, h2, ?_⟩)
            have hpL : res.location.parent ∈ LB := by
              obtain ⟨ys, hys⟩ := List.head?_eq_some_iff.1 h2
              rw [hLsplit, hys]; simp
            rw [(hsameB _ hpL).2.2.1]; exact h3
      obtain ⟨m3, hins, hinvB3, hv3, hn3, hfr3, hout3⟩ :=
        insertNode_inv hB2 hloc2 haLB hahB
          (by rw [← hm2]; show m1.is_nil a = false; rw [hnil1]; exact hreal)
          (by rw [← hm2]; show upd m1.left a tB.head a = tB.head; simp [upd])
          (by rw [← hm2]; show upd m1.right a tB.head a = tB.head; simp [upd])
          (by rw [← hm2]; show upd m1.height a 1 a = 1; simp [upd])
          (by rw [hn2]; exact hA.alloc a haLA) (show LB.length + 1 < fuel by
            simp only [List.length_append, List.length_cons] at hf; omega)
      rw [hins]
      simp only
      have hA3 : TreeInv comp m3 { tA with size := tA.size - 1 } (done ++ rest') :=
        hA2.frame (fun b hb => hout3 b (by
            rcases hb with hb | hb
            · exact hdisj b (hsubA b hb)
            · rw [hb]; exact hhA) (by
            rcases hb with hb | hb
            · exact fun hc => hhB (hc ▸ hsubA b hb)
            · rw [hb]; exact Ne.symm hne) (by
            rcases hb with hb | hb
            · exact fun hc => haAB (hc ▸ hb)
            · rw [hb]; exact Ne.symm hahA)) (by rw [hn3])
      have hv3' : m3.value = m.value := by rw [hv3, hv2]
      obtain ⟨m', tB', tA', LB', r1, r2, r3, r4, r5, r6, r7, r8, r9, r10⟩ :=
        mergeLoop_spec hswo rest' done s m3
          (reparentPtr { tB with size := tB.size + 1 } { tA with size := tA.size - 1 } a).1
          (reparentPtr { tB with size := tB.size + 1 } { tA with size := tA.size - 1 } a).2
          (l1 ++ a :: l2) (hinvB3.of_head_size rfl rfl) (hA3.of_head_size rfl rfl)
          (by
            intro b hb hc
            rcases List.mem_append.1 hc with hc | hc
            · exact hdisj b (hsubA b hb) (by rw [hLsplit]; simp [hc])
            · rcases List.mem_cons.1 hc with hc | hc
              · exact haAB (hc ▸ hb)
              · exact hdisj b (hsubA b hb) (by rw [hLsplit]; simp [hc]))
          (by
            show tA.head ∉ l1 ++ a :: l2
            intro hc
            rcases List.mem_append.1 hc with hc | hc
            · exact hhA (by rw [hLsplit]; simp [hc])
            · rcases List.mem_cons.1 hc with hc | hc
              · exact hahA hc.symm
              · exact hhA (by rw [hLsplit]; simp [hc]))
          (by
            show tB.head ∉ done ++ rest'
            exact fun hc => hhB (hsubA _ hc))
          hne
          (by
            show (done ++ rest').length + (l1 ++ a :: l2).length + 1 < fuel
            have h1 := congrArg List.length hLsplit
            simp only [List.length_append, List.length_cons] at hf h1 ⊢
            omega)
          (by omega)
      have hsz : 1 ≤ tA.size := by
        rw [hA.size_eq]; simp only [List.length_append, List.length_cons]; omega
      have hfilt : ∀ x ∈ rest', dupIn comp m3 (l1 ++ a :: l2) x = dupIn comp m LB x := by
        intro x hx
        rw [dupIn_congr hv3']
        have hax : keyEquivB comp (m.key a) (m.key x) = false := by
          rw [keyEquivB_false_iff]
          intro hc
          have hsorted := hA.sorted
          rw [List.pairwise_append] at hsorted
          have := (List.pairwise_cons.1 hsorted.2.1).1 x hx
          rw [hc.1] at this; exact absurd this (by simp)
        simp only [dupIn, hLsplit, List.any_append, List.any_cons, hax, Bool.false_or]
      refine ⟨m', tB', tA', LB', r1, r2, ?_, ?_, by rw [r5, hv3'], by rw [r6, hn3, hn2],
        by rw [r7, hfr3, hf2], ?_, r9, r10⟩
      · rw [List.filter_cons_of_neg (by simp [hndup])]
        rw [← List.filter_congr hfilt]
        exact r3
      · rw [List.filter_cons_of_pos (by simp [hndup])]
        have hfilt' : ∀ x ∈ rest', (!dupIn comp m3 (l1 ++ a :: l2) x) = !dupIn comp m LB x := by
          intro x hx; rw [hfilt x hx]
        rw [← List.filter_congr hfilt']
        refine r4.trans ?_
        rw [hLsplit]
        simp only [List.append_assoc]
        refine List.Perm.append_left l1 ?_
        simp only [List.cons_append]
        exact List.perm_middle.symm
      · rw [r8]
        show tB.size + 1 + (tA.size - 1) = tB.size + tA.size
        omega

theorem sampleTwo_first : TreeInv natLess sampleTwo.1 sampleTwo.2.1 [1, 2] := by
  refine ⟨by decide!, by decide!,
    ⟨Shape.node Shape.nil 1 (Shape.node Shape.nil 2 Shape.nil), ?_, rfl⟩,
    by decide, ?_, by decide!, by decide!, by decide!, ?_, by decide!, ?_⟩
  · simp only [Rep]
    decide!
  · simp only [List.pairwise_cons, List.mem_cons, List.mem_singleton, List.not_mem_nil,
      forall_eq_or_imp, forall_eq, false_implies, implies_true, List.Pairwise.nil, and_true,
      IsEmpty.forall_iff]
    decide!
  · simp only [List.mem_cons, List.mem_singleton, List.not_mem_nil, or_false,
      forall_eq_or_imp, forall_eq]
    decide!
  · simp only [List.mem_cons, List.mem_singleton, List.not_mem_nil, or_false,
      forall_eq_or_imp, forall_eq]
    decide!

theorem sampleTwo_second : TreeInv natLess sampleTwo.1 sampleTwo.2.2 [4, 5] := by
  refine ⟨by decide!, by decide!,
    ⟨Shape.node Shape.nil 4 (Shape.node Shape.nil 5 Shape.nil), ?_, rfl⟩,
    by decide, ?_, by decide!, by decide!, by decide!, ?_, by decide!, ?_⟩
  · simp only [Rep]
    decide!
  · simp only [List.pairwise_cons, List.mem_cons, List.mem_singleton, List.not_mem_nil,
      forall_eq_or_imp, forall_eq, false_implies, implies_true, List.Pairwise.nil, and_true,
      IsEmpty.forall_iff]
    decide!
  · simp only [List.mem_cons, List.mem_singleton, List.not_mem_nil, or_false,
      forall_eq_or_imp, forall_eq]
    decide!
  · simp only [List.mem_cons, List.mem_singleton, List.not_mem_nil, or_false,
      forall_eq_or_imp, forall_eq]
    decide!

/-- C10: `B.merge(A)` on two distinct well-formed trees `B` (nodes `LB`) and `A`
(nodes `LA`) that share one memory and have no node in common.  The call
returns; afterwards the traversal of `A` meets exactly the nodes of old `A`
whose key is equivalent to a key of old `B`, in their old order, and the
traversal of `B` meets the nodes of old `B` together with the nodes of old `A`
whose key is not in old `B` (the same addresses, a permutation of the two
lists); both trees are well formed; no stored value changes, no node is
allocated or freed, and the sum of the two sizes is unchanged. -/
theorem merge_union_intersection {comp : K → K → Bool} (hswo : StrictWeakOrder comp)
    {m : TreeMem K V} {tB tA : TreeValue} {LB LA : List Nat}
    (hB : TreeInv comp m tB LB) (hA : TreeInv comp m tA LA)
    (hdisj : ∀ a ∈ LA, a ∉ LB) (hhA : tA.head ∉ LB) (hhB : tB.head ∉ LA)
    (hne : tB.head ≠ tA.head) {fuel : Nat} (hf : LA.length + LB.length + 1 < fuel) :
    ∃ m' tB' tA' LB', merge comp fuel m tB tA = some (m', tB', tA') ∧
      traverse fuel m' tB' = some LB' ∧
      traverse fuel m' tA' = some (LA.filter (dupIn comp m LB)) ∧
      LB'.Perm (LB ++ LA.filter (fun a => !dupIn comp m LB a)) ∧
      TreeInv comp m' tB' LB' ∧ TreeInv comp m' tA' (LA.filter (dupIn comp m LB)) ∧
      m'.value = m.value ∧ m'.next = m.next ∧ m'.freed = m.freed ∧
      tB'.size + tA'.size = tB.size + tA.size ∧
      tB'.size = LB'.length ∧ tA'.size = (LA.filter (dupIn comp m LB)).length := by
  obtain ⟨m', tB', tA', LB', r1, r2, r3, r4, r5, r6, r7, r8, -, -⟩ :=
    mergeLoop_spec hswo LA [] fuel m tB tA LB hB (by simpa using hA) (by simpa using hdisj) hhA
      (by simpa using hhB) hne (by simpa using hf) (by omega)
  simp only [List.nil_append] at r3
  have hlenA : (LA.filter (dupIn comp m LB)).length ≤ LA.length := List.length_filter_le _ _
  have hlenB : LB'.length ≤ LB.length + LA.length := by
    rw [r4.length_eq, List.length_append]
    have := List.length_filter_le (fun a => !dupIn comp m LB a) LA
    omega
  refine ⟨m', tB', tA', LB', ?_, traverse_spec r2 (by omega), traverse_spec r3 (by omega), r4,
    r2, r3, r5, r6, r7, r8, r2.size_eq, r3.size_eq⟩
  unfold merge
  rw [if_neg hne, hA.head_left]
  exact r1

theorem merge_union_intersection_witness :
    StrictWeakOrder natLess ∧
    TreeInv natLess sampleTwo.1 sampleTwo.2.1 [1, 2] ∧
    TreeInv natLess sampleTwo.1 sampleTwo.2.2 [4, 5] ∧
    (∀ a ∈ [4, 5], a ∉ [1, 2]) ∧ sampleTwo.2.2.head ∉ [1, 2] ∧ sampleTwo.2.1.head ∉ [4, 5] ∧
    sampleTwo.2.1.head ≠ sampleTwo.2.2.head ∧ [4, 5].length + [1, 2].length + 1 < 8 ∧
    ∃ m' tB' tA' LB', merge natLess 8 sampleTwo.1 sampleTwo.2.1 sampleTwo.2.2 =
        some (m', tB', tA') ∧
      traverse 8 m' tB' = some LB' ∧
      traverse 8 m' tA' = some ([4, 5].filter (dupIn natLess sampleTwo.1 [1, 2])) ∧
      LB'.Perm ([1, 2] ++ [4, 5].filter (fun a => !dupIn natLess sampleTwo.1 [1, 2] a)) ∧
      TreeInv natLess m' tB' LB' ∧
      TreeInv natLess m' tA' ([4, 5].filter (dupIn natLess sampleTwo.1 [1, 2])) ∧
      m'.value = sampleTwo.1.value ∧ m'.next = sampleTwo.1.next ∧
      m'.freed = sampleTwo.1.freed ∧
      tB'.size + tA'.size = sampleTwo.2.1.size + sampleTwo.2.2.size ∧
      tB'.size = LB'.length ∧
      tA'.size = ([4, 5].filter (dupIn natLess sampleTwo.1 [1, 2])).length :=
  ⟨natLess_swo, sampleTwo_first, sampleTwo_second, by decide, by decide!, by decide!,
    by decide!, by decide,
    merge_union_intersection natLess_swo sampleTwo_first sampleTwo_second (by decide)
      (by decide!) (by decide!) (by decide!) (by decide)⟩

/-- C13: scenario 1.  Inserting 5, 3, 8, 1, 4, 7, 9, 2, 6 one at a time into an
empty tree keeps every real node balanced after every insertion (after each of
the prefixes of length 0 to 9), and the traversal of the final tree from
`begin()` to `end()` by `++` meets the keys 1, 2, ..., 9 in this order. -/
theorem scenario_one_balanced_and_sorted :
    (List.range 10).all scenarioBalancedAfter = true ∧
    (runOps natLess 12 true emptyNatTree (insertKeys scenarioKeys)).bind
        (fun s => (traverse 12 s.1 s.2).map (fun visited => visited.map s.1.key))
      = some [1, 2, 3, 4, 5, 6, 7, 8, 9] ∧
    (runOps natLess 12 true emptyNatTree (insertKeys scenarioKeys)).map (fun s => s.2.size)
      = some 9 := by
  decide!

/-- `merge` on two disjoint well-formed trees in one memory: the result is
well formed, the duplicates stay in `other`, the other nodes move. -/
theorem merge_spec {comp : K → K → Bool} (hswo : StrictWeakOrder comp)
    {m : TreeMem K V} {tB tA : TreeValue} {LB LA : List Nat}
    (hB : TreeInv comp m tB LB) (hA : TreeInv comp m tA LA)
    (hdisj : ∀ a ∈ LA, a ∉ LB) (hhA : tA.head ∉ LB) (hhB : tB.head ∉ LA)
    (hne : tB.head ≠ tA.head) {fuel : Nat} (hf : LA.length + LB.length + 1 < fuel) :
    ∃ m' tB' tA' LB', merge comp fuel m tB tA = some (m', tB', tA') ∧
      TreeInv comp m' tB' LB' ∧ TreeInv comp m' tA' (LA.filter (dupIn comp m LB)) ∧
      LB'.Perm (LB ++ LA.filter (fun a => !dupIn comp m LB a)) ∧
      m'.value = m.value ∧ LB'.length < fuel ∧ (LA.filter (dupIn comp m LB)).length < fuel := by
  obtain ⟨m', tB', tA', LB', r1, r2, r3, r4, r5, -, -, -, -, -⟩ :=
    mergeLoop_spec hswo LA [] fuel m tB tA LB hB (by simpa using hA) (by simpa using hdisj) hhA
      (by simpa using hhB) hne (by simpa using hf) (by omega)
  simp only [List.nil_append] at r3
  have hlenA : (LA.filter (dupIn comp m LB)).length ≤ LA.length := List.length_filter_le _ _
  have hlenB : LB'.length ≤ LB.length + LA.length := by
    rw [r4.length_eq, List.length_append]
    have := List.length_filter_le (fun a => !dupIn comp m LB a) LA
    omega
  refine ⟨m', tB', tA', LB', ?_, r2, r3, r4, r5, by omega, by omega⟩
  unfold merge
  rw [if_neg hne, hA.head_left]
  exact r1

theorem dupIn_iff {comp : K → K → Bool} (m : TreeMem K V) (LB : List Nat) (a : Nat) :
    dupIn comp m LB a = true ↔ ∃ b ∈ LB, KeyEquiv comp (m.key b) (m.key a) := by
  simp only [dupIn, List.any_eq_true, keyEquivB_iff]

/-- C11: duplicates under `B.merge(A)`.  For two distinct well-formed trees in
one memory without common nodes, and a key held by node `b` of `B` and by node
`a` of `A`: the call returns; afterwards `B.find` of the key is still the node
`b` with its old value, `A.find` of the key is still the node `a` with its old
value, and `A` is a well-formed search tree whose traversal meets exactly the
nodes of old `A` whose key is also a key of old `B`. -/
theorem merge_keeps_duplicates {comp : K → K → Bool} (hswo : StrictWeakOrder comp)
    {m : TreeMem K V} {tB tA : TreeValue} {LB LA : List Nat}
    (hB : TreeInv comp m tB LB) (hA : TreeInv comp m tA LA)
    (hdisj : ∀ a ∈ LA, a ∉ LB) (hhA : tA.head ∉ LB) (hhB : tB.head ∉ LA)
    (hne : tB.head ≠ tA.head) {fuel : Nat} (hf : LA.length + LB.length + 1 < fuel)
    {b a : Nat} (hb : b ∈ LB) (ha : a ∈ LA) (hdup : KeyEquiv comp (m.key b) (m.key a)) :
    ∃ m' tB' tA', merge comp fuel m tB tA = some (m', tB', tA') ∧
      find comp fuel m' tB' (m.key a) = some b ∧ m'.value b = m.value b ∧
      find comp fuel m' tA' (m.key a) = some a ∧ m'.value a = m.value a ∧
      TreeInv comp m' tA' (LA.filter (dupIn comp m LB)) ∧
      traverse fuel m' tA' = some (LA.filter (dupIn comp m LB)) ∧
      (∀ x, x ∈ LA.filter (dupIn comp m LB) ↔
        x ∈ LA ∧ ∃ y ∈ LB, KeyEquiv comp (m.key y) (m.key x)) := by
  obtain ⟨m', tB', tA', LB', r1, r2, r3, r4, r5, r6, r7⟩ :=
    merge_spec hswo hB hA hdisj hhA hhB hne hf
  have hkey : m'.key = m.key := by funext x; simp [TreeMem.key, r5]
  have hbB' : b ∈ LB' := r4.symm.subset (List.mem_append_left _ hb)
  have haA' : a ∈ LA.filter (dupIn comp m LB) :=
    List.mem_filter.2 ⟨ha, (dupIn_iff m LB a).2 ⟨b, hb, hdup⟩⟩
  have hswo' := hswo
  refine ⟨m', tB', tA', r1, ?_, by rw [r5], ?_, by rw [r5], r3, traverse_spec r3 r7, ?_⟩
  · obtain ⟨node, hnode, hcase⟩ := find_spec hswo r2 (m.key a) r6
    rw [hnode]
    rcases hcase with ⟨c1, c2⟩ | ⟨-, c2⟩
    · rw [r2.equiv_unique hswo c1 hbB' c2 (by rw [hkey]; exact hdup)]
    · exact absurd (by rw [hkey]; exact hdup) (c2 b hbB')
  · obtain ⟨node, hnode, hcase⟩ := find_spec hswo r3 (m.key a) r7
    rw [hnode]
    have hrefl : KeyEquiv comp (m'.key a) (m.key a) := by
      rw [hkey]; exact ⟨hswo.irrefl _, hswo.irrefl _⟩
    rcases hcase with ⟨c1, c2⟩ | ⟨-, c2⟩
    · rw [r3.equiv_unique hswo c1 haA' c2 hrefl]
    · exact absurd hrefl (c2 a haA')
  · intro x
    rw [List.mem_filter, dupIn_iff]

theorem merge_keeps_duplicates_witness :
    StrictWeakOrder natLess ∧
    TreeInv natLess sampleTwo.1 sampleTwo.2.1 [1, 2] ∧
    TreeInv natLess sampleTwo.1 sampleTwo.2.2 [4, 5] ∧
    (∀ a ∈ [4, 5], a ∉ [1, 2]) ∧ sampleTwo.2.2.head ∉ [1, 2] ∧ sampleTwo.2.1.head ∉ [4, 5] ∧
    sampleTwo.2.1.head ≠ sampleTwo.2.2.head ∧ [4, 5].length + [1, 2].length + 1 < 8 ∧
    2 ∈ [1, 2] ∧ 5 ∈ [4, 5] ∧ KeyEquiv natLess (sampleTwo.1.key 2) (sampleTwo.1.key 5) ∧
    ∃ m' tB' tA', merge natLess 8 sampleTwo.1 sampleTwo.2.1 sampleTwo.2.2 =
        some (m', tB', tA') ∧
      find natLess 8 m' tB' (sampleTwo.1.key 5) = some 2 ∧
      m'.value 2 = sampleTwo.1.value 2 ∧
      find natLess 8 m' tA' (sampleTwo.1.key 5) = some 5 ∧
      m'.value 5 = sampleTwo.1.value 5 ∧
      TreeInv natLess m' tA' ([4, 5].filter (dupIn natLess sampleTwo.1 [1, 2])) ∧
      traverse 8 m' tA' = some ([4, 5].filter (dupIn natLess sampleTwo.1 [1, 2])) ∧
      (∀ x, x ∈ [4, 5].filter (dupIn natLess sampleTwo.1 [1, 2]) ↔
        x ∈ [4, 5] ∧ ∃ y ∈ [1, 2], KeyEquiv natLess (sampleTwo.1.key y) (sampleTwo.1.key x)) :=
  ⟨natLess_swo, sampleTwo_first, sampleTwo_second, by decide, by decide!, by decide!,
    by decide!, by decide, by decide, by decide, by unfold KeyEquiv; decide!,
    merge_keeps_duplicates natLess_swo sampleTwo_first sampleTwo_second (by decide)
      (by decide!) (by decide!) (by decide!) (by decide) (by decide) (by decide)
      (by unfold KeyEquiv; decide!)⟩

/-- C12 (refuted by the code): a hint at the maximum node.  In the tree built
by inserting 2, 1, 3 (head at address 0, the keys at the addresses 1, 2, 3)
the node 3 is the maximum and is not `begin()`; `++` from it is the head
sentinel, whose `value` was never constructed.  `emplaceHint` with this hint
and the new key 4 compares 4 with that value and has no defined result, with
either way of extracting the key, while `emplace_` of the same key returns
with the new node 4 inserted. -/
theorem hint_at_maximum_reads_sentinel_value :
    (runOps natLess 6 true emptyNatTree (insertKeys [2, 1, 3])).map
        (fun s => (s.2.head, s.1.right s.2.head, s.1.left s.2.head, s.1.key 3))
      = some (0, 3, 2, 3) ∧
    (runOps natLess 6 true emptyNatTree (insertKeys [2, 1, 3])).map
        (fun s => (increment 6 s.1 3, s.1.is_nil 0)) = some (some 0, true) ∧
    (runOps natLess 6 true emptyNatTree (insertKeys [2, 1, 3])).map
        (fun s => (emplaceHint natLess 6 true s.1 s.2 3 (4, ())).isSome) = some false ∧
    (runOps natLess 6 true emptyNatTree (insertKeys [2, 1, 3])).map
        (fun s => (emplaceHint natLess 6 false s.1 s.2 3 (4, ())).isSome) = some false ∧
    (runOps natLess 6 true emptyNatTree (insertKeys [2, 1, 3])).bind
        (fun s => (emplace_ natLess 6 true s.1 s.2 (4, ())).map (fun r => (r.2.2.1, r.2.2.2)))
      = some (4, true) := by
  decide!

/-- C16 (refuted by the code): `sort` is not stable.  The list holds the two
elements (1, 0) and (1, 1), equivalent under `keyLess`, a strict weak order
on the key field.  `cmp(left, right)` is false for them, so the merge step
moves the right element in front of the left one: after `sort` the list reads
(1, 1), (1, 0).  The same happens to the two elements of key 1 in a list of
three. -/
theorem sort_not_stable :
    StrictWeakOrder keyLess ∧
    (listOf [(1, 0), (1, 1)]).bind (fun s => LinkedList.contents 4 s.1 s.2)
      = some [(1, 0), (1, 1)] ∧
    (listOf [(1, 0), (1, 1)]).bind
        (fun s => (LinkedList.sort keyLess 4 s.1 s.2).bind
          (fun m => LinkedList.contents 4 m s.2))
      = some [(1, 1), (1, 0)] ∧
    (listOf [(2, 0), (1, 1), (1, 2)]).bind
        (fun s => (LinkedList.sort keyLess 5 s.1 s.2).bind
          (fun m => LinkedList.contents 5 m s.2))
      = some [(1, 2), (1, 1), (2, 0)] := by
  refine ⟨⟨?_, ?_, ?_⟩, ?_⟩
  · intro a; simp [keyLess]
  · intro a b c; simp only [keyLess, decide_eq_true_eq]; omega
  · intro a b c; simp only [keyLess, decide_eq_false_iff_not]; omega
  · decide!

/-- C17 (refuted by the code): inserting no element.  On the list 1, 2 (head
at address 0, the values at the addresses 1 and 2) `createNumOfNodes` with
count 0 and `createNodesFromRange` with an empty range leave `first` and
`last` null, and `insertNodes` then writes through them: `insert(at, 0, v)`
and the insertion of an empty range have no result, at `begin()` and at
`end()` alike.  With count 1 the call returns, the value is in place and the
new node is returned. -/
theorem insert_zero_count_null_dereference :
    (listOf [1, 2]).map (fun s =>
        (ListTmpNodes.createNumOfNodes s.1 ListTmpNodes.new 0 7).2) = some ListTmpNodes.new ∧
    (listOf [1, 2]).map (fun s =>
        (ListTmpNodes.createNodesFromRange s.1 ListTmpNodes.new []).2) = some ListTmpNodes.new ∧
    (listOf [1, 2]).map (fun s =>
        (LinkedList.insert s.1 s.2 (LinkedList.begin s.1 s.2) 0 7).isSome) = some false ∧
    (listOf [1, 2]).map (fun s =>
        (LinkedList.insert s.1 s.2 s.2.head 0 7).isSome) = some false ∧
    (listOf [1, 2]).map (fun s =>
        (LinkedList.insertRange s.1 s.2 (LinkedList.begin s.1 s.2) []).isSome) = some false ∧
    (listOf [1, 2]).map (fun s =>
        (LinkedList.insertRange s.1 s.2 s.2.head []).isSome) = some false ∧
    (listOf [1, 2]).bind (fun s =>
        (LinkedList.insert s.1 s.2 (LinkedList.begin s.1 s.2) 1 7).bind
          (fun r => (LinkedList.contents 5 r.1 r.2.1).map (fun c => (c, r.2.1.size, r.2.2))))
      = some ([7, 1, 2], 3, 3) := by
  decide!

theorem Link.chain_frame {m m' : ListMem T} : ∀ {S : List Nat}, List.Chain' (Link m) S →
    (∀ a ∈ S.dropLast, m'.next a = m.next a) → (∀ b ∈ S.tail, m'.prev b = m.prev b) →
    List.Chain' (Link m') S
  | [], _, _, _ => List.chain'_nil
  | [_], _, _, _ => List.chain'_singleton _
  | a :: b :: S, h, h1, h2 => by
    rw [List.chain'_cons] at h ⊢
    refine ⟨⟨?_, ?_⟩, Link.chain_frame h.2 ?_ ?_⟩
    · rw [h1 a (by simp), h.1.1]
    · rw [h2 b (by simp), h.1.2]
    · intro x hx; exact h1 x (by simp [List.dropLast]; right; exact hx)
    · intro x hx; exact h2 x (by simp at hx ⊢; right; exact hx)

theorem chain_splice {m m' : ListMem T} {A B mid ns : List Nat} {p w : Nat}
    (h : List.Chain' (Link m) (A ++ mid ++ B)) (hp : A.getLast? = some p)
    (hw : B.head? = some w)
    (hA1 : ∀ a ∈ A.dropLast, m'.next a = m.next a) (hA2 : ∀ b ∈ A.tail, m'.prev b = m.prev b)
    (hB1 : ∀ a ∈ B.dropLast, m'.next a = m.next a) (hB2 : ∀ b ∈ B.tail, m'.prev b = m.prev b)
    (hmid : List.Chain' (Link m') (p :: ns ++ [w])) :
    List.Chain' (Link m') (A ++ ns ++ B) := by
  have hA := List.dropLast_append_getLast? p hp
  obtain ⟨B1, rfl⟩ : ∃ B1, B = w :: B1 := by
    cases B with
    | nil => simp at hw
    | cons b B1 => simp at hw; exact ⟨B1, by rw [hw]⟩
  have hcA : List.Chain' (Link m) A := by
    rw [List.append_assoc] at h
    exact (List.chain'_append.1 h).1
  have hcB : List.Chain' (Link m) (w :: B1) := (List.chain'_append.1 h).2.1
  have e : A ++ ns ++ w :: B1 = A.dropLast ++ p :: (ns ++ w :: B1) := by
    conv_lhs => rw [← hA]
    simp
  rw [e, List.chain'_split]
  refine ⟨?_, ?_⟩
  · rw [hA]; exact Link.chain_frame hcA hA1 hA2
  · have e2 : p :: (ns ++ w :: B1) = (p :: ns) ++ w :: B1 := rfl
    rw [e2, List.chain'_split]
    exact ⟨hmid, Link.chain_frame hcB hB1 hB2⟩

theorem getLast?_cons_getD (h : Nat) (pre : List Nat) :
    (h :: pre).getLast? = some (pre.getLast?.getD h) := by
  induction pre generalizing h with
  | nil => rfl
  | cons a pre ih => rw [List.getLast?_cons_cons, ih]; simp [List.getLast?_cons_cons, ih]

theorem head?_concat_getD (h : Nat) (post : List Nat) :
    (post ++ [h]).head? = some (post.head?.getD h) := by
  cases post <;> rfl

theorem ring_seam {m : ListMem T} {h : Nat} (pre post : List Nat)
    (hr : List.Chain' (Link m) (h :: (pre ++ post) ++ [h])) :
    Link m (pre.getLast?.getD h) (post.head?.getD h) := by
  have e : h :: (pre ++ post) ++ [h] = (h :: pre) ++ (post ++ [h]) := by simp
  rw [e] at hr
  exact (List.chain'_append.1 hr).2.2 _ (getLast?_cons_getD h pre) _ (head?_concat_getD h post)

theorem getLast?_getD_mem (h : Nat) (pre : List Nat) : pre.getLast?.getD h ∈ h :: pre := by
  have := List.mem_of_mem_getLast? (getLast?_cons_getD h pre)
  exact this

theorem head?_getD_mem (h : Nat) (post : List Nat) : post.head?.getD h ∈ h :: post := by
  cases post <;> simp

theorem nodup_dropLast_ne {A : List Nat} {p a : Nat} (hn : A.Nodup) (hp : A.getLast? = some p)
    (ha : a ∈ A.dropLast) : a ≠ p := by
  have hA := List.dropLast_append_getLast? p hp
  rw [← hA] at hn
  have := List.nodup_append.1 hn
  intro e
  exact this.2.2 ha (by simp [e])

theorem nodup_tail_ne {B : List Nat} {w b : Nat} (hn : B.Nodup) (hw : B.head? = some w)
    (hb : b ∈ B.tail) : b ≠ w := by
  cases B with
  | nil => simp at hw
  | cons c B1 =>
    simp at hw hb
    subst hw
    intro e
    subst e
    exact (List.nodup_cons.1 hn).1 hb

/-- Replacing the stretch `mid` of a ring by the stretch `ns`: it is enough
that the links of the other nodes stay, apart from `next` of the node before
the stretch and `prev` of the node behind it, and that the new stretch is
linked to these two. -/
theorem ring_splice {m m' : ListMem T} {h : Nat} {pre post ns : List Nat} (mid : List Nat)
    (hr : List.Chain' (Link m) (h :: (pre ++ mid ++ post) ++ [h]))
    (hnd : (h :: (pre ++ post)).Nodup)
    (hnext : ∀ a, a ∈ h :: (pre ++ post) → a ≠ pre.getLast?.getD h → m'.next a = m.next a)
    (hprev : ∀ b, b ∈ h :: (pre ++ post) → b ≠ post.head?.getD h → m'.prev b = m.prev b)
    (hmid : List.Chain' (Link m') (pre.getLast?.getD h :: ns ++ [post.head?.getD h])) :
    List.Chain' (Link m') (h :: (pre ++ ns ++ post) ++ [h]) := by
  have e1 : h :: (pre ++ mid ++ post) ++ [h] = (h :: pre) ++ mid ++ (post ++ [h]) := by simp
  have e2 : h :: (pre ++ ns ++ post) ++ [h] = (h :: pre) ++ ns ++ (post ++ [h]) := by simp
  rw [e1] at hr
  rw [e2]
  have hndA : (h :: pre).Nodup := by
    have : (h :: (pre ++ post)) = (h :: pre) ++ post := rfl
    rw [this] at hnd
    exact (List.nodup_append.1 hnd).1
  have hndB : (post ++ [h]).Nodup := by
    rw [List.nodup_cons] at hnd
    have h2 := (List.nodup_append.1 hnd.2).2.1
    rw [List.nodup_append]
    refine ⟨h2, List.nodup_singleton _, ?_⟩
    intro x hx hx'
    simp at hx'
    subst hx'
    exact hnd.1 (List.mem_append_right _ hx)
  have hdisj : ∀ x, x ∈ h :: pre → x ∉ post := by
    intro x hx hx'
    have : (h :: (pre ++ post)) = (h :: pre) ++ post := rfl
    rw [this] at hnd
    exact (List.nodup_append.1 hnd).2.2 hx hx'
  have hhpre : h ∉ pre := by
    rw [List.nodup_cons] at hndA
    exact hndA.1
  refine chain_splice hr (getLast?_cons_getD h pre) (head?_concat_getD h post) ?_ ?_ ?_ ?_ hmid
  · intro a ha
    refine hnext a ?_ (nodup_dropLast_ne hndA (getLast?_cons_getD h pre) ha)
    have := List.mem_of_mem_dropLast ha
    simp at this ⊢
    tauto
  · intro b hb
    simp at hb
    refine hprev b (by simp; tauto) ?_
    intro e
    have hw := head?_getD_mem h post
    rw [← e] at hw
    simp at hw
    rcases hw with hw | hw
    · exact hhpre (hw ▸ hb)
    · exact hdisj b (by simp [hb]) hw
  · intro a ha
    simp at ha
    refine hnext a (by simp; tauto) ?_
    intro e
    have hp := getLast?_getD_mem h pre
    rw [← e] at hp
    exact hdisj a hp ha
  · intro b hb
    refine hprev b ?_ (nodup_tail_ne hndB (head?_concat_getD h post) hb)
    have := List.mem_of_mem_tail hb
    simp at this ⊢
    tauto

theorem ListInv.seam {m : ListMem T} {l : ListValue} {pre post : List Nat}
    (h : ListInv m l (pre ++ post)) :
    Link m (pre.getLast?.getD l.head) (post.head?.getD l.head) :=
  ring_seam pre post h.ring

theorem ListInv.next_head {m : ListMem T} {l : ListValue} {xs : List Nat}
    (h : ListInv m l xs) : m.next l.head = xs.head?.getD l.head := by
  have := ring_seam [] xs (by simpa using h.ring)
  exact this.1

theorem ListInv.prev_head {m : ListMem T} {l : ListValue} {xs : List Nat}
    (h : ListInv m l xs) : m.prev l.head = xs.getLast?.getD l.head := by
  have := ring_seam xs [] (by simpa using h.ring)
  exact this.2

theorem ListInv.next_node {m : ListMem T} {l : ListValue} {pre post : List Nat} {a : Nat}
    (h : ListInv m l (pre ++ a :: post)) : m.next a = post.head?.getD l.head := by
  have h' : ListInv m l ((pre ++ [a]) ++ post) := by simpa using h
  have := h'.seam
  simp at this
  exact this.1

theorem ListInv.prev_node {m : ListMem T} {l : ListValue} {pre post : List Nat} {a : Nat}
    (h : ListInv m l (pre ++ a :: post)) : m.prev a = pre.getLast?.getD l.head := by
  have := h.seam
  simp at this
  exact this.2

theorem ListInv.node_ne_head {m : ListMem T} {l : ListValue} {xs : List Nat}
    (h : ListInv m l xs) {a : Nat} (ha : a ∈ xs) : a ≠ l.head := by
  intro e
  have := (List.nodup_cons.1 h.nodup).1
  exact this (e ▸ ha)

theorem createEmptyList_inv (m : ListMem T) :
    ListInv (LinkedList.createEmptyList m).1 (LinkedList.createEmptyList m).2 [] := by
  refine ⟨?_, ?_, rfl, ?_, ?_⟩
  · simp [LinkedList.createEmptyList, ListMem.createHeadNode, Link, upd]
  · simp
  · simp [LinkedList.createEmptyList, ListMem.createHeadNode]
  · simp [LinkedList.createEmptyList]

/-- `emplaceNode` before the node that follows `pre`: the call returns, the
fresh node stands between `pre` and `post`, and nothing else changes. -/
theorem emplaceNode_inv {m : ListMem T} {l : ListValue} {pre post : List Nat}
    (h : ListInv m l (pre ++ post)) (v : T) :
    ∃ m', LinkedList.emplaceNode m l (post.head?.getD l.head) v =
        some (m', { l with size := l.size + 1 }, m.fresh) ∧
      ListInv m' { l with size := l.size + 1 } (pre ++ m.fresh :: post) ∧
      m'.value = upd m.value m.fresh v ∧ m'.fresh = m.fresh + 1 ∧ m'.freed = m.freed := by
  have hs := h.seam
  have hpm := getLast?_getD_mem l.head pre
  have hwm := head?_getD_mem l.head post
  have hp_lt : pre.getLast?.getD l.head < m.fresh :=
    h.alloc _ (by simp at hpm ⊢; tauto)
  have hw_lt : post.head?.getD l.head < m.fresh :=
    h.alloc _ (by simp at hwm ⊢; tauto)
  have hfresh : ∀ a ∈ l.head :: (pre ++ post), a ≠ m.fresh := by
    intro a ha e
    have := h.alloc a ha
    omega
  refine ⟨_, rfl, ⟨?_, ?_, ?_, ?_, ?_⟩, rfl, rfl, rfl⟩
  · have e : pre ++ m.fresh :: post = pre ++ [m.fresh] ++ post := by simp
    rw [e]
    refine ring_splice [] (by simpa using h.ring) h.nodup ?_ ?_ ?_
    · intro a ha hne
      have := hfresh a ha
      simp [ListTmpNodes.createNode, upd, hs.2, this, hne, hw_lt.ne]
    · intro b hb hne
      have := hfresh b hb
      simp [ListTmpNodes.createNode, upd, this, hne]
    · simp [List.chain'_cons, Link, ListTmpNodes.createNode, upd, hs.2, hw_lt.ne, hp_lt.ne,
        hw_lt.ne']
  · have := h.nodup
    simp only [List.nodup_cons, List.nodup_append, List.mem_append, List.mem_cons] at this ⊢
    have h1 := hfresh l.head (by simp)
    have h2 : ∀ a ∈ pre, a ≠ m.fresh := fun a ha => hfresh a (by simp [ha])
    have h3 : ∀ a ∈ post, a ≠ m.fresh := fun a ha => hfresh a (by simp [ha])
    refine ⟨?_, this.2.1, ⟨fun hm => h3 _ hm rfl, this.2.2.1⟩, ?_⟩
    · rintro (hm | hm | hm)
      · exact this.1 (Or.inl hm)
      · exact h1 hm
      · exact this.1 (Or.inr hm)
    · intro a ha hb
      rcases List.mem_cons.1 hb with hb | hb
      · exact h2 a ha hb
      · exact this.2.2.2 ha hb
  · have := h.size_eq
    simp at this ⊢
    omega
  · intro a ha
    simp at ha
    simp [ListTmpNodes.createNode]
    rcases ha with ha | ha | ha | ha
    · have := h.alloc a (by simp [ha]); omega
    · have := h.alloc a (by simp [ha]); omega
    · omega
    · have := h.alloc a (by simp [ha]); omega
  · intro it hit
    have := h.iters it hit
    simp at this ⊢
    tauto

/-- `eraseNode` of a node of the list: the node is unlinked and given back,
the node behind it is returned, and nothing else changes. -/
theorem eraseNode_inv {m : ListMem T} {l : ListValue} {pre post : List Nat} {a : Nat}
    (h : ListInv m l (pre ++ a :: post)) :
    (LinkedList.eraseNode m l a).2.2 = post.head?.getD l.head ∧
    ListInv (LinkedList.eraseNode m l a).1 (LinkedList.eraseNode m l a).2.1 (pre ++ post) ∧
    (LinkedList.eraseNode m l a).1.value = m.value ∧
    (LinkedList.eraseNode m l a).1.fresh = m.fresh ∧
    (LinkedList.eraseNode m l a).1.freed = a :: m.freed ∧
    (LinkedList.eraseNode m l a).2.1.head = l.head ∧
    (LinkedList.eraseNode m l a).2.1.size = l.size - 1 := by
  have hn := h.next_node
  have hp := h.prev_node
  have hnd := h.nodup
  have hpm := getLast?_getD_mem l.head pre
  have hwm := head?_getD_mem l.head post
  have hnd' : (l.head :: (pre ++ post)).Nodup := by
    simp only [List.nodup_cons, List.nodup_append, List.mem_append, List.mem_cons] at hnd ⊢
    refine ⟨fun hm => hnd.1 (by tauto), hnd.2.1, hnd.2.2.1.2, ?_⟩
    intro x hx hy
    exact hnd.2.2.2 hx (List.mem_cons_of_mem _ hy)
  have ha_not : a ∉ l.head :: (pre ++ post) := by
    simp only [List.nodup_cons, List.nodup_append, List.mem_append, List.mem_cons] at hnd
    simp only [List.mem_cons, List.mem_append]
    rintro (e | hm | hm)
    · exact hnd.1 (Or.inr (Or.inl e.symm))
    · exact hnd.2.2.2 hm (List.mem_cons_self _ _)
    · exact hnd.2.2.1.1 hm
  have hpa : pre.getLast?.getD l.head ≠ a := by
    intro e
    rw [e] at hpm
    exact ha_not (by simp at hpm ⊢; tauto)
  refine ⟨hn, ⟨?_, hnd', ?_, ?_, ?_⟩, rfl, rfl, rfl, rfl, rfl⟩
  · have e : pre ++ post = pre ++ [] ++ post := by simp
    rw [e]
    show List.Chain' (Link (LinkedList.eraseNode m l a).1) (l.head :: (pre ++ [] ++ post) ++ [l.head])
    refine ring_splice [a] (by simpa using h.ring) hnd' ?_ ?_ ?_
    · intro x hx hne
      simp [LinkedList.eraseNode, ListValue.extractNode, ListMem.freeNode, upd, hp, hne]
    · intro x hx hne
      simp [LinkedList.eraseNode, ListValue.extractNode, ListMem.freeNode, upd, hp, hn, hne,
        hpa.symm]
    · simp [List.chain'_cons, Link, LinkedList.eraseNode, ListValue.extractNode,
        ListMem.freeNode, upd, hp, hn, hpa.symm]
  · have := h.size_eq
    simp [LinkedList.eraseNode, ListValue.orphanPtr] at this ⊢
    omega
  · intro x hx
    have hx' : x ∈ l.head :: (pre ++ post) := hx
    exact h.alloc x (by simp at hx' ⊢; tauto)
  · intro it hit
    simp only [LinkedList.eraseNode, ListValue.orphanPtr, List.mem_filter,
      decide_eq_true_eq] at hit
    have := h.iters it hit.1
    show it.ptr ∈ l.head :: (pre ++ post)
    simp at this ⊢
    have hne := hit.2
    tauto

theorem traverseFrom_list_spec {m : ListMem T} {l : ListValue} :
    ∀ (post pre : List Nat) (fuel : Nat), ListInv m l (pre ++ post) → post.length < fuel →
      LinkedList.traverseFrom m l.head fuel (post.head?.getD l.head) = some post
  | [], pre, fuel + 1, _, _ => by simp [LinkedList.traverseFrom]
  | a :: post, pre, fuel + 1, h, hf => by
    have hne : a ≠ l.head := h.node_ne_head (by simp)
    have h' : ListInv m l ((pre ++ [a]) ++ post) := by simpa using h
    have ih := traverseFrom_list_spec post (pre ++ [a]) fuel h' (by simp at hf; omega)
    simp only [List.head?_cons, Option.getD_some, LinkedList.traverseFrom, if_neg hne]
    rw [h.next_node, ih]

/-- The iteration from `begin()` to `end()` meets the nodes of the invariant in order. -/
theorem traverse_list_spec {m : ListMem T} {l : ListValue} {xs : List Nat} {fuel : Nat}
    (h : ListInv m l xs) (hf : xs.length < fuel) : LinkedList.traverse fuel m l = some xs := by
  unfold LinkedList.traverse LinkedList.begin
  rw [h.next_head]
  exact traverseFrom_list_spec xs [] fuel (by simpa using h) hf

theorem contents_spec {m : ListMem T} {l : ListValue} {xs : List Nat} {fuel : Nat}
    (h : ListInv m l xs) (hf : xs.length < fuel) :
    LinkedList.contents fuel m l = some (xs.map m.value) := by
  unfold LinkedList.contents
  rw [traverse_list_spec h hf]
  rfl

theorem sampleList_inv : ListInv sampleList.1 sampleList.2 [1, 2, 3] := by
  refine ⟨?_, ?_, ?_, ?_, ?_⟩
  · simp only [List.chain'_cons, List.chain'_singleton, Link, and_true, List.cons_append,
      List.nil_append]
    unfold sampleList
    decide!
  · unfold sampleList; decide!
  · unfold sampleList; decide!
  · unfold sampleList; decide!
  · unfold sampleList; decide!

theorem map_upd_of_not_mem {α : Type} (f : Nat → α) (n : Nat) (v : α) (xs : List Nat)
    (h : n ∉ xs) : xs.map (upd f n v) = xs.map f := by
  apply List.map_congr_left
  intro a ha
  have : a ≠ n := fun e => h (e ▸ ha)
  simp [upd, this]

theorem ListInv.fresh_not_mem {m : ListMem T} {l : ListValue} {xs : List Nat}
    (h : ListInv m l xs) : m.fresh ∉ xs := by
  intro hm
  have := h.alloc _ (List.mem_cons_of_mem _ hm)
  omega

/-- C18: `erase(pos)` for a position that denotes the real element `a` of a
well-formed list with the node sequence `pre ++ a :: post`.  The list is not
empty; the call returns the node that followed `a`, or the head (`end()`)
when `a` was last; afterwards the iteration from `begin()` to `end()` meets
`pre ++ post`, the values are those of before without the one of `a`, in the
same order, the size is one less, and the list is well formed. -/
theorem erase_removes_exactly_one {m : ListMem T} {l : ListValue} {pre post : List Nat}
    {a : Nat} (h : ListInv m l (pre ++ a :: post)) {fuel : Nat}
    (hf : (pre ++ a :: post).length < fuel) :
    0 < l.size ∧
    LinkedList.contents fuel m l = some (pre.map m.value ++ m.value a :: post.map m.value) ∧
    (LinkedList.erase m l a).2.2 = post.head?.getD l.head ∧
    LinkedList.traverse fuel (LinkedList.erase m l a).1 (LinkedList.erase m l a).2.1 =
      some (pre ++ post) ∧
    LinkedList.contents fuel (LinkedList.erase m l a).1 (LinkedList.erase m l a).2.1 =
      some (pre.map m.value ++ post.map m.value) ∧
    (LinkedList.erase m l a).2.1.size + 1 = l.size ∧
    ListInv (LinkedList.erase m l a).1 (LinkedList.erase m l a).2.1 (pre ++ post) := by
  obtain ⟨r1, r2, r3, -, -, -, r7⟩ := eraseNode_inv h
  have hsz := h.size_eq
  have hlen : (pre ++ post).length < fuel := by
    simp only [List.length_append, List.length_cons] at hf ⊢
    omega
  have hpos : 0 < l.size := by
    rw [hsz]
    simp
  refine ⟨hpos, ?_, r1, traverse_list_spec r2 hlen, ?_, ?_, r2⟩
  · rw [contents_spec h hf]
    simp
  · unfold LinkedList.erase
    rw [contents_spec r2 hlen, r3]
    simp
  · unfold LinkedList.erase
    rw [r7]
    omega

theorem erase_removes_exactly_one_witness :
    ListInv sampleList.1 sampleList.2 ([1] ++ 2 :: [3]) ∧ ([1] ++ 2 :: [3]).length < 5 ∧
    0 < sampleList.2.size ∧
    LinkedList.contents 5 sampleList.1 sampleList.2 =
      some ([1].map sampleList.1.value ++ sampleList.1.value 2 :: [3].map sampleList.1.value) ∧
    (LinkedList.erase sampleList.1 sampleList.2 2).2.2 = [3].head?.getD sampleList.2.head ∧
    LinkedList.traverse 5 (LinkedList.erase sampleList.1 sampleList.2 2).1
      (LinkedList.erase sampleList.1 sampleList.2 2).2.1 = some ([1] ++ [3]) ∧
    LinkedList.contents 5 (LinkedList.erase sampleList.1 sampleList.2 2).1
      (LinkedList.erase sampleList.1 sampleList.2 2).2.1 =
      some ([1].map sampleList.1.value ++ [3].map sampleList.1.value) ∧
    (LinkedList.erase sampleList.1 sampleList.2 2).2.1.size + 1 = sampleList.2.size ∧
    ListInv (LinkedList.erase sampleList.1 sampleList.2 2).1
      (LinkedList.erase sampleList.1 sampleList.2 2).2.1 ([1] ++ [3]) :=
  ⟨sampleList_inv, by decide, erase_removes_exactly_one sampleList_inv (by decide)⟩

/-- C20: the four operations at the ends of a well-formed list with the node
sequence `xs`.  `pushFront(v)` returns and yields `v` followed by the old
values, `pushBack(v)` returns and yields the old values followed by `v`, each
with the size one more; `popFront` right after `pushFront(v)` and `popBack`
right after `pushBack(v)` give back the old node sequence, the old values and
the old size; on a non-empty list `popFront` removes the first element and
`popBack` the last, each with the size one less. -/
theorem push_pop_at_both_ends {m : ListMem T} {l : ListValue} {xs : List Nat}
    (h : ListInv m l xs) (v : T) {fuel : Nat} (hf : xs.length + 1 < fuel) :
    (∃ m1 l1, LinkedList.pushFront m l v = some (m1, l1) ∧
      ListInv m1 l1 (m.fresh :: xs) ∧
      LinkedList.contents fuel m1 l1 = some (v :: xs.map m.value) ∧
      l1.size = l.size + 1 ∧
      ListInv (LinkedList.popFront m1 l1).1 (LinkedList.popFront m1 l1).2 xs ∧
      LinkedList.contents fuel (LinkedList.popFront m1 l1).1 (LinkedList.popFront m1 l1).2 =
        some (xs.map m.value) ∧
      (LinkedList.popFront m1 l1).2.size = l.size) ∧
    (∃ m2 l2, LinkedList.pushBack m l v = some (m2, l2) ∧
      ListInv m2 l2 (xs ++ [m.fresh]) ∧
      LinkedList.contents fuel m2 l2 = some (xs.map m.value ++ [v]) ∧
      l2.size = l.size + 1 ∧
      ListInv (LinkedList.popBack m2 l2).1 (LinkedList.popBack m2 l2).2 xs ∧
      LinkedList.contents fuel (LinkedList.popBack m2 l2).1 (LinkedList.popBack m2 l2).2 =
        some (xs.map m.value) ∧
      (LinkedList.popBack m2 l2).2.size = l.size) ∧
    (∀ a rest, xs = a :: rest →
      ListInv (LinkedList.popFront m l).1 (LinkedList.popFront m l).2 rest ∧
      LinkedList.contents fuel (LinkedList.popFront m l).1 (LinkedList.popFront m l).2 =
        some (rest.map m.value) ∧
      (LinkedList.popFront m l).2.size + 1 = l.size) ∧
    (∀ init a, xs = init ++ [a] →
      ListInv (LinkedList.popBack m l).1 (LinkedList.popBack m l).2 init ∧
      LinkedList.contents fuel (LinkedList.popBack m l).1 (LinkedList.popBack m l).2 =
        some (init.map m.value) ∧
      (LinkedList.popBack m l).2.size + 1 = l.size) := by
  have hfr := h.fresh_not_mem
  have hlen : xs.length < fuel := by omega
  have hpopF : ∀ {m0 : ListMem T} {l0 : ListValue} {a : Nat} {rest : List Nat},
      ListInv m0 l0 (a :: rest) → rest.length < fuel →
      ListInv (LinkedList.popFront m0 l0).1 (LinkedList.popFront m0 l0).2 rest ∧
      LinkedList.contents fuel (LinkedList.popFront m0 l0).1 (LinkedList.popFront m0 l0).2 =
        some (rest.map m0.value) ∧
      (LinkedList.popFront m0 l0).2.size + 1 = l0.size := by
    intro m0 l0 a rest h0 hr
    have hnx : m0.next l0.head = a := by rw [h0.next_head]; rfl
    have h0' : ListInv m0 l0 ([] ++ a :: rest) := h0
    obtain ⟨-, r2, r3, -, -, -, r7⟩ := eraseNode_inv h0'
    have hsz := h0.size_eq
    simp only [List.length_cons] at hsz
    unfold LinkedList.popFront
    rw [hnx]
    refine ⟨r2, ?_, ?_⟩
    · rw [contents_spec r2 hr, r3]; rfl
    · show (LinkedList.eraseNode m0 l0 a).2.1.size + 1 = l0.size
      rw [r7]; omega
  have hpopB : ∀ {m0 : ListMem T} {l0 : ListValue} {a : Nat} {init : List Nat},
      ListInv m0 l0 (init ++ [a]) → init.length < fuel →
      ListInv (LinkedList.popBack m0 l0).1 (LinkedList.popBack m0 l0).2 init ∧
      LinkedList.contents fuel (LinkedList.popBack m0 l0).1 (LinkedList.popBack m0 l0).2 =
        some (init.map m0.value) ∧
      (LinkedList.popBack m0 l0).2.size + 1 = l0.size := by
    intro m0 l0 a init h0 hr
    have hpv : m0.prev l0.head = a := by rw [h0.prev_head]; simp
    obtain ⟨-, r2, r3, -, -, -, r7⟩ := eraseNode_inv h0
    have hsz := h0.size_eq
    simp only [List.length_append, List.length_singleton] at hsz
    have r2' : ListInv (LinkedList.eraseNode m0 l0 a).1 (LinkedList.eraseNode m0 l0 a).2.1 init := by
      simpa using r2
    unfold LinkedList.popBack
    rw [hpv]
    refine ⟨r2', ?_, ?_⟩
    · rw [contents_spec r2' hr, r3]
    · show (LinkedList.eraseNode m0 l0 a).2.1.size + 1 = l0.size
      rw [r7]; omega
  refine ⟨?_, ?_, ?_, ?_⟩
  · have h0 : ListInv m l ([] ++ xs) := h
    obtain ⟨m1, e1, e2, e3, -, -⟩ := emplaceNode_inv h0 v
    have e2' : ListInv m1 { l with size := l.size + 1 } (m.fresh :: xs) := e2
    have hval : xs.map m1.value = xs.map m.value := by
      rw [e3]; exact map_upd_of_not_mem _ _ _ _ hfr
    have hv : m1.value m.fresh = v := by rw [e3]; simp [upd]
    refine ⟨m1, _, ?_, e2', ?_, rfl, ?_⟩
    · unfold LinkedList.pushFront
      rw [h.next_head, e1]
    · rw [contents_spec e2' (by simp; omega)]
      simp [hval, hv]
    · have := hpopF e2' hlen
      rw [hval] at this
      refine ⟨this.1, this.2.1, ?_⟩
      have h3 := this.2.2
      simp only at h3
      omega
  · have h0 : ListInv m l (xs ++ []) := by simpa using h
    obtain ⟨m2, e1, e2, e3, -, -⟩ := emplaceNode_inv h0 v
    have e2' : ListInv m2 { l with size := l.size + 1 } (xs ++ [m.fresh]) := e2
    have hval : xs.map m2.value = xs.map m.value := by
      rw [e3]; exact map_upd_of_not_mem _ _ _ _ hfr
    have hv : m2.value m.fresh = v := by rw [e3]; simp [upd]
    refine ⟨m2, _, ?_, e2', ?_, rfl, ?_⟩
    · unfold LinkedList.pushBack
      have : LinkedList.emplaceNode m l l.head v =
          LinkedList.emplaceNode m l (([] : List Nat).head?.getD l.head) v := rfl
      rw [this, e1]
    · rw [contents_spec e2' (by simp; omega)]
      simp [hval, hv]
    · have := hpopB e2' hlen
      rw [hval] at this
      refine ⟨this.1, this.2.1, ?_⟩
      have h3 := this.2.2
      simp only at h3
      omega
  · intro a rest e
    subst e
    exact hpopF h (by simp at hlen; omega)
  · intro init a e
    subst e
    exact hpopB h (by simp at hlen; omega)

theorem push_pop_at_both_ends_witness :
    ListInv sampleList.1 sampleList.2 [1, 2, 3] ∧ [1, 2, 3].length + 1 < 6 ∧
    ((∃ m1 l1, LinkedList.pushFront sampleList.1 sampleList.2 9 = some (m1, l1) ∧
      ListInv m1 l1 (sampleList.1.fresh :: [1, 2, 3]) ∧
      LinkedList.contents 6 m1 l1 = some (9 :: [1, 2, 3].map sampleList.1.value) ∧
      l1.size = sampleList.2.size + 1 ∧
      ListInv (LinkedList.popFront m1 l1).1 (LinkedList.popFront m1 l1).2 [1, 2, 3] ∧
      LinkedList.contents 6 (LinkedList.popFront m1 l1).1 (LinkedList.popFront m1 l1).2 =
        some ([1, 2, 3].map sampleList.1.value) ∧
      (LinkedList.popFront m1 l1).2.size = sampleList.2.size) ∧
    (∃ m2 l2, LinkedList.pushBack sampleList.1 sampleList.2 9 = some (m2, l2) ∧
      ListInv m2 l2 ([1, 2, 3] ++ [sampleList.1.fresh]) ∧
      LinkedList.contents 6 m2 l2 = some ([1, 2, 3].map sampleList.1.value ++ [9]) ∧
      l2.size = sampleList.2.size + 1 ∧
      ListInv (LinkedList.popBack m2 l2).1 (LinkedList.popBack m2 l2).2 [1, 2, 3] ∧
      LinkedList.contents 6 (LinkedList.popBack m2 l2).1 (LinkedList.popBack m2 l2).2 =
        some ([1, 2, 3].map sampleList.1.value) ∧
      (LinkedList.popBack m2 l2).2.size = sampleList.2.size) ∧
    (∀ a rest, [1, 2, 3] = a :: rest →
      ListInv (LinkedList.popFront sampleList.1 sampleList.2).1
        (LinkedList.popFront sampleList.1 sampleList.2).2 rest ∧
      LinkedList.contents 6 (LinkedList.popFront sampleList.1 sampleList.2).1
        (LinkedList.popFront sampleList.1 sampleList.2).2 = some (rest.map sampleList.1.value) ∧
      (LinkedList.popFront sampleList.1 sampleList.2).2.size + 1 = sampleList.2.size) ∧
    (∀ init a, [1, 2, 3] = init ++ [a] →
      ListInv (LinkedList.popBack sampleList.1 sampleList.2).1
        (LinkedList.popBack sampleList.1 sampleList.2).2 init ∧
      LinkedList.contents 6 (LinkedList.popBack sampleList.1 sampleList.2).1
        (LinkedList.popBack sampleList.1 sampleList.2).2 = some (init.map sampleList.1.value) ∧
      (LinkedList.popBack sampleList.1 sampleList.2).2.size + 1 = sampleList.2.size)) :=
  ⟨sampleList_inv, by decide, push_pop_at_both_ends sampleList_inv 9 (by decide)⟩

theorem head?_append_getD (mid post : List Nat) (h : Nat) :
    (mid ++ post).head?.getD h = mid.head?.getD (post.head?.getD h) := by
  cases mid <;> rfl

theorem freeNonHeadLoop_spec {m0 : ListMem T} {l : ListValue} :
    ∀ (post pre : List Nat) (fuel : Nat) (m : ListMem T), ListInv m0 l (pre ++ post) →
      m.next = m0.next → m.prev = m0.prev → post.length < fuel →
      freeNonHeadLoop l.head fuel m (post.head?.getD l.head) =
        some { m with freed := post.reverse ++ m.freed }
  | [], pre, fuel + 1, m, _, _, _, _ => by simp [freeNonHeadLoop]
  | a :: post, pre, fuel + 1, m, h, hn, hp, hf => by
    have hne : a ≠ l.head := h.node_ne_head (by simp)
    have h' : ListInv m0 l ((pre ++ [a]) ++ post) := by simpa using h
    have hs := h'.seam
    simp at hs
    have ih := freeNonHeadLoop_spec post (pre ++ [a]) fuel (m.freeNode a) h' hn hp
      (by simp at hf; omega)
    simp only [List.head?_cons, Option.getD_some, freeNonHeadLoop, ne_eq, hne,
      not_false_eq_true, if_true]
    rw [hn, hp, h.next_node, hs.2, ih]
    simp [ListMem.freeNode, hn, hp]

theorem clear_eq {m : ListMem T} {l : ListValue} {xs : List Nat} (h : ListInv m l xs)
    {fuel : Nat} (hf : xs.length < fuel) :
    LinkedList.clear fuel m l =
      some ({ m with freed := xs.reverse ++ m.freed, prev := upd m.prev l.head l.head,
                     next := upd m.next l.head l.head },
            { l.orphanNonHead with size := 0 }) := by
  have h0 : ListInv m l ([] ++ xs) := h
  have hl := freeNonHeadLoop_spec xs [] fuel m h0 rfl rfl hf
  unfold LinkedList.clear ListMem.freeNonHeadNode
  simp only [ListValue.orphanNonHead]
  rw [h.next_head, hl]

/-- `clear` on a well-formed list: the call returns, every node is given back
and the ring is the head alone. -/
theorem clear_inv {m : ListMem T} {l : ListValue} {xs : List Nat} (h : ListInv m l xs)
    {fuel : Nat} (hf : xs.length < fuel) :
    ∃ m' l', LinkedList.clear fuel m l = some (m', l') ∧ ListInv m' l' [] ∧
      m'.value = m.value ∧ m'.fresh = m.fresh ∧ m'.freed = xs.reverse ++ m.freed ∧
      l'.head = l.head ∧ l'.size = 0 := by
  refine ⟨_, _, clear_eq h hf, ⟨?_, ?_, rfl, ?_, ?_⟩, rfl, rfl, rfl, rfl, rfl⟩
  · simp [Link, upd, ListValue.orphanNonHead]
  · simp
  · intro a ha
    have ha' : a ∈ [l.head] := ha
    exact h.alloc a (by simp at ha' ⊢; tauto)
  · intro it hit
    simp only [ListValue.orphanNonHead, List.mem_filter, decide_eq_true_eq] at hit
    simp [hit.2, ListValue.orphanNonHead]

theorem eraseLoop_spec {m0 : ListMem T} {l0 : ListValue} :
    ∀ (mid pre post : List Nat) (fuel : Nat) (m : ListMem T) (l : ListValue),
      ListInv m0 l0 (pre ++ mid ++ post) → (∀ a ∈ mid, m.next a = m0.next a) →
      mid.length < fuel →
      eraseLoop (post.head?.getD l0.head) fuel m l (mid.head?.getD (post.head?.getD l0.head)) =
        some ({ m with freed := mid.reverse ++ m.freed },
              { l with size := l.size - mid.length,
                       proxy := l.proxy.filter (fun it => decide (it.ptr ∉ mid)) })
  | [], pre, post, fuel + 1, m, l, _, _, _ => by simp [eraseLoop]
  | a :: mid, pre, post, fuel + 1, m, l, h, hn, hf => by
    have h1 : ListInv m0 l0 (pre ++ a :: (mid ++ post)) := by simpa using h
    have hnd := h1.nodup
    have hwm := head?_getD_mem l0.head post
    have hne : a ≠ post.head?.getD l0.head := by
      intro e
      rw [← e] at hwm
      simp only [List.nodup_cons, List.nodup_append, List.mem_append, List.mem_cons] at hnd hwm
      rcases hwm with hw | hw
      · exact hnd.1 (by simp [hw])
      · exact hnd.2.2.1.1 (Or.inr hw)
    have h' : ListInv m0 l0 ((pre ++ [a]) ++ mid ++ post) := by simpa using h
    have ih := eraseLoop_spec mid (pre ++ [a]) post fuel (m.freeNode a)
      { (l.orphanPtr a) with size := (l.orphanPtr a).size - 1 } h'
      (fun x hx => hn x (List.mem_cons_of_mem _ hx)) (by simp at hf; omega)
    simp only [List.head?_cons, Option.getD_some, eraseLoop, ne_eq, hne, not_false_eq_true,
      if_true]
    rw [hn a (List.mem_cons_self _ _), h1.next_node, head?_append_getD, ih]
    simp only [ListMem.freeNode, ListValue.orphanPtr, List.reverse_cons, List.append_assoc,
      List.singleton_append, List.length_cons, List.filter_filter, Option.some.injEq,
      Prod.mk.injEq, true_and]
    congr 1
    · omega
    · apply List.filter_congr
      intro it _
      by_cases c1 : it.ptr ∈ mid <;> by_cases c2 : it.ptr = a <;> simp [c1, c2]

/-- `eraseRange(first, last)` for the stretch `mid` of a well-formed list:
the call returns `last`, the nodes of the stretch are unlinked and given
back, and nothing else changes. -/
theorem eraseRange_inv {m : ListMem T} {l : ListValue} {pre mid post : List Nat}
    (h : ListInv m l (pre ++ mid ++ post)) {fuel : Nat}
    (hf : (pre ++ mid ++ post).length < fuel) :
    ∃ m' l', LinkedList.eraseRange fuel m l ((mid ++ post).head?.getD l.head)
        (post.head?.getD l.head) = some (m', l', post.head?.getD l.head) ∧
      ListInv m' l' (pre ++ post) ∧ m'.value = m.value ∧ m'.fresh = m.fresh ∧
      m'.freed = mid.reverse ++ m.freed ∧ l'.head = l.head ∧
      l'.size + mid.length = l.size := by
  have hsz := h.size_eq
  simp only [List.length_append] at hsz hf
  cases mid with
  | nil =>
    refine ⟨m, l, ?_, by simpa using h, rfl, rfl, by simp, rfl, by simp⟩
    simp [LinkedList.eraseRange]
  | cons f mid =>
    have h1 : ListInv m l (pre ++ f :: (mid ++ post)) := by simpa using h
    have hnd := h1.nodup
    have hwm := head?_getD_mem l.head post
    have hpm := getLast?_getD_mem l.head pre
    have hne : f ≠ post.head?.getD l.head := by
      intro e
      rw [← e] at hwm
      simp only [List.nodup_cons, List.nodup_append, List.mem_append, List.mem_cons] at hnd hwm
      rcases hwm with hw | hw
      · exact hnd.1 (by simp [hw])
      · exact hnd.2.2.1.1 (Or.inr hw)
    have hfirst : ((f :: mid) ++ post).head?.getD l.head = f := rfl
    rw [hfirst]
    by_cases hc : f = m.next l.head ∧ post.head?.getD l.head = l.head
    · have hpre : pre = [] := by
        cases pre with
        | nil => rfl
        | cons p0 pre =>
          exfalso
          have := h1.next_head
          simp only [List.cons_append, List.head?_cons, Option.getD_some] at this
          rw [← hc.1] at this
          have hnd2 : (p0 :: (pre ++ f :: (mid ++ post))).Nodup := (List.nodup_cons.1 hnd).2
          apply (List.nodup_cons.1 hnd2).1
          rw [← this]
          simp
      have hpost : post = [] := by
        cases post with
        | nil => rfl
        | cons w post =>
          exfalso
          have := hc.2
          simp only [List.head?_cons, Option.getD_some] at this
          exact h1.node_ne_head (by simp) this
      subst hpre hpost
      have h2 : ListInv m l (f :: mid) := by simpa using h
      have hf2 : (f :: mid).length < fuel := by simp at hf ⊢; omega
      obtain ⟨m', l', c1, c2, c3, c4, c5, c6, c7⟩ := clear_inv h2 hf2
      refine ⟨m', l', ?_, by simpa using c2, c3, c4, c5, c6, ?_⟩
      · unfold LinkedList.eraseRange
        rw [if_neg hne, if_pos hc, c1]
      · rw [c7]; simp at hsz ⊢; omega
    · have hp := h1.prev_node
      have hnd' : (l.head :: (pre ++ post)).Nodup := by
        simp only [List.nodup_cons, List.nodup_append, List.mem_append, List.mem_cons] at hnd ⊢
        refine ⟨fun hm => hnd.1 (by tauto), hnd.2.1, hnd.2.2.1.2.2.1, ?_⟩
        intro x hx hy
        exact hnd.2.2.2 hx (List.mem_cons_of_mem _ (List.mem_append_right _ hy))
      have hl := eraseLoop_spec (f :: mid) pre post fuel
        (ListValue.extractNodes m f (post.head?.getD l.head)) l h
        (by
          intro a ha
          have hap : a ≠ pre.getLast?.getD l.head := by
            intro e
            rw [← e] at hpm
            simp only [List.nodup_cons, List.nodup_append, List.mem_append,
              List.mem_cons] at hnd hpm ha
            rcases hpm with hq | hq
            · subst hq
              rcases ha with ha | ha
              · exact hnd.1 (by simp [ha])
              · exact hnd.1 (Or.inr (Or.inr (Or.inl ha)))
            · rcases ha with ha | ha
              · exact hnd.2.2.2 hq (by simp [ha])
              · exact hnd.2.2.2 hq (by simp [ha])
          simp [ListValue.extractNodes, upd, hp, hap])
        (by omega)
      have key : LinkedList.eraseRange fuel m l f (post.head?.getD l.head) =
          some ({ (ListValue.extractNodes m f (post.head?.getD l.head)) with
                    freed := (f :: mid).reverse ++ m.freed },
                { l with size := l.size - (f :: mid).length,
                         proxy := l.proxy.filter (fun it => decide (it.ptr ∉ f :: mid)) },
                post.head?.getD l.head) := by
        unfold LinkedList.eraseRange
        rw [if_neg hne, if_neg hc]
        have hl' : eraseLoop (post.head?.getD l.head) fuel
            (ListValue.extractNodes m f (post.head?.getD l.head)) l f = _ := hl
        simp only [hl']
        rfl
      refine ⟨_, _, key, ⟨?_, hnd', ?_, ?_, ?_⟩, rfl, rfl, rfl, rfl, ?_⟩
      · have e : pre ++ post = pre ++ [] ++ post := by simp
        rw [e]
        refine ring_splice (f :: mid) h.ring hnd' ?_ ?_ ?_
        · intro x hx hxe
          simp [ListValue.extractNodes, upd, hp, hxe]
        · intro x hx hxe
          simp [ListValue.extractNodes, upd, hp, hxe]
        · simp [List.chain'_cons, Link, ListValue.extractNodes, upd, hp]
      · simp only [List.length_cons, List.length_append] at hsz ⊢
        omega
      · intro x hx
        exact h.alloc x (by simp at hx ⊢; tauto)
      · intro it hit
        simp only [List.mem_filter, decide_eq_true_eq] at hit
        have := h.iters it hit.1
        have hn2 := hit.2
        simp only [List.mem_cons, List.mem_append, not_or] at this hn2 ⊢
        tauto
      · simp only [List.length_cons, List.length_append] at hsz ⊢
        omega

theorem upd_self {α : Type} (f : Nat → α) (a : Nat) : upd f a (f a) = f := by
  funext b
  by_cases e : b = a
  · simp [upd, e]
  · simp [upd, e]

/-- On an empty well-formed list `clear` changes nothing. -/
theorem clear_of_empty {m : ListMem T} {l : ListValue} (h : ListInv m l []) {fuel : Nat}
    (hf : 0 < fuel) : LinkedList.clear fuel m l = some (m, l) := by
  rw [clear_eq h (by simpa using hf)]
  have hn : m.next l.head = l.head := h.next_head
  have hp : m.prev l.head = l.head := h.prev_head
  have hpx : l.proxy.filter (fun it => decide (it.ptr = l.head)) = l.proxy := by
    rw [List.filter_eq_self]
    intro it hit
    have := h.iters it hit
    simpa using this
  have hsz : l.size = 0 := h.size_eq
  have e1 : upd m.next l.head l.head = m.next := by
    conv_lhs => rw [← hn]
    rw [hn]
    have := upd_self m.next l.head
    rw [hn] at this
    exact this
  have e2 : upd m.prev l.head l.head = m.prev := by
    have := upd_self m.prev l.head
    rw [hp] at this
    exact this
  simp only [ListValue.orphanNonHead, List.reverse_nil, List.nil_append, e1, e2, hpx, ← hsz]

/-- C19: `eraseRange(first, last)` for the stretch `mid` of a well-formed list
with the node sequence `pre ++ mid ++ post`, `first` being the first node of
`mid ++ post` (or the head) and `last` the first node of `post` (or the
head).  The call returns `last`; afterwards the iteration meets `pre ++
post`, the values are those of before without those of `mid`, the size is
less by the length of `mid`, and the list is well formed.  For the whole
range `eraseRange(begin, end)` has the result of `clear()`, which returns with
the empty ring and size 0.  `eraseRange(x, x)` returns `x` and changes
nothing. -/
theorem erase_range_exact {m : ListMem T} {l : ListValue} {pre mid post : List Nat}
    (h : ListInv m l (pre ++ mid ++ post)) {fuel : Nat}
    (hf : (pre ++ mid ++ post).length < fuel) :
    (∃ m' l', LinkedList.eraseRange fuel m l ((mid ++ post).head?.getD l.head)
        (post.head?.getD l.head) = some (m', l', post.head?.getD l.head) ∧
      ListInv m' l' (pre ++ post) ∧
      LinkedList.traverse fuel m' l' = some (pre ++ post) ∧
      LinkedList.contents fuel m' l' = some (pre.map m.value ++ post.map m.value) ∧
      l'.size + mid.length = l.size) ∧
    LinkedList.eraseRange fuel m l (LinkedList.begin m l) l.head =
      (LinkedList.clear fuel m l).map (fun s => (s.1, s.2, l.head)) ∧
    (∃ m' l', LinkedList.clear fuel m l = some (m', l') ∧ ListInv m' l' [] ∧
      LinkedList.traverse fuel m' l' = some [] ∧ l'.size = 0) ∧
    (∀ x, LinkedList.eraseRange fuel m l x x = some (m, l, x)) := by
  have hlen : (pre ++ post).length < fuel := by
    simp only [List.length_append] at hf ⊢
    omega
  have hpos : 0 < fuel := by omega
  refine ⟨?_, ?_, ?_, ?_⟩
  · obtain ⟨m', l', r1, r2, r3, -, -, -, r7⟩ := eraseRange_inv h hf
    refine ⟨m', l', r1, r2, traverse_list_spec r2 hlen, ?_, r7⟩
    rw [contents_spec r2 hlen, r3]
    simp
  · generalize hxs : pre ++ mid ++ post = xs at h hf
    cases xs with
    | nil =>
      have hb : LinkedList.begin m l = l.head := h.next_head
      rw [hb, clear_of_empty h hpos]
      simp [LinkedList.eraseRange]
    | cons a rest =>
      have hb : LinkedList.begin m l = a := h.next_head
      have hne : a ≠ l.head := h.node_ne_head (by simp)
      have hb' : m.next l.head = a := hb
      rw [hb]
      unfold LinkedList.eraseRange
      rw [if_neg hne, if_pos ⟨hb'.symm, rfl⟩]
      cases LinkedList.clear fuel m l with
      | none => rfl
      | some s => rfl
  · obtain ⟨m', l', c1, c2, -, -, -, -, c7⟩ := clear_inv h hf
    exact ⟨m', l', c1, c2, traverse_list_spec c2 (by simpa using hpos), c7⟩
  · intro x
    simp [LinkedList.eraseRange]

theorem erase_range_exact_witness :
    ListInv sampleList.1 sampleList.2 ([1] ++ [2] ++ [3]) ∧ ([1] ++ [2] ++ [3]).length < 5 ∧
    ((∃ m' l', LinkedList.eraseRange 5 sampleList.1 sampleList.2
        (([2] ++ [3]).head?.getD sampleList.2.head) ([3].head?.getD sampleList.2.head) =
          some (m', l', [3].head?.getD sampleList.2.head) ∧
      ListInv m' l' ([1] ++ [3]) ∧
      LinkedList.traverse 5 m' l' = some ([1] ++ [3]) ∧
      LinkedList.contents 5 m' l' =
        some ([1].map sampleList.1.value ++ [3].map sampleList.1.value) ∧
      l'.size + [2].length = sampleList.2.size) ∧
    LinkedList.eraseRange 5 sampleList.1 sampleList.2
        (LinkedList.begin sampleList.1 sampleList.2) sampleList.2.head =
      (LinkedList.clear 5 sampleList.1 sampleList.2).map
        (fun s => (s.1, s.2, sampleList.2.head)) ∧
    (∃ m' l', LinkedList.clear 5 sampleList.1 sampleList.2 = some (m', l') ∧
      ListInv m' l' [] ∧ LinkedList.traverse 5 m' l' = some [] ∧ l'.size = 0) ∧
    (∀ x, LinkedList.eraseRange 5 sampleList.1 sampleList.2 x x =
      some (sampleList.1, sampleList.2, x))) :=
  ⟨sampleList_inv, by decide, erase_range_exact sampleList_inv (by decide)⟩

theorem mergeRuns_nil_right (lt : Nat → Nat → Bool) (ls : List Nat) :
    mergeRuns lt ls [] = ls := by
  cases ls <;> simp [mergeRuns]

theorem mergeRuns_perm (lt : Nat → Nat → Bool) :
    ∀ (n : Nat) (ls rs : List Nat), ls.length + rs.length ≤ n →
      (mergeRuns lt ls rs).Perm (ls ++ rs)
  | _, [], rs, _ => by simp [mergeRuns]
  | _, l :: ls, [], _ => by simp [mergeRuns]
  | 0, l :: ls, r :: rs, h => by simp at h
  | n + 1, l :: ls, r :: rs, h => by
    rw [mergeRuns]
    split
    · have ih := mergeRuns_perm lt n ls (r :: rs) (by simp at h ⊢; omega)
      exact List.Perm.cons l ih
    · have ih := mergeRuns_perm lt n (l :: ls) rs (by simp at h ⊢; omega)
      refine (List.Perm.cons r ih).trans ?_
      have : l :: ls ++ r :: rs = (l :: ls) ++ r :: rs := rfl
      exact (List.perm_middle).symm

theorem mergeRuns_sorted (lt : Nat → Nat → Bool)
    (hasym : ∀ a b, lt a b = true → lt b a = false)
    (htrans : ∀ a b c, lt b a = false → lt c b = false → lt c a = false) :
    ∀ (n : Nat) (ls rs : List Nat), ls.length + rs.length ≤ n →
      ls.Pairwise (fun a b => lt b a = false) → rs.Pairwise (fun a b => lt b a = false) →
      (mergeRuns lt ls rs).Pairwise (fun a b => lt b a = false)
  | _, [], rs, _, _, h2 => by simpa [mergeRuns] using h2
  | _, l :: ls, [], _, h1, _ => by simpa [mergeRuns] using h1
  | 0, l :: ls, r :: rs, h, _, _ => by simp at h
  | n + 1, l :: ls, r :: rs, h, h1, h2 => by
    rw [mergeRuns]
    rw [List.pairwise_cons] at h1 h2
    split
    · rename_i hc
      have ih := mergeRuns_sorted lt hasym htrans n ls (r :: rs) (by simp at h ⊢; omega) h1.2
        (List.pairwise_cons.2 h2)
      rw [List.pairwise_cons]
      refine ⟨?_, ih⟩
      intro x hx
      have hx' := (mergeRuns_perm lt n ls (r :: rs) (by simp at h ⊢; omega)).subset hx
      simp only [List.mem_append, List.mem_cons] at hx'
      have hlr : lt r l = false := hasym l r hc
      rcases hx' with hx' | hx' | hx'
      · exact h1.1 x hx'
      · rw [hx']; exact hlr
      · exact htrans l r x hlr (h2.1 x hx')
    · rename_i hc
      have hc' : lt l r = false := by simpa using hc
      have ih := mergeRuns_sorted lt hasym htrans n (l :: ls) rs (by simp at h ⊢; omega)
        (List.pairwise_cons.2 h1) h2.2
      rw [List.pairwise_cons]
      refine ⟨?_, ih⟩
      intro x hx
      have hx' := (mergeRuns_perm lt n (l :: ls) rs (by simp at h ⊢; omega)).subset hx
      simp only [List.mem_append, List.mem_cons] at hx'
      rcases hx' with (hx' | hx') | hx'
      · rw [hx']; exact hc'
      · exact htrans r l x hc' (h1.1 x hx')
      · exact h2.1 x hx'

theorem Blocks.whole {P : List Nat → Prop} {step : Nat} {xs : List Nat}
    (h : Blocks P step xs) (hl : xs.length ≤ step) : P xs := by
  cases h with
  | last b _ hp => exact hp
  | cons b rest hb hp hr =>
    have : rest = [] := by
      simp only [List.length_append] at hl
      have : rest.length = 0 := by omega
      exact List.length_eq_zero.1 this
    subst this
    simpa using hp

theorem Blocks.singletons {P : List Nat → Prop} (hP : ∀ b : List Nat, b.length ≤ 1 → P b) :
    ∀ xs : List Nat, Blocks P 1 xs
  | [] => Blocks.last [] (by simp) (hP [] (by simp))
  | x :: xs => Blocks.cons [x] xs rfl (hP [x] (by simp)) (Blocks.singletons hP xs)

/-- A sequence of runs longer than one run splits into a full left run, a
right run and the runs behind them. -/
theorem Blocks.split_two {P : List Nat → Prop} {step : Nat} {xs : List Nat}
    (h : Blocks P step xs) (hnil : P []) (hs : 0 < step) (hl : step < xs.length) :
    ∃ Lr Rr B, xs = Lr ++ Rr ++ B ∧ Lr.length = step ∧ P Lr ∧ P Rr ∧ Rr ≠ [] ∧
      Rr.length ≤ step ∧ (B ≠ [] → Rr.length = step) ∧ Blocks P step B := by
  cases h with
  | last b hb _ => omega
  | cons Lr rest hb hp hr =>
    simp only [List.length_append] at hl
    cases hr with
    | last _ hR hpR =>
      refine ⟨Lr, rest, [], by simp, hb, hp, hpR, ?_, hR, fun h => absurd rfl h,
        Blocks.last [] (by simp) hnil⟩
      intro e; subst e; simp at hl; omega
    | cons Rr B hR hpR hB =>
      refine ⟨Lr, Rr, B, by simp, hb, hp, hpR, ?_, by omega, fun _ => hR, hB⟩
      intro e; subst e; simp at hR; omega

theorem advance_spec {m : ListMem T} {l : ListValue} :
    ∀ (Y X Z : List Nat), ListInv m l (X ++ Y ++ Z) →
      advance m Y.length ((Y ++ Z).head?.getD l.head) = Z.head?.getD l.head
  | [], _, _, _ => rfl
  | y :: Y, X, Z, h => by
    have h1 : ListInv m l (X ++ y :: (Y ++ Z)) := by simpa using h
    have h2 : ListInv m l ((X ++ [y]) ++ Y ++ Z) := by simpa using h
    have ih := advance_spec Y (X ++ [y]) Z h2
    simp only [List.length_cons, advance, List.cons_append, List.head?_cons, Option.getD_some]
    rw [h1.next_node, ih]

theorem ListInv.of_perm {m m' : ListMem T} {l : ListValue} {xs ys : List Nat}
    (h : ListInv m l xs) (hp : ys.Perm xs)
    (hr : List.Chain' (Link m') (l.head :: ys ++ [l.head])) (hf : m'.fresh = m.fresh) :
    ListInv m' l ys := by
  refine ⟨hr, ?_, ?_, ?_, ?_⟩
  · exact ((List.Perm.cons l.head hp).nodup_iff).2 h.nodup
  · rw [h.size_eq, hp.length_eq]
  · intro a ha
    rw [hf]
    exact h.alloc a ((List.Perm.cons l.head hp).subset ha)
  · intro it hit
    exact (List.Perm.cons l.head hp).symm.subset (h.iters it hit)

/-- The relinking step of `sort`: the node `r` moves in front of the node `l0`. -/
theorem sortRelink_inv {m : ListMem T} {l : ListValue} {A Lr Rr : List Nat} {l0 r : Nat}
    (h : ListInv m l (A ++ l0 :: Lr ++ r :: Rr)) :
    ListInv (sortRelink m l0 r) l (A ++ r :: l0 :: Lr ++ Rr) := by
  have h' : ListInv m l ((A ++ l0 :: Lr) ++ r :: Rr) := by simpa using h
  obtain ⟨-, e, -⟩ := eraseNode_inv h'
  have ring2 : List.Chain' (Link (ListValue.extractNode m r))
      (l.head :: ((A ++ l0 :: Lr) ++ Rr) ++ [l.head]) :=
    Link.chain_frame e.ring (fun _ _ => rfl) (fun _ _ => rfl)
  have nd2 : (l.head :: ((A ++ l0 :: Lr) ++ Rr)).Nodup := e.nodup
  have ring2' : List.Chain' (Link (ListValue.extractNode m r))
      (l.head :: (A ++ (l0 :: (Lr ++ Rr))) ++ [l.head]) := by simpa using ring2
  have nd2' : (l.head :: (A ++ (l0 :: (Lr ++ Rr)))).Nodup := by simpa using nd2
  have hs2 := ring_seam A (l0 :: (Lr ++ Rr)) ring2'
  simp only [List.head?_cons, Option.getD_some] at hs2
  have hnd := h.nodup
  have hr_not : r ∉ l.head :: (A ++ (l0 :: (Lr ++ Rr))) := by
    intro hm
    have hp : (l.head :: (A ++ l0 :: Lr ++ r :: Rr)).Perm
        (r :: l.head :: (A ++ (l0 :: (Lr ++ Rr)))) := by
      have : l.head :: (A ++ l0 :: Lr ++ r :: Rr) =
          (l.head :: (A ++ l0 :: Lr)) ++ r :: Rr := by simp
      rw [this]
      refine List.perm_middle.trans ?_
      simp
    have := (hp.nodup_iff).1 hnd
    exact (List.nodup_cons.1 this).1 hm
  have hpm := getLast?_getD_mem l.head A
  have hpr : A.getLast?.getD l.head ≠ r := by
    intro e1
    rw [e1] at hpm
    exact hr_not (by simp at hpm ⊢; tauto)
  have hl0r : l0 ≠ r := by
    intro e1
    exact hr_not (by simp [e1])
  have hperm : (A ++ r :: l0 :: Lr ++ Rr).Perm (A ++ l0 :: Lr ++ r :: Rr) := by
    have e1 : A ++ r :: l0 :: Lr ++ Rr = A ++ r :: (l0 :: Lr ++ Rr) := by simp
    have e2 : A ++ l0 :: Lr ++ r :: Rr = (A ++ l0 :: Lr) ++ r :: Rr := by simp
    rw [e1, e2]
    refine List.perm_middle.trans ?_
    refine List.Perm.trans ?_ List.perm_middle.symm
    simp
  have hnx : (sortRelink m l0 r).next =
      upd (upd (ListValue.extractNode m r).next r l0) (A.getLast?.getD l.head) r := by
    rw [← hs2.2]
    simp [sortRelink, ListValue.extractNode, upd, hl0r]
  have hpv : (sortRelink m l0 r).prev =
      upd (upd (ListValue.extractNode m r).prev r (A.getLast?.getD l.head)) l0 r := by
    rw [← hs2.2]
    simp [sortRelink, ListValue.extractNode, upd, hl0r]
  refine h.of_perm hperm ?_ rfl
  have e3 : A ++ r :: l0 :: Lr ++ Rr = A ++ [r] ++ (l0 :: (Lr ++ Rr)) := by simp
  rw [e3]
  refine ring_splice [] (by simpa using ring2') nd2' ?_ ?_ ?_
  · intro x hx hne
    have hxr : x ≠ r := fun e1 => hr_not (e1 ▸ hx)
    rw [hnx]
    simp [upd, hne, hxr]
  · intro x hx hne
    have hxr : x ≠ r := fun e1 => hr_not (e1 ▸ hx)
    simp only [List.head?_cons, Option.getD_some] at hne
    rw [hpv]
    simp [upd, hne, hxr]
  · simp only [List.head?_cons, Option.getD_some]
    show List.Chain' (Link (sortRelink m l0 r)) [A.getLast?.getD l.head, r, l0]
    rw [List.chain'_cons, List.chain'_cons]
    simp only [List.chain'_singleton, and_true, Link, hnx, hpv]
    simp [upd, hl0r, hl0r.symm, hpr, hpr.symm]

theorem mergeRuns_cons_left {lt : Nat → Nat → Bool} {l0 r : Nat} (ls rs : List Nat)
    (h : lt l0 r = true) :
    mergeRuns lt (l0 :: ls) (r :: rs) = l0 :: mergeRuns lt ls (r :: rs) := by
  rw [mergeRuns, if_pos h]

theorem mergeRuns_cons_right {lt : Nat → Nat → Bool} {l0 r : Nat} (ls rs : List Nat)
    (h : ¬ lt l0 r = true) :
    mergeRuns lt (l0 :: ls) (r :: rs) = r :: mergeRuns lt (l0 :: ls) rs := by
  rw [mergeRuns, if_neg h]

/-- The inner loop of `sort` on a left run `Lr` and a right run `Rr` that
stand one behind the other: the loop returns, and the two runs are replaced
by their merge; values and allocator stay as they are, and `right_ptr` moved
on by the rest of the right run is the first node behind the two runs. -/
theorem sortMerge_spec (cmp : T → T → Bool) {l : ListValue} (step : Nat) {v : Nat → T} :
    ∀ (fuel : Nat) (m : ListMem T) (A Lr Rr B : List Nat) (lc rc : Nat),
      ListInv m l (A ++ Lr ++ Rr ++ B) → m.value = v →
      lc + Lr.length = step → rc + Rr.length ≤ step → (B ≠ [] → rc + Rr.length = step) →
      Lr.length + Rr.length < fuel →
      ∃ m' right' rc',
        sortMerge cmp l.head step fuel m ((Lr ++ Rr ++ B).head?.getD l.head)
          ((Rr ++ B).head?.getD l.head) lc rc = some (m', right', rc') ∧
        ListInv m' l (A ++ mergeRuns (fun a b => cmp (v a) (v b)) Lr Rr ++ B) ∧
        m'.value = v ∧ m'.fresh = m.fresh ∧ m'.freed = m.freed ∧
        (B ≠ [] → advance m' (step - rc') right' = B.head?.getD l.head)
  | 0, _, _, _, _, _, _, _, _, _, _, _, _, hf => by omega
  | fuel + 1, m, A, [], Rr, B, lc, rc, h, hv, hL, hR, hRB, hf => by
    have hlc : lc = step := by simpa using hL
    refine ⟨m, (Rr ++ B).head?.getD l.head, rc, ?_, ?_, hv, rfl, rfl, ?_⟩
    · simp [sortMerge, hlc]
    · simpa [mergeRuns] using h
    · intro hB
      have := hRB hB
      have e : step - rc = Rr.length := by omega
      rw [e]
      exact advance_spec Rr A B (by simpa using h)
  | fuel + 1, m, A, l0 :: Lr, [], B, lc, rc, h, hv, hL, hR, hRB, hf => by
    have hlc : lc ≠ step := by simp at hL; omega
    refine ⟨m, B.head?.getD l.head, rc, ?_, ?_, hv, rfl, rfl, ?_⟩
    · by_cases hrc : rc = step
      · simp [sortMerge, hrc]
      · have hB : B = [] := by
          by_contra hB
          have := hRB hB
          simp at this
          exact hrc this
        subst hB
        simp [sortMerge, hlc, hrc]
    · simpa [mergeRuns_nil_right] using h
    · intro hB
      have := hRB hB
      simp at this
      rw [this]
      simp [advance]
  | fuel + 1, m, A, l0 :: Lr, r :: Rr, B, lc, rc, h, hv, hL, hR, hRB, hf => by
    have hlc : lc ≠ step := by simp at hL; omega
    have hrc : rc ≠ step := by simp at hR; omega
    have h1 : ListInv m l (A ++ l0 :: (Lr ++ r :: (Rr ++ B))) := by simpa using h
    have h2 : ListInv m l ((A ++ l0 :: Lr) ++ r :: (Rr ++ B)) := by simpa using h
    have hrh : r ≠ l.head := h.node_ne_head (by simp)
    by_cases hc : cmp (m.value l0) (m.value r) = true
    · have hlt : (fun a b => cmp (v a) (v b)) l0 r = true := by rw [← hv]; exact hc
      have h3 : ListInv m l ((A ++ [l0]) ++ Lr ++ (r :: Rr) ++ B) := by simpa using h
      obtain ⟨m', right', rc', e1, e2, e3, e4, e5, e6⟩ :=
        sortMerge_spec cmp step fuel m (A ++ [l0]) Lr (r :: Rr) B (lc + 1) rc h3 hv
          (by simp at hL; omega) hR hRB (by simp at hf ⊢; omega)
      refine ⟨m', right', rc', ?_, ?_, e3, e4, e5, e6⟩
      · simp only [List.cons_append, List.head?_cons, Option.getD_some, sortMerge, ne_eq, hlc,
          not_false_eq_true, hrc, and_self, if_true, hrh, if_false, hc]
        rw [h1.next_node]
        simpa using e1
      · rw [mergeRuns_cons_left _ _ hlt]
        simpa using e2
    · have hlt : ¬ (fun a b => cmp (v a) (v b)) l0 r = true := by rw [← hv]; exact hc
      have h4 : ListInv (sortRelink m l0 r) l (A ++ r :: l0 :: Lr ++ (Rr ++ B)) :=
        sortRelink_inv (by simpa using h)
      have h5 : ListInv (sortRelink m l0 r) l ((A ++ [r]) ++ (l0 :: Lr) ++ Rr ++ B) := by
        simpa using h4
      obtain ⟨m', right', rc', e1, e2, e3, e4, e5, e6⟩ :=
        sortMerge_spec cmp step fuel (sortRelink m l0 r) (A ++ [r]) (l0 :: Lr) Rr B lc (rc + 1) h5 hv
          hL (by simp at hR ⊢; omega) (fun hB => by have := hRB hB; simp at this ⊢; omega)
          (by simp at hf ⊢; omega)
      refine ⟨m', right', rc', ?_, ?_, e3, e4, e5, e6⟩
      · simp only [List.cons_append, List.head?_cons, Option.getD_some, sortMerge, ne_eq, hlc,
          not_false_eq_true, hrc, and_self, if_true, hrh, if_false, hc]
        rw [h2.next_node]
        simpa using e1
      · rw [mergeRuns_cons_right _ _ hlt]
        simpa using e2

theorem sizeWrap_of_lt {n : Nat} (h : n < 2 ^ 64) : sizeWrap n = n := Nat.mod_eq_of_lt h

theorem mergeRuns_length (lt : Nat → Nat → Bool) (ls rs : List Nat) :
    (mergeRuns lt ls rs).length = ls.length + rs.length := by
  rw [(mergeRuns_perm lt _ ls rs (le_refl _)).length_eq, List.length_append]

/-- One pass of `sort` over the stretch `X` made of runs of length `step`:
the pass returns, and the stretch is a rearrangement of itself made of runs
of length `2 * step`. -/
theorem sortPass_spec {cmp : T → T → Bool} {l : ListValue} {step fuel : Nat} {v : Nat → T}
    {P : List Nat → Prop} (hs : 0 < step) (hsz : l.size < 2 ^ 62) (hnil : P [])
    (hP : ∀ L R, P L → P R → P (mergeRuns (fun a b => cmp (v a) (v b)) L R)) :
    ∀ (steps : Nat) (m : ListMem T) (A X : List Nat),
      ListInv m l (A ++ X) → m.value = v → Blocks P step X → step < X.length →
      X.length < steps → X.length < fuel →
      ∃ m' X', sortPass cmp l.head step l.size fuel steps m (X.head?.getD l.head)
          (advance m step (X.head?.getD l.head)) A.length = some m' ∧
        ListInv m' l (A ++ X') ∧ X'.Perm X ∧ Blocks P (2 * step) X' ∧
        m'.value = v ∧ m'.fresh = m.fresh ∧ m'.freed = m.freed
  | 0, _, _, _, _, _, _, _, hst, _ => by omega
  | steps + 1, m, A, X, h, hv, hbl, hlen, hst, hf => by
    obtain ⟨Lr, Rr, B, rfl, hLr, pL, pR, hRne, hRle, hRB, hB⟩ := hbl.split_two hnil hs hlen
    have hsize := h.size_eq
    simp only [List.length_append] at hsize hlen hst hf
    have h0 : ListInv m l (A ++ Lr ++ Rr ++ B) := by simpa using h
    have hadv : advance m step ((Lr ++ Rr ++ B).head?.getD l.head) =
        (Rr ++ B).head?.getD l.head := by
      have := advance_spec Lr A (Rr ++ B) (by simpa using h)
      rw [hLr] at this
      simpa using this
    have hright : (Rr ++ B).head?.getD l.head ≠ l.head := by
      cases Rr with
      | nil => exact absurd rfl hRne
      | cons r Rr => exact h.node_ne_head (by simp)
    obtain ⟨m1, right1, rc1, e1, e2, e3, e4, e5, e6⟩ :=
      sortMerge_spec cmp step fuel m A Lr Rr B 0 0 h0 hv (by omega) (by omega)
        (fun hB' => by have := hRB hB'; omega) (by omega)
    have hM := mergeRuns_length (fun a b => cmp (v a) (v b)) Lr Rr
    have hMp := mergeRuns_perm (fun a b => cmp (v a) (v b)) _ Lr Rr (le_refl _)
    have w1 : sizeWrap (step + step) = step + step := sizeWrap_of_lt (by omega)
    have w2 : sizeWrap (A.length + (step + step)) = A.length + (step + step) :=
      sizeWrap_of_lt (by omega)
    have w3 : sizeWrap (A.length + (step + step) + step) = A.length + (step + step) + step :=
      sizeWrap_of_lt (by omega)
    rw [hadv]
    unfold sortPass
    rw [if_pos hright, e1]
    simp only [w1, w2, w3]
    by_cases hstop : A.length + (step + step) + step ≥ l.size
    · rw [if_pos hstop]
      refine ⟨m1, mergeRuns (fun a b => cmp (v a) (v b)) Lr Rr ++ B, rfl, by simpa using e2,
        ?_, ?_, e3, e4, e5⟩
      · exact List.Perm.append_right B hMp
      · by_cases hBe : B = []
        · subst hBe
          rw [List.append_nil]
          exact Blocks.last _
            (show (mergeRuns (fun a b => cmp (v a) (v b)) Lr Rr).length ≤ 2 * step by omega)
            (hP Lr Rr pL pR)
        · have := hRB hBe
          refine Blocks.cons _ _
            (show (mergeRuns (fun a b => cmp (v a) (v b)) Lr Rr).length = 2 * step by omega)
            (hP Lr Rr pL pR) ?_
          have hBl : B.length ≤ step := by omega
          exact Blocks.last B (show B.length ≤ 2 * step by omega) (hB.whole hBl)
    · rw [if_neg hstop]
      have hBpos : 0 < B.length := by omega
      have hBe : B ≠ [] := by
        intro e; rw [e] at hBpos; simp at hBpos
      have hRl := hRB hBe
      have hBl : step < B.length := by omega
      have hleft2 : (if rc1 = step then right1 else advance m1 (step - rc1) right1) =
          B.head?.getD l.head := by
        have := e6 hBe
        split
        · rename_i hr
          rw [hr] at this
          simpa [advance] using this
        · exact this
      rw [hleft2]
      have h1 : ListInv m1 l ((A ++ mergeRuns (fun a b => cmp (v a) (v b)) Lr Rr) ++ B) := e2
      obtain ⟨m2, X2, f1, f2, f3, f4, f5, f6, f7⟩ :=
        sortPass_spec hs hsz hnil hP steps m1 (A ++ mergeRuns (fun a b => cmp (v a) (v b)) Lr Rr)
          B h1 e3 hB hBl (show B.length < steps by omega) (show B.length < fuel by omega)
      have hAl : (A ++ mergeRuns (fun a b => cmp (v a) (v b)) Lr Rr).length =
          A.length + (step + step) := by
        rw [List.length_append, hM]; omega
      rw [hAl] at f1
      refine ⟨m2, mergeRuns (fun a b => cmp (v a) (v b)) Lr Rr ++ X2, f1, by simpa using f2,
        ?_, ?_, f5, by rw [f6, e4], by rw [f7, e5]⟩
      · exact (List.Perm.append hMp f3)
      · exact Blocks.cons _ _
          (show (mergeRuns (fun a b => cmp (v a) (v b)) Lr Rr).length = 2 * step by omega)
          (hP Lr Rr pL pR) f4

/-- The outer loop of `sort` from runs of length `step` on: the loop returns
when the step count covers the doublings still needed, and the result is one
run. -/
theorem sortLoop_spec {cmp : T → T → Bool} {l : ListValue} {fuel : Nat} {v : Nat → T}
    {P : List Nat → Prop} (hsz : l.size < 2 ^ 62) (hnil : P [])
    (hP : ∀ L R, P L → P R → P (mergeRuns (fun a b => cmp (v a) (v b)) L R)) :
    ∀ (steps : Nat) (m : ListMem T) (xs : List Nat) (step : Nat),
      ListInv m l xs → m.value = v → Blocks P step xs → 0 < step →
      xs.length ≤ step * 2 ^ steps → xs.length < fuel →
      ∃ m' xs', sortLoop cmp l.head l.size fuel (steps + 1) m step = some m' ∧
        ListInv m' l xs' ∧ xs'.Perm xs ∧ P xs' ∧
        m'.value = v ∧ m'.fresh = m.fresh ∧ m'.freed = m.freed := by
  intro steps
  induction steps with
  | zero =>
    intro m xs step h hv hbl hs hle hf
    have hsize := h.size_eq
    have hnot : ¬ l.size > step := by simp at hle; omega
    refine ⟨m, xs, ?_, h, List.Perm.refl _, hbl.whole (by simpa using hle), hv, rfl, rfl⟩
    unfold sortLoop
    rw [if_neg hnot]
  | succ s ih =>
    intro m xs step h hv hbl hs hle hf
    have hsize := h.size_eq
    by_cases hgt : l.size > step
    · have h0 : ListInv m l ([] ++ xs) := h
      obtain ⟨m1, X1, e1, e2, e3, e4, e5, e6, e7⟩ :=
        sortPass_spec hs hsz hnil hP fuel m [] xs h0 hv hbl (by omega) hf hf
      have e2' : ListInv m1 l X1 := e2
      have hw : sizeWrap (step * 2) = 2 * step := by
        rw [sizeWrap_of_lt (by omega)]; omega
      have hl1 : X1.length = xs.length := e3.length_eq
      obtain ⟨m2, X2, f1, f2, f3, f4, f5, f6, f7⟩ :=
        ih m1 X1 (2 * step) e2' e5 e4 (by omega)
          (by rw [hl1]; rw [pow_succ] at hle; calc xs.length ≤ step * (2 ^ s * 2) := hle
                _ = 2 * step * 2 ^ s := by ring)
          (by omega)
      refine ⟨m2, X2, ?_, f2, f3.trans e3, f4, f5, by rw [f6, e6], by rw [f7, e7]⟩
      unfold sortLoop
      rw [if_pos hgt, h.next_head]
      simp only [List.length_nil] at e1
      simp only [e1, hw]
      exact f1
    · refine ⟨m, xs, ?_, h, List.Perm.refl _, hbl.whole (by omega), hv, rfl, rfl⟩
      unfold sortLoop
      rw [if_neg hgt]

/-- `sort` on a well-formed list of fewer than `2 ^ 62` nodes: with fuel above
the size the call returns; the nodes are rearranged, values and allocator
stay as they are, and the result satisfies every property `P` of node
sequences that holds for sequences of at most one node and is kept by the
merge of two runs. -/
theorem sort_spec (cmp : T → T → Bool) {m : ListMem T} {l : ListValue} {xs : List Nat}
    {P : List Nat → Prop} (h : ListInv m l xs) (hsz : l.size < 2 ^ 62)
    (hP1 : ∀ b : List Nat, b.length ≤ 1 → P b)
    (hP : ∀ L R, P L → P R → P (mergeRuns (fun a b => cmp (m.value a) (m.value b)) L R))
    {fuel : Nat} (hf : xs.length < fuel) :
    ∃ m' xs', LinkedList.sort cmp fuel m l = some m' ∧ ListInv m' l xs' ∧ xs'.Perm xs ∧
      P xs' ∧ m'.value = m.value ∧ m'.fresh = m.fresh ∧ m'.freed = m.freed := by
  obtain ⟨k, rfl⟩ : ∃ k, fuel = k + 1 := ⟨fuel - 1, by omega⟩
  have hk : xs.length ≤ 1 * 2 ^ k := by
    have := Nat.lt_two_pow k
    omega
  exact sortLoop_spec hsz (hP1 [] (by simp)) hP k m xs 1 h rfl (Blocks.singletons hP1 xs)
    (by omega) hk hf

theorem shuffledList_inv : ListInv shuffledList.1 shuffledList.2 [1, 2, 3] := by
  refine ⟨?_, ?_, ?_, ?_, ?_⟩
  · simp only [List.chain'_cons, List.chain'_singleton, Link, and_true, List.cons_append,
      List.nil_append]
    unfold shuffledList
    decide!
  · unfold shuffledList; decide!
  · unfold shuffledList; decide!
  · unfold shuffledList; decide!
  · unfold shuffledList; decide!

theorem shuffledList_size : shuffledList.2.size < 2 ^ 62 := by
  rw [shuffledList_inv.size_eq]
  norm_num

theorem ListInv.next_prev {m : ListMem T} {l : ListValue} {xs : List Nat}
    (h : ListInv m l xs) {n : Nat} (hn : n ∈ l.head :: xs) :
    m.prev (m.next n) = n ∧ m.next (m.prev n) = n := by
  rcases List.mem_cons.1 hn with e | hm
  · subst e
    have s1 := ring_seam [] xs (by simpa using h.ring)
    have s2 := ring_seam xs [] (by simpa using h.ring)
    simp only [List.getLast?_nil, Option.getD_none, List.head?_nil] at s1 s2
    constructor
    · rw [s1.1, s1.2]
    · rw [s2.2, s2.1]
  · obtain ⟨pre, post, rfl⟩ := List.append_of_mem hm
    have s1 := ring_seam (pre ++ [n]) post (by simpa using h.ring)
    have s2 := ring_seam pre (n :: post) h.ring
    simp at s1 s2
    constructor
    · rw [s1.1, s1.2]
    · rw [s2.2, s2.1]

theorem swo_asymm {cmp : T → T → Bool} (hswo : StrictWeakOrder cmp) (a b : T)
    (h : cmp a b = true) : cmp b a = false := by
  by_contra hc
  have hc' : cmp b a = true := by simpa using hc
  have := hswo.trans a b a h hc'
  rw [hswo.irrefl a] at this
  exact Bool.false_ne_true this

theorem swo_not_lt_trans {cmp : T → T → Bool} (hswo : StrictWeakOrder cmp) (a b c : T)
    (h1 : cmp b a = false) (h2 : cmp c b = false) : cmp c a = false := by
  by_contra hc
  have hca : cmp c a = true := by simpa using hc
  by_cases hab : cmp a b = true
  · have := hswo.trans c a b hca hab
    rw [h2] at this
    exact Bool.false_ne_true this
  · have hab' : cmp a b = false := by simpa using hab
    by_cases hbc : cmp b c = true
    · have := hswo.trans b c a hbc hca
      rw [h1] at this
      exact Bool.false_ne_true this
    · have hbc' : cmp b c = false := by simpa using hbc
      have := (hswo.incomp_trans a b c hab' h1 hbc' h2).2
      rw [hca] at this
      exact Bool.false_ne_true this.symm

/-- C14: `sort(cmp)` with a strict weak order on a well-formed list of fewer
than `2 ^ 62` nodes (more nodes do not fit the address space).  With fuel
above the size the call returns, and in the sequence of values from
`begin()` to `end()` no adjacent pair `(a, b)` has `cmp(b, a)`; the same
holds for every pair `a` before `b`. -/
theorem sort_output_non_decreasing {cmp : T → T → Bool} (hswo : StrictWeakOrder cmp)
    {m : ListMem T} {l : ListValue} {xs : List Nat} (h : ListInv m l xs)
    (hsz : l.size < 2 ^ 62) {fuel : Nat} (hf : xs.length < fuel) :
    ∃ m' ys, LinkedList.sort cmp fuel m l = some m' ∧
      LinkedList.contents fuel m' l = some ys ∧
      List.Chain' (fun a b => cmp b a = false) ys ∧
      List.Pairwise (fun a b => cmp b a = false) ys := by
  obtain ⟨m', xs', e1, e2, e3, e4, e5, -, -⟩ :=
    sort_spec cmp (P := fun b => b.Pairwise (fun x y => cmp (m.value y) (m.value x) = false))
      h hsz
      (by
        intro b hb
        match b, hb with
        | [], _ => exact List.Pairwise.nil
        | [x], _ => exact List.pairwise_singleton _ _
        | _ :: _ :: _, hb => simp at hb)
      (by
        intro L R hL hR
        exact mergeRuns_sorted (fun a b => cmp (m.value a) (m.value b))
          (fun a b => swo_asymm hswo _ _)
          (fun a b c => swo_not_lt_trans hswo _ _ _) _ L R (le_refl _) hL hR)
      hf
  have hlen : xs'.length < fuel := by rw [e3.length_eq]; exact hf
  have hpw : List.Pairwise (fun a b => cmp b a = false) (xs'.map m'.value) := by
    rw [List.pairwise_map, e5]
    exact e4
  exact ⟨m', xs'.map m'.value, e1, contents_spec e2 hlen, List.Pairwise.chain' hpw, hpw⟩

theorem sort_output_non_decreasing_witness :
    StrictWeakOrder natLess ∧ ListInv shuffledList.1 shuffledList.2 [1, 2, 3] ∧
    shuffledList.2.size < 2 ^ 62 ∧ [1, 2, 3].length < 5 ∧
    ∃ m' ys, LinkedList.sort natLess 5 shuffledList.1 shuffledList.2 = some m' ∧
      LinkedList.contents 5 m' shuffledList.2 = some ys ∧
      List.Chain' (fun a b => natLess b a = false) ys ∧
      List.Pairwise (fun a b => natLess b a = false) ys :=
  ⟨natLess_swo, shuffledList_inv, shuffledList_size, by decide,
    sort_output_non_decreasing natLess_swo shuffledList_inv shuffledList_size (by decide)⟩

/-- C15: `sort(cmp)` with any comparator on a well-formed list of fewer than
`2 ^ 62` nodes.  With fuel above the size the call returns; the iteration
from `begin()` to `end()` then meets a rearrangement of the same nodes, every
node holds the value it held, so the values are a rearrangement of the old
ones; the number of nodes is the unchanged size, the allocator handed out no
node and got none back, and for every node and the head `n->next->prev` and
`n->prev->next` are `n`. -/
theorem sort_permutes_nodes (cmp : T → T → Bool) {m : ListMem T} {l : ListValue}
    {xs : List Nat} (h : ListInv m l xs) (hsz : l.size < 2 ^ 62) {fuel : Nat}
    (hf : xs.length < fuel) :
    ∃ m' ys, LinkedList.sort cmp fuel m l = some m' ∧
      LinkedList.traverse fuel m' l = some ys ∧ ys.Perm xs ∧
      m'.value = m.value ∧ (ys.map m'.value).Perm (xs.map m.value) ∧
      ys.length = l.size ∧ m'.fresh = m.fresh ∧ m'.freed = m.freed ∧
      (∀ n ∈ l.head :: ys, m'.prev (m'.next n) = n ∧ m'.next (m'.prev n) = n) ∧
      ListInv m' l ys := by
  obtain ⟨m', xs', e1, e2, e3, -, e5, e6, e7⟩ :=
    sort_spec cmp (P := fun _ => True) h hsz (fun _ _ => trivial) (fun _ _ _ _ => trivial) hf
  have hlen : xs'.length < fuel := by rw [e3.length_eq]; exact hf
  refine ⟨m', xs', e1, traverse_list_spec e2 hlen, e3, e5, ?_, e2.size_eq.symm, e6, e7,
    fun n hn => e2.next_prev hn, e2⟩
  rw [e5]
  exact e3.map _

theorem sort_permutes_nodes_witness :
    ListInv shuffledList.1 shuffledList.2 [1, 2, 3] ∧ shuffledList.2.size < 2 ^ 62 ∧
    [1, 2, 3].length < 5 ∧
    ∃ m' ys, LinkedList.sort natLess 5 shuffledList.1 shuffledList.2 = some m' ∧
      LinkedList.traverse 5 m' shuffledList.2 = some ys ∧ ys.Perm [1, 2, 3] ∧
      m'.value = shuffledList.1.value ∧
      (ys.map m'.value).Perm ([1, 2, 3].map shuffledList.1.value) ∧
      ys.length = shuffledList.2.size ∧ m'.fresh = shuffledList.1.fresh ∧
      m'.freed = shuffledList.1.freed ∧
      (∀ n ∈ shuffledList.2.head :: ys, m'.prev (m'.next n) = n ∧ m'.next (m'.prev n) = n) ∧
      ListInv m' shuffledList.2 ys :=
  ⟨shuffledList_inv, shuffledList_size, by decide,
    sort_permutes_nodes natLess shuffledList_inv shuffledList_size (by decide)⟩

theorem IsSeg.append {r : RegMem} : ∀ {pre : List Nat} {o mid e : Option Nat} {rest : List Nat},
    IsSeg r o pre mid → IsSeg r mid rest e → IsSeg r o (pre ++ rest) e
  | [], _, _, _, _, h1, h2 => by
    have : _ = _ := h1
    subst this
    exact h2
  | x :: pre, _, _, _, _, h1, h2 => ⟨h1.1, IsSeg.append h1.2 h2⟩

theorem IsSeg.split {r : RegMem} : ∀ {pre : List Nat} {o e : Option Nat} {rest : List Nat},
    IsSeg r o (pre ++ rest) e → ∃ mid, IsSeg r o pre mid ∧ IsSeg r mid rest e
  | [], o, _, _, h => ⟨o, rfl, h⟩
  | x :: pre, _, _, _, h => by
    obtain ⟨mid, h1, h2⟩ := IsSeg.split h.2
    exact ⟨mid, ⟨h.1, h1⟩, h2⟩

theorem IsSeg.congr_next {r r' : RegMem} : ∀ {xs : List Nat} {o e : Option Nat},
    IsSeg r o xs e → (∀ a ∈ xs, r'.next_iterator a = r.next_iterator a) → IsSeg r' o xs e
  | [], _, _, h, _ => h
  | x :: xs, _, _, h, hf => by
    refine ⟨h.1, ?_⟩
    rw [hf x (by simp)]
    exact IsSeg.congr_next h.2 (fun a ha => hf a (by simp [ha]))

/-- A chain is determined by its first pointer. -/
theorem IsSeg.unique {r : RegMem} : ∀ {xs ys : List Nat} {o : Option Nat},
    IsSeg r o xs none → IsSeg r o ys none → xs = ys
  | [], [], _, _, _ => rfl
  | [], y :: ys, _, h1, h2 => by
    have e1 : _ = _ := h1
    have e2 := h2.1
    rw [e1] at e2
    simp at e2
  | x :: xs, [], _, h1, h2 => by
    have e1 : _ = _ := h2
    have e2 := h1.1
    rw [e1] at e2
    simp at e2
  | x :: xs, y :: ys, _, h1, h2 => by
    have e : x = y := by
      have e1 := h1.1
      rw [h2.1] at e1
      simpa using e1.symm
    subst e
    rw [IsSeg.unique h1.2 h2.2]

theorem slotAfter_nil (p : Nat) : slotAfter p [] = ChainSlot.first p := rfl

theorem slotAfter_concat (p : Nat) (pre : List Nat) (a : Nat) :
    slotAfter p (pre ++ [a]) = ChainSlot.next a := by
  simp [slotAfter]

/-- Reading the place behind a stretch of the chain gives the pointer that
ends the stretch. -/
theorem IsSeg.get_slotAfter {r : RegMem} {p : Nat} {pre : List Nat} {mid : Option Nat}
    (h : IsSeg r (r.first p) pre mid) : r.get (slotAfter p pre) = mid := by
  rcases List.eq_nil_or_concat pre with e | ⟨pre', a, e⟩
  · subst e
    exact h
  · rw [List.concat_eq_append] at e
    subst e
    rw [slotAfter_concat]
    obtain ⟨m1, -, h2⟩ := IsSeg.split h
    have := h2.2
    have e2 : _ = _ := this
    exact e2

/-- Writing the place behind a stretch of distinct records redirects the end
of the stretch and nothing else of it. -/
theorem IsSeg.set_slotAfter {r : RegMem} {p : Nat} {pre : List Nat} {mid : Option Nat}
    (h : IsSeg r (r.first p) pre mid) (hn : pre.Nodup) (v : Option Nat) :
    IsSeg (r.set (slotAfter p pre) v) ((r.set (slotAfter p pre) v).first p) pre v := by
  rcases List.eq_nil_or_concat pre with e | ⟨pre', a, e⟩
  · subst e
    simp [slotAfter, RegMem.set, IsSeg, upd]
  · rw [List.concat_eq_append] at e
    subst e
    rw [slotAfter_concat]
    obtain ⟨m1, h1, h2⟩ := IsSeg.split h
    have ha : a ∉ pre' := by
      intro hm
      have := List.nodup_append.1 hn
      exact this.2.2 hm (by simp)
    have h1' : IsSeg (r.set (ChainSlot.next a) v) (r.first p) pre' m1 := by
      refine IsSeg.congr_next h1 ?_
      intro b hb
      have : b ≠ a := fun e => ha (e ▸ hb)
      simp [RegMem.set, upd, this]
    refine IsSeg.append h1' ?_
    refine ⟨h2.1, ?_⟩
    simp [RegMem.set, upd, IsSeg]

/-- The invariant after an operation that touches the chains of the proxies
in `S` only and leaves the containers and proxies as they are: it is enough
to give the new chains of these proxies. -/
theorem RegInv.of_frame {r r' : RegMem} (h : RegInv r) (S : Nat → Prop)
    (hfirst : ∀ q, ¬ S q → r'.first q = r.first q)
    (hnext : ∀ a q, ¬ S q → r.proxy a = some q → r'.next_iterator a = r.next_iterator a)
    (hproxy : ∀ a q, ¬ S q → (r'.proxy a = some q ↔ r.proxy a = some q))
    (hS : ∀ q, S q → ∃ xs : List Nat, IsSeg r' (r'.first q) xs none ∧ xs.Nodup ∧
      ∀ a, a ∈ xs ↔ r'.proxy a = some q)
    (hcp : r'.container_proxy = r.container_proxy) (hpar : r'.parent = r.parent)
    (hfr : r'.fresh = r.fresh)
    (hreg : ∀ a q, r'.proxy a = some q →
      r.proxy a = some q ∨ ∃ c, r.container_proxy c = some q) : RegInv r' := by
  refine ⟨?_, ?_, ?_, ?_⟩
  · intro q
    by_cases hq : S q
    · exact hS q hq
    · obtain ⟨xs, h1, h2, h3⟩ := h.chains q
      refine ⟨xs, ?_, h2, ?_⟩
      · rw [hfirst q hq]
        exact IsSeg.congr_next h1 (fun a ha => hnext a q hq ((h3 a).1 ha))
      · intro a
        rw [h3 a, hproxy a q hq]
  · intro c p hc
    rw [hcp] at hc
    rw [hpar]
    exact h.owner c p hc
  · intro a q ha
    rw [hcp]
    rcases hreg a q ha with h1 | h1
    · exact h.registered a q h1
    · exact h1
  · intro c p hc
    rw [hcp] at hc
    rw [hfr]
    exact h.alloc c p hc

theorem set_slotAfter_next {r : RegMem} {p : Nat} {pre : List Nat} {b : Nat} (hb : b ∉ pre)
    (v : Option Nat) : (r.set (slotAfter p pre) v).next_iterator b = r.next_iterator b := by
  rcases List.eq_nil_or_concat pre with e | ⟨pre', a, e⟩
  · subst e; rfl
  · rw [List.concat_eq_append] at e
    subst e
    rw [slotAfter_concat]
    have : b ≠ a := by
      intro e; subst e; exact hb (by simp)
    simp [RegMem.set, upd, this]

theorem set_slotAfter_first {r : RegMem} {p q : Nat} {pre : List Nat} (hq : q ≠ p)
    (v : Option Nat) : (r.set (slotAfter p pre) v).first q = r.first q := by
  rcases List.eq_nil_or_concat pre with e | ⟨pre', a, e⟩
  · subst e; simp [slotAfter, RegMem.set, upd, hq]
  · rw [List.concat_eq_append] at e
    subst e
    rw [slotAfter_concat]
    rfl

theorem set_proxy (r : RegMem) (s : ChainSlot) (v : Option Nat) : (r.set s v).proxy = r.proxy := by
  cases s <;> rfl

theorem set_ptr (r : RegMem) (s : ChainSlot) (v : Option Nat) : (r.set s v).ptr = r.ptr := by
  cases s <;> rfl

theorem set_parent (r : RegMem) (s : ChainSlot) (v : Option Nat) :
    (r.set s v).parent = r.parent := by
  cases s <;> rfl

theorem set_container_proxy (r : RegMem) (s : ChainSlot) (v : Option Nat) :
    (r.set s v).container_proxy = r.container_proxy := by
  cases s <;> rfl

theorem set_fresh (r : RegMem) (s : ChainSlot) (v : Option Nat) : (r.set s v).fresh = r.fresh := by
  cases s <;> rfl

/-- The loop of `orphanPtr` / `orphanNonHead` from the place behind the
records `kept` on: it returns, the records of `rest` whose node meets the
condition are unlinked and get a null proxy, nothing else changes. -/
theorem orphanLoop_spec (cond : Nat → Bool) (p : Nat) :
    ∀ (rest kept : List Nat) (fuel : Nat) (r : RegMem),
      IsSeg r (r.first p) (kept ++ rest) none → (kept ++ rest).Nodup → rest.length < fuel →
      ∃ r', orphanLoop cond fuel r (slotAfter p kept) = some r' ∧
        IsSeg r' (r'.first p) (kept ++ rest.filter (fun a => !cond (r.ptr a))) none ∧
        (∀ a, r'.proxy a = if a ∈ rest ∧ cond (r.ptr a) = true then none else r.proxy a) ∧
        (∀ q, q ≠ p → r'.first q = r.first q) ∧
        (∀ a, a ∉ kept ++ rest → r'.next_iterator a = r.next_iterator a) ∧
        r'.ptr = r.ptr ∧ r'.parent = r.parent ∧ r'.container_proxy = r.container_proxy ∧
        r'.fresh = r.fresh
  | [], kept, fuel + 1, r, h, _, _ => by
    have hg := IsSeg.get_slotAfter (by simpa using h : IsSeg r (r.first p) kept none)
    refine ⟨r, ?_, by simpa using h, by simp, fun _ _ => rfl, fun _ _ => rfl, rfl, rfl, rfl, rfl⟩
    simp [orphanLoop, hg]
  | x :: rest, kept, fuel + 1, r, h, hnd, hf => by
    obtain ⟨mid, h1, h2⟩ := IsSeg.split h
    have hmid : mid = some x := h2.1
    subst hmid
    have hg := IsSeg.get_slotAfter h1
    have hndk : kept.Nodup := (List.nodup_append.1 hnd).1
    have hxk : x ∉ kept := fun hm => (List.nodup_append.1 hnd).2.2 hm (by simp)
    have hxr : x ∉ rest := by
      have := (List.nodup_append.1 hnd).2.1
      exact (List.nodup_cons.1 this).1
    by_cases hc : cond (r.ptr x) = true
    · -- the record is unlinked
      let r1 : RegMem := { r with proxy := upd r.proxy x none }
      have h1' : IsSeg r1 (r1.first p) kept (some x) := IsSeg.congr_next h1 (fun _ _ => rfl)
      have hk := IsSeg.set_slotAfter h1' hndk (r1.next_iterator x)
      have hrest : IsSeg (r1.set (slotAfter p kept) (r1.next_iterator x)) (r1.next_iterator x)
          rest none := by
        refine IsSeg.congr_next h2.2 ?_
        intro b hb
        have hbk : b ∉ kept := fun hm => (List.nodup_append.1 hnd).2.2 hm (by simp [hb])
        exact set_slotAfter_next hbk _
      have hnd' : (kept ++ rest).Nodup := by
        rw [List.nodup_append] at hnd ⊢
        refine ⟨hnd.1, (List.nodup_cons.1 hnd.2.1).2, ?_⟩
        intro a ha hb
        exact hnd.2.2 ha (by simp [hb])
      obtain ⟨r', e1, e2, e3, e4, e5, e6, e7, e8, e9⟩ :=
        orphanLoop_spec cond p rest kept fuel (r1.set (slotAfter p kept) (r1.next_iterator x))
          (IsSeg.append hk hrest) hnd' (by simp at hf; omega)
      refine ⟨r', ?_, ?_, ?_, ?_, ?_, ?_, ?_, ?_, ?_⟩
      · simp only [orphanLoop, hg, hc, if_true]
        exact e1
      · simp only [set_ptr] at e2
        simpa [hc] using e2
      · intro a
        rw [e3 a]
        simp only [set_ptr, set_proxy]
        by_cases hax : a = x
        · subst hax
          simp [hxr, hc, r1, upd]
        · simp [hax, r1, upd]
      · intro q hq
        rw [e4 q hq, set_slotAfter_first hq]
      · intro a ha
        have ha1 : a ∉ kept ++ rest := by
          intro hm; apply ha; simp at hm ⊢; tauto
        have ha2 : a ∉ kept := fun hm => ha (by simp [hm])
        rw [e5 a ha1, set_slotAfter_next ha2]
      · rw [e6, set_ptr]
      · rw [e7, set_parent]
      · rw [e8, set_container_proxy]
      · rw [e9, set_fresh]
    · -- the record stays
      have h' : IsSeg r (r.first p) ((kept ++ [x]) ++ rest) none := by simpa using h
      have hnd' : ((kept ++ [x]) ++ rest).Nodup := by simpa using hnd
      obtain ⟨r', e1, e2, e3, e4, e5, e6, e7, e8, e9⟩ :=
        orphanLoop_spec cond p rest (kept ++ [x]) fuel r h' hnd' (by simp at hf; omega)
      rw [slotAfter_concat] at e1
      refine ⟨r', ?_, ?_, ?_, e4, ?_, e6, e7, e8, e9⟩
      · simp only [orphanLoop, hg, hc]
        exact e1
      · simpa [hc] using e2
      · intro a
        rw [e3 a]
        by_cases hax : a = x
        · subst hax
          simp [hxr, hc]
        · simp [hax]
      · intro a ha
        exact e5 a (by simpa using ha)

/-- Under the invariant the chain found from `first` is the chain of the
invariant: its records are distinct and are the records of this proxy. -/
theorem RegInv.chain_facts {r : RegMem} (h : RegInv r) {p : Nat} {xs : List Nat}
    (hx : IsSeg r (r.first p) xs none) : xs.Nodup ∧ ∀ a, a ∈ xs ↔ r.proxy a = some p := by
  obtain ⟨ys, h1, h2, h3⟩ := h.chains p
  have := IsSeg.unique hx h1
  subst this
  exact ⟨h2, h3⟩

/-- `orphanPtr` / `orphanNonHead` on the whole chain of a proxy keep the
invariant and remove exactly the records whose node meets the condition. -/
theorem orphanLoop_inv (cond : Nat → Bool) {r : RegMem} (h : RegInv r) {p : Nat}
    {xs : List Nat} (hx : IsSeg r (r.first p) xs none) {fuel : Nat} (hf : xs.length < fuel) :
    ∃ r', orphanLoop cond fuel r (ChainSlot.first p) = some r' ∧ RegInv r' ∧
      IsSeg r' (r'.first p) (xs.filter (fun a => !cond (r.ptr a))) none ∧
      (∀ a, r'.proxy a = if a ∈ xs ∧ cond (r.ptr a) = true then none else r.proxy a) ∧
      r'.ptr = r.ptr ∧ r'.parent = r.parent ∧ r'.container_proxy = r.container_proxy ∧
      r'.fresh = r.fresh ∧ (∀ q, q ≠ p → r'.first q = r.first q) ∧
      (∀ a, a ∉ xs → r'.next_iterator a = r.next_iterator a) := by
  obtain ⟨hnd, hmem⟩ := h.chain_facts hx
  obtain ⟨r', e1, e2, e3, e4, e5, e6, e7, e8, e9⟩ :=
    orphanLoop_spec cond p xs [] fuel r (by simpa using hx) (by simpa using hnd) hf
  simp only [List.nil_append] at e2 e5
  refine ⟨r', e1, ?_, e2, e3, e6, e7, e8, e9, e4, e5⟩
  refine h.of_frame (fun q => q = p) e4 ?_ ?_ ?_ ?_ ?_ ?_ ?_
  · intro a q hq ha
    refine e5 a ?_
    intro hm
    have := (hmem a).1 hm
    rw [ha] at this
    exact hq (by simpa using this)
  · intro a q hq
    rw [e3 a]
    by_cases ha : a ∈ xs
    · have hp := (hmem a).1 ha
      have hne : ¬ (some p = some q) := by
        intro e; exact hq (by simpa using e.symm)
      split
      · simp [hp, hne]
      · rfl
    · simp [ha]
  · intro q hq
    have hq' : q = p := hq
    subst hq'
    refine ⟨_, e2, hnd.filter _, ?_⟩
    intro a
    rw [e3 a, List.mem_filter]
    by_cases ha : a ∈ xs
    · have hp := (hmem a).1 ha
      by_cases hc : cond (r.ptr a) = true
      · simp [ha, hc]
      · simp [ha, hc, hp]
    · have hp : r.proxy a ≠ some q := fun e => ha ((hmem a).2 e)
      simp [ha, hp]
  · exact e8
  · exact e7
  · exact e9
  · intro a q ha
    rw [e3 a] at ha
    left
    split at ha
    · simp at ha
    · exact ha

theorem filter_ne_self_of_not_mem {xs : List Nat} {it : Nat} (h : it ∉ xs) :
    xs.filter (fun a => decide (a ≠ it)) = xs := by
  rw [List.filter_eq_self]
  intro a ha
  have hne : a ≠ it := fun e => h (e ▸ ha)
  simpa using hne

theorem filter_ne_middle {pre post : List Nat} {it : Nat} (h1 : it ∉ pre) (h2 : it ∉ post) :
    (pre ++ it :: post).filter (fun a => decide (a ≠ it)) = pre ++ post := by
  rw [List.filter_append, List.filter_cons, filter_ne_self_of_not_mem h1,
    filter_ne_self_of_not_mem h2]
  simp

theorem orphanMeLoop_spec (it p : Nat) {r : RegMem} :
    ∀ (todo done post : List Nat) (fuel : Nat),
      IsSeg r (r.first p) (done ++ todo ++ it :: post) none → it ∉ todo →
      todo.length < fuel →
      orphanMeLoop it fuel r (slotAfter p done) = some (slotAfter p (done ++ todo))
  | [], done, post, fuel + 1, h, _, _ => by
    have h' : IsSeg r (r.first p) (done ++ it :: post) none := by simpa using h
    obtain ⟨mid, h1, h2⟩ := IsSeg.split h'
    have hg := IsSeg.get_slotAfter h1
    rw [h2.1] at hg
    simp [orphanMeLoop, hg]
  | x :: todo, done, post, fuel + 1, h, hn, hf => by
    have h' : IsSeg r (r.first p) (done ++ x :: (todo ++ it :: post)) none := by simpa using h
    obtain ⟨mid, h1, h2⟩ := IsSeg.split h'
    have hg := IsSeg.get_slotAfter h1
    rw [h2.1] at hg
    have hx : x ≠ it := by
      intro e; exact hn (by simp [e])
    have h'' : IsSeg r (r.first p) ((done ++ [x]) ++ todo ++ it :: post) none := by simpa using h
    have ih := orphanMeLoop_spec it p todo (done ++ [x]) post fuel h''
      (fun hm => hn (by simp [hm])) (by simp at hf; omega)
    rw [slotAfter_concat] at ih
    simp only [orphanMeLoop, hg, ne_eq, hx, not_false_eq_true, if_true]
    rw [ih]
    simp

/-- `orphanMe` under the invariant: it returns; a registered record is
unlinked from its chain and gets a null proxy, the other records of the
chain keep their order; an orphaned record changes nothing. -/
theorem orphanMe_inv {r : RegMem} (h : RegInv r) (it : Nat) {fuel : Nat}
    (hf : ∀ p xs, r.proxy it = some p → IsSeg r (r.first p) xs none → xs.length < fuel) :
    ∃ r', IteratorBase.orphanMe fuel r it = some r' ∧ RegInv r' ∧
      r'.proxy = upd r.proxy it none ∧ r'.ptr = r.ptr ∧ r'.parent = r.parent ∧
      r'.container_proxy = r.container_proxy ∧ r'.fresh = r.fresh ∧
      (∀ p xs, IsSeg r (r.first p) xs none →
        IsSeg r' (r'.first p) (xs.filter (fun a => decide (a ≠ it))) none) := by
  cases hp : r.proxy it with
  | none =>
    refine ⟨r, ?_, h, ?_, rfl, rfl, rfl, rfl, ?_⟩
    · simp [IteratorBase.orphanMe, hp]
    · funext a
      by_cases e : a = it
      · subst e; simp [upd, hp]
      · simp [upd, e]
    · intro p xs hx
      have hm := (h.chain_facts hx).2
      have hnot : it ∉ xs := by
        intro hmem
        have h4 := (hm it).1 hmem
        rw [hp] at h4
        simp at h4
      rw [filter_ne_self_of_not_mem hnot]
      exact hx
  | some p =>
    obtain ⟨xs, h1, h2, h3⟩ := h.chains p
    have hmem : it ∈ xs := (h3 it).2 hp
    obtain ⟨pre, post, rfl⟩ := List.append_of_mem hmem
    have hfuel := hf p _ hp h1
    have hit_pre : it ∉ pre := by
      intro hm
      exact (List.nodup_append.1 h2).2.2 hm (by simp)
    have hit_post : it ∉ post := by
      have hnd := (List.nodup_append.1 h2).2.1
      exact (List.nodup_cons.1 hnd).1
    have hloop := orphanMeLoop_spec it p pre [] post fuel (by simpa using h1) hit_pre
      (by simp at hfuel; omega)
    simp only [List.nil_append] at hloop
    obtain ⟨mid, s1, s2⟩ := IsSeg.split h1
    have hndpre : pre.Nodup := (List.nodup_append.1 h2).1
    have k1 := IsSeg.set_slotAfter s1 hndpre (r.next_iterator it)
    have k2 : IsSeg (r.set (slotAfter p pre) (r.next_iterator it)) (r.next_iterator it)
        post none := by
      refine IsSeg.congr_next s2.2 ?_
      intro b hb
      have hbk : b ∉ pre := fun hm => (List.nodup_append.1 h2).2.2 hm (by simp [hb])
      exact set_slotAfter_next hbk _
    have hnd' : (pre ++ post).Nodup := by
      rw [List.nodup_append] at h2 ⊢
      refine ⟨h2.1, (List.nodup_cons.1 h2.2.1).2, ?_⟩
      intro a ha hb
      exact h2.2.2 ha (by simp [hb])
    have key : IteratorBase.orphanMe fuel r it =
        some { (r.set (slotAfter p pre) (r.next_iterator it)) with
                proxy := upd (r.set (slotAfter p pre) (r.next_iterator it)).proxy it none } := by
      simp only [IteratorBase.orphanMe, hp, slotAfter_nil] at hloop ⊢
      rw [hloop]
    have hchain : IsSeg { (r.set (slotAfter p pre) (r.next_iterator it)) with
        proxy := upd (r.set (slotAfter p pre) (r.next_iterator it)).proxy it none }
        ((r.set (slotAfter p pre) (r.next_iterator it)).first p) (pre ++ post) none :=
      IsSeg.congr_next (IsSeg.append k1 k2) (fun _ _ => rfl)
    have hinv : RegInv { (r.set (slotAfter p pre) (r.next_iterator it)) with
        proxy := upd (r.set (slotAfter p pre) (r.next_iterator it)).proxy it none } := by
      refine h.of_frame (fun q => q = p) ?_ ?_ ?_ ?_ ?_ ?_ ?_ ?_
      · intro q hq
        exact set_slotAfter_first hq _
      · intro a q hq ha
        have hap : a ∉ pre := by
          intro hm
          have h4 := (h3 a).1 (by simp [hm])
          rw [ha] at h4
          exact hq (by simpa using h4)
        exact set_slotAfter_next hap _
      · intro a q hq
        show upd (r.set (slotAfter p pre) (r.next_iterator it)).proxy it none a = some q ↔ _
        rw [set_proxy]
        by_cases e : a = it
        · subst e
          have hne : ¬ (some p = some q) := by
            intro e; exact hq (by simpa using e.symm)
          simp [upd, hp, hne]
        · simp [upd, e]
      · intro q hq
        have hq' : q = p := hq
        subst hq'
        refine ⟨pre ++ post, hchain, hnd', ?_⟩
        intro a
        show _ ↔ upd (r.set (slotAfter q pre) (r.next_iterator it)).proxy it none a = some q
        rw [set_proxy]
        by_cases e : a = it
        · subst e
          simp [upd, hit_pre, hit_post]
        · have h4 := h3 a
          simp only [List.mem_append, List.mem_cons, e, false_or] at h4
          simp [upd, e, h4]
      · show (r.set (slotAfter p pre) (r.next_iterator it)).container_proxy = _
        rw [set_container_proxy]
      · show (r.set (slotAfter p pre) (r.next_iterator it)).parent = _
        rw [set_parent]
      · show (r.set (slotAfter p pre) (r.next_iterator it)).fresh = _
        rw [set_fresh]
      · intro a q ha
        have ha' : upd (r.set (slotAfter p pre) (r.next_iterator it)).proxy it none a =
            some q := ha
        rw [set_proxy] at ha'
        left
        by_cases e : a = it
        · subst e; simp [upd] at ha'
        · simpa [upd, e] using ha'
    refine ⟨_, key, hinv, ?_, ?_, ?_, ?_, ?_, ?_⟩
    · show upd (r.set (slotAfter p pre) (r.next_iterator it)).proxy it none = _
      rw [set_proxy]
    · show (r.set (slotAfter p pre) (r.next_iterator it)).ptr = _
      rw [set_ptr]
    · show (r.set (slotAfter p pre) (r.next_iterator it)).parent = _
      rw [set_parent]
    · show (r.set (slotAfter p pre) (r.next_iterator it)).container_proxy = _
      rw [set_container_proxy]
    · show (r.set (slotAfter p pre) (r.next_iterator it)).fresh = _
      rw [set_fresh]
    · intro q ys hy
      by_cases hq : q = p
      · subst hq
        have hu := IsSeg.unique hy h1
        subst hu
        rw [filter_ne_middle hit_pre hit_post]
        exact hchain
      · have hm := (h.chain_facts hy).2
        have hnot : it ∉ ys := by
          intro hmem2
          have h4 := (hm it).1 hmem2
          rw [hp] at h4
          exact hq (by simpa using h4.symm)
        rw [filter_ne_self_of_not_mem hnot]
        show IsSeg _ ((r.set (slotAfter p pre) (r.next_iterator it)).first q) ys none
        rw [set_slotAfter_first hq]
        refine IsSeg.congr_next hy ?_
        intro a ha
        have h4 := (hm a).1 ha
        have hap : a ∉ pre := by
          intro hm2
          have h5 := (h3 a).1 (by simp [hm2])
          rw [h4] at h5
          exact hq (by simpa using h5)
        exact set_slotAfter_next hap _

/-- The three assignments at the end of `adopt`: the orphaned record `it` is
pushed on the chain of the proxy `pp` of a container. -/
theorem push_inv {r : RegMem} (h : RegInv r) {it c pp : Nat} (hit : r.proxy it = none)
    (hc : r.container_proxy c = some pp) :
    RegInv (pushed r it pp) ∧
    ∀ p xs, IsSeg r (r.first p) xs none →
      IsSeg (pushed r it pp) ((pushed r it pp).first p)
        (if p = pp then it :: xs else xs) none := by
  have hnot : ∀ p xs, IsSeg r (r.first p) xs none → it ∉ xs := by
    intro p xs hx hm
    have h4 := ((h.chain_facts hx).2 it).1 hm
    rw [hit] at h4
    simp at h4
  have hchain : ∀ p xs, IsSeg r (r.first p) xs none →
      IsSeg (pushed r it pp) ((pushed r it pp).first p)
        (if p = pp then it :: xs else xs) none := by
    intro p xs hx
    have hfr : IsSeg (pushed r it pp) (r.first p) xs none := by
      refine IsSeg.congr_next hx ?_
      intro a ha
      have hne : a ≠ it := fun e => hnot p xs hx (e ▸ ha)
      simp [pushed, upd, hne]
    by_cases hp : p = pp
    · subst hp
      rw [if_pos rfl]
      refine ⟨by simp [pushed, upd], ?_⟩
      simpa [pushed, upd] using hfr
    · rw [if_neg hp]
      simpa [pushed, upd, hp] using hfr
  refine ⟨?_, hchain⟩
  refine h.of_frame (fun q => q = pp) ?_ ?_ ?_ ?_ rfl rfl rfl ?_
  · intro q hq
    have hq' : q ≠ pp := hq
    simp [pushed, upd, hq']
  · intro a q hq ha
    have hne : a ≠ it := by
      intro e; subst e; rw [hit] at ha; simp at ha
    simp [pushed, upd, hne]
  · intro a q hq
    have hq' : q ≠ pp := hq
    by_cases e : a = it
    · subst e
      have hne : ¬ (some pp = some q) := by
        intro e; exact hq' (by simpa using e.symm)
      simp [pushed, upd, hit, hne]
    · simp [pushed, upd, e]
  · intro q hq
    have hq' : q = pp := hq
    subst hq'
    obtain ⟨xs, h1, h2, h3⟩ := h.chains q
    have hx := hchain q xs h1
    rw [if_pos rfl] at hx
    refine ⟨it :: xs, hx, List.nodup_cons.2 ⟨hnot q xs h1, h2⟩, ?_⟩
    intro a
    by_cases e : a = it
    · subst e; simp [pushed, upd]
    · simp [pushed, upd, e, h3 a]
  · intro a q ha
    by_cases e : a = it
    · subst e
      right
      have : q = pp := by simpa [pushed, upd] using ha.symm
      subst this
      exact ⟨c, hc⟩
    · left
      simpa [pushed, upd, e] using ha

/-- `adopt(it, c)` under the invariant, `pp` being the proxy of `c`: it
returns and keeps the invariant; `it->proxy` is `pp`; a record already
registered with `c` leaves the registry as it is, any other record is
unlinked from its chain and becomes the head of the chain of `c`. -/
theorem adopt_inv {r : RegMem} (h : RegInv r) (it : Nat) {c pp : Nat}
    (hc : r.container_proxy c = some pp) {fuel : Nat} (hf : ChainsBelow r fuel) :
    ∃ r', IteratorBase.adopt fuel r it (some c) = some r' ∧ RegInv r' ∧
      r'.proxy = upd r.proxy it (some pp) ∧ r'.ptr = r.ptr ∧ r'.parent = r.parent ∧
      r'.container_proxy = r.container_proxy ∧ r'.fresh = r.fresh ∧
      (r.proxy it = some pp → r' = r) ∧
      (r.proxy it ≠ some pp → ∀ p xs, IsSeg r (r.first p) xs none →
        IsSeg r' (r'.first p)
          (if p = pp then it :: xs else xs.filter (fun a => decide (a ≠ it))) none) := by
  by_cases hreg : r.proxy it = some pp
  · refine ⟨r, ?_, h, ?_, rfl, rfl, rfl, rfl, fun _ => rfl, fun hn => absurd hreg hn⟩
    · simp [IteratorBase.adopt, hc, hreg]
    · funext a
      by_cases e : a = it
      · subst e; simp [upd, hreg]
      · simp [upd, e]
  · obtain ⟨r1, e1, e2, e3, e4, e5, e6, e7, e8⟩ :=
      orphanMe_inv h it (fun p xs _ hx => hf p xs hx)
    have hit1 : r1.proxy it = none := by rw [e3]; simp [upd]
    have hc1 : r1.container_proxy c = some pp := by rw [e6]; exact hc
    obtain ⟨k1, k2⟩ := push_inv e2 hit1 hc1
    have hne : ¬ (some pp = r.proxy it) := fun e => hreg e.symm
    refine ⟨_, ?_, k1, ?_, e4, e5, e6, e7, fun hn => absurd hn hreg, ?_⟩
    · simp only [IteratorBase.adopt, hc, ne_eq, hne, not_false_eq_true, if_true, e1]
      rfl
    · show upd r1.proxy it (some pp) = _
      rw [e3]
      funext a
      by_cases e : a = it
      · subst e; simp [upd]
      · simp [upd, e]
    · intro _ p xs hx
      have h1 := e8 p xs hx
      have h2 := k2 p _ h1
      by_cases hp : p = pp
      · subst hp
        rw [if_pos rfl] at h2 ⊢
        have hnot : it ∉ xs := by
          intro hm
          have h4 := ((h.chain_facts hx).2 it).1 hm
          exact hreg h4
        rw [filter_ne_self_of_not_mem hnot] at h2
        exact h2
      · rw [if_neg hp] at h2 ⊢
        exact h2

/-- `operator=` of `IteratorBase` under the invariant: it returns and keeps
the invariant; afterwards `this->proxy` is the proxy of `rhs`, and nothing
else changes among the `proxy` fields. -/
theorem assign_inv {r : RegMem} (h : RegInv r) (it rhs : Nat) {fuel : Nat}
    (hf : ChainsBelow r fuel) :
    ∃ r', IteratorBase.assign fuel r it rhs = some r' ∧ RegInv r' ∧
      r'.proxy = upd r.proxy it (r.proxy rhs) ∧ r'.ptr = r.ptr ∧ r'.parent = r.parent ∧
      r'.container_proxy = r.container_proxy ∧ r'.fresh = r.fresh ∧
      (r.proxy it = r.proxy rhs → r' = r) ∧
      (r.proxy it ≠ r.proxy rhs → ∀ p xs, IsSeg r (r.first p) xs none →
        IsSeg r' (r'.first p)
          (if some p = r.proxy rhs then it :: xs
           else xs.filter (fun a => decide (a ≠ it))) none) := by
  cases hr : r.proxy rhs with
  | none =>
    obtain ⟨r1, e1, e2, e3, e4, e5, e6, e7, e8⟩ :=
      orphanMe_inv h it (fun p xs _ hx => hf p xs hx)
    refine ⟨r1, ?_, e2, e3, e4, e5, e6, e7, ?_, ?_⟩
    · simp [IteratorBase.assign, hr, e1]
    · intro hn
      have : IteratorBase.orphanMe fuel r it = some r := by
        simp [IteratorBase.orphanMe, hn]
      rw [this] at e1
      exact (Option.some.inj e1).symm
    · intro _ p xs hx
      simpa using e8 p xs hx
  | some pp =>
    obtain ⟨c, hc⟩ := h.registered rhs pp hr
    have hpar := h.owner c pp hc
    obtain ⟨r1, e1, e2, e3, e4, e5, e6, e7, e8, e9⟩ := adopt_inv h it hc hf
    refine ⟨r1, ?_, e2, e3, e4, e5, e6, e7, e8, ?_⟩
    · simp [IteratorBase.assign, hr, hpar, e1]
    · intro hn p xs hx
      have := e9 hn p xs hx
      by_cases hp : p = pp
      · subst hp
        simpa using this
      · have hne : ¬ (some p = some pp) := by
          intro e; exact hp (by simpa using e)
        simpa [hp, hne] using this

theorem init_inv : RegInv RegMem.init := by
  refine ⟨?_, ?_, ?_, ?_⟩
  · intro p
    exact ⟨[], rfl, List.nodup_nil, by simp [RegMem.init]⟩
  · intro c p hc; simp [RegMem.init] at hc
  · intro a p ha; simp [RegMem.init] at ha
  · intro c p hc; simp [RegMem.init] at hc

/-- The chain found after an operation, given the chains before and the way
every chain changes, is bounded when the change adds at most one record. -/
theorem ChainsBelow.step {r r' : RegMem} {fuel : Nat} (h : RegInv r) (hf : ChainsBelow r fuel)
    (f : Nat → List Nat → List Nat)
    (hch : ∀ p xs, IsSeg r (r.first p) xs none → IsSeg r' (r'.first p) (f p xs) none)
    (hlen : ∀ p xs, (f p xs).length ≤ xs.length + 1) : ChainsBelow r' (fuel + 1) := by
  intro p ys hy
  obtain ⟨xs, h1, -, -⟩ := h.chains p
  have h2 := hch p xs h1
  have := IsSeg.unique hy h2
  subst this
  have := hlen p xs
  have := hf p xs h1
  omega

/-- The copy constructor of `IteratorBase` for a new record at an address
that holds no registered record. -/
theorem copy_inv {r : RegMem} (h : RegInv r) (it rhs : Nat) (hit : r.proxy it = none)
    {fuel : Nat} (hf : ChainsBelow r fuel) :
    ∃ r', IteratorBase.copy fuel r it rhs = some r' ∧ RegInv r' ∧
      r'.proxy = upd r.proxy it (r.proxy rhs) ∧ r'.ptr = r.ptr ∧ r'.parent = r.parent ∧
      r'.container_proxy = r.container_proxy ∧ r'.fresh = r.fresh ∧
      (∀ p xs, IsSeg r (r.first p) xs none →
        IsSeg r' (r'.first p) (if some p = r.proxy rhs ∧ it ≠ rhs then it :: xs else xs) none) := by
  have hnot : ∀ p xs, IsSeg r (r.first p) xs none → it ∉ xs := by
    intro p xs hx hm
    have h4 := ((h.chain_facts hx).2 it).1 hm
    rw [hit] at h4
    simp at h4
  have hpx : upd r.proxy it none = r.proxy := by
    funext a
    by_cases e : a = it
    · subst e; simp [upd, hit]
    · simp [upd, e]
  have hseg0 : ∀ p xs, IsSeg r (r.first p) xs none →
      IsSeg { r with proxy := upd r.proxy it none,
                     next_iterator := upd r.next_iterator it none } (r.first p) xs none := by
    intro p xs hx
    refine IsSeg.congr_next hx ?_
    intro a ha
    have hne : a ≠ it := fun e => hnot p xs hx (e ▸ ha)
    simp [upd, hne]
  have h0 : RegInv { r with proxy := upd r.proxy it none,
                            next_iterator := upd r.next_iterator it none } := by
    refine h.of_frame (fun _ => False) (fun _ _ => rfl) ?_ ?_ (fun _ hq => absurd hq id)
      rfl rfl rfl ?_
    · intro a q _ ha
      have hne : a ≠ it := by
        intro e; subst e; rw [hit] at ha; simp at ha
      simp [upd, hne]
    · intro a q _
      show upd r.proxy it none a = some q ↔ _
      rw [hpx]
    · intro a q ha
      left
      have : upd r.proxy it none a = some q := ha
      rw [hpx] at this
      exact this
  have hf0 : ChainsBelow { r with proxy := upd r.proxy it none,
                                  next_iterator := upd r.next_iterator it none } fuel := by
    intro p ys hy
    obtain ⟨xs, h1, -, -⟩ := h.chains p
    have := IsSeg.unique hy (hseg0 p xs h1)
    subst this
    exact hf p _ h1
  obtain ⟨r', e1, e2, e3, e4, e5, e6, e7, e8, e9⟩ := assign_inv h0 it rhs hf0
  have e3' : r'.proxy = upd r.proxy it (r.proxy rhs) := by
    rw [e3]
    show upd (upd r.proxy it none) it (upd r.proxy it none rhs) = _
    rw [hpx]
  refine ⟨r', e1, e2, e3', e4, e5, e6, e7, ?_⟩
  intro p xs hx
  have hx0 := hseg0 p xs hx
  have hprhs : (upd r.proxy it none) rhs = r.proxy rhs := by rw [hpx]
  by_cases hsame : r.proxy it = r.proxy rhs
  · have hr := e8 (by
      show upd r.proxy it none it = upd r.proxy it none rhs
      rw [hpx]; exact hsame)
    rw [hr]
    have hne : ¬ (some p = r.proxy rhs ∧ it ≠ rhs) := by
      rintro ⟨e, -⟩
      rw [← hsame, hit] at e
      simp at e
    rw [if_neg hne]
    exact hx0
  · have hk := e9 (by
      show ¬ (upd r.proxy it none it = upd r.proxy it none rhs)
      rw [hpx]; exact hsame) p xs hx0
    have hne : it ≠ rhs := by
      intro e; apply hsame; rw [e]
    have hk' : IsSeg r' (r'.first p)
        (if some p = r.proxy rhs then it :: xs
         else xs.filter (fun a => decide (a ≠ it))) none := by
      have : (upd r.proxy it none) rhs = r.proxy rhs := hprhs
      simpa [this] using hk
    by_cases hp : some p = r.proxy rhs
    · rw [if_pos ⟨hp, hne⟩]
      rw [if_pos hp] at hk'
      exact hk'
    · rw [if_neg (fun hh => hp hh.1)]
      rw [if_neg hp, filter_ne_self_of_not_mem (hnot p xs hx)] at hk'
      exact hk'

theorem orphanAllLoop_spec :
    ∀ (xs : List Nat) (fuel : Nat) (r : RegMem) (o : Option Nat),
      IsSeg r o xs none → xs.length < fuel →
      orphanAllLoop fuel r o =
        some { r with proxy := fun a => if a ∈ xs then none else r.proxy a }
  | [], fuel + 1, r, o, h, _ => by
    have : o = none := h
    subst this
    simp [orphanAllLoop]
  | x :: xs, fuel + 1, r, o, h, hf => by
    have ho : o = some x := h.1
    subst ho
    have h2 : IsSeg { r with proxy := upd r.proxy x none } (r.next_iterator x) xs none :=
      IsSeg.congr_next h.2 (fun _ _ => rfl)
    have ih := orphanAllLoop_spec xs fuel { r with proxy := upd r.proxy x none }
      (r.next_iterator x) h2 (by simp at hf; omega)
    simp only [orphanAllLoop]
    rw [ih]
    congr 2
    funext a
    by_cases e : a = x
    · subst e; simp [upd]
    · simp [upd, e]

/-- `orphanAll` under the invariant: it returns, every record of the chain
gets a null proxy and the chain is empty; nothing else changes. -/
theorem orphanAll_inv {r : RegMem} (h : RegInv r) {c p : Nat}
    (hc : r.container_proxy c = some p) {fuel : Nat} (hf : ChainsBelow r fuel) :
    ∃ r', ContainerBase.orphanAll fuel r c = some r' ∧ RegInv r' ∧
      (∀ a, r'.proxy a = if r.proxy a = some p then none else r.proxy a) ∧
      r'.ptr = r.ptr ∧ r'.parent = r.parent ∧ r'.container_proxy = r.container_proxy ∧
      r'.fresh = r.fresh ∧
      (∀ q xs, IsSeg r (r.first q) xs none →
        IsSeg r' (r'.first q) (if q = p then [] else xs) none) := by
  obtain ⟨xs, h1, h2, h3⟩ := h.chains p
  have hl := orphanAllLoop_spec xs fuel r (r.first p) h1 (hf p xs h1)
  have key : ContainerBase.orphanAll fuel r c =
      some { r with proxy := fun a => if a ∈ xs then none else r.proxy a,
                    first := upd r.first p none } := by
    simp only [ContainerBase.orphanAll, hc, hl]
  have hseg : ∀ q ys, IsSeg r (r.first q) ys none →
      IsSeg { r with proxy := fun a => if a ∈ xs then none else r.proxy a,
                     first := upd r.first p none }
        (upd r.first p none q) (if q = p then [] else ys) none := by
    intro q ys hy
    by_cases hq : q = p
    · subst hq
      simp [upd, IsSeg]
    · rw [if_neg hq]
      have : upd r.first p none q = r.first q := by simp [upd, hq]
      rw [this]
      exact IsSeg.congr_next hy (fun _ _ => rfl)
  refine ⟨_, key, ?_, ?_, rfl, rfl, rfl, rfl, hseg⟩
  · refine h.of_frame (fun q => q = p) ?_ (fun _ _ _ _ => rfl) ?_ ?_ rfl rfl rfl ?_
    · intro q hq
      have hq' : q ≠ p := hq
      simp [upd, hq']
    · intro a q hq
      have hq' : q ≠ p := hq
      show (if a ∈ xs then none else r.proxy a) = some q ↔ _
      by_cases ha : a ∈ xs
      · have hp := (h3 a).1 ha
        have hne : ¬ (some p = some q) := by
          intro e; exact hq' (by simpa using e.symm)
        simp [ha, hp, hne]
      · simp [ha]
    · intro q hq
      have hq' : q = p := hq
      subst hq'
      refine ⟨[], by simp [upd, IsSeg], List.nodup_nil, ?_⟩
      intro a
      show a ∈ [] ↔ (if a ∈ xs then none else r.proxy a) = some q
      by_cases ha : a ∈ xs
      · simp [ha]
      · have : r.proxy a ≠ some q := fun e => ha ((h3 a).2 e)
        simp [ha, this]
    · intro a q ha
      left
      have ha' : (if a ∈ xs then none else r.proxy a) = some q := ha
      split at ha'
      · simp at ha'
      · exact ha'
  · intro a
    show (if a ∈ xs then none else r.proxy a) = _
    by_cases ha : a ∈ xs
    · simp [ha, (h3 a).1 ha]
    · have : r.proxy a ≠ some p := fun e => ha ((h3 a).2 e)
      simp [ha, this]

/-- The loop of `reparentPtr` from the place behind the records `kept` of the
chain of `q` on, `P` being the chain of `p`: it returns; the records of
`rest` that denote `node` leave the chain of `q` and stand, last moved first,
in front of `P`; nothing else changes. -/
theorem reparentLoop_spec (node p q : Nat) (hpq : p ≠ q) :
    ∀ (rest kept P : List Nat) (fuel : Nat) (r : RegMem),
      IsSeg r (r.first q) (kept ++ rest) none → (kept ++ rest).Nodup →
      IsSeg r (r.first p) P none → (∀ a ∈ kept ++ rest, a ∉ P) → rest.length < fuel →
      ∃ r', reparentLoop node p fuel r (slotAfter q kept) = some r' ∧
        IsSeg r' (r'.first q) (kept ++ rest.filter (fun a => decide (r.ptr a ≠ node))) none ∧
        IsSeg r' (r'.first p)
          ((rest.filter (fun a => decide (r.ptr a = node))).reverse ++ P) none ∧
        (∀ a, r'.proxy a = if a ∈ rest ∧ r.ptr a = node then some p else r.proxy a) ∧
        (∀ s, s ≠ p → s ≠ q → r'.first s = r.first s) ∧
        (∀ a, a ∉ kept ++ rest → r'.next_iterator a = r.next_iterator a) ∧
        r'.ptr = r.ptr ∧ r'.parent = r.parent ∧ r'.container_proxy = r.container_proxy ∧
        r'.fresh = r.fresh
  | [], kept, P, fuel + 1, r, h, _, hP, _, _ => by
    have hg := IsSeg.get_slotAfter (by simpa using h : IsSeg r (r.first q) kept none)
    refine ⟨r, ?_, by simpa using h, by simpa using hP, by simp, fun _ _ _ => rfl,
      fun _ _ => rfl, rfl, rfl, rfl, rfl⟩
    simp [reparentLoop, hg]
  | x :: rest, kept, P, fuel + 1, r, h, hnd, hP, hdisj, hf => by
    obtain ⟨mid, h1, h2⟩ := IsSeg.split h
    have hmid : mid = some x := h2.1
    subst hmid
    have hg := IsSeg.get_slotAfter h1
    have hndk : kept.Nodup := (List.nodup_append.1 hnd).1
    have hxk : x ∉ kept := fun hm => (List.nodup_append.1 hnd).2.2 hm (by simp)
    have hxr : x ∉ rest := by
      have hn2 := (List.nodup_append.1 hnd).2.1
      exact (List.nodup_cons.1 hn2).1
    have hxP : x ∉ P := hdisj x (by simp)
    by_cases hc : node = r.ptr x
    · let r3 : RegMem :=
        { r with proxy := upd r.proxy x (some p)
                 next_iterator := upd r.next_iterator x (r.first p)
                 first := upd r.first p (some x) }
      have hfq : r3.first q = r.first q := by
        show upd r.first p (some x) q = _
        simp [upd, hpq.symm]
      have h1' : IsSeg r3 (r3.first q) kept (some x) := by
        rw [hfq]
        refine IsSeg.congr_next h1 ?_
        intro a ha
        have : a ≠ x := fun e => hxk (e ▸ ha)
        show upd r.next_iterator x (r.first p) a = _
        simp [upd, this]
      have hk := IsSeg.set_slotAfter h1' hndk (r.next_iterator x)
      have hrest : IsSeg (r3.set (slotAfter q kept) (r.next_iterator x)) (r.next_iterator x)
          rest none := by
        refine IsSeg.congr_next h2.2 ?_
        intro b hb
        have hbk : b ∉ kept := fun hm => (List.nodup_append.1 hnd).2.2 hm (by simp [hb])
        rw [set_slotAfter_next hbk]
        have : b ≠ x := fun e => hxr (e ▸ hb)
        show upd r.next_iterator x (r.first p) b = _
        simp [upd, this]
      have hnd' : (kept ++ rest).Nodup := by
        rw [List.nodup_append] at hnd ⊢
        refine ⟨hnd.1, (List.nodup_cons.1 hnd.2.1).2, ?_⟩
        intro a ha hb
        exact hnd.2.2 ha (by simp [hb])
      have hP' : IsSeg (r3.set (slotAfter q kept) (r.next_iterator x))
          ((r3.set (slotAfter q kept) (r.next_iterator x)).first p) (x :: P) none := by
        rw [set_slotAfter_first hpq]
        refine ⟨by show upd r.first p (some x) p = _; simp [upd], ?_⟩
        rw [set_slotAfter_next hxk]
        have e0 : r3.next_iterator x = r.first p := by
          show upd r.next_iterator x (r.first p) x = _
          simp [upd]
        rw [e0]
        refine IsSeg.congr_next hP ?_
        intro b hb
        have hbk : b ∉ kept := fun hm => hdisj b (by simp [hm]) hb
        rw [set_slotAfter_next hbk]
        have : b ≠ x := fun e => hxP (e ▸ hb)
        show upd r.next_iterator x (r.first p) b = _
        simp [upd, this]
      have hdisj' : ∀ a ∈ kept ++ rest, a ∉ x :: P := by
        intro a ha hm
        rcases List.mem_cons.1 hm with e | hm'
        · subst e
          rcases List.mem_append.1 ha with h5 | h5
          · exact hxk h5
          · exact hxr h5
        · exact hdisj a (by simp at ha ⊢; tauto) hm'
      obtain ⟨r', e1, e2, e3, e4, e5, e6, e7, e8, e9, e10⟩ :=
        reparentLoop_spec node p q hpq rest kept (x :: P) fuel
          (r3.set (slotAfter q kept) (r.next_iterator x))
          (IsSeg.append hk hrest) hnd' hP' hdisj' (by simp at hf; omega)
      have hptr : (r3.set (slotAfter q kept) (r.next_iterator x)).ptr = r.ptr := by
        rw [set_ptr]
      refine ⟨r', ?_, ?_, ?_, ?_, ?_, ?_, ?_, ?_, ?_, ?_⟩
      · simp only [reparentLoop, hg]
        rw [if_pos hc]
        exact e1
      · rw [hptr] at e2
        simpa [hc.symm] using e2
      · rw [hptr] at e3
        simpa [hc.symm] using e3
      · intro a
        rw [e4 a, hptr, set_proxy]
        by_cases hax : a = x
        · subst hax
          simp [hxr, hc.symm, r3, upd]
        · simp [hax, r3, upd]
      · intro s hs1 hs2
        rw [e5 s hs1 hs2, set_slotAfter_first hs2]
        show upd r.first p (some x) s = _
        simp [upd, hs1]
      · intro a ha
        have ha1 : a ∉ kept ++ rest := by
          intro hm; apply ha; simp at hm ⊢; tauto
        have ha2 : a ∉ kept := fun hm => ha (by simp [hm])
        have ha3 : a ≠ x := by
          intro e; apply ha; simp [e]
        rw [e6 a ha1, set_slotAfter_next ha2]
        show upd r.next_iterator x (r.first p) a = _
        simp [upd, ha3]
      · rw [e7, hptr]
      · rw [e8, set_parent]
      · rw [e9, set_container_proxy]
      · rw [e10, set_fresh]
    · have h' : IsSeg r (r.first q) ((kept ++ [x]) ++ rest) none := by simpa using h
      have hnd' : ((kept ++ [x]) ++ rest).Nodup := by simpa using hnd
      obtain ⟨r', e1, e2, e3, e4, e5, e6, e7, e8, e9, e10⟩ :=
        reparentLoop_spec node p q hpq rest (kept ++ [x]) P fuel r h' hnd' hP
          (fun a ha => hdisj a (by simpa using ha)) (by simp at hf; omega)
      rw [slotAfter_concat] at e1
      have hc' : ¬ r.ptr x = node := fun e => hc e.symm
      refine ⟨r', ?_, ?_, ?_, ?_, e5, ?_, e7, e8, e9, e10⟩
      · simp only [reparentLoop, hg]
        rw [if_neg hc]
        exact e1
      · simpa [hc'] using e2
      · simpa [hc'] using e3
      · intro a
        rw [e4 a]
        by_cases hax : a = x
        · subst hax
          simp [hxr, hc']
        · simp [hax]
      · intro a ha
        exact e6 a (by simpa using ha)

/-- `reparentPtr(node, other)` for two different containers under the
invariant: it returns and keeps the invariant; the records of `other` that
denote `node` move to the front of this container's chain, last met first;
nothing else changes. -/
theorem reparentPtr_inv {r : RegMem} (h : RegInv r) {c other p q : Nat}
    (hc : r.container_proxy c = some p) (ho : r.container_proxy other = some q) (hpq : p ≠ q)
    (node : Nat) {fuel : Nat} (hf : ChainsBelow r fuel) :
    ∃ r', ContainerBase.reparentPtr fuel r c other node = some r' ∧ RegInv r' ∧
      (∀ a, r'.proxy a = if r.proxy a = some q ∧ r.ptr a = node then some p else r.proxy a) ∧
      r'.ptr = r.ptr ∧ r'.parent = r.parent ∧ r'.container_proxy = r.container_proxy ∧
      r'.fresh = r.fresh ∧
      (∀ Q P, IsSeg r (r.first q) Q none → IsSeg r (r.first p) P none →
        IsSeg r' (r'.first q) (Q.filter (fun a => decide (r.ptr a ≠ node))) none ∧
        IsSeg r' (r'.first p)
          ((Q.filter (fun a => decide (r.ptr a = node))).reverse ++ P) none) ∧
      (∀ s xs, s ≠ p → s ≠ q → IsSeg r (r.first s) xs none → IsSeg r' (r'.first s) xs none) := by
  obtain ⟨Q, q1, q2, q3⟩ := h.chains q
  obtain ⟨P, p1, p2, p3⟩ := h.chains p
  have hdisj : ∀ a ∈ Q, a ∉ P := by
    intro a ha hb
    have h4 := (q3 a).1 ha
    rw [(p3 a).1 hb] at h4
    exact hpq (by simpa using h4)
  obtain ⟨r', e1, e2, e3, e4, e5, e6, e7, e8, e9, e10⟩ :=
    reparentLoop_spec node p q hpq Q [] P fuel r (by simpa using q1) (by simpa using q2) p1
      (by simpa using hdisj) (hf q Q q1)
  simp only [List.nil_append] at e2 e6
  have hprox : ∀ a, r'.proxy a =
      if r.proxy a = some q ∧ r.ptr a = node then some p else r.proxy a := by
    intro a
    rw [e4 a]
    by_cases ha : a ∈ Q
    · simp [ha, (q3 a).1 ha]
    · have : r.proxy a ≠ some q := fun e => ha ((q3 a).2 e)
      simp [ha, this]
  have hother : ∀ s xs, s ≠ p → s ≠ q → IsSeg r (r.first s) xs none →
      IsSeg r' (r'.first s) xs none := by
    intro s xs hs1 hs2 hx
    rw [e5 s hs1 hs2]
    refine IsSeg.congr_next hx ?_
    intro a ha
    refine e6 a ?_
    intro hm
    have h4 := ((h.chain_facts hx).2 a).1 ha
    rw [(q3 a).1 hm] at h4
    exact hs2 (by simpa using h4.symm)
  refine ⟨r', ?_, ?_, hprox, e7, e8, e9, e10, ?_, hother⟩
  · simp only [ContainerBase.reparentPtr, hc, ho]
    exact e1
  · refine h.of_frame (fun s => s = p ∨ s = q) ?_ ?_ ?_ ?_ e9 e8 e10 ?_
    · intro s hs
      exact e5 s (fun e => hs (Or.inl e)) (fun e => hs (Or.inr e))
    · intro a s hs ha
      refine e6 a ?_
      intro hm
      rw [(q3 a).1 hm] at ha
      exact hs (Or.inr (by simpa using ha.symm))
    · intro a s hs
      rw [hprox a]
      have hsp : s ≠ p := fun e => hs (Or.inl e)
      have hsq : s ≠ q := fun e => hs (Or.inr e)
      by_cases hcnd : r.proxy a = some q ∧ r.ptr a = node
      · have n1 : ¬ (some p = some s) := by
          intro e; exact hsp (by simpa using e.symm)
        have n2 : ¬ (some q = some s) := by
          intro e; exact hsq (by simpa using e.symm)
        rw [if_pos hcnd, hcnd.1]
        simp [n1, n2]
      · rw [if_neg hcnd]
    · intro s hs
      rcases hs with hs | hs
      · subst hs
        refine ⟨_, e3, ?_, ?_⟩
        · rw [List.nodup_append]
          refine ⟨List.nodup_reverse.2 (q2.filter _), p2, ?_⟩
          intro a ha hb
          have ha' := List.mem_reverse.1 ha
          exact hdisj a (List.mem_filter.1 ha').1 hb
        · intro a
          rw [hprox a, List.mem_append, List.mem_reverse, List.mem_filter, q3 a, p3 a]
          by_cases hq : r.proxy a = some q
          · have hne : ¬ (some q = some s) := by
              intro e; exact hpq (by simpa using e.symm)
            by_cases hn : r.ptr a = node
            · simp [hq, hn]
            · simp [hq, hn, hne]
          · simp [hq]
      · subst hs
        refine ⟨_, e2, q2.filter _, ?_⟩
        intro a
        rw [hprox a, List.mem_filter, q3 a]
        by_cases hq : r.proxy a = some s
        · have hne : ¬ (some p = some s) := by
            intro e; exact hpq (by simpa using e)
          by_cases hn : r.ptr a = node
          · simp [hq, hn, hne]
          · simp [hq, hn]
        · simp [hq]
    · intro a s ha
      rw [hprox a] at ha
      by_cases hcnd : r.proxy a = some q ∧ r.ptr a = node
      · rw [if_pos hcnd] at ha
        right
        have : s = p := by simpa using ha.symm
        subst this
        exact ⟨c, hc⟩
      · rw [if_neg hcnd] at ha
        exact Or.inl ha
  · intro Q' P' hQ hP
    have := IsSeg.unique hQ q1
    subst this
    have := IsSeg.unique hP p1
    subst this
    exact ⟨e2, e3⟩

/-- Two containers with the same proxy are the same container. -/
theorem RegInv.proxy_inj {r : RegMem} (h : RegInv r) {c1 c2 p : Nat}
    (h1 : r.container_proxy c1 = some p) (h2 : r.container_proxy c2 = some p) : c1 = c2 := by
  have e1 := h.owner c1 p h1
  have e2 := h.owner c2 p h2
  rw [e1] at e2
  simpa using e2

/-- The registry part of `swapValue` for two different containers under the
invariant: it returns and keeps the invariant; the containers exchange their
proxies, each proxy has its new owner as `parent`; records and chains stay
as they are. -/
theorem swapProxy_inv {r : RegMem} (h : RegInv r) {c other p q : Nat}
    (hc : r.container_proxy c = some p) (ho : r.container_proxy other = some q)
    (hne : c ≠ other) :
    ∃ r', ContainerBase.swapProxy r c other = some r' ∧ RegInv r' ∧
      r'.container_proxy = upd (upd r.container_proxy c (some q)) other (some p) ∧
      r'.parent = upd (upd r.parent q (some c)) p (some other) ∧
      r'.proxy = r.proxy ∧ r'.next_iterator = r.next_iterator ∧ r'.first = r.first ∧
      r'.ptr = r.ptr ∧ r'.fresh = r.fresh := by
  have hpq : p ≠ q := by
    intro e
    subst e
    exact hne (h.proxy_inj hc ho)
  have key : ContainerBase.swapProxy r c other =
      some { r with container_proxy := upd (upd r.container_proxy c (some q)) other (some p),
                    parent := upd (upd r.parent q (some c)) p (some other) } := by
    simp [ContainerBase.swapProxy, hc, ho, upd, hne, hne.symm]
  refine ⟨_, key, ?_, rfl, rfl, rfl, rfl, rfl, rfl, rfl⟩
  refine ⟨?_, ?_, ?_, ?_⟩
  · intro s
    obtain ⟨xs, h1, h2, h3⟩ := h.chains s
    exact ⟨xs, IsSeg.congr_next h1 (fun _ _ => rfl), h2, h3⟩
  · intro c' s hs
    have hs' : upd (upd r.container_proxy c (some q)) other (some p) c' = some s := hs
    show upd (upd r.parent q (some c)) p (some other) s = some c'
    by_cases e1 : c' = other
    · subst e1
      have : s = p := by simpa [upd] using hs'.symm
      subst this
      simp [upd]
    · by_cases e2 : c' = c
      · subst e2
        have : s = q := by simpa [upd, e1] using hs'.symm
        subst this
        simp [upd, hpq.symm]
      · have h5 : r.container_proxy c' = some s := by simpa [upd, e1, e2] using hs'
        have n1 : s ≠ p := by
          intro e; subst e; exact e2 (h.proxy_inj h5 hc)
        have n2 : s ≠ q := by
          intro e; subst e; exact e1 (h.proxy_inj h5 ho)
        simp [upd, n1, n2, h.owner c' s h5]
  · intro a s ha
    obtain ⟨c', hc'⟩ := h.registered a s ha
    show ∃ c0, upd (upd r.container_proxy c (some q)) other (some p) c0 = some s
    by_cases e1 : s = p
    · subst e1
      exact ⟨other, by simp [upd]⟩
    · by_cases e2 : s = q
      · subst e2
        exact ⟨c, by simp [upd, hne]⟩
      · have n1 : c' ≠ c := by
          intro e; subst e; rw [hc] at hc'; exact e1 (by simpa using hc'.symm)
        have n2 : c' ≠ other := by
          intro e; subst e; rw [ho] at hc'; exact e2 (by simpa using hc'.symm)
        exact ⟨c', by simp [upd, n1, n2, hc']⟩
  · intro c' s hs
    have hs' : upd (upd r.container_proxy c (some q)) other (some p) c' = some s := hs
    show s < r.fresh
    by_cases e1 : c' = other
    · subst e1
      have : s = p := by simpa [upd] using hs'.symm
      subst this
      exact h.alloc c s hc
    · by_cases e2 : c' = c
      · subst e2
        have : s = q := by simpa [upd, e1] using hs'.symm
        subst this
        exact h.alloc other s ho
      · have h5 : r.container_proxy c' = some s := by simpa [upd, e1, e2] using hs'
        exact h.alloc c' s h5

/-- `createProxy` for a container that has no proxy yet keeps the invariant;
the new proxy has an empty chain. -/
theorem createProxy_inv {r : RegMem} (h : RegInv r) {c : Nat}
    (hc : r.container_proxy c = none) :
    RegInv (ContainerBase.createProxy r c) ∧
    (ContainerBase.createProxy r c).container_proxy c = some r.fresh ∧
    (ContainerBase.createProxy r c).first r.fresh = none ∧
    (ContainerBase.createProxy r c).proxy = r.proxy ∧
    (∀ s xs, IsSeg r (r.first s) xs none →
      IsSeg (ContainerBase.createProxy r c) ((ContainerBase.createProxy r c).first s) xs none) := by
  have hunused : ∀ a, r.proxy a ≠ some r.fresh := by
    intro a ha
    obtain ⟨c', hc'⟩ := h.registered a _ ha
    have := h.alloc c' _ hc'
    omega
  have hseg : ∀ s xs, IsSeg r (r.first s) xs none →
      IsSeg (ContainerBase.createProxy r c) ((ContainerBase.createProxy r c).first s) xs
        none := by
    intro s xs hx
    by_cases hs : s = r.fresh
    · subst hs
      have hm := (h.chain_facts hx).2
      have hxs : xs = [] := by
        cases xs with
        | nil => rfl
        | cons a xs => exact absurd ((hm a).1 (by simp)) (hunused a)
      subst hxs
      simp [ContainerBase.createProxy, upd, IsSeg]
    · have : (ContainerBase.createProxy r c).first s = r.first s := by
        simp [ContainerBase.createProxy, upd, hs]
      rw [this]
      exact IsSeg.congr_next hx (fun _ _ => rfl)
  refine ⟨⟨?_, ?_, ?_, ?_⟩, by simp [ContainerBase.createProxy, upd],
    by simp [ContainerBase.createProxy, upd], rfl, hseg⟩
  · intro s
    obtain ⟨xs, h1, h2, h3⟩ := h.chains s
    exact ⟨xs, hseg s xs h1, h2, h3⟩
  · intro c' s hs
    have hs' : upd r.container_proxy c (some r.fresh) c' = some s := hs
    show upd r.parent r.fresh (some c) s = some c'
    by_cases e : c' = c
    · subst e
      have : s = r.fresh := by simpa [upd] using hs'.symm
      subst this
      simp [upd]
    · have h5 : r.container_proxy c' = some s := by simpa [upd, e] using hs'
      have := h.alloc c' s h5
      have hne : s ≠ r.fresh := by omega
      simp [upd, hne, h.owner c' s h5]
  · intro a s ha
    obtain ⟨c', hc'⟩ := h.registered a s ha
    have hne : c' ≠ c := by
      intro e; subst e; rw [hc] at hc'; simp at hc'
    exact ⟨c', by show upd r.container_proxy c (some r.fresh) c' = some s; simp [upd, hne, hc']⟩
  · intro c' s hs
    have hs' : upd r.container_proxy c (some r.fresh) c' = some s := hs
    show s < r.fresh + 1
    by_cases e : c' = c
    · subst e
      have : s = r.fresh := by simpa [upd] using hs'.symm
      omega
    · have h5 : r.container_proxy c' = some s := by simpa [upd, e] using hs'
      have := h.alloc c' s h5
      omega

theorem RegisteredIn.chainsBelow {r : RegMem} {all : List Nat} (h : RegInv r)
    (ha : RegisteredIn r all) {fuel : Nat} (hf : all.length < fuel) : ChainsBelow r fuel := by
  intro p xs hx
  obtain ⟨hnd, hm⟩ := h.chain_facts hx
  have hsub : xs ⊆ all := fun a hxa => ha a p ((hm a).1 hxa)
  have := (List.subperm_of_subset hnd hsub).length_le
  omega

theorem setPtr_inv {r : RegMem} (h : RegInv r) (it node : Nat) :
    RegInv { r with ptr := upd r.ptr it node } := by
  refine ⟨fun p => ?_, h.owner, h.registered, h.alloc⟩
  obtain ⟨xs, hx, hnd, hm⟩ := h.chains p
  exact ⟨xs, IsSeg.congr_next hx (fun _ _ => rfl), hnd, hm⟩

theorem RegisteredIn.of_upd {r r' : RegMem} {all : List Nat} (ha : RegisteredIn r all)
    {it : Nat} {v : Option Nat} (hp : r'.proxy = upd r.proxy it v) :
    RegisteredIn r' (it :: all) := by
  intro a p hap
  rw [hp] at hap
  by_cases e : a = it
  · simp [e]
  · simp only [upd, if_neg e] at hap
    exact List.mem_cons_of_mem _ (ha a p hap)

/-- One step keeps the registry well formed and registers at most one more
record. -/
theorem applyRegOp_inv {r r' : RegMem} {all : List Nat} {fuel : Nat} (h : RegInv r)
    (ha : RegisteredIn r all) (hf : all.length < fuel) (op : RegOp)
    (hr : applyRegOp fuel r op = some r') :
    RegInv r' ∧ ∃ all', all'.length ≤ all.length + 1 ∧ RegisteredIn r' all' := by
  have hcb : ChainsBelow r fuel := ha.chainsBelow h hf
  have hme : ∀ it, IteratorBase.orphanMe fuel r it = some r' →
      RegInv r' ∧ ∃ all', all'.length ≤ all.length + 1 ∧ RegisteredIn r' all' := by
    intro it hr
    obtain ⟨r1, e1, hi, hp, -⟩ := orphanMe_inv h it (fun p xs _ hx => hcb p xs hx)
    rw [e1] at hr
    cases hr
    exact ⟨hi, it :: all, by simp, ha.of_upd hp⟩
  cases op with
  | createProxy c =>
    simp only [applyRegOp] at hr
    split at hr
    · rename_i hc
      cases hr
      obtain ⟨hi, -, -, hp, -⟩ := createProxy_inv h hc
      exact ⟨hi, all, by simp, fun a p hap => ha a p (by rw [← hp]; exact hap)⟩
    · cases hr
  | adopt it parent =>
    simp only [applyRegOp] at hr
    cases parent with
    | none => exact hme it hr
    | some c =>
      cases hc : r.container_proxy c with
      | some pp =>
        obtain ⟨r1, e1, hi, hp, -⟩ := adopt_inv h it hc hcb
        rw [e1] at hr
        cases hr
        exact ⟨hi, it :: all, by simp, ha.of_upd hp⟩
      | none =>
        simp only [IteratorBase.adopt, hc] at hr
        split at hr
        · cases hm : IteratorBase.orphanMe fuel r it with
          | none => simp [hm] at hr
          | some r1 => simp [hm] at hr
        · cases hr
          exact ⟨h, all, by simp, ha⟩
  | orphanMe it => exact hme it hr
  | destroy it => exact hme it hr
  | orphanAll c =>
    simp only [applyRegOp] at hr
    cases hc : r.container_proxy c with
    | none => simp [ContainerBase.orphanAll, hc] at hr
    | some p =>
      obtain ⟨r1, e1, hi, hp, -⟩ := orphanAll_inv h hc hcb
      rw [e1] at hr
      cases hr
      refine ⟨hi, all, by simp, fun a q haq => ?_⟩
      rw [hp a] at haq
      split at haq
      · cases haq
      · exact ha a q haq
  | orphanPtr c node =>
    simp only [applyRegOp] at hr
    cases hc : r.container_proxy c with
    | none => simp [ContainerBase.orphanPtr, hc] at hr
    | some p =>
      obtain ⟨xs, hx, -, -⟩ := h.chains p
      obtain ⟨r1, e1, hi, -, hp, -⟩ :=
        orphanLoop_inv (fun ptr => decide (ptr = node)) h hx (hcb p xs hx)
      simp only [ContainerBase.orphanPtr, hc] at hr
      rw [e1] at hr
      cases hr
      refine ⟨hi, all, by simp, fun a q haq => ?_⟩
      rw [hp a] at haq
      split at haq
      · cases haq
      · exact ha a q haq
  | orphanNonHead c head =>
    simp only [applyRegOp] at hr
    cases hc : r.container_proxy c with
    | none => simp [ContainerBase.orphanNonHead, hc] at hr
    | some p =>
      obtain ⟨xs, hx, -, -⟩ := h.chains p
      obtain ⟨r1, e1, hi, -, hp, -⟩ :=
        orphanLoop_inv (fun ptr => decide (ptr ≠ head)) h hx (hcb p xs hx)
      simp only [ContainerBase.orphanNonHead, hc] at hr
      rw [e1] at hr
      cases hr
      refine ⟨hi, all, by simp, fun a q haq => ?_⟩
      rw [hp a] at haq
      split at haq
      · cases haq
      · exact ha a q haq
  | reparentPtr c other node =>
    simp only [applyRegOp] at hr
    split at hr
    · rename_i hne
      cases hc : r.container_proxy c with
      | none => simp [ContainerBase.reparentPtr, hc] at hr
      | some p =>
        cases ho : r.container_proxy other with
        | none => simp [ContainerBase.reparentPtr, hc, ho] at hr
        | some q =>
          have hpq : p ≠ q := by
            intro e
            subst e
            exact hne (h.proxy_inj hc ho)
          obtain ⟨r1, e1, hi, hp, -⟩ := reparentPtr_inv h hc ho hpq node hcb
          rw [e1] at hr
          cases hr
          refine ⟨hi, all, by simp, fun a s has => ?_⟩
          rw [hp a] at has
          split at has
          · rename_i hh
            exact ha a q hh.1
          · exact ha a s has
    · cases hr
  | copy it rhs =>
    simp only [applyRegOp] at hr
    split at hr
    · rename_i hit
      obtain ⟨r1, e1, hi, hp, -⟩ := copy_inv h it rhs hit hcb
      rw [e1] at hr
      cases hr
      exact ⟨hi, it :: all, by simp, ha.of_upd hp⟩
    · cases hr
  | assign it rhs =>
    simp only [applyRegOp] at hr
    obtain ⟨r1, e1, hi, hp, -⟩ := assign_inv h it rhs hcb
    rw [e1] at hr
    cases hr
    exact ⟨hi, it :: all, by simp, ha.of_upd hp⟩
  | swap c other =>
    simp only [applyRegOp] at hr
    split at hr
    · rename_i hne
      have hne2 : ¬ other = c := fun e => hne e.symm
      cases hc : r.container_proxy c with
      | none =>
        cases ho : r.container_proxy other with
        | none => simp [ContainerBase.swapProxy, hc, ho, upd, hne, hne2] at hr
        | some q => simp [ContainerBase.swapProxy, hc, ho, upd, hne, hne2] at hr
      | some p =>
        cases ho : r.container_proxy other with
        | none => simp [ContainerBase.swapProxy, hc, ho, upd, hne, hne2] at hr
        | some q =>
          obtain ⟨r1, e1, hi, -, -, hp, -⟩ := swapProxy_inv h hc ho hne
          rw [e1] at hr
          cases hr
          exact ⟨hi, all, by simp, fun a s has => ha a s (by rw [← hp]; exact has)⟩
    · cases hr
  | setPtr it node =>
    simp only [applyRegOp] at hr
    cases hr
    exact ⟨setPtr_inv h it node, all, by simp, ha⟩

/-- A run from a well-formed registry, with fuel above the number of records
registered at the start plus the number of steps, ends in a well-formed
registry, with at most one more registered record for each step. -/
theorem runRegOps_inv {fuel : Nat} : ∀ (ops : List RegOp) {r r' : RegMem} {all : List Nat},
    RegInv r → RegisteredIn r all → all.length + ops.length < fuel →
    runRegOps fuel r ops = some r' →
    RegInv r' ∧ ∃ all', all'.length ≤ all.length + ops.length ∧ RegisteredIn r' all'
  | [], r, r', all, h, ha, _, hr => by
    simp only [runRegOps] at hr
    cases hr
    exact ⟨h, all, by simp, ha⟩
  | op :: ops, r, r', all, h, ha, hf, hr => by
    simp only [runRegOps] at hr
    cases h1 : applyRegOp fuel r op with
    | none => simp [h1] at hr
    | some r1 =>
      simp only [h1] at hr
      obtain ⟨hi, all', hl, ha'⟩ :=
        applyRegOp_inv h ha (by simp at hf; omega) op h1
      obtain ⟨hi2, all2, hl2, ha2⟩ :=
        runRegOps_inv ops hi ha' (by simp at hf ⊢; omega) hr
      exact ⟨hi2, all2, by simp; omega, ha2⟩

theorem registeredIn_init : RegisteredIn RegMem.init [] := by
  intro a p h
  simp [RegMem.init] at h

/-- Every registry reached from the initial one is well formed, and the
fuel of the run is above the length of each of its chains. -/
theorem runRegOps_init_inv {fuel : Nat} {ops : List RegOp} {r : RegMem}
    (hf : ops.length < fuel) (hr : runRegOps fuel RegMem.init ops = some r) :
    RegInv r ∧ ChainsBelow r fuel := by
  obtain ⟨hi, all, hl, ha⟩ :=
    runRegOps_inv ops init_inv registeredIn_init (by simpa using hf) hr
  exact ⟨hi, ha.chainsBelow hi (by simp at hl; omega)⟩

/-- Number of occurrences of a record in the chains of a well-formed
registry: one in the chain of its proxy, none elsewhere. -/
theorem RegInv.count_chain {r : RegMem} (h : RegInv r) {p : Nat} {xs : List Nat}
    (hx : IsSeg r (r.first p) xs none) (a : Nat) :
    xs.count a = if r.proxy a = some p then 1 else 0 := by
  obtain ⟨hnd, hm⟩ := h.chain_facts hx
  by_cases hp : r.proxy a = some p
  · rw [if_pos hp]
    exact List.count_eq_one_of_mem hnd ((hm a).2 hp)
  · rw [if_neg hp]
    exact List.count_eq_zero_of_not_mem (fun hmem => hp ((hm a).1 hmem))

theorem sampleRegistry_run : runRegOps 20 RegMem.init sampleRegOps = some sampleRegistry :=
  option_eq_some_getD _ _ (by decide!)

theorem sampleRegistry_inv : RegInv sampleRegistry ∧ ChainsBelow sampleRegistry 20 :=
  runRegOps_init_inv (by decide) sampleRegistry_run

theorem sampleRegistry_chain0 :
    IsSeg sampleRegistry (sampleRegistry.first 0) [12, 11, 10] none :=
  ⟨(by decide! : sampleRegistry.first 0 = some 12),
    (by decide! : sampleRegistry.next_iterator 12 = some 11),
    (by decide! : sampleRegistry.next_iterator 11 = some 10),
    (by decide! : sampleRegistry.next_iterator 10 = none)⟩

theorem sampleRegistry_chain1 : IsSeg sampleRegistry (sampleRegistry.first 1) [13] none :=
  ⟨(by decide! : sampleRegistry.first 1 = some 13),
    (by decide! : sampleRegistry.next_iterator 13 = none)⟩

/-- C27: every registry reached from the initial one through `createProxy`,
`adopt`, `orphanMe`, `orphanAll`, `orphanPtr`, `orphanNonHead`, `reparentPtr`,
the copy, assignment and destruction of a record, the swap of two containers
and changes of `ptr` satisfies the registry invariant: a record either has a
null proxy and occurs in no chain, or has proxy `p` and occurs exactly once
in the chain of `p` and in no other chain; every chain is a finite list of
distinct records that ends in the null pointer. -/
theorem registry_invariant_reachable {fuel : Nat} {ops : List RegOp} {r : RegMem}
    (hf : ops.length < fuel) (hr : runRegOps fuel RegMem.init ops = some r) :
    (∀ a, (r.proxy a = none ∧ ∀ p xs, IsSeg r (r.first p) xs none → a ∉ xs) ∨
      (∃ p, r.proxy a = some p ∧
        ∀ q xs, IsSeg r (r.first q) xs none → xs.count a = if q = p then 1 else 0)) ∧
    (∀ p, ∃ xs, IsSeg r (r.first p) xs none ∧ xs.Nodup) := by
  obtain ⟨h, -⟩ := runRegOps_init_inv hf hr
  refine ⟨fun a => ?_, fun p => ?_⟩
  · cases hp : r.proxy a with
    | none =>
      refine Or.inl ⟨rfl, fun p xs hx hm => ?_⟩
      have := ((h.chain_facts hx).2 a).1 hm
      rw [hp] at this
      cases this
    | some p =>
      refine Or.inr ⟨p, rfl, fun q xs hx => ?_⟩
      rw [h.count_chain hx a, hp]
      by_cases e : q = p
      · simp [e]
      · have : ¬ p = q := fun e2 => e e2.symm
        simp [e, this]
  · obtain ⟨xs, hx, hnd, -⟩ := h.chains p
    exact ⟨xs, hx, hnd⟩

theorem registry_invariant_reachable_witness :
    sampleRegOps.length < 20 ∧ runRegOps 20 RegMem.init sampleRegOps = some sampleRegistry ∧
    (∀ a, (sampleRegistry.proxy a = none ∧
        ∀ p xs, IsSeg sampleRegistry (sampleRegistry.first p) xs none → a ∉ xs) ∨
      (∃ p, sampleRegistry.proxy a = some p ∧
        ∀ q xs, IsSeg sampleRegistry (sampleRegistry.first q) xs none →
          xs.count a = if q = p then 1 else 0)) ∧
    (∀ p, ∃ xs, IsSeg sampleRegistry (sampleRegistry.first p) xs none ∧ xs.Nodup) :=
  ⟨by decide, sampleRegistry_run,
    registry_invariant_reachable (by decide) sampleRegistry_run⟩

/-- C23, counterexample: in the sample registry the record 10 is registered
with container 0 and is the last record of its chain 12, 11, 10; after
`adopt(10, container 0)` the head of the chain is still 12, not 10. -/
theorem adopt_registered_record_not_head :
    sampleRegistry.container_proxy 0 = some 0 ∧ sampleRegistry.proxy 10 = some 0 ∧
    (IteratorBase.adopt 20 sampleRegistry 10 (some 0)).map (fun r => r.first 0)
      = some (some 12) ∧
    (IteratorBase.adopt 20 sampleRegistry 10 (some 0)).map
      (fun r => decide (r.first 0 = some 10)) = some false := by
  decide!

/-- C23, amended: after `adopt(it, c)` for a container `c` that has a proxy,
the proxy of `it` is the proxy of `c`, `getContainer` gives `c`, `it` occurs
exactly once in the chain of `c` and in no other chain, and no other record
changes its proxy; `it` is the head of the chain of `c` when it was orphaned
or registered with another container before, and when it was already
registered with `c` the registry is unchanged. -/
theorem adopt_registers_with_container {r : RegMem} (h : RegInv r) (it : Nat) {c pp : Nat}
    (hc : r.container_proxy c = some pp) {fuel : Nat} (hf : ChainsBelow r fuel) :
    ∃ r', IteratorBase.adopt fuel r it (some c) = some r' ∧
      r'.container_proxy c = some pp ∧ r'.proxy it = some pp ∧
      IteratorBase.getContainer r' it = some c ∧
      (∀ p xs, IsSeg r' (r'.first p) xs none → xs.count it = if p = pp then 1 else 0) ∧
      (∀ a, a ≠ it → r'.proxy a = r.proxy a) ∧
      (r.proxy it ≠ some pp → r'.first pp = some it) ∧
      (r.proxy it = some pp → r' = r) := by
  obtain ⟨r', e, hi, hp, -, hpar, hcp, -, hsame, hch⟩ := adopt_inv h it hc hf
  have hpit : r'.proxy it = some pp := by simp [hp, upd]
  refine ⟨r', e, by rw [hcp]; exact hc, hpit, ?_, ?_, ?_, ?_, hsame⟩
  · simp only [IteratorBase.getContainer, hpit, hpar]
    exact h.owner c pp hc
  · intro p xs hx
    rw [hi.count_chain hx it, hpit]
    by_cases e1 : p = pp
    · simp [e1]
    · have : ¬ pp = p := fun e2 => e1 e2.symm
      simp [e1, this]
  · intro a ha
    simp [hp, upd, ha]
  · intro hne
    obtain ⟨xs, hx, -, -⟩ := h.chains pp
    have := hch hne pp xs hx
    rw [if_pos rfl] at this
    exact this.1

theorem adopt_registers_with_container_witness :
    sampleRegistry.container_proxy 0 = some 0 ∧ ChainsBelow sampleRegistry 20 ∧
    ∃ r', IteratorBase.adopt 20 sampleRegistry 13 (some 0) = some r' ∧
      r'.container_proxy 0 = some 0 ∧ r'.proxy 13 = some 0 ∧
      IteratorBase.getContainer r' 13 = some 0 ∧
      (∀ p xs, IsSeg r' (r'.first p) xs none → xs.count 13 = if p = 0 then 1 else 0) ∧
      (∀ a, a ≠ 13 → r'.proxy a = sampleRegistry.proxy a) ∧
      (sampleRegistry.proxy 13 ≠ some 0 → r'.first 0 = some 13) ∧
      (sampleRegistry.proxy 13 = some 0 → r' = sampleRegistry) :=
  ⟨by decide!, sampleRegistry_inv.2,
    adopt_registers_with_container sampleRegistry_inv.1 13 (by decide!) sampleRegistry_inv.2⟩

/-- C24: `orphanPtr(x)` on a container whose chain is `xs` detaches exactly
the records of the chain whose node is `x`: they get a null proxy, no other
record changes its proxy or its node, the chain afterwards is `xs` without
those records, in the same order, it holds no record that denotes `x`, and
the registry stays well formed. -/
theorem orphanPtr_detaches_exactly {r : RegMem} (h : RegInv r) {c p : Nat}
    (hc : r.container_proxy c = some p) {xs : List Nat}
    (hx : IsSeg r (r.first p) xs none) {fuel : Nat} (hf : xs.length < fuel) (x : Nat) :
    ∃ r', ContainerBase.orphanPtr fuel r c x = some r' ∧ RegInv r' ∧
      IsSeg r' (r'.first p) (xs.filter (fun a => !decide (r.ptr a = x))) none ∧
      (∀ a, a ∈ xs → r.ptr a = x → r'.proxy a = none) ∧
      (∀ a, ¬ (a ∈ xs ∧ r.ptr a = x) → r'.proxy a = r.proxy a) ∧
      r'.ptr = r.ptr ∧
      (∀ ys, IsSeg r' (r'.first p) ys none → ∀ a, a ∈ ys → r'.ptr a ≠ x) := by
  obtain ⟨r', e, hi, hseg, hp, hptr, -⟩ :=
    orphanLoop_inv (fun ptr => decide (ptr = x)) h hx hf
  refine ⟨r', ?_, hi, hseg, ?_, ?_, hptr, ?_⟩
  · simp only [ContainerBase.orphanPtr, hc]
    exact e
  · intro a ha hpa
    rw [hp a, if_pos ⟨ha, by simpa using hpa⟩]
  · intro a hna
    rw [hp a, if_neg (by simpa using hna)]
  · intro ys hy a ha
    have := IsSeg.unique hy hseg
    subst this
    rw [hptr]
    simpa using (List.mem_filter.1 ha).2

theorem orphanPtr_detaches_exactly_witness :
    sampleRegistry.container_proxy 0 = some 0 ∧
    IsSeg sampleRegistry (sampleRegistry.first 0) [12, 11, 10] none ∧
    ∃ r', ContainerBase.orphanPtr 20 sampleRegistry 0 1 = some r' ∧ RegInv r' ∧
      IsSeg r' (r'.first 0)
        ([12, 11, 10].filter (fun a => !decide (sampleRegistry.ptr a = 1))) none ∧
      (∀ a, a ∈ [12, 11, 10] → sampleRegistry.ptr a = 1 → r'.proxy a = none) ∧
      (∀ a, ¬ (a ∈ [12, 11, 10] ∧ sampleRegistry.ptr a = 1) →
        r'.proxy a = sampleRegistry.proxy a) ∧
      r'.ptr = sampleRegistry.ptr ∧
      (∀ ys, IsSeg r' (r'.first 0) ys none → ∀ a, a ∈ ys → r'.ptr a ≠ 1) :=
  ⟨by decide!, sampleRegistry_chain0,
    orphanPtr_detaches_exactly sampleRegistry_inv.1 (by decide!) sampleRegistry_chain0
      (by decide) 1⟩

/-- C29: assignment `it = rhs` and the copy construction of a new record `it`
from `rhs` give `it` the proxy of `rhs`: when `rhs` is registered with a
container, `it` is afterwards in the chain of that container, exactly once,
and in no other chain; when `rhs` is orphaned, `it` is orphaned and in no
chain; the proxy of `rhs` and of every record other than `it` is unchanged,
and `rhs` occurs in the chains as before. -/
theorem copy_assign_registration {r : RegMem} (h : RegInv r) (it rhs : Nat) {fuel : Nat}
    (hf : ChainsBelow r fuel) :
    (∃ r', IteratorBase.assign fuel r it rhs = some r' ∧ RegInv r' ∧
      r'.proxy it = r.proxy rhs ∧ r'.proxy rhs = r.proxy rhs ∧
      (∀ a, a ≠ it → r'.proxy a = r.proxy a) ∧
      (∀ p xs, IsSeg r' (r'.first p) xs none →
        xs.count it = (if r.proxy rhs = some p then 1 else 0) ∧
        xs.count rhs = (if r.proxy rhs = some p then 1 else 0))) ∧
    (r.proxy it = none →
      ∃ r', IteratorBase.copy fuel r it rhs = some r' ∧ RegInv r' ∧
        r'.proxy it = r.proxy rhs ∧ r'.proxy rhs = r.proxy rhs ∧
        (∀ a, a ≠ it → r'.proxy a = r.proxy a) ∧
        (∀ p xs, IsSeg r' (r'.first p) xs none →
          xs.count it = (if r.proxy rhs = some p then 1 else 0) ∧
          xs.count rhs = (if r.proxy rhs = some p then 1 else 0))) := by
  have key : ∀ r' : RegMem, RegInv r' → r'.proxy = upd r.proxy it (r.proxy rhs) →
      r'.proxy it = r.proxy rhs ∧ r'.proxy rhs = r.proxy rhs ∧
      (∀ a, a ≠ it → r'.proxy a = r.proxy a) ∧
      (∀ p xs, IsSeg r' (r'.first p) xs none →
        xs.count it = (if r.proxy rhs = some p then 1 else 0) ∧
        xs.count rhs = (if r.proxy rhs = some p then 1 else 0)) := by
    intro r' hi hp
    have h1 : r'.proxy it = r.proxy rhs := by simp [hp, upd]
    have h2 : r'.proxy rhs = r.proxy rhs := by
      by_cases e : rhs = it
      · rw [e, h1, e]
      · simp [hp, upd, e]
    refine ⟨h1, h2, fun a ha => by simp [hp, upd, ha], fun p xs hx => ?_⟩
    rw [hi.count_chain hx it, hi.count_chain hx rhs, h1, h2]
    exact ⟨rfl, rfl⟩
  constructor
  · obtain ⟨r', e, hi, hp, -⟩ := assign_inv h it rhs hf
    exact ⟨r', e, hi, key r' hi hp⟩
  · intro hit
    obtain ⟨r', e, hi, hp, -⟩ := copy_inv h it rhs hit hf
    exact ⟨r', e, hi, key r' hi hp⟩

theorem copy_assign_registration_witness :
    ChainsBelow sampleRegistry 20 ∧
    (∃ r', IteratorBase.assign 20 sampleRegistry 14 10 = some r' ∧ RegInv r' ∧
      r'.proxy 14 = sampleRegistry.proxy 10 ∧ r'.proxy 10 = sampleRegistry.proxy 10 ∧
      (∀ a, a ≠ 14 → r'.proxy a = sampleRegistry.proxy a) ∧
      (∀ p xs, IsSeg r' (r'.first p) xs none →
        xs.count 14 = (if sampleRegistry.proxy 10 = some p then 1 else 0) ∧
        xs.count 10 = (if sampleRegistry.proxy 10 = some p then 1 else 0))) ∧
    (sampleRegistry.proxy 14 = none →
      ∃ r', IteratorBase.copy 20 sampleRegistry 14 10 = some r' ∧ RegInv r' ∧
        r'.proxy 14 = sampleRegistry.proxy 10 ∧ r'.proxy 10 = sampleRegistry.proxy 10 ∧
        (∀ a, a ≠ 14 → r'.proxy a = sampleRegistry.proxy a) ∧
        (∀ p xs, IsSeg r' (r'.first p) xs none →
          xs.count 14 = (if sampleRegistry.proxy 10 = some p then 1 else 0) ∧
          xs.count 10 = (if sampleRegistry.proxy 10 = some p then 1 else 0))) :=
  ⟨sampleRegistry_inv.2, copy_assign_registration sampleRegistry_inv.1 14 10 sampleRegistry_inv.2⟩

theorem sampleTwoLists_inv :
    ListInv sampleTwoLists.1 sampleTwoLists.2.1 [1, 2, 3] ∧
    ListInv sampleTwoLists.1 sampleTwoLists.2.2 [5, 6] := by
  refine ⟨⟨?_, ?_, ?_, ?_, ?_⟩, ⟨?_, ?_, ?_, ?_, ?_⟩⟩
  · simp only [List.chain'_cons, List.chain'_singleton, Link, and_true, List.cons_append,
      List.nil_append]
    unfold sampleTwoLists
    decide!
  · unfold sampleTwoLists; decide!
  · unfold sampleTwoLists; decide!
  · unfold sampleTwoLists; decide!
  · unfold sampleTwoLists; decide!
  · simp only [List.chain'_cons, List.chain'_singleton, Link, and_true, List.cons_append,
      List.nil_append]
    unfold sampleTwoLists
    decide!
  · unfold sampleTwoLists; decide!
  · unfold sampleTwoLists; decide!
  · unfold sampleTwoLists; decide!
  · unfold sampleTwoLists; decide!

theorem RegInv.getContainer_eq {r : RegMem} (h : RegInv r) {c p : Nat}
    (hc : r.container_proxy c = some p) (it : Nat) :
    IteratorBase.getContainer r it = some c ↔ r.proxy it = some p := by
  constructor
  · intro hg
    cases hp : r.proxy it with
    | none => simp [IteratorBase.getContainer, hp] at hg
    | some p1 =>
      simp only [IteratorBase.getContainer, hp] at hg
      obtain ⟨c1, hc1⟩ := h.registered it p1 hp
      have := h.owner c1 p1 hc1
      rw [hg] at this
      cases this
      rw [hc] at hc1
      exact hc1.symm
  · intro hp
    simp only [IteratorBase.getContainer, hp]
    exact h.owner c p hc

theorem RegMem.ext_fields {r s : RegMem} (h1 : r.proxy = s.proxy)
    (h2 : r.next_iterator = s.next_iterator) (h3 : r.ptr = s.ptr) (h4 : r.first = s.first)
    (h5 : r.parent = s.parent) (h6 : r.container_proxy = s.container_proxy)
    (h7 : r.fresh = s.fresh) : r = s := by
  cases r
  cases s
  simp only at h1 h2 h3 h4 h5 h6 h7
  subst h1 h2 h3 h4 h5 h6 h7
  rfl

/-- The registry part of a swap, done twice, gives back the registry. -/
theorem swapProxy_twice {r : RegMem} (h : RegInv r) {c other p q : Nat}
    (hc : r.container_proxy c = some p) (ho : r.container_proxy other = some q)
    (hne : c ≠ other) :
    ∃ r', ContainerBase.swapProxy r c other = some r' ∧ RegInv r' ∧
      r'.container_proxy c = some q ∧ r'.container_proxy other = some p ∧
      r'.parent p = some other ∧ r'.parent q = some c ∧
      r'.proxy = r.proxy ∧ r'.next_iterator = r.next_iterator ∧ r'.first = r.first ∧
      r'.ptr = r.ptr ∧
      ContainerBase.swapProxy r' c other = some r := by
  have hpq : p ≠ q := by
    intro e
    subst e
    exact hne (h.proxy_inj hc ho)
  have hqp : ¬ q = p := fun e => hpq e.symm
  have hoc : ¬ other = c := fun e => hne e.symm
  obtain ⟨r', e, hi, hcp, hpar, hp, hn, hf, hptr, hfr⟩ := swapProxy_inv h hc ho hne
  have hc' : r'.container_proxy c = some q := by simp [hcp, upd, hne]
  have ho' : r'.container_proxy other = some p := by simp [hcp, upd]
  obtain ⟨r2, e2, -, hcp2, hpar2, hp2, hn2, hf2, hptr2, hfr2⟩ := swapProxy_inv hi hc' ho' hne
  refine ⟨r', e, hi, hc', ho', by simp [hpar, upd], by simp [hpar, upd, hqp], hp, hn, hf,
    hptr, ?_⟩
  rw [e2]
  congr 1
  apply RegMem.ext_fields
  · rw [hp2, hp]
  · rw [hn2, hn]
  · rw [hptr2, hptr]
  · rw [hf2, hf]
  · rw [hpar2, hpar]
    funext x
    by_cases e1 : x = q
    · subst e1
      simp only [upd, if_true]
      exact (h.owner other x ho).symm
    · by_cases e3 : x = p
      · subst e3
        simp only [upd, if_neg e1, if_true]
        exact (h.owner c x hc).symm
      · simp [upd, e1, e3]
  · rw [hcp2, hcp]
    funext x
    by_cases e1 : x = other
    · subst e1
      simp only [upd, if_true]
      exact ho.symm
    · by_cases e3 : x = c
      · subst e3
        simp only [upd, if_neg e1, if_true]
        exact hc.symm
      · simp [upd, e1, e3]
  · rw [hfr2, hfr]

/-- C22: `a.swap(b)` for two distinct lists at the addresses `c` and `other`.
The call returns; the list value of `a` is afterwards the one `b` had and the
other way round, so each list has the node sequence, the elements and the
size the other had; the two containers have exchanged their proxies with the
chains as they were: every record registered with `a` reports `b` as its
container and every record registered with `b` reports `a`, each denoting
the node it denoted; a second swap gives back the registry and both list
values. -/
theorem swap_exchanges_lists {r : RegMem} (h : RegInv r) {c other p q : Nat}
    (hc : r.container_proxy c = some p) (ho : r.container_proxy other = some q)
    (hne : c ≠ other) (m : ListMem T) (l lo : ListValue) :
    ∃ r' la lb, LinkedList.swap r c other l lo = some (r', la, lb) ∧ RegInv r' ∧
      (∀ zs, ListInv m lo zs → ListInv m la zs) ∧ (∀ zs, ListInv m l zs → ListInv m lb zs) ∧
      (∀ fuel, LinkedList.contents fuel m la = LinkedList.contents fuel m lo) ∧
      (∀ fuel, LinkedList.contents fuel m lb = LinkedList.contents fuel m l) ∧
      la.size = lo.size ∧ lb.size = l.size ∧ la.proxy = lo.proxy ∧ lb.proxy = l.proxy ∧
      r'.container_proxy c = some q ∧ r'.container_proxy other = some p ∧
      r'.first = r.first ∧ r'.next_iterator = r.next_iterator ∧ r'.proxy = r.proxy ∧
      r'.ptr = r.ptr ∧
      (∀ it, IteratorBase.getContainer r it = some c →
        IteratorBase.getContainer r' it = some other) ∧
      (∀ it, IteratorBase.getContainer r it = some other →
        IteratorBase.getContainer r' it = some c) ∧
      LinkedList.swap r' c other la lb = some (r, l, lo) := by
  obtain ⟨r', e, hi, hc', ho', hpp, hpq, hp, hn, hf, hptr, e2⟩ := swapProxy_twice h hc ho hne
  refine ⟨r', lo, l, ?_, hi, fun _ hz => hz, fun _ hz => hz, fun _ => rfl, fun _ => rfl,
    rfl, rfl, rfl, rfl, hc', ho', hf, hn, hp, hptr, ?_, ?_, ?_⟩
  · simp only [LinkedList.swap, if_neg hne, LinkedList.swapValue, e]
  · intro it hg
    have h1 := (h.getContainer_eq hc it).1 hg
    simp only [IteratorBase.getContainer, hp, h1, hpp]
  · intro it hg
    have h1 := (h.getContainer_eq ho it).1 hg
    simp only [IteratorBase.getContainer, hp, h1, hpq]
  · simp only [LinkedList.swap, if_neg hne, LinkedList.swapValue, e2]

theorem swap_exchanges_lists_witness :
    sampleRegistry.container_proxy 0 = some 0 ∧ sampleRegistry.container_proxy 1 = some 1 ∧
    (0 : Nat) ≠ 1 ∧
    ∃ r' la lb, LinkedList.swap sampleRegistry 0 1 sampleTwoLists.2.1 sampleTwoLists.2.2
        = some (r', la, lb) ∧ RegInv r' ∧
      (∀ zs, ListInv sampleTwoLists.1 sampleTwoLists.2.2 zs → ListInv sampleTwoLists.1 la zs) ∧
      (∀ zs, ListInv sampleTwoLists.1 sampleTwoLists.2.1 zs → ListInv sampleTwoLists.1 lb zs) ∧
      (∀ fuel, LinkedList.contents fuel sampleTwoLists.1 la
        = LinkedList.contents fuel sampleTwoLists.1 sampleTwoLists.2.2) ∧
      (∀ fuel, LinkedList.contents fuel sampleTwoLists.1 lb
        = LinkedList.contents fuel sampleTwoLists.1 sampleTwoLists.2.1) ∧
      la.size = sampleTwoLists.2.2.size ∧ lb.size = sampleTwoLists.2.1.size ∧
      la.proxy = sampleTwoLists.2.2.proxy ∧ lb.proxy = sampleTwoLists.2.1.proxy ∧
      r'.container_proxy 0 = some 1 ∧ r'.container_proxy 1 = some 0 ∧
      r'.first = sampleRegistry.first ∧ r'.next_iterator = sampleRegistry.next_iterator ∧
      r'.proxy = sampleRegistry.proxy ∧ r'.ptr = sampleRegistry.ptr ∧
      (∀ it, IteratorBase.getContainer sampleRegistry it = some 0 →
        IteratorBase.getContainer r' it = some 1) ∧
      (∀ it, IteratorBase.getContainer sampleRegistry it = some 1 →
        IteratorBase.getContainer r' it = some 0) ∧
      LinkedList.swap r' 0 1 la lb = some (sampleRegistry, sampleTwoLists.2.1,
        sampleTwoLists.2.2) :=
  ⟨by decide!, by decide!, by decide,
    swap_exchanges_lists sampleRegistry_inv.1 (by decide!) (by decide!) (by decide)
      sampleTwoLists.1 sampleTwoLists.2.1 sampleTwoLists.2.2⟩

/-- A registry whose records lost their proxy or kept it has chains no
longer than before. -/
theorem ChainsBelow.of_proxy_sub {r r' : RegMem} (h : RegInv r) (h' : RegInv r')
    (hsub : ∀ a s, r'.proxy a = some s → r.proxy a = some s) {fuel : Nat}
    (hf : ChainsBelow r fuel) : ChainsBelow r' fuel := by
  intro s ys hy
  obtain ⟨xs, hx, -, hm⟩ := h.chains s
  obtain ⟨hnd, hm'⟩ := h'.chain_facts hy
  have hsubl : ys ⊆ xs := fun a ha => (hm a).2 (hsub a s ((hm' a).1 ha))
  have := (List.subperm_of_subset hnd hsubl).length_le
  have := hf s xs hx
  omega

/-- The loop shared by `orphanPtr` and `orphanNonHead` on the chain of the
container `c`: the call returns, exactly the records of `c` whose node meets
the condition lose their proxy, and nothing else of the records changes. -/
theorem orphanLoop_step (cond : Nat → Bool) {r : RegMem} (h : RegInv r) (p : Nat)
    {fuel : Nat} (hf : ChainsBelow r fuel) :
    ∃ r', orphanLoop cond fuel r (ChainSlot.first p) = some r' ∧ RegInv r' ∧
      ChainsBelow r' fuel ∧ r'.container_proxy = r.container_proxy ∧ r'.ptr = r.ptr ∧
      r'.parent = r.parent ∧
      (∀ a, r'.proxy a = if r.proxy a = some p ∧ cond (r.ptr a) = true then none
        else r.proxy a) := by
  obtain ⟨xs, hx, -, hm⟩ := h.chains p
  obtain ⟨r', e, hi, -, hp, hptr, hpar, hcp, -⟩ := orphanLoop_inv cond h hx (hf p xs hx)
  have hp' : ∀ a, r'.proxy a = if r.proxy a = some p ∧ cond (r.ptr a) = true then none
      else r.proxy a := by
    intro a
    rw [hp a]
    by_cases ha : a ∈ xs
    · simp [ha, (hm a).1 ha]
    · have : ¬ r.proxy a = some p := fun e => ha ((hm a).2 e)
      simp [ha, this]
  refine ⟨r', e, hi, ?_, hcp, hptr, hpar, hp'⟩
  apply ChainsBelow.of_proxy_sub h hi _ hf
  intro a s has
  rw [hp' a] at has
  split at has
  · cases has
  · exact has

theorem orphanPtr_step {r : RegMem} (h : RegInv r) {c p : Nat}
    (hc : r.container_proxy c = some p) {fuel : Nat} (hf : ChainsBelow r fuel) (x : Nat) :
    ∃ r', ContainerBase.orphanPtr fuel r c x = some r' ∧ RegInv r' ∧
      ChainsBelow r' fuel ∧ r'.container_proxy = r.container_proxy ∧ r'.ptr = r.ptr ∧
      r'.parent = r.parent ∧
      (∀ a, r'.proxy a = if r.proxy a = some p ∧ r.ptr a = x then none else r.proxy a) := by
  obtain ⟨r', e, hi, hb, hcp, hptr, hpar, hp⟩ :=
    orphanLoop_step (fun ptr => decide (ptr = x)) h p hf
  refine ⟨r', ?_, hi, hb, hcp, hptr, hpar, ?_⟩
  · simp only [ContainerBase.orphanPtr, hc]
    exact e
  · intro a
    rw [hp a]
    simp

theorem orphanNonHead_step {r : RegMem} (h : RegInv r) {c p : Nat}
    (hc : r.container_proxy c = some p) {fuel : Nat} (hf : ChainsBelow r fuel) (head : Nat) :
    ∃ r', ContainerBase.orphanNonHead fuel r c head = some r' ∧ RegInv r' ∧
      ChainsBelow r' fuel ∧ r'.container_proxy = r.container_proxy ∧ r'.ptr = r.ptr ∧
      r'.parent = r.parent ∧
      (∀ a, r'.proxy a = if r.proxy a = some p ∧ r.ptr a ≠ head then none
        else r.proxy a) := by
  obtain ⟨r', e, hi, hb, hcp, hptr, hpar, hp⟩ :=
    orphanLoop_step (fun ptr => decide (ptr ≠ head)) h p hf
  refine ⟨r', ?_, hi, hb, hcp, hptr, hpar, ?_⟩
  · simp only [ContainerBase.orphanNonHead, hc]
    exact e
  · intro a
    rw [hp a]
    simp

/-- An orphaned iterator compares unequal to every iterator, on either side. -/
theorem beq_of_orphaned {r : RegMem} {it : Nat} (h : r.proxy it = none) (j : Nat) :
    ConstIterator.beq r it j = false ∧ ConstIterator.beq r j it = false := by
  simp [ConstIterator.beq, IteratorBase.getContainer, h]

theorem eraseNodeReg_eq {r : RegMem} (h : RegInv r) {c p : Nat}
    (hc : r.container_proxy c = some p) {rfuel : Nat} (hf : ChainsBelow r rfuel)
    (m : ListMem T) (l : ListValue) (x : Nat) :
    ∃ r', LinkedList.eraseNodeReg rfuel r c m l x = some (r', LinkedList.eraseNode m l x) ∧
      RegInv r' ∧ ChainsBelow r' rfuel ∧ r'.container_proxy = r.container_proxy ∧
      r'.ptr = r.ptr ∧ r'.parent = r.parent ∧
      (∀ a, r'.proxy a = if r.proxy a = some p ∧ r.ptr a = x then none else r.proxy a) := by
  obtain ⟨r', e, hi, hb, hcp, hptr, hpar, hp⟩ := orphanPtr_step h hc hf x
  refine ⟨r', ?_, hi, hb, hcp, hptr, hpar, hp⟩
  simp only [LinkedList.eraseNodeReg, e, LinkedList.eraseNode]

theorem clearReg_eq {r : RegMem} (h : RegInv r) {c p : Nat}
    (hc : r.container_proxy c = some p) {rfuel : Nat} (hf : ChainsBelow r rfuel)
    {m : ListMem T} {l : ListValue} {xs : List Nat} (hl : ListInv m l xs) {fuel : Nat}
    (hfl : xs.length < fuel) :
    ∃ r' m' l', LinkedList.clearReg rfuel fuel r c m l = some (r', m', l') ∧
      LinkedList.clear fuel m l = some (m', l') ∧
      RegInv r' ∧ ChainsBelow r' rfuel ∧ r'.container_proxy = r.container_proxy ∧
      r'.ptr = r.ptr ∧ r'.parent = r.parent ∧
      (∀ a, r'.proxy a = if r.proxy a = some p ∧ r.ptr a ≠ l.head then none
        else r.proxy a) := by
  obtain ⟨r', e, hi, hb, hcp, hptr, hpar, hp⟩ := orphanNonHead_step h hc hf l.head
  obtain ⟨m', l', e2, -⟩ := clear_inv hl hfl
  refine ⟨r', m', l', ?_, e2, hi, hb, hcp, hptr, hpar, hp⟩
  simp only [LinkedList.clearReg, e, e2]

theorem eraseLoopReg_spec {m0 : ListMem T} {l0 : ListValue} (c rfuel : Nat) {p : Nat} :
    ∀ (mid pre post : List Nat) (fuel : Nat) (r : RegMem) (m : ListMem T) (l : ListValue),
      ListInv m0 l0 (pre ++ mid ++ post) → (∀ a ∈ mid, m.next a = m0.next a) →
      mid.length < fuel → RegInv r → r.container_proxy c = some p → ChainsBelow r rfuel →
      ∃ r' m' l', eraseLoopReg rfuel c (post.head?.getD l0.head) fuel r m l
          (mid.head?.getD (post.head?.getD l0.head)) = some (r', m', l') ∧
        eraseLoop (post.head?.getD l0.head) fuel m l
          (mid.head?.getD (post.head?.getD l0.head)) = some (m', l') ∧
        RegInv r' ∧ ChainsBelow r' rfuel ∧ r'.container_proxy = r.container_proxy ∧
        r'.ptr = r.ptr ∧ r'.parent = r.parent ∧
        (∀ a, r'.proxy a = if r.proxy a = some p ∧ r.ptr a ∈ mid then none else r.proxy a)
  | [], pre, post, fuel + 1, r, m, l, _, _, _, hi, _, hb => by
    refine ⟨r, m, l, by simp [eraseLoopReg], by simp [eraseLoop], hi, hb, rfl, rfl, rfl, ?_⟩
    intro a
    simp
  | x :: mid, pre, post, fuel + 1, r, m, l, h, hn, hf, hi, hc, hb => by
    have h1 : ListInv m0 l0 (pre ++ x :: (mid ++ post)) := by simpa using h
    have hnd := h1.nodup
    have hwm := head?_getD_mem l0.head post
    have hne : x ≠ post.head?.getD l0.head := by
      intro e
      rw [← e] at hwm
      simp only [List.nodup_cons, List.nodup_append, List.mem_append, List.mem_cons] at hnd hwm
      rcases hwm with hw | hw
      · exact hnd.1 (by simp [hw])
      · exact hnd.2.2.1.1 (Or.inr hw)
    have h' : ListInv m0 l0 ((pre ++ [x]) ++ mid ++ post) := by simpa using h
    obtain ⟨r1, e1, hi1, hb1, hcp1, hptr1, hpar1, hp1⟩ := orphanPtr_step hi hc hb x
    obtain ⟨r', m', l', e2, e3, hi2, hb2, hcp2, hptr2, hpar2, hp2⟩ :=
      eraseLoopReg_spec c rfuel mid (pre ++ [x]) post fuel r1 (m.freeNode x)
        { (l.orphanPtr x) with size := (l.orphanPtr x).size - 1 } h'
        (fun y hy => hn y (List.mem_cons_of_mem _ hy)) (by simp at hf; omega) hi1
        (by rw [hcp1]; exact hc) hb1
    have hnext : m.next x = (mid ++ post).head?.getD l0.head := by
      rw [hn x (List.mem_cons_self _ _), h1.next_node]
    rw [head?_append_getD] at hnext
    refine ⟨r', m', l', ?_, ?_, hi2, hb2, by rw [hcp2, hcp1], by rw [hptr2, hptr1],
      by rw [hpar2, hpar1], ?_⟩
    · simp only [List.head?_cons, Option.getD_some, eraseLoopReg, ne_eq, hne,
        not_false_eq_true, if_true, e1, hnext]
      exact e2
    · simp only [List.head?_cons, Option.getD_some, eraseLoop, ne_eq, hne,
        not_false_eq_true, if_true, hnext]
      exact e3
    · intro a
      rw [hp2 a, hp1 a, hptr1]
      by_cases c1 : r.proxy a = some p <;> by_cases c2 : r.ptr a = x <;>
        by_cases c3 : r.ptr a ∈ mid <;> simp [c1, c2, c3]

/-- `eraseRange` with the registry, for the stretch `mid` of a well-formed
list: the call returns what `eraseRange` returns, the records of the list
that denote a node of the stretch lose their proxy, and the records of other
containers and those that denote the head or a remaining node keep theirs. -/
theorem eraseRangeReg_eq {r : RegMem} (h : RegInv r) {c p : Nat}
    (hc : r.container_proxy c = some p) {rfuel : Nat} (hb : ChainsBelow r rfuel)
    {m : ListMem T} {l : ListValue} {pre mid post : List Nat}
    (hl : ListInv m l (pre ++ mid ++ post)) {fuel : Nat}
    (hf : (pre ++ mid ++ post).length < fuel) :
    ∃ r' m' l', LinkedList.eraseRangeReg rfuel fuel r c m l ((mid ++ post).head?.getD l.head)
        (post.head?.getD l.head) = some (r', m', l', post.head?.getD l.head) ∧
      LinkedList.eraseRange fuel m l ((mid ++ post).head?.getD l.head)
        (post.head?.getD l.head) = some (m', l', post.head?.getD l.head) ∧
      RegInv r' ∧ ChainsBelow r' rfuel ∧ r'.container_proxy = r.container_proxy ∧
      r'.ptr = r.ptr ∧ r'.parent = r.parent ∧
      (∀ a, r.proxy a = some p → r.ptr a ∈ mid → r'.proxy a = none) ∧
      (∀ a, r.proxy a ≠ some p ∨ r.ptr a ∈ l.head :: (pre ++ post) →
        r'.proxy a = r.proxy a) := by
  have hsz := hl.size_eq
  simp only [List.length_append] at hsz hf
  cases mid with
  | nil =>
    refine ⟨r, m, l, ?_, ?_, h, hb, rfl, rfl, rfl, fun a _ ha => by simp at ha,
      fun _ _ => rfl⟩
    · simp [LinkedList.eraseRangeReg]
    · simp [LinkedList.eraseRange]
  | cons f mid =>
    have h1 : ListInv m l (pre ++ f :: (mid ++ post)) := by simpa using hl
    have hnd := h1.nodup
    have hwm := head?_getD_mem l.head post
    have hne : f ≠ post.head?.getD l.head := by
      intro e
      rw [← e] at hwm
      simp only [List.nodup_cons, List.nodup_append, List.mem_append, List.mem_cons] at hnd hwm
      rcases hwm with hw | hw
      · exact hnd.1 (by simp [hw])
      · exact hnd.2.2.1.1 (Or.inr hw)
    have hfirst : ((f :: mid) ++ post).head?.getD l.head = f := rfl
    have hdisj : ∀ y, y ∈ f :: mid → y ∉ l.head :: (pre ++ post) := by
      intro y hy hy2
      simp only [List.nodup_cons, List.nodup_append, List.mem_append, List.mem_cons] at hnd hy hy2
      rcases hy2 with e | e | e
      · subst e
        rcases hy with e2 | e2
        · exact hnd.1 (by simp [e2])
        · exact hnd.1 (Or.inr (Or.inr (Or.inl e2)))
      · rcases hy with e2 | e2
        · exact hnd.2.2.2 e (by simp [e2])
        · exact hnd.2.2.2 e (by simp [e2])
      · rcases hy with e2 | e2
        · subst e2
          exact hnd.2.2.1.1 (Or.inr e)
        · exact hnd.2.2.1.2.2.2 e2 e
    rw [hfirst]
    by_cases hcnd : f = m.next l.head ∧ post.head?.getD l.head = l.head
    · have hpre : pre = [] := by
        cases pre with
        | nil => rfl
        | cons p0 pre =>
          exfalso
          have := h1.next_head
          simp only [List.cons_append, List.head?_cons, Option.getD_some] at this
          rw [← hcnd.1] at this
          have hnd2 : (p0 :: (pre ++ f :: (mid ++ post))).Nodup := (List.nodup_cons.1 hnd).2
          apply (List.nodup_cons.1 hnd2).1
          rw [← this]
          simp
      have hpost : post = [] := by
        cases post with
        | nil => rfl
        | cons w post =>
          exfalso
          have := hcnd.2
          simp only [List.head?_cons, Option.getD_some] at this
          exact h1.node_ne_head (by simp) this
      subst hpre hpost
      have h2 : ListInv m l (f :: mid) := by simpa using hl
      have hf2 : (f :: mid).length < fuel := by simp at hf ⊢; omega
      obtain ⟨r', m', l', e1, e2, hi, hb', hcp, hptr, hpar, hp⟩ :=
        clearReg_eq h hc hb h2 hf2
      refine ⟨r', m', l', ?_, ?_, hi, hb', hcp, hptr, hpar, ?_, ?_⟩
      · unfold LinkedList.eraseRangeReg
        rw [if_neg hne, if_pos hcnd, e1]
      · unfold LinkedList.eraseRange
        rw [if_neg hne, if_pos hcnd, e2]
      · intro a ha hm
        rw [hp a, if_pos ⟨ha, h2.node_ne_head hm⟩]
      · intro a ha
        rw [hp a]
        rcases ha with ha | ha
        · simp [ha]
        · have : r.ptr a = l.head := by simpa using ha
          simp [this]
    · have hp := h1.prev_node
      have hpm := getLast?_getD_mem l.head pre
      obtain ⟨r', m', l', e1, e2, hi, hb', hcp, hptr, hpar, hpx⟩ :=
        eraseLoopReg_spec c rfuel (f :: mid) pre post fuel r
          (ListValue.extractNodes m f (post.head?.getD l.head)) l hl
          (by
            intro a ha
            have hap : a ≠ pre.getLast?.getD l.head := by
              intro e
              rw [← e] at hpm
              exact hdisj a ha (by simp at hpm ⊢; tauto)
            simp [ListValue.extractNodes, upd, hp, hap])
          (by simp at hf ⊢; omega) h hc hb
      refine ⟨r', m', l', ?_, ?_, hi, hb', hcp, hptr, hpar, ?_, ?_⟩
      · unfold LinkedList.eraseRangeReg
        rw [if_neg hne, if_neg hcnd]
        have e1' : eraseLoopReg rfuel c (post.head?.getD l.head) fuel r
            (ListValue.extractNodes m f (post.head?.getD l.head)) l f = _ := e1
        simp only [e1']
      · unfold LinkedList.eraseRange
        rw [if_neg hne, if_neg hcnd]
        have e2' : eraseLoop (post.head?.getD l.head) fuel
            (ListValue.extractNodes m f (post.head?.getD l.head)) l f = _ := e2
        simp only [e2']
      · intro a ha hm
        rw [hpx a, if_pos ⟨ha, hm⟩]
      · intro a ha
        rw [hpx a]
        rcases ha with ha | ha
        · simp [ha]
        · have : r.ptr a ∉ f :: mid := fun hm => hdisj _ hm ha
          simp [this]

/-- `eraseUnwrapped(iter)` on a well-formed tree for a real node: the call
returns the node behind, the node is taken out of the tree and given back,
and the records of the tree that denote it lose their proxy. -/
theorem eraseUnwrappedReg_spec {comp : K → K → Bool} {m : TreeMem K V} {t : TreeValue}
    {pre post : List Nat} {e : Nat} (h : TreeInv comp m t (pre ++ e :: post)) {fuel : Nat}
    (hf : (pre ++ e :: post).length < fuel) {r : RegMem} (hr : RegInv r) {c p : Nat}
    (hc : r.container_proxy c = some p) {rfuel : Nat} (hb : ChainsBelow r rfuel) :
    ∃ r' m' t', eraseUnwrappedReg rfuel fuel r c m t e
        = some (r', m', t', post.head?.getD t.head) ∧
      TreeInv comp m' t' (pre ++ post) ∧ t'.head = t.head ∧ m'.value = m.value ∧
      m'.next = m.next ∧
      RegInv r' ∧ ChainsBelow r' rfuel ∧ r'.container_proxy = r.container_proxy ∧
      r'.ptr = r.ptr ∧ r'.parent = r.parent ∧
      (∀ a, r'.proxy a = if r.proxy a = some p ∧ r.ptr a = e then none else r.proxy a) := by
  have he : e ∈ pre ++ e :: post := by simp
  have hinc := increment_spec h rfl hf
  obtain ⟨r', e1, hi, hb', hcp, hptr, hpar, hp⟩ := orphanPtr_step hr hc hb e
  have h' : TreeInv comp m (orphanPtr t e) (pre ++ e :: post) := h.of_head_size rfl rfl
  obtain ⟨m', A, B, hm', hAB, hinv, hv, hn, -, -⟩ := extractNode_inv h' he hf
  obtain ⟨hA, hB⟩ := nodup_split_unique hAB h.nodup
  refine ⟨r', m'.freeNode e, { (orphanPtr t e) with size := (orphanPtr t e).size - 1 }, ?_,
    ?_, rfl, hv, hn, hi, hb', hcp, hptr, hpar, hp⟩
  · simp only [eraseUnwrappedReg, hinc, e1, hm']
  · rw [hA, hB]
    exact hinv.frame (fun a _ => ⟨rfl, rfl, rfl, rfl, rfl, rfl⟩) (le_refl _)

/-- `erase(key)` with the registry on a well-formed tree, for a key
equivalent to the key of the real node `e`: the call returns the count 1,
the node is taken out of the tree and given back, and the records of the
tree that denote it lose their proxy. -/
theorem eraseReg_spec {comp : K → K → Bool} (hswo : StrictWeakOrder comp)
    {m : TreeMem K V} {t : TreeValue} {L : List Nat} (h : TreeInv comp m t L) {e : Nat}
    (he : e ∈ L) {key : K} (hk : KeyEquiv comp (m.key e) key) {fuel : Nat}
    (hf : L.length < fuel) {r : RegMem} (hr : RegInv r) {c p : Nat}
    (hc : r.container_proxy c = some p) {rfuel : Nat} (hb : ChainsBelow r rfuel) :
    ∃ r' m' t' A B, eraseReg comp rfuel fuel r c m t key = some (r', m', t', 1) ∧
      L = A ++ e :: B ∧ TreeInv comp m' t' (A ++ B) ∧ t'.head = t.head ∧
      m'.value = m.value ∧
      RegInv r' ∧ ChainsBelow r' rfuel ∧ r'.container_proxy = r.container_proxy ∧
      r'.ptr = r.ptr ∧ r'.parent = r.parent ∧
      (∀ a, r'.proxy a = if r.proxy a = some p ∧ r.ptr a = e then none else r.proxy a) := by
  obtain ⟨res, hres, hcase⟩ := findPlaceForNode_spec hswo h key hf
  rcases hcase with ⟨a1, a2, a3⟩ | ⟨a1, l1, l2, a2, a3, a4, -⟩
  · have hpe : res.location.parent = e := h.equiv_unique hswo a2 he a3 hk
    obtain ⟨r', e1, hi, hb', hcp, hptr, hpar, hp⟩ := orphanPtr_step hr hc hb e
    have h' : TreeInv comp m (orphanPtr t e) L := h.of_head_size rfl rfl
    obtain ⟨m', A, B, hm', hAB, hinv, hv, -, -, -⟩ := extractNode_inv h' he hf
    refine ⟨r', m'.freeNode e, { (orphanPtr t e) with size := (orphanPtr t e).size - 1 }, A, B,
      ?_, hAB, ?_, rfl, hv, hi, hb', hcp, hptr, hpar, hp⟩
    · simp only [eraseReg, hres, a1, if_true, hpe, e1, hm']
    · exact hinv.frame (fun a _ => ⟨rfl, rfl, rfl, rfl, rfl, rfl⟩) (le_refl _)
  · exfalso
    rw [a2] at he
    rcases List.mem_append.1 he with ha | ha
    · have := a3 e ha
      rw [hk.1] at this
      exact absurd this (by simp)
    · have := a4 e ha
      rw [hk.2] at this
      exact absurd this (by simp)

theorem Shape.mem_postorder : ∀ (s : Shape) (a : Nat), a ∈ s.postorder ↔ a ∈ s.addrs
  | Shape.nil, a => by simp [Shape.postorder, Shape.addrs]
  | Shape.node l p r, a => by
    simp only [Shape.postorder, Shape.addrs, List.mem_append, List.mem_cons,
      List.mem_singleton, List.not_mem_nil, or_false, Shape.mem_postorder l a,
      Shape.mem_postorder r a]
    tauto

theorem Shape.length_postorder : ∀ (s : Shape), s.postorder.length = s.addrs.length
  | Shape.nil => rfl
  | Shape.node l p r => by
    simp only [Shape.postorder, Shape.addrs, List.length_append, List.length_cons,
      List.length_singleton, List.length_nil, Shape.length_postorder l,
      Shape.length_postorder r]
    omega

theorem Shape.postorder_ne_nil {s : Shape} (h : s ≠ Shape.nil) : s.postorder ≠ [] := by
  cases s with
  | nil => exact absurd rfl h
  | node l p r => simp [Shape.postorder]

theorem Rep.is_nil_iff {m : TreeMem K V} {head : Nat} (hnil : m.is_nil head = true)
    {s : Shape} {par x : Nat} (h : Rep m head s par x) :
    m.is_nil x = true ↔ s = Shape.nil := by
  constructor
  · intro hx
    exact (Rep.nil_of_is_nil s par x hx h).1
  · intro hs
    subst hs
    have : x = head := h
    rw [this]
    exact hnil

/-- The descent from the root of a subtree ends at the first node of its
post-order. -/
theorem descendToLeaf_spec {m : TreeMem K V} {head : Nat} (hnil : m.is_nil head = true) :
    ∀ (s : Shape) (par x fuel : Nat), Rep m head s par x → s ≠ Shape.nil →
      s.addrs.length ≤ fuel →
      ∃ q rest, descendToLeaf m fuel x = some q ∧ s.postorder = q :: rest
  | Shape.nil, _, _, _, _, hne, _ => absurd rfl hne
  | Shape.node l p r, par, x, 0, _, _, hf => by
    simp [Shape.addrs] at hf
  | Shape.node l p r, par, x, fuel + 1, h, _, hf => by
    obtain ⟨hx, hn, -, hl, hr⟩ := h
    subst hx
    simp only [Shape.addrs, List.length_append, List.length_cons] at hf
    by_cases cl : l = Shape.nil
    · have hln : m.is_nil (m.left x) = true := (Rep.is_nil_iff hnil hl).2 cl
      by_cases cr : r = Shape.nil
      · have hrn : m.is_nil (m.right x) = true := (Rep.is_nil_iff hnil hr).2 cr
        refine ⟨x, [], ?_, ?_⟩
        · simp [descendToLeaf, hln, hrn]
        · subst cl cr
          simp [Shape.postorder]
      · have hrn : m.is_nil (m.right x) = false := by
          cases hv : m.is_nil (m.right x) with
          | false => rfl
          | true => exact absurd ((Rep.is_nil_iff hnil hr).1 hv) cr
        obtain ⟨q, rest, e, hp⟩ :=
          descendToLeaf_spec hnil r x (m.right x) fuel hr cr (by omega)
        refine ⟨q, rest ++ [x], ?_, ?_⟩
        · simp [descendToLeaf, hln, hrn, e]
        · subst cl
          simp [Shape.postorder, hp]
    · have hln : m.is_nil (m.left x) = false := by
        cases hv : m.is_nil (m.left x) with
        | false => rfl
        | true => exact absurd ((Rep.is_nil_iff hnil hl).1 hv) cl
      obtain ⟨q, rest, e, hp⟩ :=
        descendToLeaf_spec hnil l x (m.left x) fuel hl cl (by omega)
      refine ⟨q, rest ++ r.postorder ++ [x], ?_, ?_⟩
      · simp [descendToLeaf, hln, e]
      · simp [Shape.postorder, hp]

theorem Shape.postorder_getLast {m : TreeMem K V} {head : Nat} {l r : Shape} {p par x : Nat}
    (h : Rep m head (Shape.node l p r) par x) :
    (Shape.node l p r).postorder.getLast? = some x := by
  rw [h.1]
  simp [Shape.postorder]

/-- In a subtree each node of the post-order but the last is followed, in the
second loop of `clear`, by the next node of the post-order. -/
theorem clearNext_chain {m : TreeMem K V} {head : Nat} (hnil : m.is_nil head = true)
    (fuel : Nat) :
    ∀ (s : Shape) (par x : Nat), Rep m head s par x → s.addrs.Nodup →
      s.addrs.length ≤ fuel →
      List.Chain' (fun a b => clearNext fuel m a = some b) s.postorder
  | Shape.nil, _, _, _, _, _ => by simp [Shape.postorder]
  | Shape.node l p r, par, x, h, hnd, hf => by
    have hfull := h
    obtain ⟨hx, hn, -, hl, hr⟩ := h
    subst hx
    simp only [Shape.addrs, List.length_append, List.length_cons] at hf
    simp only [Shape.addrs] at hnd
    have hnd' := List.nodup_append.1 hnd
    have hndl : l.addrs.Nodup := hnd'.1
    have hndr : r.addrs.Nodup := (List.nodup_cons.1 hnd'.2.1).2
    have hxl : x ∉ l.addrs := fun hc => hnd'.2.2 hc (by simp)
    have hlr : ∀ a, a ∈ l.addrs → a ∉ r.addrs := fun a ha hc => hnd'.2.2 ha (by simp [hc])
    have ihl := clearNext_chain hnil fuel l x (m.left x) hl hndl (by omega)
    have ihr := clearNext_chain hnil fuel r x (m.right x) hr hndr (by omega)
    have hright : ∀ y, y ∈ r.postorder.getLast? → clearNext fuel m y = some x := by
      intro y hy
      cases r with
      | nil => simp [Shape.postorder] at hy
      | node rl rp rr =>
        rw [Shape.postorder_getLast hr] at hy
        simp only [Option.mem_def, Option.some.injEq] at hy
        subst hy
        have hpar : m.parent (m.right x) = x := by
          have := hr.2.2.1
          rw [← hr.1] at this
          exact this
        have hrmem : m.right x ∈ (Shape.node rl rp rr).addrs := by
          rw [hr.1]
          simp [Shape.addrs]
        have hne : m.left x ≠ m.right x := by
          intro e
          rcases Rep.root_in l _ _ hl with e1 | e1
          · have := Rep.real_node _ _ _ hr _ hrmem
            rw [← e, e1, hnil] at this
            exact absurd this (by simp)
          · exact hlr _ e1 (e ▸ hrmem)
        simp [clearNext, whichChild, hpar, hne]
    have hmid : List.Chain' (fun a b => clearNext fuel m a = some b) (r.postorder ++ [x]) := by
      rw [List.chain'_append]
      refine ⟨ihr, List.chain'_singleton _, ?_⟩
      intro y hy z hz
      simp only [List.head?_cons, Option.mem_def, Option.some.injEq] at hz
      subst hz
      exact hright y hy
    show List.Chain' _ (l.postorder ++ r.postorder ++ [x])
    rw [List.append_assoc, List.chain'_append]
    refine ⟨ihl, hmid, ?_⟩
    intro y hy z hz
    cases l with
    | nil => simp [Shape.postorder] at hy
    | node ll lp lrr =>
      rw [Shape.postorder_getLast hl] at hy
      simp only [Option.mem_def, Option.some.injEq] at hy
      subst hy
      have hpar : m.parent (m.left x) = x := by
        have := hl.2.2.1
        rw [← hl.1] at this
        exact this
      by_cases cr : r = Shape.nil
      · subst cr
        have hrn : m.is_nil (m.right x) = true := (Rep.is_nil_iff hnil hr).2 rfl
        simp only [Shape.postorder, List.nil_append, List.head?_cons, Option.mem_def,
          Option.some.injEq] at hz
        subst hz
        simp [clearNext, whichChild, hpar, hrn]
      · have hrn : m.is_nil (m.right x) = false := by
          cases hv : m.is_nil (m.right x) with
          | false => rfl
          | true => exact absurd ((Rep.is_nil_iff hnil hr).1 hv) cr
        obtain ⟨q, rest, e, hp⟩ :=
          descendToLeaf_spec hnil r x (m.right x) fuel hr cr (by omega)
        rw [hp] at hz
        simp only [List.cons_append, List.head?_cons, Option.mem_def, Option.some.injEq] at hz
        subst hz
        simp [clearNext, whichChild, hpar, hrn, e]

theorem descendToLeaf_congr {m m' : TreeMem K V} (h1 : m'.left = m.left)
    (h2 : m'.right = m.right) (h3 : m'.is_nil = m.is_nil) :
    ∀ (fuel ptr : Nat), descendToLeaf m' fuel ptr = descendToLeaf m fuel ptr
  | 0, _ => rfl
  | fuel + 1, ptr => by
    simp only [descendToLeaf, h1, h2, h3, descendToLeaf_congr h1 h2 h3 fuel]

theorem clearNext_congr {m m' : TreeMem K V} (h1 : m'.left = m.left)
    (h2 : m'.right = m.right) (h3 : m'.is_nil = m.is_nil) (h4 : m'.parent = m.parent)
    (fuel ptr : Nat) : clearNext fuel m' ptr = clearNext fuel m ptr := by
  simp only [clearNext, whichChild, h1, h2, h3, h4, descendToLeaf_congr h1 h2 h3]

/-- The second loop of `clear` from the node `ptr`, when the nodes still to
visit are `ptr :: rest` and the last of them is followed by the head: the
loop returns, the links are untouched, and the records of the tree that
denote one of these nodes lose their proxy. -/
theorem clearLoopReg_spec {m0 : TreeMem K V} {head p fuel : Nat} (c rfuel : Nat)
    (hnil0 : m0.is_nil head = true) :
    ∀ (rest : List Nat) (ptr steps : Nat) (r : RegMem) (m : TreeMem K V) (t : TreeValue),
      List.Chain' (fun a b => clearNext fuel m0 a = some b) (ptr :: rest) →
      (∀ y, y ∈ (ptr :: rest).getLast? → clearNext fuel m0 y = some head) →
      (∀ a ∈ ptr :: rest, m0.is_nil a = false) →
      m.left = m0.left → m.right = m0.right → m.is_nil = m0.is_nil → m.parent = m0.parent →
      rest.length + 1 < steps →
      RegInv r → r.container_proxy c = some p → ChainsBelow r rfuel →
      ∃ r' m' t', clearLoopReg rfuel c fuel steps r m t ptr = some (r', m', t') ∧
        RegInv r' ∧ ChainsBelow r' rfuel ∧ r'.container_proxy = r.container_proxy ∧
        r'.ptr = r.ptr ∧ r'.parent = r.parent ∧
        (∀ a, r'.proxy a = if r.proxy a = some p ∧ r.ptr a ∈ ptr :: rest then none
          else r.proxy a) ∧
        m'.left = m.left ∧ m'.right = m.right ∧ m'.parent = m.parent ∧
        m'.is_nil = m.is_nil ∧ m'.value = m.value ∧ m'.height = m.height ∧
        m'.next = m.next ∧ t'.head = t.head ∧ t'.size = t.size
  | _, _, 0, _, _, _, _, _, _, _, _, _, _, hs, _, _, _ => by omega
  | [], ptr, steps + 1, r, m, t, _, hlast, hreal, h1, h2, h3, h4, hs, hi, hc, hb => by
    have hn : m.is_nil ptr = false := by rw [h3]; exact hreal ptr (by simp)
    have hnx : clearNext fuel m ptr = some head := by
      rw [clearNext_congr h1 h2 h3 h4]
      exact hlast ptr (by simp)
    obtain ⟨r', e1, hi', hb', hcp, hptr, hpar, hp⟩ := orphanPtr_step hi hc hb ptr
    obtain ⟨k, rfl⟩ : ∃ k, steps = k + 1 := ⟨steps - 1, by simp at hs; omega⟩
    have hnh : (m.freeNode ptr).is_nil head = true := by
      show m.is_nil head = true
      rw [h3]; exact hnil0
    refine ⟨r', m.freeNode ptr, orphanPtr t ptr, ?_, hi', hb', hcp, hptr, hpar, ?_,
      rfl, rfl, rfl, rfl, rfl, rfl, rfl, rfl, rfl⟩
    · simp only [clearLoopReg, hn, hnx, e1, hnh]
      simp
    · intro a
      rw [hp a]
      simp
  | b :: rest, ptr, steps + 1, r, m, t, hch, hlast, hreal, h1, h2, h3, h4, hs, hi, hc, hb => by
    have hn : m.is_nil ptr = false := by rw [h3]; exact hreal ptr (by simp)
    rw [List.chain'_cons] at hch
    have hnx : clearNext fuel m ptr = some b := by
      rw [clearNext_congr h1 h2 h3 h4]
      exact hch.1
    obtain ⟨r1, e1, hi1, hb1, hcp1, hptr1, hpar1, hp1⟩ := orphanPtr_step hi hc hb ptr
    obtain ⟨r', m', t', e2, hi2, hb2, hcp2, hptr2, hpar2, hp2, g1, g2, g3, g4, g5, g6, g7,
        g8, g9⟩ :=
      clearLoopReg_spec c rfuel hnil0 rest b steps r1 (m.freeNode ptr) (orphanPtr t ptr) hch.2
        (fun y hy => hlast y (by simpa using hy))
        (fun a ha => hreal a (List.mem_cons_of_mem _ ha)) h1 h2 h3 h4
        (by simp at hs ⊢; omega) hi1 (by rw [hcp1]; exact hc) hb1
    refine ⟨r', m', t', ?_, hi2, hb2, by rw [hcp2, hcp1], by rw [hptr2, hptr1],
      by rw [hpar2, hpar1], ?_, g1, g2, g3, g4, g5, g6, g7, g8, g9⟩
    · simp only [clearLoopReg, hn, hnx, e1]
      simpa using e2
    · intro a
      rw [hp2 a, hp1 a, hptr1]
      by_cases c1 : r.proxy a = some p <;> by_cases c2 : r.ptr a = ptr <;>
        by_cases c3 : r.ptr a ∈ b :: rest <;> simp [c1, c2, c3]

/-- `clear` with the registry on a well-formed tree: the call returns, the
tree is empty afterwards, the stored values are untouched, and the records
of the tree that denote one of its nodes lose their proxy. -/
theorem clearReg_spec {comp : K → K → Bool} {m : TreeMem K V} {t : TreeValue}
    {L : List Nat} (h : TreeInv comp m t L) {fuel : Nat} (hf : L.length < fuel)
    {r : RegMem} (hr : RegInv r) {c p : Nat} (hc : r.container_proxy c = some p)
    {rfuel : Nat} (hb : ChainsBelow r rfuel) :
    ∃ r' m' t', clearReg rfuel fuel r c m t = some (r', m', t') ∧
      TreeInv comp m' t' [] ∧ t'.head = t.head ∧ m'.value = m.value ∧ m'.next = m.next ∧
      RegInv r' ∧ ChainsBelow r' rfuel ∧ r'.container_proxy = r.container_proxy ∧
      r'.ptr = r.ptr ∧ r'.parent = r.parent ∧
      (∀ a, r'.proxy a = if r.proxy a = some p ∧ r.ptr a ∈ L then none else r.proxy a) := by
  obtain ⟨s, hs, hsL⟩ := h.shape
  have hnil := h.head_nil
  have hempty : ∀ (m' : TreeMem K V) (t' : TreeValue), t'.head = t.head → t'.size = 0 →
      m'.is_nil = m.is_nil → m'.height = m.height → m'.next = m.next →
      m'.left t.head = t.head → m'.right t.head = t.head → m'.parent t.head = t.head →
      TreeInv comp m' t' [] := by
    intro m' t' q1 q2 q3 q4 q5 q6 q7 q8
    refine ⟨by rw [q1, q3]; exact hnil, by rw [q1, q4]; exact h.head_height,
      ⟨Shape.nil, ?_, rfl⟩, List.nodup_nil, List.Pairwise.nil, by rw [q2]; rfl, ?_, ?_,
      ?_, by rw [q1, q5]; exact h.head_alloc, ?_⟩
    · show m'.parent t'.head = t'.head
      rw [q1, q8]
    · rw [q1, q6]; rfl
    · rw [q1, q7]; rfl
    · intro a ha; simp at ha
    · intro a ha; simp at ha
  obtain ⟨k, rfl⟩ : ∃ k, fuel = k + 1 := ⟨fuel - 1, by omega⟩
  by_cases cs : s = Shape.nil
  · subst cs
    have hL : L = [] := by rw [← hsL]; rfl
    subst hL
    have hroot : m.parent t.head = t.head := hs
    have hl : m.left t.head = t.head := by rw [h.head_left]; rfl
    have hrt : m.right t.head = t.head := by rw [h.head_right]; rfl
    refine ⟨r, { m with left := upd m.left t.head t.head,
                        parent := upd m.parent t.head t.head,
                        right := upd m.right t.head t.head }, { t with size := 0 },
      ?_, ?_, rfl, rfl, rfl, hr, hb, rfl, rfl, rfl, ?_⟩
    · simp only [clearReg, hroot, descendToLeaf, hl, hrt, hnil, clearLoopReg]
      simp [hnil]
    · exact hempty _ _ rfl rfl rfl rfl rfl (by simp [upd]) (by simp [upd]) (by simp [upd])
    · intro a
      simp
  · obtain ⟨q, rest, e, hp⟩ :=
      descendToLeaf_spec hnil s t.head (m.parent t.head) (k + 1) hs cs (by rw [hsL]; omega)
    have hheadnot : t.head ∉ s.addrs := by
      intro hc2
      have := Rep.real_node s _ _ hs _ hc2
      rw [hnil] at this
      exact absurd this (by simp)
    obtain ⟨m3, hm3⟩ : ∃ m3 : TreeMem K V, m3 =
        { m with left := upd m.left t.head t.head, parent := upd m.parent t.head t.head,
                 right := upd m.right t.head t.head } := ⟨_, rfl⟩
    have hne : ∀ a ∈ s.addrs, a ≠ t.head := fun a ha e2 => hheadnot (e2 ▸ ha)
    have hs3 : Rep m3 t.head s t.head (m.parent t.head) := by
      refine Rep.frame_links s _ _ hs (fun a ha => ?_)
      have := hne a ha
      simp [hm3, upd, this]
    have hnil3 : m3.is_nil t.head = true := by rw [hm3]; exact hnil
    have hch := clearNext_chain hnil3 (k + 1) s _ _ hs3 (hsL ▸ h.nodup) (by rw [hsL]; omega)
    rw [hp] at hch
    obtain ⟨sl, sx, sr, rfl⟩ : ∃ sl sx sr, s = Shape.node sl sx sr := by
      cases s with
      | nil => exact absurd rfl cs
      | node sl sx sr => exact ⟨sl, sx, sr, rfl⟩
    have hlastx := Shape.postorder_getLast hs3
    rw [hp] at hlastx
    have hrootmem : m.parent t.head ∈ (Shape.node sl sx sr).addrs := by
      rw [hs.1]; simp [Shape.addrs]
    have hrootne := hne _ hrootmem
    have hexit : ∀ y, y ∈ (q :: rest).getLast? → clearNext (k + 1) m3 y = some t.head := by
      intro y hy
      rw [hlastx] at hy
      simp only [Option.mem_def, Option.some.injEq] at hy
      subst hy
      have hpar : m3.parent (m.parent t.head) = t.head := by
        have := hs3.2.2.1
        rw [← hs3.1] at this
        exact this
      have hl3 : m3.left t.head = t.head := by simp [hm3, upd]
      have : ¬ t.head = m.parent t.head := fun e2 => hrootne e2.symm
      simp [clearNext, whichChild, hpar, hl3, this]
    have hreal : ∀ a ∈ q :: rest, m3.is_nil a = false := by
      intro a ha
      rw [← hp, Shape.mem_postorder] at ha
      exact Rep.real_node _ _ _ hs3 a ha
    have hlen : rest.length + 1 < k + 1 := by
      have := Shape.length_postorder (Shape.node sl sx sr)
      rw [hp, hsL] at this
      simp only [List.length_cons] at this
      omega
    obtain ⟨r', m', t', e2, hi2, hb2, hcp2, hptr2, hpar2, hp2, g1, g2, g3, g4, g5, g6, g7,
        g8, g9⟩ :=
      clearLoopReg_spec c rfuel hnil3 rest q (k + 1) r m3
        { t with size := 0 } hch hexit hreal rfl rfl rfl rfl hlen hr hc hb
    refine ⟨r', m', t', ?_, ?_, g8, by rw [g5, hm3], by rw [g7, hm3], hi2, hb2, hcp2, hptr2,
      hpar2, ?_⟩
    · simp only [clearReg, e]
      rw [← hm3]
      exact e2
    · refine hempty m' t' g8 g9 (by rw [g4, hm3]) (by rw [g6, hm3]) (by rw [g7, hm3]) ?_ ?_ ?_
      · rw [g1]; simp [hm3, upd]
      · rw [g2]; simp [hm3, upd]
      · rw [g3]; simp [hm3, upd]
    · intro a
      rw [hp2 a]
      have : r.ptr a ∈ q :: rest ↔ r.ptr a ∈ L := by
        rw [← hp, Shape.mem_postorder, hsL]
      simp only [this]

theorem eraseRangeLoopReg_spec {comp : K → K → Bool} (c rfuel fuel : Nat) {p head : Nat} :
    ∀ (mid pre post : List Nat) (steps : Nat) (r : RegMem) (m : TreeMem K V) (t : TreeValue),
      TreeInv comp m t (pre ++ mid ++ post) → t.head = head →
      (pre ++ mid ++ post).length < fuel → mid.length < steps →
      RegInv r → r.container_proxy c = some p → ChainsBelow r rfuel →
      ∃ r' m' t', eraseRangeLoopReg rfuel fuel c (post.head?.getD head) steps r m t
          ((mid ++ post).head?.getD head) = some (r', m', t') ∧
        TreeInv comp m' t' (pre ++ post) ∧ t'.head = head ∧ m'.value = m.value ∧
        m'.next = m.next ∧
        RegInv r' ∧ ChainsBelow r' rfuel ∧ r'.container_proxy = r.container_proxy ∧
        r'.ptr = r.ptr ∧ r'.parent = r.parent ∧
        (∀ a, r'.proxy a = if r.proxy a = some p ∧ r.ptr a ∈ mid then none else r.proxy a)
  | _, _, _, 0, _, _, _, _, _, _, hs, _, _, _ => by omega
  | [], pre, post, steps + 1, r, m, t, h, hh, _, _, hi, _, hb => by
    refine ⟨r, m, t, ?_, by simpa using h, hh, rfl, rfl, hi, hb, rfl, rfl, rfl, ?_⟩
    · simp [eraseRangeLoopReg]
    · intro a
      simp
  | e :: mid, pre, post, steps + 1, r, m, t, h, hh, hf, hs, hi, hc, hb => by
    have h1 : TreeInv comp m t (pre ++ e :: (mid ++ post)) := by simpa using h
    have hf1 : (pre ++ e :: (mid ++ post)).length < fuel := by simpa using hf
    have hnd := h1.nodup
    have hne : e ≠ post.head?.getD head := by
      intro e2
      cases post with
      | nil =>
        simp only [List.head?_nil, Option.getD_none] at e2
        exact h1.ne_head (by simp) (e2.trans hh.symm)
      | cons w post =>
        simp only [List.head?_cons, Option.getD_some] at e2
        have hmem : e ∈ mid ++ w :: post := by simp [e2]
        exact (List.nodup_cons.1 (List.nodup_append.1 hnd).2.1).1 hmem
    have hinc := increment_spec h1 rfl hf1
    rw [hh] at hinc
    obtain ⟨r1, m1, t1, e1, hinv1, hh1, hv1, hn1, hi1, hb1, hcp1, hptr1, hpar1, hp1⟩ :=
      eraseUnwrappedReg_spec h1 hf1 hi hc hb
    have hinv1' : TreeInv comp m1 t1 (pre ++ mid ++ post) := by simpa using hinv1
    obtain ⟨r', m', t', e2, hinv2, hh2, hv2, hn2, hi2, hb2, hcp2, hptr2, hpar2, hp2⟩ :=
      eraseRangeLoopReg_spec c rfuel fuel mid pre post steps r1 m1 t1 hinv1' (hh1.trans hh)
        (show (pre ++ mid ++ post).length < fuel by simp at hf ⊢; omega)
        (show mid.length < steps by simp at hs ⊢; omega) hi1 (by rw [hcp1]; exact hc) hb1
    refine ⟨r', m', t', ?_, hinv2, hh2, by rw [hv2, hv1], by rw [hn2, hn1], hi2, hb2,
      by rw [hcp2, hcp1], by rw [hptr2, hptr1], by rw [hpar2, hpar1], ?_⟩
    · simp only [List.cons_append, List.head?_cons, Option.getD_some, eraseRangeLoopReg,
        ne_eq, hne, not_false_eq_true, if_true, hinc, e1]
      exact e2
    · intro a
      rw [hp2 a, hp1 a, hptr1]
      by_cases c1 : r.proxy a = some p <;> by_cases c2 : r.ptr a = e <;>
        by_cases c3 : r.ptr a ∈ mid <;> simp [c1, c2, c3]

/-- `eraseUnwrapped(first, last)` with the registry, for the stretch `mid` of
a well-formed tree: the call returns `last`, the nodes of the stretch are
taken out of the tree, and the records of the tree that denote one of them
lose their proxy. -/
theorem eraseUnwrappedRangeReg_spec {comp : K → K → Bool} {m : TreeMem K V} {t : TreeValue}
    {pre mid post : List Nat} (h : TreeInv comp m t (pre ++ mid ++ post)) {fuel : Nat}
    (hf : (pre ++ mid ++ post).length < fuel) {r : RegMem} (hr : RegInv r) {c p : Nat}
    (hc : r.container_proxy c = some p) {rfuel : Nat} (hb : ChainsBelow r rfuel) :
    ∃ r' m' t', eraseUnwrappedRangeReg rfuel fuel r c m t ((mid ++ post).head?.getD t.head)
        (post.head?.getD t.head) = some (r', m', t', post.head?.getD t.head) ∧
      TreeInv comp m' t' (pre ++ post) ∧ t'.head = t.head ∧ m'.value = m.value ∧
      m'.next = m.next ∧
      RegInv r' ∧ ChainsBelow r' rfuel ∧ r'.container_proxy = r.container_proxy ∧
      r'.ptr = r.ptr ∧ r'.parent = r.parent ∧
      (∀ a, r'.proxy a = if r.proxy a = some p ∧ r.ptr a ∈ mid then none else r.proxy a) := by
  obtain ⟨s, hs, hsL⟩ := h.shape
  have hnil := h.head_nil
  obtain ⟨k, rfl⟩ : ∃ k, fuel = k + 1 := ⟨fuel - 1, by omega⟩
  have hmin : minInSubTree m (k + 1) (m.parent t.head)
      = some ((pre ++ mid ++ post).head?.getD t.head) := by
    by_cases cs : s = Shape.nil
    · subst cs
      have hL : pre ++ mid ++ post = [] := by rw [← hsL]; rfl
      have hroot : m.parent t.head = t.head := hs
      have hl : m.left t.head = t.head := by rw [h.head_left, hL]; rfl
      rw [hL, hroot]
      simp [minInSubTree, hl, hnil]
    · obtain ⟨q, rest, e, hq, -⟩ :=
        minInSubTree_spec hnil s _ _ (k + 1) hs cs (by rw [hsL]; omega)
      rw [e, ← hsL, hq]
      rfl
  have hlast_nil : m.is_nil (post.head?.getD t.head) = true ↔ post = [] := by
    cases post with
    | nil => simp [hnil]
    | cons w post =>
      have : m.is_nil w = false := h.real (by simp)
      simp [this]
  by_cases hcnd : (mid ++ post).head?.getD t.head = (pre ++ mid ++ post).head?.getD t.head ∧
      m.is_nil (post.head?.getD t.head) = true
  · have hpost : post = [] := hlast_nil.1 hcnd.2
    subst hpost
    have hpre : pre = [] := by
      cases pre with
      | nil => rfl
      | cons p0 pre =>
        exfalso
        have e1 := hcnd.1
        simp only [List.append_nil, List.cons_append, List.head?_cons, Option.getD_some] at e1
        cases mid with
        | nil =>
          simp only [List.head?_nil, Option.getD_none] at e1
          exact h.ne_head (by simp) e1.symm
        | cons f mid =>
          simp only [List.head?_cons, Option.getD_some] at e1
          have hnd := h.nodup
          simp only [List.append_nil, List.cons_append, List.nodup_cons, List.mem_append,
            List.mem_cons] at hnd
          exact hnd.1 (Or.inr (Or.inl e1.symm))
    subst hpre
    have h2 : TreeInv comp m t mid := by simpa using h
    obtain ⟨r', m', t', e1, hinv, hh, hv, hn, hi, hb', hcp, hptr, hpar, hp⟩ :=
      clearReg_spec h2 (by simpa using hf) hr hc hb
    refine ⟨r', m', t', ?_, by simpa using hinv, hh, hv, hn, hi, hb', hcp, hptr, hpar, hp⟩
    simp only [eraseUnwrappedRangeReg, hmin, hcnd, and_self, if_true, e1]
  · obtain ⟨r', m', t', e1, hinv, hh, hv, hn, hi, hb', hcp, hptr, hpar, hp⟩ :=
      eraseRangeLoopReg_spec c rfuel (k + 1) mid pre post (k + 1) r m t
        h rfl hf (by simp at hf; omega) hr hc hb
    refine ⟨r', m', t', ?_, hinv, hh, hv, hn, hi, hb', hcp, hptr, hpar, hp⟩
    simp only [eraseUnwrappedRangeReg, hmin]
    rw [if_neg hcnd, e1]

theorem sampleFive_inv : ListInv sampleFive.1 sampleFive.2 [1, 2, 3, 4, 5] := by
  refine ⟨?_, ?_, ?_, ?_, ?_⟩
  · simp only [List.chain'_cons, List.chain'_singleton, Link, and_true, List.cons_append,
      List.nil_append]
    unfold sampleFive
    decide!
  · unfold sampleFive; decide!
  · unfold sampleFive; decide!
  · unfold sampleFive; decide!
  · unfold sampleFive; decide!

theorem erasureRegistry_run : runRegOps 20 RegMem.init erasureRegOps = some erasureRegistry :=
  option_eq_some_getD _ _ (by decide!)

theorem erasureRegistry_inv : RegInv erasureRegistry ∧ ChainsBelow erasureRegistry 20 :=
  runRegOps_init_inv (by decide) erasureRegistry_run

theorem sampleTree_inv : TreeInv natLess sampleTree.1 sampleTree.2 [2, 1, 3] := by
  obtain ⟨L, h, -, hlen⟩ :=
    reachable_unique natLess_swo true TreeMem.init (insertKeys [2, 1, 3]) (by decide)
      sampleTree_run
  have ht := traverse_spec h (show L.length < 6 by simp [insertKeys] at hlen; omega)
  have hv : traverse 6 sampleTree.1 sampleTree.2 = some [2, 1, 3] := by
    unfold sampleTree
    decide!
  rw [hv] at ht
  cases ht
  exact h

theorem orphaned_of_proxy_none {r : RegMem} {it : Nat} (h : r.proxy it = none) :
    Orphaned r it :=
  ⟨by simp [IteratorBase.getContainer, h], beq_of_orphaned h⟩

/-- C25: an iterator `it` of a list that denotes a node of the stretch `mid`
is orphaned by `erase(pos)` of its node, by `eraseRange` of the stretch and
by `clear`; an iterator `jt` of a tree that denotes a node of the stretch
`tmid` is orphaned by `erase(pos)` of its node, by `erase(key)` for a key
equivalent to the key of its node, by the erasure of the stretch and by
`clear`.  Each call returns and leaves the container well formed without the
erased nodes; afterwards `getContainer()` of the iterator is null and `==`
with any iterator, itself included, on either side, is false. -/
theorem erased_iterator_orphaned {comp : K → K → Bool} (hswo : StrictWeakOrder comp)
    {r : RegMem} (hr : RegInv r) {rfuel : Nat} (hb : ChainsBelow r rfuel)
    {c p : Nat} (hc : r.container_proxy c = some p)
    {m : ListMem T} {l : ListValue} {pre mid post : List Nat}
    (hl : ListInv m l (pre ++ mid ++ post)) {fuel : Nat}
    (hf : (pre ++ mid ++ post).length < fuel)
    {it : Nat} (hit : r.proxy it = some p) (hx : r.ptr it ∈ mid)
    {ct pt : Nat} (hct : r.container_proxy ct = some pt)
    {tm : TreeMem K V} {t : TreeValue} {tpre tmid tpost : List Nat}
    (ht : TreeInv comp tm t (tpre ++ tmid ++ tpost)) {tfuel : Nat}
    (htf : (tpre ++ tmid ++ tpost).length < tfuel)
    {jt : Nat} (hjt : r.proxy jt = some pt) (hjx : r.ptr jt ∈ tmid) :
    (∃ r' m' l' nxt pre1 post1, pre ++ mid ++ post = pre1 ++ r.ptr it :: post1 ∧
      LinkedList.eraseNodeReg rfuel r c m l (r.ptr it) = some (r', m', l', nxt) ∧
      ListInv m' l' (pre1 ++ post1) ∧ Orphaned r' it) ∧
    (∃ r' m' l', LinkedList.eraseRangeReg rfuel fuel r c m l
        ((mid ++ post).head?.getD l.head) (post.head?.getD l.head)
        = some (r', m', l', post.head?.getD l.head) ∧
      ListInv m' l' (pre ++ post) ∧ Orphaned r' it) ∧
    (∃ r' m' l', LinkedList.clearReg rfuel fuel r c m l = some (r', m', l') ∧
      ListInv m' l' [] ∧ Orphaned r' it) ∧
    (∃ r' m' t' nxt A B, tpre ++ tmid ++ tpost = A ++ r.ptr jt :: B ∧
      eraseUnwrappedReg rfuel tfuel r ct tm t (r.ptr jt) = some (r', m', t', nxt) ∧
      TreeInv comp m' t' (A ++ B) ∧ Orphaned r' jt) ∧
    (∀ key, KeyEquiv comp (tm.key (r.ptr jt)) key →
      ∃ r' m' t' A B, tpre ++ tmid ++ tpost = A ++ r.ptr jt :: B ∧
        eraseReg comp rfuel tfuel r ct tm t key = some (r', m', t', 1) ∧
        TreeInv comp m' t' (A ++ B) ∧ Orphaned r' jt) ∧
    (∃ r' m' t', eraseUnwrappedRangeReg rfuel tfuel r ct tm t
        ((tmid ++ tpost).head?.getD t.head) (tpost.head?.getD t.head)
        = some (r', m', t', tpost.head?.getD t.head) ∧
      TreeInv comp m' t' (tpre ++ tpost) ∧ Orphaned r' jt) ∧
    (∃ r' m' t', clearReg rfuel tfuel r ct tm t = some (r', m', t') ∧
      TreeInv comp m' t' [] ∧ Orphaned r' jt) := by
  have hxl : r.ptr it ∈ pre ++ mid ++ post := by simp [hx]
  have hjl : r.ptr jt ∈ tpre ++ tmid ++ tpost := by simp [hjx]
  refine ⟨?_, ?_, ?_, ?_, ?_, ?_, ?_⟩
  · obtain ⟨pre1, post1, e⟩ := List.append_of_mem hxl
    obtain ⟨r', e1, -, -, -, -, -, hp⟩ := eraseNodeReg_eq hr hc hb m l (r.ptr it)
    have hl1 : ListInv m l (pre1 ++ r.ptr it :: post1) := e ▸ hl
    have hinv := (eraseNode_inv hl1).2.1
    refine ⟨r', _, _, _, pre1, post1, e, e1, hinv, orphaned_of_proxy_none ?_⟩
    rw [hp it, if_pos ⟨hit, rfl⟩]
  · obtain ⟨r', m', l', e1, e2, -, -, -, -, -, hp, -⟩ := eraseRangeReg_eq hr hc hb hl hf
    obtain ⟨m2, l2, e3, hinv, -⟩ := eraseRange_inv hl hf
    rw [e2] at e3
    simp only [Option.some.injEq, Prod.mk.injEq, and_true] at e3
    obtain ⟨rfl, rfl⟩ := e3
    exact ⟨r', m', l', e1, hinv, orphaned_of_proxy_none (hp it hit hx)⟩
  · obtain ⟨r', m', l', e1, e2, -, -, -, -, -, hp⟩ :=
      clearReg_eq hr hc hb hl (show (pre ++ mid ++ post).length < fuel from hf)
    obtain ⟨m2, l2, e3, hinv, -⟩ := clear_inv hl hf
    rw [e2] at e3
    simp only [Option.some.injEq, Prod.mk.injEq] at e3
    obtain ⟨rfl, rfl⟩ := e3
    refine ⟨r', m', l', e1, hinv, orphaned_of_proxy_none ?_⟩
    rw [hp it, if_pos ⟨hit, hl.node_ne_head hxl⟩]
  · obtain ⟨A, B, e⟩ := List.append_of_mem hjl
    have ht1 : TreeInv comp tm t (A ++ r.ptr jt :: B) := e ▸ ht
    obtain ⟨r', m', t', e1, hinv, -, -, -, -, -, -, -, -, hp⟩ :=
      eraseUnwrappedReg_spec ht1 (e ▸ htf) hr hct hb
    refine ⟨r', m', t', _, A, B, e, e1, hinv, orphaned_of_proxy_none ?_⟩
    rw [hp jt, if_pos ⟨hjt, rfl⟩]
  · intro key hk
    obtain ⟨r', m', t', A, B, e1, e, hinv, -, -, -, -, -, -, -, hp⟩ :=
      eraseReg_spec hswo ht hjl hk htf hr hct hb
    refine ⟨r', m', t', A, B, e, e1, hinv, orphaned_of_proxy_none ?_⟩
    rw [hp jt, if_pos ⟨hjt, rfl⟩]
  · obtain ⟨r', m', t', e1, hinv, -, -, -, -, -, -, -, -, hp⟩ :=
      eraseUnwrappedRangeReg_spec ht htf hr hct hb
    refine ⟨r', m', t', e1, hinv, orphaned_of_proxy_none ?_⟩
    rw [hp jt, if_pos ⟨hjt, hjx⟩]
  · obtain ⟨r', m', t', e1, hinv, -, -, -, -, -, -, -, -, hp⟩ :=
      clearReg_spec ht htf hr hct hb
    refine ⟨r', m', t', e1, hinv, orphaned_of_proxy_none ?_⟩
    rw [hp jt, if_pos ⟨hjt, hjl⟩]

theorem erased_iterator_orphaned_witness :
    StrictWeakOrder natLess ∧ RegInv erasureRegistry ∧ ChainsBelow erasureRegistry 20 ∧
    erasureRegistry.container_proxy 0 = some 0 ∧
    ListInv sampleFive.1 sampleFive.2 ([1, 2] ++ [3] ++ [4, 5]) ∧
    erasureRegistry.proxy 10 = some 0 ∧ erasureRegistry.ptr 10 ∈ [3] ∧
    erasureRegistry.container_proxy 1 = some 1 ∧
    TreeInv natLess sampleTree.1 sampleTree.2 ([] ++ [2] ++ [1, 3]) ∧
    erasureRegistry.proxy 12 = some 1 ∧ erasureRegistry.ptr 12 ∈ [2] ∧
    ((∃ r' m' l' nxt pre1 post1,
        [1, 2] ++ [3] ++ [4, 5] = pre1 ++ erasureRegistry.ptr 10 :: post1 ∧
      LinkedList.eraseNodeReg 20 erasureRegistry 0 sampleFive.1 sampleFive.2
        (erasureRegistry.ptr 10) = some (r', m', l', nxt) ∧
      ListInv m' l' (pre1 ++ post1) ∧ Orphaned r' 10) ∧
    (∃ r' m' l', LinkedList.eraseRangeReg 20 6 erasureRegistry 0 sampleFive.1 sampleFive.2
        (([3] ++ [4, 5]).head?.getD sampleFive.2.head) ([4, 5].head?.getD sampleFive.2.head)
        = some (r', m', l', [4, 5].head?.getD sampleFive.2.head) ∧
      ListInv m' l' ([1, 2] ++ [4, 5]) ∧ Orphaned r' 10) ∧
    (∃ r' m' l', LinkedList.clearReg 20 6 erasureRegistry 0 sampleFive.1 sampleFive.2
        = some (r', m', l') ∧
      ListInv m' l' [] ∧ Orphaned r' 10) ∧
    (∃ r' m' t' nxt A B, [] ++ [2] ++ [1, 3] = A ++ erasureRegistry.ptr 12 :: B ∧
      eraseUnwrappedReg 20 6 erasureRegistry 1 sampleTree.1 sampleTree.2
        (erasureRegistry.ptr 12) = some (r', m', t', nxt) ∧
      TreeInv natLess m' t' (A ++ B) ∧ Orphaned r' 12) ∧
    (∀ key, KeyEquiv natLess (sampleTree.1.key (erasureRegistry.ptr 12)) key →
      ∃ r' m' t' A B, [] ++ [2] ++ [1, 3] = A ++ erasureRegistry.ptr 12 :: B ∧
        eraseReg natLess 20 6 erasureRegistry 1 sampleTree.1 sampleTree.2 key
          = some (r', m', t', 1) ∧
        TreeInv natLess m' t' (A ++ B) ∧ Orphaned r' 12) ∧
    (∃ r' m' t', eraseUnwrappedRangeReg 20 6 erasureRegistry 1 sampleTree.1 sampleTree.2
        (([2] ++ [1, 3]).head?.getD sampleTree.2.head) ([1, 3].head?.getD sampleTree.2.head)
        = some (r', m', t', [1, 3].head?.getD sampleTree.2.head) ∧
      TreeInv natLess m' t' ([] ++ [1, 3]) ∧ Orphaned r' 12) ∧
    (∃ r' m' t', clearReg 20 6 erasureRegistry 1 sampleTree.1 sampleTree.2
        = some (r', m', t') ∧
      TreeInv natLess m' t' [] ∧ Orphaned r' 12)) :=
  ⟨natLess_swo, erasureRegistry_inv.1, erasureRegistry_inv.2, by decide!, sampleFive_inv,
    by decide!, by decide!, by decide!, sampleTree_inv, by decide!, by decide!,
    erased_iterator_orphaned natLess_swo erasureRegistry_inv.1 erasureRegistry_inv.2
      (show erasureRegistry.container_proxy 0 = some 0 by decide!) sampleFive_inv (by decide)
      (show erasureRegistry.proxy 10 = some 0 by decide!) (by decide!)
      (show erasureRegistry.container_proxy 1 = some 1 by decide!)
      sampleTree_inv (by decide) (show erasureRegistry.proxy 12 = some 1 by decide!)
      (by decide!)⟩

/-- C26: an iterator `it` of a list that denotes a node outside the stretch
`mid` survives `eraseRange` of the stretch and `erase(pos)` of any other
node: the call returns, `it` keeps its proxy and reports the same container,
it denotes the same node, the node is still in the list, and the value read
through `it` is the one read before. -/
theorem unrelated_erase_keeps_iterator
    {r : RegMem} (hr : RegInv r) {rfuel : Nat} (hb : ChainsBelow r rfuel)
    {c p : Nat} (hc : r.container_proxy c = some p)
    {m : ListMem T} {l : ListValue} {pre mid post : List Nat}
    (hl : ListInv m l (pre ++ mid ++ post)) {fuel : Nat}
    (hf : (pre ++ mid ++ post).length < fuel)
    {it : Nat} (hit : r.proxy it = some p) (hx : r.ptr it ∈ pre ++ post) :
    (∃ r' m' l', LinkedList.eraseRangeReg rfuel fuel r c m l
        ((mid ++ post).head?.getD l.head) (post.head?.getD l.head)
        = some (r', m', l', post.head?.getD l.head) ∧
      ListInv m' l' (pre ++ post) ∧ r'.proxy it = r.proxy it ∧
      IteratorBase.getContainer r it = some c ∧ IteratorBase.getContainer r' it = some c ∧
      r'.ptr it = r.ptr it ∧ r'.ptr it ∈ pre ++ post ∧
      m'.value (r'.ptr it) = m.value (r.ptr it)) ∧
    (∀ a pre1 post1, pre ++ mid ++ post = pre1 ++ a :: post1 → a ≠ r.ptr it →
      ∃ r' m' l' nxt, LinkedList.eraseNodeReg rfuel r c m l a = some (r', m', l', nxt) ∧
        ListInv m' l' (pre1 ++ post1) ∧ r'.proxy it = r.proxy it ∧
        IteratorBase.getContainer r it = some c ∧ IteratorBase.getContainer r' it = some c ∧
        r'.ptr it = r.ptr it ∧ r'.ptr it ∈ pre1 ++ post1 ∧
        m'.value (r'.ptr it) = m.value (r.ptr it)) := by
  have hg : IteratorBase.getContainer r it = some c := (hr.getContainer_eq hc it).2 hit
  refine ⟨?_, ?_⟩
  · obtain ⟨r', m', l', e1, e2, hi, -, hcp, hptr, -, -, hp⟩ := eraseRangeReg_eq hr hc hb hl hf
    obtain ⟨m2, l2, e3, hinv, hv, -⟩ := eraseRange_inv hl hf
    rw [e2] at e3
    simp only [Option.some.injEq, Prod.mk.injEq, and_true] at e3
    obtain ⟨rfl, rfl⟩ := e3
    have hpit : r'.proxy it = r.proxy it := hp it (Or.inr (List.mem_cons_of_mem _ hx))
    refine ⟨r', m', l', e1, hinv, hpit, hg, ?_, by rw [hptr], by rw [hptr]; exact hx,
      by rw [hptr, hv]⟩
    exact (hi.getContainer_eq (by rw [hcp]; exact hc) it).2 (by rw [hpit, hit])
  · intro a pre1 post1 e hne
    obtain ⟨r', e1, hi, -, hcp, hptr, -, hp⟩ := eraseNodeReg_eq hr hc hb m l a
    have hl1 : ListInv m l (pre1 ++ a :: post1) := e ▸ hl
    obtain ⟨-, hinv, hv, -⟩ := eraseNode_inv hl1
    have hpit : r'.proxy it = r.proxy it := by
      rw [hp it, if_neg]
      intro hcon
      exact hne hcon.2.symm
    have hmem : r.ptr it ∈ pre1 ++ post1 := by
      have : r.ptr it ∈ pre ++ mid ++ post := by
        simp only [List.mem_append] at hx ⊢
        tauto
      rw [e] at this
      simp only [List.mem_append, List.mem_cons] at this ⊢
      rcases this with h1 | h1 | h1
      · exact Or.inl h1
      · exact absurd h1.symm hne
      · exact Or.inr h1
    refine ⟨r', _, _, _, e1, hinv, hpit, hg, ?_, by rw [hptr], by rw [hptr]; exact hmem,
      by rw [hptr]; exact congrFun hv _⟩
    exact (hi.getContainer_eq (by rw [hcp]; exact hc) it).2 (by rw [hpit, hit])

/-- Scenario 4 on the list 10, 20, 30, 40, 50 with the iterator record 10 at
the third element: the erasure of the first element leaves the iterator
registered and reading 30. -/
theorem unrelated_erase_keeps_iterator_witness :
    RegInv erasureRegistry ∧ ChainsBelow erasureRegistry 20 ∧
    erasureRegistry.container_proxy 0 = some 0 ∧
    ListInv sampleFive.1 sampleFive.2 ([] ++ [1] ++ [2, 3, 4, 5]) ∧
    erasureRegistry.proxy 10 = some 0 ∧ erasureRegistry.ptr 10 ∈ [] ++ [2, 3, 4, 5] ∧
    sampleFive.1.value (erasureRegistry.ptr 10) = 30 ∧
    ((∃ r' m' l', LinkedList.eraseRangeReg 20 6 erasureRegistry 0 sampleFive.1 sampleFive.2
        (([1] ++ [2, 3, 4, 5]).head?.getD sampleFive.2.head)
        ([2, 3, 4, 5].head?.getD sampleFive.2.head)
        = some (r', m', l', [2, 3, 4, 5].head?.getD sampleFive.2.head) ∧
      ListInv m' l' ([] ++ [2, 3, 4, 5]) ∧ r'.proxy 10 = erasureRegistry.proxy 10 ∧
      IteratorBase.getContainer erasureRegistry 10 = some 0 ∧
      IteratorBase.getContainer r' 10 = some 0 ∧
      r'.ptr 10 = erasureRegistry.ptr 10 ∧ r'.ptr 10 ∈ [] ++ [2, 3, 4, 5] ∧
      m'.value (r'.ptr 10) = sampleFive.1.value (erasureRegistry.ptr 10)) ∧
    (∀ a pre1 post1, [] ++ [1] ++ [2, 3, 4, 5] = pre1 ++ a :: post1 →
      a ≠ erasureRegistry.ptr 10 →
      ∃ r' m' l' nxt, LinkedList.eraseNodeReg 20 erasureRegistry 0 sampleFive.1 sampleFive.2 a
          = some (r', m', l', nxt) ∧
        ListInv m' l' (pre1 ++ post1) ∧ r'.proxy 10 = erasureRegistry.proxy 10 ∧
        IteratorBase.getContainer erasureRegistry 10 = some 0 ∧
        IteratorBase.getContainer r' 10 = some 0 ∧
        r'.ptr 10 = erasureRegistry.ptr 10 ∧ r'.ptr 10 ∈ pre1 ++ post1 ∧
        m'.value (r'.ptr 10) = sampleFive.1.value (erasureRegistry.ptr 10))) :=
  ⟨erasureRegistry_inv.1, erasureRegistry_inv.2, by decide!, sampleFive_inv, by decide!,
    by decide!, by unfold sampleFive; decide!,
    unrelated_erase_keeps_iterator erasureRegistry_inv.1 erasureRegistry_inv.2
      (show erasureRegistry.container_proxy 0 = some 0 by decide!)
      sampleFive_inv (by decide) (show erasureRegistry.proxy 10 = some 0 by decide!)
      (by decide!)⟩

/-- The loop of `merge` with the registry, from a position of `other`: the
nodes of `other` still to visit whose keys are not in this tree move here
and the records of `other` that denote them are registered here; the other
nodes and records stay. -/
theorem mergeLoopReg_spec {comp : K → K → Bool} (hswo : StrictWeakOrder comp)
    {fuel rfuel pB pA : Nat} (cB cA : Nat) {all : List Nat} (hall : all.length < rfuel)
    (hpne : pB ≠ pA) :
    ∀ (rest done : List Nat) (steps : Nat) (r : RegMem) (m : TreeMem K V) (tB tA : TreeValue)
      (LB : List Nat),
      TreeInv comp m tB LB → TreeInv comp m tA (done ++ rest) →
      (∀ a ∈ done ++ rest, a ∉ LB) → tA.head ∉ LB → tB.head ∉ done ++ rest →
      tB.head ≠ tA.head → (done ++ rest).length + LB.length + 1 < fuel → rest.length < steps →
      RegInv r → RegisteredIn r all → r.container_proxy cB = some pB →
      r.container_proxy cA = some pA →
      ∃ r' m' tB' tA' LB',
        mergeLoopReg comp rfuel fuel cB cA steps r m tB tA (rest.head?.getD tA.head)
          = some (r', m', tB', tA') ∧
        TreeInv comp m' tB' LB' ∧
        TreeInv comp m' tA' (done ++ rest.filter (dupIn comp m LB)) ∧
        LB'.Perm (LB ++ rest.filter (fun a => !dupIn comp m LB a)) ∧
        m'.value = m.value ∧ m'.next = m.next ∧ m'.freed = m.freed ∧
        tB'.size + tA'.size = tB.size + tA.size ∧ tB'.head = tB.head ∧ tA'.head = tA.head ∧
        RegInv r' ∧ RegisteredIn r' all ∧ r'.container_proxy = r.container_proxy ∧
        r'.ptr = r.ptr ∧ r'.parent = r.parent ∧
        (∀ j, r'.proxy j =
          if r.proxy j = some pA ∧ r.ptr j ∈ rest ∧ dupIn comp m LB (r.ptr j) = false
          then some pB else r.proxy j)
  | [], done, steps, r, m, tB, tA, LB, hB, hA, _, _, _, _, _, hs, hi, hreg, _, _ => by
    obtain ⟨s, rfl⟩ : ∃ s, steps = s + 1 := ⟨steps - 1, by simp at hs; omega⟩
    refine ⟨r, m, tB, tA, LB, ?_, hB, by simpa using hA, by simp, rfl, rfl, rfl, rfl, rfl, rfl,
      hi, hreg, rfl, rfl, rfl, fun j => by simp⟩
    simp [mergeLoopReg, hA.head_nil]
  | a :: rest', done, steps, r, m, tB, tA, LB, hB, hA, hdisj, hhA, hhB, hne, hf, hs, hi, hreg,
      hcB, hcA => by
    obtain ⟨s, rfl⟩ : ∃ s, steps = s + 1 := ⟨steps - 1, by simp at hs; omega⟩
    simp only [List.length_cons] at hs
    have haLA : a ∈ done ++ a :: rest' := by simp
    have hreal : m.is_nil a = false := hA.real haLA
    have hfA : (done ++ a :: rest').length < fuel := by omega
    have hinc : increment fuel m a = some (rest'.head?.getD tA.head) := increment_spec hA rfl hfA
    obtain ⟨res, hfind, hcase⟩ := findPlaceForNode_spec hswo hB (m.key a)
      (show LB.length < fuel by omega)
    have e1 : done ++ a :: rest' = (done ++ [a]) ++ rest' := by simp
    have hstep : mergeLoopReg comp rfuel fuel cB cA (s + 1) r m tB tA
          ((a :: rest').head?.getD tA.head) =
        if res.duplicate then
          mergeLoopReg comp rfuel fuel cB cA s r m tB tA (rest'.head?.getD tA.head)
        else
          match extractNode fuel m tA a with
          | Option.none => Option.none
          | some (m1, other1) =>
            match insertNode fuel
                { m1 with
                  left := upd m1.left a tB.head
                  right := upd m1.right a tB.head
                  height := upd m1.height a 1 } tB res.location a with
            | Option.none => Option.none
            | some (m3, t3, _) =>
              match ContainerBase.reparentPtr rfuel r cB cA a with
              | Option.none => Option.none
              | some r1 =>
                mergeLoopReg comp rfuel fuel cB cA s r1 m3 (reparentPtr t3 other1 a).1
                  (reparentPtr t3 other1 a).2 (rest'.head?.getD tA.head) := by
      simp only [List.head?_cons, Option.getD_some]
      rw [mergeLoopReg]
      simp only [hreal, Bool.false_eq_true, if_false, hinc, hfind]
    rw [hstep]
    rcases hcase with ⟨c1, c2, c3⟩ | ⟨c1, l1, l2, hloc⟩
    · -- the key is already in this tree: the node stays in `other`
      rw [if_pos c1]
      have hdup : dupIn comp m LB a = true := by
        simp only [dupIn, List.any_eq_true]
        exact ⟨_, c2, (keyEquivB_iff _ _ _).2 c3⟩
      obtain ⟨r', m', tB', tA', LB', r1, r2, r3, r4, r5, r6, r7, r8, r9, r10, g1, g2, g3, g4,
          g5, g6⟩ :=
        mergeLoopReg_spec hswo cB cA hall hpne rest' (done ++ [a]) s r m tB tA LB hB (e1 ▸ hA)
          (e1 ▸ hdisj) hhA (e1 ▸ hhB) hne (by rw [← e1]; exact hf) (by omega) hi hreg hcB hcA
      refine ⟨r', m', tB', tA', LB', r1, r2, ?_, ?_, r5, r6, r7, r8, r9, r10, g1, g2, g3, g4,
        g5, ?_⟩
      · rw [List.filter_cons_of_pos hdup]
        simpa using r3
      · rw [List.filter_cons_of_neg (by simp [hdup])]
        exact r4
      · intro j
        rw [g6 j]
        by_cases q1 : r.proxy j = some pA <;> by_cases q2 : r.ptr j = a <;>
          by_cases q3 : r.ptr j ∈ rest' <;> simp [q1, q2, q3, hdup]
    · -- the key is new: the node moves to this tree
      have c1' : ¬ res.duplicate = true := by rw [c1]; simp
      rw [if_neg c1']
      obtain ⟨hLsplit, hl1, hl2, hslot⟩ := hloc
      have hndup : dupIn comp m LB a = false := by
        simp only [dupIn, List.any_eq_false]
        intro b hb
        rw [Bool.not_eq_true, keyEquivB_false_iff]
        intro hc
        rw [hLsplit] at hb
        rcases List.mem_append.1 hb with hb | hb
        · have := hl1 b hb; rw [hc.1] at this; exact absurd this (by simp)
        · have := hl2 b hb; rw [hc.2] at this; exact absurd this (by simp)
      obtain ⟨m1, A0, B0, hext, hAB, hinvA1, hv1, hn1, hfr1, hout1⟩ :=
        extractNode_inv hA haLA hfA
      obtain ⟨rfl, rfl⟩ := nodup_split_unique hAB hA.nodup
      have hnd := nodup_around hA.nodup
      have haAB : a ∉ done ++ rest' := by
        intro hc
        rcases List.mem_append.1 hc with hc | hc
        · exact hnd.1 hc
        · exact hnd.2.1 hc
      have hsubA : ∀ b ∈ done ++ rest', b ∈ done ++ a :: rest' := by
        intro b hb
        simp only [List.mem_append, List.mem_cons] at hb ⊢
        tauto
      have haLB : a ∉ LB := hdisj a haLA
      have hahA : a ≠ tA.head := hA.ne_head haLA
      have hahB : a ≠ tB.head := fun hc => hhB (hc ▸ haLA)
      have hnil1 : m1.is_nil = m.is_nil := extractNode_is_nil hext
      have hBout : ∀ b, b ∈ LB ∨ b = tB.head → b ∉ done ++ a :: rest' ∧ b ≠ tA.head := by
        intro b hb
        rcases hb with hb | hb
        · exact ⟨fun hc => hdisj b hc hb, fun hc => hhA (hc ▸ hb)⟩
        · rw [hb]; exact ⟨hhB, hne⟩
      have hB1 : TreeInv comp m1 tB LB :=
        hB.frame (fun b hb => hout1 b (hBout b hb).1 (hBout b hb).2) (by rw [hn1])
      rw [hext]
      simp only
      have hsame12 : ∀ b, b ≠ a → SameNode m1
          { m1 with
            left := upd m1.left a tB.head
            right := upd m1.right a tB.head
            height := upd m1.height a 1 } b := by
        intro b hb
        simp [SameNode, upd, hb]
      generalize hm2 : ({ m1 with
            left := upd m1.left a tB.head
            right := upd m1.right a tB.head
            height := upd m1.height a 1 } : TreeMem K V) = m2 at hsame12 ⊢
      have hv2 : m2.value = m.value := by rw [← hm2]; exact hv1
      have hn2 : m2.next = m.next := by rw [← hm2]; exact hn1
      have hf2 : m2.freed = m.freed := by rw [← hm2]; exact hfr1
      have hkey2 : m2.key = m.key := by funext b; simp [TreeMem.key, hv2]
      have hB2 : TreeInv comp m2 tB LB :=
        hB1.frame (fun b hb => hsame12 b (by
          rcases hb with hb | hb
          · exact fun hc => haLB (hc ▸ hb)
          · rw [hb]; exact Ne.symm hahB)) (by rw [hn2, hn1])
      have hA2 : TreeInv comp m2 { tA with size := tA.size - 1 } (done ++ rest') :=
        hinvA1.frame (fun b hb => hsame12 b (by
          rcases hb with hb | hb
          · exact fun hc => haAB (hc ▸ hb)
          · rw [hb]; exact Ne.symm hahA)) (by rw [hn2, hn1])
      have hsameB : ∀ b, b ∈ LB → SameNode m m2 b := by
        intro b hb
        exact (hout1 b (hBout b (Or.inl hb)).1 (hBout b (Or.inl hb)).2).trans
          (hsame12 b (fun hc => haLB (hc ▸ hb)))
      have hloc2 : ValidLoc comp m2 tB.head LB (m2.key a) res.location l1 l2 := by
        refine ⟨hLsplit, ?_, ?_, ?_⟩
        · intro b hb; rw [hkey2]; exact hl1 b hb
        · intro b hb; rw [hkey2]; exact hl2 b hb
        · rcases hslot with h1 | ⟨h1, h2, h3⟩ | ⟨h1, h2, h3⟩
          · exact Or.inl h1
          · refine Or.inr (Or.inl ⟨h1, h2, ?_⟩)
            have hpL : res.location.parent ∈ LB := by
              obtain ⟨ys, hys⟩ := List.getLast?_eq_some_iff.1 h2
              rw [hLsplit, hys]; simp
            rw [(hsameB _ hpL).2.2.2.1]; exact h3
          · refine Or.inr (Or.inr ⟨h1, h2, ?_⟩)
            have hpL : res.location.parent ∈ LB := by
              obtain ⟨ys, hys⟩ := List.head?_eq_some_iff.1 h2
              rw [hLsplit, hys]; simp
            rw [(hsameB _ hpL).2.2.1]; exact h3
      obtain ⟨m3, hins, hinvB3, hv3, hn3, hfr3, hout3⟩ :=
        insertNode_inv hB2 hloc2 haLB hahB
          (by rw [← hm2]; show m1.is_nil a = false; rw [hnil1]; exact hreal)
          (by rw [← hm2]; show upd m1.left a tB.head a = tB.head; simp [upd])
          (by rw [← hm2]; show upd m1.right a tB.head a = tB.head; simp [upd])
          (by rw [← hm2]; show upd m1.height a 1 a = 1; simp [upd])
          (by rw [hn2]; exact hA.alloc a haLA) (show LB.length + 1 < fuel by
            simp only [List.length_append, List.length_cons] at hf; omega)
      have hcb : ChainsBelow r rfuel := hreg.chainsBelow hi hall
      obtain ⟨rr, hrep, hirr, hprr, hptrr, hparr, hcprr, -⟩ :=
        reparentPtr_inv hi hcB hcA hpne a hcb
      have hregrr : RegisteredIn rr all := by
        intro j s hjs
        rw [hprr j] at hjs
        split at hjs
        · rename_i hh
          exact hreg j pA hh.1
        · exact hreg j s hjs
      rw [hins]
      simp only
      rw [hrep]
      simp only
      have hA3 : TreeInv comp m3 { tA with size := tA.size - 1 } (done ++ rest') :=
        hA2.frame (fun b hb => hout3 b (by
            rcases hb with hb | hb
            · exact hdisj b (hsubA b hb)
            · rw [hb]; exact hhA) (by
            rcases hb with hb | hb
            · exact fun hc => hhB (hc ▸ hsubA b hb)
            · rw [hb]; exact Ne.symm hne) (by
            rcases hb with hb | hb
            · exact fun hc => haAB (hc ▸ hb)
            · rw [hb]; exact Ne.symm hahA)) (by rw [hn3])
      have hv3' : m3.value = m.value := by rw [hv3, hv2]
      obtain ⟨r', m', tB', tA', LB', r1, r2, r3, r4, r5, r6, r7, r8, r9, r10, g1, g2, g3, g4,
          g5, g6⟩ :=
        mergeLoopReg_spec hswo cB cA hall hpne rest' done s rr m3
          (reparentPtr { tB with size := tB.size + 1 } { tA with size := tA.size - 1 } a).1
          (reparentPtr { tB with size := tB.size + 1 } { tA with size := tA.size - 1 } a).2
          (l1 ++ a :: l2) (hinvB3.of_head_size rfl rfl) (hA3.of_head_size rfl rfl)
          (by
            intro b hb hc
            rcases List.mem_append.1 hc with hc | hc
            · exact hdisj b (hsubA b hb) (by rw [hLsplit]; simp [hc])
            · rcases List.mem_cons.1 hc with hc | hc
              · exact haAB (hc ▸ hb)
              · exact hdisj b (hsubA b hb) (by rw [hLsplit]; simp [hc]))
          (by
            show tA.head ∉ l1 ++ a :: l2
            intro hc
            rcases List.mem_append.1 hc with hc | hc
            · exact hhA (by rw [hLsplit]; simp [hc])
            · rcases List.mem_cons.1 hc with hc | hc
              · exact hahA hc.symm
              · exact hhA (by rw [hLsplit]; simp [hc]))
          (by
            show tB.head ∉ done ++ rest'
            exact fun hc => hhB (hsubA _ hc))
          hne
          (by
            show (done ++ rest').length + (l1 ++ a :: l2).length + 1 < fuel
            have h1 := congrArg List.length hLsplit
            simp only [List.length_append, List.length_cons] at hf h1 ⊢
            omega)
          (by omega) hirr hregrr (by rw [hcprr]; exact hcB) (by rw [hcprr]; exact hcA)
      have hsz : 1 ≤ tA.size := by
        rw [hA.size_eq]; simp only [List.length_append, List.length_cons]; omega
      have hfilt : ∀ x ∈ rest', dupIn comp m3 (l1 ++ a :: l2) x = dupIn comp m LB x := by
        intro x hx
        rw [dupIn_congr hv3']
        have hax : keyEquivB comp (m.key a) (m.key x) = false := by
          rw [keyEquivB_false_iff]
          intro hc
          have hsorted := hA.sorted
          rw [List.pairwise_append] at hsorted
          have := (List.pairwise_cons.1 hsorted.2.1).1 x hx
          rw [hc.1] at this; exact absurd this (by simp)
        simp only [dupIn, hLsplit, List.any_append, List.any_cons, hax, Bool.false_or]
      refine ⟨r', m', tB', tA', LB', r1, r2, ?_, ?_, by rw [r5, hv3'], by rw [r6, hn3, hn2],
        by rw [r7, hfr3, hf2], ?_, r9, r10, g1, g2, by rw [g3, hcprr], by rw [g4, hptrr],
        by rw [g5, hparr], ?_⟩
      · rw [List.filter_cons_of_neg (by simp [hndup])]
        rw [← List.filter_congr hfilt]
        exact r3
      · rw [List.filter_cons_of_pos (by simp [hndup])]
        have hfilt' : ∀ x ∈ rest', (!dupIn comp m3 (l1 ++ a :: l2) x) = !dupIn comp m LB x := by
          intro x hx; rw [hfilt x hx]
        rw [← List.filter_congr hfilt']
        refine r4.trans ?_
        rw [hLsplit]
        simp only [List.append_assoc]
        refine List.Perm.append_left l1 ?_
        simp only [List.cons_append]
        exact List.perm_middle.symm
      · rw [r8]
        show tB.size + 1 + (tA.size - 1) = tB.size + tA.size
        omega
      · intro j
        rw [g6 j, hprr j, hptrr]
        have hpne' : ¬ pB = pA := hpne
        by_cases q1 : r.proxy j = some pA
        · by_cases q2 : r.ptr j = a
          · simp [q1, q2, hndup, hpne']
          · by_cases q3 : r.ptr j ∈ rest'
            · simp [q1, q2, q3, hfilt _ q3]
            · simp [q1, q2, q3]
        · by_cases q2 : r.ptr j = a
          · simp [q1, q2]
          · simp [q1, q2]

theorem runRegOps_init_records {fuel : Nat} {ops : List RegOp} {r : RegMem}
    (hf : ops.length < fuel) (hr : runRegOps fuel RegMem.init ops = some r) :
    RecordsBelow r fuel := by
  obtain ⟨-, all, hl, ha⟩ :=
    runRegOps_inv ops init_inv registeredIn_init (by simpa using hf) hr
  exact ⟨all, by simp at hl; omega, ha⟩

theorem mergeRegistry_run : runRegOps 20 RegMem.init mergeRegOps = some mergeRegistry :=
  option_eq_some_getD _ _ (by decide!)

theorem mergeRegistry_inv : RegInv mergeRegistry ∧ RecordsBelow mergeRegistry 20 :=
  ⟨(runRegOps_init_inv (by decide) mergeRegistry_run).1,
    runRegOps_init_records (by decide) mergeRegistry_run⟩

/-- C28: `B.merge(A)` for two distinct well-formed trees in one memory
without common nodes, `B` at the address `cB` and `A` at the address `cA`.
The call returns and both trees are well formed.  A record registered with
`A` that denotes a node whose key is not in `B` (the node moves to `B`) is
afterwards registered with `B`: its proxy is the proxy of `B`,
`getContainer()` is `B`, it is in the chain of `B` and not in the chain of
`A`, and it denotes the same node, now a node of `B`.  A record registered
with `A` that denotes a node whose key is in `B` (the node stays in `A`) or
the head of `A` (`end()`) keeps the proxy of `A` and `getContainer()` is
`A`.  No other record changes its proxy and no record changes its node. -/
theorem merge_reparents_iterators {comp : K → K → Bool} (hswo : StrictWeakOrder comp)
    {m : TreeMem K V} {tB tA : TreeValue} {LB LA : List Nat}
    (hB : TreeInv comp m tB LB) (hA : TreeInv comp m tA LA)
    (hdisj : ∀ a ∈ LA, a ∉ LB) (hhA : tA.head ∉ LB) (hhB : tB.head ∉ LA)
    (hne : tB.head ≠ tA.head) {fuel : Nat} (hf : LA.length + LB.length + 1 < fuel)
    {r : RegMem} (hi : RegInv r) {rfuel : Nat} (hrec : RecordsBelow r rfuel)
    {cB cA pB pA : Nat} (hcB : r.container_proxy cB = some pB)
    (hcA : r.container_proxy cA = some pA) (hcne : cB ≠ cA) :
    ∃ r' m' tB' tA' LB', mergeReg comp rfuel fuel r cB cA m tB tA = some (r', m', tB', tA') ∧
      TreeInv comp m' tB' LB' ∧ TreeInv comp m' tA' (LA.filter (dupIn comp m LB)) ∧
      LB'.Perm (LB ++ LA.filter (fun a => !dupIn comp m LB a)) ∧
      RegInv r' ∧ r'.ptr = r.ptr ∧
      r'.container_proxy cB = some pB ∧ r'.container_proxy cA = some pA ∧
      (∀ j, r.proxy j = some pA → r.ptr j ∈ LA → dupIn comp m LB (r.ptr j) = false →
        r'.proxy j = some pB ∧ IteratorBase.getContainer r' j = some cB ∧
        r'.ptr j ∈ LB' ∧
        (∀ xs, IsSeg r' (r'.first pB) xs none → j ∈ xs) ∧
        (∀ xs, IsSeg r' (r'.first pA) xs none → j ∉ xs)) ∧
      (∀ j, r.proxy j = some pA →
        r.ptr j = tA.head ∨ (r.ptr j ∈ LA ∧ dupIn comp m LB (r.ptr j) = true) →
        r'.proxy j = some pA ∧ IteratorBase.getContainer r' j = some cA ∧
        (∀ xs, IsSeg r' (r'.first pA) xs none → j ∈ xs)) ∧
      (∀ j, r.proxy j ≠ some pA → r'.proxy j = r.proxy j) := by
  obtain ⟨all, hall, hreg⟩ := hrec
  have hpne : pB ≠ pA := by
    intro e
    subst e
    exact hcne (hi.proxy_inj hcB hcA)
  obtain ⟨r', m', tB', tA', LB', r1, r2, r3, r4, -, -, -, -, -, -, g1, -, g3, g4, -, g6⟩ :=
    mergeLoopReg_spec hswo cB cA hall hpne LA [] fuel r m tB tA LB hB
      (by simpa using hA) (by simpa using hdisj) hhA (by simpa using hhB) hne
      (by simpa using hf) (by omega) hi hreg hcB hcA
  simp only [List.nil_append] at r3
  have hcB' : r'.container_proxy cB = some pB := by rw [g3]; exact hcB
  have hcA' : r'.container_proxy cA = some pA := by rw [g3]; exact hcA
  refine ⟨r', m', tB', tA', LB', ?_, r2, r3, r4, g1, g4, hcB', hcA', ?_, ?_, ?_⟩
  · unfold mergeReg
    rw [if_neg hcne, hA.head_left]
    exact r1
  · intro j hj hmem hd
    have hp : r'.proxy j = some pB := by
      rw [g6 j, if_pos ⟨hj, hmem, hd⟩]
    refine ⟨hp, (g1.getContainer_eq hcB' j).2 hp, ?_, ?_, ?_⟩
    · rw [g4]
      apply r4.symm.subset
      simp [hmem, hd]
    · intro xs hx
      exact ((g1.chain_facts hx).2 j).2 hp
    · intro xs hx hjx
      have := ((g1.chain_facts hx).2 j).1 hjx
      rw [hp] at this
      simp only [Option.some.injEq] at this
      exact hpne this
  · intro j hj hcase
    have hp : r'.proxy j = some pA := by
      rw [g6 j, if_neg, hj]
      rintro ⟨-, hmem, hd⟩
      rcases hcase with e | ⟨-, e⟩
      · exact hA.ne_head hmem e
      · rw [e] at hd
        cases hd
    exact ⟨hp, (g1.getContainer_eq hcA' j).2 hp, fun xs hx => ((g1.chain_facts hx).2 j).2 hp⟩
  · intro j hj
    rw [g6 j, if_neg]
    rintro ⟨e, -⟩
    exact hj e

theorem merge_reparents_iterators_witness :
    StrictWeakOrder natLess ∧
    TreeInv natLess sampleTwo.1 sampleTwo.2.1 [1, 2] ∧
    TreeInv natLess sampleTwo.1 sampleTwo.2.2 [4, 5] ∧
    (∀ a ∈ [4, 5], a ∉ [1, 2]) ∧ sampleTwo.2.2.head ∉ [1, 2] ∧ sampleTwo.2.1.head ∉ [4, 5] ∧
    sampleTwo.2.1.head ≠ sampleTwo.2.2.head ∧ [4, 5].length + [1, 2].length + 1 < 8 ∧
    RegInv mergeRegistry ∧ RecordsBelow mergeRegistry 20 ∧
    mergeRegistry.container_proxy 0 = some 0 ∧ mergeRegistry.container_proxy 1 = some 1 ∧
    (0 : Nat) ≠ 1 ∧
    ∃ r' m' tB' tA' LB', mergeReg natLess 20 8 mergeRegistry 0 1 sampleTwo.1 sampleTwo.2.1
        sampleTwo.2.2 = some (r', m', tB', tA') ∧
      TreeInv natLess m' tB' LB' ∧
      TreeInv natLess m' tA' ([4, 5].filter (dupIn natLess sampleTwo.1 [1, 2])) ∧
      LB'.Perm ([1, 2] ++ [4, 5].filter (fun a => !dupIn natLess sampleTwo.1 [1, 2] a)) ∧
      RegInv r' ∧ r'.ptr = mergeRegistry.ptr ∧
      r'.container_proxy 0 = some 0 ∧ r'.container_proxy 1 = some 1 ∧
      (∀ j, mergeRegistry.proxy j = some 1 → mergeRegistry.ptr j ∈ [4, 5] →
        dupIn natLess sampleTwo.1 [1, 2] (mergeRegistry.ptr j) = false →
        r'.proxy j = some 0 ∧ IteratorBase.getContainer r' j = some 0 ∧
        r'.ptr j ∈ LB' ∧
        (∀ xs, IsSeg r' (r'.first 0) xs none → j ∈ xs) ∧
        (∀ xs, IsSeg r' (r'.first 1) xs none → j ∉ xs)) ∧
      (∀ j, mergeRegistry.proxy j = some 1 →
        mergeRegistry.ptr j = sampleTwo.2.2.head ∨
          (mergeRegistry.ptr j ∈ [4, 5] ∧
            dupIn natLess sampleTwo.1 [1, 2] (mergeRegistry.ptr j) = true) →
        r'.proxy j = some 1 ∧ IteratorBase.getContainer r' j = some 1 ∧
        (∀ xs, IsSeg r' (r'.first 1) xs none → j ∈ xs)) ∧
      (∀ j, mergeRegistry.proxy j ≠ some 1 → r'.proxy j = mergeRegistry.proxy j) :=
  ⟨natLess_swo, sampleTwo_first, sampleTwo_second, by decide, by decide!, by decide!,
    by decide!, by decide, mergeRegistry_inv.1, mergeRegistry_inv.2, by decide!, by decide!,
    by decide,
    merge_reparents_iterators natLess_swo sampleTwo_first sampleTwo_second (by decide)
      (by decide!) (by decide!) (by decide!) (by decide) mergeRegistry_inv.1
      mergeRegistry_inv.2 (show mergeRegistry.container_proxy 0 = some 0 by decide!)
      (show mergeRegistry.container_proxy 1 = some 1 by decide!) (by decide)⟩

/-- The run of `merge` on the two sample trees: the record 10 (node 4, key 1,
not in the first tree) is registered with the first tree afterwards; the
records 11 (node 5, key 3, also in the first tree) and 12 (`end()`) stay
with the second tree; the record 13 stays with the first tree. -/
theorem merge_registry_run :
    (mergeReg natLess 20 8 mergeRegistry 0 1 sampleTwo.1 sampleTwo.2.1 sampleTwo.2.2).map
      (fun s => (IteratorBase.getContainer s.1 10, IteratorBase.getContainer s.1 11))
      = some (some 0, some 1) ∧
    (mergeReg natLess 20 8 mergeRegistry 0 1 sampleTwo.1 sampleTwo.2.1 sampleTwo.2.2).map
      (fun s => (IteratorBase.getContainer s.1 12, IteratorBase.getContainer s.1 13))
      = some (some 1, some 0) ∧
    (mergeReg natLess 20 8 mergeRegistry 0 1 sampleTwo.1 sampleTwo.2.1 sampleTwo.2.2).map
      (fun s => (s.1.first 0, s.1.first 1)) = some (some 10, some 12) := by
  unfold sampleTwo
  decide!

theorem three_le_of_eight_le_pow {k : Nat} (h : 8 ≤ 2 ^ k) : 3 ≤ k := by
  by_contra hc
  have h2 : k ≤ 2 := by omega
  have := Nat.pow_le_pow_right (show 0 < 2 by norm_num) h2
  norm_num at this
  omega

theorem le_eight_of_pow_lt {k : Nat} (h : 2 ^ k < 512) : k ≤ 8 := by
  by_contra hc
  have h2 : 9 ≤ k := by omega
  have := Nat.pow_le_pow_right (show 0 < 2 by norm_num) h2
  norm_num at this
  omega

theorem growBuckets_zero (req : Nat) : ∀ fuel, growBuckets req fuel 0 = none
  | 0 => rfl
  | fuel + 1 => by
    simp only [growBuckets, ge_iff_le, Nat.zero_le, if_true, Nat.zero_mul]
    have : sizeWrap 0 = 0 := by simp [sizeWrap]
    rw [this]
    exact growBuckets_zero req fuel

theorem sizeWrap_pow_succ {k : Nat} (hk : k ≤ 63) :
    sizeWrap (2 ^ k * 2) = if k < 63 then 2 ^ (k + 1) else 0 := by
  by_cases h : k < 63
  · rw [if_pos h]
    have : 2 ^ k * 2 = 2 ^ (k + 1) := by ring
    rw [this]
    apply Nat.mod_eq_of_lt
    exact Nat.pow_lt_pow_right (by norm_num) (by omega)
  · rw [if_neg h]
    have hk' : k = 63 := by omega
    subst hk'
    simp [sizeWrap]

/-- The doubling loop returns a later power of two above the request, when
it returns. -/
theorem growBuckets_pow2 (req : Nat) : ∀ (fuel k n : Nat), k ≤ 63 →
    growBuckets req fuel (2 ^ k) = some n → ∃ k', k ≤ k' ∧ k' ≤ 63 ∧ n = 2 ^ k' ∧ req < n
  | 0, _, _, _, h => by simp [growBuckets] at h
  | fuel + 1, k, n, hk, h => by
    simp only [growBuckets] at h
    by_cases hc : req ≥ 2 ^ k
    · rw [if_pos hc, sizeWrap_pow_succ hk] at h
      by_cases h63 : k < 63
      · rw [if_pos h63] at h
        obtain ⟨k', a1, a2, a3, a4⟩ := growBuckets_pow2 req fuel (k + 1) n (by omega) h
        exact ⟨k', by omega, a2, a3, a4⟩
      · rw [if_neg h63, growBuckets_zero] at h
        cases h
    · rw [if_neg hc] at h
      cases h
      exact ⟨k, le_refl _, hk, rfl, by omega⟩

/-- `getRequiredBucketsAmount` on a table whose bucket count is a power of
two answers a power of two that is at least 8, when it returns. -/
theorem getRequiredBucketsAmount_good {Key F : Type} (tr : HashTraits Key T F) (fuel : Nat)
    (h : HashTable F) (for_size : Nat) {k n : Nat} (hk : k ≤ 63)
    (hc : Hash.bucketCount h = 2 ^ k)
    (hr : Hash.getRequiredBucketsAmount tr fuel h for_size = some n) : GoodCount n := by
  simp only [Hash.getRequiredBucketsAmount, hc, Hash.min_buckets_] at hr
  split at hr
  · rename_i h1
    cases hr
    have : 8 ≤ 2 ^ k := le_trans (le_max_right _ _) h1
    exact ⟨k, three_le_of_eight_le_pow this, hk, rfl⟩
  · split at hr
    · rename_i h2
      cases hr
      have hk8 := le_eight_of_pow_lt h2.1
      have e : 2 ^ k * 8 = 2 ^ (k + 3) := by ring
      have hlt : 2 ^ (k + 3) < 2 ^ 64 := Nat.pow_lt_pow_right (by norm_num) (by omega)
      refine ⟨k + 3, by omega, by omega, ?_⟩
      rw [e]
      exact Nat.mod_eq_of_lt hlt
    · obtain ⟨k', -, a2, a3, a4⟩ := growBuckets_pow2 _ fuel k n hk hr
      have : 8 ≤ 2 ^ k' := by
        have := le_max_right (tr.quotient for_size h.max_load_factor_) 8
        rw [← a3]
        omega
      exact ⟨k', three_le_of_eight_le_pow this, a2, a3⟩

theorem rehashLoop_size {Key F : Type} (tr : HashTraits Key T F) (list_head : Nat) :
    ∀ (fuel : Nat) (m : ListMem T) (v : HashVector) (ptr : Nat) (m' : ListMem T)
      (v' : HashVector), rehashLoop tr list_head fuel m v ptr = some (m', v') →
      v'.size_ = v.size_
  | 0, _, _, _, _, _, h => by simp [rehashLoop] at h
  | fuel + 1, m, v, ptr, m', v', h => by
    simp only [rehashLoop] at h
    split at h
    · split at h
      · cases h
      · split at h
        · have := rehashLoop_size tr list_head fuel _ _ _ _ _ h
          exact this
        · have := rehashLoop_size tr list_head fuel _ _ _ _ _ h
          exact this
    · cases h
      rfl

theorem rehashHashVector_count {Key F : Type} (tr : HashTraits Key T F) {fuel : Nat}
    {m m' : ListMem T} {h h' : HashTable F}
    (hr : Hash.rehashHashVector tr fuel m h = some (m', h')) :
    Hash.bucketCount h' = Hash.bucketCount h := by
  simp only [Hash.rehashHashVector] at hr
  split at hr
  · cases hr
  · rename_i m1 v1 e
    cases hr
    exact rehashLoop_size tr _ _ _ _ _ _ _ e

theorem emplaceNew_count {Key F : Type} (tr : HashTraits Key T F) {fuel : Nat}
    {m m' : ListMem T} {h h' : HashTable F} {tmp : ListTmpNodes} {node : Nat}
    {result : FindResult} {new_node : Nat} {b : Bool}
    (hg : GoodCount (Hash.bucketCount h))
    (hr : Hash.emplaceNew tr fuel m h tmp node result = some (m', h', new_node, b)) :
    GoodCount (Hash.bucketCount h') := by
  simp only [Hash.emplaceNew] at hr
  split at hr
  · cases hr
  · rename_i m2 h3 result1 hgrown
    have h3good : GoodCount (Hash.bucketCount h3) := by
      split at hgrown
      · split at hgrown
        · cases hgrown
        · rename_i n hn
          split at hgrown
          · cases hgrown
          · rename_i m2' h3' hre
            split at hgrown
            · cases hgrown
            · cases hgrown
              rw [rehashHashVector_count tr hre]
              obtain ⟨k, -, hk, hk2⟩ := hg
              exact getRequiredBucketsAmount_good tr fuel _ _ hk hk2 hn
      · cases hgrown
        exact hg
    split at hr
    · cases hr
    · cases hr
      split <;> exact h3good

theorem emplace_count {Key F : Type} (tr : HashTraits Key T F) {fuel : Nat}
    {extractable : Bool} {m m' : ListMem T} {h h' : HashTable F} {value : T} {node : Nat}
    {b : Bool} (hg : GoodCount (Hash.bucketCount h))
    (hr : Hash.emplace tr fuel extractable m h value = some (m', h', node, b)) :
    GoodCount (Hash.bucketCount h') := by
  simp only [Hash.emplace] at hr
  split at hr
  · split at hr
    · cases hr
    · split at hr
      · cases hr
        exact hg
      · exact emplaceNew_count tr hg hr
  · split at hr
    · cases hr
    · split at hr
      · cases hr
        exact hg
      · exact emplaceNew_count tr hg hr

theorem eraseNode_count {Key F : Type} (tr : HashTraits Key T F) {m m' : ListMem T}
    {h h' : HashTable F} {ptr ret : Nat}
    (hr : Hash.eraseNode tr m h ptr = some (m', h', ret)) :
    Hash.bucketCount h' = Hash.bucketCount h := by
  simp only [Hash.eraseNode] at hr
  split at hr
  · cases hr
  · cases hr
    simp only [Hash.bucketCount]
    split
    · split <;> rfl
    · split <;> rfl

theorem hashEraseRangeLoop_size {Key F : Type} (tr : HashTraits Key T F) (m : ListMem T)
    (list_head last_bucket : Nat) :
    ∀ (fuel : Nat) (v : HashVector) (bucket : Nat) (v' : HashVector),
      hashEraseRangeLoop tr m list_head last_bucket fuel v bucket = some v' →
      v'.size_ = v.size_
  | 0, _, _, _, h => by simp [hashEraseRangeLoop] at h
  | fuel + 1, v, bucket, v', h => by
    simp only [hashEraseRangeLoop] at h
    split at h
    · split at h
      · cases h
      · have := hashEraseRangeLoop_size tr m list_head last_bucket fuel _ _ _ h
        exact this
    · cases h
      rfl

theorem eraseRange_count {Key F : Type} (tr : HashTraits Key T F) {fuel : Nat}
    {m m' : ListMem T} {h h' : HashTable F} {first last ret : Nat}
    (hr : Hash.eraseRange tr fuel m h first last = some (m', h', ret)) :
    Hash.bucketCount h' = Hash.bucketCount h := by
  simp only [Hash.eraseRange] at hr
  split at hr
  · split at hr
    · cases hr
    · split at hr
      · cases hr
      · rename_i v2 hv2
        split at hr
        · cases hr
        · cases hr
          simp only [Hash.bucketCount]
          rw [hashEraseRangeLoop_size tr _ _ _ _ _ _ _ hv2]
          split <;> rfl
  · cases hr

theorem erase_count {Key F : Type} (tr : HashTraits Key T F) {fuel : Nat}
    {m m' : ListMem T} {h h' : HashTable F} {key : Key} {cnt : Nat}
    (hr : Hash.erase tr fuel m h key = some (m', h', cnt)) :
    Hash.bucketCount h' = Hash.bucketCount h := by
  simp only [Hash.erase] at hr
  split at hr
  · cases hr
  · split at hr
    · split at hr
      · cases hr
      · rename_i e
        cases hr
        exact eraseNode_count tr e
    · cases hr
      rfl

theorem rehash_count {Key F : Type} (tr : HashTraits Key T F) {fuel : Nat}
    {m m' : ListMem T} {h h' : HashTable F} {buckets : Nat}
    (hg : GoodCount (Hash.bucketCount h))
    (hr : Hash.rehash tr fuel m h buckets = some (m', h')) :
    GoodCount (Hash.bucketCount h') := by
  simp only [Hash.rehash] at hr
  split at hr
  · cases hr
  · rename_i n hn
    split at hr
    · rw [rehashHashVector_count tr hr]
      obtain ⟨k, -, hk, hk2⟩ := hg
      exact getRequiredBucketsAmount_good tr fuel _ _ hk hk2 hn
    · cases hr
      exact hg

theorem clear_count {F : Type} {fuel : Nat} {m m' : ListMem T} {h h' : HashTable F}
    (hr : Hash.clear fuel m h = some (m', h')) : GoodCount (Hash.bucketCount h') := by
  simp only [Hash.clear] at hr
  split at hr
  · cases hr
  · cases hr
    exact ⟨3, le_refl _, by norm_num, rfl⟩

theorem create_count {Key F : Type} (tr : HashTraits Key T F) {fuel : Nat}
    {m m' : ListMem T} {h' : HashTable F} {bucket_count : Nat}
    (hr : Hash.create tr fuel m bucket_count = some (m', h')) :
    GoodCount (Hash.bucketCount h') := by
  simp only [Hash.create] at hr
  split at hr
  · cases hr
  · rename_i n hn
    cases hr
    have h0 : ∀ hh : HashTable F, hh.vector_ = HashVector.new →
        Hash.bucketCount hh = 2 ^ 0 := by
      intro hh e
      simp [Hash.bucketCount, e, HashVector.new]
    exact getRequiredBucketsAmount_good tr fuel _ _ (show 0 ≤ 63 by norm_num) (h0 _ rfl) hn

theorem applyHashOp_count {Key F : Type} (tr : HashTraits Key T F) {fuel : Nat}
    {extractable : Bool} {s s' : ListMem T × HashTable F} (op : HashOp Key T F)
    (hg : GoodCount (Hash.bucketCount s.2))
    (hr : applyHashOp tr fuel extractable s op = some s') :
    GoodCount (Hash.bucketCount s'.2) := by
  cases op with
  | emplace value =>
    simp only [applyHashOp, Option.map_eq_some'] at hr
    obtain ⟨⟨m1, h1, n1, b1⟩, e, rfl⟩ := hr
    exact emplace_count tr hg e
  | eraseNode ptr =>
    simp only [applyHashOp, Option.map_eq_some'] at hr
    obtain ⟨⟨m1, h1, n1⟩, e, rfl⟩ := hr
    show GoodCount (Hash.bucketCount h1)
    rw [eraseNode_count tr e]
    exact hg
  | eraseRange first last =>
    simp only [applyHashOp, Option.map_eq_some'] at hr
    obtain ⟨⟨m1, h1, n1⟩, e, rfl⟩ := hr
    show GoodCount (Hash.bucketCount h1)
    rw [eraseRange_count tr e]
    exact hg
  | erase key =>
    simp only [applyHashOp, Option.map_eq_some'] at hr
    obtain ⟨⟨m1, h1, n1⟩, e, rfl⟩ := hr
    show GoodCount (Hash.bucketCount h1)
    rw [erase_count tr e]
    exact hg
  | rehash buckets =>
    obtain ⟨m1, h1⟩ := s'
    exact rehash_count tr hg hr
  | clear =>
    obtain ⟨m1, h1⟩ := s'
    exact clear_count hr
  | maxLoadFactor f =>
    simp only [applyHashOp, Option.map_eq_some', Hash.maxLoadFactor] at hr
    obtain ⟨h1, e, rfl⟩ := hr
    split at e
    · cases e
      exact hg
    · cases e

theorem runHashOps_count {Key F : Type} (tr : HashTraits Key T F) {fuel : Nat}
    {extractable : Bool} : ∀ (ops : List (HashOp Key T F)) {s s' : ListMem T × HashTable F},
    GoodCount (Hash.bucketCount s.2) → runHashOps tr fuel extractable s ops = some s' →
    GoodCount (Hash.bucketCount s'.2)
  | [], s, s', hg, hr => by
    simp only [runHashOps] at hr
    cases hr
    exact hg
  | op :: ops, s, s', hg, hr => by
    simp only [runHashOps] at hr
    split at hr
    · cases hr
    · rename_i s1 e
      exact runHashOps_count tr ops (applyHashOp_count tr op hg e) hr

theorem sampleHash_create : Hash.create natHashTraits 70 ListMem.init 0 = some sampleHash :=
  option_eq_some_getD _ _ (by decide!)

theorem sampleHash_run :
    runHashOps natHashTraits 70 true sampleHash sampleHashOps = some sampleHashEnd :=
  option_eq_some_getD _ _ (by decide!)

/-- C30: a hash table made by the constructor with any requested bucket
count and taken through any sequence of insertions, erasures (by position,
by range, by key), `rehash(n)`, `clear` and changes of the maximal load
factor has a bucket count that is a power of two and at least
`min_buckets_` = 8.  The arithmetic is that of `size_type`: a doubling that
would leave it makes the count zero and the loop of
`getRequiredBucketsAmount` never ends, so no state is reached with a count
that is not a power of two. -/
theorem bucket_count_power_of_two {Key F : Type} (tr : HashTraits Key T F)
    (extractable : Bool) {fuel : Nat} (m0 : ListMem T) (bucket_count : Nat)
    (ops : List (HashOp Key T F)) {s0 s : ListMem T × HashTable F}
    (hc : Hash.create tr fuel m0 bucket_count = some s0)
    (hr : runHashOps tr fuel extractable s0 ops = some s) :
    (∃ k, 3 ≤ k ∧ Hash.bucketCount s.2 = 2 ^ k) ∧ Hash.min_buckets_ ≤ Hash.bucketCount s.2 := by
  obtain ⟨m1, h1⟩ := s0
  have h0 : GoodCount (Hash.bucketCount h1) := create_count tr hc
  obtain ⟨k, hk, -, e⟩ := runHashOps_count tr ops h0 hr
  refine ⟨⟨k, hk, e⟩, ?_⟩
  rw [e]
  show 2 ^ 3 ≤ 2 ^ k
  exact Nat.pow_le_pow_right (by norm_num) hk

theorem bucket_count_power_of_two_witness :
    Hash.create natHashTraits 70 ListMem.init 0 = some sampleHash ∧
    runHashOps natHashTraits 70 true sampleHash sampleHashOps = some sampleHashEnd ∧
    (∃ k, 3 ≤ k ∧ Hash.bucketCount sampleHashEnd.2 = 2 ^ k) ∧
    Hash.min_buckets_ ≤ Hash.bucketCount sampleHashEnd.2 :=
  ⟨sampleHash_create, sampleHash_run,
    bucket_count_power_of_two natHashTraits true ListMem.init 0 sampleHashOps
      sampleHash_create sampleHash_run⟩

/-- The bucket counts along the sample run: 8 after the constructor, 8 after
eight insertions, 64 after the ninth, 512 after `rehash(100)`, 512 after the
last insertion and 8 after `clear`; the constructor asked for 9 buckets
gives 16, asked for 1000 buckets gives 1024. -/
theorem sample_bucket_counts :
    Hash.bucketCount sampleHash.2 = 8 ∧
    (runHashOps natHashTraits 70 true sampleHash (sampleHashOps.take 8)).map
      (fun s => Hash.bucketCount s.2) = some 8 ∧
    (runHashOps natHashTraits 70 true sampleHash (sampleHashOps.take 9)).map
      (fun s => (Hash.bucketCount s.2, Hash.size s.2)) = some (64, 9) ∧
    (runHashOps natHashTraits 70 true sampleHash (sampleHashOps.take 11)).map
      (fun s => (Hash.bucketCount s.2, Hash.size s.2)) = some (512, 8) ∧
    (runHashOps natHashTraits 70 true sampleHash (sampleHashOps.take 13)).map
      (fun s => (Hash.bucketCount s.2, Hash.size s.2)) = some (512, 9) ∧
    (Hash.bucketCount sampleHashEnd.2, Hash.size sampleHashEnd.2) = (8, 0) ∧
    (Hash.create natHashTraits 70 (ListMem.init : ListMem Nat) 9).map
      (fun s => Hash.bucketCount s.2) = some 16 ∧
    (Hash.create natHashTraits 70 (ListMem.init : ListMem Nat) 1000).map
      (fun s => Hash.bucketCount s.2) = some 1024 := by
  decide!

/-- A list stays well formed when the links of its nodes stay and the
allocator does not go back. -/
theorem ListInv.of_links {m m' : ListMem T} {l : ListValue} {xs : List Nat}
    (h : ListInv m l xs) (hn : ∀ a ∈ l.head :: xs, m'.next a = m.next a)
    (hp : ∀ a ∈ l.head :: xs, m'.prev a = m.prev a) (hf : m.fresh ≤ m'.fresh) :
    ListInv m' l xs := by
  refine ⟨?_, h.nodup, h.size_eq, ?_, h.iters⟩
  · refine Link.chain_frame h.ring ?_ ?_
    · intro a ha
      have := List.mem_of_mem_dropLast ha
      exact hn a (by simp at this ⊢; tauto)
    · intro b hb
      have := List.mem_of_mem_tail hb
      exact hp b (by simp at this ⊢; tauto)
  · intro a ha
    have := h.alloc a ha
    omega

theorem eraseLoop_fields (last : Nat) :
    ∀ (fuel : Nat) (m : ListMem T) (l : ListValue) (first : Nat) (m' : ListMem T)
      (l' : ListValue), eraseLoop last fuel m l first = some (m', l') →
      m'.next = m.next ∧ m'.prev = m.prev ∧ m'.value = m.value ∧ m'.fresh = m.fresh
  | 0, _, _, _, _, _, h => by simp [eraseLoop] at h
  | fuel + 1, m, l, first, m', l', h => by
    simp only [eraseLoop] at h
    split at h
    · have := eraseLoop_fields last fuel _ _ _ _ _ h
      exact this
    · cases h
      exact ⟨rfl, rfl, rfl, rfl⟩

theorem freeNonHeadLoop_fields (head : Nat) :
    ∀ (fuel : Nat) (m : ListMem T) (node : Nat) (m' : ListMem T),
      freeNonHeadLoop head fuel m node = some m' →
      m'.next = m.next ∧ m'.prev = m.prev ∧ m'.value = m.value ∧ m'.fresh = m.fresh
  | 0, _, _, _, h => by simp [freeNonHeadLoop] at h
  | fuel + 1, m, node, m', h => by
    simp only [freeNonHeadLoop] at h
    split at h
    · have := freeNonHeadLoop_fields head fuel _ _ _ h
      exact this
    · cases h
      exact ⟨rfl, rfl, rfl, rfl⟩

/-- `eraseRange` on a stretch of a well-formed list leaves the links of every
node outside the list as they were. -/
theorem eraseRange_frame {m : ListMem T} {l : ListValue} {pre mid post : List Nat}
    (h : ListInv m l (pre ++ mid ++ post)) {fuel : Nat} {m' : ListMem T} {l' : ListValue}
    {ret : Nat}
    (hr : LinkedList.eraseRange fuel m l ((mid ++ post).head?.getD l.head)
      (post.head?.getD l.head) = some (m', l', ret)) :
    ∀ a, a ∉ l.head :: (pre ++ mid ++ post) → m'.next a = m.next a ∧ m'.prev a = m.prev a := by
  intro a ha
  have hah : a ≠ l.head := fun e => ha (by simp [e])
  cases mid with
  | nil =>
    simp [LinkedList.eraseRange] at hr
    obtain ⟨rfl, -, -⟩ := hr
    exact ⟨rfl, rfl⟩
  | cons f mid =>
    have h1 : ListInv m l (pre ++ f :: (mid ++ post)) := by simpa using h
    have hfirst : ((f :: mid) ++ post).head?.getD l.head = f := rfl
    rw [hfirst] at hr
    unfold LinkedList.eraseRange at hr
    split at hr
    · cases hr
      exact ⟨rfl, rfl⟩
    · split at hr
      · simp only [LinkedList.clear, ListMem.freeNonHeadNode] at hr
        split at hr
        · cases hr
        · rename_i m1 l1 e
          split at e
          · cases e
          · rename_i m0 e0
            cases e
            cases hr
            obtain ⟨q1, q2, -, -⟩ := freeNonHeadLoop_fields _ _ _ _ _ e0
            simp [upd, hah, q1, q2, ListValue.orphanNonHead]
      · dsimp only at hr
        split at hr
        · cases hr
        · rename_i m2 l2 e
          cases hr
          obtain ⟨q1, q2, -, -⟩ := eraseLoop_fields _ _ _ _ _ _ _ e
          have hp := h1.prev_node
          have hpm := getLast?_getD_mem l.head pre
          have hwm := head?_getD_mem l.head post
          have ha1 : a ≠ pre.getLast?.getD l.head := by
            intro e2
            apply ha
            rw [e2]
            simp at hpm ⊢
            tauto
          have ha2 : a ≠ post.head?.getD l.head := by
            intro e2
            apply ha
            rw [e2]
            simp at hwm ⊢
            tauto
          rw [q1, q2]
          simp [ListValue.extractNodes, upd, hp, ha1, ha2]

/-- The first loop of `copyOrMoveList`: the values of the nodes of `other`
still to read are written over as many nodes of this list, the links are
untouched, and the loop ends at the head of `other`. -/
theorem copyLoopOther_spec {m0 : ListMem T} {l other : ListValue} :
    ∀ (ytodo xtodo ydone xdone : List Nat) (fuel : Nat) (m : ListMem T),
      ListInv m0 l (xdone ++ xtodo) → ListInv m0 other (ydone ++ ytodo) →
      (∀ a ∈ xdone ++ xtodo, a ∉ ydone ++ ytodo) →
      m.next = m0.next → (∀ b ∈ ytodo, m.value b = m0.value b) →
      ytodo.length ≤ xtodo.length → ytodo.length < fuel →
      ∃ m', copyLoopOther other.head fuel m (ytodo.head?.getD other.head)
          (xtodo.head?.getD l.head)
          = some (m', other.head, (xtodo.drop ytodo.length).head?.getD l.head) ∧
        m'.next = m.next ∧ m'.prev = m.prev ∧ m'.fresh = m.fresh ∧ m'.freed = m.freed ∧
        (xtodo.take ytodo.length).map m'.value = ytodo.map m0.value ∧
        ∀ a, a ∉ xtodo.take ytodo.length → m'.value a = m.value a
  | [], xtodo, ydone, xdone, fuel + 1, m, _, _, _, _, _, _, _ => by
    refine ⟨m, ?_, rfl, rfl, rfl, rfl, by simp, fun _ _ => rfl⟩
    simp [copyLoopOther]
  | y :: ytodo, [], _, _, _, _, _, _, _, _, _, hlen, _ => by simp at hlen
  | y :: ytodo, x :: xtodo, ydone, xdone, fuel + 1, m, hl, ho, hdisj, hn, hv, hlen, hf => by
    have hy : y ≠ other.head := ho.node_ne_head (by simp)
    have hxy : ∀ b ∈ ydone ++ y :: ytodo, b ≠ x := by
      intro b hb e
      exact hdisj x (by simp) (e ▸ hb)
    have hnd := hl.nodup
    have hxn : x ∉ xtodo := by
      simp only [List.nodup_cons, List.nodup_append, List.mem_append, List.mem_cons] at hnd
      exact hnd.2.2.1.1
    have hl' : ListInv m0 l ((xdone ++ [x]) ++ xtodo) := by simpa using hl
    have ho' : ListInv m0 other ((ydone ++ [y]) ++ ytodo) := by simpa using ho
    obtain ⟨m', e, q1, q2, q3, q4, q5, q6⟩ :=
      copyLoopOther_spec ytodo xtodo (ydone ++ [y]) (xdone ++ [x]) fuel
        { m with value := upd m.value x (m.value y) } hl' ho'
        (by simpa using hdisj) hn
        (by
          intro b hb
          have : b ≠ x := hxy b (by simp [hb])
          simp only [upd, if_neg this]
          exact hv b (List.mem_cons_of_mem _ hb))
        (by simp at hlen; omega) (by simp at hf; omega)
    refine ⟨m', ?_, q1, q2, q3, q4, ?_, ?_⟩
    · simp only [List.head?_cons, Option.getD_some, copyLoopOther, ne_eq, hy,
        not_false_eq_true, if_true, hn, ho.next_node, hl.next_node, List.length_cons,
        List.drop_succ_cons]
      simp only [hn] at e
      exact e
    · simp only [List.length_cons, List.take_succ_cons, List.map_cons, q5, List.cons.injEq,
        and_true]
      have hx2 : x ∉ xtodo.take ytodo.length := fun hm => hxn (List.mem_of_mem_take hm)
      rw [q6 x hx2]
      simp only [upd, if_true]
      exact hv y (by simp)
    · intro a ha
      simp only [List.length_cons, List.take_succ_cons, List.mem_cons, not_or] at ha
      rw [q6 a ha.2]
      simp [upd, ha.1]

/-- The second loop of `copyOrMoveList`: the values of the first nodes of
`other` are written over all the nodes of this list still to write, the
links are untouched, and the loop ends at the head of this list. -/
theorem copyLoopThis_spec {m0 : ListMem T} {l other : ListValue} :
    ∀ (xtodo ytodo ydone xdone : List Nat) (fuel : Nat) (m : ListMem T),
      ListInv m0 l (xdone ++ xtodo) → ListInv m0 other (ydone ++ ytodo) →
      (∀ a ∈ xdone ++ xtodo, a ∉ ydone ++ ytodo) →
      m.next = m0.next → (∀ b ∈ ytodo, m.value b = m0.value b) →
      xtodo.length ≤ ytodo.length → xtodo.length < fuel →
      ∃ m', copyLoopThis l.head fuel m (ytodo.head?.getD other.head)
          (xtodo.head?.getD l.head)
          = some (m', (ytodo.drop xtodo.length).head?.getD other.head, l.head) ∧
        m'.next = m.next ∧ m'.prev = m.prev ∧ m'.fresh = m.fresh ∧ m'.freed = m.freed ∧
        xtodo.map m'.value = (ytodo.take xtodo.length).map m0.value ∧
        ∀ a, a ∉ xtodo → m'.value a = m.value a
  | [], ytodo, ydone, xdone, fuel + 1, m, _, _, _, _, _, _, _ => by
    refine ⟨m, ?_, rfl, rfl, rfl, rfl, by simp, fun _ _ => rfl⟩
    simp [copyLoopThis]
  | x :: xtodo, [], _, _, _, _, _, _, _, _, _, hlen, _ => by simp at hlen
  | x :: xtodo, y :: ytodo, ydone, xdone, fuel + 1, m, hl, ho, hdisj, hn, hv, hlen, hf => by
    have hx : x ≠ l.head := hl.node_ne_head (by simp)
    have hxy : ∀ b ∈ ydone ++ y :: ytodo, b ≠ x := by
      intro b hb e
      exact hdisj x (by simp) (e ▸ hb)
    have hnd := hl.nodup
    have hxn : x ∉ xtodo := by
      simp only [List.nodup_cons, List.nodup_append, List.mem_append, List.mem_cons] at hnd
      exact hnd.2.2.1.1
    have hl' : ListInv m0 l ((xdone ++ [x]) ++ xtodo) := by simpa using hl
    have ho' : ListInv m0 other ((ydone ++ [y]) ++ ytodo) := by simpa using ho
    obtain ⟨m', e, q1, q2, q3, q4, q5, q6⟩ :=
      copyLoopThis_spec xtodo ytodo (ydone ++ [y]) (xdone ++ [x]) fuel
        { m with value := upd m.value x (m.value y) } hl' ho'
        (by simpa using hdisj) hn
        (by
          intro b hb
          have : b ≠ x := hxy b (by simp [hb])
          simp only [upd, if_neg this]
          exact hv b (List.mem_cons_of_mem _ hb))
        (by simp at hlen; omega) (by simp at hf; omega)
    refine ⟨m', ?_, q1, q2, q3, q4, ?_, ?_⟩
    · simp only [List.head?_cons, Option.getD_some, copyLoopThis, ne_eq, hx,
        not_false_eq_true, if_true, hn, ho.next_node, hl.next_node, List.length_cons,
        List.drop_succ_cons]
      simp only [hn] at e
      exact e
    · simp only [List.length_cons, List.take_succ_cons, List.map_cons, q5, List.cons.injEq,
        and_true]
      rw [q6 x hxn]
      simp only [upd, if_true]
      exact hv y (by simp)
    · intro a ha
      simp only [List.mem_cons, not_or] at ha
      rw [q6 a ha.2]
      simp [upd, ha.1]

/-- The loop of `createNodesFromRange` over the nodes of `other` still to
read: one fresh node per source node, chained behind `tl`, holding the values
of the source nodes, with every older node untouched apart from `next` of
`tl`. -/
theorem createFromLoop_spec {other : ListValue} {m0 : ListMem T} :
    ∀ (ztodo ydone : List Nat) (fuel : Nat) (m : ListMem T) (tl added : Nat),
      ListInv m0 other (ydone ++ ztodo) →
      (∀ b ∈ ydone ++ ztodo, b < m.fresh) → tl ∉ ydone ++ ztodo →
      (∀ b ∈ ztodo, m.next b = m0.next b ∧ m.value b = m0.value b) →
      ztodo.length < fuel → tl < m.fresh →
      ∃ m', createFromLoop other.head fuel m (ztodo.head?.getD other.head) tl added
          = some (m', (List.range' m.fresh ztodo.length).getLast?.getD tl,
              added + ztodo.length) ∧
        m'.fresh = m.fresh + ztodo.length ∧ m'.freed = m.freed ∧
        List.Chain' (Link m') (tl :: List.range' m.fresh ztodo.length) ∧
        (List.range' m.fresh ztodo.length).map m'.value = ztodo.map m0.value ∧
        (∀ a, a < m.fresh → a ≠ tl → m'.next a = m.next a) ∧
        (∀ a, a < m.fresh → m'.prev a = m.prev a) ∧
        (∀ a, a < m.fresh → m'.value a = m.value a)
  | [], ydone, fuel + 1, m, tl, added, _, _, _, _, _, _ => by
    refine ⟨m, ?_, rfl, rfl, by simp, by simp, fun _ _ _ => rfl, fun _ _ => rfl,
      fun _ _ => rfl⟩
    simp [createFromLoop]
  | z :: ztodo, ydone, fuel + 1, m, tl, added, ho, hlt, htl, hmz, hf, htlf => by
    have hz : z ≠ other.head := ho.node_ne_head (by simp)
    have hztl : z ≠ tl := by
      intro e
      exact htl (by simp [← e])
    have hzf : z < m.fresh := hlt z (by simp)
    have ho' : ListInv m0 other ((ydone ++ [z]) ++ ztodo) := by simpa using ho
    obtain ⟨m', e, q1, q2, q3, q4, q5, q6, q7⟩ :=
      createFromLoop_spec ztodo (ydone ++ [z]) fuel
        { next := upd m.next tl m.fresh, prev := upd m.prev m.fresh tl,
          value := upd m.value m.fresh (m.value z), fresh := m.fresh + 1,
          freed := m.freed } m.fresh (added + 1) ho'
        (by
          intro b hb
          have := hlt b (by simpa using hb)
          show b < m.fresh + 1
          omega)
        (by
          intro hb
          have := hlt m.fresh (by simpa using hb)
          omega)
        (by
          intro b hb
          have hbm : b ∈ ydone ++ z :: ztodo := by simp [hb]
          have hb1 : b ≠ tl := fun e => htl (e ▸ hbm)
          have hb2 : b ≠ m.fresh := fun e => by
            have := hlt b hbm
            omega
          have := hmz b (List.mem_cons_of_mem _ hb)
          simp only [upd, if_neg hb1, if_neg hb2]
          exact this)
        (by simp at hf; omega) (by show m.fresh < m.fresh + 1; omega)
    simp only at q1 q2 q3 q4 q5 q6 q7 e
    have hnz : m.next z = ztodo.head?.getD other.head := by
      rw [(hmz z (by simp)).1]
      exact ho.next_node
    refine ⟨m', ?_, ?_, q2, ?_, ?_, ?_, ?_, ?_⟩
    · simp only [List.head?_cons, Option.getD_some, createFromLoop, ne_eq, hz,
        not_false_eq_true, if_true, upd, if_neg hztl, hnz, List.length_cons]
      have e1 : List.range' m.fresh (ztodo.length + 1)
          = m.fresh :: List.range' (m.fresh + 1) ztodo.length := by
        simp [List.range'_succ]
      rw [e1, getLast?_cons_getD, Option.getD_some]
      have e2 : added + (ztodo.length + 1) = added + 1 + ztodo.length := by omega
      rw [e2]
      exact e
    · rw [q1]
      simp only [List.length_cons]
      omega
    · have e1 : List.range' m.fresh ((z :: ztodo).length)
          = m.fresh :: List.range' (m.fresh + 1) ztodo.length := by
        simp [List.range'_succ]
      rw [e1, List.chain'_cons]
      refine ⟨⟨?_, ?_⟩, q3⟩
      · rw [q5 tl (by omega) (by omega)]
        simp [upd]
      · rw [q6 m.fresh (by omega)]
        simp [upd]
    · have e1 : List.range' m.fresh ((z :: ztodo).length)
          = m.fresh :: List.range' (m.fresh + 1) ztodo.length := by
        simp [List.range'_succ]
      rw [e1, List.map_cons, List.map_cons, q4, q7 m.fresh (by omega)]
      simp only [upd, if_true]
      rw [(hmz z (by simp)).2]
    · intro a ha hat
      rw [q5 a (by omega) (by omega)]
      simp [upd, hat]
    · intro a ha
      rw [q6 a (by omega)]
      have : a ≠ m.fresh := by omega
      simp [upd, this]
    · intro a ha
      rw [q7 a (by omega)]
      have : a ≠ m.fresh := by omega
      simp [upd, this]

/-- The four writes of `ListTmpNodes::insertNodes`, field by field. -/
theorem insertNodes_spec (m : ListMem T) (added first last w : Nat) (hfw : w ≠ first) :
    ∃ m' tmp', ListTmpNodes.insertNodes m
        { first := some first, last := some last, added := added } w
        = some (m', tmp', first) ∧
      (∀ a, m'.next a = if a = last then w else if a = m.prev w then first else m.next a) ∧
      (∀ b, m'.prev b = if b = w then last else if b = first then m.prev w else m.prev b) ∧
      m'.value = m.value ∧ m'.fresh = m.fresh ∧ m'.freed = m.freed := by
  refine ⟨_, _, rfl, ?_, ?_, rfl, rfl, rfl⟩
  · intro a
    simp [upd, hfw]
  · intro b
    simp [upd]

/-- `insertRange(head, first, other_head)` with the range a tail `z :: zs`
of the nodes of `other`: as many fresh nodes are appended to this list, they
hold the values of the range, and no older node outside this list changes. -/
theorem insertRangeFrom_back {m0 m : ListMem T} {l other : ListValue}
    {xs ydone zs : List Nat} {z : Nat} {fuel : Nat}
    (hl : ListInv m l xs) (ho : ListInv m0 other (ydone ++ z :: zs))
    (hov : ∀ b ∈ z :: zs, m.next b = m0.next b ∧ m.value b = m0.value b)
    (halloc : ∀ b ∈ ydone ++ z :: zs, b < m.fresh)
    (hf : zs.length < fuel) :
    ∃ m' l' ret, LinkedList.insertRangeFrom fuel m l l.head z other.head = some (m', l', ret) ∧
      ListInv m' l' (xs ++ List.range' m.fresh (zs.length + 1)) ∧
      (List.range' m.fresh (zs.length + 1)).map m'.value = (z :: zs).map m0.value ∧
      (∀ a, a < m.fresh → m'.value a = m.value a) ∧
      (∀ a, a < m.fresh → a ∉ l.head :: xs → m'.next a = m.next a ∧ m'.prev a = m.prev a) ∧
      m'.fresh = m.fresh + (zs.length + 1) ∧ m'.freed = m.freed ∧ l'.head = l.head ∧
      l'.size = l.size + (zs.length + 1) ∧ l'.proxy = l.proxy := by
  have hz : z ≠ other.head := ho.node_ne_head (by simp)
  have hnz : m.next z = zs.head?.getD other.head := by
    rw [(hov z (by simp)).1]
    exact ho.next_node
  have ho' : ListInv m0 other ((ydone ++ [z]) ++ zs) := by simpa using ho
  obtain ⟨mc, e, q1, q2, q3, q4, q5, q6, q7⟩ :=
    createFromLoop_spec zs (ydone ++ [z]) fuel
      { m with value := upd m.value m.fresh (m.value z), fresh := m.fresh + 1 }
      m.fresh (0 + 1) ho'
      (by
        intro b hb
        have := halloc b (by simpa using hb)
        show b < m.fresh + 1
        omega)
      (by
        intro hb
        have := halloc m.fresh (by simpa using hb)
        omega)
      (by
        intro b hb
        have hbm : b ∈ ydone ++ z :: zs := by simp [hb]
        have hb2 : b ≠ m.fresh := fun e => by
          have := halloc b hbm
          omega
        have := hov b (List.mem_cons_of_mem _ hb)
        simp only [upd, if_neg hb2]
        exact this)
      hf (by show m.fresh < m.fresh + 1; omega)
  simp only at e q1 q2 q3 q4 q5 q6 q7
  have hhf : l.head < m.fresh := hl.alloc _ (by simp)
  have hwf : l.head ≠ m.fresh := by omega
  obtain ⟨m4, tmp4, e4, n4, p4, v4, f4, d4⟩ := insertNodes_spec mc (0 + 1 + zs.length) m.fresh
    ((List.range' (m.fresh + 1) zs.length).getLast?.getD m.fresh) l.head hwf
  have eN : List.range' m.fresh (zs.length + 1)
      = m.fresh :: List.range' (m.fresh + 1) zs.length := by
    simp [List.range'_succ]
  have hNge : ∀ a ∈ List.range' m.fresh (zs.length + 1), m.fresh ≤ a ∧ a < m.fresh + (zs.length + 1) := by
    intro a ha
    simp only [List.mem_range'_1] at ha
    exact ha
  have hNnd : (List.range' m.fresh (zs.length + 1)).Nodup := List.nodup_range' _ _
  have hlast : (List.range' m.fresh (zs.length + 1)).getLast?
      = some ((List.range' (m.fresh + 1) zs.length).getLast?.getD m.fresh) := by
    rw [eN, getLast?_cons_getD]
  have hlastmem : (List.range' (m.fresh + 1) zs.length).getLast?.getD m.fresh
      ∈ List.range' m.fresh (zs.length + 1) := List.mem_of_mem_getLast? hlast
  have hlge := (hNge _ hlastmem).1
  have hprevh : mc.prev l.head = xs.getLast?.getD l.head := by
    rw [q6 l.head (by omega)]
    exact hl.prev_head
  have hpmem := getLast?_getD_mem l.head xs
  have hplt : xs.getLast?.getD l.head < m.fresh := hl.alloc _ hpmem
  refine ⟨m4, { l with size := l.size + (0 + 1 + zs.length) }, m.fresh, ?_, ?_, ?_, ?_, ?_, ?_,
    ?_, rfl, ?_, rfl⟩
  · simp only [LinkedList.insertRangeFrom, ListTmpNodes.createNodesFromIters, hz, if_false,
      hnz, ListTmpNodes.new, e, e4]
  · refine ⟨?_, ?_, ?_, ?_, ?_⟩
    · have hring : List.Chain' (Link m) (l.head :: (xs ++ [] ++ []) ++ [l.head]) := by
        simpa using hl.ring
      suffices hsp : List.Chain' (Link m4)
          (l.head :: (xs ++ List.range' m.fresh (zs.length + 1) ++ []) ++ [l.head]) by
        simpa using hsp
      refine ring_splice [] hring (by simpa using hl.nodup) ?_ ?_ ?_
      · intro a ha hap
        simp only [List.append_nil] at ha hap
        have halt := hl.alloc a ha
        rw [n4 a, hprevh, if_neg (by omega), if_neg hap, q5 a (by omega) (by omega)]
      · intro b hb hbw
        simp only [List.append_nil, List.head?_nil, Option.getD_none] at hb hbw
        have hblt := hl.alloc b hb
        rw [p4 b, if_neg hbw, if_neg (by omega), q6 b (by omega)]
      · simp only [List.head?_nil, Option.getD_none]
        have hin : List.Chain' (Link m4) (List.range' m.fresh (zs.length + 1)) := by
          rw [eN] at hNnd hlast ⊢
          refine Link.chain_frame q3 ?_ ?_
          · intro a ha
            have hne := nodup_dropLast_ne hNnd hlast ha
            have hge := (hNge a (by rw [eN]; exact List.mem_of_mem_dropLast ha)).1
            rw [n4 a, if_neg hne, hprevh, if_neg (by omega)]
          · intro b hb
            have hne := nodup_tail_ne hNnd (List.head?_cons) hb
            have hge := (hNge b (by rw [eN]; exact List.mem_of_mem_tail hb)).1
            rw [p4 b, if_neg (by omega), if_neg hne]
        have e1 : xs.getLast?.getD l.head :: List.range' m.fresh (zs.length + 1) ++ [l.head]
            = (xs.getLast?.getD l.head :: List.range' m.fresh (zs.length + 1)) ++ [l.head] := rfl
        rw [e1, List.chain'_append]
        refine ⟨?_, List.chain'_singleton _, ?_⟩
        · rw [eN, List.chain'_cons]
          refine ⟨⟨?_, ?_⟩, by rw [← eN]; exact hin⟩
          · rw [n4, hprevh]
            by_cases c : xs.getLast?.getD l.head
                = (List.range' (m.fresh + 1) zs.length).getLast?.getD m.fresh
            · omega
            · simp [c]
          · rw [p4, if_neg (by omega), if_pos rfl, hprevh]
        · intro x hx y hy
          simp only [List.head?_cons, Option.mem_def, Option.some.injEq] at hy
          subst hy
          have hx2 : x = (List.range' (m.fresh + 1) zs.length).getLast?.getD m.fresh := by
            rw [eN] at hx
            simp only [Option.mem_def] at hx
            rw [List.getLast?_cons_cons, ← eN, hlast] at hx
            exact (Option.some.inj hx).symm
          subst hx2
          exact ⟨by rw [n4, if_pos rfl], by rw [p4, if_pos rfl]⟩
    · have : l.head :: (xs ++ List.range' m.fresh (zs.length + 1))
          = (l.head :: xs) ++ List.range' m.fresh (zs.length + 1) := rfl
      show (l.head :: (xs ++ List.range' m.fresh (zs.length + 1))).Nodup
      rw [this, List.nodup_append]
      refine ⟨hl.nodup, hNnd, ?_⟩
      intro a ha hb
      have := hl.alloc a ha
      have := (hNge a hb).1
      omega
    · show l.size + (0 + 1 + zs.length) = _
      rw [List.length_append, List.length_range', hl.size_eq]
      omega
    · intro a ha
      rw [f4, q1]
      have : a ∈ (l.head :: xs) ++ List.range' m.fresh (zs.length + 1) := ha
      rcases List.mem_append.1 this with h1 | h1
      · have := hl.alloc a h1
        omega
      · have := (hNge a h1).2
        omega
    · intro it hit
      have := hl.iters it hit
      show it.ptr ∈ l.head :: (xs ++ List.range' m.fresh (zs.length + 1))
      simp only [List.mem_cons, List.mem_append] at this ⊢
      tauto
  · rw [v4, eN, List.map_cons, q4, q7 m.fresh (by omega)]
    simp only [upd, if_true, List.map_cons]
    rw [(hov z (by simp)).2]
  · intro a ha
    rw [v4, q7 a (by omega)]
    have : a ≠ m.fresh := by omega
    simp [upd, this]
  · intro a ha hna
    have hah : a ≠ l.head := fun e => hna (by simp [e])
    have hap : a ≠ xs.getLast?.getD l.head := fun e => hna (e ▸ hpmem)
    constructor
    · rw [n4 a, hprevh, if_neg (by omega), if_neg hap, q5 a (by omega) (by omega)]
    · rw [p4 a, if_neg hah, if_neg (by omega), q6 a (by omega)]
  · rw [f4, q1]
    omega
  · rw [d4, q2]
  · show l.size + (0 + 1 + zs.length) = _
    omega

/-- `copyOrMoveList(other, CopyTag)` for two well-formed lists that share no
node: the call returns, this list ends with the values of `other` in order
and the size of `other`, `other` is as before, and the first
`min (old size) (size of other)` nodes of this list are the nodes it had. -/
theorem copyOrMoveList_spec {m : ListMem T} {l other : ListValue} {xs ys : List Nat}
    {fuel : Nat} (hl : ListInv m l xs) (ho : ListInv m other ys)
    (hdisj : ∀ a ∈ l.head :: xs, a ∉ other.head :: ys)
    (hf : xs.length + ys.length < fuel) :
    ∃ m' l' xs', LinkedList.copyOrMoveList fuel m l other = some (m', l') ∧
      ListInv m' l' xs' ∧ xs'.map m'.value = ys.map m.value ∧ l'.size = other.size ∧
      l'.head = l.head ∧ ListInv m' other ys ∧ ys.map m'.value = ys.map m.value ∧
      xs'.take (min xs.length ys.length) = xs.take (min xs.length ys.length) ∧
      (∀ a ∈ xs', a ∈ xs ∨ m.fresh ≤ a) := by
  have hd : ∀ a ∈ ([] : List Nat) ++ xs, a ∉ ([] : List Nat) ++ ys := by
    intro a ha hb
    simp only [List.nil_append] at ha hb
    exact hdisj a (List.mem_cons_of_mem _ ha) (List.mem_cons_of_mem _ hb)
  have hd2 : ∀ b ∈ other.head :: ys, b ∉ l.head :: xs := fun b hb ha => hdisj b ha hb
  by_cases hsz : ys.length ≤ xs.length
  · obtain ⟨m1, e1, n1, p1, f1, d1, v1, w1⟩ :=
      @copyLoopOther_spec T m l other ys xs [] [] fuel m
        (by simpa using hl) (by simpa using ho) hd rfl (fun _ _ => rfl) hsz (by omega)
    have hl1 : ListInv m1 l (xs.take ys.length ++ xs.drop ys.length ++ []) := by
      rw [List.append_nil, List.take_append_drop]
      exact hl.of_links (fun a _ => by rw [n1]) (fun a _ => by rw [p1]) (by omega)
    obtain ⟨m2, l2, e2, hl2, v2, f2, -, hh2, -⟩ :=
      @eraseRange_inv T m1 l _ _ _ hl1 fuel
        (by rw [List.append_nil, List.take_append_drop]; omega)
    have hfr := eraseRange_frame hl1 e2
    simp only [List.append_nil, List.take_append_drop] at hfr
    simp only [List.append_nil, List.head?_nil, Option.getD_none] at e2 hl2
    refine ⟨m2, { l2 with size := other.size }, xs.take ys.length, ?_, ?_, ?_, rfl, hh2,
      ?_, ?_, ?_, fun a ha => Or.inl (List.mem_of_mem_take ha)⟩
    · simp only [LinkedList.copyOrMoveList, ge_iff_le, hl.size_eq, ho.size_eq, hsz, if_true,
        hl.next_head, ho.next_head, e1, e2]
    · refine ⟨hl2.ring, hl2.nodup, ?_, hl2.alloc, hl2.iters⟩
      show other.size = _
      rw [ho.size_eq, List.length_take]
      omega
    · rw [v2]
      exact v1
    · refine ho.of_links ?_ ?_ (by omega)
      · intro a ha
        rw [(hfr a (hd2 a ha)).1, n1]
      · intro a ha
        rw [(hfr a (hd2 a ha)).2, p1]
    · rw [v2]
      refine List.map_congr_left ?_
      intro b hb
      refine w1 b ?_
      intro hbx
      exact hd2 b (List.mem_cons_of_mem _ hb) (List.mem_cons_of_mem _ (List.mem_of_mem_take hbx))
    · rw [Nat.min_eq_right hsz, List.take_take, Nat.min_self]
  · have hlt : xs.length < ys.length := by omega
    obtain ⟨m1, e1, n1, p1, f1, d1, v1, w1⟩ :=
      @copyLoopThis_spec T m l other xs ys [] [] fuel m
        (by simpa using hl) (by simpa using ho) hd rfl (fun _ _ => rfl) (by omega) (by omega)
    have hl1 : ListInv m1 l xs :=
      hl.of_links (fun a _ => by rw [n1]) (fun a _ => by rw [p1]) (by omega)
    obtain ⟨z, zs, hzs⟩ : ∃ z zs, ys.drop xs.length = z :: zs := by
      cases hdrop : ys.drop xs.length with
      | nil =>
        have := congrArg List.length hdrop
        simp at this
        omega
      | cons z zs => exact ⟨z, zs, rfl⟩
    have hys : ys = ys.take xs.length ++ z :: zs := by
      rw [← hzs, List.take_append_drop]
    have hlen : ys.length = xs.length + (zs.length + 1) := by
      have := congrArg List.length hys
      simp only [List.length_append, List.length_take, List.length_cons] at this
      omega
    have hzmem : ∀ b ∈ z :: zs, b ∈ ys := by
      intro b hb
      rw [hys]
      exact List.mem_append_right _ hb
    have hnx : ∀ b ∈ ys, b ∉ xs := fun b hb hx =>
      hd2 b (List.mem_cons_of_mem _ hb) (List.mem_cons_of_mem _ hx)
    have ho1 : ListInv m other (ys.take xs.length ++ z :: zs) := by
      rw [← hys]
      exact ho
    obtain ⟨m2, l2, ret, e2, hl2, v2, w2, fr2, f2, -, hh2, hs2, -⟩ :=
      @insertRangeFrom_back T m m1 l other xs _ zs z fuel hl1 ho1
        (by
          intro b hb
          exact ⟨by rw [n1], w1 b (hnx b (hzmem b hb))⟩)
        (by
          intro b hb
          rw [← hys] at hb
          rw [f1]
          exact ho.alloc b (List.mem_cons_of_mem _ hb))
        (by omega)
    refine ⟨m2, { l2 with size := other.size },
      xs ++ List.range' m1.fresh (zs.length + 1), ?_, ?_, ?_, rfl, hh2, ?_, ?_, ?_, ?_⟩
    · have hnsz : ¬ ys.length ≤ xs.length := hsz
      simp only [LinkedList.copyOrMoveList, ge_iff_le, hl.size_eq, ho.size_eq, hnsz, if_false,
        hl.next_head, ho.next_head, e1, hzs, List.head?_cons, Option.getD_some, e2]
    · refine ⟨hl2.ring, hl2.nodup, ?_, hl2.alloc, hl2.iters⟩
      show other.size = _
      rw [ho.size_eq, List.length_append, List.length_range']
      exact hlen
    · rw [List.map_append, v2]
      have hx : xs.map m2.value = xs.map m1.value := by
        refine List.map_congr_left ?_
        intro a ha
        exact w2 a (hl1.alloc a (List.mem_cons_of_mem _ ha))
      rw [hx, v1, ← List.map_append, ← hys]
    · refine ho.of_links ?_ ?_ (by omega)
      · intro a ha
        have hlt1 : a < m1.fresh := by rw [f1]; exact ho.alloc a ha
        rw [(fr2 a hlt1 (hd2 a ha)).1, n1]
      · intro a ha
        have hlt1 : a < m1.fresh := by rw [f1]; exact ho.alloc a ha
        rw [(fr2 a hlt1 (hd2 a ha)).2, p1]
    · refine List.map_congr_left ?_
      intro b hb
      have hlt1 : b < m1.fresh := by rw [f1]; exact ho.alloc b (List.mem_cons_of_mem _ hb)
      rw [w2 b hlt1]
      exact w1 b (hnx b hb)
    · rw [Nat.min_eq_left (by omega), List.take_left, List.take_length]
    · intro a ha
      rcases List.mem_append.1 ha with h1 | h1
      · exact Or.inl h1
      · simp only [List.mem_range'_1] at h1
        right
        omega

/-- The statements of the copy assignment (`LinkedList.copyAssignBody`) for
two well-formed lists `a` and `b` of any lengths, the same list (`c = oc`) or
two lists without a common node: they return; afterwards `a` is well formed,
iterating `a` gives the elements that iterating `b` gave before,
`size(a) = size(b)`, `b` is well formed on the nodes it had and iterating it
gives what it gave before, and the first `min (old size(a)) (size(b))` nodes
of `a` are the nodes that were there before. -/
theorem copyAssignBody_exact (c oc fuel : Nat) {m : ListMem T} {l other : ListValue}
    {xs ys : List Nat} (hl : ListInv m l xs) (ho : ListInv m other ys)
    (hcase : (c = oc ∧ other = l ∧ ys = xs) ∨
      (c ≠ oc ∧ ∀ a ∈ l.head :: xs, a ∉ other.head :: ys))
    (hf : xs.length + ys.length < fuel) :
    ∃ m' l' xs', LinkedList.copyAssignBody fuel c oc m l other = some (m', l') ∧
      ListInv m' l' xs' ∧
      LinkedList.contents fuel m' l' = LinkedList.contents fuel m other ∧
      LinkedList.contents fuel m' l' = some (ys.map m.value) ∧
      l'.size = other.size ∧ l'.size = ys.length ∧ l'.head = l.head ∧
      ListInv m' (if c = oc then l' else other) ys ∧
      LinkedList.contents fuel m' (if c = oc then l' else other)
        = LinkedList.contents fuel m other ∧
      xs'.take (min xs.length ys.length) = xs.take (min xs.length ys.length) := by
  rcases hcase with ⟨hc, rfl, rfl⟩ | ⟨hc, hdisj⟩
  · refine ⟨m, other, ys, ?_, hl, rfl, contents_spec hl (by omega), rfl, hl.size_eq, rfl,
      ?_, ?_, rfl⟩
    · simp [LinkedList.copyAssignBody, hc]
    · rw [if_pos hc]
      exact hl
    · rw [if_pos hc]
  · obtain ⟨m', l', xs', e, h1, h2, h3, h4, h5, h6, h7, -⟩ := copyOrMoveList_spec hl ho hdisj hf
    have hlen : xs'.length = ys.length := by
      have := congrArg List.length h2
      simpa using this
    have hc1 : LinkedList.contents fuel m' l' = some (ys.map m.value) := by
      rw [contents_spec h1 (by omega), h2]
    have hc2 : LinkedList.contents fuel m other = some (ys.map m.value) :=
      contents_spec ho (by omega)
    refine ⟨m', l', xs', ?_, h1, by rw [hc1, hc2], hc1, h3, by rw [h3, ho.size_eq], h4,
      ?_, ?_, h7⟩
    · simp only [LinkedList.copyAssignBody, hc, if_false]
      exact e
    · rw [if_neg hc]
      exact h5
    · rw [if_neg hc, hc2, contents_spec h5 (by omega), h6]

theorem copyAssignBody_exact_witness :
    ∃ m' l' xs', LinkedList.copyAssignBody 10 0 1 sampleTwoLists.1 sampleTwoLists.2.1
        sampleTwoLists.2.2 = some (m', l') ∧
      ListInv m' l' xs' ∧
      LinkedList.contents 10 m' l'
        = LinkedList.contents 10 sampleTwoLists.1 sampleTwoLists.2.2 ∧
      LinkedList.contents 10 m' l' = some ([5, 6].map sampleTwoLists.1.value) ∧
      l'.size = sampleTwoLists.2.2.size ∧ l'.size = [5, 6].length ∧
      l'.head = sampleTwoLists.2.1.head ∧
      ListInv m' (if 0 = 1 then l' else sampleTwoLists.2.2) [5, 6] ∧
      LinkedList.contents 10 m' (if 0 = 1 then l' else sampleTwoLists.2.2)
        = LinkedList.contents 10 sampleTwoLists.1 sampleTwoLists.2.2 ∧
      xs'.take (min [1, 2, 3].length [5, 6].length)
        = [1, 2, 3].take (min [1, 2, 3].length [5, 6].length) :=
  copyAssignBody_exact 0 1 10 sampleTwoLists_inv.1 sampleTwoLists_inv.2
    (Or.inr ⟨by decide, by unfold sampleTwoLists; decide!⟩) (by decide)

/-- The statements of the copy assignment evaluated on the two sample lists,
in both directions: the longer list is cut down to the nodes 1, 2 and holds 8, 9;
the shorter list keeps the nodes 5, 6, gets the new node 7 and holds 5, 6, 7;
the source list reads the same afterwards. -/
theorem copyAssignBody_samples :
    ((LinkedList.copyAssignBody 10 0 1 sampleTwoLists.1 sampleTwoLists.2.1
        sampleTwoLists.2.2).map
      (fun s => (LinkedList.traverse 10 s.1 s.2, LinkedList.contents 10 s.1 s.2, s.2.size,
        LinkedList.contents 10 s.1 sampleTwoLists.2.2)))
      = some (some [1, 2], some [8, 9], 2, some [8, 9]) ∧
    ((LinkedList.copyAssignBody 10 1 0 sampleTwoLists.1 sampleTwoLists.2.2
        sampleTwoLists.2.1).map
      (fun s => (LinkedList.traverse 10 s.1 s.2, LinkedList.contents 10 s.1 s.2, s.2.size,
        LinkedList.contents 10 s.1 sampleTwoLists.2.1)))
      = some (some [5, 6, 7], some [5, 6, 7], 3, some [5, 6, 7]) := by
  unfold sampleTwoLists
  constructor <;> decide!

/-- C21 (refuted by the code): the copy assignment `a = b` has no result,
whatever the two lists are: `operator=(const List& other)` passes `other`, an
lvalue of type `const List`, to `copyOrMoveList(List& other, Tag tag)`, a
reference to non-const that does not bind to it, so the operator does not
compile once a program uses it.  The same call with an lvalue of type `List`,
as `operator=(List&&)` makes it, binds.  The statements of the operator,
were the call accepted, do what the claim asks for: on the sample lists
5, 6, 7 and 8, 9 they leave `a` with the values 8, 9 and the size 2 on its
old nodes 1, 2, and `b` reads 8, 9 as before. -/
theorem copy_assignment_does_not_compile (fuel c oc : Nat) (m : ListMem T)
    (l other : ListValue) :
    LinkedList.copyAssign fuel c oc m l other = none ∧
    bindsReference false true = false ∧ bindsReference false false = true ∧
    ((LinkedList.copyAssignBody 10 0 1 sampleTwoLists.1 sampleTwoLists.2.1
        sampleTwoLists.2.2).map
      (fun s => (LinkedList.traverse 10 s.1 s.2, LinkedList.contents 10 s.1 s.2, s.2.size,
        LinkedList.contents 10 s.1 sampleTwoLists.2.2)))
      = some (some [1, 2], some [8, 9], 2, some [8, 9]) := by
  refine ⟨rfl, rfl, rfl, ?_⟩
  unfold sampleTwoLists
  decide!

/-- `emplaceFront` on a list with a first node `x`: the new node is linked in
behind `x`, as the second node of the list. -/
theorem emplaceFront_second {m : ListMem T} {l : ListValue} {x : Nat} {rest : List Nat}
    (h : ListInv m l (x :: rest)) (v : T) :
    ∃ m', LinkedList.emplaceFront m l v = some (m', { l with size := l.size + 1 }, m.fresh) ∧
      ListInv m' { l with size := l.size + 1 } (x :: m.fresh :: rest) ∧
      m'.value = upd m.value m.fresh v := by
  have h1 : ListInv m l ([x] ++ rest) := h
  obtain ⟨m', e, hi, hv, -, -⟩ := emplaceNode_inv h1 v
  refine ⟨m', ?_, hi, hv⟩
  have hn : m.next l.head = x := by
    have := h.next_head
    simpa using this
  have h2 : ListInv m l ([] ++ x :: rest) := h
  have hx : m.next x = rest.head?.getD l.head := h2.next_node
  unfold LinkedList.emplaceFront
  rw [hn, hx]
  exact e

/-- C40 (refuted by the code): `emplaceFront` does not put the new element at
the front.  On the list 5, 6, 7 `pushFront(9)` gives 9, 5, 6, 7 while
`emplaceFront(9)` gives 5, 9, 6, 7, and `front()` afterwards is 5; on the
list of the single element 5 (the sample list after two `popBack`)
`emplaceFront(9)` gives 5, 9.  The source passes `head->next->next` to
`emplaceNode` where `pushFront` passes `head->next`. -/
theorem emplaceFront_is_not_pushFront :
    (LinkedList.pushFront sampleList.1 sampleList.2 9).map
        (fun s => LinkedList.contents 10 s.1 s.2) = some (some [9, 5, 6, 7]) ∧
    (LinkedList.emplaceFront sampleList.1 sampleList.2 9).map
        (fun s => (LinkedList.contents 10 s.1 s.2.1, LinkedList.front s.1 s.2.1,
          s.1.value s.2.2)) = some (some [5, 9, 6, 7], some 5, 9) ∧
    (let s1 := LinkedList.popBack sampleList.1 sampleList.2
     let s2 := LinkedList.popBack s1.1 s1.2
     (LinkedList.contents 10 s2.1 s2.2,
      (LinkedList.emplaceFront s2.1 s2.2 9).map
        (fun s => (LinkedList.contents 10 s.1 s.2.1, LinkedList.front s.1 s.2.1))))
      = (some [5], some (some [5, 9], some 5)) := by
  unfold sampleList
  refine ⟨?_, ?_, ?_⟩ <;> decide!

theorem climbLeft_step_left {m : TreeMem K V} {x c : Nat} (f : Nat)
    (hp : m.parent c = x) (hx : m.is_nil x = false) (hr : m.left x = c) :
    climbLeft m (f + 1) c = climbLeft m f x := by
  conv_lhs => unfold climbLeft
  simp [hp, hx, hr]

theorem climbLeft_step_stop {m : TreeMem K V} {x c : Nat} (f : Nat)
    (hp : m.parent c = x) (hr : m.is_nil x = true ∨ m.left x ≠ c) :
    climbLeft m (f + 1) c = some x := by
  conv_lhs => unfold climbLeft
  rw [hp]
  rcases hr with hr | hr
  · simp [hr]
  · simp [hr]

/-- The climb of `operator--` from a node without left child inside a subtree:
it stops at the previous node of the subtree in order, or it leaves the
subtree through its root. -/
theorem Rep.climb_left {m : TreeMem K V} {head : Nat} (hnil : m.is_nil head = true) :
    ∀ (s : Shape) (par x : Nat), Rep m head s par x → s.addrs.Nodup →
      ∀ (pre : List Nat) (a : Nat) (post : List Nat), s.addrs = pre ++ a :: post →
      m.left a = head →
      (∀ b pre', pre = pre' ++ [b] → ∀ f, s.addrs.length ≤ f → climbLeft m f a = some b) ∧
      (pre = [] → ∃ k, k + 1 ≤ s.addrs.length ∧ ∀ f, climbLeft m (f + k) a = climbLeft m f x)
  | Shape.nil, _, _, _, _, pre, a, post, hs, _ => by simp [Shape.addrs] at hs
  | Shape.node l p r, par, x, h, hnd, pre, a, post, hs, hla => by
    obtain ⟨hx, hn, hp, hl, hr⟩ := h
    subst hx
    have hxh : x ≠ head := by
      intro hc; rw [hc, hnil] at hn; exact absurd hn (by simp)
    have hsa : (Shape.node l x r).addrs = l.addrs ++ x :: r.addrs := rfl
    rw [hsa] at hs hnd ⊢
    have hnd0 := nodup_around hnd
    have hmem : a ∈ l.addrs ++ x :: r.addrs := by rw [hs]; simp
    rcases List.mem_append.1 hmem with hal | hax
    · -- the node lies in the left subtree
      obtain ⟨p1, p2, hl12⟩ := List.append_of_mem hal
      have hs' : p1 ++ a :: (p2 ++ x :: r.addrs) = pre ++ a :: post := by
        rw [← hs, hl12]; simp
      have hu := nodup_split_unique hs' (by rw [hs', ← hs]; exact hnd)
      obtain ⟨i1, i2⟩ := Rep.climb_left hnil l x (m.left x) hl hnd0.2.2.2.1 p1 a p2 hl12 hla
      have hpl : m.parent (m.left x) = x := by
        rcases Rep.root l _ _ hl with ⟨h1, -⟩ | ⟨ll, lr, h1⟩
        · subst h1; simp [Shape.addrs] at hal
        · subst h1; exact hl.2.2.1
      refine ⟨?_, ?_⟩
      · intro b pre' hpre f hf
        simp only [List.length_append, List.length_cons] at hf
        exact i1 b pre' (by rw [hu.1, hpre]) f (by omega)
      · intro hpre
        obtain ⟨k, hk, hclimb⟩ := i2 (by rw [hu.1, hpre])
        refine ⟨k + 1, by simp only [List.length_append, List.length_cons]; omega, ?_⟩
        intro f
        have : f + (k + 1) = (f + 1) + k := by omega
        rw [this, hclimb]
        exact climbLeft_step_left f hpl hn rfl
    · rcases List.mem_cons.1 hax with hax | har
      · -- the node is the root of the subtree
        subst hax
        have hu := nodup_split_unique hs hnd
        have hl0 : l = Shape.nil := Rep.nil_of_head l _ hnil (hla ▸ hl)
        subst hl0
        refine ⟨?_, ?_⟩
        · intro b pre' hpre
          have := hu.1; rw [hpre] at this
          simp [Shape.addrs] at this
        · intro _
          exact ⟨0, by simp only [List.length_append, List.length_cons]; omega, fun f => rfl⟩
      · -- the node lies in the right subtree
        obtain ⟨p1, p2, hr12⟩ := List.append_of_mem har
        have hs' : (l.addrs ++ x :: p1) ++ a :: p2 = pre ++ a :: post := by
          rw [← hs, hr12]; simp
        have hu := nodup_split_unique hs' (by rw [hs', ← hs]; exact hnd)
        obtain ⟨i1, i2⟩ := Rep.climb_left hnil r x (m.right x) hr hnd0.2.2.2.2 p1 a p2 hr12 hla
        have hrroot : m.right x ∈ r.addrs := by
          rcases Rep.root_in r _ _ hr with h1 | h1
          · have := Rep.nil_of_head r _ hnil (h1 ▸ hr)
            subst this
            simp [Shape.addrs] at har
          · exact h1
        have hpr : m.parent (m.right x) = x := by
          rcases Rep.root r _ _ hr with ⟨h1, -⟩ | ⟨rl, rr, h1⟩
          · subst h1; simp [Shape.addrs] at har
          · subst h1; exact hr.2.2.1
        have hlr : m.left x ≠ m.right x := by
          rcases Rep.root_in l _ _ hl with h1 | h1
          · rw [h1]; intro hc
            exact Rep.head_not_mem hnil r _ _ hr (hc ▸ hrroot)
          · intro hc
            exact hnd0.2.2.1 _ h1 (hc ▸ hrroot)
        refine ⟨?_, ?_⟩
        · intro b pre' hpre f hf
          simp only [List.length_append, List.length_cons] at hf
          rcases List.eq_nil_or_concat p1 with hp1 | ⟨p1', c, hp1⟩
          · subst hp1
            have hb : b = x := by
              have := hu.1; rw [hpre] at this
              have e : l.addrs ++ [x] = pre' ++ [b] := this
              exact (snoc_inj e).2.symm
            obtain ⟨k, hk, hclimb⟩ := i2 rfl
            obtain ⟨f', hf'⟩ : ∃ f', f = (f' + 1) + k := ⟨f - k - 1, by omega⟩
            rw [hf', hclimb, hb]
            exact climbLeft_step_stop f' hpr (Or.inr hlr)
          · have hb : b = c := by
              have := hu.1; rw [hpre, hp1] at this
              have e : (l.addrs ++ x :: p1') ++ [c] = pre' ++ [b] := by
                rw [← this]; simp
              exact (snoc_inj e).2.symm
            rw [hb]
            exact i1 c p1' (by rw [hp1]; simp) f (by omega)
        · intro hpre
          have := hu.1; rw [hpre] at this
          simp at this

/-- `operator--` on a node of a well-formed tree gives the previous node in
order, or `end()` before the first one. -/
theorem decrement_spec {comp : K → K → Bool} {m : TreeMem K V} {t : TreeValue}
    {L : List Nat} (h : TreeInv comp m t L) {pre post : List Nat} {a : Nat}
    (hL : L = pre ++ a :: post) {fuel : Nat} (hf : L.length < fuel) :
    decrement fuel m a = some (pre.getLast?.getD t.head) := by
  have ha : a ∈ L := by rw [hL]; simp
  have hreal := h.real ha
  have hlm : m.left a = t.head ∨ m.left a ∈ L := (h.children ha).1.imp id (fun x => x.1)
  unfold decrement
  rw [hreal]
  simp only [Bool.false_eq_true, if_false]
  by_cases hln : m.is_nil (m.left a) = true
  · rw [if_pos hln]
    have hla : m.left a = t.head := (h.nil_child hlm).1 hln
    obtain ⟨s, hs, hsL⟩ := h.shape
    obtain ⟨i1, i2⟩ := Rep.climb_left h.head_nil s _ _ hs (hsL ▸ h.nodup) pre a post
      (by rw [hsL, hL]) hla
    rcases List.eq_nil_or_concat pre with hpre | ⟨pre', b, hpre⟩
    · subst hpre
      obtain ⟨k, hk, hclimb⟩ := i2 rfl
      rw [hsL] at hk
      obtain ⟨f', hf'⟩ : ∃ f', fuel = (f' + 1) + k := ⟨fuel - k - 1, by omega⟩
      rw [hf', hclimb]
      have hroot : m.parent (m.parent t.head) = t.head := by
        rcases Rep.root s _ _ hs with ⟨h1, h2⟩ | ⟨l, r, h1⟩
        · subst h1
          rw [← hsL] at ha; simp [Shape.addrs] at ha
        · subst h1; exact hs.2.2.1
      exact climbLeft_step_stop f' hroot (Or.inl h.head_nil)
    · have hb : pre.getLast?.getD t.head = b := by
        rw [hpre]; simp
      rw [hb]
      exact i1 b pre' (by rw [hpre]; simp) fuel (by rw [hsL]; omega)
  · rw [if_neg hln]
    have hln' : m.is_nil (m.left a) = false := by
      cases hc : m.is_nil (m.left a)
      · rfl
      · exact absurd hc hln
    obtain ⟨l, r, pre', post', hL', hrep, -, -, -, -⟩ := h.zoom ha
    obtain ⟨-, -, -, hll, -⟩ := hrep
    have hlne : l ≠ Shape.nil := by
      intro hc; subst hc
      have : m.left a = t.head := hll
      rw [this, h.head_nil] at hln'; exact absurd hln' (by simp)
    have hlen : l.addrs.length ≤ fuel := by
      have := congrArg List.length hL'
      simp only [List.length_append, List.length_cons] at this
      omega
    obtain ⟨q, rest, hq, hrest, -⟩ := maxInSubTree_spec h.head_nil l a (m.left a) fuel hll
      hlne hlen
    rw [hq]
    have hs' : (pre' ++ rest ++ [q]) ++ a :: (r.addrs ++ post') = pre ++ a :: post := by
      rw [← hL, hL', hrest]; simp
    have hu := nodup_split_unique hs' (by rw [hs', ← hL]; exact h.nodup)
    rw [← hu.1]; simp

/-- C38: in a well-formed tree with the nodes `L` in order, the unchecked
`++` moves a real node to its successor in order (to `end()` from the last
node) and `--` moves it to its predecessor in order (to `end()` from the
first node); `--` on `end()` gives the last node, the maximum, and `++` on
`end()` the first one; hence `--(++x) = x` for every real node `x` and
`++(--y) = y` for every `y` that is `end()` or a real node. -/
theorem increment_decrement_inverse {comp : K → K → Bool} {m : TreeMem K V} {t : TreeValue}
    {L : List Nat} (h : TreeInv comp m t L) {fuel : Nat} (hf : L.length < fuel) :
    (∀ pre x post, L = pre ++ x :: post →
      increment fuel m x = some (post.head?.getD t.head) ∧
      decrement fuel m x = some (pre.getLast?.getD t.head)) ∧
    decrement fuel m t.head = some (L.getLast?.getD t.head) ∧
    increment fuel m t.head = some (L.head?.getD t.head) ∧
    (∀ x ∈ L, (increment fuel m x).bind (decrement fuel m) = some x) ∧
    (∀ y, y = t.head ∨ y ∈ L → (decrement fuel m y).bind (increment fuel m) = some y) := by
  have hdec : decrement fuel m t.head = some (L.getLast?.getD t.head) := by
    unfold decrement
    rw [h.head_nil, if_pos rfl, h.head_right]
  have hinc : increment fuel m t.head = some (L.head?.getD t.head) := by
    unfold increment
    rw [h.head_nil, if_pos rfl, h.head_left]
  refine ⟨fun pre x post hL => ⟨increment_spec h hL hf, decrement_spec h hL hf⟩, hdec, hinc,
    ?_, ?_⟩
  · intro x hx
    obtain ⟨pre, post, hL⟩ := List.append_of_mem hx
    rw [increment_spec h hL hf]
    cases post with
    | nil =>
      simp only [List.head?_nil, Option.getD_none, Option.some_bind]
      rw [hdec, hL]
      simp
    | cons b post' =>
      simp only [List.head?_cons, Option.getD_some, Option.some_bind]
      have hL2 : L = (pre ++ [x]) ++ b :: post' := by rw [hL]; simp
      rw [decrement_spec h hL2 hf]
      simp
  · rintro y (hy | hy)
    · subst hy
      rw [hdec]
      rcases List.eq_nil_or_concat L with hL | ⟨pre, q, hL⟩
      · subst hL
        simp only [List.getLast?_nil, Option.getD_none, Option.some_bind]
        rw [hinc]
        rfl
      · have hq : L.getLast?.getD t.head = q := by rw [hL]; simp
        rw [hq]
        simp only [Option.some_bind]
        have hL2 : L = pre ++ q :: [] := by rw [hL]; simp
        rw [increment_spec h hL2 hf]
        rfl
    · obtain ⟨pre, post, hL⟩ := List.append_of_mem hy
      rw [decrement_spec h hL hf]
      rcases List.eq_nil_or_concat pre with hpre | ⟨pre', b, hpre⟩
      · subst hpre
        simp only [List.getLast?_nil, Option.getD_none, Option.some_bind]
        rw [hinc, hL]
        rfl
      · have hb : pre.getLast?.getD t.head = b := by rw [hpre]; simp
        rw [hb]
        simp only [Option.some_bind]
        have hL2 : L = pre' ++ b :: (y :: post) := by rw [hL, hpre]; simp
        rw [increment_spec h hL2 hf]
        rfl

theorem increment_decrement_inverse_witness :
    (∀ pre x post, [2, 1, 3] = pre ++ x :: post →
      increment 10 sampleTree.1 x = some (post.head?.getD sampleTree.2.head) ∧
      decrement 10 sampleTree.1 x = some (pre.getLast?.getD sampleTree.2.head)) ∧
    decrement 10 sampleTree.1 sampleTree.2.head
      = some (([2, 1, 3] : List Nat).getLast?.getD sampleTree.2.head) ∧
    increment 10 sampleTree.1 sampleTree.2.head
      = some (([2, 1, 3] : List Nat).head?.getD sampleTree.2.head) ∧
    (∀ x ∈ [2, 1, 3],
      (increment 10 sampleTree.1 x).bind (decrement 10 sampleTree.1) = some x) ∧
    (∀ y, y = sampleTree.2.head ∨ y ∈ [2, 1, 3] →
      (decrement 10 sampleTree.1 y).bind (increment 10 sampleTree.1) = some y) :=
  increment_decrement_inverse sampleTree_inv (by decide)

theorem joinRuns_append (G1 G2 : List (Nat × List Nat)) :
    joinRuns (G1 ++ G2) = joinRuns G1 ++ joinRuns G2 := by
  induction G1 with
  | nil => rfl
  | cons g G1 ih => simp [joinRuns, ih]

theorem mem_joinRuns {a : Nat} {G : List (Nat × List Nat)} :
    a ∈ joinRuns G ↔ ∃ g ∈ G, a ∈ g.2 := by
  induction G with
  | nil => simp [joinRuns]
  | cons g G ih => simp [joinRuns, ih]

theorem getLast?_cons_of_ne_nil (a d : Nat) {l : List Nat} (h : l ≠ []) :
    (a :: l).getLast?.getD d = l.getLast?.getD d := by
  cases l with
  | nil => exact absurd rfl h
  | cons b l => simp [List.getLast?_cons_cons]

theorem Buckets.first_ne_head {Key F : Type} {tr : HashTraits Key T F} {value : Nat → T}
    {head : Nat} {v : HashVector} {G : List (Nat × List Nat)} (hb : Buckets tr value head v G)
    (hh : head ∉ joinRuns G) {g : Nat × List Nat} (hg : g ∈ G) :
    ∃ w run, g.2 = w :: run ∧ v.first_ g.1 = w ∧ w ≠ head := by
  obtain ⟨hne, -, hf, -⟩ := hb.runs g hg
  cases hrun : g.2 with
  | nil => exact absurd hrun hne
  | cons w run =>
    refine ⟨w, run, rfl, by rw [hf, hrun]; rfl, ?_⟩
    intro e
    exact hh (mem_joinRuns.2 ⟨g, hg, by rw [hrun, e]; simp⟩)

theorem Buckets.mem_idx_iff {Key F : Type} {tr : HashTraits Key T F} {value : Nat → T}
    {head : Nat} {v : HashVector} {G : List (Nat × List Nat)} (hb : Buckets tr value head v G)
    (hh : head ∉ joinRuns G) (b : Nat) : b ∈ G.map Prod.fst ↔ v.first_ b ≠ head := by
  constructor
  · intro hm
    obtain ⟨g, hg, rfl⟩ := List.mem_map.1 hm
    obtain ⟨w, run, -, hf, hw⟩ := hb.first_ne_head hh hg
    rw [hf]
    exact hw
  · intro hne
    by_contra hc
    exact hne (hb.empties b hc).1

theorem Buckets.split_at {Key F : Type} {tr : HashTraits Key T F} {value : Nat → T}
    {head : Nat} {v : HashVector} {G : List (Nat × List Nat)} (hb : Buckets tr value head v G)
    (hh : head ∉ joinRuns G) {b : Nat} (hne : v.first_ b ≠ head) :
    ∃ G1 w run G2, G = G1 ++ (b, w :: run) :: G2 ∧ v.first_ b = w ∧
      v.last_ b = (w :: run).getLast?.getD head ∧
      b ∉ G1.map Prod.fst ∧ b ∉ G2.map Prod.fst := by
  have hm := (hb.mem_idx_iff hh b).2 hne
  obtain ⟨g, hg, rfl⟩ := List.mem_map.1 hm
  obtain ⟨G1, G2, rfl⟩ := List.append_of_mem hg
  obtain ⟨w, run, hrun, hf, -⟩ := hb.first_ne_head hh hg
  have hl := (hb.runs g hg).2.2.2
  have hidx := hb.idx
  simp only [List.map_append, List.map_cons] at hidx
  have := nodup_around hidx
  refine ⟨G1, w, run, G2, ?_, hf, by rw [hl, hrun], this.1, this.2.1⟩
  rw [← hrun]

/-- The loop of `rehashHashVector` over the nodes `R` still to place, with
the runs `G` of the nodes placed so far: the loop ends, the ring is a
rearrangement of the ring before, and the vector describes the runs of the
whole ring. -/
theorem rehashLoop_spec {Key F : Type} (tr : HashTraits Key T F) (l : ListValue) :
    ∀ (R : List Nat) (G : List (Nat × List Nat)) (fuel : Nat) (m : ListMem T) (v : HashVector),
      ListInv m l (joinRuns G ++ R) → Buckets tr m.value l.head v G → R.length < fuel →
      ∃ m' v' G', rehashLoop tr l.head fuel m v (R.head?.getD l.head) = some (m', v') ∧
        ListInv m' l (joinRuns G') ∧ Buckets tr m'.value l.head v' G' ∧
        (joinRuns G').Perm (joinRuns G ++ R) ∧ m'.value = m.value ∧ m'.fresh = m.fresh ∧
        m'.freed = m.freed ∧ v'.size_ = v.size_
  | [], G, fuel + 1, m, v, hl, hb, _ => by
    refine ⟨m, v, G, ?_, by simpa using hl, hb, by simp, rfl, rfl, rfl, rfl⟩
    simp [rehashLoop]
  | a :: R, G, fuel + 1, m, v, hl, hb, hf => by
    have ha : a ≠ l.head := hl.node_ne_head (by simp)
    have hnext : m.next a = R.head?.getD l.head := hl.next_node
    have hh : l.head ∉ joinRuns G := by
      intro hm
      have := hl.nodup
      rw [List.nodup_cons] at this
      exact this.1 (List.mem_append_left _ hm)
    by_cases hfirst :
        v.first_ (Hash.getBucket tr v (tr.getKeyFromValue (m.value a))) = l.head
    · -- the bucket is empty: the node stays where it is
      have hnot : Hash.getBucket tr v (tr.getKeyFromValue (m.value a)) ∉ G.map Prod.fst := by
        intro hm
        exact (hb.mem_idx_iff hh _).1 hm hfirst
      have hl' : ListInv m l (joinRuns
          (G ++ [(Hash.getBucket tr v (tr.getKeyFromValue (m.value a)), [a])]) ++ R) := by
        rw [joinRuns_append]
        simpa [joinRuns] using hl
      obtain ⟨m', v', G', e, h1, h2, h3, h4, h5, h6, h7⟩ :=
        rehashLoop_spec tr l R
          (G ++ [(Hash.getBucket tr v (tr.getKeyFromValue (m.value a)), [a])]) fuel m
          { first_ := upd v.first_ (Hash.getBucket tr v (tr.getKeyFromValue (m.value a))) a
            last_ := upd v.last_ (Hash.getBucket tr v (tr.getKeyFromValue (m.value a))) a
            size_ := v.size_ } hl'
          (by
            refine ⟨?_, ?_, ?_⟩
            · rw [List.map_append, List.nodup_append]
              refine ⟨hb.idx, by simp, ?_⟩
              intro x hx hy
              simp only [List.map_cons, List.map_nil, List.mem_singleton] at hy
              exact hnot (hy ▸ hx)
            · intro g hg
              rcases List.mem_append.1 hg with hg | hg
              · obtain ⟨q1, q2, q3, q4⟩ := hb.runs g hg
                have hne : g.1 ≠ Hash.getBucket tr v (tr.getKeyFromValue (m.value a)) := by
                  intro e
                  exact hnot (e ▸ List.mem_map_of_mem _ hg)
                refine ⟨q1, q2, ?_, ?_⟩
                · simp only [upd, if_neg hne]
                  exact q3
                · simp only [upd, if_neg hne]
                  exact q4
              · simp only [List.mem_singleton] at hg
                subst hg
                refine ⟨by simp, ?_, by simp [upd], by simp [upd]⟩
                intro x hx
                simp only [List.mem_singleton] at hx
                subst hx
                rfl
            · intro b hbn
              simp only [List.map_append, List.map_cons, List.map_nil, List.mem_append,
                List.mem_singleton, not_or] at hbn
              simp only [upd, if_neg hbn.2]
              exact hb.empties b hbn.1)
          (by simp at hf; omega)
      refine ⟨m', v', G', ?_, h1, h2, ?_, h4, h5, h6, h7⟩
      · simp only [List.head?_cons, Option.getD_some, rehashLoop, ne_eq, ha,
          not_false_eq_true, if_true, Hash.keyAt, if_false, hfirst, hnext]
        exact e
      · refine h3.trans ?_
        rw [joinRuns_append]
        simp [joinRuns]
    · -- the bucket holds nodes: the node moves in front of them
      obtain ⟨G1, w, run, G2, hG, hw, hlast, hn1, hn2⟩ := hb.split_at hh hfirst
      have hring : ListInv m l (joinRuns G1 ++ w :: (run ++ joinRuns G2) ++ a :: R) := by
        have := hl
        rw [hG, joinRuns_append] at this
        simpa [joinRuns] using this
      have hmove := sortRelink_inv hring
      have hl' : ListInv (sortRelink m w a) l (joinRuns
          (G1 ++ (Hash.getBucket tr v (tr.getKeyFromValue (m.value a)), a :: w :: run) :: G2)
            ++ R) := by
        rw [joinRuns_append]
        simpa [joinRuns] using hmove
      obtain ⟨m', v', G', e, h1, h2, h3, h4, h5, h6, h7⟩ :=
        rehashLoop_spec tr l R
          (G1 ++ (Hash.getBucket tr v (tr.getKeyFromValue (m.value a)), a :: w :: run) :: G2)
          fuel (sortRelink m w a)
          { first_ := upd v.first_ (Hash.getBucket tr v (tr.getKeyFromValue (m.value a))) a
            last_ := v.last_
            size_ := v.size_ } hl'
          (by
            have hidx := hb.idx
            rw [hG] at hidx
            refine ⟨by simpa using hidx, ?_, ?_⟩
            · intro g hg
              have hcases : g ∈ G ∧ g.1 ≠ Hash.getBucket tr v (tr.getKeyFromValue (m.value a))
                  ∨ g = (Hash.getBucket tr v (tr.getKeyFromValue (m.value a)),
                      a :: w :: run) := by
                simp only [List.mem_append, List.mem_cons] at hg
                rcases hg with hg | hg | hg
                · refine Or.inl ⟨by rw [hG]; simp [hg], ?_⟩
                  intro e
                  exact hn1 (e ▸ List.mem_map_of_mem _ hg)
                · exact Or.inr hg
                · refine Or.inl ⟨by rw [hG]; simp [hg], ?_⟩
                  intro e
                  exact hn2 (e ▸ List.mem_map_of_mem _ hg)
              rcases hcases with ⟨hgG, hne⟩ | rfl
              · obtain ⟨q1, q2, q3, q4⟩ := hb.runs g hgG
                refine ⟨q1, q2, ?_, q4⟩
                simp only [upd, if_neg hne]
                exact q3
              · obtain ⟨-, q2, -, q4⟩ := hb.runs
                  (Hash.getBucket tr v (tr.getKeyFromValue (m.value a)), w :: run)
                  (by rw [hG]; simp)
                refine ⟨by simp, ?_, by simp [upd], ?_⟩
                · intro x hx
                  rcases List.mem_cons.1 hx with hx | hx
                  · subst hx
                    rfl
                  · exact q2 x hx
                · show v.last_ _ = _
                  rw [q4]
                  exact (getLast?_cons_of_ne_nil a l.head (by simp)).symm
            · intro b hbn
              have hbn' : b ∉ G.map Prod.fst := by
                rw [hG]
                simpa using hbn
              have hne : b ≠ Hash.getBucket tr v (tr.getKeyFromValue (m.value a)) := by
                intro e
                apply hbn
                simp [e]
              simp only [upd, if_neg hne]
              exact hb.empties b hbn')
          (by simp at hf; omega)
      refine ⟨m', v', G', ?_, h1, h2, ?_, h4, h5, h6, h7⟩
      · simp only [List.head?_cons, Option.getD_some, rehashLoop, ne_eq, ha,
          not_false_eq_true, if_true, Hash.keyAt, if_false, hfirst, hnext, hw]
        have hwh : ¬ w = l.head := fun e0 => hfirst (hw.trans e0)
        rw [if_neg hwh]
        exact e
      · refine h3.trans ?_
        rw [hG, joinRuns_append, joinRuns_append]
        simp only [joinRuns, List.append_assoc, List.cons_append]
        refine List.Perm.append_left _ ?_
        have e1 : a :: w :: (run ++ (joinRuns G2 ++ R))
            = a :: ((w :: (run ++ joinRuns G2)) ++ R) := by simp
        have e2 : w :: (run ++ (joinRuns G2 ++ a :: R))
            = (w :: (run ++ joinRuns G2)) ++ a :: R := by simp
        rw [e1, e2]
        exact List.perm_middle.symm

theorem Buckets.bucket_of_mem {Key F : Type} {tr : HashTraits Key T F} {value : Nat → T}
    {head : Nat} {v : HashVector} {G : List (Nat × List Nat)} (hb : Buckets tr value head v G)
    {g : Nat × List Nat} (hg : g ∈ G) {a : Nat} (ha : a ∈ g.2) :
    Hash.getBucket tr v (tr.getKeyFromValue (value a)) = g.1 :=
  (hb.runs g hg).2.1 a ha

theorem find?_congr_mem {α : Type} {p q : α → Bool} :
    ∀ (l : List α), (∀ a ∈ l, p a = q a) → l.find? p = l.find? q
  | [], _ => rfl
  | a :: l, h => by
    simp only [List.find?_cons, h a (by simp)]
    rw [find?_congr_mem l (fun b hb => h b (List.mem_cons_of_mem _ hb))]

/-- A node of the ring lies in the run of the bucket of its key. -/
theorem Buckets.bucket_ne {Key F : Type} {tr : HashTraits Key T F} {value : Nat → T}
    {head : Nat} {v : HashVector} {G1 G2 : List (Nat × List Nat)} {b : Nat} {run : List Nat}
    (hb : Buckets tr value head v (G1 ++ (b, run) :: G2)) {a : Nat}
    (ha : a ∈ joinRuns G1 ∨ a ∈ joinRuns G2) :
    Hash.getBucket tr v (tr.getKeyFromValue (value a)) ≠ b := by
  have hidx := hb.idx
  simp only [List.map_append, List.map_cons] at hidx
  have hnd := nodup_around hidx
  rcases ha with ha | ha
  · obtain ⟨g, hg, hag⟩ := mem_joinRuns.1 ha
    rw [hb.bucket_of_mem (List.mem_append_left _ hg) hag]
    intro e
    exact hnd.1 (e ▸ List.mem_map_of_mem _ hg)
  · obtain ⟨g, hg, hag⟩ := mem_joinRuns.1 ha
    rw [hb.bucket_of_mem (List.mem_append_right _ (List.mem_cons_of_mem _ hg)) hag]
    intro e
    exact hnd.2.1 (e ▸ List.mem_map_of_mem _ hg)

/-- The loop of `findPlace` over the nodes of a run still to compare. -/
theorem hashFindLoop_spec {Key F : Type} (tr : HashTraits Key T F) {m : ListMem T}
    {l : ListValue} (key : Key) (post : List Nat) :
    ∀ (run pre : List Nat) (fuel : Nat), ListInv m l (pre ++ run ++ post) → run.length < fuel →
      hashFindLoop tr m l.head key (post.head?.getD l.head) fuel
          ((run ++ post).head?.getD l.head)
        = some (run.find? (fun a => tr.equal_ (tr.getKeyFromValue (m.value a)) key))
  | [], pre, fuel + 1, _, _ => by
    simp [hashFindLoop]
  | a :: run, pre, fuel + 1, hl, hf => by
    have hl1 : ListInv m l (pre ++ a :: (run ++ post)) := by simpa using hl
    have ha : a ≠ l.head := hl1.node_ne_head (by simp)
    have hnext : m.next a = (run ++ post).head?.getD l.head := hl1.next_node
    have hlast : a ≠ post.head?.getD l.head := by
      intro e
      have hm := head?_getD_mem l.head post
      rw [← e] at hm
      have hnd := hl1.nodup
      simp only [List.nodup_cons, List.nodup_append, List.mem_append, List.mem_cons] at hnd
      rcases List.mem_cons.1 hm with h1 | h1
      · exact ha h1
      · exact hnd.2.2.1.1 (Or.inr h1)
    have hl2 : ListInv m l ((pre ++ [a]) ++ run ++ post) := by simpa using hl
    have ih := hashFindLoop_spec tr key post run (pre ++ [a]) fuel hl2
      (by simp at hf; omega)
    simp only [List.cons_append, List.head?_cons, Option.getD_some, hashFindLoop, ne_eq, hlast,
      not_false_eq_true, if_true, Hash.keyAt, ha, if_false, List.find?_cons, hnext]
    cases hc : tr.equal_ (tr.getKeyFromValue (m.value a)) key
    · simp only [Bool.false_eq_true, if_false]
      exact ih
    · simp

/-- `findPlace` on a well-formed table: the call returns the bucket of the
key and the first node of the ring that lies in this bucket and holds an
equal key, if there is one. -/
theorem findPlace_spec {Key F : Type} {tr : HashTraits Key T F} {m : ListMem T}
    {l : ListValue} {h : HashTable F} {G : List (Nat × List Nat)}
    (hlist : ListInv m l (joinRuns G)) (hbk : Buckets tr m.value l.head h.vector_ G)
    (hhead : h.list_.head = l.head) (key : Key)
    {fuel : Nat} (hf : (joinRuns G).length < fuel) :
    Hash.findPlace tr fuel m h key = some
      { duplicate := (joinRuns G).find? (fun a =>
          decide (Hash.getBucket tr h.vector_ (tr.getKeyFromValue (m.value a))
            = Hash.getBucket tr h.vector_ key) &&
          tr.equal_ (tr.getKeyFromValue (m.value a)) key)
        bucket := Hash.getBucket tr h.vector_ key } := by
  have hh : l.head ∉ joinRuns G := by
    intro hm
    have := hlist.nodup
    rw [List.nodup_cons] at this
    exact this.1 hm
  by_cases hfirst : h.vector_.first_ (Hash.getBucket tr h.vector_ key) = l.head
  · have hnot : Hash.getBucket tr h.vector_ key ∉ G.map Prod.fst := fun hm =>
      (hbk.mem_idx_iff hh _).1 hm hfirst
    have hnone : (joinRuns G).find? (fun a =>
          decide (Hash.getBucket tr h.vector_ (tr.getKeyFromValue (m.value a))
            = Hash.getBucket tr h.vector_ key) &&
          tr.equal_ (tr.getKeyFromValue (m.value a)) key) = none := by
      rw [List.find?_eq_none]
      intro a ha
      obtain ⟨g, hg, hag⟩ := mem_joinRuns.1 ha
      have hb := hbk.bucket_of_mem hg hag
      have : g.1 ≠ Hash.getBucket tr h.vector_ key := fun e =>
        hnot (e ▸ List.mem_map_of_mem _ hg)
      simp [hb, this]
    simp only [Hash.findPlace, hhead, hfirst, if_true, hnone]
  · obtain ⟨G1, w, run, G2, hG, hw, hlast, hn1, hn2⟩ := hbk.split_at hh hfirst
    have hl := hlist
    rw [hG, joinRuns_append] at hl
    simp only [joinRuns] at hl
    obtain ⟨run0, q, hq⟩ : ∃ run0 q, w :: run = run0 ++ [q] := by
      rcases List.eq_nil_or_concat (w :: run) with h0 | ⟨r0, q, h0⟩
      · simp at h0
      · exact ⟨r0, q, by simpa using h0⟩
    have hlq : h.vector_.last_ (Hash.getBucket tr h.vector_ key) = q := by
      rw [hlast, hq]
      simp
    have hl2 : ListInv m l ((joinRuns G1 ++ run0) ++ q :: joinRuns G2) := by
      have := hl
      rw [hq] at this
      simpa using this
    have hnq : m.next q = (joinRuns G2).head?.getD l.head := hl2.next_node
    have hl3 : ListInv m l (joinRuns G1 ++ (w :: run) ++ joinRuns G2) := by
      simpa using hl
    have hlen : (w :: run).length < fuel := by
      rw [hG, joinRuns_append] at hf
      simp only [joinRuns, List.length_append] at hf
      omega
    have hloop := hashFindLoop_spec tr key (joinRuns G2) (w :: run) (joinRuns G1) fuel hl3 hlen
    simp only [List.cons_append, List.head?_cons, Option.getD_some] at hloop
    have hb := hbk
    rw [hG] at hb
    have hfind : (joinRuns G).find? (fun a =>
          decide (Hash.getBucket tr h.vector_ (tr.getKeyFromValue (m.value a))
            = Hash.getBucket tr h.vector_ key) &&
          tr.equal_ (tr.getKeyFromValue (m.value a)) key)
        = (w :: run).find? (fun a => tr.equal_ (tr.getKeyFromValue (m.value a)) key) := by
      rw [hG, joinRuns_append]
      simp only [joinRuns]
      rw [List.find?_append, List.find?_append]
      have h1 : (joinRuns G1).find? (fun a =>
          decide (Hash.getBucket tr h.vector_ (tr.getKeyFromValue (m.value a))
            = Hash.getBucket tr h.vector_ key) &&
          tr.equal_ (tr.getKeyFromValue (m.value a)) key) = none := by
        rw [List.find?_eq_none]
        intro a ha
        have := hb.bucket_ne (Or.inl ha)
        simp [this]
      have h2 : (joinRuns G2).find? (fun a =>
          decide (Hash.getBucket tr h.vector_ (tr.getKeyFromValue (m.value a))
            = Hash.getBucket tr h.vector_ key) &&
          tr.equal_ (tr.getKeyFromValue (m.value a)) key) = none := by
        rw [List.find?_eq_none]
        intro a ha
        have := hb.bucket_ne (Or.inr ha)
        simp [this]
      have h3 : (w :: run).find? (fun a =>
          decide (Hash.getBucket tr h.vector_ (tr.getKeyFromValue (m.value a))
            = Hash.getBucket tr h.vector_ key) &&
          tr.equal_ (tr.getKeyFromValue (m.value a)) key)
          = (w :: run).find? (fun a => tr.equal_ (tr.getKeyFromValue (m.value a)) key) := by
        refine find?_congr_mem _ ?_
        intro a ha
        have := hb.bucket_of_mem (g := (Hash.getBucket tr h.vector_ key, w :: run))
          (by simp) ha
        simp [this]
      rw [h1, h2, h3]
      simp
    have hwh : ¬ w = l.head := fun e0 => hfirst (hw.trans e0)
    simp only [Hash.findPlace, hhead, hw, hwh, if_false, hlq, hnq, hloop, hfind]

/-- `insertNodes` for one node `n` that is allocated and not in the list: the
node is linked in before the node that follows `pre`. -/
theorem linkNode_inv {m : ListMem T} {l : ListValue} {pre post : List Nat}
    (h : ListInv m l (pre ++ post)) {n : Nat} (hn : n ∉ l.head :: (pre ++ post))
    (hnf : n < m.fresh) (k : Nat) :
    ∃ m' tmp', ListTmpNodes.insertNodes m { first := some n, last := some n, added := k }
        (post.head?.getD l.head) = some (m', tmp', n) ∧
      ListInv m' { l with size := l.size + 1 } (pre ++ n :: post) ∧
      m'.value = m.value ∧ m'.fresh = m.fresh ∧ m'.freed = m.freed := by
  have hs := h.seam
  have hpm := getLast?_getD_mem l.head pre
  have hwm := head?_getD_mem l.head post
  have hwn : post.head?.getD l.head ≠ n := by
    intro e
    rw [e] at hwm
    exact hn (by simp at hwm ⊢; tauto)
  have hpn : pre.getLast?.getD l.head ≠ n := by
    intro e
    rw [e] at hpm
    exact hn (by simp at hpm ⊢; tauto)
  obtain ⟨m', tmp', e, n4, p4, v4, f4, d4⟩ :=
    insertNodes_spec m k n n (post.head?.getD l.head) hwn
  rw [hs.2] at n4 p4
  refine ⟨m', tmp', e, ⟨?_, ?_, ?_, ?_, ?_⟩, v4, f4, d4⟩
  · have e1 : pre ++ n :: post = pre ++ [n] ++ post := by simp
    rw [e1]
    refine ring_splice [] (by simpa using h.ring) h.nodup ?_ ?_ ?_
    · intro a ha hne
      have han : a ≠ n := fun e2 => hn (e2 ▸ ha)
      rw [n4 a, if_neg han, if_neg hne]
    · intro b hb hne
      have hbn : b ≠ n := fun e2 => hn (e2 ▸ hb)
      rw [p4 b, if_neg hne, if_neg hbn]
    · show List.Chain' (Link m') [pre.getLast?.getD l.head, n, post.head?.getD l.head]
      rw [List.chain'_cons, List.chain'_cons]
      simp only [List.chain'_singleton, and_true, Link]
      refine ⟨⟨?_, ?_⟩, ?_, ?_⟩
      · rw [n4, if_neg hpn, if_pos rfl]
      · rw [p4, if_neg hwn.symm, if_pos rfl]
      · rw [n4, if_pos rfl]
      · rw [p4, if_pos rfl]
  · have hnd := h.nodup
    have hp : (l.head :: (pre ++ n :: post)).Perm (n :: l.head :: (pre ++ post)) := by
      have : l.head :: (pre ++ n :: post) = (l.head :: pre) ++ n :: post := rfl
      rw [this]
      exact List.perm_middle
    refine (hp.nodup_iff).2 ?_
    exact List.nodup_cons.2 ⟨hn, hnd⟩
  · show l.size + 1 = _
    have := h.size_eq
    simp only [List.length_append, List.length_cons] at this ⊢
    omega
  · intro a ha
    rw [f4]
    have ha' : a ∈ l.head :: (pre ++ n :: post) := ha
    simp only [List.mem_cons, List.mem_append] at ha'
    rcases ha' with ha' | ha' | ha' | ha'
    · exact h.alloc a (by simp [ha'])
    · exact h.alloc a (by simp [ha'])
    · rw [ha']; exact hnf
    · exact h.alloc a (by simp [ha'])
  · intro it hit
    have := h.iters it hit
    show it.ptr ∈ l.head :: (pre ++ n :: post)
    simp only [List.mem_cons, List.mem_append] at this ⊢
    tauto

theorem Buckets.congr_value {Key F : Type} {tr : HashTraits Key T F} {value value' : Nat → T}
    {head : Nat} {v : HashVector} {G : List (Nat × List Nat)} (hb : Buckets tr value head v G)
    (hv : ∀ a ∈ joinRuns G, value' a = value a) : Buckets tr value' head v G := by
  refine ⟨hb.idx, ?_, hb.empties⟩
  intro g hg
  obtain ⟨q1, q2, q3, q4⟩ := hb.runs g hg
  refine ⟨q1, ?_, q3, q4⟩
  intro a ha
  rw [hv a (mem_joinRuns.2 ⟨g, hg, ha⟩)]
  exact q2 a ha

/-- The end of `emplace`: the new node `n`, whose key falls into the bucket
`b`, is linked in before the first node of the bucket (before the head when
the bucket is empty) and the descriptor of the bucket is updated. -/
theorem insertBucket_spec {Key F : Type} {tr : HashTraits Key T F} {m : ListMem T}
    {l : ListValue} {v : HashVector} {G : List (Nat × List Nat)}
    (hl : ListInv m l (joinRuns G)) (hb : Buckets tr m.value l.head v G) {n : Nat}
    (hn : n ∉ l.head :: joinRuns G) (hnf : n < m.fresh) (k : Nat) :
    ∃ m' tmp' G', ListTmpNodes.insertNodes m { first := some n, last := some n, added := k }
        (v.first_ (Hash.getBucket tr v (tr.getKeyFromValue (m.value n)))) = some (m', tmp', n) ∧
      ListInv m' { l with size := l.size + 1 } (joinRuns G') ∧
      Buckets tr m'.value l.head
        { first_ := upd v.first_ (Hash.getBucket tr v (tr.getKeyFromValue (m.value n))) n
          last_ := if v.last_ (Hash.getBucket tr v (tr.getKeyFromValue (m.value n))) = l.head
            then upd v.last_ (Hash.getBucket tr v (tr.getKeyFromValue (m.value n))) n
            else v.last_
          size_ := v.size_ } G' ∧
      (joinRuns G').Perm (n :: joinRuns G) ∧
      m'.value = m.value ∧ m'.fresh = m.fresh ∧ m'.freed = m.freed := by
  have hh : l.head ∉ joinRuns G := by
    intro hm
    have := hl.nodup
    rw [List.nodup_cons] at this
    exact this.1 hm
  by_cases hfirst : v.first_ (Hash.getBucket tr v (tr.getKeyFromValue (m.value n))) = l.head
  · -- the bucket is empty: the node goes to the end of the ring
    have hnot : Hash.getBucket tr v (tr.getKeyFromValue (m.value n)) ∉ G.map Prod.fst :=
      fun hm => (hb.mem_idx_iff hh _).1 hm hfirst
    have hlast := (hb.empties _ hnot).2
    have hl0 : ListInv m l (joinRuns G ++ []) := by simpa using hl
    obtain ⟨m', tmp', e, h1, h2, h3, h4⟩ := linkNode_inv hl0 (by simpa using hn) hnf k
    refine ⟨m', tmp', G ++ [(Hash.getBucket tr v (tr.getKeyFromValue (m.value n)), [n])],
      ?_, ?_, ?_, ?_, h2, h3, h4⟩
    · rw [hfirst]
      exact e
    · rw [joinRuns_append]
      simpa [joinRuns] using h1
    · rw [if_pos hlast, h2]
      refine ⟨?_, ?_, ?_⟩
      · rw [List.map_append, List.nodup_append]
        refine ⟨hb.idx, by simp, ?_⟩
        intro x hx hy
        simp only [List.map_cons, List.map_nil, List.mem_singleton] at hy
        exact hnot (hy ▸ hx)
      · intro g hg
        rcases List.mem_append.1 hg with hg | hg
        · obtain ⟨q1, q2, q3, q4⟩ := hb.runs g hg
          have hne : g.1 ≠ Hash.getBucket tr v (tr.getKeyFromValue (m.value n)) := by
            intro e0
            exact hnot (e0 ▸ List.mem_map_of_mem _ hg)
          refine ⟨q1, q2, ?_, ?_⟩
          · simp only [upd, if_neg hne]
            exact q3
          · simp only [upd, if_neg hne]
            exact q4
        · simp only [List.mem_singleton] at hg
          subst hg
          refine ⟨by simp, ?_, by simp [upd], by simp [upd]⟩
          intro x hx
          simp only [List.mem_singleton] at hx
          subst hx
          rfl
      · intro b hbn
        simp only [List.map_append, List.map_cons, List.map_nil, List.mem_append,
          List.mem_singleton, not_or] at hbn
        simp only [upd, if_neg hbn.2]
        exact hb.empties b hbn.1
    · rw [joinRuns_append]
      simp only [joinRuns, List.append_nil]
      exact List.perm_append_singleton _ _
  · -- the bucket holds nodes: the node goes in front of them
    obtain ⟨G1, w, run, G2, hG, hw, hlast, hn1, hn2⟩ := hb.split_at hh hfirst
    have hl1 : ListInv m l (joinRuns G1 ++ (w :: run ++ joinRuns G2)) := by
      have := hl
      rw [hG, joinRuns_append] at this
      simpa [joinRuns] using this
    have hn' : n ∉ l.head :: (joinRuns G1 ++ (w :: run ++ joinRuns G2)) := by
      have := hn
      rw [hG, joinRuns_append] at this
      simpa [joinRuns] using this
    obtain ⟨m', tmp', e, h1, h2, h3, h4⟩ := linkNode_inv hl1 hn' hnf k
    have hlne : v.last_ (Hash.getBucket tr v (tr.getKeyFromValue (m.value n))) ≠ l.head := by
      rw [hlast]
      have hm : (w :: run).getLast?.getD l.head ∈ w :: run := by
        rcases List.eq_nil_or_concat (w :: run) with h0 | ⟨r0, q, h0⟩
        · simp at h0
        · rw [h0]; simp
      intro e0
      rw [e0] at hm
      have hm2 : l.head = w ∨ l.head ∈ run := by simpa using hm
      exact hh (by rw [hG, joinRuns_append]; simp only [joinRuns]; simp; tauto)
    refine ⟨m', tmp',
      G1 ++ (Hash.getBucket tr v (tr.getKeyFromValue (m.value n)), n :: w :: run) :: G2,
      ?_, ?_, ?_, ?_, h2, h3, h4⟩
    · rw [hw]
      exact e
    · rw [joinRuns_append]
      simpa [joinRuns] using h1
    · rw [if_neg hlne, h2]
      have hidx := hb.idx
      rw [hG] at hidx
      refine ⟨by simpa using hidx, ?_, ?_⟩
      · intro g hg
        have hcases : g ∈ G ∧ g.1 ≠ Hash.getBucket tr v (tr.getKeyFromValue (m.value n))
            ∨ g = (Hash.getBucket tr v (tr.getKeyFromValue (m.value n)), n :: w :: run) := by
          simp only [List.mem_append, List.mem_cons] at hg
          rcases hg with hg | hg | hg
          · refine Or.inl ⟨by rw [hG]; simp [hg], ?_⟩
            intro e0
            exact hn1 (e0 ▸ List.mem_map_of_mem _ hg)
          · exact Or.inr hg
          · refine Or.inl ⟨by rw [hG]; simp [hg], ?_⟩
            intro e0
            exact hn2 (e0 ▸ List.mem_map_of_mem _ hg)
        rcases hcases with ⟨hgG, hne⟩ | rfl
        · obtain ⟨q1, q2, q3, q4⟩ := hb.runs g hgG
          refine ⟨q1, q2, ?_, q4⟩
          simp only [upd, if_neg hne]
          exact q3
        · obtain ⟨-, q2, -, q4⟩ := hb.runs
            (Hash.getBucket tr v (tr.getKeyFromValue (m.value n)), w :: run)
            (by rw [hG]; simp)
          refine ⟨by simp, ?_, by simp [upd], ?_⟩
          · intro x hx
            rcases List.mem_cons.1 hx with hx | hx
            · subst hx
              rfl
            · exact q2 x hx
          · show v.last_ _ = _
            rw [q4]
            exact (getLast?_cons_of_ne_nil n l.head (by simp)).symm
      · intro b hbn
        have hbn' : b ∉ G.map Prod.fst := by
          rw [hG]
          simpa using hbn
        have hne : b ≠ Hash.getBucket tr v (tr.getKeyFromValue (m.value n)) := by
          intro e0
          apply hbn
          simp [e0]
        simp only [upd, if_neg hne]
        exact hb.empties b hbn'
    · rw [hG, joinRuns_append, joinRuns_append]
      simp only [joinRuns, List.cons_append]
      exact List.perm_middle

/-- `rehashHashVector` on a vector of empty buckets: the call returns, the
ring is a rearrangement of the ring before and the vector describes its
runs. -/
theorem rehashHashVector_spec {Key F : Type} (tr : HashTraits Key T F) {m : ListMem T}
    {l : ListValue} {h : HashTable F} {xs : List Nat} (hl : ListInv m l xs)
    (hhead : h.list_.head = l.head)
    (hb0 : ∀ b, h.vector_.first_ b = l.head ∧ h.vector_.last_ b = l.head)
    {fuel : Nat} (hf : xs.length < fuel) :
    ∃ m' v' G', Hash.rehashHashVector tr fuel m h = some (m', { h with vector_ := v' }) ∧
      ListInv m' l (joinRuns G') ∧ Buckets tr m'.value l.head v' G' ∧
      (joinRuns G').Perm xs ∧ m'.value = m.value ∧ m'.fresh = m.fresh ∧
      m'.freed = m.freed ∧ v'.size_ = h.vector_.size_ := by
  have hl0 : ListInv m l (joinRuns [] ++ xs) := by simpa [joinRuns] using hl
  have hbk : Buckets tr m.value l.head h.vector_ [] :=
    ⟨by simp, by simp, fun b _ => hb0 b⟩
  obtain ⟨m', v', G', e, h1, h2, h3, h4, h5, h6, h7⟩ :=
    rehashLoop_spec tr l xs [] fuel m h.vector_ hl0 hbk hf
  refine ⟨m', v', G', ?_, h1, h2, by simpa [joinRuns] using h3, h4, h5, h6, h7⟩
  simp only [Hash.rehashHashVector, hhead, hl.next_head, e]

theorem linkFirst_eq (v : HashVector) (b head n : Nat) :
    ({ (if v.last_ b = head then ({ v with last_ := upd v.last_ b n } : HashVector) else v) with
        first_ := upd (if v.last_ b = head then
          ({ v with last_ := upd v.last_ b n } : HashVector) else v).first_ b n } : HashVector)
      = { first_ := upd v.first_ b n
          last_ := if v.last_ b = head then upd v.last_ b n else v.last_
          size_ := v.size_ } := by
  by_cases hc : v.last_ b = head
  · simp only [hc, if_true]
  · simp only [hc, if_false]

/-- `emplace` from `++size` on, for a new node that is allocated and not yet
linked: when the bucket count that growth asks for can be computed, the call
returns, the node is part of the ring and the table is well formed. -/
theorem emplaceNew_spec {Key F : Type} {tr : HashTraits Key T F} {m : ListMem T}
    {h : HashTable F} {G : List (Nat × List Nat)} (hi : HashInv tr m h G) {node : Nat}
    (hn : node ∉ h.list_.head :: joinRuns G) (hnf : node < m.fresh) (k : Nat)
    (result : FindResult)
    (hres : result.bucket = Hash.getBucket tr h.vector_ (tr.getKeyFromValue (m.value node)))
    {fuel : Nat} (hf : (joinRuns G).length < fuel)
    (hgrow : tr.exceeds h.max_load_factor_ (h.list_.size + 1) (Hash.bucketCount h) = true →
      ∃ n, Hash.getRequiredBucketsAmount tr fuel
        { h with list_ := { h.list_ with size := h.list_.size + 1 } } (h.list_.size + 1)
          = some n) :
    ∃ m' h' G', Hash.emplaceNew tr fuel m h
        { first := some node, last := some node, added := k } node result
        = some (m', h', node, true) ∧
      HashInv tr m' h' G' ∧ (joinRuns G').Perm (node :: joinRuns G) ∧
      m'.value = m.value ∧ m'.fresh = m.fresh ∧ m'.freed = m.freed ∧
      h'.max_load_factor_ = h.max_load_factor_ ∧
      h'.list_ = { h.list_ with size := h.list_.size + 1 } ∧
      (tr.exceeds h.max_load_factor_ (h.list_.size + 1) (Hash.bucketCount h) = false →
        Hash.bucketCount h' = Hash.bucketCount h) ∧
      (∀ n, tr.exceeds h.max_load_factor_ (h.list_.size + 1) (Hash.bucketCount h) = true →
        Hash.getRequiredBucketsAmount tr fuel
          { h with list_ := { h.list_ with size := h.list_.size + 1 } } (h.list_.size + 1)
            = some n → Hash.bucketCount h' = n) := by
  cases hex : tr.exceeds h.max_load_factor_ (h.list_.size + 1) (Hash.bucketCount h)
  · -- no growth
    obtain ⟨m', tmp', G', e, h1, h2, h3, h4, h5, h6⟩ :=
      insertBucket_spec hi.list hi.buckets hn hnf k
    refine ⟨m',
      { list_ := { h.list_ with size := h.list_.size + 1 }
        vector_ :=
          { first_ := upd h.vector_.first_
              (Hash.getBucket tr h.vector_ (tr.getKeyFromValue (m.value node))) node
            last_ := if h.vector_.last_
                (Hash.getBucket tr h.vector_ (tr.getKeyFromValue (m.value node)))
                  = h.list_.head
              then upd h.vector_.last_
                (Hash.getBucket tr h.vector_ (tr.getKeyFromValue (m.value node))) node
              else h.vector_.last_
            size_ := h.vector_.size_ }
        max_load_factor_ := h.max_load_factor_ },
      G', ?_, ⟨h1, ?_⟩, h3, h4, h5, h6, rfl, rfl, fun _ => rfl, ?_⟩
    · simp only [Hash.emplaceNew, Hash.size, Hash.bucketCount] at hex ⊢
      simp only [hex, Bool.false_eq_true, if_false, hres, e, linkFirst_eq]
    · exact h2
    · intro n hc
      exact absurd hc (by simp)
  · -- growth
    obtain ⟨n, hreq⟩ := hgrow hex
    have hlen : (joinRuns G).length < fuel := hf
    obtain ⟨m2, v2, G2, e2, hl2, hb2, hp2, hv2, hf2, hd2, hs2⟩ :=
      rehashHashVector_spec tr (m := m) (l := h.list_)
        (h := { list_ := { h.list_ with size := h.list_.size + 1 }
                vector_ := h.vector_.resize n h.list_.head
                max_load_factor_ := h.max_load_factor_ })
        hi.list rfl (fun b => ⟨rfl, rfl⟩) hlen
    have hlen2 : (joinRuns G2).length < fuel := by
      rw [hp2.length_eq]
      exact hlen
    have hfind := findPlace_spec (m := m2) (l := h.list_)
      (h := { list_ := { h.list_ with size := h.list_.size + 1 }
              vector_ := v2
              max_load_factor_ := h.max_load_factor_ })
      hl2 hb2 rfl (tr.getKeyFromValue (m2.value node)) hlen2
    have hn2 : node ∉ h.list_.head :: joinRuns G2 := by
      intro hm
      rcases List.mem_cons.1 hm with hm | hm
      · exact hn (by simp [hm])
      · exact hn (List.mem_cons_of_mem _ (hp2.subset hm))
    obtain ⟨m', tmp', G', e, h1, h2, h3, h4, h5, h6⟩ :=
      insertBucket_spec hl2 hb2 hn2 (by rw [hf2]; exact hnf) k
    refine ⟨m',
      { list_ := { h.list_ with size := h.list_.size + 1 }
        vector_ :=
          { first_ := upd v2.first_
              (Hash.getBucket tr v2 (tr.getKeyFromValue (m2.value node))) node
            last_ := if v2.last_
                (Hash.getBucket tr v2 (tr.getKeyFromValue (m2.value node))) = h.list_.head
              then upd v2.last_
                (Hash.getBucket tr v2 (tr.getKeyFromValue (m2.value node))) node
              else v2.last_
            size_ := v2.size_ }
        max_load_factor_ := h.max_load_factor_ },
      G', ?_, ⟨h1, ?_⟩, ?_, by rw [h4, hv2], by rw [h5, hf2], by rw [h6, hd2],
      rfl, rfl, ?_, ?_⟩
    · simp only [Hash.emplaceNew, Hash.size, Hash.bucketCount] at hex ⊢
      simp only [hex, if_true, hreq, e2, hfind, e, linkFirst_eq]
    · exact h2
    · refine h3.trans ?_
      exact List.Perm.cons _ hp2
    · intro hc
      exact absurd hc (by simp)
    · intro n' _ hreq'
      rw [hreq] at hreq'
      cases hreq'
      show v2.size_ = n
      rw [hs2]
      rfl

theorem HashInv.sentinel_not_mem {Key F : Type} {tr : HashTraits Key T F} {m : ListMem T}
    {h : HashTable F} {G : List (Nat × List Nat)} (hi : HashInv tr m h G) :
    h.list_.head ∉ joinRuns G := by
  intro hm
  have := hi.list.nodup
  rw [List.nodup_cons] at this
  exact this.1 hm

/-- A table stays well formed when the links and the values of its nodes stay
and the allocator does not go back. -/
theorem HashInv.of_same {Key F : Type} {tr : HashTraits Key T F} {m m' : ListMem T}
    {h : HashTable F} {G : List (Nat × List Nat)} (hi : HashInv tr m h G)
    (hn : m'.next = m.next) (hp : m'.prev = m.prev)
    (hv : ∀ a, a < m.fresh → m'.value a = m.value a) (hf : m.fresh ≤ m'.fresh) :
    HashInv tr m' h G := by
  refine ⟨hi.list.of_links (fun a _ => by rw [hn]) (fun a _ => by rw [hp]) hf, ?_⟩
  refine hi.buckets.congr_value ?_
  intro a ha
  exact hv a (hi.list.alloc a (List.mem_cons_of_mem _ ha))

/-- `emplace` of a value whose key is equal to the key of a node in its
bucket: the call returns this node and `false`; the table, the links and the
values of the nodes are as before. -/
theorem emplace_dup {Key F : Type} {tr : HashTraits Key T F} {m : ListMem T}
    {h : HashTable F} {G : List (Nat × List Nat)} (hi : HashInv tr m h G)
    {fuel : Nat} (hf : (joinRuns G).length < fuel) (extractable : Bool) (value : T) {d : Nat}
    (hd : (joinRuns G).find? (fun a =>
        decide (Hash.getBucket tr h.vector_ (tr.getKeyFromValue (m.value a))
          = Hash.getBucket tr h.vector_ (tr.getKeyFromValue value)) &&
        tr.equal_ (tr.getKeyFromValue (m.value a)) (tr.getKeyFromValue value)) = some d) :
    ∃ m', Hash.emplace tr fuel extractable m h value = some (m', h, d, false) ∧
      HashInv tr m' h G ∧ m'.next = m.next ∧ m'.prev = m.prev ∧
      (∀ a, a < m.fresh → m'.value a = m.value a) ∧ (extractable = true → m' = m) := by
  cases extractable
  · -- the node is made first and given back
    have hi' : HashInv tr
        ({ m with value := upd m.value m.fresh value, fresh := m.fresh + 1 } : ListMem T) h G :=
      hi.of_same rfl rfl (fun a ha => by
        have : a ≠ m.fresh := by omega
        simp [upd, this]) (by show m.fresh ≤ m.fresh + 1; omega)
    have hfind := findPlace_spec hi'.list hi'.buckets rfl (tr.getKeyFromValue value) hf
    have hcongr : (joinRuns G).find? (fun a =>
        decide (Hash.getBucket tr h.vector_
            (tr.getKeyFromValue (upd m.value m.fresh value a))
          = Hash.getBucket tr h.vector_ (tr.getKeyFromValue value)) &&
        tr.equal_ (tr.getKeyFromValue (upd m.value m.fresh value a))
          (tr.getKeyFromValue value)) = some d := by
      rw [← hd]
      refine find?_congr_mem _ ?_
      intro a ha
      have : a ≠ m.fresh := by
        have := hi.list.alloc a (List.mem_cons_of_mem _ ha)
        omega
      simp [upd, this]
    simp only at hfind
    rw [hcongr] at hfind
    refine ⟨ListMem.freeNode
      ({ m with value := upd m.value m.fresh value, fresh := m.fresh + 1 } : ListMem T) m.fresh,
      ?_, ?_, rfl, rfl, ?_, by simp⟩
    · simp only [Hash.emplace, Bool.false_eq_true, if_false, ListTmpNodes.createNode, upd,
        if_true, hfind]
    · exact hi'.of_same rfl rfl (fun _ _ => rfl) (le_refl _)
    · intro a ha
      have : a ≠ m.fresh := by omega
      simp [ListMem.freeNode, upd, this]
  · have hfind := findPlace_spec hi.list hi.buckets rfl (tr.getKeyFromValue value) hf
    rw [hd] at hfind
    refine ⟨m, ?_, hi, rfl, rfl, fun _ _ => rfl, fun _ => rfl⟩
    simp only [Hash.emplace, if_true, hfind]

/-- `emplace` of a value whose key is equal to no key in its bucket: when the
bucket count that growth asks for can be computed, the call returns the new
node and `true`, the node is part of the ring and the table is well
formed. -/
theorem emplace_new {Key F : Type} {tr : HashTraits Key T F} {m : ListMem T}
    {h : HashTable F} {G : List (Nat × List Nat)} (hi : HashInv tr m h G)
    {fuel : Nat} (hf : (joinRuns G).length < fuel) (extractable : Bool) (value : T)
    (hd : (joinRuns G).find? (fun a =>
        decide (Hash.getBucket tr h.vector_ (tr.getKeyFromValue (m.value a))
          = Hash.getBucket tr h.vector_ (tr.getKeyFromValue value)) &&
        tr.equal_ (tr.getKeyFromValue (m.value a)) (tr.getKeyFromValue value)) = none)
    (hgrow : tr.exceeds h.max_load_factor_ (h.list_.size + 1) (Hash.bucketCount h) = true →
      ∃ n, Hash.getRequiredBucketsAmount tr fuel
        { h with list_ := { h.list_ with size := h.list_.size + 1 } } (h.list_.size + 1)
          = some n) :
    ∃ m' h' G', Hash.emplace tr fuel extractable m h value = some (m', h', m.fresh, true) ∧
      HashInv tr m' h' G' ∧ (joinRuns G').Perm (m.fresh :: joinRuns G) ∧
      m'.value = upd m.value m.fresh value ∧ m'.fresh = m.fresh + 1 ∧ m'.freed = m.freed ∧
      h'.max_load_factor_ = h.max_load_factor_ ∧
      h'.list_ = { h.list_ with size := h.list_.size + 1 } ∧
      (tr.exceeds h.max_load_factor_ (h.list_.size + 1) (Hash.bucketCount h) = false →
        Hash.bucketCount h' = Hash.bucketCount h) ∧
      (∀ n, tr.exceeds h.max_load_factor_ (h.list_.size + 1) (Hash.bucketCount h) = true →
        Hash.getRequiredBucketsAmount tr fuel
          { h with list_ := { h.list_ with size := h.list_.size + 1 } } (h.list_.size + 1)
            = some n → Hash.bucketCount h' = n) := by
  have hi' : HashInv tr
      ({ m with value := upd m.value m.fresh value, fresh := m.fresh + 1 } : ListMem T) h G :=
    hi.of_same rfl rfl (fun a ha => by
      have : a ≠ m.fresh := by omega
      simp [upd, this]) (by show m.fresh ≤ m.fresh + 1; omega)
  have hn : m.fresh ∉ h.list_.head :: joinRuns G := by
    intro hm
    have := hi.list.alloc _ hm
    omega
  have hkey : tr.getKeyFromValue (upd m.value m.fresh value m.fresh)
      = tr.getKeyFromValue value := by simp [upd]
  obtain ⟨m', h', G', e, q1, q2, q3, q4, q5, q6, q7, q8, q9⟩ :=
    emplaceNew_spec hi' hn (by show m.fresh < m.fresh + 1; omega) 0
      { duplicate := none
        bucket := Hash.getBucket tr h.vector_ (tr.getKeyFromValue value) }
      (by simp [upd]) hf hgrow
  refine ⟨m', h', G', ?_, q1, q2, q3, q4, q5, q6, q7, q8, q9⟩
  cases extractable
  · have hfind := findPlace_spec hi'.list hi'.buckets rfl (tr.getKeyFromValue value) hf
    have hcongr : (joinRuns G).find? (fun a =>
        decide (Hash.getBucket tr h.vector_
            (tr.getKeyFromValue (upd m.value m.fresh value a))
          = Hash.getBucket tr h.vector_ (tr.getKeyFromValue value)) &&
        tr.equal_ (tr.getKeyFromValue (upd m.value m.fresh value a))
          (tr.getKeyFromValue value)) = none := by
      rw [← hd]
      refine find?_congr_mem _ ?_
      intro a ha
      have : a ≠ m.fresh := by
        have := hi.list.alloc a (List.mem_cons_of_mem _ ha)
        omega
      simp [upd, this]
    simp only at hfind
    rw [hcongr] at hfind
    simp only [Hash.emplace, Bool.false_eq_true, if_false, ListTmpNodes.createNode, upd,
      if_true, hfind, ListTmpNodes.new]
    exact e
  · have hfind := findPlace_spec hi.list hi.buckets rfl (tr.getKeyFromValue value) hf
    rw [hd] at hfind
    simp only [Hash.emplace, if_true, hfind, ListTmpNodes.createNode, ListTmpNodes.new]
    exact e

/-- The descriptor of the bucket `b` after the first part of `eraseNode`, for
the node `ptr` between the nodes `r1` and `r2` of its run. -/
theorem eraseNode_descriptor {m : ListMem T} {v : HashVector} {b head ptr : Nat}
    {r1 r2 : List Nat} (pre post : List Nat)
    (hfirst : v.first_ b = (r1 ++ ptr :: r2).head?.getD head)
    (hlast : v.last_ b = (r1 ++ ptr :: r2).getLast?.getD head)
    (hnext : m.next ptr = (r2 ++ post).head?.getD head)
    (hprev : m.prev ptr = (pre ++ r1).getLast?.getD head)
    (h1 : ptr ∉ r1) (h2 : ptr ∉ r2) :
    ∃ v1 : HashVector,
      (if v.first_ b = ptr then
        if v.last_ b = ptr then
          ({ first_ := upd v.first_ b head, last_ := upd v.last_ b head, size_ := v.size_ }
            : HashVector)
        else { v with first_ := upd v.first_ b (m.next ptr) }
      else if v.last_ b = ptr then { v with last_ := upd v.last_ b (m.prev ptr) }
      else v) = v1 ∧
      v1.size_ = v.size_ ∧ (∀ c, c ≠ b → v1.first_ c = v.first_ c ∧ v1.last_ c = v.last_ c) ∧
      v1.first_ b = (r1 ++ r2).head?.getD head ∧ v1.last_ b = (r1 ++ r2).getLast?.getD head := by
  refine ⟨_, rfl, ?_, ?_, ?_, ?_⟩
  · split
    · split <;> rfl
    · split <;> rfl
  · intro c hc
    split
    · split <;> simp [upd, hc]
    · split <;> simp [upd, hc]
  · cases r1 with
    | nil =>
      simp only [List.nil_append, List.head?_cons, Option.getD_some] at hfirst
      rw [if_pos hfirst]
      cases r2 with
      | nil =>
        simp only [List.nil_append, List.getLast?_singleton, Option.getD_some] at hlast
        rw [if_pos hlast]
        simp [upd]
      | cons c r2 =>
        have hne : v.last_ b ≠ ptr := by
          rw [hlast]
          simp only [List.nil_append, List.getLast?_cons_cons]
          intro e
          have hm := List.mem_of_mem_getLast? (getLast?_cons_getD c r2)
          have e2 : (c :: r2).getLast?.getD head = r2.getLast?.getD c := by
            rw [getLast?_cons_getD]; rfl
          rw [e2] at e
          rw [e] at hm
          exact h2 hm
        rw [if_neg hne]
        simp only [List.cons_append, List.head?_cons, Option.getD_some] at hnext
        simp [upd, hnext]
    | cons x r1 =>
      have hne : v.first_ b ≠ ptr := by
        rw [hfirst]
        simp only [List.cons_append, List.head?_cons, Option.getD_some]
        intro e
        exact h1 (by simp [e])
      rw [if_neg hne]
      split
      · simpa using hfirst
      · simpa using hfirst
  · rcases List.eq_nil_or_concat r2 with hr2 | ⟨r2', c, hr2⟩
    · subst hr2
      have hl : v.last_ b = ptr := by
        rw [hlast]
        simp
      cases r1 with
      | nil =>
        simp only [List.nil_append, List.head?_cons, Option.getD_some] at hfirst
        rw [if_pos hfirst, if_pos hl]
        simp [upd]
      | cons x r1 =>
        have hne : v.first_ b ≠ ptr := by
          rw [hfirst]
          simp only [List.cons_append, List.head?_cons, Option.getD_some]
          intro e
          exact h1 (by simp [e])
        rw [if_neg hne, if_pos hl]
        have hp : m.prev ptr = (x :: r1).getLast?.getD head := by
          rw [hprev]
          rw [List.getLast?_append]
          cases hc : (x :: r1).getLast? with
          | none => simp at hc
          | some q => simp
        simp [upd, hp]
    · have hl : v.last_ b = c := by
        rw [hlast, hr2]
        have : r1 ++ ptr :: (r2'.concat c) = (r1 ++ ptr :: r2') ++ [c] := by simp
        rw [this, List.getLast?_append]
        simp
      have hne : v.last_ b ≠ ptr := by
        rw [hl]
        intro e
        exact h2 (by rw [hr2, e]; simp)
      have hgoal : (r1 ++ r2).getLast?.getD head = c := by
        rw [hr2]
        have : r1 ++ r2'.concat c = (r1 ++ r2') ++ [c] := by simp
        rw [this, List.getLast?_append]
        simp
      rw [hgoal, if_neg hne]
      split
      · exact hl
      · exact hl

/-- `eraseNode` of a node of the table: the call returns the node behind it,
the node leaves the ring and the run of its bucket, and the table is well
formed. -/
theorem eraseNode_spec {Key F : Type} {tr : HashTraits Key T F} {m : ListMem T}
    {h : HashTable F} {G : List (Nat × List Nat)} (hi : HashInv tr m h G) {ptr : Nat}
    (hp : ptr ∈ joinRuns G) :
    ∃ m' h' G' pre post, Hash.eraseNode tr m h ptr
        = some (m', h', post.head?.getD h.list_.head) ∧
      HashInv tr m' h' G' ∧ joinRuns G = pre ++ ptr :: post ∧ joinRuns G' = pre ++ post ∧
      m'.value = m.value ∧ m'.fresh = m.fresh ∧
      h'.max_load_factor_ = h.max_load_factor_ ∧ h'.vector_.size_ = h.vector_.size_ ∧
      h'.list_.size = h.list_.size - 1 ∧ h'.list_.head = h.list_.head := by
  obtain ⟨g, hg, hpg⟩ := mem_joinRuns.1 hp
  obtain ⟨G1, G2, hG⟩ := List.append_of_mem hg
  obtain ⟨r1, r2, hrun⟩ := List.append_of_mem hpg
  obtain ⟨b, run⟩ := g
  simp only at hrun hpg
  subst hrun
  have hb := hi.buckets
  rw [hG] at hb
  obtain ⟨-, hkeys, hfirst, hlast⟩ := hb.runs (b, r1 ++ ptr :: r2) (by simp)
  simp only at hkeys hfirst hlast
  have hbk : Hash.getBucket tr h.vector_ (tr.getKeyFromValue (m.value ptr)) = b :=
    hkeys ptr (by simp)
  have hl : ListInv m h.list_ ((joinRuns G1 ++ r1) ++ ptr :: (r2 ++ joinRuns G2)) := by
    have := hi.list
    rw [hG, joinRuns_append] at this
    simpa [joinRuns] using this
  have hph : ptr ≠ h.list_.head := hl.node_ne_head (by simp)
  have hnd := hl.nodup
  have hnd2 : ((joinRuns G1 ++ r1) ++ ptr :: (r2 ++ joinRuns G2)).Nodup :=
    (List.nodup_cons.1 hnd).2
  have har := nodup_around hnd2
  have h1 : ptr ∉ r1 := fun hm => har.1 (List.mem_append_right _ hm)
  have h2 : ptr ∉ r2 := fun hm => har.2.1 (List.mem_append_left _ hm)
  obtain ⟨v1, hv1, hsz, hoth, hf1, hl1⟩ :=
    eraseNode_descriptor (m := m) (joinRuns G1) (joinRuns G2)
      hfirst hlast hl.next_node hl.prev_node h1 h2
  obtain ⟨e1, e2, e3, e4, -, e6, e7⟩ := eraseNode_inv hl
  have hidx := hb.idx
  simp only [List.map_append, List.map_cons] at hidx
  have hidx2 := nodup_around hidx
  have hbuck : Buckets tr m.value h.list_.head v1
      (G1 ++ (if r1 ++ r2 = [] then [] else [(b, r1 ++ r2)]) ++ G2) := by
    refine ⟨?_, ?_, ?_⟩
    · by_cases hc : r1 ++ r2 = []
      · simp only [hc, if_true, List.append_nil, List.map_append, List.nodup_append]
        exact ⟨hidx2.2.2.2.1, hidx2.2.2.2.2, fun {a} ha hb2 => hidx2.2.2.1 a ha hb2⟩
      · simp only [hc, if_false]
        simpa using hidx
    · intro g' hg'
      have hcases : (g' ∈ G1 ++ G2 ∧ g'.1 ≠ b) ∨ (r1 ++ r2 ≠ [] ∧ g' = (b, r1 ++ r2)) := by
        simp only [List.mem_append] at hg'
        rcases hg' with (hg' | hg') | hg'
        · refine Or.inl ⟨List.mem_append_left _ hg', ?_⟩
          intro e
          exact hidx2.1 (e ▸ List.mem_map_of_mem _ hg')
        · by_cases hc : r1 ++ r2 = []
          · simp [hc] at hg'
          · simp only [hc, if_false, List.mem_singleton] at hg'
            exact Or.inr ⟨hc, hg'⟩
        · refine Or.inl ⟨List.mem_append_right _ hg', ?_⟩
          intro e
          exact hidx2.2.1 (e ▸ List.mem_map_of_mem _ hg')
      rcases hcases with ⟨hm, hne⟩ | ⟨hc, rfl⟩
      · have hmG : g' ∈ G1 ++ (b, r1 ++ ptr :: r2) :: G2 := by
          simp only [List.mem_append, List.mem_cons] at hm ⊢
          tauto
        obtain ⟨q1, q2, q3, q4⟩ := hb.runs g' hmG
        have hsame : ∀ key, Hash.getBucket tr v1 key = Hash.getBucket tr h.vector_ key := by
          intro key
          simp only [Hash.getBucket, hsz]
        refine ⟨q1, ?_, ?_, ?_⟩
        · intro a ha
          rw [hsame]
          exact q2 a ha
        · rw [(hoth g'.1 hne).1]
          exact q3
        · rw [(hoth g'.1 hne).2]
          exact q4
      · refine ⟨hc, ?_, hf1, hl1⟩
        intro a ha
        have hsame : ∀ key, Hash.getBucket tr v1 key = Hash.getBucket tr h.vector_ key := by
          intro key
          simp only [Hash.getBucket, hsz]
        rw [hsame]
        refine hkeys a ?_
        simp only [List.mem_append, List.mem_cons] at ha ⊢
        tauto
    · intro c hc
      by_cases hcb : c = b
      · subst hcb
        have hnil : r1 ++ r2 = [] := by
          by_contra hne
          apply hc
          simp [hne]
        rw [hf1, hl1, hnil]
        exact ⟨rfl, rfl⟩
      · rw [(hoth c hcb).1, (hoth c hcb).2]
        refine hb.empties c ?_
        intro hm
        apply hc
        simp only [List.map_append, List.map_cons, List.mem_append, List.mem_cons] at hm ⊢
        rcases hm with hm | hm | hm
        · exact Or.inl (Or.inl hm)
        · exact absurd hm hcb
        · exact Or.inr hm
  have hjoin : joinRuns (G1 ++ (if r1 ++ r2 = [] then [] else [(b, r1 ++ r2)]) ++ G2)
      = (joinRuns G1 ++ r1) ++ (r2 ++ joinRuns G2) := by
    rw [joinRuns_append, joinRuns_append]
    by_cases hc : r1 ++ r2 = []
    · have hr1 : r1 = [] := (List.append_eq_nil.1 hc).1
      have hr2 : r2 = [] := (List.append_eq_nil.1 hc).2
      simp [hc, hr1, hr2, joinRuns]
    · simp [hc, joinRuns]
  refine ⟨(LinkedList.eraseNode m h.list_ ptr).1,
    { h with list_ := (LinkedList.eraseNode m h.list_ ptr).2.1, vector_ := v1 },
    G1 ++ (if r1 ++ r2 = [] then [] else [(b, r1 ++ r2)]) ++ G2,
    joinRuns G1 ++ r1, r2 ++ joinRuns G2, ?_, ⟨?_, ?_⟩, ?_, hjoin, e3, e4, rfl, hsz, e7, e6⟩
  · simp only [Hash.eraseNode, Hash.keyAt, hph, if_false, hbk]
    rw [← hv1, e1]
  · rw [hjoin]
    exact e2
  · show Buckets tr (LinkedList.eraseNode m h.list_ ptr).1.value
      (LinkedList.eraseNode m h.list_ ptr).2.1.head v1 _
    rw [e3, e6]
    exact hbuck
  · rw [hG, joinRuns_append]
    simp [joinRuns]

/-- `find` on a well-formed table: the call returns the first node of the
ring that lies in the bucket of the key and holds an equal key, or the head
sentinel (`end()`) when there is none. -/
theorem hashFind_spec {Key F : Type} {tr : HashTraits Key T F} {m : ListMem T}
    {h : HashTable F} {G : List (Nat × List Nat)} (hi : HashInv tr m h G) (key : Key)
    {fuel : Nat} (hf : (joinRuns G).length < fuel) :
    Hash.find tr fuel m h key = some (((joinRuns G).find? (fun a =>
        decide (Hash.getBucket tr h.vector_ (tr.getKeyFromValue (m.value a))
          = Hash.getBucket tr h.vector_ key) &&
        tr.equal_ (tr.getKeyFromValue (m.value a)) key)).getD h.list_.head) := by
  simp only [Hash.find, findPlace_spec hi.list hi.buckets rfl key hf]

/-- `erase(key)` on a well-formed table: without a node of an equal key in
the bucket of the key nothing changes and 0 is returned; otherwise the first
such node leaves the ring and 1 is returned. -/
theorem hashErase_spec {Key F : Type} {tr : HashTraits Key T F} {m : ListMem T}
    {h : HashTable F} {G : List (Nat × List Nat)} (hi : HashInv tr m h G) (key : Key)
    {fuel : Nat} (hf : (joinRuns G).length < fuel) :
    ((joinRuns G).find? (fun a =>
        decide (Hash.getBucket tr h.vector_ (tr.getKeyFromValue (m.value a))
          = Hash.getBucket tr h.vector_ key) &&
        tr.equal_ (tr.getKeyFromValue (m.value a)) key) = none ∧
      Hash.erase tr fuel m h key = some (m, h, 0)) ∨
    ∃ d m' h' G' pre post, (joinRuns G).find? (fun a =>
        decide (Hash.getBucket tr h.vector_ (tr.getKeyFromValue (m.value a))
          = Hash.getBucket tr h.vector_ key) &&
        tr.equal_ (tr.getKeyFromValue (m.value a)) key) = some d ∧
      Hash.erase tr fuel m h key = some (m', h', 1) ∧
      HashInv tr m' h' G' ∧ joinRuns G = pre ++ d :: post ∧ joinRuns G' = pre ++ post ∧
      m'.value = m.value ∧ m'.fresh = m.fresh ∧
      h'.max_load_factor_ = h.max_load_factor_ ∧ h'.vector_.size_ = h.vector_.size_ ∧
      h'.list_.size = h.list_.size - 1 ∧ h'.list_.head = h.list_.head := by
  have hfind := findPlace_spec hi.list hi.buckets rfl key hf
  cases hd : (joinRuns G).find? (fun a =>
        decide (Hash.getBucket tr h.vector_ (tr.getKeyFromValue (m.value a))
          = Hash.getBucket tr h.vector_ key) &&
        tr.equal_ (tr.getKeyFromValue (m.value a)) key) with
  | none =>
    rw [hd] at hfind
    exact Or.inl ⟨rfl, by simp only [Hash.erase, hfind]⟩
  | some d =>
    rw [hd] at hfind
    have hmem : d ∈ joinRuns G := List.mem_of_find?_eq_some hd
    obtain ⟨m', h', G', pre, post, e, q1, q2, q3, q4, q5, q6, q7, q8, q9⟩ :=
      eraseNode_spec hi hmem
    refine Or.inr ⟨d, m', h', G', pre, post, rfl, ?_, q1, q2, q3, q4, q5, q6, q7, q8, q9⟩
    simp only [Hash.erase, hfind, e]

/-- `rehash(n)` on a well-formed table, when the required bucket count can
be computed: the call returns, the table has this count, the ring is a
rearrangement of the ring before and the table is well formed. -/
theorem hashRehash_spec {Key F : Type} {tr : HashTraits Key T F} {m : ListMem T}
    {h : HashTable F} {G : List (Nat × List Nat)} (hi : HashInv tr m h G) (buckets : Nat)
    {fuel : Nat} (hf : (joinRuns G).length < fuel) {n : Nat}
    (hreq : Hash.getRequiredBucketsAmount tr fuel h buckets = some n) :
    ∃ m' h' G', Hash.rehash tr fuel m h buckets = some (m', h') ∧
      HashInv tr m' h' G' ∧ (joinRuns G').Perm (joinRuns G) ∧ m'.value = m.value ∧
      m'.fresh = m.fresh ∧ h'.max_load_factor_ = h.max_load_factor_ ∧
      Hash.bucketCount h' = n ∧ h'.list_ = h.list_ := by
  by_cases hc : Hash.bucketCount h = n
  · refine ⟨m, h, G, ?_, hi, List.Perm.refl _, rfl, rfl, rfl, hc, rfl⟩
    simp only [Hash.rehash, hreq, hc, ne_eq, not_true_eq_false, if_false]
  · obtain ⟨m2, v2, G2, e2, hl2, hb2, hp2, hv2, hf2, hd2, hs2⟩ :=
      rehashHashVector_spec tr (m := m) (l := h.list_)
        (h := { h with vector_ := h.vector_.resize n h.list_.head })
        hi.list rfl (fun b => ⟨rfl, rfl⟩) hf
    refine ⟨m2, { h with vector_ := v2 }, G2, ?_, ⟨hl2, hb2⟩, hp2, hv2, hf2, rfl, ?_, rfl⟩
    · simp only [Hash.rehash, hreq, ne_eq, hc, not_false_eq_true, if_true]
      exact e2
    · show v2.size_ = n
      rw [hs2]
      rfl

/-- The constructor, when the bucket count can be computed: an empty
well-formed table with this count and the load factor `1.0f`. -/
theorem hashCreate_spec {Key F : Type} (tr : HashTraits Key T F) (m : ListMem T)
    (bucket_count : Nat) {fuel : Nat} {s : ListMem T × HashTable F}
    (hc : Hash.create tr fuel m bucket_count = some s) :
    HashInv tr s.1 s.2 [] ∧ s.2.max_load_factor_ = tr.one ∧ s.2.list_.size = 0 := by
  simp only [Hash.create] at hc
  split at hc
  · cases hc
  · cases hc
    refine ⟨⟨createEmptyList_inv m, ⟨by simp, by simp, fun b _ => ⟨rfl, rfl⟩⟩⟩, rfl, rfl⟩

/-- `clear` on a well-formed table: the call returns an empty well-formed
table of `min_buckets_` buckets. -/
theorem hashClear_spec {Key F : Type} {tr : HashTraits Key T F} {m : ListMem T}
    {h : HashTable F} {G : List (Nat × List Nat)} (hi : HashInv tr m h G)
    {fuel : Nat} (hf : (joinRuns G).length < fuel) :
    ∃ m' h', Hash.clear fuel m h = some (m', h') ∧ HashInv tr m' h' [] ∧
      h'.max_load_factor_ = h.max_load_factor_ ∧ h'.list_.size = 0 ∧
      Hash.bucketCount h' = Hash.min_buckets_ := by
  obtain ⟨m', l', e, q1, q2, q3, q4, q5, q6⟩ := clear_inv hi.list hf
  refine ⟨m', { h with list_ := l', vector_ := h.vector_.resize Hash.min_buckets_ h.list_.head },
    ?_, ⟨q1, ⟨by simp, by simp, fun b _ => ?_⟩⟩, rfl, q6, rfl⟩
  · simp only [Hash.clear, e]
  · show h.list_.head = l'.head ∧ h.list_.head = l'.head
    rw [q5]
    exact ⟨rfl, rfl⟩

/-- What a call of `emplace` that returns has done: the key was found in its
bucket and nothing changed, or the new node is part of the ring. -/
theorem emplace_step {Key F : Type} {tr : HashTraits Key T F} {m : ListMem T}
    {h : HashTable F} {G : List (Nat × List Nat)} (hi : HashInv tr m h G)
    {fuel : Nat} (hf : (joinRuns G).length < fuel) (extractable : Bool) (value : T)
    {r : ListMem T × HashTable F × Nat × Bool}
    (hr : Hash.emplace tr fuel extractable m h value = some r) :
    (∃ d, (joinRuns G).find? (fun a =>
        decide (Hash.getBucket tr h.vector_ (tr.getKeyFromValue (m.value a))
          = Hash.getBucket tr h.vector_ (tr.getKeyFromValue value)) &&
        tr.equal_ (tr.getKeyFromValue (m.value a)) (tr.getKeyFromValue value)) = some d ∧
      r.2.1 = h ∧ r.2.2 = (d, false) ∧ HashInv tr r.1 h G ∧ r.1.next = m.next ∧
      r.1.prev = m.prev ∧ (∀ a, a < m.fresh → r.1.value a = m.value a) ∧
      (extractable = true → r.1 = m)) ∨
    ((joinRuns G).find? (fun a =>
        decide (Hash.getBucket tr h.vector_ (tr.getKeyFromValue (m.value a))
          = Hash.getBucket tr h.vector_ (tr.getKeyFromValue value)) &&
        tr.equal_ (tr.getKeyFromValue (m.value a)) (tr.getKeyFromValue value)) = none ∧
      ∃ G', r.2.2 = (m.fresh, true) ∧ HashInv tr r.1 r.2.1 G' ∧
        (joinRuns G').Perm (m.fresh :: joinRuns G) ∧
        r.1.value = upd m.value m.fresh value ∧ r.1.fresh = m.fresh + 1 ∧
        r.2.1.max_load_factor_ = h.max_load_factor_ ∧
        r.2.1.list_ = { h.list_ with size := h.list_.size + 1 } ∧
        (tr.exceeds h.max_load_factor_ (h.list_.size + 1) (Hash.bucketCount h) = false →
          Hash.bucketCount r.2.1 = Hash.bucketCount h) ∧
        (tr.exceeds h.max_load_factor_ (h.list_.size + 1) (Hash.bucketCount h) = true →
          Hash.getRequiredBucketsAmount tr fuel
            { h with list_ := { h.list_ with size := h.list_.size + 1 } } (h.list_.size + 1)
              = some (Hash.bucketCount r.2.1))) := by
  cases hd : (joinRuns G).find? (fun a =>
        decide (Hash.getBucket tr h.vector_ (tr.getKeyFromValue (m.value a))
          = Hash.getBucket tr h.vector_ (tr.getKeyFromValue value)) &&
        tr.equal_ (tr.getKeyFromValue (m.value a)) (tr.getKeyFromValue value)) with
  | some d =>
    obtain ⟨m', e, q1, q2, q3, q4, q5⟩ := emplace_dup hi hf extractable value hd
    rw [e] at hr
    cases hr
    exact Or.inl ⟨d, rfl, rfl, rfl, q1, q2, q3, q4, q5⟩
  | none =>
    have hgrow : tr.exceeds h.max_load_factor_ (h.list_.size + 1) (Hash.bucketCount h) = true →
        ∃ n, Hash.getRequiredBucketsAmount tr fuel
          { h with list_ := { h.list_ with size := h.list_.size + 1 } } (h.list_.size + 1)
            = some n := by
      intro hex
      cases hreq : Hash.getRequiredBucketsAmount tr fuel
          { h with list_ := { h.list_ with size := h.list_.size + 1 } } (h.list_.size + 1) with
      | some n => exact ⟨n, rfl⟩
      | none =>
        exfalso
        have hi' : HashInv tr
            ({ m with value := upd m.value m.fresh value, fresh := m.fresh + 1 } : ListMem T)
            h G :=
          hi.of_same rfl rfl (fun a ha => by
            have : a ≠ m.fresh := by omega
            simp [upd, this]) (by show m.fresh ≤ m.fresh + 1; omega)
        cases extractable
        · have hfind := findPlace_spec hi'.list hi'.buckets rfl (tr.getKeyFromValue value) hf
          have hcongr : (joinRuns G).find? (fun a =>
              decide (Hash.getBucket tr h.vector_
                  (tr.getKeyFromValue (upd m.value m.fresh value a))
                = Hash.getBucket tr h.vector_ (tr.getKeyFromValue value)) &&
              tr.equal_ (tr.getKeyFromValue (upd m.value m.fresh value a))
                (tr.getKeyFromValue value)) = none := by
            rw [← hd]
            refine find?_congr_mem _ ?_
            intro a ha
            have : a ≠ m.fresh := by
              have := hi.list.alloc a (List.mem_cons_of_mem _ ha)
              omega
            simp [upd, this]
          simp only at hfind
          rw [hcongr] at hfind
          simp only [Hash.emplace, Bool.false_eq_true, if_false, ListTmpNodes.createNode, upd,
            if_true, hfind, ListTmpNodes.new, Hash.emplaceNew, Hash.size, Hash.bucketCount]
            at hr hex
          simp only [Hash.bucketCount] at hreq
          simp only [hex, if_true, hreq] at hr
          cases hr
        · have hfind := findPlace_spec hi.list hi.buckets rfl (tr.getKeyFromValue value) hf
          rw [hd] at hfind
          simp only [Hash.emplace, if_true, hfind, ListTmpNodes.createNode, ListTmpNodes.new,
            Hash.emplaceNew, Hash.size, Hash.bucketCount] at hr hex
          simp only [Hash.bucketCount] at hreq
          simp only [hex, if_true, hreq] at hr
          cases hr
    obtain ⟨m', h', G', e, q1, q2, q3, q4, q5, q6, q7, q8, q9⟩ :=
      emplace_new hi hf extractable value hd hgrow
    rw [e] at hr
    cases hr
    refine Or.inr ⟨rfl, G', rfl, q1, q2, q3, q4, q6, q7, q8, ?_⟩
    intro hex
    obtain ⟨n, hn⟩ := hgrow hex
    rw [hn, q9 n hex hn]

theorem HashInv.contiguous {Key F : Type} {tr : HashTraits Key T F} {m : ListMem T}
    {h : HashTable F} {G : List (Nat × List Nat)} (hi : HashInv tr m h G)
    (hpos : 0 < Hash.bucketCount h) : BucketContiguous tr m h (joinRuns G) := by
  intro b _
  have hh := hi.sentinel_not_mem
  by_cases hfirst : h.vector_.first_ b = h.list_.head
  · have hnot : b ∉ G.map Prod.fst := fun hm => (hi.buckets.mem_idx_iff hh b).1 hm hfirst
    refine Or.inl ⟨hfirst, (hi.buckets.empties b hnot).2, ?_⟩
    intro a ha e
    obtain ⟨g, hg, hag⟩ := mem_joinRuns.1 ha
    rw [hi.buckets.bucket_of_mem hg hag] at e
    exact hnot (e ▸ List.mem_map_of_mem _ hg)
  · obtain ⟨G1, w, run, G2, hG, hw, hlast, hn1, hn2⟩ := hi.buckets.split_at hh hfirst
    have hb := hi.buckets
    rw [hG] at hb
    obtain ⟨run0, q, hq⟩ : ∃ run0 q, w :: run = run0 ++ [q] := by
      rcases List.eq_nil_or_concat (w :: run) with h0 | ⟨r0, q, h0⟩
      · simp at h0
      · exact ⟨r0, q, by simpa using h0⟩
    have hlq : h.vector_.last_ b = q := by
      rw [hlast, hq]
      simp
    have hl := hi.list
    rw [hG, joinRuns_append] at hl
    simp only [joinRuns] at hl
    have hl2 : ListInv m h.list_ ((joinRuns G1 ++ run0) ++ q :: joinRuns G2) := by
      have := hl
      rw [hq] at this
      simpa using this
    have hnq : m.next q = (joinRuns G2).head?.getD h.list_.head := hl2.next_node
    refine Or.inr ⟨joinRuns G1, w :: run, joinRuns G2, ?_, ?_, ?_, ?_, ?_⟩
    · rw [hG, joinRuns_append]
      simp [joinRuns]
    · rw [hw]
      rfl
    · rw [hlq, hq]
      simp
    · intro a ha
      constructor
      · intro har
        exact hb.bucket_of_mem (g := (b, w :: run)) (by simp) har
      · intro hab
        rw [hG, joinRuns_append] at ha
        simp only [joinRuns, List.mem_append] at ha
        rcases ha with ha | ha | ha
        · exact absurd hab (hb.bucket_ne (Or.inl ha))
        · exact ha
        · exact absurd hab (hb.bucket_ne (Or.inr ha))
    · rw [hlq, hnq]
      cases G2 with
      | nil => exact Or.inl rfl
      | cons g2 G2 =>
        have hg2 : g2 ∈ G := by rw [hG]; simp
        obtain ⟨w2, run2, hrun2, hf2, hw2⟩ := hi.buckets.first_ne_head hh hg2
        refine Or.inr ⟨g2.1, ?_, ?_, ?_, ?_⟩
        · intro e
          exact hn2 (by rw [← e]; simp)
        · have := hi.buckets.bucket_of_mem hg2 (a := w2) (by rw [hrun2]; simp)
          rw [← this]
          exact Nat.mod_lt _ hpos
        · rw [hf2]
          simp [joinRuns, hrun2]
        · rw [hf2]
          exact hw2

/-- One step that may be taken and returns keeps a well-formed table well
formed, and the ring grows by one node at most. -/
theorem applyHashOp_inv {Key F : Type} {tr : HashTraits Key T F} {fuel : Nat}
    {extractable : Bool} {s s' : ListMem T × HashTable F} {G : List (Nat × List Nat)}
    (hi : HashInv tr s.1 s.2 G) (hf : (joinRuns G).length < fuel) (op : HashOp Key T F)
    (hv : HashOp.valid fuel s op = true)
    (hr : applyHashOp tr fuel extractable s op = some s') :
    ∃ G', HashInv tr s'.1 s'.2 G' ∧ (joinRuns G').length ≤ (joinRuns G).length + 1 := by
  cases op with
  | emplace value =>
    simp only [applyHashOp, Option.map_eq_some'] at hr
    obtain ⟨r, hr, rfl⟩ := hr
    rcases emplace_step hi hf extractable value hr with
      ⟨d, -, q1, -, q2, -⟩ | ⟨-, G', -, q1, q2, -⟩
    · refine ⟨G, ?_, by omega⟩
      show HashInv tr r.1 r.2.1 G
      rw [q1]
      exact q2
    · refine ⟨G', q1, ?_⟩
      rw [q2.length_eq]
      simp
  | eraseNode ptr =>
    simp only [HashOp.valid, traverse_list_spec hi.list hf, Option.getD_some,
      decide_eq_true_eq] at hv
    obtain ⟨m', h', G', pre, post, e, q1, q2, q3, -⟩ := eraseNode_spec hi hv
    simp only [applyHashOp, e, Option.map_some'] at hr
    cases hr
    refine ⟨G', q1, ?_⟩
    rw [q3, q2]
    simp only [List.length_append, List.length_cons]
    omega
  | eraseRange first last => simp [HashOp.valid] at hv
  | erase key =>
    rcases hashErase_spec hi key hf with ⟨-, e⟩ | ⟨d, m', h', G', pre, post, -, e, q1, q2, q3, -⟩
    · simp only [applyHashOp, e, Option.map_some'] at hr
      cases hr
      exact ⟨G, hi, by omega⟩
    · simp only [applyHashOp, e, Option.map_some'] at hr
      cases hr
      refine ⟨G', q1, ?_⟩
      rw [q3, q2]
      simp only [List.length_append, List.length_cons]
      omega
  | rehash buckets =>
    simp only [applyHashOp] at hr
    cases hreq : Hash.getRequiredBucketsAmount tr fuel s.2 buckets with
    | none => simp [Hash.rehash, hreq] at hr
    | some n =>
      obtain ⟨m', h', G', e, q1, q2, -⟩ := hashRehash_spec hi buckets hf hreq
      rw [e] at hr
      cases hr
      exact ⟨G', q1, by rw [q2.length_eq]; omega⟩
  | clear =>
    obtain ⟨m', h', e, q1, -⟩ := hashClear_spec hi hf
    simp only [applyHashOp, e] at hr
    cases hr
    exact ⟨[], q1, by simp [joinRuns]⟩
  | maxLoadFactor f =>
    simp only [applyHashOp, Hash.maxLoadFactor, Option.map_eq_some'] at hr
    obtain ⟨h', hh', rfl⟩ := hr
    split at hh'
    · cases hh'
      exact ⟨G, ⟨hi.list, hi.buckets⟩, by omega⟩
    · cases hh'

/-- A sequence of steps that may be taken and returns keeps a well-formed
table well formed. -/
theorem runHashOps_inv {Key F : Type} {tr : HashTraits Key T F} {fuel : Nat}
    {extractable : Bool} :
    ∀ (ops : List (HashOp Key T F)) (s s' : ListMem T × HashTable F)
      (G : List (Nat × List Nat)), HashInv tr s.1 s.2 G →
      (joinRuns G).length + ops.length < fuel →
      hashOpsValid tr fuel extractable s ops = true →
      runHashOps tr fuel extractable s ops = some s' →
      ∃ G', HashInv tr s'.1 s'.2 G' ∧ (joinRuns G').length ≤ (joinRuns G).length + ops.length
  | [], s, s', G, hi, _, _, hr => by
    simp only [runHashOps] at hr
    cases hr
    exact ⟨G, hi, by simp⟩
  | op :: ops, s, s', G, hi, hf, hv, hr => by
    simp only [List.length_cons] at hf
    simp only [runHashOps] at hr
    simp only [hashOpsValid, Bool.and_eq_true] at hv
    cases h1 : applyHashOp tr fuel extractable s op with
    | none => simp [h1] at hr
    | some s1 =>
      rw [h1] at hr
      simp only [h1] at hv
      obtain ⟨G1, hi1, hl1⟩ := applyHashOp_inv hi (by omega) op hv.1 h1
      obtain ⟨G', hi', hl'⟩ := runHashOps_inv ops s1 s' G1 hi1 (by omega) hv.2 hr
      exact ⟨G', hi', by simp only [List.length_cons]; omega⟩

theorem contiguityEnd_run :
    runHashOps natHashTraits 70 true sampleHash contiguityOps = some contiguityEnd :=
  option_eq_some_getD _ _ (by decide!)

theorem contiguityOps_valid :
    hashOpsValid natHashTraits 70 true sampleHash contiguityOps = true := by
  decide!

theorem GoodCount.pos {n : Nat} (h : GoodCount n) : 0 < n := by
  obtain ⟨k, -, -, rfl⟩ := h
  exact Nat.pos_pow_of_pos k (by norm_num)

/-- C32: in every state that a hash table made by the constructor reaches
through insertions (with or without growth), erasures through an iterator,
erasures by key and `rehash` (also `clear` and changes of the load factor),
the iteration from `begin()` to `end()` returns the nodes of the ring, and for
every bucket either `first_ = last_ = head` and no node of the ring falls into
the bucket, or the nodes from `first_` to `last_` are one unbroken stretch of
the ring, exactly the nodes whose hash modulo the bucket count is the index of
the bucket, and the node behind `last_` is the head or the first node of
another bucket. -/
theorem bucket_contiguity_invariant {Key F : Type} (tr : HashTraits Key T F)
    (extractable : Bool) {fuel : Nat} (m0 : ListMem T) (bucket_count : Nat)
    (ops : List (HashOp Key T F)) {s0 s : ListMem T × HashTable F}
    (hc : Hash.create tr fuel m0 bucket_count = some s0) (hlen : ops.length < fuel)
    (hv : hashOpsValid tr fuel extractable s0 ops = true)
    (hr : runHashOps tr fuel extractable s0 ops = some s) :
    ∃ xs, LinkedList.traverse fuel s.1 s.2.list_ = some xs ∧ BucketContiguous tr s.1 s.2 xs := by
  obtain ⟨hi0, -, -⟩ := hashCreate_spec tr m0 bucket_count hc
  obtain ⟨G, hi, hl⟩ := runHashOps_inv ops s0 s [] hi0 (by simpa [joinRuns] using hlen) hv hr
  have hg0 : GoodCount (Hash.bucketCount s0.2) := by
    obtain ⟨m1, h1⟩ := s0
    exact create_count tr hc
  have hg := runHashOps_count tr ops hg0 hr
  refine ⟨joinRuns G, traverse_list_spec hi.list ?_, hi.contiguous hg.pos⟩
  simp only [joinRuns, List.length_nil, Nat.zero_add] at hl
  omega

theorem bucket_contiguity_invariant_witness :
    Hash.create natHashTraits 70 ListMem.init 0 = some sampleHash ∧
    contiguityOps.length < 70 ∧
    hashOpsValid natHashTraits 70 true sampleHash contiguityOps = true ∧
    runHashOps natHashTraits 70 true sampleHash contiguityOps = some contiguityEnd ∧
    ∃ xs, LinkedList.traverse 70 contiguityEnd.1 contiguityEnd.2.list_ = some xs ∧
      BucketContiguous natHashTraits contiguityEnd.1 contiguityEnd.2 xs :=
  ⟨sampleHash_create, by decide, contiguityOps_valid, contiguityEnd_run,
    bucket_contiguity_invariant natHashTraits true ListMem.init 0 contiguityOps
      sampleHash_create (by decide) contiguityOps_valid contiguityEnd_run⟩

/-- The sample run of the contiguity claim, evaluated: the ring and the
bucket count after each step. -/
theorem contiguity_sample_run :
    (List.range 8).map (fun n =>
      (runHashOps natHashTraits 70 true sampleHash (contiguityOps.take n)).map
        (fun s => (LinkedList.contents 70 s.1 s.2.list_, Hash.bucketCount s.2)))
    = [some (some [], 8), some (some [1], 8), some (some [9, 1], 8),
       some (some [9, 1, 2], 8), some (some [1, 2], 8), some (some [2], 8),
       some (some [2], 128), some (some [2, 17], 128)] := by
  decide!

/-- The doubling loop of `getRequiredBucketsAmount` returns when the request
is below `2 ^ 63` and the fuel covers the doublings: the answer is the first
power of two above the request that the doubling meets. -/
theorem growBuckets_returns (req : Nat) : ∀ (fuel k : Nat), k ≤ 63 → req < 2 ^ 63 →
    64 ≤ fuel + k →
    ∃ k', k ≤ k' ∧ k' ≤ 63 ∧ growBuckets req fuel (2 ^ k) = some (2 ^ k') ∧ req < 2 ^ k' ∧
      (k < k' → 2 ^ (k' - 1) ≤ req)
  | 0, k, hk, _, hf => by omega
  | fuel + 1, k, hk, hreq, hf => by
    simp only [growBuckets]
    by_cases hc : req ≥ 2 ^ k
    · have h63 : k < 63 := by
        by_contra hcon
        have hk' : k = 63 := by omega
        subst hk'
        omega
      rw [if_pos hc, sizeWrap_pow_succ hk, if_pos h63]
      obtain ⟨k', a1, a2, a3, a4, a5⟩ := growBuckets_returns req fuel (k + 1) (by omega) hreq
        (by omega)
      refine ⟨k', by omega, a2, a3, a4, ?_⟩
      intro _
      by_cases hkk : k + 1 < k'
      · exact a5 hkk
      · have : k' = k + 1 := by omega
        subst this
        simpa using hc
    · rw [if_neg hc]
      exact ⟨k, le_refl _, hk, rfl, by omega, fun h => absurd h (lt_irrefl _)⟩

/-- `getRequiredBucketsAmount` returns when the request is below `2 ^ 63`:
with `r` the larger of the request and `min_buckets_` and `c` the bucket
count, the answer is `c` when `c ≥ r`, `8 * c` when `c < 512` and `8 * c ≥ r`,
and otherwise the first of `2 * c`, `4 * c`, ... above `r`. -/
theorem getRequiredBucketsAmount_returns {Key F : Type} (tr : HashTraits Key T F) (fuel : Nat)
    (h : HashTable F) (for_size : Nat) {k : Nat} (hk : k ≤ 63)
    (hc : Hash.bucketCount h = 2 ^ k)
    (hreq : tr.quotient for_size h.max_load_factor_ < 2 ^ 63) (hfuel : 64 ≤ fuel) :
    ∃ n, Hash.getRequiredBucketsAmount tr fuel h for_size = some n ∧
      (max (tr.quotient for_size h.max_load_factor_) Hash.min_buckets_ ≤ 2 ^ k → n = 2 ^ k) ∧
      (2 ^ k < max (tr.quotient for_size h.max_load_factor_) Hash.min_buckets_ →
        2 ^ k < 512 →
        max (tr.quotient for_size h.max_load_factor_) Hash.min_buckets_ ≤ 2 ^ k * 8 →
        n = 2 ^ k * 8) ∧
      (2 ^ k < max (tr.quotient for_size h.max_load_factor_) Hash.min_buckets_ →
        ¬ (2 ^ k < 512 ∧
          max (tr.quotient for_size h.max_load_factor_) Hash.min_buckets_ ≤ 2 ^ k * 8) →
        ∃ j, 1 ≤ j ∧ n = 2 ^ k * 2 ^ j ∧
          max (tr.quotient for_size h.max_load_factor_) Hash.min_buckets_ < n ∧
          n / 2 ≤ max (tr.quotient for_size h.max_load_factor_) Hash.min_buckets_) := by
  have hr63 : max (tr.quotient for_size h.max_load_factor_) Hash.min_buckets_ < 2 ^ 63 := by
    simp only [Hash.min_buckets_]
    have : (8 : Nat) < 2 ^ 63 := by norm_num
    exact max_lt hreq this
  simp only [Hash.getRequiredBucketsAmount, hc]
  by_cases h1 : max (tr.quotient for_size h.max_load_factor_) Hash.min_buckets_ ≤ 2 ^ k
  · refine ⟨2 ^ k, by rw [if_pos h1], fun _ => rfl, fun h2 => absurd h1 (not_le.2 h2),
      fun h2 => absurd h1 (not_le.2 h2)⟩
  · rw [if_neg h1]
    by_cases h2 : 2 ^ k < 512
    · have hk8 := le_eight_of_pow_lt h2
      have e : 2 ^ k * 8 = 2 ^ (k + 3) := by ring
      have hlt : 2 ^ (k + 3) < 2 ^ 64 := Nat.pow_lt_pow_right (by norm_num) (by omega)
      have hw : sizeWrap (2 ^ k * 8) = 2 ^ k * 8 := by
        rw [e]
        exact Nat.mod_eq_of_lt hlt
      rw [hw]
      by_cases h3 : max (tr.quotient for_size h.max_load_factor_) Hash.min_buckets_ ≤ 2 ^ k * 8
      · refine ⟨2 ^ k * 8, by rw [if_pos ⟨h2, h3⟩], fun h => absurd h h1, fun _ _ _ => rfl,
          fun _ h => absurd ⟨h2, h3⟩ h⟩
      · have hn : ¬ (2 ^ k < 512 ∧
            2 ^ k * 8 ≥ max (tr.quotient for_size h.max_load_factor_) Hash.min_buckets_) :=
          fun hh => h3 hh.2
        rw [if_neg hn]
        obtain ⟨k', a1, a2, a3, a4, a5⟩ := growBuckets_returns
          (max (tr.quotient for_size h.max_load_factor_) Hash.min_buckets_) fuel k hk hr63
          (by omega)
        have hkk : k < k' := by
          by_contra hcon
          have : k' = k := by omega
          subst this
          omega
        refine ⟨2 ^ k', a3, fun h => absurd h h1, fun _ _ h => absurd h h3, fun _ _ => ?_⟩
        refine ⟨k' - k, by omega, ?_, a4, ?_⟩
        · rw [← pow_add]
          congr 1
          omega
        · have e2 : 2 ^ k' = 2 ^ (k' - 1) * 2 := by
            rw [← pow_succ]
            congr 1
            omega
          rw [e2, Nat.mul_div_cancel _ (by norm_num : 0 < 2)]
          exact a5 hkk
    · have hn : ¬ (2 ^ k < 512 ∧
          sizeWrap (2 ^ k * 8) ≥ max (tr.quotient for_size h.max_load_factor_)
            Hash.min_buckets_) := fun hh => h2 hh.1
      rw [if_neg hn]
      obtain ⟨k', a1, a2, a3, a4, a5⟩ := growBuckets_returns
        (max (tr.quotient for_size h.max_load_factor_) Hash.min_buckets_) fuel k hk hr63
        (by omega)
      have hkk : k < k' := by
        by_contra hcon
        have : k' = k := by omega
        subst this
        omega
      refine ⟨2 ^ k', a3, fun h => absurd h h1, fun _ h => absurd h h2, fun _ _ => ?_⟩
      refine ⟨k' - k, by omega, ?_, a4, ?_⟩
      · rw [← pow_add]
        congr 1
        omega
      · have e2 : 2 ^ k' = 2 ^ (k' - 1) * 2 := by
          rw [← pow_succ]
          congr 1
          omega
        rw [e2, Nat.mul_div_cancel _ (by norm_num : 0 < 2)]
        exact a5 hkk

/-- `getRequiredBucketsAmount` with a request of at most `R`, on a table of
at most `8 * R` buckets: the call returns and answers at most `8 * R`. -/
theorem getRequiredBucketsAmount_le {Key F : Type} (tr : HashTraits Key T F) (fuel : Nat)
    (h : HashTable F) (for_size : Nat) {k : Nat} (hk : k ≤ 63)
    (hc : Hash.bucketCount h = 2 ^ k) {R : Nat}
    (hq : tr.quotient for_size h.max_load_factor_ ≤ R) (hR8 : 8 ≤ R) (hR : R < 2 ^ 60)
    (hcW : 2 ^ k ≤ 8 * R) (hfuel : 64 ≤ fuel) :
    ∃ n, Hash.getRequiredBucketsAmount tr fuel h for_size = some n ∧ n ≤ 8 * R := by
  obtain ⟨n, hn, c1, c2, c3⟩ := getRequiredBucketsAmount_returns tr fuel h for_size hk hc
    (by
      have : (2 : Nat) ^ 60 < 2 ^ 63 := by norm_num
      omega) hfuel
  have hr : max (tr.quotient for_size h.max_load_factor_) Hash.min_buckets_ ≤ R :=
    max_le hq (by simpa [Hash.min_buckets_] using hR8)
  refine ⟨n, hn, ?_⟩
  by_cases h1 : max (tr.quotient for_size h.max_load_factor_) Hash.min_buckets_ ≤ 2 ^ k
  · rw [c1 h1]
    exact hcW
  · have h1' := not_le.1 h1
    by_cases h2 : 2 ^ k < 512 ∧
        max (tr.quotient for_size h.max_load_factor_) Hash.min_buckets_ ≤ 2 ^ k * 8
    · rw [c2 h1' h2.1 h2.2]
      omega
    · obtain ⟨j, -, -, -, hhalf⟩ := c3 h1' h2
      omega

/-- C31 (refuted by the code): with the maximal load factor 2.0 and 8
buckets, the 17th insertion finds `2.0 < 17 / 8` in `checkRehash` and asks
`getRequiredBucketsAmount(17)` for the new count; this computes the request
`static_cast<size_type>(17 / 2.0) = 8`, finds the 8 buckets enough and
answers 8, so the vector is rebuilt with the same 8 buckets.  After the
insertion `size() / bucketCount()` is `17 / 8`, above the load factor.  (In
`natHashTraits` the load factor 2.0 is the number 2, the quotient is the
division of natural numbers and `f < size / count` is `f * count < size`; the
values 17 / 2.0 = 8.5 and 17 / 8 = 2.125 are exact in `float`.) -/
theorem insert_exceeds_load_factor :
    (runHashOps natHashTraits 70 true sampleHash loadFactorOps).map
      (fun s => (Hash.size s.2, Hash.bucketCount s.2, s.2.max_load_factor_,
        natHashTraits.exceeds s.2.max_load_factor_ (Hash.size s.2) (Hash.bucketCount s.2)))
      = some (17, 8, 2, true) ∧
    (runHashOps natHashTraits 70 true sampleHash (loadFactorOps.take 17)).map
      (fun s => (Hash.size s.2, Hash.bucketCount s.2,
        natHashTraits.exceeds 2 (Hash.size s.2 + 1) (Hash.bucketCount s.2),
        Hash.getRequiredBucketsAmount natHashTraits 70
          { s.2 with list_ := { s.2.list_ with size := s.2.list_.size + 1 } } 17))
      = some (16, 8, true, some 8) := by
  constructor <;> decide!

/-- The count that `rehash` leaves is not the smallest one: on the empty
table of 8 buckets with load factor 1.0, `rehash(9)` leaves 64 buckets, while
16 is a power of two that is at least `max(9, size() / 1.0, 8)`; on the same
table `rehash(100)` leaves 128 buckets and a further `rehash(1)` keeps
them. -/
theorem rehash_not_smallest_power :
    Hash.bucketCount sampleHash.2 = 8 ∧ Hash.size sampleHash.2 = 0 ∧
    (Hash.rehash natHashTraits 70 sampleHash.1 sampleHash.2 9).map
      (fun s => Hash.bucketCount s.2) = some 64 ∧
    max 9 (max (Hash.size sampleHash.2 / 1) 8) ≤ 2 ^ 4 ∧ 2 ^ 4 < 64 ∧
    ((Hash.rehash natHashTraits 70 sampleHash.1 sampleHash.2 100).bind
      (fun s => (Hash.rehash natHashTraits 70 s.1 s.2 1).map
        (fun s1 => (Hash.bucketCount s.2, Hash.bucketCount s1.2)))) = some (128, 128) := by
  decide!

/-- C35 (refuted by the code): `rehash(n)` hands the bucket count `n` to
`getRequiredBucketsAmount(for_size)`, which takes it for a number of elements
and divides it by the load factor, and never looks at `size()`.  On the empty
table of 8 buckets with the maximal load factor 2.0, `rehash(100)` computes
the request `100 / 2.0 = 50` and leaves 64 buckets, fewer than the 100 asked
for (the smallest power of two that is at least `max(100, 0, 8)` is 128); with
load factor 1.0 the same call leaves 128.  On the table that holds 16 keys in
8 buckets (filled with load factor 2.0) after the load factor is set to 1.0,
`rehash(1)` finds the 8 buckets enough for the request 1 and keeps them,
fewer than `size() / maxLoadFactor = 16`.  (In `natHashTraits` the load
factors are the numbers 2 and 1 and the quotient is the division of natural
numbers; 100 / 2.0 is exact in `float`.) -/
theorem rehash_below_request :
    ((runHashOps natHashTraits 70 true sampleHash
        [HashOp.maxLoadFactor 2, HashOp.rehash 100]).map
      (fun s => (Hash.size s.2, s.2.max_load_factor_, Hash.bucketCount s.2,
        decide (Hash.bucketCount s.2 < 100)))) = some (0, 2, 64, true) ∧
    (2 ^ 6 < max 100 (max (0 / 2) 8) ∧ max 100 (max (0 / 2) 8) ≤ 2 ^ 7) ∧
    ((runHashOps natHashTraits 70 true sampleHash [HashOp.rehash 100]).map
      (fun s => (s.2.max_load_factor_, Hash.bucketCount s.2))) = some (1, 128) ∧
    ((runHashOps natHashTraits 70 true sampleHash rehashSizeOps).map
      (fun s => (Hash.size s.2, s.2.max_load_factor_, Hash.bucketCount s.2,
        decide (Hash.bucketCount s.2 < Hash.size s.2 / s.2.max_load_factor_))))
      = some (16, 1, 8, true) := by
  refine ⟨?_, ?_, ?_, ?_⟩ <;> decide!

/-- C36 (refuted by the code): `eraseRange` reads `last->value` and the value
of the node behind each bucket on its way, and for a range that ends at
`end()`, is empty, or lies inside one bucket one of these nodes is the head
sentinel, whose value was never constructed (`keyAt` has no result there), so
the call has no defined result.  On the table with the ring 9, 1, 2 (nodes 2,
1, 3): the range from the node of 9 to `end()`, the empty range at the node
of 9 and the range that holds only the node of 9 have no result; the range
from the node of 1 to the node of 2, which ends at the first node of another
bucket, is erased as it should be. -/
theorem eraseRange_reads_sentinel_value :
    LinkedList.contents 70 rangeTable.1 rangeTable.2.list_ = some [9, 1, 2] ∧
    LinkedList.traverse 70 rangeTable.1 rangeTable.2.list_ = some [2, 1, 3] ∧
    rangeTable.2.list_.head = 0 ∧
    Hash.keyAt natHashTraits rangeTable.1 rangeTable.2.list_.head 0 = none ∧
    (Hash.eraseRange natHashTraits 70 rangeTable.1 rangeTable.2 2 0).isNone = true ∧
    (Hash.eraseRange natHashTraits 70 rangeTable.1 rangeTable.2 2 2).isNone = true ∧
    (Hash.eraseRange natHashTraits 70 rangeTable.1 rangeTable.2 2 1).isNone = true ∧
    (Hash.eraseRange natHashTraits 70 rangeTable.1 rangeTable.2 1 3).map
      (fun s => (LinkedList.contents 70 s.1 s.2.1.list_, Hash.size s.2.1,
        Hash.find natHashTraits 70 s.1 s.2.1 9, Hash.find natHashTraits 70 s.1 s.2.1 2,
        Hash.find natHashTraits 70 s.1 s.2.1 1))
      = some (some [9, 2], 2, some 2, some 3, some 0) := by
  refine ⟨?_, ?_, ?_, ?_, ?_, ?_, ?_, ?_⟩ <;> decide!

/-- The states of a table made by the constructor and taken through steps
that may be taken are well formed, with a ring of at most as many nodes as
there were steps, and their bucket count is a power of two. -/
theorem reachable_hash_inv {Key F : Type} (tr : HashTraits Key T F)
    (extractable : Bool) {fuel : Nat} (m0 : ListMem T) (bucket_count : Nat)
    (ops : List (HashOp Key T F)) {s0 s : ListMem T × HashTable F}
    (hc : Hash.create tr fuel m0 bucket_count = some s0) (hlen : ops.length < fuel)
    (hv : hashOpsValid tr fuel extractable s0 ops = true)
    (hr : runHashOps tr fuel extractable s0 ops = some s) :
    ∃ G, HashInv tr s.1 s.2 G ∧ (joinRuns G).length < fuel ∧
      LinkedList.traverse fuel s.1 s.2.list_ = some (joinRuns G) ∧
      GoodCount (Hash.bucketCount s.2) := by
  obtain ⟨hi0, -, -⟩ := hashCreate_spec tr m0 bucket_count hc
  obtain ⟨G, hi, hl⟩ := runHashOps_inv ops s0 s [] hi0 (by simpa [joinRuns] using hlen) hv hr
  have hg0 : GoodCount (Hash.bucketCount s0.2) := by
    obtain ⟨m1, h1⟩ := s0
    exact create_count tr hc
  have hg := runHashOps_count tr ops hg0 hr
  have hlt : (joinRuns G).length < fuel := by
    simp only [joinRuns, List.length_nil, Nat.zero_add] at hl
    omega
  exact ⟨G, hi, hlt, traverse_list_spec hi.list hlt, hg⟩

/-- C34: in a state that a hash table made by the constructor reaches
through its operations, for an equality whose equal keys have equal hashes,
`emplace` of a value whose key is equal to the key of a node of the table
returns a node of the table with an equal key and `false`; the table (bucket
descriptors, bucket count, size) is returned as it was, the links and the
values of the nodes are unchanged and the iteration gives the same nodes and
values. -/
theorem duplicate_emplace_unchanged {Key F : Type} (tr : HashTraits Key T F)
    (hh : ∀ a b, tr.equal_ a b = true → tr.hash_ a = tr.hash_ b)
    (extractable : Bool) {fuel : Nat} (m0 : ListMem T) (bucket_count : Nat)
    (ops : List (HashOp Key T F)) {s0 s : ListMem T × HashTable F}
    (hc : Hash.create tr fuel m0 bucket_count = some s0) (hlen : ops.length < fuel)
    (hv : hashOpsValid tr fuel extractable s0 ops = true)
    (hr : runHashOps tr fuel extractable s0 ops = some s) (value : T) {a : Nat}
    (ha : a ∈ (LinkedList.traverse fuel s.1 s.2.list_).getD [])
    (heq : tr.equal_ (tr.getKeyFromValue (s.1.value a)) (tr.getKeyFromValue value) = true) :
    ∃ m' d, Hash.emplace tr fuel extractable s.1 s.2 value = some (m', s.2, d, false) ∧
      d ∈ (LinkedList.traverse fuel s.1 s.2.list_).getD [] ∧
      tr.equal_ (tr.getKeyFromValue (s.1.value d)) (tr.getKeyFromValue value) = true ∧
      m'.next = s.1.next ∧ m'.prev = s.1.prev ∧
      (∀ b, b < s.1.fresh → m'.value b = s.1.value b) ∧
      LinkedList.traverse fuel m' s.2.list_ = LinkedList.traverse fuel s.1 s.2.list_ ∧
      LinkedList.contents fuel m' s.2.list_ = LinkedList.contents fuel s.1 s.2.list_ ∧
      (extractable = true → m' = s.1) := by
  obtain ⟨G, hi, hlt, htr, -⟩ := reachable_hash_inv tr extractable m0 bucket_count ops hc hlen hv hr
  rw [htr] at ha ⊢
  simp only [Option.getD_some] at ha ⊢
  have hpa : (decide (Hash.getBucket tr s.2.vector_ (tr.getKeyFromValue (s.1.value a))
          = Hash.getBucket tr s.2.vector_ (tr.getKeyFromValue value)) &&
        tr.equal_ (tr.getKeyFromValue (s.1.value a)) (tr.getKeyFromValue value)) = true := by
    simp only [Hash.getBucket, hh _ _ heq, decide_True, Bool.true_and, heq]
  cases hd : (joinRuns G).find? (fun a =>
        decide (Hash.getBucket tr s.2.vector_ (tr.getKeyFromValue (s.1.value a))
          = Hash.getBucket tr s.2.vector_ (tr.getKeyFromValue value)) &&
        tr.equal_ (tr.getKeyFromValue (s.1.value a)) (tr.getKeyFromValue value)) with
  | none =>
    rw [List.find?_eq_none] at hd
    exact absurd hpa (hd a ha)
  | some d =>
    obtain ⟨m', e, q1, q2, q3, q4, q5⟩ := emplace_dup hi hlt extractable value hd
    have hpd := List.find?_some hd
    simp only [Bool.and_eq_true] at hpd
    have hvals : (joinRuns G).map m'.value = (joinRuns G).map s.1.value := by
      refine List.map_congr_left ?_
      intro b hb
      exact q4 b (hi.list.alloc b (List.mem_cons_of_mem _ hb))
    refine ⟨m', d, e, List.mem_of_find?_eq_some hd, hpd.2, q2, q3, q4,
      traverse_list_spec q1.list hlt, ?_, q5⟩
    rw [contents_spec q1.list hlt, contents_spec hi.list hlt, hvals]

theorem duplicate_emplace_unchanged_witness :
    Hash.create natHashTraits 70 ListMem.init 0 = some sampleHash ∧
    runHashOps natHashTraits 70 true sampleHash contiguityOps = some contiguityEnd ∧
    (4 : Nat) ∈ (LinkedList.traverse 70 contiguityEnd.1 contiguityEnd.2.list_).getD [] ∧
    natHashTraits.equal_ (natHashTraits.getKeyFromValue (contiguityEnd.1.value 4))
      (natHashTraits.getKeyFromValue 17) = true ∧
    ∃ m' d, Hash.emplace natHashTraits 70 true contiguityEnd.1 contiguityEnd.2 17
        = some (m', contiguityEnd.2, d, false) ∧
      d ∈ (LinkedList.traverse 70 contiguityEnd.1 contiguityEnd.2.list_).getD [] ∧
      natHashTraits.equal_ (natHashTraits.getKeyFromValue (contiguityEnd.1.value d))
        (natHashTraits.getKeyFromValue 17) = true ∧
      m'.next = contiguityEnd.1.next ∧ m'.prev = contiguityEnd.1.prev ∧
      (∀ b, b < contiguityEnd.1.fresh → m'.value b = contiguityEnd.1.value b) ∧
      LinkedList.traverse 70 m' contiguityEnd.2.list_
        = LinkedList.traverse 70 contiguityEnd.1 contiguityEnd.2.list_ ∧
      LinkedList.contents 70 m' contiguityEnd.2.list_
        = LinkedList.contents 70 contiguityEnd.1 contiguityEnd.2.list_ ∧
      (true = true → m' = contiguityEnd.1) :=
  ⟨sampleHash_create, contiguityEnd_run, by decide!, by decide!,
    duplicate_emplace_unchanged natHashTraits
      (by intro a b hab; simpa [natHashTraits] using hab) true ListMem.init 0 contiguityOps
      sampleHash_create (by decide) contiguityOps_valid contiguityEnd_run 17
      (show (4 : Nat) ∈ (LinkedList.traverse 70 contiguityEnd.1 contiguityEnd.2.list_).getD []
        by decide!)
      (show natHashTraits.equal_ (natHashTraits.getKeyFromValue (contiguityEnd.1.value 4))
        (natHashTraits.getKeyFromValue 17) = true by decide!)⟩

/-- The counts of `rehash` on the samples: from 128 buckets `rehash(200)`
gives 1024 buckets (eight times the count, since 128 is below 512), and on a
table of 512 buckets `rehash(600)` gives 1024 (the count doubled once). -/
theorem rehash_sample_counts :
    Hash.bucketCount contiguityEnd.2 = 128 ∧
    (Hash.rehash natHashTraits 70 contiguityEnd.1 contiguityEnd.2 200).map
      (fun s => Hash.bucketCount s.2) = some 1024 ∧
    ((Hash.rehash natHashTraits 70 sampleHash.1 sampleHash.2 500).bind
      (fun s => (Hash.rehash natHashTraits 70 s.1 s.2 600).map
        (fun s1 => (Hash.bucketCount s.2, Hash.bucketCount s1.2)))) = some (512, 1024) := by
  decide!

theorem filter_remove_equal {Key F : Type} {tr : HashTraits Key T F} (hl : HashLawful tr)
    {kpre kpost : List Key} {kd key : Key}
    (hd : (kpre ++ kd :: kpost).Pairwise (fun a b => tr.equal_ a b = false))
    (he : tr.equal_ kd key = true) :
    (kpre ++ kd :: kpost).filter (fun x => !tr.equal_ x key) = kpre ++ kpost := by
  rw [List.pairwise_append] at hd
  obtain ⟨-, h2, h3⟩ := hd
  rw [List.pairwise_cons] at h2
  have hpre : ∀ x ∈ kpre, (!tr.equal_ x key) = true := by
    intro x hx
    cases hc : tr.equal_ x key
    · rfl
    · have := hl.trans x key kd hc (hl.symm _ _ he)
      rw [h3 x hx kd (by simp)] at this
      cases this
  have hpost : ∀ x ∈ kpost, (!tr.equal_ x key) = true := by
    intro x hx
    cases hc : tr.equal_ x key
    · rfl
    · have := hl.trans kd key x he (hl.symm _ _ hc)
      rw [h2.1 x hx] at this
      cases this
  rw [List.filter_append, List.filter_cons, List.filter_eq_self.2 hpre,
    List.filter_eq_self.2 hpost]
  simp [he]

theorem pairwise_not_equal_perm {Key F : Type} {tr : HashTraits Key T F} (hl : HashLawful tr)
    {l1 l2 : List Key} (hp : l1.Perm l2) :
    l1.Pairwise (fun a b => tr.equal_ a b = false) ↔
      l2.Pairwise (fun a b => tr.equal_ a b = false) := by
  refine List.Perm.pairwise_iff ?_ hp
  intro x y hxy
  cases hc : tr.equal_ y x
  · rfl
  · have := hl.symm _ _ hc
    rw [hxy] at this
    cases this

/-- With equal hashes for equal keys, the search of `findPlace` in the bucket
of the key is a search of the whole ring for an equal key. -/
theorem find?_bucket_eq {Key F : Type} {tr : HashTraits Key T F} (hl : HashLawful tr)
    (v : HashVector) (value : Nat → T) (key : Key) (xs : List Nat) :
    xs.find? (fun a =>
        decide (Hash.getBucket tr v (tr.getKeyFromValue (value a)) = Hash.getBucket tr v key) &&
        tr.equal_ (tr.getKeyFromValue (value a)) key)
      = xs.find? (fun a => tr.equal_ (tr.getKeyFromValue (value a)) key) := by
  refine find?_congr_mem _ ?_
  intro a _
  cases hc : tr.equal_ (tr.getKeyFromValue (value a)) key
  · simp
  · simp [Hash.getBucket, hl.hash_eq _ _ hc]

theorem SetInv.any_iff {Key F : Type} {tr : HashTraits Key T F}
    {s : ListMem T × HashTable F} {G : List (Nat × List Nat)} {S : List Key}
    (hs : SetInv tr s G S) (key : Key) :
    S.any (fun x => tr.equal_ x key) = true ↔
      ∃ a ∈ joinRuns G, tr.equal_ (tr.getKeyFromValue (s.1.value a)) key = true := by
  rw [List.any_eq_true]
  constructor
  · rintro ⟨x, hx, hxe⟩
    have := hs.keys.symm.subset hx
    obtain ⟨a, ha, rfl⟩ := List.mem_map.1 this
    exact ⟨a, ha, hxe⟩
  · rintro ⟨a, ha, hae⟩
    exact ⟨_, hs.keys.subset (List.mem_map_of_mem _ ha), hae⟩

/-- One step of the finite-set claim on a table that holds the set `S`, when
the bucket counts that the step asks `getRequiredBucketsAmount` for can be
computed and are at most `W`: the step returns, the table holds the set after
the step and has at most `W` buckets. -/
theorem applyHashOp_set {Key F : Type} {tr : HashTraits Key T F} (hl : HashLawful tr)
    {fuel : Nat} (extractable : Bool)
    {s : ListMem T × HashTable F} {G : List (Nat × List Nat)} {S : List Key}
    (hs : SetInv tr s G S) (hf : (joinRuns G).length < fuel) (op : HashOp Key T F)
    (hset : HashOp.isSetOp op = true) (hv : HashOp.valid fuel s op = true) {W : Nat}
    (hcW : Hash.bucketCount s.2 ≤ W)
    (hgE : ∀ value, op = HashOp.emplace value →
      (joinRuns G).find? (fun a =>
        decide (Hash.getBucket tr s.2.vector_ (tr.getKeyFromValue (s.1.value a))
          = Hash.getBucket tr s.2.vector_ (tr.getKeyFromValue value)) &&
        tr.equal_ (tr.getKeyFromValue (s.1.value a)) (tr.getKeyFromValue value)) = none →
      tr.exceeds s.2.max_load_factor_ (s.2.list_.size + 1) (Hash.bucketCount s.2) = true →
      ∃ n, Hash.getRequiredBucketsAmount tr fuel
        { s.2 with list_ := { s.2.list_ with size := s.2.list_.size + 1 } }
        (s.2.list_.size + 1) = some n ∧ n ≤ W)
    (hgR : ∀ buckets, op = HashOp.rehash buckets →
      ∃ n, Hash.getRequiredBucketsAmount tr fuel s.2 buckets = some n ∧ n ≤ W) :
    ∃ s' G', applyHashOp tr fuel extractable s op = some s' ∧
      SetInv tr s' G' (specHashStep tr s S op) ∧
      (joinRuns G').length ≤ (joinRuns G).length + 1 ∧ Hash.bucketCount s'.2 ≤ W := by
  obtain ⟨k, hk3, hk63, hck⟩ := hs.count
  have hkd : ((joinRuns G).map (fun a => tr.getKeyFromValue (s.1.value a))).Pairwise
      (fun a b => tr.equal_ a b = false) := (pairwise_not_equal_perm hl hs.keys).2 hs.distinct
  cases op with
  | emplace value =>
    cases hd : (joinRuns G).find? (fun a =>
        decide (Hash.getBucket tr s.2.vector_ (tr.getKeyFromValue (s.1.value a))
          = Hash.getBucket tr s.2.vector_ (tr.getKeyFromValue value)) &&
        tr.equal_ (tr.getKeyFromValue (s.1.value a)) (tr.getKeyFromValue value)) with
    | some d =>
      obtain ⟨m', e, q1, q2, q3, q4, q5⟩ := emplace_dup hs.inv hf extractable value hd
      have hpd := List.find?_some hd
      simp only [Bool.and_eq_true] at hpd
      have hany : S.any (fun x => tr.equal_ x (tr.getKeyFromValue value)) = true :=
        (hs.any_iff _).2 ⟨d, List.mem_of_find?_eq_some hd, hpd.2⟩
      refine ⟨(m', s.2), G, ?_, ⟨q1, ?_, ?_, hs.factor, hs.count⟩, by omega, hcW⟩
      · simp only [applyHashOp, e, Option.map_some']
      · simp only [specHashStep, specHashInsert, hany, if_true]
        have hvals : (joinRuns G).map (fun a => tr.getKeyFromValue (m'.value a))
            = (joinRuns G).map (fun a => tr.getKeyFromValue (s.1.value a)) := by
          refine List.map_congr_left ?_
          intro b hb
          rw [q4 b (hs.inv.list.alloc b (List.mem_cons_of_mem _ hb))]
        show ((joinRuns G).map (fun a => tr.getKeyFromValue (m'.value a))).Perm S
        rw [hvals]
        exact hs.keys
      · simp only [specHashStep, specHashInsert, hany, if_true]
        exact hs.distinct
    | none =>
      have hnone : ∀ x ∈ S, tr.equal_ x (tr.getKeyFromValue value) = false := by
        intro x hx
        cases hc : tr.equal_ x (tr.getKeyFromValue value)
        · rfl
        · exfalso
          have hany : S.any (fun x => tr.equal_ x (tr.getKeyFromValue value)) = true :=
            List.any_eq_true.2 ⟨x, hx, hc⟩
          obtain ⟨a, ha, hae⟩ := (hs.any_iff _).1 hany
          rw [find?_bucket_eq hl, List.find?_eq_none] at hd
          exact absurd hae (hd a ha)
      have hany : S.any (fun x => tr.equal_ x (tr.getKeyFromValue value)) = false := by
        cases hc : S.any (fun x => tr.equal_ x (tr.getKeyFromValue value))
        · rfl
        · obtain ⟨x, hx, hxe⟩ := List.any_eq_true.1 hc
          rw [hnone x hx] at hxe
          cases hxe
      have hgrow : tr.exceeds s.2.max_load_factor_ (s.2.list_.size + 1) (Hash.bucketCount s.2)
          = true →
          ∃ n, Hash.getRequiredBucketsAmount tr fuel
            { s.2 with list_ := { s.2.list_ with size := s.2.list_.size + 1 } }
            (s.2.list_.size + 1) = some n := by
        intro hex
        obtain ⟨n, hn, -⟩ := hgE value rfl hd hex
        exact ⟨n, hn⟩
      obtain ⟨m', h', G', e, q1, q2, q3, q4, q5, q6, q7, q8, q9⟩ :=
        emplace_new hs.inv hf extractable value hd hgrow
      have hfresh : ∀ a ∈ joinRuns G, a ≠ s.1.fresh := by
        intro a ha e0
        have := hs.inv.list.alloc a (List.mem_cons_of_mem _ ha)
        omega
      refine ⟨(m', h'), G', ?_, ⟨q1, ?_, ?_, ?_, ?_⟩, ?_, ?_⟩
      · simp only [applyHashOp, e, Option.map_some']
      · simp only [specHashStep, specHashInsert, hany, Bool.false_eq_true, if_false]
        have h1 := q2.map (fun a => tr.getKeyFromValue (m'.value a))
        refine h1.trans ?_
        rw [List.map_cons, q3]
        have hvals : (joinRuns G).map (fun a => tr.getKeyFromValue (upd s.1.value s.1.fresh
              value a))
            = (joinRuns G).map (fun a => tr.getKeyFromValue (s.1.value a)) := by
          refine List.map_congr_left ?_
          intro b hb
          simp [upd, hfresh b hb]
        rw [hvals]
        simp only [upd, if_true]
        exact List.Perm.cons _ hs.keys
      · simp only [specHashStep, specHashInsert, hany, Bool.false_eq_true, if_false]
        rw [List.pairwise_cons]
        refine ⟨?_, hs.distinct⟩
        intro x hx
        cases hc : tr.equal_ (tr.getKeyFromValue value) x
        · rfl
        · have := hl.symm _ _ hc
          rw [hnone x hx] at this
          cases this
      · show h'.max_load_factor_ = tr.one
        rw [q6]
        exact hs.factor
      · exact emplace_count tr hs.count e
      · rw [q2.length_eq]
        simp
      · show Hash.bucketCount h' ≤ W
        cases hex : tr.exceeds s.2.max_load_factor_ (s.2.list_.size + 1)
            (Hash.bucketCount s.2)
        · rw [q8 hex]
          exact hcW
        · obtain ⟨n, hn, hnW⟩ := hgE value rfl hd hex
          rw [q9 n hex hn]
          exact hnW
  | eraseNode ptr =>
    simp only [HashOp.valid, traverse_list_spec hs.inv.list hf, Option.getD_some,
      decide_eq_true_eq] at hv
    obtain ⟨m', h', G', pre, post, e, q1, q2, q3, q4, q5, q6, q7, q8, q9⟩ :=
      eraseNode_spec hs.inv hv
    have hkeys := hs.keys
    rw [q2, List.map_append, List.map_cons] at hkeys hkd
    refine ⟨(m', h'), G', ?_, ⟨q1, ?_, ?_, ?_, ?_⟩, ?_, ?_⟩
    · simp only [applyHashOp, e, Option.map_some']
    · show ((joinRuns G').map (fun a => tr.getKeyFromValue (m'.value a))).Perm
        (specHashErase tr S (tr.getKeyFromValue (s.1.value ptr)))
      rw [q3, q4, List.map_append, ← filter_remove_equal hl hkd (hl.refl _)]
      exact hkeys.filter _
    · exact hs.distinct.filter _
    · show h'.max_load_factor_ = tr.one
      rw [q6]
      exact hs.factor
    · show GoodCount h'.vector_.size_
      rw [q7]
      exact hs.count
    · rw [q3, q2]
      simp only [List.length_append, List.length_cons]
      omega
    · show h'.vector_.size_ ≤ W
      rw [q7]
      exact hcW
  | eraseRange first last => simp [HashOp.isSetOp] at hset
  | erase key =>
    rcases hashErase_spec hs.inv key hf with
      ⟨hd, e⟩ | ⟨d, m', h', G', pre, post, hd, e, q1, q2, q3, q4, q5, q6, q7, q8, q9⟩
    · refine ⟨s, G, ?_, ⟨hs.inv, ?_, ?_, hs.factor, hs.count⟩, by omega, hcW⟩
      · simp only [applyHashOp, e, Option.map_some']
      · show ((joinRuns G).map (fun a => tr.getKeyFromValue (s.1.value a))).Perm
          (specHashErase tr S key)
        have hall : ∀ x ∈ S, (!tr.equal_ x key) = true := by
          intro x hx
          cases hc : tr.equal_ x key
          · rfl
          · exfalso
            have hany : S.any (fun x => tr.equal_ x key) = true :=
              List.any_eq_true.2 ⟨x, hx, hc⟩
            obtain ⟨a, ha, hae⟩ := (hs.any_iff _).1 hany
            rw [find?_bucket_eq hl, List.find?_eq_none] at hd
            exact absurd hae (hd a ha)
        unfold specHashErase
        rw [List.filter_eq_self.2 hall]
        exact hs.keys
      · exact hs.distinct.filter _
    · have hpd := List.find?_some hd
      simp only [Bool.and_eq_true] at hpd
      have hkeys := hs.keys
      rw [q2, List.map_append, List.map_cons] at hkeys hkd
      refine ⟨(m', h'), G', ?_, ⟨q1, ?_, ?_, ?_, ?_⟩, ?_, ?_⟩
      · simp only [applyHashOp, e, Option.map_some']
      · show ((joinRuns G').map (fun a => tr.getKeyFromValue (m'.value a))).Perm
          (specHashErase tr S key)
        rw [q3, q4, List.map_append, ← filter_remove_equal hl hkd hpd.2]
        exact hkeys.filter _
      · exact hs.distinct.filter _
      · show h'.max_load_factor_ = tr.one
        rw [q6]
        exact hs.factor
      · show GoodCount h'.vector_.size_
        rw [q7]
        exact hs.count
      · rw [q3, q2]
        simp only [List.length_append, List.length_cons]
        omega
      · show h'.vector_.size_ ≤ W
        rw [q7]
        exact hcW
  | rehash buckets =>
    obtain ⟨n, hn, hnW⟩ := hgR buckets rfl
    obtain ⟨m', h', G', e, q1, q2, q3, q4, q5, q6, q7⟩ := hashRehash_spec hs.inv buckets hf hn
    refine ⟨(m', h'), G', ?_, ⟨q1, ?_, hs.distinct, ?_, ?_⟩, ?_, ?_⟩
    · simp only [applyHashOp, e]
    · show ((joinRuns G').map (fun a => tr.getKeyFromValue (m'.value a))).Perm S
      rw [q3]
      exact (q2.map _).trans hs.keys
    · show h'.max_load_factor_ = tr.one
      rw [q5]
      exact hs.factor
    · exact rehash_count tr hs.count e
    · rw [q2.length_eq]
      omega
    · show Hash.bucketCount h' ≤ W
      rw [q6]
      exact hnW
  | clear => simp [HashOp.isSetOp] at hset
  | maxLoadFactor f => simp [HashOp.isSetOp] at hset

/-- One step of the finite-set claim that returns, on a table that holds the
set `S`: the table holds the set after the step. -/
theorem applyHashOp_set_of_some {Key F : Type} {tr : HashTraits Key T F} (hl : HashLawful tr)
    {fuel : Nat} (extractable : Bool)
    {s s1 : ListMem T × HashTable F} {G : List (Nat × List Nat)} {S : List Key}
    (hs : SetInv tr s G S) (hf : (joinRuns G).length < fuel) (op : HashOp Key T F)
    (hset : HashOp.isSetOp op = true) (hv : HashOp.valid fuel s op = true)
    (hr : applyHashOp tr fuel extractable s op = some s1) :
    ∃ G', SetInv tr s1 G' (specHashStep tr s S op) ∧
      (joinRuns G').length ≤ (joinRuns G).length + 1 := by
  obtain ⟨s', G', e, hs', hl', -⟩ := applyHashOp_set hl extractable hs hf op hset hv
    (W := max (Hash.bucketCount s.2) (Hash.bucketCount s1.2)) (le_max_left _ _)
    (by
      intro value hop hd hex
      subst hop
      simp only [applyHashOp, Option.map_eq_some'] at hr
      obtain ⟨r, hr', rfl⟩ := hr
      rcases emplace_step hs.inv hf extractable value hr' with
        ⟨d, hd', -⟩ | ⟨-, G', -, -, -, -, -, -, -, -, q9⟩
      · rw [hd] at hd'
        cases hd'
      · exact ⟨_, q9 hex, le_max_right _ _⟩)
    (by
      intro buckets hop
      subst hop
      simp only [applyHashOp] at hr
      cases hreq : Hash.getRequiredBucketsAmount tr fuel s.2 buckets with
      | none => simp [Hash.rehash, hreq] at hr
      | some n =>
        obtain ⟨m', h', G', e, -, -, -, -, -, q6, -⟩ := hashRehash_spec hs.inv buckets hf hreq
        rw [e] at hr
        cases hr
        exact ⟨n, rfl, by rw [← q6]; exact le_max_right _ _⟩)
  rw [e] at hr
  cases hr
  exact ⟨G', hs', hl'⟩

/-- A sequence of steps of the finite-set claim that returns, on a table that
holds the set `S`: the table holds the set after the steps. -/
theorem runHashOps_set_of_some {Key F : Type} {tr : HashTraits Key T F} (hl : HashLawful tr)
    {fuel : Nat} (extractable : Bool) :
    ∀ (ops : List (HashOp Key T F)) (s s' : ListMem T × HashTable F)
      (G : List (Nat × List Nat)) (S : List Key), SetInv tr s G S →
      (joinRuns G).length + ops.length < fuel →
      (∀ op ∈ ops, HashOp.isSetOp op = true) →
      hashOpsValid tr fuel extractable s ops = true →
      runHashOps tr fuel extractable s ops = some s' →
      ∃ G', SetInv tr s' G' (specHashRun tr fuel extractable s S ops) ∧
        (joinRuns G').length ≤ (joinRuns G).length + ops.length
  | [], s, s', G, S, hs, _, _, _, hr => by
    simp only [runHashOps, Option.some.injEq] at hr
    subst hr
    exact ⟨G, hs, by simp⟩
  | op :: ops, s, s', G, S, hs, hf, hset, hv, hr => by
    simp only [List.length_cons] at hf
    simp only [hashOpsValid, Bool.and_eq_true] at hv
    cases e1 : applyHashOp tr fuel extractable s op with
    | none => simp [runHashOps, e1] at hr
    | some s1 =>
      simp only [runHashOps, e1] at hr
      have hv2 := hv.2
      simp only [e1] at hv2
      obtain ⟨G1, hs1, hl1⟩ := applyHashOp_set_of_some hl extractable hs (by omega) op
        (hset op (by simp)) hv.1 e1
      obtain ⟨G', hs', hl'⟩ := runHashOps_set_of_some hl extractable ops s1 s' G1
        (specHashStep tr s S op) hs1 (by omega)
        (fun o ho => hset o (List.mem_cons_of_mem _ ho)) hv2 hr
      refine ⟨G', ?_, by simp only [List.length_cons]; omega⟩
      simp only [specHashRun, e1]
      exact hs'

/-- A sequence of steps of the finite-set claim on a table that holds a set,
with load factor `1.0f` and at most `B` elements and requested buckets, `B`
at most `2 ^ 24`, where `n / 1.0f` is exact: every prefix of the sequence
returns, and the table never has more than `8 * max B 8` buckets. -/
theorem runHashOps_within {Key F : Type} {tr : HashTraits Key T F} (hl : HashLawful tr)
    {fuel : Nat} (extractable : Bool) (hfuel : 64 ≤ fuel) {B : Nat} (hB : B ≤ 2 ^ 24)
    (hq : ∀ n, n ≤ 2 ^ 24 → tr.quotient n tr.one = n) :
    ∀ (ops : List (HashOp Key T F)) (s : ListMem T × HashTable F)
      (G : List (Nat × List Nat)) (S : List Key), SetInv tr s G S →
      (joinRuns G).length + ops.length < fuel → (joinRuns G).length + ops.length ≤ B →
      Hash.bucketCount s.2 ≤ 8 * max B 8 →
      (∀ op ∈ ops, HashOp.isSetOp op = true) → (∀ op ∈ ops, HashOp.within B op = true) →
      hashOpsValid tr fuel extractable s ops = true →
      ∀ n, n ≤ ops.length →
        ∃ sn, runHashOps tr fuel extractable s (ops.take n) = some sn ∧
          Hash.bucketCount sn.2 ≤ 8 * max B 8
  | _, s, _, _, _, _, _, hcW, _, _, _, 0, _ => ⟨s, by simp [runHashOps], hcW⟩
  | [], _, _, _, _, _, _, _, _, _, _, n + 1, hn => by simp at hn
  | op :: ops, s, G, S, hs, hf, hb, hcW, hset, hw, hv, n + 1, hn => by
    simp only [List.length_cons] at hf hb hn
    simp only [hashOpsValid, Bool.and_eq_true] at hv
    obtain ⟨k, hk3, hk63, hck⟩ := hs.count
    have hR8 : 8 ≤ max B 8 := le_max_right _ _
    have hBR : B ≤ max B 8 := le_max_left _ _
    have hR : max B 8 < 2 ^ 60 := by
      have : (2 : Nat) ^ 24 < 2 ^ 60 := by norm_num
      exact max_lt (by omega) (by norm_num)
    have hsize : s.2.list_.size = (joinRuns G).length := hs.inv.list.size_eq
    obtain ⟨s1, G1, e1, hs1, hl1, hc1⟩ := applyHashOp_set hl extractable hs (by omega) op
      (hset op (by simp)) hv.1 hcW
      (by
        intro value _ _ _
        refine getRequiredBucketsAmount_le tr fuel
          { s.2 with list_ := { s.2.list_ with size := s.2.list_.size + 1 } }
          (s.2.list_.size + 1) hk63 hck ?_ hR8 hR (by rw [← hck]; exact hcW) hfuel
        show tr.quotient (s.2.list_.size + 1) s.2.max_load_factor_ ≤ max B 8
        rw [hs.factor, hq _ (by omega)]
        omega)
      (by
        intro buckets hop
        have hwb := hw op (by simp)
        rw [hop] at hwb
        simp only [HashOp.within, decide_eq_true_eq] at hwb
        refine getRequiredBucketsAmount_le tr fuel s.2 buckets hk63 hck ?_ hR8 hR
          (by rw [← hck]; exact hcW) hfuel
        rw [hs.factor, hq _ (by omega)]
        omega)
    have hv2 := hv.2
    simp only [e1] at hv2
    obtain ⟨sn, en, hcn⟩ := runHashOps_within hl extractable hfuel hB hq ops s1 G1
      (specHashStep tr s S op) hs1 (by omega) (by omega) hc1
      (fun o ho => hset o (List.mem_cons_of_mem _ ho))
      (fun o ho => hw o (List.mem_cons_of_mem _ ho)) hv2 n (by omega)
    refine ⟨sn, ?_, hcn⟩
    simp only [List.take_succ_cons, runHashOps, e1]
    exact en

/-- The constructor with a request of at most `B` buckets, `B` at most
`2 ^ 24`: the call returns a table of at most `8 * max B 8` buckets. -/
theorem hashCreate_within {Key F : Type} (tr : HashTraits Key T F) (m : ListMem T)
    {fuel : Nat} (hfuel : 64 ≤ fuel) {B : Nat} (hB : B ≤ 2 ^ 24)
    (hq : ∀ n, n ≤ 2 ^ 24 → tr.quotient n tr.one = n) {bucket_count : Nat}
    (hbc : bucket_count ≤ B) :
    ∃ s0, Hash.create tr fuel m bucket_count = some s0 ∧
      Hash.bucketCount s0.2 ≤ 8 * max B 8 := by
  have hR8 : 8 ≤ max B 8 := le_max_right _ _
  have hBR : B ≤ max B 8 := le_max_left _ _
  have hR : max B 8 < 2 ^ 60 := by
    have : (2 : Nat) ^ 24 < 2 ^ 60 := by norm_num
    exact max_lt (by omega) (by norm_num)
  obtain ⟨n, hn, hnW⟩ := getRequiredBucketsAmount_le tr fuel
    ({ list_ := (LinkedList.createEmptyList m).2, vector_ := HashVector.new,
       max_load_factor_ := tr.one } : HashTable F) bucket_count (k := 0) (by omega) rfl
    (by
      show tr.quotient bucket_count tr.one ≤ max B 8
      rw [hq _ (by omega)]
      omega) hR8 hR (by omega) hfuel
  refine ⟨((LinkedList.createEmptyList m).1,
    { list_ := (LinkedList.createEmptyList m).2
      vector_ := HashVector.resize HashVector.new n (LinkedList.createEmptyList m).2.head
      max_load_factor_ := tr.one }), ?_, hnW⟩
  simp only [Hash.create, hn]

/-- C33: for a key equality that is an equivalence with equal hashes for
equal keys, and a sequence of insertions, erasures by key, erasures through
an iterator of the table and `rehash` on a table made empty by the
constructor (load factor `1.0f`).  First, whenever the constructor and the
sequence return: for every key `q`, `find(q)` returns, its result is not
`end()` if and only if a key equal to `q` is in the set of the keys inserted
and not erased afterwards (`specHashRun`), the node found is a node of the
table with a key equal to `q`, and `size()` is the number of keys of this set;
nothing is assumed of the float operations.  Second, they do return when the
sequence has at most `B` steps and asks `rehash` and the constructor for at
most `B` buckets, for a bound `B` of at most `2 ^ 24`, up to which `n / 1.0f`
is exact in `float`: the constructor returns, every prefix of the sequence
returns, and the table never has more than `8 * max B 8` buckets, so every
`HashVector::resize` of the run (its size is the bucket count of the state
after the step) passes `checkGrow` for an allocator that can hold so many. -/
theorem hash_refines_finite_set {Key F : Type} (tr : HashTraits Key T F) (hl : HashLawful tr)
    (extractable : Bool) {fuel : Nat} (m0 : ListMem T) (bucket_count : Nat)
    (ops : List (HashOp Key T F)) (hlen : ops.length < fuel)
    (hset : ∀ op ∈ ops, HashOp.isSetOp op = true) :
    (∀ s0 s, Hash.create tr fuel m0 bucket_count = some s0 →
      hashOpsValid tr fuel extractable s0 ops = true →
      runHashOps tr fuel extractable s0 ops = some s →
      Hash.size s.2 = (specHashRun tr fuel extractable s0 [] ops).length ∧
      ∀ q, ∃ r, Hash.find tr fuel s.1 s.2 q = some r ∧
        (r ≠ s.2.list_.head ↔
          (specHashRun tr fuel extractable s0 [] ops).any (fun k => tr.equal_ k q) = true) ∧
        (r ≠ s.2.list_.head →
          r ∈ (LinkedList.traverse fuel s.1 s.2.list_).getD [] ∧
          tr.equal_ (tr.getKeyFromValue (s.1.value r)) q = true)) ∧
    (∀ B, B ≤ 2 ^ 24 → (∀ n, n ≤ 2 ^ 24 → tr.quotient n tr.one = n) → 64 ≤ fuel →
      bucket_count ≤ B → ops.length ≤ B → (∀ op ∈ ops, HashOp.within B op = true) →
      (∃ s0, Hash.create tr fuel m0 bucket_count = some s0) ∧
      ∀ s0, Hash.create tr fuel m0 bucket_count = some s0 →
        hashOpsValid tr fuel extractable s0 ops = true →
        (∃ s, runHashOps tr fuel extractable s0 ops = some s) ∧
        ∀ n, n ≤ ops.length →
          ∃ sn, runHashOps tr fuel extractable s0 (ops.take n) = some sn ∧
            Hash.bucketCount sn.2 ≤ 8 * max B 8 ∧
            ∀ alloc_max_size, 8 * max B 8 ≤ alloc_max_size →
              HashVector.checkGrow alloc_max_size (Hash.bucketCount sn.2) = true) := by
  have hstart : ∀ s0 : ListMem T × HashTable F,
      Hash.create tr fuel m0 bucket_count = some s0 → SetInv tr s0 [] [] := by
    intro s0 hc
    obtain ⟨hi0, hf0, -⟩ := hashCreate_spec tr m0 bucket_count hc
    have hg0 : GoodCount (Hash.bucketCount s0.2) := by
      obtain ⟨m1, h1⟩ := s0
      exact create_count tr hc
    exact ⟨hi0, by simp [joinRuns], List.Pairwise.nil, hf0, hg0⟩
  constructor
  · intro s0 s hc hv hr
    obtain ⟨G, hs, hlG⟩ := runHashOps_set_of_some hl extractable ops s0 s [] [] (hstart s0 hc)
      (by simpa [joinRuns] using hlen) hset hv hr
    have hlt : (joinRuns G).length < fuel := by
      simp only [joinRuns, List.length_nil, Nat.zero_add] at hlG
      omega
    refine ⟨?_, ?_⟩
    · show s.2.list_.size = _
      rw [hs.inv.list.size_eq, ← hs.keys.length_eq, List.length_map]
    · intro q
      refine ⟨_, hashFind_spec hs.inv q hlt, ?_⟩
      rw [find?_bucket_eq hl, traverse_list_spec hs.inv.list hlt]
      cases hd : (joinRuns G).find?
          (fun a => tr.equal_ (tr.getKeyFromValue (s.1.value a)) q) with
      | none =>
        simp only [Option.getD_none, ne_eq, not_true_eq_false, false_iff, false_imp_iff,
          and_true]
        intro hany
        obtain ⟨a, ha, hae⟩ := (hs.any_iff q).1 hany
        rw [List.find?_eq_none] at hd
        exact absurd hae (hd a ha)
      | some d =>
        have hmem : d ∈ joinRuns G := List.mem_of_find?_eq_some hd
        have heq := List.find?_some hd
        have hne : d ≠ s.2.list_.head := hs.inv.list.node_ne_head hmem
        simp only [Option.getD_some]
        exact ⟨⟨fun _ => (hs.any_iff q).2 ⟨d, hmem, heq⟩, fun _ => hne⟩,
          fun _ => ⟨hmem, heq⟩⟩
  · intro B hB hq hfuel hbc hlB hw
    obtain ⟨s0', hc', hc0'⟩ := hashCreate_within tr m0 hfuel hB hq hbc
    refine ⟨⟨s0', hc'⟩, ?_⟩
    intro s0 hc hv
    have hc0 : Hash.bucketCount s0.2 ≤ 8 * max B 8 := by
      rw [hc] at hc'
      cases hc'
      exact hc0'
    have hpre := runHashOps_within hl extractable hfuel hB hq ops s0 [] [] (hstart s0 hc)
      (by simpa [joinRuns] using hlen) (by simpa [joinRuns] using hlB) hc0 hset hw hv
    refine ⟨?_, ?_⟩
    · obtain ⟨s, e, -⟩ := hpre ops.length (le_refl _)
      rw [List.take_length] at e
      exact ⟨s, e⟩
    · intro n hn
      obtain ⟨sn, en, hcn⟩ := hpre n hn
      refine ⟨sn, en, hcn, ?_⟩
      intro alloc_max_size ha
      simp only [HashVector.checkGrow, HashVector.maxSize, ge_iff_le, decide_eq_true_eq]
      have h24 : max B 8 ≤ 2 ^ 24 := max_le hB (by norm_num)
      have : (8 : Nat) * 2 ^ 24 ≤ 2 ^ 63 - 1 := by norm_num
      exact le_min (by omega) (by omega)

theorem natHashTraits_lawful : HashLawful natHashTraits :=
  ⟨by intro a; simp [natHashTraits],
   by intro a b h; simp [natHashTraits] at h ⊢; exact h.symm,
   by intro a b c h1 h2; simp [natHashTraits] at h1 h2 ⊢; exact h1.trans h2,
   by intro a b h; simpa [natHashTraits] using h⟩

theorem hash_refines_finite_set_witness :
    contiguityOps.length < 70 ∧
    (∀ op ∈ contiguityOps, HashOp.isSetOp op = true) ∧
    Hash.create natHashTraits 70 ListMem.init 0 = some sampleHash ∧
    hashOpsValid natHashTraits 70 true sampleHash contiguityOps = true ∧
    runHashOps natHashTraits 70 true sampleHash contiguityOps = some contiguityEnd ∧
    (Hash.size contiguityEnd.2
        = (specHashRun natHashTraits 70 true sampleHash [] contiguityOps).length ∧
      ∀ q, ∃ r, Hash.find natHashTraits 70 contiguityEnd.1 contiguityEnd.2 q = some r ∧
        (r ≠ contiguityEnd.2.list_.head ↔
          (specHashRun natHashTraits 70 true sampleHash [] contiguityOps).any
            (fun k => natHashTraits.equal_ k q) = true) ∧
        (r ≠ contiguityEnd.2.list_.head →
          r ∈ (LinkedList.traverse 70 contiguityEnd.1 contiguityEnd.2.list_).getD [] ∧
          natHashTraits.equal_ (natHashTraits.getKeyFromValue (contiguityEnd.1.value r)) q
            = true)) ∧
    (100 ≤ 2 ^ 24 ∧ (∀ n, n ≤ 2 ^ 24 → natHashTraits.quotient n natHashTraits.one = n) ∧
      (∀ op ∈ contiguityOps, HashOp.within 100 op = true) ∧
      (∃ s, runHashOps natHashTraits 70 true sampleHash contiguityOps = some s) ∧
      ∀ n, n ≤ contiguityOps.length →
        ∃ sn, runHashOps natHashTraits 70 true sampleHash (contiguityOps.take n) = some sn ∧
          Hash.bucketCount sn.2 ≤ 8 * max 100 8 ∧
          ∀ alloc_max_size, 8 * max 100 8 ≤ alloc_max_size →
            HashVector.checkGrow alloc_max_size (Hash.bucketCount sn.2) = true) :=
  ⟨by decide, by decide, sampleHash_create, contiguityOps_valid, contiguityEnd_run,
    (hash_refines_finite_set natHashTraits natHashTraits_lawful true ListMem.init 0
      contiguityOps (by decide) (by decide)).1 sampleHash contiguityEnd sampleHash_create
      contiguityOps_valid contiguityEnd_run,
    by decide, by intro n _; simp [natHashTraits], by decide,
    ((hash_refines_finite_set natHashTraits natHashTraits_lawful true ListMem.init 0
      contiguityOps (by decide) (by decide)).2 100 (by decide)
      (by intro n _; simp [natHashTraits]) (by decide) (by decide) (by decide)
      (by decide)).2 sampleHash sampleHash_create contiguityOps_valid⟩

/-- The set of the sample run and the answers of `find` at its end: the keys
17 and 2 are in the set and are found at the nodes 4 and 3; the keys 1 and 9,
inserted and erased, are not found. -/
theorem finite_set_sample_run :
    specHashRun natHashTraits 70 true sampleHash [] contiguityOps = [17, 2] ∧
    [17, 2, 1, 9, 5].map (fun q => Hash.find natHashTraits 70 contiguityEnd.1 contiguityEnd.2 q)
      = [some 4, some 3, some 0, some 0, some 0] ∧
    Hash.size contiguityEnd.2 = 2 := by
  decide!

theorem insertCount_stay {n : Nat} (h : n + 1 ≤ insertCount n) :
    insertCount (n + 1) = insertCount n := by
  unfold insertCount at h ⊢
  split_ifs at h ⊢ <;> omega

theorem insertCount_grow {n : Nat} (h : insertCount n < n + 1) (hn : n + 1 ≤ 512) :
    n = 8 ∨ n = 64 := by
  unfold insertCount at h
  split_ifs at h <;> omega

theorem getRequiredBucketsAmount_eq {Key F : Type} (tr : HashTraits Key T F) (fuel : Nat)
    (h : HashTable F) (for_size : Nat) {c r : Nat} (hc : Hash.bucketCount h = c)
    (hr : tr.quotient for_size h.max_load_factor_ = r) :
    Hash.getRequiredBucketsAmount tr fuel h for_size =
      if c ≥ max r 8 then some c
      else if c < 512 ∧ sizeWrap (c * 8) ≥ max r 8 then some (sizeWrap (c * 8))
      else growBuckets (max r 8) fuel c := by
  simp only [Hash.getRequiredBucketsAmount, hc, hr, Hash.min_buckets_]

theorem insert_distinct_step {Key F : Type} {tr : HashTraits Key T F}
    (hq1 : ∀ n, tr.quotient n tr.one = n)
    (hex1 : ∀ n c, tr.exceeds tr.one n c = decide (c < n)) (extractable : Bool) {fuel : Nat}
    {s : ListMem T × HashTable F} {G : List (Nat × List Nat)} {done : List T} {value : T}
    (hs : InsertInv tr s G done) (hf : done.length < fuel) (hn : done.length + 1 ≤ 512)
    (hd : ∀ d ∈ done, tr.equal_ (tr.getKeyFromValue d) (tr.getKeyFromValue value) = false) :
    ∃ s' G', applyHashOp tr fuel extractable s (HashOp.emplace value) = some s' ∧
      InsertInv tr s' G' (done ++ [value]) := by
  have hlen : (joinRuns G).length = done.length := by
    rw [← hs.inv.list.size_eq, hs.size]
  have hnone : (joinRuns G).find? (fun a =>
        decide (Hash.getBucket tr s.2.vector_ (tr.getKeyFromValue (s.1.value a))
          = Hash.getBucket tr s.2.vector_ (tr.getKeyFromValue value)) &&
        tr.equal_ (tr.getKeyFromValue (s.1.value a)) (tr.getKeyFromValue value)) = none := by
    rw [List.find?_eq_none]
    intro a ha
    obtain ⟨d, hdm, hde⟩ := List.mem_map.1 (hs.keys a ha)
    rw [← hde, hd d hdm]
    simp
  have hexc : tr.exceeds s.2.max_load_factor_ (s.2.list_.size + 1) (Hash.bucketCount s.2)
      = decide (insertCount done.length < done.length + 1) := by
    rw [hs.factor, hex1, hs.size, hs.count]
  have hgrow : tr.exceeds s.2.max_load_factor_ (s.2.list_.size + 1) (Hash.bucketCount s.2)
      = true →
      Hash.getRequiredBucketsAmount tr fuel
        { s.2 with list_ := { s.2.list_ with size := s.2.list_.size + 1 } }
        (s.2.list_.size + 1) = some (insertCount (done.length + 1)) := by
    intro hex
    rw [hexc, decide_eq_true_eq] at hex
    have hcases := insertCount_grow hex hn
    have hcnt : Hash.bucketCount
        ({ s.2 with list_ := { s.2.list_ with size := s.2.list_.size + 1 } } : HashTable F)
        = insertCount done.length := hs.count
    have hquo : tr.quotient (s.2.list_.size + 1)
        ({ s.2 with list_ := { s.2.list_ with size := s.2.list_.size + 1 } }
          : HashTable F).max_load_factor_ = done.length + 1 := by
      show tr.quotient (s.2.list_.size + 1) s.2.max_load_factor_ = _
      rw [hs.factor, hq1, hs.size]
    rw [getRequiredBucketsAmount_eq tr fuel _ _ hcnt hquo]
    rcases hcases with h8 | h64
    · rw [h8]
      rw [if_neg (by decide), if_pos (by decide)]
      decide
    · rw [h64]
      rw [if_neg (by decide), if_pos (by decide)]
      decide
  obtain ⟨m', h', G', e, q1, q2, q3, q4, q5, q6, q7, q8, q9⟩ :=
    emplace_new hs.inv (by rw [hlen]; exact hf) extractable value hnone
      (fun hex => ⟨_, hgrow hex⟩)
  refine ⟨(m', h'), G', ?_, ⟨q1, ?_, ?_, ?_, ?_⟩⟩
  · simp only [applyHashOp, e, Option.map_some']
  · show h'.max_load_factor_ = tr.one
    rw [q6]
    exact hs.factor
  · show h'.list_.size = _
    rw [q7]
    simp only [List.length_append, List.length_singleton]
    rw [← hs.size]
  · show Hash.bucketCount h' = _
    simp only [List.length_append, List.length_singleton]
    cases hex : tr.exceeds s.2.max_load_factor_ (s.2.list_.size + 1) (Hash.bucketCount s.2)
    · rw [q8 hex, hs.count]
      rw [hexc] at hex
      simp only [decide_eq_false_iff_not, not_lt] at hex
      exact (insertCount_stay hex).symm
    · exact q9 _ hex (hgrow hex)
  · intro a ha
    show tr.getKeyFromValue (m'.value a) ∈ _
    rw [q3]
    have := q2.subset ha
    rcases List.mem_cons.1 this with h1 | h1
    · rw [h1]
      simp [upd]
    · have hne : a ≠ s.1.fresh := by
        have := hs.inv.list.alloc a (List.mem_cons_of_mem _ h1)
        omega
      have := hs.keys a h1
      simp only [upd, if_neg hne, List.map_append, List.mem_append]
      exact Or.inl this

/-- The insertion of values with different keys, one after the other, into
a table in the state `InsertInv`: all the insertions return. -/
theorem insert_distinct_run {Key F : Type} {tr : HashTraits Key T F}
    (hq1 : ∀ n, tr.quotient n tr.one = n)
    (hex1 : ∀ n c, tr.exceeds tr.one n c = decide (c < n)) (extractable : Bool) {fuel : Nat} :
    ∀ (vs done : List T) (s : ListMem T × HashTable F) (G : List (Nat × List Nat)),
      InsertInv tr s G done → done.length + vs.length < fuel → done.length + vs.length ≤ 512 →
      ((done ++ vs).map tr.getKeyFromValue).Pairwise (fun a b => tr.equal_ a b = false) →
      ∃ s' G', runHashOps tr fuel extractable s (vs.map HashOp.emplace) = some s' ∧
        InsertInv tr s' G' (done ++ vs)
  | [], done, s, G, hs, _, _, _ => ⟨s, G, rfl, by simpa using hs⟩
  | v :: vs, done, s, G, hs, hf, hn, hd => by
    simp only [List.length_cons] at hf hn
    have hdv : ∀ d ∈ done, tr.equal_ (tr.getKeyFromValue d) (tr.getKeyFromValue v) = false := by
      intro d hdm
      rw [List.map_append, List.pairwise_append] at hd
      exact hd.2.2 _ (List.mem_map_of_mem _ hdm) _ (by simp)
    obtain ⟨s1, G1, e1, hs1⟩ := insert_distinct_step hq1 hex1 extractable hs
      (show done.length < fuel by omega) (show done.length + 1 ≤ 512 by omega) hdv
    have hd' : (((done ++ [v]) ++ vs).map tr.getKeyFromValue).Pairwise
        (fun a b => tr.equal_ a b = false) := by simpa using hd
    obtain ⟨s', G', e', hs'⟩ := insert_distinct_run hq1 hex1 extractable vs (done ++ [v]) s1 G1
      hs1 (show (done ++ [v]).length + vs.length < fuel by
        simp only [List.length_append, List.length_singleton]; omega)
      (show (done ++ [v]).length + vs.length ≤ 512 by
        simp only [List.length_append, List.length_singleton]; omega) hd'
    refine ⟨s', G', ?_, by simpa using hs'⟩
    simp only [List.map_cons, runHashOps, e1]
    exact e'

/-- The constructor asked for 8 buckets with an exact load factor `1.0f`
returns the empty table of 8 buckets. -/
theorem create_eight {Key F : Type} (tr : HashTraits Key T F)
    (hq1 : ∀ n, tr.quotient n tr.one = n) (fuel : Nat) (m0 : ListMem T) :
    ∃ s0, Hash.create tr fuel m0 8 = some s0 ∧ InsertInv tr s0 [] [] := by
  have e : Hash.create tr fuel m0 8 = some ((LinkedList.createEmptyList m0).1,
      { list_ := (LinkedList.createEmptyList m0).2
        vector_ := HashVector.resize HashVector.new 8 (LinkedList.createEmptyList m0).2.head
        max_load_factor_ := tr.one }) := by
    have hreq : Hash.getRequiredBucketsAmount tr fuel
        ({ list_ := (LinkedList.createEmptyList m0).2, vector_ := HashVector.new,
           max_load_factor_ := tr.one } : HashTable F) 8 = some 8 := by
      have hc1 : ∀ l : ListValue, Hash.bucketCount
          ({ list_ := l, vector_ := HashVector.new, max_load_factor_ := tr.one } : HashTable F)
            = 1 := fun _ => rfl
      rw [getRequiredBucketsAmount_eq tr fuel _ 8 (hc1 _) (hq1 8)]
      rw [if_neg (by decide), if_pos (by decide)]
      decide
    simp only [Hash.create, hreq]
  obtain ⟨hi, hf, hsz⟩ := hashCreate_spec tr m0 8 e
  exact ⟨_, e, ⟨hi, hf, hsz, rfl, by simp [joinRuns]⟩⟩

/-- C37: for an exact load factor `1.0f` (the quotient of `n` by it is `n`,
and it is below `size / count` exactly when `count < size`), any hash
function and any 100 values whose keys are different under the key equality,
the constructor asked for 8 buckets returns the empty table of 8 buckets, the
100 insertions return, the table then has at least 128 buckets (it has 512)
and 100 elements, and after each of the insertions the iteration returns the
ring and the buckets are contiguous. -/
theorem hundred_inserts_grow {Key F : Type} (tr : HashTraits Key T F)
    (hq1 : ∀ n, tr.quotient n tr.one = n)
    (hex1 : ∀ n c, tr.exceeds tr.one n c = decide (c < n)) (extractable : Bool) {fuel : Nat}
    (hfuel : 100 < fuel) (m0 : ListMem T) (vs : List T) (hlen : vs.length = 100)
    (hd : (vs.map tr.getKeyFromValue).Pairwise (fun a b => tr.equal_ a b = false)) :
    ∃ s0 s, Hash.create tr fuel m0 8 = some s0 ∧ Hash.bucketCount s0.2 = 8 ∧
      Hash.size s0.2 = 0 ∧ s0.2.max_load_factor_ = tr.one ∧
      runHashOps tr fuel extractable s0 (vs.map HashOp.emplace) = some s ∧
      128 ≤ Hash.bucketCount s.2 ∧ Hash.bucketCount s.2 = 512 ∧ Hash.size s.2 = 100 ∧
      ∀ n, n ≤ 100 → ∃ sn xs,
        runHashOps tr fuel extractable s0 ((vs.take n).map HashOp.emplace) = some sn ∧
        Hash.size sn.2 = n ∧ LinkedList.traverse fuel sn.1 sn.2.list_ = some xs ∧
        BucketContiguous tr sn.1 sn.2 xs := by
  obtain ⟨s0, hc, hs0⟩ := create_eight tr hq1 fuel m0
  obtain ⟨s, G, e, hs⟩ := insert_distinct_run hq1 hex1 extractable vs [] s0 [] hs0
    (show ([] : List T).length + vs.length < fuel by simp [hlen]; omega)
    (show ([] : List T).length + vs.length ≤ 512 by simp [hlen])
    (by simpa using hd)
  simp only [List.nil_append] at hs
  have hcount : Hash.bucketCount s.2 = 512 := by
    rw [hs.count, hlen]
    decide
  refine ⟨s0, s, hc, hs0.count, hs0.size, hs0.factor, e, by rw [hcount]; decide, hcount,
    by rw [← hlen]; exact hs.size, ?_⟩
  intro n hn
  have hlenn : (vs.take n).length = n := by
    rw [List.length_take, hlen]
    omega
  obtain ⟨sn, Gn, en, hsn⟩ := insert_distinct_run hq1 hex1 extractable (vs.take n) [] s0 [] hs0
    (show ([] : List T).length + (vs.take n).length < fuel by simp only [hlenn, List.length_nil]; omega)
    (show ([] : List T).length + (vs.take n).length ≤ 512 by
      simp only [hlenn, List.length_nil]; omega)
    (by
      simp only [List.nil_append]
      exact hd.sublist ((List.take_sublist n vs).map _))
  simp only [List.nil_append] at hsn
  have hsz : sn.2.list_.size = n := by rw [hsn.size, hlenn]
  have hlt : (joinRuns Gn).length < fuel := by
    rw [← hsn.inv.list.size_eq, hsz]
    omega
  have hpos : 0 < Hash.bucketCount sn.2 := by
    rw [hsn.count]
    unfold insertCount
    split_ifs <;> omega
  exact ⟨sn, joinRuns Gn, en, hsz, traverse_list_spec hsn.inv.list hlt, hsn.inv.contiguous hpos⟩

theorem hundred_inserts_grow_witness :
    ((List.range 100).map natHashTraits.getKeyFromValue).Pairwise
      (fun a b => natHashTraits.equal_ a b = false) ∧
    ∃ s0 s, Hash.create natHashTraits 200 ListMem.init 8 = some s0 ∧
      Hash.bucketCount s0.2 = 8 ∧ Hash.size s0.2 = 0 ∧
      s0.2.max_load_factor_ = natHashTraits.one ∧
      runHashOps natHashTraits 200 true s0 ((List.range 100).map HashOp.emplace) = some s ∧
      128 ≤ Hash.bucketCount s.2 ∧ Hash.bucketCount s.2 = 512 ∧ Hash.size s.2 = 100 ∧
      ∀ n, n ≤ 100 → ∃ sn xs,
        runHashOps natHashTraits 200 true s0 (((List.range 100).take n).map HashOp.emplace)
          = some sn ∧
        Hash.size sn.2 = n ∧ LinkedList.traverse 200 sn.1 sn.2.list_ = some xs ∧
        BucketContiguous natHashTraits sn.1 sn.2 xs :=
  ⟨by simpa [natHashTraits, List.Nodup] using List.nodup_range 100,
    hundred_inserts_grow natHashTraits (by intro n; simp [natHashTraits])
      (by intro n c; simp [natHashTraits]) true (by decide) ListMem.init (List.range 100)
      (by simp) (by simpa [natHashTraits, List.Nodup] using List.nodup_range 100)⟩

/-- The scenario evaluated with the identity as hash function: after the keys
0 to 99 the table has 512 buckets and 100 elements. -/
theorem hundred_inserts_sample :
    ((Hash.create natHashTraits 200 (ListMem.init : ListMem Nat) 8).bind (fun s0 =>
      runHashOps natHashTraits 200 true s0 ((List.range 100).map HashOp.emplace))).map
      (fun s => (Hash.bucketCount s.2, Hash.size s.2)) = some (512, 100) := by
  decide!

theorem LinksWithin.set_next {m0 m : ListMem T} {S : List Nat} (h : LinksWithin m0 m S)
    {p v : Nat} (hp : p ∈ S) (hv : v ∈ S) :
    LinksWithin m0 { m with next := upd m.next p v } S := by
  refine ⟨?_, h.prev_in, ?_, h.prev_out⟩
  · intro x hx
    show upd m.next p v x ∈ S
    unfold upd
    split
    · exact hv
    · exact h.next_in x hx
  · intro a ha
    have hap : a ≠ p := fun e => ha (e ▸ hp)
    show upd m.next p v a = _
    simp only [upd, if_neg hap]
    exact h.next_out a ha

theorem LinksWithin.set_prev {m0 m : ListMem T} {S : List Nat} (h : LinksWithin m0 m S)
    {p v : Nat} (hp : p ∈ S) (hv : v ∈ S) :
    LinksWithin m0 { m with prev := upd m.prev p v } S := by
  refine ⟨h.next_in, ?_, h.next_out, ?_⟩
  · intro x hx
    show upd m.prev p v x ∈ S
    unfold upd
    split
    · exact hv
    · exact h.prev_in x hx
  · intro a ha
    have hap : a ≠ p := fun e => ha (e ▸ hp)
    show upd m.prev p v a = _
    simp only [upd, if_neg hap]
    exact h.prev_out a ha

theorem LinksWithin.advance {m0 m : ListMem T} {S : List Nat} (h : LinksWithin m0 m S) :
    ∀ (n x : Nat), x ∈ S → advance m n x ∈ S
  | 0, _, hx => hx
  | n + 1, x, hx => LinksWithin.advance h n (m.next x) (h.next_in x hx)

/-- The nodes of a well-formed list and its head are closed under `next` and
`prev`. -/
theorem ListInv.links_within {m : ListMem T} {l : ListValue} {xs : List Nat}
    (h : ListInv m l xs) : LinksWithin m m (l.head :: xs) := by
  refine ⟨?_, ?_, fun _ _ => rfl, fun _ _ => rfl⟩
  · intro x hx
    rcases List.mem_cons.1 hx with e | hm
    · subst e
      rw [h.next_head]
      exact head?_getD_mem _ _
    · obtain ⟨pre, post, rfl⟩ := List.append_of_mem hm
      rw [h.next_node]
      have := head?_getD_mem l.head post
      simp only [List.mem_cons, List.mem_append] at this ⊢
      tauto
  · intro x hx
    rcases List.mem_cons.1 hx with e | hm
    · subst e
      rw [h.prev_head]
      exact getLast?_getD_mem _ _
    · obtain ⟨pre, post, rfl⟩ := List.append_of_mem hm
      rw [h.prev_node]
      have := getLast?_getD_mem l.head pre
      simp only [List.mem_cons, List.mem_append] at this ⊢
      tauto

theorem sortRelink_within {m0 m : ListMem T} {S : List Nat} (h : LinksWithin m0 m S)
    {left_ptr right_ptr : Nat} (hl : left_ptr ∈ S) (hr : right_ptr ∈ S) :
    LinksWithin m0 (sortRelink m left_ptr right_ptr) S := by
  have h1 := h.set_next (h.prev_in _ hr) (h.next_in _ hr)
  have h2 := h1.set_prev (h1.next_in _ hr) (h1.prev_in _ hr)
  have h3 := h2.set_next hr hl
  have h4 := h3.set_prev hr (h3.prev_in _ hl)
  have h5 := h4.set_next (h4.prev_in _ hl) hr
  exact h5.set_prev hl hr

theorem sortMerge_within (cmp : T → T → Bool) (head_ptr step : Nat) {m0 : ListMem T}
    {S : List Nat} :
    ∀ (fuel : Nat) (m : ListMem T) (left_ptr right_ptr lc rc : Nat) (m' : ListMem T)
      (rp rc' : Nat), LinksWithin m0 m S → left_ptr ∈ S → right_ptr ∈ S →
      sortMerge cmp head_ptr step fuel m left_ptr right_ptr lc rc = some (m', rp, rc') →
      LinksWithin m0 m' S ∧ rp ∈ S
  | 0, _, _, _, _, _, _, _, _, _, _, _, e => by simp [sortMerge] at e
  | fuel + 1, m, left_ptr, right_ptr, lc, rc, m', rp, rc', h, hl, hr, e => by
    simp only [sortMerge] at e
    split at e
    · split at e
      · cases e
        exact ⟨h, hr⟩
      · split at e
        · exact sortMerge_within cmp head_ptr step fuel _ _ _ _ _ _ _ _ h
            (h.next_in _ hl) hr e
        · exact sortMerge_within cmp head_ptr step fuel _ _ _ _ _ _ _ _
            (sortRelink_within h hl hr) hl (h.next_in _ hr) e
    · cases e
      exact ⟨h, hr⟩

theorem sortPass_within (cmp : T → T → Bool) (head_ptr step list_size fuel : Nat)
    {m0 : ListMem T} {S : List Nat} :
    ∀ (steps : Nat) (m : ListMem T) (left_ptr right_ptr n : Nat) (m' : ListMem T),
      LinksWithin m0 m S → left_ptr ∈ S → right_ptr ∈ S →
      sortPass cmp head_ptr step list_size fuel steps m left_ptr right_ptr n = some m' →
      LinksWithin m0 m' S
  | 0, _, _, _, _, _, _, _, _, e => by simp [sortPass] at e
  | steps + 1, m, left_ptr, right_ptr, n, m', h, hl, hr, e => by
    simp only [sortPass] at e
    split at e
    · split at e
      · cases e
      · rename_i m1 rp1 rc1 hm
        obtain ⟨h1, hrp⟩ := sortMerge_within cmp head_ptr step fuel _ _ _ _ _ _ _ _ h hl hr hm
        split at e
        · cases e
          exact h1
        · have hl2 : (if rc1 = step then rp1 else advance m1 (step - rc1) rp1) ∈ S := by
            split
            · exact hrp
            · exact h1.advance _ _ hrp
          exact sortPass_within cmp head_ptr step list_size fuel steps _ _ _ _ _ h1 hl2
            (h1.advance _ _ hl2) e
    · cases e
      exact h

theorem sortLoop_within (cmp : T → T → Bool) (head_ptr list_size fuel : Nat)
    {m0 : ListMem T} {S : List Nat} (hh : head_ptr ∈ S) :
    ∀ (steps : Nat) (m : ListMem T) (step : Nat) (m' : ListMem T),
      LinksWithin m0 m S → sortLoop cmp head_ptr list_size fuel steps m step = some m' →
      LinksWithin m0 m' S
  | 0, _, _, _, _, e => by simp [sortLoop] at e
  | steps + 1, m, step, m', h, e => by
    simp only [sortLoop] at e
    split at e
    · split at e
      · cases e
      · rename_i m1 hm
        have h1 := sortPass_within cmp head_ptr step list_size fuel fuel _ _ _ _ _ h
          (h.next_in _ hh) (h.advance _ _ (h.next_in _ hh)) hm
        exact sortLoop_within cmp head_ptr list_size fuel hh steps _ _ _ h1 e
    · cases e
      exact h

/-- `sort` on a well-formed list leaves the links of every node outside the
list as they were. -/
theorem sort_frame (cmp : T → T → Bool) {m : ListMem T} {l : ListValue} {xs : List Nat}
    (h : ListInv m l xs) {fuel : Nat} {m' : ListMem T}
    (hr : LinkedList.sort cmp fuel m l = some m') :
    ∀ a, a ∉ l.head :: xs → m'.next a = m.next a ∧ m'.prev a = m.prev a := by
  have hw := sortLoop_within cmp l.head l.size fuel (List.mem_cons_self _ _) fuel m 1 m'
    h.links_within hr
  exact fun a ha => ⟨hw.next_out a ha, hw.prev_out a ha⟩

theorem createRangeLoop_cons (v : T) (rest : List T) (m : ListMem T) (tl added : Nat) :
    createRangeLoop (v :: rest) m tl added
      = createRangeLoop rest
          { next := upd m.next tl m.fresh, prev := upd m.prev m.fresh tl,
            value := upd m.value m.fresh v, fresh := m.fresh + 1, freed := m.freed }
          m.fresh (added + 1) := by
  simp [createRangeLoop, upd]

/-- The loop of `createNumOfNodes` is the loop of `createNodesFromRange` over
`count` copies of the value. -/
theorem createNumLoop_eq (value : T) :
    ∀ (count : Nat) (m : ListMem T) (last added : Nat),
      createNumLoop value count m last added
        = createRangeLoop (List.replicate count value) m last added
  | 0, _, _, _ => rfl
  | count + 1, m, last, added => by
    simp only [createNumLoop, List.replicate_succ, createRangeLoop]
    exact createNumLoop_eq value count _ _ _

/-- The loop of `createNodesFromRange`: one fresh node per element, chained
behind `tl`, with every older node untouched apart from `next` of `tl`. -/
theorem createRangeLoop_spec :
    ∀ (range : List T) (m : ListMem T) (tl added : Nat), tl < m.fresh →
      (createRangeLoop range m tl added).2.1
        = (List.range' m.fresh range.length).getLast?.getD tl ∧
      (createRangeLoop range m tl added).2.2 = added + range.length ∧
      (createRangeLoop range m tl added).1.fresh = m.fresh + range.length ∧
      (createRangeLoop range m tl added).1.freed = m.freed ∧
      List.Chain' (Link (createRangeLoop range m tl added).1)
        (tl :: List.range' m.fresh range.length) ∧
      (∀ a, a < m.fresh → a ≠ tl → (createRangeLoop range m tl added).1.next a = m.next a) ∧
      (∀ a, a < m.fresh → (createRangeLoop range m tl added).1.prev a = m.prev a)
  | [], m, tl, added, _ => by
    refine ⟨rfl, rfl, rfl, rfl, by simp, fun _ _ _ => rfl, fun _ _ => rfl⟩
  | v :: rest, m, tl, added, htl => by
    rw [createRangeLoop_cons]
    obtain ⟨q0, qa, q1, q2, q3, q5, q6⟩ := createRangeLoop_spec rest
      { next := upd m.next tl m.fresh, prev := upd m.prev m.fresh tl,
        value := upd m.value m.fresh v, fresh := m.fresh + 1, freed := m.freed }
      m.fresh (added + 1) (by show m.fresh < m.fresh + 1; omega)
    simp only at q0 qa q1 q2 q3 q5 q6
    have e1 : List.range' m.fresh ((v :: rest).length)
        = m.fresh :: List.range' (m.fresh + 1) rest.length := by
      simp [List.range'_succ]
    refine ⟨?_, ?_, ?_, q2, ?_, ?_, ?_⟩
    · rw [q0, e1, getLast?_cons_getD, Option.getD_some]
    · rw [qa]
      simp only [List.length_cons]
      omega
    · rw [q1]
      simp only [List.length_cons]
      omega
    · rw [e1, List.chain'_cons]
      refine ⟨⟨?_, ?_⟩, q3⟩
      · rw [q5 tl (by omega) (by omega)]
        simp [upd]
      · rw [q6 m.fresh (by omega)]
        simp [upd]
    · intro a ha hat
      rw [q5 a (by omega) (by omega)]
      simp [upd, hat]
    · intro a ha
      rw [q6 a (by omega)]
      have : a ≠ m.fresh := by omega
      simp [upd, this]

/-- `insertNodes` of a run of `k + 1` fresh nodes, chained in `mc`, before the
node that follows `pre`: the run stands between `pre` and `post`, and no
older node outside the list changes. -/
theorem insertRun_inv {m mc : ListMem T} {l : ListValue} {pre post : List Nat} (k added : Nat)
    (h : ListInv m l (pre ++ post)) (hfresh : mc.fresh = m.fresh + (k + 1))
    (hchain : List.Chain' (Link mc) (List.range' m.fresh (k + 1)))
    (hn : ∀ a, a < m.fresh → mc.next a = m.next a)
    (hp : ∀ a, a < m.fresh → mc.prev a = m.prev a) :
    ∃ m' tmp', ListTmpNodes.insertNodes mc
        { first := some m.fresh,
          last := some ((List.range' (m.fresh + 1) k).getLast?.getD m.fresh),
          added := added } (post.head?.getD l.head) = some (m', tmp', m.fresh) ∧
      ListInv m' { l with size := l.size + (k + 1) }
        (pre ++ List.range' m.fresh (k + 1) ++ post) ∧
      m'.value = mc.value ∧ m'.fresh = mc.fresh ∧ m'.freed = mc.freed ∧
      (∀ a, a < m.fresh → a ∉ l.head :: (pre ++ post) →
        m'.next a = m.next a ∧ m'.prev a = m.prev a) := by
  have hs := h.seam
  have hpm := getLast?_getD_mem l.head pre
  have hwm := head?_getD_mem l.head post
  have hplt : pre.getLast?.getD l.head < m.fresh :=
    h.alloc _ (by simp at hpm ⊢; tauto)
  have hwlt : post.head?.getD l.head < m.fresh :=
    h.alloc _ (by simp at hwm ⊢; tauto)
  have hwf : post.head?.getD l.head ≠ m.fresh := by omega
  obtain ⟨m4, tmp4, e4, n4, p4, v4, f4, d4⟩ := insertNodes_spec mc added m.fresh
    ((List.range' (m.fresh + 1) k).getLast?.getD m.fresh) (post.head?.getD l.head) hwf
  have eN : List.range' m.fresh (k + 1) = m.fresh :: List.range' (m.fresh + 1) k := by
    simp [List.range'_succ]
  have hNge : ∀ a ∈ List.range' m.fresh (k + 1), m.fresh ≤ a ∧ a < m.fresh + (k + 1) := by
    intro a ha
    simp only [List.mem_range'_1] at ha
    exact ha
  have hNnd : (List.range' m.fresh (k + 1)).Nodup := List.nodup_range' _ _
  have hlast : (List.range' m.fresh (k + 1)).getLast?
      = some ((List.range' (m.fresh + 1) k).getLast?.getD m.fresh) := by
    rw [eN, getLast?_cons_getD]
  have hlastmem : (List.range' (m.fresh + 1) k).getLast?.getD m.fresh
      ∈ List.range' m.fresh (k + 1) := List.mem_of_mem_getLast? hlast
  have hlge := (hNge _ hlastmem).1
  have hprevw : mc.prev (post.head?.getD l.head) = pre.getLast?.getD l.head := by
    rw [hp _ hwlt]
    exact hs.2
  refine ⟨m4, tmp4, e4, ?_, v4, f4, d4, ?_⟩
  · refine ⟨?_, ?_, ?_, ?_, ?_⟩
    · have hring : List.Chain' (Link m) (l.head :: (pre ++ [] ++ post) ++ [l.head]) := by
        simpa using h.ring
      refine ring_splice [] hring h.nodup ?_ ?_ ?_
      · intro a ha hap
        have halt := h.alloc a ha
        rw [n4 a, hprevw, if_neg (by omega), if_neg hap, hn a halt]
      · intro b hb hbw
        have hblt := h.alloc b hb
        rw [p4 b, if_neg hbw, if_neg (by omega), hp b hblt]
      · have hin : List.Chain' (Link m4) (List.range' m.fresh (k + 1)) := by
          rw [eN] at hNnd hlast hchain ⊢
          refine Link.chain_frame hchain ?_ ?_
          · intro a ha
            have hne := nodup_dropLast_ne hNnd hlast ha
            have hge := (hNge a (by rw [eN]; exact List.mem_of_mem_dropLast ha)).1
            rw [n4 a, if_neg hne, hprevw, if_neg (by omega)]
          · intro b hb
            have hne := nodup_tail_ne hNnd (List.head?_cons) hb
            have hge := (hNge b (by rw [eN]; exact List.mem_of_mem_tail hb)).1
            rw [p4 b, if_neg (by omega), if_neg hne]
        have e1 : pre.getLast?.getD l.head :: List.range' m.fresh (k + 1)
              ++ [post.head?.getD l.head]
            = (pre.getLast?.getD l.head :: List.range' m.fresh (k + 1))
              ++ [post.head?.getD l.head] := rfl
        rw [e1, List.chain'_append]
        refine ⟨?_, List.chain'_singleton _, ?_⟩
        · rw [eN, List.chain'_cons]
          refine ⟨⟨?_, ?_⟩, by rw [← eN]; exact hin⟩
          · rw [n4, hprevw]
            by_cases c : pre.getLast?.getD l.head
                = (List.range' (m.fresh + 1) k).getLast?.getD m.fresh
            · omega
            · simp [c]
          · rw [p4, if_neg (by omega), if_pos rfl, hprevw]
        · intro x hx y hy
          simp only [List.head?_cons, Option.mem_def, Option.some.injEq] at hy
          subst hy
          have hx2 : x = (List.range' (m.fresh + 1) k).getLast?.getD m.fresh := by
            rw [eN] at hx
            simp only [Option.mem_def] at hx
            rw [List.getLast?_cons_cons, ← eN, hlast] at hx
            exact (Option.some.inj hx).symm
          subst hx2
          exact ⟨by rw [n4, if_pos rfl], by rw [p4, if_pos rfl]⟩
    · show (l.head :: (pre ++ List.range' m.fresh (k + 1) ++ post)).Nodup
      have hnd := h.nodup
      have e2 : l.head :: (pre ++ List.range' m.fresh (k + 1) ++ post)
          = (l.head :: pre) ++ (List.range' m.fresh (k + 1) ++ post) := by simp
      have e3 : l.head :: (pre ++ post) = (l.head :: pre) ++ post := rfl
      rw [e3, List.nodup_append] at hnd
      rw [e2, List.nodup_append]
      refine ⟨hnd.1, ?_, ?_⟩
      · rw [List.nodup_append]
        refine ⟨hNnd, hnd.2.1, ?_⟩
        intro a ha hb
        have := h.alloc a (by simp at hb ⊢; tauto)
        have := (hNge a ha).1
        omega
      · intro a ha hb
        rcases List.mem_append.1 hb with h1 | h1
        · have := h.alloc a (by simp at ha ⊢; tauto)
          have := (hNge a h1).1
          omega
        · exact hnd.2.2 ha h1
    · show l.size + (k + 1) = _
      have := h.size_eq
      simp only [List.length_append, List.length_range'] at this ⊢
      omega
    · intro a ha
      rw [f4, hfresh]
      have ha2 : a ∈ l.head :: (pre ++ List.range' m.fresh (k + 1) ++ post) := ha
      simp only [List.mem_cons, List.mem_append] at ha2
      rcases ha2 with h1 | (h1 | h1) | h1
      · have := h.alloc a (by simp [h1])
        omega
      · have := h.alloc a (by simp [h1])
        omega
      · have := (hNge a h1).2
        omega
      · have := h.alloc a (by simp [h1])
        omega
    · intro it hit
      have := h.iters it hit
      show it.ptr ∈ l.head :: (pre ++ List.range' m.fresh (k + 1) ++ post)
      simp only [List.mem_cons, List.mem_append] at this ⊢
      tauto
  · intro a ha hna
    have hap : a ≠ pre.getLast?.getD l.head := fun e => hna (by
      rw [e]
      simp at hpm ⊢
      tauto)
    have haw : a ≠ post.head?.getD l.head := fun e => hna (by
      rw [e]
      simp at hwm ⊢
      tauto)
    constructor
    · rw [n4 a, hprevw, if_neg (by omega), if_neg hap, hn a ha]
    · rw [p4 a, if_neg haw, if_neg (by omega), hp a ha]

/-- `insertRange` of a non-empty range before the node that follows `pre`:
the call returns the first new node, one fresh node per element stands
between `pre` and `post`, and no older node outside the list changes. -/
theorem insertRange_inv {m : ListMem T} {l : ListValue} {pre post : List Nat}
    (h : ListInv m l (pre ++ post)) (v : T) (rest : List T) :
    ∃ m' l', LinkedList.insertRange m l (post.head?.getD l.head) (v :: rest)
        = some (m', l', m.fresh) ∧
      ListInv m' l' (pre ++ List.range' m.fresh (rest.length + 1) ++ post) ∧
      l'.head = l.head ∧ l'.size = l.size + (rest.length + 1) ∧
      m'.fresh = m.fresh + (rest.length + 1) ∧ m'.freed = m.freed ∧
      (∀ a, a < m.fresh → a ∉ l.head :: (pre ++ post) →
        m'.next a = m.next a ∧ m'.prev a = m.prev a) := by
  obtain ⟨q0, qa, q1, q2, q3, q5, q6⟩ := createRangeLoop_spec rest
    { m with value := upd m.value m.fresh v, fresh := m.fresh + 1 } m.fresh (0 + 1)
    (by show m.fresh < m.fresh + 1; omega)
  simp only at q0 qa q1 q2 q3 q5 q6
  have eN : List.range' m.fresh (rest.length + 1)
      = m.fresh :: List.range' (m.fresh + 1) rest.length := by
    simp [List.range'_succ]
  obtain ⟨m4, tmp4, e4, hinv, v4, f4, d4, fr4⟩ :=
    @insertRun_inv T m
      (createRangeLoop rest { m with value := upd m.value m.fresh v, fresh := m.fresh + 1 }
        m.fresh (0 + 1)).1 l pre post rest.length (0 + 1 + rest.length) h
      (by rw [q1]; omega) (by rw [eN]; exact q3)
      (fun a ha => q5 a (by omega) (by omega)) (fun a ha => q6 a (by omega))
  refine ⟨m4, { l with size := l.size + (0 + 1 + rest.length) }, ?_, ?_, rfl, ?_, ?_, ?_, fr4⟩
  · simp only [LinkedList.insertRange, ListTmpNodes.createNodesFromRange, ListTmpNodes.new,
      q0, qa, e4]
  · have e : ({ l with size := l.size + (0 + 1 + rest.length) } : ListValue)
        = { l with size := l.size + (rest.length + 1) } := by
      have : 0 + 1 + rest.length = rest.length + 1 := by omega
      rw [this]
    rw [e]
    exact hinv
  · show l.size + (0 + 1 + rest.length) = _
    omega
  · rw [f4, q1]
    omega
  · rw [d4, q2]

/-- `insertNumOfNodes` with a positive count before the node that follows
`pre`: the call returns the first new node, `count` fresh nodes stand between
`pre` and `post`, and no older node outside the list changes. -/
theorem insertNumOfNodes_inv {m : ListMem T} {l : ListValue} {pre post : List Nat}
    (h : ListInv m l (pre ++ post)) (k : Nat) (value : T) :
    ∃ m' l', LinkedList.insertNumOfNodes m l (post.head?.getD l.head) (k + 1) value
        = some (m', l', m.fresh) ∧
      ListInv m' l' (pre ++ List.range' m.fresh (k + 1) ++ post) ∧
      l'.head = l.head ∧ l'.size = l.size + (k + 1) ∧
      m'.fresh = m.fresh + (k + 1) ∧ m'.freed = m.freed ∧
      (∀ a, a < m.fresh → a ∉ l.head :: (pre ++ post) →
        m'.next a = m.next a ∧ m'.prev a = m.prev a) := by
  obtain ⟨q0, qa, q1, q2, q3, q5, q6⟩ := createRangeLoop_spec (List.replicate k value)
    { m with value := upd m.value m.fresh value, fresh := m.fresh + 1 } m.fresh (0 + 1)
    (by show m.fresh < m.fresh + 1; omega)
  simp only [List.length_replicate] at q0 qa q1 q2 q3 q5 q6
  have eN : List.range' m.fresh (k + 1) = m.fresh :: List.range' (m.fresh + 1) k := by
    simp [List.range'_succ]
  obtain ⟨m4, tmp4, e4, hinv, v4, f4, d4, fr4⟩ :=
    @insertRun_inv T m
      (createRangeLoop (List.replicate k value)
        { m with value := upd m.value m.fresh value, fresh := m.fresh + 1 }
        m.fresh (0 + 1)).1 l pre post k (0 + 1 + k) h
      (by rw [q1]; omega) (by rw [eN]; exact q3)
      (fun a ha => q5 a (by omega) (by omega)) (fun a ha => q6 a (by omega))
  refine ⟨m4, { l with size := l.size + (k + 1) }, ?_, hinv, rfl, rfl, ?_, ?_, fr4⟩
  · have hk : ¬ k + 1 ≤ 0 := by omega
    simp only [LinkedList.insertNumOfNodes, ListTmpNodes.createNumOfNodes, ListTmpNodes.new,
      hk, if_false, Nat.add_sub_cancel, createNumLoop_eq, q0, qa, e4]
  · rw [f4, q1]
    omega
  · rw [d4, q2]

/-- `emplaceNode` before the node that follows `pre` leaves the links of
every older node outside the list as they were. -/
theorem emplaceNode_frame {m : ListMem T} {l : ListValue} {pre post : List Nat}
    (h : ListInv m l (pre ++ post)) (v : T) :
    ∃ m' l', LinkedList.emplaceNode m l (post.head?.getD l.head) v = some (m', l', m.fresh) ∧
      ListInv m' l' (pre ++ m.fresh :: post) ∧ l'.head = l.head ∧ l'.size = l.size + 1 ∧
      m'.fresh = m.fresh + 1 ∧ m'.freed = m.freed ∧
      (∀ a, a < m.fresh → a ∉ l.head :: (pre ++ post) →
        m'.next a = m.next a ∧ m'.prev a = m.prev a) := by
  obtain ⟨m4, tmp4, e4, hinv, v4, f4, d4, fr4⟩ :=
    @insertRun_inv T m { m with value := upd m.value m.fresh v, fresh := m.fresh + 1 }
      l pre post 0 0 h rfl (by simp) (fun _ _ => rfl) (fun _ _ => rfl)
  simp only [List.range'_zero, List.getLast?_nil, Option.getD_none] at e4
  refine ⟨m4, { l with size := l.size + 1 }, ?_, ?_, rfl, rfl, ?_, ?_, fr4⟩
  · simp only [LinkedList.emplaceNode, ListTmpNodes.createNode, ListTmpNodes.new, e4]
  · have : pre ++ m.fresh :: post = pre ++ List.range' m.fresh (0 + 1) ++ post := by simp
    rw [this]
    exact hinv
  · rw [f4]
  · rw [d4]

theorem traverseFrom_short {m : ListMem T} {l : ListValue} :
    ∀ (post pre : List Nat) (fuel : Nat), ListInv m l (pre ++ post) → fuel ≤ post.length →
      LinkedList.traverseFrom m l.head fuel (post.head?.getD l.head) = none
  | _, _, 0, _, _ => rfl
  | [], _, fuel + 1, _, hf => by simp at hf
  | a :: post, pre, fuel + 1, h, hf => by
    have hne : a ≠ l.head := h.node_ne_head (by simp)
    have h1 : ListInv m l ((pre ++ [a]) ++ post) := by simpa using h
    have ih := traverseFrom_short post (pre ++ [a]) fuel h1 (by simp at hf; omega)
    simp only [List.head?_cons, Option.getD_some, LinkedList.traverseFrom, if_neg hne]
    rw [h.next_node, ih]

/-- The iteration of a well-formed list either meets its nodes, with fuel
above their number, or runs out of fuel. -/
theorem traverse_cases {m : ListMem T} {l : ListValue} {xs : List Nat} (h : ListInv m l xs)
    (fuel : Nat) :
    (LinkedList.traverse fuel m l = some xs ∧ xs.length < fuel) ∨
      LinkedList.traverse fuel m l = none := by
  by_cases hf : xs.length < fuel
  · exact Or.inl ⟨traverse_list_spec h hf, hf⟩
  · right
    unfold LinkedList.traverse LinkedList.begin
    rw [h.next_head]
    exact traverseFrom_short xs [] fuel (by simpa using h) (by omega)

theorem mem_traverse {m : ListMem T} {l : ListValue} {xs : List Nat} (h : ListInv m l xs)
    {fuel w : Nat} (hw : w ∈ (LinkedList.traverse fuel m l).getD []) : w ∈ xs := by
  rcases traverse_cases h fuel with ⟨e, -⟩ | e
  · rw [e] at hw
    exact hw
  · rw [e] at hw
    simp at hw

theorem split_position {head w : Nat} {xs : List Nat} (hw : w ∈ head :: xs) :
    ∃ pre post, xs = pre ++ post ∧ post.head?.getD head = w := by
  by_cases hm : w ∈ xs
  · obtain ⟨pre, post, rfl⟩ := List.append_of_mem hm
    exact ⟨pre, w :: post, rfl, rfl⟩
  · refine ⟨xs, [], by simp, ?_⟩
    simp only [List.mem_cons] at hw
    rcases hw with e | e
    · exact e.symm
    · exact absurd e hm

theorem drop_indexOf (h : Nat) :
    ∀ (xs : List Nat) (w : Nat), w ∈ xs ++ [h] →
      (xs.drop ((xs ++ [h]).indexOf w)).head?.getD h = w
  | [], w, hw => by
    simp at hw
    simp [hw]
  | x :: t, w, hw => by
    by_cases c : w = x
    · subst c
      simp
    · have hxw : x ≠ w := fun e => c e.symm
      have hw1 : w ∈ t ++ [h] := by
        simp only [List.cons_append, List.mem_cons] at hw
        rcases hw with e | e
        · exact absurd e c
        · exact e
      rw [List.cons_append, List.indexOf_cons_ne _ hxw, List.drop_succ_cons]
      exact drop_indexOf h t w hw1

theorem split_range {xs : List Nat} {h first last : Nat} (hf : first ∈ xs ++ [h])
    (hl : last ∈ xs ++ [h])
    (hle : (xs ++ [h]).indexOf first ≤ (xs ++ [h]).indexOf last) :
    ∃ pre mid post, xs = pre ++ mid ++ post ∧ (mid ++ post).head?.getD h = first ∧
      post.head?.getD h = last := by
  have e1 := drop_indexOf h xs first hf
  have e2 := drop_indexOf h xs last hl
  generalize (xs ++ [h]).indexOf first = i at hle e1
  generalize (xs ++ [h]).indexOf last = j at hle e2
  have hd : (xs.drop i).drop (j - i) = xs.drop j := by
    rw [List.drop_drop]
    congr 1
    omega
  refine ⟨xs.take i, (xs.drop i).take (j - i), xs.drop j, ?_, ?_, e2⟩
  · rw [List.append_assoc, ← hd, List.take_append_drop, List.take_append_drop]
  · rw [← hd, List.take_append_drop]
    exact e1

/-- The lists that a call leaves well formed, together with another
well-formed list that shares no node with the first: the other list is as it
was, and the two still share no node. -/
theorem ListStep.other {m0 m : ListMem T} {l0 l o : ListValue} {xs ys : List Nat}
    (hs : ListStep m0 l0 xs m l) (ho : ListInv m0 o ys)
    (hd : ∀ a ∈ l0.head :: xs, a ∉ o.head :: ys) :
    ∃ xs1, ListInv m l xs1 ∧ ListInv m o ys ∧ (∀ a ∈ l.head :: xs1, a ∉ o.head :: ys) := by
  obtain ⟨xs1, hi, hh, hsub, hfr, hf⟩ := hs
  have hd2 : ∀ b ∈ o.head :: ys, b ∉ l0.head :: xs := fun b hb ha => hd b ha hb
  refine ⟨xs1, hi, ?_, ?_⟩
  · exact ho.of_links (fun a ha => (hfr a (ho.alloc a ha) (hd2 a ha)).1)
      (fun a ha => (hfr a (ho.alloc a ha) (hd2 a ha)).2) hf
  · intro a ha hb
    rw [hh] at ha
    rcases List.mem_cons.1 ha with e | hm
    · exact hd a (by simp [e]) hb
    · rcases hsub a hm with h1 | h1
      · exact hd a (List.mem_cons_of_mem _ h1) hb
      · have := ho.alloc a hb
        omega

theorem ListStep.of_insert {m m1 : ListMem T} {l l1 : ListValue} {pre post : List Nat}
    {n : Nat} (hi : ListInv m1 l1 (pre ++ List.range' m.fresh n ++ post))
    (hh : l1.head = l.head) (hf : m1.fresh = m.fresh + n)
    (hfr : ∀ a, a < m.fresh → a ∉ l.head :: (pre ++ post) →
      m1.next a = m.next a ∧ m1.prev a = m.prev a) :
    ListStep m l (pre ++ post) m1 l1 := by
  refine ⟨_, hi, hh, ?_, hfr, by omega⟩
  intro x hx
  simp only [List.mem_append, List.mem_range'_1] at hx ⊢
  rcases hx with (h1 | h1) | h1
  · exact Or.inl (Or.inl h1)
  · exact Or.inr h1.1
  · exact Or.inl (Or.inr h1)

theorem insert_step {m m1 : ListMem T} {l l1 : ListValue} {xs : List Nat} {w count ret : Nat}
    {v : T} (h : ListInv m l xs) (hw : w ∈ l.head :: xs)
    (hr : LinkedList.insert m l w count v = some (m1, l1, ret)) : ListStep m l xs m1 l1 := by
  obtain ⟨pre, post, rfl, rfl⟩ := split_position hw
  cases count with
  | zero =>
    simp [LinkedList.insert, LinkedList.insertNumOfNodes, ListTmpNodes.createNumOfNodes,
      ListTmpNodes.new, ListTmpNodes.insertNodes] at hr
  | succ k =>
    obtain ⟨m2, l2, e, hi, hh, -, hf, -, hfr⟩ := insertNumOfNodes_inv h k v
    rw [LinkedList.insert, e] at hr
    cases hr
    exact ListStep.of_insert hi hh hf hfr

theorem insertRange_step {m m1 : ListMem T} {l l1 : ListValue} {xs : List Nat} {w ret : Nat}
    {range : List T} (h : ListInv m l xs) (hw : w ∈ l.head :: xs)
    (hr : LinkedList.insertRange m l w range = some (m1, l1, ret)) :
    ListStep m l xs m1 l1 := by
  obtain ⟨pre, post, rfl, rfl⟩ := split_position hw
  cases range with
  | nil =>
    simp [LinkedList.insertRange, ListTmpNodes.createNodesFromRange,
      ListTmpNodes.new, ListTmpNodes.insertNodes] at hr
  | cons v rest =>
    obtain ⟨m2, l2, e, hi, hh, -, hf, -, hfr⟩ := insertRange_inv h v rest
    rw [e] at hr
    cases hr
    exact ListStep.of_insert hi hh hf hfr

theorem emplaceNode_step {m m1 : ListMem T} {l l1 : ListValue} {xs : List Nat} {w ret : Nat}
    {v : T} (h : ListInv m l xs) (hw : w ∈ l.head :: xs)
    (hr : LinkedList.emplaceNode m l w v = some (m1, l1, ret)) : ListStep m l xs m1 l1 := by
  obtain ⟨pre, post, rfl, rfl⟩ := split_position hw
  obtain ⟨m2, l2, e, hi, hh, -, hf, -, hfr⟩ := emplaceNode_frame h v
  rw [e] at hr
  cases hr
  have hi2 : ListInv m1 l1 (pre ++ List.range' m.fresh 1 ++ post) := by
    simpa using hi
  exact ListStep.of_insert hi2 hh hf hfr

theorem eraseNode_step {m : ListMem T} {l : ListValue} {xs : List Nat} {a : Nat}
    (h : ListInv m l xs) (ha : a ∈ xs) :
    ListStep m l xs (LinkedList.eraseNode m l a).1 (LinkedList.eraseNode m l a).2.1 := by
  obtain ⟨pre, post, rfl⟩ := List.append_of_mem ha
  obtain ⟨-, hi, -, hf, -, hh, -⟩ := eraseNode_inv h
  have hS : a ∈ l.head :: (pre ++ a :: post) := by simp
  have hw := h.links_within
  have h1 := hw.set_next (hw.prev_in _ hS) (hw.next_in _ hS)
  have h2 := h1.set_prev (h1.next_in _ hS) (h1.prev_in _ hS)
  refine ⟨_, hi, hh, ?_, ?_, by rw [hf]⟩
  · intro x hx
    left
    simp only [List.mem_append, List.mem_cons] at hx ⊢
    tauto
  · intro b _ hb
    exact ⟨h2.next_out b hb, h2.prev_out b hb⟩

theorem clear_step {m m1 : ListMem T} {l l1 : ListValue} {xs : List Nat} {fuel : Nat}
    (h : ListInv m l xs) (hf : xs.length < fuel)
    (hr : LinkedList.clear fuel m l = some (m1, l1)) : ListStep m l xs m1 l1 := by
  obtain ⟨m2, l2, e, hi, -, hfr, -, hh, -⟩ := clear_inv h hf
  have e2 := clear_eq h hf
  rw [e] at hr
  cases hr
  rw [e] at e2
  cases e2
  refine ⟨[], hi, hh, by simp, ?_, by rw [hfr]⟩
  intro a _ ha
  have hah : a ≠ l.head := fun e0 => ha (by simp [e0])
  exact ⟨by simp [upd, hah], by simp [upd, hah]⟩

theorem eraseRange_step {m m1 : ListMem T} {l l1 : ListValue} {xs : List Nat}
    {fuel first last ret : Nat} (h : ListInv m l xs)
    (hv : isRange fuel m l first last = true)
    (hr : LinkedList.eraseRange fuel m l first last = some (m1, l1, ret)) :
    ListStep m l xs m1 l1 := by
  unfold isRange at hv
  rcases traverse_cases h fuel with ⟨e, hf⟩ | e
  · rw [e] at hv
    simp only [decide_eq_true_eq] at hv
    obtain ⟨pre, mid, post, rfl, rfl, rfl⟩ := split_range hv.1 hv.2.1 hv.2.2
    obtain ⟨m2, l2, e2, hi, -, hfr, -, hh, -⟩ := eraseRange_inv h hf
    have hframe := eraseRange_frame h hr
    rw [e2] at hr
    cases hr
    refine ⟨_, hi, hh, ?_, fun a _ ha => hframe a ha, by rw [hfr]⟩
    intro x hx
    left
    simp only [List.mem_append] at hx ⊢
    tauto
  · rw [e] at hv
    simp at hv

theorem sort_step (cmp : T → T → Bool) {m m1 : ListMem T} {l : ListValue} {xs : List Nat}
    {fuel : Nat} (h : ListInv m l xs) (hf : l.size < fuel) (hsz : l.size < 2 ^ 62)
    (hr : LinkedList.sort cmp fuel m l = some m1) : ListStep m l xs m1 l := by
  obtain ⟨m2, ys, e, hi, hp, -, -, hfr, -⟩ :=
    sort_spec cmp (P := fun _ => True) h hsz (fun _ _ => trivial) (fun _ _ _ _ => trivial)
      (show xs.length < fuel by rw [← h.size_eq]; exact hf)
  have hframe := sort_frame cmp h hr
  rw [e] at hr
  cases hr
  exact ⟨ys, hi, rfl, fun x hx => Or.inl (hp.subset hx), fun a _ ha => hframe a ha,
    by rw [hfr]⟩

/-- One valid call on a well-formed list. -/
theorem applyListOp_step (cmp : T → T → Bool) {fuel : Nat} {m m1 : ListMem T}
    {l l1 : ListValue} {xs : List Nat} (h : ListInv m l xs) (op : ListOp T)
    (hv : op.valid fuel m l = true)
    (hr : applyListOp cmp fuel m l op = some (m1, l1)) : ListStep m l xs m1 l1 := by
  have hw := h.links_within
  have hhead : l.head ∈ l.head :: xs := List.mem_cons_self _ _
  have hpos : ∀ w, decide (w = l.head ∨ w ∈ (LinkedList.traverse fuel m l).getD []) = true →
      w ∈ l.head :: xs := by
    intro w hw1
    simp only [decide_eq_true_eq] at hw1
    rcases hw1 with e | e
    · simp [e]
    · exact List.mem_cons_of_mem _ (mem_traverse h e)
  cases op with
  | insert w count v =>
    simp only [applyListOp, Option.map_eq_some'] at hr
    obtain ⟨⟨m2, l2, ret⟩, e, e2⟩ := hr
    cases e2
    exact insert_step h (hpos w hv) e
  | insertRange w range =>
    simp only [applyListOp, Option.map_eq_some'] at hr
    obtain ⟨⟨m2, l2, ret⟩, e, e2⟩ := hr
    cases e2
    exact insertRange_step h (hpos w hv) e
  | emplace w v =>
    simp only [applyListOp, Option.map_eq_some'] at hr
    obtain ⟨⟨m2, l2, ret⟩, e, e2⟩ := hr
    cases e2
    exact emplaceNode_step h (hpos w hv) e
  | emplaceFront v =>
    simp only [applyListOp, Option.map_eq_some'] at hr
    obtain ⟨⟨m2, l2, ret⟩, e, e2⟩ := hr
    cases e2
    exact emplaceNode_step h (hw.next_in _ (hw.next_in _ hhead)) e
  | pushBack v =>
    simp only [applyListOp, LinkedList.pushBack] at hr
    split at hr
    · cases hr
    · rename_i m2 l2 ret e
      cases hr
      exact emplaceNode_step h hhead e
  | pushFront v =>
    simp only [applyListOp, LinkedList.pushFront] at hr
    split at hr
    · cases hr
    · rename_i m2 l2 ret e
      cases hr
      exact emplaceNode_step h (hw.next_in _ hhead) e
  | popBack =>
    simp only [applyListOp, LinkedList.popBack, Option.some.injEq, Prod.mk.injEq] at hr
    obtain ⟨rfl, rfl⟩ := hr
    simp only [ListOp.valid, decide_eq_true_eq] at hv
    have hne : xs ≠ [] := by
      intro e
      rw [h.size_eq, e] at hv
      exact hv rfl
    have hmem : m.prev l.head ∈ xs := by
      rw [h.prev_head]
      obtain ⟨q, hq⟩ : ∃ q, xs.getLast? = some q := by
        cases hx : xs.getLast? with
        | none => exact absurd (List.getLast?_eq_none_iff.1 hx) hne
        | some q => exact ⟨q, rfl⟩
      rw [hq]
      exact List.mem_of_mem_getLast? hq
    exact eraseNode_step h hmem
  | popFront =>
    simp only [applyListOp, LinkedList.popFront, Option.some.injEq, Prod.mk.injEq] at hr
    obtain ⟨rfl, rfl⟩ := hr
    simp only [ListOp.valid, decide_eq_true_eq] at hv
    have hmem : m.next l.head ∈ xs := by
      rw [h.next_head]
      cases xs with
      | nil =>
        rw [h.size_eq] at hv
        exact absurd rfl hv
      | cons x t => simp
    exact eraseNode_step h hmem
  | erase ptr =>
    simp only [applyListOp, LinkedList.erase, Option.some.injEq, Prod.mk.injEq] at hr
    obtain ⟨rfl, rfl⟩ := hr
    simp only [ListOp.valid, decide_eq_true_eq] at hv
    exact eraseNode_step h (mem_traverse h hv)
  | eraseRange first last =>
    simp only [applyListOp, Option.map_eq_some'] at hr
    obtain ⟨⟨m2, l2, ret⟩, e, e2⟩ := hr
    cases e2
    exact eraseRange_step h hv e
  | clear =>
    simp only [ListOp.valid, decide_eq_true_eq] at hv
    exact clear_step h (by rw [← h.size_eq]; exact hv) hr
  | sort =>
    simp only [applyListOp, Option.map_eq_some'] at hr
    obtain ⟨m2, e, e2⟩ := hr
    cases e2
    simp only [ListOp.valid, decide_eq_true_eq] at hv
    exact sort_step cmp h hv.1 hv.2 e
  | assignSelf =>
    simp only [applyListOp, LinkedList.copyAssignBody, if_true, Option.some.injEq] at hr
    cases hr
    exact ⟨xs, h, rfl, fun x hx => Or.inl hx, fun _ _ _ => ⟨rfl, rfl⟩, Nat.le_refl _⟩

theorem PairInv.swapped {s : ListPair T} (h : PairInv s) :
    ∃ xs ys, ListInv s.mem s.second ys ∧ ListInv s.mem s.first xs ∧
      ∀ a ∈ s.second.head :: ys, a ∉ s.first.head :: xs := by
  obtain ⟨xs, ys, h1, h2, hd⟩ := h
  exact ⟨xs, ys, h2, h1, fun a ha hb => hd a hb ha⟩

/-- Two default-constructed lists are well formed and share no node. -/
theorem create_pair_inv (r : RegMem) (m : ListMem T) : PairInv (ListPair.create r m) := by
  refine ⟨[], [], ?_, createEmptyList_inv _, ?_⟩
  · refine (createEmptyList_inv m).of_links ?_ ?_ ?_
    · intro a ha
      have := (createEmptyList_inv m).alloc a ha
      have hne : a ≠ (LinkedList.createEmptyList m).1.fresh := by omega
      simp [ListPair.create, LinkedList.createEmptyList, ListMem.createHeadNode, upd] at hne ⊢
      intro e
      exact absurd e hne
    · intro a ha
      have := (createEmptyList_inv m).alloc a ha
      have hne : a ≠ (LinkedList.createEmptyList m).1.fresh := by omega
      simp [ListPair.create, LinkedList.createEmptyList, ListMem.createHeadNode, upd] at hne ⊢
      intro e
      exact absurd e hne
    · simp [ListPair.create, LinkedList.createEmptyList, ListMem.createHeadNode]
  · simp [ListPair.create, LinkedList.createEmptyList, ListMem.createHeadNode]

/-- One valid call on two well-formed lists without a common node leaves two
such lists. -/
theorem applyPairOp_inv (cmp : T → T → Bool) {fuel : Nat} {s s1 : ListPair T}
    (h : PairInv s) (op : PairOp T) (hv : PairOp.valid fuel s op = true)
    (hr : applyPairOp cmp fuel s op = some s1) : PairInv s1 := by
  cases op with
  | call second op =>
    cases second with
    | false =>
      obtain ⟨xs, ys, h1, h2, hd⟩ := h
      simp only [applyPairOp, Option.map_eq_some'] at hr
      obtain ⟨⟨m2, l2⟩, e, e2⟩ := hr
      cases e2
      obtain ⟨xs1, q1, q2, q3⟩ := (applyListOp_step cmp h1 op hv e).other h2 hd
      exact ⟨xs1, ys, q1, q2, q3⟩
    | true =>
      obtain ⟨xs, ys, h2, h1, hd⟩ := h.swapped
      simp only [applyPairOp, Option.map_eq_some'] at hr
      obtain ⟨⟨m2, l2⟩, e, e2⟩ := hr
      cases e2
      obtain ⟨ys1, q1, q2, q3⟩ := (applyListOp_step cmp h2 op hv e).other h1 hd
      exact ⟨xs, ys1, q2, q1, fun a ha hb => q3 a hb ha⟩
  | copyAssign second =>
    simp only [PairOp.valid, decide_eq_true_eq] at hv
    cases second with
    | false =>
      obtain ⟨xs, ys, h1, h2, hd⟩ := h
      simp only [applyPairOp, Option.map_eq_some'] at hr
      obtain ⟨⟨m2, l2⟩, e, e2⟩ := hr
      cases e2
      obtain ⟨m3, l3, xs1, e3, q1, -, -, q4, q5, -, -, q8⟩ :=
        copyOrMoveList_spec h1 h2 hd (show xs.length + ys.length < fuel by
          rw [← h1.size_eq, ← h2.size_eq]; exact hv)
      simp only [LinkedList.copyAssignBody, if_neg (show ¬ (0 : Nat) = 1 by decide), e3,
        Option.some.injEq] at e
      cases e
      refine ⟨xs1, ys, q1, q5, ?_⟩
      intro a ha hb
      rw [q4] at ha
      rcases List.mem_cons.1 ha with e0 | hm
      · exact hd a (by simp [e0]) hb
      · rcases q8 a hm with c | c
        · exact hd a (List.mem_cons_of_mem _ c) hb
        · have := h2.alloc a hb
          omega
    | true =>
      obtain ⟨xs, ys, h2, h1, hd⟩ := h.swapped
      simp only [applyPairOp, Option.map_eq_some'] at hr
      obtain ⟨⟨m2, l2⟩, e, e2⟩ := hr
      cases e2
      obtain ⟨m3, l3, ys1, e3, q1, -, -, q4, q5, -, -, q8⟩ :=
        copyOrMoveList_spec h2 h1 hd (show ys.length + xs.length < fuel by
          rw [← h1.size_eq, ← h2.size_eq]; omega)
      simp only [LinkedList.copyAssignBody, if_neg (show ¬ (1 : Nat) = 0 by decide), e3,
        Option.some.injEq] at e
      cases e
      refine ⟨xs, ys1, q5, q1, ?_⟩
      intro a ha hb
      rw [q4] at hb
      rcases List.mem_cons.1 hb with e0 | hm
      · exact hd a (by simp [e0]) ha
      · rcases q8 a hm with c | c
        · exact hd a (List.mem_cons_of_mem _ c) ha
        · have := h1.alloc a ha
          omega
  | swap =>
    obtain ⟨xs, ys, h1, h2, hd⟩ := h
    simp only [applyPairOp, Option.map_eq_some'] at hr
    obtain ⟨⟨r2, la, lb⟩, e, e2⟩ := hr
    cases e2
    simp only [LinkedList.swap, if_neg (show ¬ (0 : Nat) = 1 by decide),
      LinkedList.swapValue] at e
    split at e
    · cases e
    · cases e
      exact ⟨ys, xs, h2, h1, fun a ha hb => hd a hb ha⟩

/-- A sequence of valid calls on two well-formed lists without a common node
leaves two such lists. -/
theorem runPairOps_inv (cmp : T → T → Bool) {fuel : Nat} :
    ∀ (ops : List (PairOp T)) (s s1 : ListPair T), PairInv s →
      pairOpsValid cmp fuel s ops = true → runPairOps cmp fuel s ops = some s1 → PairInv s1
  | [], s, s1, h, _, hr => by
    simp only [runPairOps, Option.some.injEq] at hr
    rw [← hr]
    exact h
  | op :: ops, s, s1, h, hv, hr => by
    simp only [runPairOps] at hr
    simp only [pairOpsValid, Bool.and_eq_true] at hv
    cases e : applyPairOp cmp fuel s op with
    | none => simp [e] at hr
    | some s2 =>
      rw [e] at hr hv
      exact runPairOps_inv cmp ops s2 s1 (applyPairOp_inv cmp h op hv.1 e) hv.2 hr

theorem ringEnd_run :
    runPairOps natLess 20 (ListPair.create sampleRegistry ListMem.init) ringOps
      = some ringEnd :=
  option_eq_some_getD _ _ (by decide!)

theorem ringOps_valid :
    pairOpsValid natLess 20 (ListPair.create sampleRegistry ListMem.init) ringOps = true := by
  decide!

theorem ListInv.ring_closed {m : ListMem T} {l : ListValue} {xs : List Nat}
    (h : ListInv m l xs) : RingClosed m l :=
  ⟨xs, traverse_list_spec h (by rw [h.size_eq]; omega), h.size_eq.symm,
    fun _ hn => h.next_prev hn⟩

/-- C39: in every state that two default-constructed lists in one node memory
reach through `insert`, `insertRange`, `emplace`, `emplaceFront`, `pushBack`,
`pushFront`, `popBack`, `popFront`, `erase`, `eraseRange`, `clear`, `sort`,
the statements of the copy assignment to one list from the other or from
itself (`LinkedList.copyAssignBody`), and `swap`
(positions being nodes of the list or `end()`, erased nodes and ranges being
of the list, pops being made on a list that is not empty, `sort` on fewer than
`2 ^ 62` nodes, loops with fuel above the size), each of the two lists has a
closed ring: following `next` from the head meets exactly `size` nodes and
then the head again, and for the head and every node of the ring
`n->next->prev` and `n->prev->next` are `n`.  A call without a result, such as
`insert` of zero elements, reaches no state; the copy assignment as written
does not compile (`LinkedList.copyAssign`), so its statements only add states
to the ones a program reaches. -/
theorem list_ring_invariant (cmp : T → T → Bool) (fuel : Nat) (r : RegMem) (m0 : ListMem T)
    (ops : List (PairOp T)) (s : ListPair T)
    (hv : pairOpsValid cmp fuel (ListPair.create r m0) ops = true)
    (hr : runPairOps cmp fuel (ListPair.create r m0) ops = some s) :
    RingClosed s.mem s.first ∧ RingClosed s.mem s.second := by
  obtain ⟨xs, ys, h1, h2, -⟩ := runPairOps_inv cmp ops _ s (create_pair_inv r m0) hv hr
  exact ⟨h1.ring_closed, h2.ring_closed⟩

theorem list_ring_invariant_witness :
    pairOpsValid natLess 20 (ListPair.create sampleRegistry ListMem.init) ringOps = true ∧
    runPairOps natLess 20 (ListPair.create sampleRegistry ListMem.init) ringOps
      = some ringEnd ∧
    RingClosed ringEnd.mem ringEnd.first ∧ RingClosed ringEnd.mem ringEnd.second :=
  ⟨ringOps_valid, ringEnd_run,
    list_ring_invariant natLess 20 sampleRegistry ListMem.init ringOps ringEnd ringOps_valid
      ringEnd_run⟩

/-- The run `ringOps` evaluated: the nodes and values of the two lists after
`sort`, after the copy assignment and at the end. -/
theorem ring_sample_run :
    ((runPairOps natLess 20 (ListPair.create sampleRegistry ListMem.init)
        (ringOps.take 6)).map
      (fun s => (LinkedList.traverse 20 s.mem s.first, LinkedList.contents 20 s.mem s.first,
        s.first.size)))
      = some (some [3, 5, 4, 2, 7, 6], some [5, 6, 6, 7, 8, 9], 6) ∧
    ((runPairOps natLess 20 (ListPair.create sampleRegistry ListMem.init)
        (ringOps.take 10)).map
      (fun s => (LinkedList.traverse 20 s.mem s.second,
        LinkedList.contents 20 s.mem s.second, s.second.size)))
      = some (some [9, 10, 11, 12, 13, 14], some [5, 6, 6, 7, 8, 9], 6) ∧
    (LinkedList.traverse 20 ringEnd.mem ringEnd.first,
      LinkedList.contents 20 ringEnd.mem ringEnd.first, ringEnd.first.head,
      ringEnd.first.size) = (some [9, 10, 11, 12, 13, 14], some [5, 6, 6, 7, 8, 9], 1, 6) ∧
    (LinkedList.traverse 20 ringEnd.mem ringEnd.second,
      LinkedList.contents 20 ringEnd.mem ringEnd.second, ringEnd.second.head,
      ringEnd.second.size) = (some [7], some [8], 0, 1) := by
  refine ⟨?_, ?_, ?_, ?_⟩ <;> decide!

end mylib
